import Mathlib

/-!
# JerryScript front end: lexer, literal pool, growable buffer, variable resolution

A shallow embedding of `jerry-core/parser/js/lexer.cpp`,
`jerry-core/parser/collections/array-list.cpp` and
`jerry-core/vm/opcodes-helpers-variables.cpp`, followed by the properties
proved about them.

Conventions of the embedding.

* A `char` / `ecma_char_t` is a natural number below 256: the lexer hands its
  `ecma_char_t` buffers to `strlen`, `strncmp` and `strncpy` through
  `(const char *)` casts, which fixes one byte per character.
* The process-wide variables of `lexer.cpp` are the fields of `lexer_state`.
* `PARSE_ERROR`, `PARSE_SORRY`, `JERRY_UNIMPLEMENTED`, a failed `JERRY_ASSERT`
  and an out-of-block memory access end the run: functions that can reach one
  return `Except lex_error`.
* `size_t`, `literal_index_t` and `ecma_length_t` quantities are unbounded
  naturals; addresses are integers, `0` being the null pointer.
-/

/-- Results of fallible functions are compared by evaluation. -/
instance Except.decEq {ε α : Type} [DecidableEq ε] [DecidableEq α] : DecidableEq (Except ε α)
  | .ok a, .ok b => if h : a = b then isTrue (by rw [h]) else isFalse (fun e => h (by cases e; rfl))
  | .error a, .error b =>
    if h : a = b then isTrue (by rw [h]) else isFalse (fun e => h (by cases e; rfl))
  | .ok _, .error _ => isFalse (fun e => by cases e)
  | .error _, .ok _ => isFalse (fun e => by cases e)

namespace Jerry

/-! ## Characters and C library helpers -/

/-- C `isdigit` in the "C" locale. -/
def isdigit (c : Nat) : Bool := decide (48 ≤ c) && decide (c ≤ 57)

/-- C `islower` in the "C" locale. -/
def islower (c : Nat) : Bool := decide (97 ≤ c) && decide (c ≤ 122)

/-- C `isupper` in the "C" locale. -/
def isupper (c : Nat) : Bool := decide (65 ≤ c) && decide (c ≤ 90)

/-- C `isalpha` in the "C" locale. -/
def isalpha (c : Nat) : Bool := islower c || isupper c

/-- C `isxdigit`. -/
def isxdigit (c : Nat) : Bool :=
  isdigit c || (decide (97 ≤ c) && decide (c ≤ 102)) || (decide (65 ≤ c) && decide (c ≤ 70))

/-- C `isspace` in the "C" locale: space, `\t`, `\n`, `\v`, `\f`, `\r`. -/
def isspace (c : Nat) : Bool := decide (c = 32) || (decide (9 ≤ c) && decide (c ≤ 13))

/-- C `strlen` of a zero-terminated string held in a list (the end of the list
reads as the terminator). -/
def strlen : List Nat → Nat
  | [] => 0
  | c :: cs => if c = 0 then 0 else strlen cs + 1

/-- The test `strncmp (a, b, n) == 0`: compares at most `n` characters and stops
at a terminator. -/
def strncmp_eq : List Nat → List Nat → Nat → Bool
  | _, _, 0 => true
  | a, b, n + 1 =>
    if a.headD 0 ≠ b.headD 0 then false
    else if a.headD 0 = 0 then true
    else strncmp_eq a.tail b.tail n

/-- The `n` bytes that `strncpy (dst, src, n)` stores: the characters of `src`
up to its terminator, then zero padding. -/
def strncpy_bytes : List Nat → Nat → List Nat
  | _, 0 => []
  | src, n + 1 =>
    if src.headD 0 = 0 then List.replicate (n + 1) 0
    else src.headD 0 :: strncpy_bytes src.tail n

/-- Modelled from the spec: `ecma_char_is_new_line` of ecma-helpers (not under
src/), the line feed of "escaped line terminators (spliced out; `\r\n` counted
once)". -/
def ecma_char_is_new_line (c : Nat) : Bool := decide (c = 10)

/-- Modelled from the spec: `ecma_char_is_carriage_return` of ecma-helpers (not
under src/), the carriage return of "`\r\n` counted once". -/
def ecma_char_is_carriage_return (c : Nat) : Bool := decide (c = 13)

/-- Modelled from the spec: `ecma_char_is_line_terminator` of ecma-helpers (not
under src/): with one-byte characters the line terminators are line feed and
carriage return. -/
def ecma_char_is_line_terminator (c : Nat) : Bool :=
  ecma_char_is_carriage_return c || ecma_char_is_new_line c

/-! ## Numbers -/

/-- Modelled from the spec: `ecma_number_t` is an IEEE double ("number
(double)"). A finite value is `(-1)^neg * m * 2^e`, kept normalised (`m` odd, or
`m = 0` and `e = 0`) by the operations below; a double has at most 53
significant bits. -/
inductive ecma_number_t where
  | finite (neg : Bool) (m : Nat) (e : Int)
  | inf (neg : Bool)
  | nan
  deriving DecidableEq, Repr

/-- The IEEE comparison `a == b` on normalised values: a NaN equals nothing, the
two zeros are equal, every other value equals only itself. -/
def num_eq : ecma_number_t → ecma_number_t → Bool
  | .nan, _ => false
  | _, .nan => false
  | .finite _ 0 _, .finite _ 0 _ => true
  | a, b => decide (a = b)

/-- Number of significant bits of a natural (0 for 0); `fuel` bounds the
recursion and `n` itself is always enough. -/
def bit_length_aux : Nat → Nat → Nat
  | 0, _ => 0
  | fuel + 1, n => if n = 0 then 0 else bit_length_aux fuel (n / 2) + 1

/-- Number of significant bits of a natural. -/
def bit_length (n : Nat) : Nat := bit_length_aux n n

/-- Strip the trailing zero bits of a non-zero mantissa into the exponent. -/
def normalize_aux : Nat → Nat → Int → Nat × Int
  | 0, m, e => (m, e)
  | fuel + 1, m, e => if m % 2 = 0 ∧ m ≠ 0 then normalize_aux fuel (m / 2) (e + 1) else (m, e)

/-- The normalised finite number `(-1)^neg * m * 2^e`, for a mantissa of at most
53 bits. -/
def fp_normalize (neg : Bool) (m : Nat) (e : Int) : ecma_number_t :=
  if m = 0 then .finite neg 0 0
  else .finite neg (normalize_aux m m e).1 (normalize_aux m m e).2

/-- Round the exact value `(-1)^neg * m * 2^e` to a double: round to nearest,
ties to even, overflow to infinity. Gradual underflow is not modelled (the
lexer only multiplies by a base and adds a digit). -/
def fp_round (neg : Bool) (m : Nat) (e : Int) : ecma_number_t :=
  if bit_length m ≤ 53 then
    (if 1024 < (bit_length m : Int) + e then .inf neg else fp_normalize neg m e)
  else
    let s := bit_length m - 53
    let q := m / 2 ^ s
    let r := m % 2 ^ s
    let h := 2 ^ (s - 1)
    let q1 := if h < r ∨ (r = h ∧ q % 2 = 1) then q + 1 else q
    if 1024 < (bit_length q1 : Int) + (e + s) then .inf neg else fp_normalize neg q1 (e + s)

/-- The conversion `(ecma_number_t) res` of an unsigned integer. -/
def fp_of_nat (n : Nat) : ecma_number_t := fp_round false n 0

/-- The product `x * k` of a number and a small positive integer constant. -/
def fp_mul_nat (x : ecma_number_t) (k : Nat) : ecma_number_t :=
  match x with
  | .finite neg m e => fp_round neg (m * k) e
  | .inf neg => if k = 0 then .nan else .inf neg
  | .nan => .nan

/-- The sum `x + (ecma_number_t) d` of a number and an unsigned integer. -/
def fp_add_nat (x : ecma_number_t) (d : Nat) : ecma_number_t :=
  match x with
  | .finite neg m e =>
    let lo := min e 0
    let a : Int := (m : Int) * 2 ^ (e - lo).toNat
    let b : Int := (d : Int) * 2 ^ (0 - lo).toNat
    let v : Int := (if neg then -a else a) + b
    if v = 0 then .finite (neg && decide (d = 0)) 0 0
    else fp_round (decide (v < 0)) v.natAbs lo
  | .inf neg => .inf neg
  | .nan => .nan

/-! ## Tokens, literals and the lexer state -/

/-- The keyword enumeration of lexer.h, in the order of the `decode_keyword`
table. -/
inductive keyword where
  | KW_NONE | KW_BREAK | KW_CASE | KW_CATCH | KW_CLASS | KW_CONST | KW_CONTINUE
  | KW_DEBUGGER | KW_DEFAULT | KW_DELETE | KW_DO | KW_ELSE | KW_ENUM | KW_EXPORT
  | KW_EXTENDS | KW_FINALLY | KW_FOR | KW_FUNCTION | KW_IF | KW_IN | KW_INSTANCEOF
  | KW_INTERFACE | KW_IMPORT | KW_IMPLEMENTS | KW_LET | KW_NEW | KW_PACKAGE
  | KW_PRIVATE | KW_PROTECTED | KW_PUBLIC | KW_RETURN | KW_STATIC | KW_SUPER
  | KW_SWITCH | KW_THIS | KW_THROW | KW_TRY | KW_TYPEOF | KW_VAR | KW_VOID
  | KW_WHILE | KW_WITH | KW_YIELD
  deriving DecidableEq, Repr

/-- The numeric value of a keyword, as stored in the `uid` field of a keyword
token (the position of the enumerator). -/
def keyword.uid (k : keyword) : Nat := k.toCtorIdx

/-- The token types of lexer.h that lexer.cpp produces or names. -/
inductive token_type where
  | TOK_EOF | TOK_NAME | TOK_KEYWORD | TOK_SMALL_INT | TOK_NUMBER | TOK_NULL
  | TOK_BOOL | TOK_NEWLINE | TOK_STRING | TOK_OPEN_BRACE | TOK_CLOSE_BRACE
  | TOK_OPEN_PAREN | TOK_CLOSE_PAREN | TOK_OPEN_SQUARE | TOK_CLOSE_SQUARE
  | TOK_DOT | TOK_SEMICOLON | TOK_COMMA | TOK_LESS | TOK_GREATER | TOK_LESS_EQ
  | TOK_GREATER_EQ | TOK_DOUBLE_EQ | TOK_NOT_EQ | TOK_TRIPLE_EQ
  | TOK_NOT_DOUBLE_EQ | TOK_PLUS | TOK_MINUS | TOK_MULT | TOK_MOD
  | TOK_DOUBLE_PLUS | TOK_DOUBLE_MINUS | TOK_LSHIFT | TOK_RSHIFT | TOK_RSHIFT_EX
  | TOK_AND | TOK_OR | TOK_XOR | TOK_NOT | TOK_COMPL | TOK_DOUBLE_AND
  | TOK_DOUBLE_OR | TOK_QUERY | TOK_COLON | TOK_EQ | TOK_PLUS_EQ | TOK_MINUS_EQ
  | TOK_MULT_EQ | TOK_MOD_EQ | TOK_LSHIFT_EQ | TOK_RSHIFT_EQ | TOK_RSHIFT_EX_EQ
  | TOK_AND_EQ | TOK_OR_EQ | TOK_XOR_EQ | TOK_DIV | TOK_DIV_EQ | TOK_EMPTY
  deriving DecidableEq, Repr

/-- A token: type, source offset, and literal index or inline value. -/
structure token where
  type : token_type
  loc : Nat
  uid : Nat
  deriving DecidableEq, Repr

/-- A literal: a string in the strings cache (address, length, hash), a
well-known ("magic") string id, or a number. -/
inductive literal where
  | LIT_STR (str : Int) (length : Nat) (hash : Nat)
  | LIT_MAGIC_STR (magic_str_id : Nat)
  | LIT_NUMBER (num : ecma_number_t)
  deriving DecidableEq, Repr

/-- The ways a lexer run ends without a token. -/
inductive lex_error where
  | unclosed_string (locus : Nat)
  | newline_in_string (locus : Nat)
  | malformed_escape_sequence (locus : Nat)
  | malformed_identifier_name (locus : Nat)
  | non_digit_in_integer (locus : Nat)
  | more_than_one_dot (locus : Nat)
  | more_than_one_exponent (locus : Nat)
  | non_digit_after_dot (locus : Nat)
  | non_digit_after_exponent (locus : Nat)
  | octal_in_strict_mode (locus : Nat)
  | unclosed_multiline_comment (locus : Nat)
  | unknown_character (locus : Nat)
  | unimplemented_nul
  | assertion_failed
  | invalid_memory_access
  | out_of_fuel
  deriving DecidableEq, Repr

/-- What lexer.cpp takes from the rest of the engine. -/
structure platform where
  /-- The table behind `ecma_get_magic_string_zt`: entry `id` is the
  zero-terminated well-known string of that id. -/
  magic_strings : List (List Nat)
  /-- The function `mem_heap_recommend_allocation_size`. -/
  mem_heap_recommend_allocation_size : Nat → Nat
  /-- The address of the block that `mem_heap_alloc_block` returns for the
  `k`-th allocation of the strings cache. -/
  mem_heap_alloc_block : Nat → Int
  /-- The hash that a string literal stores. -/
  hash : List Nat → Nat
  /-- The function `ecma_zt_string_to_number`. -/
  ecma_zt_string_to_number : List Nat → ecma_number_t

/-- The file-scope variables of lexer.cpp that the scanning functions use
(`saved_token`, `prev_token` and `sent_token`, which only `lexer_next_token`
and its companions touch, are in `lexer_ctx`). `src` is the script
(`buffer_start`, `buffer_size`), `pos` is `buffer - buffer_start`, `cache` is
the content of the block at `strings_cache`, of length `strings_cache_size`;
`allocations` counts the cache blocks handed out so far. -/
structure lexer_state where
  src : List Nat
  pos : Nat
  token_start : Option Nat
  strict_mode : Bool
  literals : List literal
  strings_cache : Int
  cache : List Nat
  strings_cache_size : Nat
  strings_cache_used_size : Nat
  allocations : Nat
  deriving DecidableEq, Repr

/-- The token `empty_token` set up by `lexer_init_source`. -/
def empty_token : token := ⟨.TOK_EMPTY, 0, 0⟩

/-- Port of `is_empty`. -/
def is_empty (tok : token) : Bool := decide (tok.type = .TOK_EMPTY)

/-- Port of `current_locus`. -/
def current_locus (st : lexer_state) : Nat :=
  match st.token_start with
  | none => st.pos
  | some ts => ts

/-- Port of `get_char`, the macro `LA (i)`. -/
def get_char (st : lexer_state) (i : Nat) : Nat :=
  if st.pos + i ≥ st.src.length then 0 else st.src.getD (st.pos + i) 0

/-- Port of `create_token`. -/
def create_token (st : lexer_state) (type : token_type) (uid : Nat) : token :=
  ⟨type, current_locus st - (if type = .TOK_STRING then 1 else 0), uid⟩

/-- The state after `lexer_init` (empty literal stack) and `lexer_init_source`,
with no strings cache allocated yet. -/
def lexer_init_source (source : List Nat) : lexer_state :=
  { src := source, pos := 0, token_start := none, strict_mode := false,
    literals := [], strings_cache := 0, cache := [], strings_cache_size := 0,
    strings_cache_used_size := 0, allocations := 0 }

/-- Port of `lexer_set_strict_mode`. -/
def lexer_set_strict_mode (st : lexer_state) (is_strict : Bool) : lexer_state :=
  { st with strict_mode := is_strict }

/-! ## Literal pool and strings cache -/

/-- The memory from address `p` to the end of the strings cache block; an
address outside the block is an invalid access. -/
def cache_from (st : lexer_state) (p : Int) : Except lex_error (List Nat) :=
  if st.strings_cache ≠ 0 ∧ st.strings_cache ≤ p ∧ p < st.strings_cache + st.strings_cache_size then
    .ok (st.cache.drop (p - st.strings_cache).toNat)
  else .error .invalid_memory_access

/-- Port of `string_equals_to_literal`: `str_p` holds the `str_p.length`
characters compared. -/
def string_equals_to_literal (P : platform) (st : lexer_state) (str_p : List Nat)
    (lit : literal) : Except lex_error Bool :=
  match lit with
  | .LIT_STR str length _ =>
    if length = str_p.length then do
      let mem ← cache_from st str
      pure (strncmp_eq mem str_p str_p.length)
    else pure false
  | .LIT_MAGIC_STR id =>
    let magic_str_p := P.magic_strings.getD id []
    pure (decide (strlen magic_str_p = str_p.length) && strncmp_eq magic_str_p str_p str_p.length)
  | .LIT_NUMBER _ => pure false

/-- Port of `adjust_string_ptrs`. -/
def adjust_string_ptrs (lit : literal) (diff : Int) : literal :=
  match lit with
  | .LIT_STR str length hash => .LIT_STR (str + diff) length hash
  | other => other

/-- Index of the first well-known string equal to `s`, if any. -/
def magic_string_find (magic : List (List Nat)) (s : List Nat) : Option Nat :=
  let i := magic.findIdx (fun m => decide (strlen m = s.length) && strncmp_eq s m s.length)
  if i < magic.length then some i else none

/-- Modelled from the spec: `create_literal_from_zt` of literal.cpp (not under
src/): a string equal to a well-known string becomes the "interned well-known
string id", any other becomes a string literal "offset+length+hash" at the
given address. -/
def create_literal_from_zt (P : platform) (ptr : Int) (s : List Nat) (length : Nat) : literal :=
  match magic_string_find P.magic_strings (s.take length) with
  | some id => .LIT_MAGIC_STR id
  | none => .LIT_STR ptr length (P.hash (s.take length))

/-- Modelled from the spec: `create_literal_from_str` of literal.cpp (not under
src/), the same classification as `create_literal_from_zt`. -/
def create_literal_from_str (P : platform) (ptr : Int) (s : List Nat) (length : Nat) : literal :=
  create_literal_from_zt P ptr s length

/-- Modelled from the spec: `create_literal_from_num` of literal.cpp (not under
src/): the "number (double)" literal. -/
def create_literal_from_num (num : ecma_number_t) : literal := .LIT_NUMBER num

/-- Overwrite `bytes.length` bytes of `mem` from offset `off`; writing past the
end of the block is an invalid access. -/
def mem_write (mem : List Nat) (off : Nat) (bytes : List Nat) : Except lex_error (List Nat) :=
  if off + bytes.length ≤ mem.length then
    .ok (mem.take off ++ bytes ++ mem.drop (off + bytes.length))
  else .error .invalid_memory_access

/-- The first half of `add_string_to_string_cache`: the reallocation, taken
when the string and its terminator do not fit. The new block receives the used
bytes of the old one (the rest reads as zero) and every string literal is moved
by the distance between the blocks. -/
def cache_grow (P : platform) (st : lexer_state) (length : Nat) : lexer_state :=
  if st.strings_cache_used_size + length ≥ st.strings_cache_size then
    let size := P.mem_heap_recommend_allocation_size (st.strings_cache_used_size + (length + 1))
    let temp := P.mem_heap_alloc_block st.allocations
    let fresh := List.replicate size 0
    if st.strings_cache ≠ 0 then
      { st with
        strings_cache_size := size
        cache := (st.cache.take st.strings_cache_used_size ++ fresh).take size
        literals := st.literals.map (fun l => adjust_string_ptrs l (temp - st.strings_cache))
        strings_cache := temp
        allocations := st.allocations + 1 }
    else
      { st with
        strings_cache_size := size
        cache := fresh
        strings_cache := temp
        allocations := st.allocations + 1 }
  else st

/-- Port of `add_string_to_string_cache`: after `cache_grow`, the string and a
terminator are stored at the end of the used part and the literal for that
address is returned. -/
def add_string_to_string_cache (P : platform) (st : lexer_state) (str : List Nat) :
    Except lex_error (literal × lexer_state) :=
  let length := str.length
  let st1 := cache_grow P st length
  if st1.strings_cache = 0 then .error .invalid_memory_access
  else
    match mem_write st1.cache st1.strings_cache_used_size (strncpy_bytes str length ++ [0]) with
    | .error e => .error e
    | .ok mem =>
      let here : Int := st1.strings_cache + st1.strings_cache_used_size
      let res := create_literal_from_zt P here (mem.drop st1.strings_cache_used_size) length
      .ok (res, { st1 with
        cache := mem
        strings_cache_used_size := (length + 1) + st1.strings_cache_used_size })

/-- The search loop of `convert_string_to_token` over the literals from index
`i` on: the index of the first string or magic-string literal equal to
`str_p`. -/
def find_string_literal (P : platform) (st : lexer_state) (str_p : List Nat) :
    List literal → Nat → Except lex_error (Option Nat)
  | [], _ => pure none
  | lit :: rest, i => do
    let hit ← match lit with
      | .LIT_NUMBER _ => pure false
      | l => string_equals_to_literal P st str_p l
    if hit then pure (some i) else find_string_literal P st str_p rest (i + 1)

/-- Port of `convert_string_to_token`; `str_p` holds exactly the `length`
characters of the call. -/
def convert_string_to_token (P : platform) (st : lexer_state) (tt : token_type)
    (str_p : List Nat) : Except lex_error (token × lexer_state) := do
  match ← find_string_literal P st str_p st.literals 0 with
  | some i => pure (create_token st tt i, st)
  | none =>
    match create_literal_from_str P 0 str_p str_p.length with
    | .LIT_STR _ _ _ =>
      let (lit, st1) ← add_string_to_string_cache P st str_p
      let st2 := { st1 with literals := st1.literals ++ [lit] }
      pure (create_token st2 tt (st2.literals.length - 1), st2)
    | lit =>
      let st2 := { st with literals := st.literals ++ [lit] }
      pure (create_token st2 tt (st2.literals.length - 1), st2)

/-- The search loop of `convert_seen_num_to_token` over the literals from
index `i` on. -/
def find_num_literal (num : ecma_number_t) : List literal → Nat → Option Nat
  | [], _ => none
  | .LIT_NUMBER n :: rest, i => if num_eq n num then some i else find_num_literal num rest (i + 1)
  | _ :: rest, i => find_num_literal num rest (i + 1)

/-- Port of `convert_seen_num_to_token`. -/
def convert_seen_num_to_token (st : lexer_state) (num : ecma_number_t) : token × lexer_state :=
  match find_num_literal num st.literals 0 with
  | some i => (create_token st .TOK_NUMBER i, st)
  | none =>
    let st1 := { st with literals := st.literals ++ [create_literal_from_num num] }
    (create_token st1 .TOK_NUMBER (st1.literals.length - 1), st1)

/-- Port of `lexer_get_literals_count`. -/
def lexer_get_literals_count (st : lexer_state) : Nat := st.literals.length

/-- Port of `lexer_get_literal_by_id`; the assertion `id < STACK_SIZE` is the
error case. -/
def lexer_get_literal_by_id (st : lexer_state) (id : Nat) : Except lex_error literal :=
  match st.literals.get? id with
  | some l => .ok l
  | none => .error .assertion_failed

/-- The characters a literal denotes in the current state: the `length`
characters at its address for a string literal, the zero-terminated table
entry for a magic string. -/
def literal_chars (P : platform) (st : lexer_state) : literal → Except lex_error (List Nat)
  | .LIT_STR str length _ => do
    let mem ← cache_from st str
    if length ≤ mem.length then pure (mem.take length) else throw .invalid_memory_access
  | .LIT_MAGIC_STR id =>
    pure ((P.magic_strings.getD id []).take (strlen (P.magic_strings.getD id [])))
  | .LIT_NUMBER _ => throw .assertion_failed

/-- What a literal stands for, read through the current strings cache: the
characters and hash of a string literal, the id of a magic string, the number
of a number literal. -/
inductive lit_value where
  | str (chars : List Nat) (hash : Nat)
  | magic (id : Nat)
  | num (n : ecma_number_t)
  deriving DecidableEq, Repr

/-- The value of a literal in the current state. -/
def literal_value (st : lexer_state) : literal → Except lex_error lit_value
  | .LIT_STR str length hash => do
    let mem ← cache_from st str
    if length ≤ mem.length then pure (.str (mem.take length) hash)
    else throw .invalid_memory_access
  | .LIT_MAGIC_STR id => pure (.magic id)
  | .LIT_NUMBER n => pure (.num n)

/-- A value handed to the insert path of the literal pool: a string with the
token type asked for, or a number. -/
inductive pool_value where
  | str (tt : token_type) (s : List Nat)
  | num (n : ecma_number_t)
  deriving DecidableEq, Repr

/-- One insertion: `convert_string_to_token` or `convert_seen_num_to_token`. -/
def insert_value (P : platform) (st : lexer_state) : pool_value → Except lex_error (token × lexer_state)
  | .str tt s => convert_string_to_token P st tt s
  | .num n => pure (convert_seen_num_to_token st n)

/-- A sequence of insertions: the tokens returned, in order, and the final
state. -/
def insert_all (P : platform) : lexer_state → List pool_value → Except lex_error (List token × lexer_state)
  | st, [] => pure ([], st)
  | st, v :: vs => do
    let (t, st1) ← insert_value P st v
    let (ts, st2) ← insert_all P st1 vs
    pure (t :: ts, st2)

/-- Whether two inserted values are structurally equal: strings with the same
characters, numbers equal under the IEEE comparison. -/
def pool_value_eq : pool_value → pool_value → Bool
  | .str _ s1, .str _ s2 => decide (s1 = s2)
  | .num a, .num b => num_eq a b
  | _, _ => false

/-- A string value without a NUL character (numbers always qualify). -/
def pool_value_nul_free : pool_value → Bool
  | .str _ s => !s.contains 0
  | .num _ => true

/-- A string literal lies inside the used part of the strings cache,
terminator included. -/
def lit_in_cache (st : lexer_state) : literal → Bool
  | .LIT_STR str length _ =>
    decide (st.strings_cache ≤ str)
      && decide (str + length < st.strings_cache + st.strings_cache_used_size)
  | _ => true

/-- The consistency of the strings cache and the literal stack: the block has
the recorded size, the used part fits, a null cache is empty, and every string
literal lies in the used part. -/
def pool_wf (st : lexer_state) : Prop :=
  st.cache.length = st.strings_cache_size
    ∧ st.strings_cache_used_size ≤ st.strings_cache_size
    ∧ (st.strings_cache = 0 → st.strings_cache_size = 0)
    ∧ ∀ lit ∈ st.literals, lit_in_cache st lit = true

/-- The conditions on the allocator that the spec states: the recommended size
is at least the requested one, and allocation succeeds. -/
def platform_ok (P : platform) : Prop :=
  (∀ n, n ≤ P.mem_heap_recommend_allocation_size n) ∧ (∀ k, P.mem_heap_alloc_block k ≠ 0)

/-! ## Lexer: helpers -/

/-- The characters of a C string literal of the source. -/
def cstr (s : String) : List Nat := s.toList.map Char.toNat

/-- Port of `new_token`. -/
def new_token (st : lexer_state) : lexer_state := { st with token_start := some st.pos }

/-- Port of `consume_char`. -/
def consume_char (st : lexer_state) : lexer_state := { st with pos := st.pos + 1 }

/-- The characters of the source from offset `a` up to offset `b`. -/
def src_slice (st : lexer_state) (a b : Nat) : List Nat := (st.src.drop a).take (b - a)

/-- Port of `hex_to_int`; the `default` case is `JERRY_UNREACHABLE`. -/
def hex_to_int (hex : Nat) : Except lex_error Nat :=
  if 48 ≤ hex ∧ hex ≤ 57 then .ok (hex - 48)
  else if hex = 97 ∨ hex = 65 then .ok 10
  else if hex = 98 ∨ hex = 66 then .ok 11
  else if hex = 99 ∨ hex = 67 then .ok 12
  else if hex = 100 ∨ hex = 68 then .ok 13
  else if hex = 101 ∨ hex = 69 then .ok 14
  else if hex = 102 ∨ hex = 70 then .ok 15
  else .error .assertion_failed

/-- Port of `convert_single_escape_character`: the returned flag and the
character written to `out_converted_char_p`. -/
def convert_single_escape_character (c : Nat) : Bool × Nat :=
  if c = 98 then (true, 8)            -- b
  else if c = 116 then (true, 9)      -- t
  else if c = 110 then (true, 10)     -- n
  else if c = 118 then (true, 11)     -- v
  else if c = 102 then (true, 12)     -- f
  else if c = 114 then (true, 13)     -- r
  else if c = 34 ∨ c = 39 ∨ c = 92 then (true, c)   -- double quote, quote, backslash
  else (false, c)

/-- The keyword table of `decode_keyword`, in source order. -/
def keywords : List (String × keyword) :=
  [("break", .KW_BREAK), ("case", .KW_CASE), ("catch", .KW_CATCH), ("class", .KW_CLASS),
   ("const", .KW_CONST), ("continue", .KW_CONTINUE), ("debugger", .KW_DEBUGGER),
   ("default", .KW_DEFAULT), ("delete", .KW_DELETE), ("do", .KW_DO), ("else", .KW_ELSE),
   ("enum", .KW_ENUM), ("export", .KW_EXPORT), ("extends", .KW_EXTENDS),
   ("finally", .KW_FINALLY), ("for", .KW_FOR), ("function", .KW_FUNCTION), ("if", .KW_IF),
   ("in", .KW_IN), ("instanceof", .KW_INSTANCEOF), ("interface", .KW_INTERFACE),
   ("import", .KW_IMPORT), ("implements", .KW_IMPLEMENTS), ("let", .KW_LET), ("new", .KW_NEW),
   ("package", .KW_PACKAGE), ("private", .KW_PRIVATE), ("protected", .KW_PROTECTED),
   ("public", .KW_PUBLIC), ("return", .KW_RETURN), ("static", .KW_STATIC),
   ("super", .KW_SUPER), ("switch", .KW_SWITCH), ("this", .KW_THIS), ("throw", .KW_THROW),
   ("try", .KW_TRY), ("typeof", .KW_TYPEOF), ("var", .KW_VAR), ("void", .KW_VOID),
   ("while", .KW_WHILE), ("with", .KW_WITH), ("yield", .KW_YIELD)]

/-- The table scan of `decode_keyword`: the keyword of the first entry whose
string has the given length and compares equal, `KW_NONE` if there is none. -/
def find_keyword (str_p : List Nat) : List (String × keyword) → keyword
  | [] => .KW_NONE
  | (k, id) :: rest =>
    if strlen (cstr k) = str_p.length ∧ strncmp_eq (cstr k) str_p str_p.length = true then id
    else find_keyword str_p rest

/-- The keywords that are reserved only in strict mode (the `switch` of
`decode_keyword`). -/
def is_strict_only_keyword : keyword → Bool
  | .KW_INTERFACE | .KW_IMPLEMENTS | .KW_LET | .KW_PACKAGE | .KW_PRIVATE
  | .KW_PROTECTED | .KW_PUBLIC | .KW_STATIC | .KW_YIELD => true
  | _ => false

/-- Port of `decode_keyword`; `str_p` holds exactly the `length` characters. -/
def decode_keyword (P : platform) (st : lexer_state) (str_p : List Nat) :
    Except lex_error (token × lexer_state) :=
  let kw := find_keyword str_p keywords
  if ¬ st.strict_mode ∧ is_strict_only_keyword kw then
    convert_string_to_token P st .TOK_NAME str_p
  else if kw ≠ .KW_NONE then
    pure (create_token st .TOK_KEYWORD kw.uid, st)
  else if strlen (cstr "false") = str_p.length
      ∧ strncmp_eq str_p (cstr "false") str_p.length = true then
    pure (create_token st .TOK_BOOL 0, st)
  else if strlen (cstr "true") = str_p.length
      ∧ strncmp_eq str_p (cstr "true") str_p.length = true then
    pure (create_token st .TOK_BOOL 1, st)
  else if strlen (cstr "null") = str_p.length
      ∧ strncmp_eq str_p (cstr "null") str_p.length = true then
    pure (create_token st .TOK_NULL 0, st)
  else
    pure (empty_token, st)

/-! ## Lexer: escape sequences -/

/-- The inner `for` loop of the `\u` / `\x` branch: read `n` characters of
`iter` into the 16-bit `char_code`; `none` when one is not a hex digit. -/
def read_hex_chars : Nat → List Nat → Nat → Except lex_error (Option (Nat × List Nat))
  | 0, iter, char_code => pure (some (char_code, iter))
  | n + 1, iter, char_code =>
    match iter with
    | [] => throw .assertion_failed
    | nc :: rest =>
      if ¬ isxdigit nc then pure none
      else if char_code / 4096 % 16 ≠ 0 then throw .assertion_failed
      else do
        let h ← hex_to_int nc
        read_hex_chars n rest ((char_code * 16 % 65536 + h) % 65536)

/-- The result of the decoding loop: the decoded buffer with the two
classification flags, or `none` when `is_correct_sequence` became false. -/
abbrev decoded := Option (List Nat × Bool × Bool)

/-- The `while` loop of `convert_string_to_token_transform_escape_seq`: `iter`
is the unread rest of the raw string, `buf` the characters decoded so far. -/
def transform_loop : Nat → List Nat → List Nat → Bool → Bool → Except lex_error decoded
  | 0, _, _, _, _ => throw .out_of_fuel
  | fuel + 1, iter, buf, lower, allowed =>
    let push (converted_char : Nat) (rest : List Nat) : Except lex_error decoded :=
      let lower1 := lower && islower converted_char
      let allowed1 := allowed && (islower converted_char || isalpha converted_char
        || isdigit converted_char || decide (converted_char = 36) || decide (converted_char = 95))
      transform_loop fuel rest (buf ++ [converted_char]) lower1 allowed1
    match iter with
    | [] => pure (some (buf, lower, allowed))
    | c :: rest =>
      if c ≠ 92 then push c rest
      else
        match rest with
        | [] => throw .assertion_failed
        | escape_character :: rest1 =>
          if isdigit escape_character then
            (if escape_character = 48 then throw .unimplemented_nul else pure none)
          else if escape_character = 117 ∨ escape_character = 120 then
            let hex_chars_num := if escape_character = 117 then 4 else 2
            if rest1.length < hex_chars_num then pure none
            else do
              match ← read_hex_chars hex_chars_num rest1 0 with
              | none => pure none
              | some (char_code, rest2) => push (char_code % 256) rest2
          else if ecma_char_is_line_terminator escape_character then
            match rest1 with
            | nc :: rest2 =>
              if escape_character = 13 ∧ nc = 10 then
                transform_loop fuel rest2 buf lower allowed
              else transform_loop fuel rest1 buf lower allowed
            | [] => transform_loop fuel rest1 buf lower allowed
          else push (convert_single_escape_character escape_character).2 rest1

/-- The decoding loop run on a whole raw string. -/
def transform_escape_seq (source_str : List Nat) : Except lex_error decoded :=
  transform_loop (source_str.length + 1) source_str [] true true

/-- Port of `convert_string_to_token_transform_escape_seq`; `source_str` is the
raw string, `locus` is `source_str_p - buffer_start`. -/
def convert_string_to_token_transform_escape_seq (P : platform) (st : lexer_state)
    (tok_type : token_type) (source_str : List Nat) (locus : Nat) :
    Except lex_error (token × lexer_state) := do
  if source_str.length = 0 then
    convert_string_to_token P st tok_type []
  else
    match ← transform_escape_seq source_str with
    | none => throw (.malformed_escape_sequence locus)
    | some (str_buf, every_char_islower, every_char_allowed_in_identifier) =>
      let (ret, st1) ←
        if tok_type = .TOK_NAME then
          (if every_char_islower then decode_keyword P st str_buf
           else if ¬ every_char_allowed_in_identifier then
             throw (.malformed_identifier_name locus)
           else pure (empty_token, st))
        else pure (empty_token, st)
      if is_empty ret then convert_string_to_token P st1 tok_type str_buf
      else pure (ret, st1)

/-! ## Lexer: names, numbers, strings -/

/-- The `for` loop of `parse_name` that checks the four hex digits of a `\u`
escape: the advanced state, or `none` when a character is not a hex digit. -/
def parse_name_hex : Nat → lexer_state → Option lexer_state
  | 0, st => some st
  | n + 1, st => if ¬ isxdigit (get_char st 0) then none else parse_name_hex n (consume_char st)

/-- The `while (true)` loop of `parse_name`. -/
def parse_name_loop : Nat → lexer_state → Except lex_error lexer_state
  | 0, _ => throw .out_of_fuel
  | fuel + 1, st =>
    let c := get_char st 0
    if ¬ isalpha c ∧ ¬ isdigit c ∧ c ≠ 36 ∧ c ≠ 95 ∧ c ≠ 92 then pure st
    else
      let st1 := consume_char st
      if c = 92 then
        if get_char st1 0 = 117 then
          match parse_name_hex 4 (consume_char st1) with
          | some st2 => parse_name_loop fuel st2
          | none => throw (.malformed_escape_sequence (current_locus st1))
        else throw (.malformed_escape_sequence (current_locus st1))
      else parse_name_loop fuel st1

/-- Port of `parse_name`. -/
def parse_name (P : platform) (st : lexer_state) : Except lex_error (token × lexer_state) := do
  let c := get_char st 0
  if ¬ (isalpha c ∨ c = 36 ∨ c = 95) then throw .assertion_failed
  let st0 := new_token st
  let st1 ← parse_name_loop (st0.src.length + 1 - st0.pos) st0
  let (known_token, st2) ← convert_string_to_token_transform_escape_seq P st1 .TOK_NAME
    (src_slice st1 st0.pos st1.pos) st0.pos
  pure (known_token, { st2 with token_start := none })

/-- The state of the three accumulation loops of `parse_number`: the 32-bit
`res`, `fp_res` and `is_overflow`. -/
structure num_acc where
  res : Nat
  fp_res : ecma_number_t
  is_overflow : Bool
  deriving DecidableEq, Repr

/-- One iteration of an accumulation loop of `parse_number` in base `base`. -/
def accumulate_step (base : Nat) (a : num_acc) (c : Nat) : Except lex_error num_acc := do
  let d ← hex_to_int c
  let a1 : num_acc :=
    if ¬ a.is_overflow then { a with res := (a.res * base + d) % 4294967296 }
    else { a with fp_res := fp_add_nat (fp_mul_nat a.fp_res base) d }
  if a1.res > 255 then pure { res := 0, fp_res := fp_of_nat a1.res, is_overflow := true }
  else pure a1

/-- An accumulation loop of `parse_number` over the characters of the token. -/
def accumulate (base : Nat) : List Nat → num_acc → Except lex_error num_acc
  | [], a => pure a
  | c :: cs, a => do
    let a1 ← accumulate_step base a c
    accumulate base cs a1

/-- The common end of the integer branches of `parse_number`. -/
def finish_integer (st : lexer_state) (a : num_acc) : token × lexer_state :=
  if a.is_overflow then
    let (known_token, st1) := convert_seen_num_to_token st a.fp_res
    (known_token, { st1 with token_start := none })
  else
    (create_token st .TOK_SMALL_INT (a.res % 256), { st with token_start := none })

/-- The `while (true)` loop of the hexadecimal branch of `parse_number`. -/
def parse_hex_loop : Nat → lexer_state → Except lex_error lexer_state
  | 0, _ => throw .out_of_fuel
  | fuel + 1, st =>
    if ¬ isxdigit (get_char st 0) then pure st else parse_hex_loop fuel (consume_char st)

/-- The `while (true)` loop of the decimal branch of `parse_number`, carrying
`is_fp` and `is_exp`. -/
def parse_decimal_loop : Nat → lexer_state → Bool → Bool →
    Except lex_error (lexer_state × Bool × Bool)
  | 0, _, _, _ => throw .out_of_fuel
  | fuel + 1, st, is_fp, is_exp =>
    let c := get_char st 0
    if is_fp ∧ c = 46 then throw (.more_than_one_dot st.pos)
    else if is_exp ∧ (c = 101 ∨ c = 69) then throw (.more_than_one_exponent st.pos)
    else if c = 46 then
      if isalpha (get_char st 1) ∨ get_char st 1 = 95 ∨ get_char st 1 = 36 then
        throw (.non_digit_after_dot st.pos)
      else parse_decimal_loop fuel (consume_char st) true is_exp
    else if c = 101 ∨ c = 69 then
      let st1 := if get_char st 1 = 45 ∨ get_char st 1 = 43 then consume_char st else st
      if ¬ isdigit (get_char st1 1) then throw (.non_digit_after_exponent st1.pos)
      else parse_decimal_loop fuel (consume_char st1) is_fp true
    else if isalpha c ∨ c = 95 ∨ c = 36 then throw (.non_digit_in_integer st.pos)
    else if ¬ isdigit c then pure (st, is_fp, is_exp)
    else parse_decimal_loop fuel (consume_char st) is_fp is_exp

/-- Port of `parse_number`. -/
def parse_number (P : platform) (st : lexer_state) : Except lex_error (token × lexer_state) := do
  let c := get_char st 0
  if ¬ (isdigit c ∨ c = 46) then throw .assertion_failed
  let is_hex : Bool := decide (c = 48) && (decide (get_char st 1 = 120) || decide (get_char st 1 = 88))
  if c = 46 ∧ isalpha (get_char st 1) then throw .assertion_failed
  let is_fp : Bool := decide (c = 46)
  let zero : num_acc := { res := 0, fp_res := .finite false 0 0, is_overflow := false }
  if is_hex then
    let st0 := new_token (consume_char (consume_char st))
    let st1 ← parse_hex_loop (st0.src.length + 1 - st0.pos) st0
    let c1 := get_char st1 0
    if isalpha c1 ∨ c1 = 95 ∨ c1 = 36 then throw (.non_digit_in_integer st1.pos)
    let a ← accumulate 16 (src_slice st1 st0.pos st1.pos) zero
    pure (finish_integer st1 a)
  else
    let st0 := new_token st
    let st0a := if is_fp then consume_char st0 else st0
    let (st1, is_fp1, is_exp1) ← parse_decimal_loop (st0a.src.length + 1 - st0a.pos) st0a is_fp false
    let tok := src_slice st1 st0.pos st1.pos
    if is_fp1 ∨ is_exp1 then
      let res := P.ecma_zt_string_to_number tok
      if res = .nan then throw .assertion_failed
      let (known_token, st2) := convert_seen_num_to_token st1 res
      pure (known_token, { st2 with token_start := none })
    else if tok.headD 0 = 48 ∧ tok.length ≠ 1 then
      if st1.strict_mode then throw (.octal_in_strict_mode st0.pos)
      let a ← accumulate 8 tok zero
      pure (finish_integer st1 a)
    else
      let a ← accumulate 10 tok zero
      pure (finish_integer st1 a)

/-- The `do ... while (c != end_char)` loop of `parse_string`. -/
def parse_string_loop (end_char : Nat) : Nat → lexer_state → Except lex_error lexer_state
  | 0, _ => throw .out_of_fuel
  | fuel + 1, st =>
    let c := get_char st 0
    let st1 := consume_char st
    if c = 0 then throw (.unclosed_string (current_locus st1))
    else if ecma_char_is_line_terminator c then throw (.newline_in_string (current_locus st1))
    else
      let st2 :=
        if c = 92 then
          let nc := get_char st1 0
          if (convert_single_escape_character nc).1 then consume_char st1
          else if ecma_char_is_line_terminator nc then
            let st3 := consume_char st1
            if ecma_char_is_carriage_return nc ∧ ecma_char_is_new_line (get_char st3 0) then
              consume_char st3
            else st3
          else st1
        else st1
      if c ≠ end_char then parse_string_loop end_char fuel st2 else pure st2

/-- Port of `parse_string`. -/
def parse_string (P : platform) (st : lexer_state) : Except lex_error (token × lexer_state) := do
  let c := get_char st 0
  if ¬ (c = 39 ∨ c = 34) then throw .assertion_failed
  let st0 := new_token (consume_char st)
  let end_char := if c = 34 then 34 else 39
  let st1 ← parse_string_loop end_char (st0.src.length + 2 - st0.pos) st0
  let (ret, st2) ← convert_string_to_token_transform_escape_seq P st1 .TOK_STRING
    (src_slice st1 st0.pos (st1.pos - 1)) st0.pos
  pure (ret, { st2 with token_start := none })

/-! ## Lexer: white space, comments, punctuators, the token loop -/

/-- Port of `grobble_whitespaces` (the `while` loop, bounded by `fuel`). -/
def grobble_whitespaces_loop : Nat → lexer_state → lexer_state
  | 0, st => st
  | fuel + 1, st =>
    let c := get_char st 0
    if isspace c ∧ c ≠ 10 then grobble_whitespaces_loop fuel (consume_char st) else st

/-- Port of `grobble_whitespaces`. -/
def grobble_whitespaces (st : lexer_state) : lexer_state :=
  grobble_whitespaces_loop (st.src.length + 1 - st.pos) st

/-- The `while (true)` loop of `replace_comment_by_newline`. -/
def comment_loop (multiline : Bool) : Nat → lexer_state → Bool → Except lex_error (Bool × lexer_state)
  | 0, _, _ => throw .out_of_fuel
  | fuel + 1, st, was_newlines =>
    let c := get_char st 0
    if ¬ multiline ∧ (c = 10 ∨ c = 0) then pure (false, st)
    else if multiline ∧ c = 42 ∧ get_char st 1 = 47 then
      pure (was_newlines, consume_char (consume_char st))
    else
      let was_newlines1 := if multiline ∧ c = 10 then true else was_newlines
      if multiline ∧ c = 0 then throw (.unclosed_multiline_comment st.pos)
      else comment_loop multiline fuel (consume_char st) was_newlines1

/-- Port of `replace_comment_by_newline`. -/
def replace_comment_by_newline (st : lexer_state) : Except lex_error (Bool × lexer_state) := do
  if get_char st 0 ≠ 47 then throw .assertion_failed
  if ¬ (get_char st 1 = 47 ∨ get_char st 1 = 42) then throw .assertion_failed
  let multiline : Bool := decide (get_char st 1 = 42)
  let st1 := consume_char (consume_char st)
  comment_loop multiline (st1.src.length + 1 - st1.pos) st1 false

/-- The macro `RETURN_PUNC_EX (TOK, NUM)`. -/
def return_punc_ex (st : lexer_state) (tok : token_type) (num : Nat) : token × lexer_state :=
  (create_token st tok 0, { st with pos := st.pos + num })

/-- The macro `IF_LA_N_IS (CHAR, THEN_TOK, ELSE_TOK, NUM)`. -/
def if_la_n_is (st : lexer_state) (ch : Nat) (then_tok else_tok : token_type) (num : Nat) :
    token × lexer_state :=
  if get_char st num = ch then return_punc_ex st then_tok (num + 1)
  else return_punc_ex st else_tok num

/-- The macro `IF_LA_IS_OR (CHAR1, THEN1_TOK, CHAR2, THEN2_TOK, ELSE_TOK)`. -/
def if_la_is_or (st : lexer_state) (ch1 : Nat) (then1_tok : token_type) (ch2 : Nat)
    (then2_tok else_tok : token_type) : token × lexer_state :=
  if get_char st 1 = ch1 then return_punc_ex st then1_tok 2
  else if get_char st 1 = ch2 then return_punc_ex st then2_tok 2
  else return_punc_ex st else_tok 1

/-- The `switch (c)` at the end of `lexer_next_token_private`. -/
def lex_punctuator (st : lexer_state) : Except lex_error (token × lexer_state) :=
  let c := get_char st 0
  if c = 123 then pure (return_punc_ex st .TOK_OPEN_BRACE 1)
  else if c = 125 then pure (return_punc_ex st .TOK_CLOSE_BRACE 1)
  else if c = 40 then pure (return_punc_ex st .TOK_OPEN_PAREN 1)
  else if c = 41 then pure (return_punc_ex st .TOK_CLOSE_PAREN 1)
  else if c = 91 then pure (return_punc_ex st .TOK_OPEN_SQUARE 1)
  else if c = 93 then pure (return_punc_ex st .TOK_CLOSE_SQUARE 1)
  else if c = 46 then pure (return_punc_ex st .TOK_DOT 1)
  else if c = 59 then pure (return_punc_ex st .TOK_SEMICOLON 1)
  else if c = 44 then pure (return_punc_ex st .TOK_COMMA 1)
  else if c = 126 then pure (return_punc_ex st .TOK_COMPL 1)
  else if c = 58 then pure (return_punc_ex st .TOK_COLON 1)
  else if c = 63 then pure (return_punc_ex st .TOK_QUERY 1)
  else if c = 42 then pure (if_la_n_is st 61 .TOK_MULT_EQ .TOK_MULT 1)
  else if c = 47 then pure (if_la_n_is st 61 .TOK_DIV_EQ .TOK_DIV 1)
  else if c = 94 then pure (if_la_n_is st 61 .TOK_XOR_EQ .TOK_XOR 1)
  else if c = 37 then pure (if_la_n_is st 61 .TOK_MOD_EQ .TOK_MOD 1)
  else if c = 43 then pure (if_la_is_or st 43 .TOK_DOUBLE_PLUS 61 .TOK_PLUS_EQ .TOK_PLUS)
  else if c = 45 then pure (if_la_is_or st 45 .TOK_DOUBLE_MINUS 61 .TOK_MINUS_EQ .TOK_MINUS)
  else if c = 38 then pure (if_la_is_or st 38 .TOK_DOUBLE_AND 61 .TOK_AND_EQ .TOK_AND)
  else if c = 124 then pure (if_la_is_or st 124 .TOK_DOUBLE_OR 61 .TOK_OR_EQ .TOK_OR)
  else if c = 60 then
    (if get_char st 1 = 60 then pure (if_la_n_is st 61 .TOK_LSHIFT_EQ .TOK_LSHIFT 2)
     else if get_char st 1 = 61 then pure (return_punc_ex st .TOK_LESS_EQ 2)
     else pure (return_punc_ex st .TOK_LESS 1))
  else if c = 62 then
    (if get_char st 1 = 62 then
       (if get_char st 2 = 62 then pure (if_la_n_is st 61 .TOK_RSHIFT_EX_EQ .TOK_RSHIFT_EX 3)
        else if get_char st 2 = 61 then pure (return_punc_ex st .TOK_RSHIFT_EQ 3)
        else pure (return_punc_ex st .TOK_RSHIFT 2))
     else if get_char st 1 = 61 then pure (return_punc_ex st .TOK_GREATER_EQ 2)
     else pure (return_punc_ex st .TOK_GREATER 1))
  else if c = 61 then
    (if get_char st 1 = 61 then pure (if_la_n_is st 61 .TOK_TRIPLE_EQ .TOK_DOUBLE_EQ 2)
     else pure (return_punc_ex st .TOK_EQ 1))
  else if c = 33 then
    (if get_char st 1 = 61 then pure (if_la_n_is st 61 .TOK_NOT_DOUBLE_EQ .TOK_NOT_EQ 2)
     else pure (return_punc_ex st .TOK_NOT 1))
  else throw (.unknown_character st.pos)

/-- Port of `lexer_next_token_private`; `fuel` bounds the calls the function
makes to itself after white space and comments. -/
def lexer_next_token_private_aux (P : platform) :
    Nat → lexer_state → Except lex_error (token × lexer_state)
  | 0, _ => throw .out_of_fuel
  | fuel + 1, st =>
    let c := get_char st 0
    if st.token_start ≠ none then throw .assertion_failed
    else if isalpha c ∨ c = 36 ∨ c = 95 then parse_name P st
    else if isdigit c ∨ (c = 46 ∧ isdigit (get_char st 1)) then parse_number P st
    else if c = 10 then
      let st1 := consume_char st
      pure (create_token st1 .TOK_NEWLINE 0, st1)
    else if c = 0 then pure (create_token st .TOK_EOF 0, st)
    else if c = 39 ∨ c = 34 then parse_string P st
    else if isspace c then lexer_next_token_private_aux P fuel (grobble_whitespaces st)
    else if c = 47 ∧ get_char st 1 = 42 then do
      let (nl, st1) ← replace_comment_by_newline st
      if nl then pure (⟨.TOK_NEWLINE, 0, 0⟩, st1)
      else lexer_next_token_private_aux P fuel st1
    else if c = 47 ∧ get_char st 1 = 47 then do
      let (_, st1) ← replace_comment_by_newline st
      lexer_next_token_private_aux P fuel st1
    else lex_punctuator st

/-- Port of `lexer_next_token_private`. -/
def lexer_next_token_private (P : platform) (st : lexer_state) :
    Except lex_error (token × lexer_state) :=
  lexer_next_token_private_aux P (st.src.length + 1 - st.pos) st

/-- The whole lexer: the scanning state and the three token registers
`saved_token`, `prev_token`, `sent_token`. -/
structure lexer_ctx where
  st : lexer_state
  saved_token : token
  prev_token : token
  sent_token : token
  deriving DecidableEq, Repr

/-- The lexer after `lexer_init` and `lexer_init_source`: the three token
registers hold `empty_token`. -/
def lexer_init (source : List Nat) : lexer_ctx :=
  { st := lexer_init_source source, saved_token := empty_token, prev_token := empty_token,
    sent_token := empty_token }

/-- Port of `lexer_next_token` (the line dump is diagnostic output only). -/
def lexer_next_token (P : platform) (cx : lexer_ctx) : Except lex_error (token × lexer_ctx) :=
  if ¬ is_empty cx.saved_token then
    let cx1 := { cx with sent_token := cx.saved_token, saved_token := empty_token }
    pure (cx1.sent_token, cx1)
  else do
    let cx1 := { cx with prev_token := cx.sent_token }
    let (tok, st2) ← lexer_next_token_private P cx1.st
    let cx3 := { cx1 with st := st2, sent_token := tok }
    pure (cx3.sent_token, cx3)

/-- Port of `lexer_save_token`. -/
def lexer_save_token (cx : lexer_ctx) (tok : token) : Except lex_error lexer_ctx :=
  if ¬ is_empty cx.saved_token then throw .assertion_failed
  else pure { cx with saved_token := tok }

/-- Port of `lexer_prev_token`. -/
def lexer_prev_token (cx : lexer_ctx) : token := cx.prev_token

/-- The `for` loop of `lexer_locus_to_line_and_column` over the characters
before the locus, from line `l` and column `c`. -/
def locus_loop : List Nat → Nat → Nat → Nat × Nat
  | [], l, c => (l, c)
  | b :: rest, l, c => if b = 10 then locus_loop rest (l + 1) 0 else locus_loop rest l (c + 1)

/-- Port of `lexer_locus_to_line_and_column`: the pair `(line, column)`. -/
def lexer_locus_to_line_and_column (st : lexer_state) (locus : Nat) : Except lex_error (Nat × Nat) :=
  if ¬ locus ≤ st.src.length then throw .assertion_failed
  else pure (locus_loop (st.src.take locus) 0 0)

/-- Port of `lexer_keyword_to_string`; `KW_NONE` is the unreachable default. -/
def lexer_keyword_to_string : keyword → Except lex_error String
  | .KW_NONE => throw .assertion_failed
  | .KW_BREAK => pure "break" | .KW_CASE => pure "case" | .KW_CATCH => pure "catch"
  | .KW_CLASS => pure "class" | .KW_CONST => pure "const" | .KW_CONTINUE => pure "continue"
  | .KW_DEBUGGER => pure "debugger" | .KW_DEFAULT => pure "default"
  | .KW_DELETE => pure "delete" | .KW_DO => pure "do" | .KW_ELSE => pure "else"
  | .KW_ENUM => pure "enum" | .KW_EXPORT => pure "export" | .KW_EXTENDS => pure "extends"
  | .KW_FINALLY => pure "finally" | .KW_FOR => pure "for" | .KW_FUNCTION => pure "function"
  | .KW_IF => pure "if" | .KW_IN => pure "in" | .KW_INSTANCEOF => pure "instanceof"
  | .KW_INTERFACE => pure "interface" | .KW_IMPORT => pure "import"
  | .KW_IMPLEMENTS => pure "implements" | .KW_LET => pure "let" | .KW_NEW => pure "new"
  | .KW_PACKAGE => pure "package" | .KW_PRIVATE => pure "private"
  | .KW_PROTECTED => pure "protected" | .KW_PUBLIC => pure "public"
  | .KW_RETURN => pure "return" | .KW_STATIC => pure "static" | .KW_SUPER => pure "super"
  | .KW_SWITCH => pure "switch" | .KW_THIS => pure "this" | .KW_THROW => pure "throw"
  | .KW_TRY => pure "try" | .KW_TYPEOF => pure "typeof" | .KW_VAR => pure "var"
  | .KW_VOID => pure "void" | .KW_WHILE => pure "while" | .KW_WITH => pure "with"
  | .KW_YIELD => pure "yield"

/-- Port of `lexer_token_type_to_string`; `TOK_EMPTY` falls to the unreachable
default. -/
def lexer_token_type_to_string : token_type → Except lex_error String
  | .TOK_EOF => pure "End of file" | .TOK_NAME => pure "Identifier"
  | .TOK_KEYWORD => pure "Keyword" | .TOK_SMALL_INT => pure "Number"
  | .TOK_NUMBER => pure "Number" | .TOK_NULL => pure "null" | .TOK_BOOL => pure "bool"
  | .TOK_NEWLINE => pure "newline" | .TOK_STRING => pure "string"
  | .TOK_OPEN_BRACE => pure "\x7b" | .TOK_CLOSE_BRACE => pure "\x7d"
  | .TOK_OPEN_PAREN => pure "(" | .TOK_CLOSE_PAREN => pure ")"
  | .TOK_OPEN_SQUARE => pure "[" | .TOK_CLOSE_SQUARE => pure "]"
  | .TOK_DOT => pure "." | .TOK_SEMICOLON => pure ";" | .TOK_COMMA => pure ","
  | .TOK_LESS => pure "<" | .TOK_GREATER => pure ">" | .TOK_LESS_EQ => pure "<="
  | .TOK_GREATER_EQ => pure "<=" | .TOK_DOUBLE_EQ => pure "==" | .TOK_NOT_EQ => pure "!="
  | .TOK_TRIPLE_EQ => pure "===" | .TOK_NOT_DOUBLE_EQ => pure "!==" | .TOK_PLUS => pure "+"
  | .TOK_MINUS => pure "-" | .TOK_MULT => pure "*" | .TOK_MOD => pure "%%"
  | .TOK_DOUBLE_PLUS => pure "++" | .TOK_DOUBLE_MINUS => pure "--" | .TOK_LSHIFT => pure "<<"
  | .TOK_RSHIFT => pure ">>" | .TOK_RSHIFT_EX => pure ">>>" | .TOK_AND => pure "&"
  | .TOK_OR => pure "|" | .TOK_XOR => pure "^" | .TOK_NOT => pure "!" | .TOK_COMPL => pure "~"
  | .TOK_DOUBLE_AND => pure "&&" | .TOK_DOUBLE_OR => pure "||" | .TOK_QUERY => pure "?"
  | .TOK_COLON => pure ":" | .TOK_EQ => pure "=" | .TOK_PLUS_EQ => pure "+="
  | .TOK_MINUS_EQ => pure "-=" | .TOK_MULT_EQ => pure "*=" | .TOK_MOD_EQ => pure "%%="
  | .TOK_LSHIFT_EQ => pure "<<=" | .TOK_RSHIFT_EQ => pure ">>=" | .TOK_RSHIFT_EX_EQ => pure ">>>="
  | .TOK_AND_EQ => pure "&=" | .TOK_OR_EQ => pure "|=" | .TOK_XOR_EQ => pure "^="
  | .TOK_DIV => pure "/" | .TOK_DIV_EQ => pure "/="
  | .TOK_EMPTY => throw .assertion_failed

/-- Repeated `lexer_next_token` up to and including the end-of-file token, at
most `n` calls: the tokens returned, in order. -/
def lex_tokens (P : platform) : Nat → lexer_ctx → Except lex_error (List token × lexer_ctx)
  | 0, cx => pure ([], cx)
  | n + 1, cx => do
    let (t, cx1) ← lexer_next_token P cx
    if t.type = .TOK_EOF then pure ([t], cx1)
    else do
      let (ts, cx2) ← lex_tokens P n cx1
      pure (t :: ts, cx2)

/-- A platform for evaluating the lexer on concrete sources: a short table of
well-known strings, blocks sized in 64-byte chunks, a new address for each
block. -/
def sample_platform : platform :=
  { magic_strings := [cstr "", cstr "null", cstr "true", cstr "false", cstr "length"]
    mem_heap_recommend_allocation_size := fun n => (n + 63) / 64 * 64
    mem_heap_alloc_block := fun k => 4096 + 1024 * k
    hash := fun s => s.sum % 256
    ecma_zt_string_to_number := fun _ => .finite false 3 (-1) }

/-- A platform whose allocator returns exactly the requested size, so that
every insertion of a new string reallocates the strings cache. -/
def tight_platform : platform :=
  { sample_platform with mem_heap_recommend_allocation_size := fun n => n }

/-! ## Growable buffer (array-list.cpp) -/

/-- The ways an array list operation ends without a result. -/
inductive al_error where
  | assertion_failed
  | invalid_memory_access
  | division_by_zero
  deriving DecidableEq, Repr

/-- What array-list.cpp takes from the rest of the engine:
`sizeof (array_list_header)` and `mem_heap_recommend_allocation_size`. -/
structure al_platform where
  sizeof_header : Nat
  mem_heap_recommend_allocation_size : Nat → Nat

/-- An array list block: the three header fields and the bytes that follow the
header (`size - sizeof (array_list_header)` of them). -/
structure array_list where
  element_size : Nat
  len : Nat
  size : Nat
  data : List Nat
  deriving DecidableEq, Repr

/-- Port of `array_list_init`: a zeroed block of the recommended size. -/
def array_list_init (A : al_platform) (element_size : Nat) : array_list :=
  let size := A.mem_heap_recommend_allocation_size A.sizeof_header
  { element_size := element_size % 256, len := 0, size := size,
    data := List.replicate (size - A.sizeof_header) 0 }

/-- The first half of `array_list_append`: the reallocation, taken when one
more element does not fit. The new block receives the old one, the rest is
zeroed. -/
def array_list_grow (A : al_platform) (al : array_list) : Except al_error array_list :=
  if (al.len + 1) * al.element_size + A.sizeof_header > al.size then
    let size := A.mem_heap_recommend_allocation_size (al.size + al.element_size)
    if ¬ size > al.size then .error .assertion_failed
    else .ok { al with size := size, data := al.data ++ List.replicate (size - al.size) 0 }
  else .ok al

/-- Port of `array_list_append`; `element` holds the bytes at the pointer. The
`memcpy` of the element must stay inside the block and inside the object
pointed to. -/
def array_list_append (A : al_platform) (al : array_list) (element : List Nat) :
    Except al_error array_list :=
  match array_list_grow A al with
  | .error err => .error err
  | .ok h =>
    if element.length < h.element_size then .error .invalid_memory_access
    else if ¬ (A.sizeof_header + h.len * h.element_size + h.element_size ≤ h.size
        ∧ h.len * h.element_size + h.element_size ≤ h.data.length) then
      .error .invalid_memory_access
    else
      .ok { h with
        data := h.data.take (h.len * h.element_size) ++ element.take h.element_size
          ++ h.data.drop (h.len * h.element_size + h.element_size)
        len := h.len + 1 }

/-- Port of `array_list_drop_last`. -/
def array_list_drop_last (al : array_list) : Except al_error array_list :=
  if ¬ al.len > 0 then throw .assertion_failed
  else pure { al with len := al.len - 1 }

/-- Port of `array_list_element`: `none` is the NULL result, otherwise the
`element_size` bytes at the returned pointer. -/
def array_list_element (al : array_list) (index : Nat) : Option (List Nat) :=
  if al.len ≤ index then none
  else some ((al.data.drop (index * al.element_size)).take al.element_size)

/-- Port of `array_list_set_element`; `elem` holds the bytes at the pointer. -/
def array_list_set_element (al : array_list) (index : Nat) (elem : List Nat) :
    Except al_error array_list :=
  if ¬ index < al.len then .error .assertion_failed
  else if elem.length < al.element_size then .error .invalid_memory_access
  else if ¬ (index * al.element_size + al.element_size ≤ al.data.length) then
    .error .invalid_memory_access
  else
    .ok { al with
      data := al.data.take (index * al.element_size) ++ elem.take al.element_size
        ++ al.data.drop (index * al.element_size + al.element_size) }

/-- Port of `array_list_last_element`. -/
def array_list_last_element (al : array_list) (index : Nat) : Option (List Nat) :=
  if index = 0 ∨ index > al.len then none
  else array_list_element al (al.len - index)

/-- Port of `array_list_set_last_element`. -/
def array_list_set_last_element (al : array_list) (index : Nat) (elem : List Nat) :
    Except al_error array_list :=
  if ¬ (index ≠ 0 ∧ index ≤ al.len) then .error .assertion_failed
  else array_list_set_element al (al.len - index) elem

/-- Port of `array_list_init_from_raw`; `data` holds the bytes at the pointer,
of which `data_size` are copied behind the header of a zeroed block. -/
def array_list_init_from_raw (A : al_platform) (element_size : Nat) (data : List Nat)
    (data_size : Nat) : Except al_error array_list :=
  let size := A.mem_heap_recommend_allocation_size (A.sizeof_header + data_size)
  if element_size = 0 then .error .division_by_zero
  else if data.length < data_size ∨ size < A.sizeof_header + data_size then
    .error .invalid_memory_access
  else
    .ok { element_size := element_size % 256, len := data_size / element_size, size := size,
          data := data.take data_size
            ++ List.replicate (size - A.sizeof_header - data_size) 0 }

/-- Port of `array_list_len`. -/
def array_list_len (al : array_list) : Nat := al.len

/-- Appending the elements of a list in order, each call on the list returned
by the previous one. -/
def array_list_append_all (A : al_platform) : array_list → List (List Nat) → Except al_error array_list
  | al, [] => pure al
  | al, e :: es => do
    let al1 ← array_list_append A al e
    array_list_append_all A al1 es

/-! ## Variable resolution (opcodes-helpers-variables.cpp) -/

/-- An ecma value: the empty value, a simple value, or a number, string or
object referred to by its address. -/
inductive ecma_value_t where
  | empty
  | simple (v : Nat)
  | number (addr : Nat)
  | string (addr : Nat)
  | object (addr : Nat)
  deriving DecidableEq, Repr

/-- A completion value: Normal, Throw, an abrupt control transfer, or Empty. -/
inductive ecma_completion_value_t where
  | empty
  | normal (v : ecma_value_t)
  | throw (v : ecma_value_t)
  | control (kind : Nat) (v : ecma_value_t)
  deriving DecidableEq, Repr

/-- A call made to the environment collaborator. -/
inductive env_call where
  | resolve_reference_base (lex_env : Nat) (name : List Nat)
  | get_value (base : Option Nat) (name : List Nat) (is_strict : Bool)
  | put_value (base : Option Nat) (name : List Nat) (is_strict : Bool) (value : ecma_value_t)
  deriving DecidableEq, Repr

/-- The ways a variable access ends without a completion value. -/
inductive vm_error where
  | assertion_failed
  deriving DecidableEq, Repr

/-- The collaborators of variable resolution: the literal table of the
bytecode, the names of literals, the lexical environments and the value
copy. -/
structure vm_platform where
  /-- `serializer_get_literal_id_by_uid (var_idx, opcodes_p, pos)`; `none` is
  `INVALID_LITERAL`. -/
  serializer_get_literal_id_by_uid : Nat → Nat → Option Nat
  /-- The string that `ecma_new_ecma_string_on_stack_from_lit_index` builds. -/
  lit_string : Nat → List Nat
  ecma_op_resolve_reference_base : Nat → List Nat → Option Nat
  ecma_op_get_value_lex_env_base : Option Nat → List Nat → Bool → ecma_completion_value_t
  ecma_copy_value : ecma_value_t → Bool → ecma_value_t
  ecma_op_put_value_lex_env_base :
    Option Nat → List Nat → Bool → ecma_value_t → ecma_completion_value_t

/-- The interpreter context `int_data_t`: the position, the register range,
the register array of the stack frame, the lexical environment and the strict
flag. -/
structure int_data_t where
  pos : Nat
  min_reg_num : Nat
  max_reg_num : Nat
  regs : List ecma_value_t
  lex_env_p : Nat
  is_strict : Bool
  deriving DecidableEq, Repr

/-- Port of `is_reg_variable`. -/
def is_reg_variable (int_data : int_data_t) (var_idx : Nat) : Bool :=
  decide (var_idx ≥ int_data.min_reg_num) && decide (var_idx ≤ int_data.max_reg_num)

/-- Port of `do_strict_eval_arguments_check`: whether its assertion holds. -/
def do_strict_eval_arguments_check (ref_base_lex_env_p : Option Nat) (var_name_string : List Nat)
    (is_strict : Bool) : Bool :=
  let is_check_failed :=
    is_strict && ref_base_lex_env_p.isSome
      && (decide (var_name_string = cstr "eval") || decide (var_name_string = cstr "arguments"))
  !is_check_failed

/-- Port of `get_variable_value`: the completion value and the calls made to
the environment collaborator, in order. -/
def get_variable_value (V : vm_platform) (int_data : int_data_t) (var_idx : Nat)
    (do_eval_or_arguments_check : Bool) :
    Except vm_error (ecma_completion_value_t × List env_call) :=
  if is_reg_variable int_data var_idx then
    match int_data.regs.get? (var_idx - int_data.min_reg_num) with
    | none => throw .assertion_failed
    | some reg_value =>
      if reg_value = .empty then throw .assertion_failed
      else pure (.normal (V.ecma_copy_value reg_value true), [])
  else
    match V.serializer_get_literal_id_by_uid var_idx int_data.pos with
    | none => throw .assertion_failed
    | some lit_id =>
      let var_name_string := V.lit_string lit_id
      let ref_base_lex_env_p := V.ecma_op_resolve_reference_base int_data.lex_env_p var_name_string
      if do_eval_or_arguments_check
          ∧ ¬ do_strict_eval_arguments_check ref_base_lex_env_p var_name_string int_data.is_strict then
        throw .assertion_failed
      else
        pure (V.ecma_op_get_value_lex_env_base ref_base_lex_env_p var_name_string int_data.is_strict,
          [.resolve_reference_base int_data.lex_env_p var_name_string,
           .get_value ref_base_lex_env_p var_name_string int_data.is_strict])

/-- The number cells of the heap: the number stored at an address is the one
of the first entry for that address. -/
abbrev num_heap := List (Nat × ecma_number_t)

/-- The number that `ecma_get_number_from_value` points to. -/
def heap_read (heap : num_heap) (addr : Nat) : ecma_number_t :=
  match heap.lookup addr with
  | some n => n
  | none => .finite false 0 0

/-- The assignment `*p = n` to the number cell at `addr`. -/
def heap_write (heap : num_heap) (addr : Nat) (n : ecma_number_t) : num_heap :=
  (addr, n) :: heap

/-- Port of `ecma_is_value_number`. -/
def ecma_is_value_number : ecma_value_t → Bool
  | .number _ => true
  | _ => false

/-- The address held by a number value. -/
def ecma_get_number_from_value : ecma_value_t → Nat
  | .number addr => addr
  | _ => 0

/-- What `set_variable_value` leaves behind: the completion value, the frame,
the number cells, the values handed to `ecma_free_value`, and the calls made to
the environment collaborator. -/
structure set_result where
  ret_value : ecma_completion_value_t
  int_data : int_data_t
  heap : num_heap
  freed : List ecma_value_t
  calls : List env_call
  deriving DecidableEq, Repr

/-- Port of `set_variable_value`. -/
def set_variable_value (V : vm_platform) (int_data : int_data_t) (heap : num_heap)
    (lit_oc var_idx : Nat) (value : ecma_value_t) : Except vm_error set_result :=
  if is_reg_variable int_data var_idx then
    match int_data.regs.get? (var_idx - int_data.min_reg_num) with
    | none => .error .assertion_failed
    | some reg_value =>
      if ecma_is_value_number reg_value ∧ ecma_is_value_number value then
        .ok { ret_value := .empty, int_data := int_data,
              heap := heap_write heap (ecma_get_number_from_value reg_value)
                (heap_read heap (ecma_get_number_from_value value)),
              freed := [], calls := [] }
      else
        let regs1 := int_data.regs.set (var_idx - int_data.min_reg_num)
          (V.ecma_copy_value value false)
        .ok { ret_value := .empty,
              int_data := { int_data with regs := regs1 },
              heap := heap,
              freed := if reg_value ≠ .empty then [reg_value] else [],
              calls := [] }
  else
    match V.serializer_get_literal_id_by_uid var_idx lit_oc with
    | none => .error .assertion_failed
    | some lit_id =>
      let var_name_string := V.lit_string lit_id
      let ref_base_lex_env_p := V.ecma_op_resolve_reference_base int_data.lex_env_p var_name_string
      if ¬ do_strict_eval_arguments_check ref_base_lex_env_p var_name_string int_data.is_strict then
        .error .assertion_failed
      else
        .ok { ret_value := V.ecma_op_put_value_lex_env_base ref_base_lex_env_p var_name_string
                int_data.is_strict value,
              int_data := int_data, heap := heap, freed := [],
              calls := [.resolve_reference_base int_data.lex_env_p var_name_string,
                .put_value ref_base_lex_env_p var_name_string int_data.is_strict value] }

/-! ## RegExp bytecode compiler (re-compiler.cpp) -/

/-- Opcode numbers of re-compiler.h. -/
def RE_OP_EOF : Nat := 0

/-- Opcode `RE_OP_MATCH`. -/
def RE_OP_MATCH : Nat := 1

/-- Opcode `RE_OP_CHAR`. -/
def RE_OP_CHAR : Nat := 2

/-- Opcode `RE_OP_SAVE_AT_START`. -/
def RE_OP_SAVE_AT_START : Nat := 3

/-- Opcode `RE_OP_SAVE_AND_MATCH`. -/
def RE_OP_SAVE_AND_MATCH : Nat := 4

/-- Opcode `RE_OP_PERIOD`. -/
def RE_OP_PERIOD : Nat := 5

/-- Opcode `RE_OP_ALTERNATIVE`. -/
def RE_OP_ALTERNATIVE : Nat := 6

/-- Opcode `RE_OP_GREEDY_ITERATOR`. -/
def RE_OP_GREEDY_ITERATOR : Nat := 7

/-- Opcode `RE_OP_NON_GREEDY_ITERATOR`. -/
def RE_OP_NON_GREEDY_ITERATOR : Nat := 8

/-- Flag bit `RE_FLAG_GLOBAL`. -/
def RE_FLAG_GLOBAL : Nat := 1

/-- Flag bit `RE_FLAG_IGNORE_CASE`. -/
def RE_FLAG_IGNORE_CASE : Nat := 2

/-- Flag bit `RE_FLAG_MULTILINE`. -/
def RE_FLAG_MULTILINE : Nat := 4

/-- The nesting limit of re-compiler.h. -/
def RE_COMPILE_RECURSION_LIMIT : Nat := 100

/-- The growth step of the bytecode block. -/
def REGEXP_BYTECODE_BLOCK_SIZE : Nat := 256

/-- The kinds of standard error the compiler raises. -/
inductive ecma_standard_error_t where
  | ECMA_ERROR_SYNTAX
  | ECMA_ERROR_RANGE
  deriving DecidableEq, Repr

/-- What re-compiler.cpp takes from headers that are not under src/: the
numbers of the ten group opcodes and the error objects. -/
structure re_platform where
  RE_OP_CAPTURE_GROUP_START : Nat
  RE_OP_CAPTURE_GREEDY_ZERO_GROUP_START : Nat
  RE_OP_CAPTURE_NON_GREEDY_ZERO_GROUP_START : Nat
  RE_OP_CAPTURE_GREEDY_GROUP_END : Nat
  RE_OP_CAPTURE_NON_GREEDY_GROUP_END : Nat
  RE_OP_NON_CAPTURE_GROUP_START : Nat
  RE_OP_NON_CAPTURE_GREEDY_ZERO_GROUP_START : Nat
  RE_OP_NON_CAPTURE_NON_GREEDY_ZERO_GROUP_START : Nat
  RE_OP_NON_CAPTURE_GREEDY_GROUP_END : Nat
  RE_OP_NON_CAPTURE_NON_GREEDY_GROUP_END : Nat
  /-- The object that `ecma_new_standard_error` creates. -/
  ecma_new_standard_error : ecma_standard_error_t → Nat

/-- The completion `ecma_make_throw_obj_completion_value (ecma_new_standard_error (kind))`. -/
def re_throw (R : re_platform) (kind : ecma_standard_error_t) : ecma_completion_value_t :=
  .throw (.object (R.ecma_new_standard_error kind))

/-- The ways the compiler ends without a completion value. -/
inductive re_error where
  | assertion_failed
  | invalid_memory_access
  | out_of_fuel
  deriving DecidableEq, Repr

/-- Modelled from the spec: the token kinds of the external regex lexer that
the compiler tells apart; every other kind is `RE_TOK_OTHER`. -/
inductive re_token_type_t where
  | RE_TOK_EOF
  | RE_TOK_CHAR
  | RE_TOK_PERIOD
  | RE_TOK_ALTERNATIVE
  | RE_TOK_START_CAPTURE_GROUP
  | RE_TOK_START_NON_CAPTURE_GROUP
  | RE_TOK_END_GROUP
  | RE_TOK_OTHER (code : Nat)
  deriving DecidableEq, Repr

/-- Modelled from the spec: a token of the external regex lexer, with the
fields the compiler reads. -/
structure re_token_t where
  type : re_token_type_t
  value : Nat
  qmin : Nat
  qmax : Nat
  greedy : Bool
  deriving DecidableEq, Repr

/-- Modelled from the spec: `re_parse_next_token` of the external regex lexer,
over the tokens not yet returned; an exhausted stream keeps returning the end
token. -/
def re_parse_next_token (parser_ctx : List re_token_t) : re_token_t × List re_token_t :=
  match parser_ctx with
  | [] => (⟨.RE_TOK_EOF, 0, 1, 1, true⟩, [])
  | t :: rest => (t, rest)

/-- The bytecode context `re_bytecode_ctx_t`: whether the three pointers are
NULL, the cells of the block (`block_end_p - block_start_p` of them) and
`current_p - block_start_p`. -/
structure re_bytecode_ctx_t where
  is_null : Bool
  mem : List Nat
  len : Nat
  deriving DecidableEq, Repr

/-- The macro `BYTECODE_LEN`. -/
def BYTECODE_LEN (bc : re_bytecode_ctx_t) : Nat := bc.len

/-- The bytecode written so far: the cells from `block_start_p` up to
`current_p`. -/
def bytecode_of (bc : re_bytecode_ctx_t) : List Nat := bc.mem.take bc.len

/-- Port of `realloc_regexp_bytecode_block`: the second assertion demands that
the three pointers are NULL. -/
def realloc_regexp_bytecode_block (bc : re_bytecode_ctx_t) : Except re_error re_bytecode_ctx_t :=
  if ¬ bc.is_null then .error .assertion_failed
  else
    let new_block_size := bc.mem.length + REGEXP_BYTECODE_BLOCK_SIZE
    .ok { is_null := false,
          mem := bc.mem.take bc.len ++ List.replicate (new_block_size - bc.len) 0,
          len := bc.len }

/-- C `memcpy` of `src` into `mem` at offset `off`. -/
def re_memcpy (mem : List Nat) (off : Nat) (src : List Nat) : List Nat :=
  mem.take off ++ src ++ mem.drop (off + src.length)

/-- Port of `bytecode_list_append`. -/
def bytecode_list_append (bc : re_bytecode_ctx_t) (bytecode : Nat) :
    Except re_error re_bytecode_ctx_t :=
  match (if bc.len + 1 > bc.mem.length then realloc_regexp_bytecode_block bc else .ok bc) with
  | .error e => .error e
  | .ok bc1 => .ok { bc1 with mem := bc1.mem.set bc1.len bytecode, len := bc1.len + 1 }

/-- Port of `bytecode_list_insert`; an offset beyond the bytecode makes the
unsigned length of the copy wrap around. -/
def bytecode_list_insert (bc : re_bytecode_ctx_t) (bytecode : Nat) (offset : Nat) :
    Except re_error re_bytecode_ctx_t :=
  match (if bc.len + 1 > bc.mem.length then realloc_regexp_bytecode_block bc else .ok bc) with
  | .error e => .error e
  | .ok bc1 =>
    if BYTECODE_LEN bc1 < offset then .error .invalid_memory_access
    else
      let n := BYTECODE_LEN bc1 - offset
      let tmp_block := (bc1.mem.drop offset).take n
      let mem1 := if n > 0 then re_memcpy bc1.mem (offset + 1) tmp_block else bc1.mem
      .ok { bc1 with mem := mem1.set offset bytecode, len := bc1.len + 1 }

/-- The cast `(re_bytecode_t) value`: a bytecode cell is one byte. -/
def re_bytecode_t (value : Nat) : Nat := value % 256

/-- Port of `append_opcode`. -/
def append_opcode (bc : re_bytecode_ctx_t) (opcode : Nat) : Except re_error re_bytecode_ctx_t :=
  bytecode_list_append bc (re_bytecode_t opcode)

/-- Port of `append_u32`. -/
def append_u32 (bc : re_bytecode_ctx_t) (value : Nat) : Except re_error re_bytecode_ctx_t :=
  bytecode_list_append bc (re_bytecode_t value)

/-- Port of `append_jump_offset`. -/
def append_jump_offset (bc : re_bytecode_ctx_t) (value : Nat) : Except re_error re_bytecode_ctx_t :=
  bytecode_list_append bc (re_bytecode_t ((value + 1) % 4294967296))

/-- Port of `insert_opcode`. -/
def insert_opcode (bc : re_bytecode_ctx_t) (offset : Nat) (opcode : Nat) :
    Except re_error re_bytecode_ctx_t :=
  bytecode_list_insert bc (re_bytecode_t opcode) offset

/-- Port of `insert_u32`. -/
def insert_u32 (bc : re_bytecode_ctx_t) (offset : Nat) (value : Nat) :
    Except re_error re_bytecode_ctx_t :=
  bytecode_list_insert bc (re_bytecode_t value) offset

/-- Port of `get_value`: the cell at `pos` of a bytecode and the position after
it ("FIXME: Read 32bit!"). -/
def get_value (code : List Nat) (pos : Nat) : Option (Nat × Nat) :=
  match code.get? pos with
  | none => none
  | some bytecode => some (bytecode, pos + 1)

/-- Port of `get_opcode`. -/
def get_opcode (code : List Nat) (pos : Nat) : Option (Nat × Nat) :=
  match code.get? pos with
  | none => none
  | some bytecode => some (bytecode, pos + 1)

/-- The compiler context `re_compiler_ctx_t`; `parser_ctx` is the state of the
external lexer. -/
structure re_compiler_ctx_t where
  flags : Nat
  recursion_depth : Nat
  num_of_captures : Nat
  num_of_non_captures : Nat
  bytecode_ctx : re_bytecode_ctx_t
  current_token : re_token_t
  parser_ctx : List re_token_t
  deriving DecidableEq, Repr

/-- Port of `insert_simple_iterator`. -/
def insert_simple_iterator (re_ctx : re_compiler_ctx_t) (new_atom_start_offset : Nat) :
    Except re_error re_compiler_ctx_t :=
  let qmin := re_ctx.current_token.qmin
  let qmax := re_ctx.current_token.qmax
  if ¬ qmin ≤ qmax then .error .assertion_failed
  else
    match append_opcode re_ctx.bytecode_ctx RE_OP_MATCH with
    | .error e => .error e
    | .ok bc1 =>
      let atom_code_length := (BYTECODE_LEN bc1 + 4294967296 - new_atom_start_offset) % 4294967296
      let offset := new_atom_start_offset
      match insert_u32 bc1 offset atom_code_length with
      | .error e => .error e
      | .ok bc2 =>
        match insert_u32 bc2 offset qmax with
        | .error e => .error e
        | .ok bc3 =>
          match insert_u32 bc3 offset qmin with
          | .error e => .error e
          | .ok bc4 =>
            match insert_opcode bc4 offset
                (if re_ctx.current_token.greedy then RE_OP_GREEDY_ITERATOR
                 else RE_OP_NON_GREEDY_ITERATOR) with
            | .error e => .error e
            | .ok bc5 => .ok { re_ctx with bytecode_ctx := bc5 }

/-- Port of `get_start_opcode_type`. -/
def get_start_opcode_type (R : re_platform) (re_ctx : re_compiler_ctx_t) (is_capturable : Bool) :
    Nat :=
  if is_capturable then
    if re_ctx.current_token.qmin = 0 then
      if re_ctx.current_token.greedy then R.RE_OP_CAPTURE_GREEDY_ZERO_GROUP_START
      else R.RE_OP_CAPTURE_NON_GREEDY_ZERO_GROUP_START
    else R.RE_OP_CAPTURE_GROUP_START
  else
    if re_ctx.current_token.qmin = 0 then
      if re_ctx.current_token.greedy then R.RE_OP_NON_CAPTURE_GREEDY_ZERO_GROUP_START
      else R.RE_OP_NON_CAPTURE_NON_GREEDY_ZERO_GROUP_START
    else R.RE_OP_NON_CAPTURE_GROUP_START

/-- Port of `get_end_opcode_type`. -/
def get_end_opcode_type (R : re_platform) (re_ctx : re_compiler_ctx_t) (is_capturable : Bool) :
    Nat :=
  if is_capturable then
    if re_ctx.current_token.greedy then R.RE_OP_CAPTURE_GREEDY_GROUP_END
    else R.RE_OP_CAPTURE_NON_GREEDY_GROUP_END
  else
    if re_ctx.current_token.greedy then R.RE_OP_NON_CAPTURE_GREEDY_GROUP_END
    else R.RE_OP_NON_CAPTURE_NON_GREEDY_GROUP_END

/-- Port of `insert_into_group`. -/
def insert_into_group (R : re_platform) (re_ctx : re_compiler_ctx_t) (group_start_offset : Nat)
    (idx : Nat) (is_capturable : Bool) : Except re_error re_compiler_ctx_t :=
  let start_opcode := get_start_opcode_type R re_ctx is_capturable
  let end_opcode := get_end_opcode_type R re_ctx is_capturable
  let qmin := re_ctx.current_token.qmin
  let qmax := re_ctx.current_token.qmax
  if ¬ qmin ≤ qmax then .error .assertion_failed
  else
    let len0 := BYTECODE_LEN re_ctx.bytecode_ctx
    match insert_u32 re_ctx.bytecode_ctx group_start_offset idx with
    | .error e => .error e
    | .ok bc1 =>
      match insert_u32 bc1 group_start_offset start_opcode with
      | .error e => .error e
      | .ok bc2 =>
        let start_head_offset_len := (BYTECODE_LEN bc2 + 4294967296 - len0) % 4294967296
        match append_opcode bc2 end_opcode with
        | .error e => .error e
        | .ok bc3 =>
          match append_u32 bc3 idx with
          | .error e => .error e
          | .ok bc4 =>
            match append_u32 bc4 qmin with
            | .error e => .error e
            | .ok bc5 =>
              match append_u32 bc5 qmax with
              | .error e => .error e
              | .ok bc6 =>
                let group_start_offset1 := (group_start_offset + start_head_offset_len) % 4294967296
                match append_jump_offset bc6
                    ((BYTECODE_LEN bc6 + 4294967296 - group_start_offset1) % 4294967296) with
                | .error e => .error e
                | .ok bc7 =>
                  if start_opcode ≠ R.RE_OP_CAPTURE_GROUP_START
                      ∧ start_opcode ≠ R.RE_OP_NON_CAPTURE_GROUP_START then
                    match insert_u32 bc7 group_start_offset1
                        ((BYTECODE_LEN bc7 + 4294967296 - group_start_offset1) % 4294967296) with
                    | .error e => .error e
                    | .ok bc8 => .ok { re_ctx with bytecode_ctx := bc8 }
                  else .ok { re_ctx with bytecode_ctx := bc7 }

/-- The backpatch `insert_u32 (bc_ctx_p, alterantive_offset, BYTECODE_LEN (bc_ctx_p) -
alterantive_offset)` of `parse_alternative`. -/
def insert_alternative_length (re_ctx : re_compiler_ctx_t) (alterantive_offset : Nat) :
    Except re_error re_compiler_ctx_t :=
  match insert_u32 re_ctx.bytecode_ctx alterantive_offset
      ((BYTECODE_LEN re_ctx.bytecode_ctx + 4294967296 - alterantive_offset) % 4294967296) with
  | .error e => .error e
  | .ok bc1 => .ok { re_ctx with bytecode_ctx := bc1 }

/-- The `while (true)` loop of `parse_alternative`, with the calls the function
makes to itself for a group; `fuel` bounds the iterations and calls. The
completion value of such a call is not used. -/
def parse_alternative_loop (R : re_platform) :
    Nat → re_compiler_ctx_t → Bool → Nat →
      Except re_error (ecma_completion_value_t × re_compiler_ctx_t)
  | 0, _, _, _ => .error .out_of_fuel
  | fuel + 1, re_ctx, expect_eof, alterantive_offset =>
    let next := re_parse_next_token re_ctx.parser_ctx
    let ctx1 := { re_ctx with current_token := next.1, parser_ctx := next.2 }
    let new_atom_start_offset := BYTECODE_LEN ctx1.bytecode_ctx
    let group (ctx2 : re_compiler_ctx_t) (idx : Nat) (is_capturable : Bool) :
        Except re_error (ecma_completion_value_t × re_compiler_ctx_t) :=
      match (if ctx2.recursion_depth ≥ RE_COMPILE_RECURSION_LIMIT then
              .ok (re_throw R .ECMA_ERROR_RANGE, ctx2)
             else parse_alternative_loop R fuel
              { ctx2 with recursion_depth := ctx2.recursion_depth + 1 } false
              (BYTECODE_LEN ctx2.bytecode_ctx)) with
      | .error e => .error e
      | .ok r =>
        match insert_into_group R r.2 new_atom_start_offset idx is_capturable with
        | .error e => .error e
        | .ok ctx4 => parse_alternative_loop R fuel ctx4 expect_eof alterantive_offset
    let atom (r : Except re_error re_bytecode_ctx_t) :
        Except re_error (ecma_completion_value_t × re_compiler_ctx_t) :=
      match r with
      | .error e => .error e
      | .ok bc1 =>
        let ctx2 := { ctx1 with bytecode_ctx := bc1 }
        if ctx1.current_token.qmin ≠ 1 ∨ ctx1.current_token.qmax ≠ 1 then
          match insert_simple_iterator ctx2 new_atom_start_offset with
          | .error e => .error e
          | .ok ctx3 => parse_alternative_loop R fuel ctx3 expect_eof alterantive_offset
        else parse_alternative_loop R fuel ctx2 expect_eof alterantive_offset
    match ctx1.current_token.type with
    | .RE_TOK_START_CAPTURE_GROUP =>
      group { ctx1 with num_of_captures := ctx1.num_of_captures + 1 } ctx1.num_of_captures true
    | .RE_TOK_START_NON_CAPTURE_GROUP =>
      group { ctx1 with num_of_non_captures := ctx1.num_of_non_captures + 1 }
        ctx1.num_of_non_captures false
    | .RE_TOK_CHAR =>
      atom (match append_opcode ctx1.bytecode_ctx RE_OP_CHAR with
        | .error e => .error e
        | .ok bc1 => append_u32 bc1 ctx1.current_token.value)
    | .RE_TOK_PERIOD => atom (append_opcode ctx1.bytecode_ctx RE_OP_PERIOD)
    | .RE_TOK_ALTERNATIVE =>
      match insert_alternative_length ctx1 alterantive_offset with
      | .error e => .error e
      | .ok ctx2 =>
        match append_opcode ctx2.bytecode_ctx RE_OP_ALTERNATIVE with
        | .error e => .error e
        | .ok bc3 =>
          parse_alternative_loop R fuel { ctx2 with bytecode_ctx := bc3 } expect_eof
            (BYTECODE_LEN bc3)
    | .RE_TOK_END_GROUP =>
      if expect_eof then .ok (re_throw R .ECMA_ERROR_SYNTAX, ctx1)
      else
        match insert_alternative_length ctx1 alterantive_offset with
        | .error e => .error e
        | .ok ctx2 => .ok (.empty, { ctx2 with recursion_depth := ctx2.recursion_depth - 1 })
    | .RE_TOK_EOF =>
      if ¬ expect_eof then .ok (re_throw R .ECMA_ERROR_SYNTAX, ctx1)
      else
        match insert_alternative_length ctx1 alterantive_offset with
        | .error e => .error e
        | .ok ctx2 => .ok (.empty, { ctx2 with recursion_depth := ctx2.recursion_depth - 1 })
    | .RE_TOK_OTHER _ => .ok (re_throw R .ECMA_ERROR_SYNTAX, ctx1)

/-- Port of `parse_alternative`. -/
def parse_alternative (R : re_platform) (fuel : Nat) (re_ctx : re_compiler_ctx_t)
    (expect_eof : Bool) : Except re_error (ecma_completion_value_t × re_compiler_ctx_t) :=
  if re_ctx.recursion_depth ≥ RE_COMPILE_RECURSION_LIMIT then
    .ok (re_throw R .ECMA_ERROR_RANGE, re_ctx)
  else
    parse_alternative_loop R fuel { re_ctx with recursion_depth := re_ctx.recursion_depth + 1 }
      expect_eof (BYTECODE_LEN re_ctx.bytecode_ctx)

/-- The `while` loop of `parse_regexp_flags` over the characters of the
zero-terminated flags string: the completion value and the flags. -/
def parse_regexp_flags_loop (R : re_platform) :
    List Nat → ecma_completion_value_t → Nat → ecma_completion_value_t × Nat
  | [], ret_value, flags => (ret_value, flags)
  | ch :: rest, ret_value, flags =>
    if ch = 0 ∨ ret_value ≠ .empty then (ret_value, flags)
    else if ch = 103 then
      parse_regexp_flags_loop R rest
        (if flags &&& RE_FLAG_GLOBAL ≠ 0 then re_throw R .ECMA_ERROR_SYNTAX else ret_value)
        ((flags ||| RE_FLAG_GLOBAL) % 256)
    else if ch = 105 then
      parse_regexp_flags_loop R rest
        (if flags &&& RE_FLAG_IGNORE_CASE ≠ 0 then re_throw R .ECMA_ERROR_SYNTAX else ret_value)
        ((flags ||| RE_FLAG_IGNORE_CASE) % 256)
    else if ch = 109 then
      parse_regexp_flags_loop R rest
        (if flags &&& RE_FLAG_MULTILINE ≠ 0 then re_throw R .ECMA_ERROR_SYNTAX else ret_value)
        ((flags ||| RE_FLAG_MULTILINE) % 256)
    else parse_regexp_flags_loop R rest (re_throw R .ECMA_ERROR_SYNTAX) flags

/-- Port of `parse_regexp_flags`: the completion value and the flags of the
compiler context. -/
def parse_regexp_flags (R : re_platform) (flags0 : Nat) (flags : List Nat) :
    ecma_completion_value_t × Nat :=
  parse_regexp_flags_loop R flags .empty flags0

/-- The test of `ECMA_TRY_CATCH`: the completion is forwarded to `ret_value`. -/
def ecma_is_completion_value_throw : ecma_completion_value_t → Bool
  | .throw _ => true
  | _ => false

/-- What `regexp_compile_bytecode` leaves behind: the completion value it
returns and, when it got past the flags, the compiler context at the end, whose
bytecode block is the one stored in the `bytecode` property. -/
structure re_compile_result where
  ret_value : ecma_completion_value_t
  re_ctx : Option re_compiler_ctx_t
  deriving DecidableEq, Repr

/-- The statements of `regexp_compile_bytecode` after `parse_alternative`: the
two closing opcodes and the three header cells. -/
def re_finish (re_ctx : re_compiler_ctx_t) : Except re_error re_compiler_ctx_t :=
  match append_opcode re_ctx.bytecode_ctx RE_OP_SAVE_AND_MATCH with
  | .error e => .error e
  | .ok bc1 =>
    match append_opcode bc1 RE_OP_EOF with
    | .error e => .error e
    | .ok bc2 =>
      match insert_u32 bc2 0 re_ctx.num_of_non_captures with
      | .error e => .error e
      | .ok bc3 =>
        match insert_u32 bc3 0 ((re_ctx.num_of_captures * 2) % 4294967296) with
        | .error e => .error e
        | .ok bc4 =>
          match insert_u32 bc4 0 re_ctx.flags with
          | .error e => .error e
          | .ok bc5 => .ok { re_ctx with bytecode_ctx := bc5 }

/-- Port of `regexp_compile_bytecode`; `pattern` is the token stream that the
external lexer produces for the pattern, `flags` the characters of the flags
string (`none` for NULL). -/
def regexp_compile_bytecode (R : re_platform) (pattern : List re_token_t)
    (flags : Option (List Nat)) : Except re_error re_compile_result :=
  let parsed : ecma_completion_value_t × Nat :=
    match flags with
    | none => (.empty, 0)
    | some s => parse_regexp_flags R 0 s
  let ret_value0 : ecma_completion_value_t :=
    if ecma_is_completion_value_throw parsed.1 then parsed.1 else .empty
  if ret_value0 ≠ .empty then .ok { ret_value := ret_value0, re_ctx := none }
  else
    let re_ctx : re_compiler_ctx_t :=
      { flags := parsed.2, recursion_depth := 0, num_of_captures := 1, num_of_non_captures := 0,
        bytecode_ctx := { is_null := true, mem := [], len := 0 },
        current_token := ⟨.RE_TOK_EOF, 0, 1, 1, true⟩, parser_ctx := pattern }
    match append_opcode re_ctx.bytecode_ctx RE_OP_SAVE_AT_START with
    | .error e => .error e
    | .ok bc1 =>
      match parse_alternative R (2 * pattern.length + 3) { re_ctx with bytecode_ctx := bc1 } true with
      | .error e => .error e
      | .ok r =>
        let ret_value : ecma_completion_value_t :=
          if ecma_is_completion_value_throw r.1 then r.1 else ret_value0
        match re_finish r.2 with
        | .error e => .error e
        | .ok ctx2 => .ok { ret_value := ret_value, re_ctx := some ctx2 }

/-- A platform for evaluating the compiler: the group opcodes numbered after
the nine of re-compiler.h, and two distinct error objects. -/
def sample_re_platform : re_platform :=
  { RE_OP_CAPTURE_GROUP_START := 9
    RE_OP_CAPTURE_GREEDY_ZERO_GROUP_START := 10
    RE_OP_CAPTURE_NON_GREEDY_ZERO_GROUP_START := 11
    RE_OP_CAPTURE_GREEDY_GROUP_END := 12
    RE_OP_CAPTURE_NON_GREEDY_GROUP_END := 13
    RE_OP_NON_CAPTURE_GROUP_START := 14
    RE_OP_NON_CAPTURE_GREEDY_ZERO_GROUP_START := 15
    RE_OP_NON_CAPTURE_NON_GREEDY_ZERO_GROUP_START := 16
    RE_OP_NON_CAPTURE_GREEDY_GROUP_END := 17
    RE_OP_NON_CAPTURE_NON_GREEDY_GROUP_END := 18
    ecma_new_standard_error := fun
      | .ECMA_ERROR_SYNTAX => 1
      | .ECMA_ERROR_RANGE => 2 }

/-- A character token with quantifier `{qmin, qmax}`. -/
def re_char (c qmin qmax : Nat) (greedy : Bool) : re_token_t := ⟨.RE_TOK_CHAR, c, qmin, qmax, greedy⟩

/-- A token of the given kind that carries no quantifier of its own. -/
def re_tok (t : re_token_type_t) : re_token_t := ⟨t, 0, 1, 1, true⟩

/-- The bytecode that a compilation stored, when it stored one. -/
def compiled_bytecode (r : Except re_error re_compile_result) : Option (List Nat) :=
  match r with
  | .ok ⟨_, some ctx⟩ => some (bytecode_of ctx.bytecode_ctx)
  | _ => none

/-! ## URI encoding and decoding (ecma-builtin-global.cpp) -/

/-- The ways a URI routine ends without a completion value. -/
inductive uri_error where
  | assertion_failed
  | out_of_fuel
  deriving DecidableEq, Repr

/-- The completion values that the URI helpers return: the thrown `URIError`
object, or the normal completion with the characters of the result string. -/
inductive uri_completion where
  | throw_uri_error
  | normal (chars : List Nat)
  deriving DecidableEq, Repr

/-- The conversion to `uint32_t`. -/
def uint32_t (x : Nat) : Nat := x % 4294967296

/-- The conversion to `ecma_char_t`, a code unit of `char_bits` bits (8 in the
ASCII configuration, 16 in the UTF-16 configuration). -/
def ecma_char_t (char_bits : Nat) (x : Nat) : Nat := x % 2 ^ char_bits

/-- Port of `ecma_builtin_global_object_character_is_in`. -/
def ecma_builtin_global_object_character_is_in (character : Nat) (bitset : List Nat) :
    Except uri_error Bool :=
  if ¬ character < 128 then .error .assertion_failed
  else .ok (decide ((bitset.getD (character >>> 3) 0 &&& (1 <<< (character &&& 0x7))) ≠ 0))

/-- The table `unescaped_uri_set`. -/
def unescaped_uri_set : List Nat :=
  [0x0, 0x0, 0x0, 0x0, 0xda, 0xff, 0xff, 0xaf, 0xff, 0xff, 0xff, 0x87, 0xfe, 0xff, 0xff, 0x47]

/-- The table `unescaped_uri_component_set`. -/
def unescaped_uri_component_set : List Nat :=
  [0x0, 0x0, 0x0, 0x0, 0x82, 0x67, 0xff, 0x3, 0xfe, 0xff, 0xff, 0x87, 0xfe, 0xff, 0xff, 0x47]

/-- The value `ECMA_BUILTIN_HEX_TO_BYTE_ERROR`. -/
def ECMA_BUILTIN_HEX_TO_BYTE_ERROR : Nat := 0x100

/-- One iteration of the `for` loop of `ecma_builtin_global_object_hex_to_byte`
on the character `c`: the new `decoded_byte`, or `none` at the error return. -/
def hex_to_byte_step (decoded_byte : Nat) (c : Nat) : Option Nat :=
  let shifted := uint32_t (decoded_byte <<< 4)
  if 48 ≤ c ∧ c ≤ 57 then some (shifted ||| uint32_t (c - 48))
  else if 97 ≤ c ∧ c ≤ 102 then some (shifted ||| uint32_t (c - (97 - 10)))
  else if 65 ≤ c ∧ c ≤ 70 then some (shifted ||| uint32_t (c - (65 - 10)))
  else none

/-- Port of `ecma_builtin_global_object_hex_to_byte`. `source` is the
zero-terminated buffer from `source_p` on, without its terminator: reading at
the end of the list reads the terminator, and the function never reads behind
a character that is not a hex digit. -/
def ecma_builtin_global_object_hex_to_byte (source : List Nat) : Nat :=
  if source.getD 0 0 ≠ 37 then ECMA_BUILTIN_HEX_TO_BYTE_ERROR
  else
    match hex_to_byte_step 0 (source.getD 1 0) with
    | none => ECMA_BUILTIN_HEX_TO_BYTE_ERROR
    | some decoded_byte =>
      match hex_to_byte_step decoded_byte (source.getD 2 0) with
      | none => ECMA_BUILTIN_HEX_TO_BYTE_ERROR
      | some decoded_byte1 => decoded_byte1

/-- The `do ... while (--count > 0)` loop of the first pass of the decoder
(entered with `count` 1, 2 or 3): the loop stops early at a sequence that is
not a continuation byte. Returns `count`, `character` and the input left. -/
def decode_continuation : Nat → Nat → List Nat → Nat × Nat × List Nat
  | 0, character, input => (0, character, input)
  | count + 1, character, input =>
    let decoded_byte := ecma_builtin_global_object_hex_to_byte input
    if decoded_byte = ECMA_BUILTIN_HEX_TO_BYTE_ERROR ∨ decoded_byte &&& 0xc0 ≠ 0x80 then
      (count + 1, character, input)
    else
      decode_continuation count (uint32_t ((character <<< 6) + (decoded_byte &&& 0x3f)))
        (input.drop 3)

/-- The first `while` loop of `ecma_builtin_global_object_decode_uri_helper`,
which validates the input and computes `output_length`; `input` is the input
from `input_char_p` to `input_end_p`. The result is `none` when the loop ends
with the thrown `URIError`. -/
def decode_uri_count (reserved_uri_bitset : List Nat) :
    Nat → List Nat → Nat → Except uri_error (Option Nat)
  | 0, _, _ => .error .out_of_fuel
  | fuel + 1, input, output_length =>
    match input with
    | [] => .ok (some output_length)
    | c :: rest =>
      if c ≠ 37 then decode_uri_count reserved_uri_bitset fuel rest (uint32_t (output_length + 1))
      else
        let decoded_byte := ecma_builtin_global_object_hex_to_byte input
        if decoded_byte = ECMA_BUILTIN_HEX_TO_BYTE_ERROR then .ok none
        else
          let input1 := input.drop 3
          if decoded_byte ≤ 0x7f then
            match ecma_builtin_global_object_character_is_in decoded_byte reserved_uri_bitset with
            | .error e => .error e
            | .ok false =>
              decode_uri_count reserved_uri_bitset fuel input1 (uint32_t (output_length + 1))
            | .ok true =>
              match ecma_builtin_global_object_character_is_in decoded_byte
                  unescaped_uri_component_set with
              | .error e => .error e
              | .ok false =>
                decode_uri_count reserved_uri_bitset fuel input1 (uint32_t (output_length + 3))
              | .ok true =>
                decode_uri_count reserved_uri_bitset fuel input1 (uint32_t (output_length + 1))
          else if decoded_byte < 0xc0 ∨ decoded_byte ≥ 0xf8 then .ok none
          else
            let count := if decoded_byte < 0xe0 then 1 else if decoded_byte < 0xf0 then 2 else 3
            let min := if decoded_byte < 0xe0 then 0x80
              else if decoded_byte < 0xf0 then 0x800 else 0x1000
            let character := if decoded_byte < 0xe0 then decoded_byte &&& 0x1f
              else if decoded_byte < 0xf0 then decoded_byte &&& 0x0f else decoded_byte &&& 0x07
            match decode_continuation count character input1 with
            | (count1, character1, input2) =>
              if count1 ≠ 0 ∨ character1 < min ∨ character1 > 0x10ffff
                  ∨ (character1 ≥ 0xd800 ∧ character1 ≤ 0xdfff) then .ok none
              else
                decode_uri_count reserved_uri_bitset fuel input2
                  (uint32_t (output_length + (if character1 ≤ 0xffff then 1 else 2)))

/-- The `do ... while (--count > 0)` loop of the second pass of the decoder,
with its assertion. Returns `character` and the input left. -/
def decode_continuation_checked : Nat → Nat → List Nat → Except uri_error (Nat × List Nat)
  | 0, character, input => .ok (character, input)
  | count + 1, character, input =>
    let decoded_byte := ecma_builtin_global_object_hex_to_byte input
    if ¬ (decoded_byte ≠ ECMA_BUILTIN_HEX_TO_BYTE_ERROR ∧ decoded_byte &&& 0xc0 = 0x80) then
      .error .assertion_failed
    else
      decode_continuation_checked count
        (uint32_t ((character <<< 6) + (decoded_byte &&& 0x3f))) (input.drop 3)

/-- The second `while` loop of `ecma_builtin_global_object_decode_uri_helper`,
which writes the output; `output` holds the characters written so far. -/
def decode_uri_write (char_bits : Nat) (reserved_uri_bitset : List Nat) :
    Nat → List Nat → List Nat → Except uri_error (List Nat)
  | 0, _, _ => .error .out_of_fuel
  | fuel + 1, input, output =>
    match input with
    | [] => .ok output
    | c :: rest =>
      if c ≠ 37 then decode_uri_write char_bits reserved_uri_bitset fuel rest (output ++ [c])
      else
        let decoded_byte := ecma_builtin_global_object_hex_to_byte input
        let input1 := input.drop 3
        if decoded_byte ≤ 0x7f then
          match ecma_builtin_global_object_character_is_in decoded_byte reserved_uri_bitset with
          | .error e => .error e
          | .ok false =>
            decode_uri_write char_bits reserved_uri_bitset fuel input1
              (output ++ [ecma_char_t char_bits decoded_byte])
          | .ok true =>
            match ecma_builtin_global_object_character_is_in decoded_byte
                unescaped_uri_component_set with
            | .error e => .error e
            | .ok false =>
              decode_uri_write char_bits reserved_uri_bitset fuel rest (output ++ [37])
            | .ok true =>
              decode_uri_write char_bits reserved_uri_bitset fuel input1
                (output ++ [ecma_char_t char_bits decoded_byte])
        else if ¬ (decoded_byte ≥ 0xc0 ∧ decoded_byte < 0xf8) then .error .assertion_failed
        else
          let count := if decoded_byte < 0xe0 then 1 else if decoded_byte < 0xf0 then 2 else 3
          let character := if decoded_byte < 0xe0 then decoded_byte &&& 0x1f
            else if decoded_byte < 0xf0 then decoded_byte &&& 0x0f else decoded_byte &&& 0x07
          match decode_continuation_checked count character input1 with
          | .error e => .error e
          | .ok (character1, input2) =>
            if character1 < 0x10000 then
              decode_uri_write char_bits reserved_uri_bitset fuel input2
                (output ++ [ecma_char_t char_bits character1])
            else
              let character2 := uint32_t (character1 + 4294967296 - 0x10000)
              decode_uri_write char_bits reserved_uri_bitset fuel input2
                (output ++ [ecma_char_t char_bits (0xd800 ||| (character2 &&& 0x3ff)),
                  ecma_char_t char_bits (0xdc00 ||| (character2 >>> 10))])

/-- Modelled from the spec: `ecma_new_ecma_string`, which is given only the
address of a zero-terminated buffer, makes the string of the characters before
the first zero. -/
def ecma_new_ecma_string (zt_string : List Nat) : List Nat :=
  zt_string.takeWhile (fun c => c ≠ 0)

/-- Port of `ecma_builtin_global_object_decode_uri_helper`; `input` holds the
`input_length` characters of the string that `ecma_op_to_string` returns for
the argument. Each iteration of a loop consumes at least one character, which
bounds the iterations by the fuel given here. -/
def ecma_builtin_global_object_decode_uri_helper (char_bits : Nat) (input : List Nat)
    (reserved_uri_bitset : List Nat) : Except uri_error uri_completion :=
  match decode_uri_count reserved_uri_bitset (input.length + 1) input 1 with
  | .error e => .error e
  | .ok none => .ok .throw_uri_error
  | .ok (some output_length) =>
    match decode_uri_write char_bits reserved_uri_bitset (input.length + 1) input [] with
    | .error e => .error e
    | .ok output =>
      if output.length + 1 ≠ output_length then .error .assertion_failed
      else .ok (.normal (ecma_new_ecma_string (output ++ [0])))

/-- Port of `ecma_builtin_global_object_decode_uri`. -/
def ecma_builtin_global_object_decode_uri (char_bits : Nat) (encoded_uri : List Nat) :
    Except uri_error uri_completion :=
  ecma_builtin_global_object_decode_uri_helper char_bits encoded_uri unescaped_uri_set

/-- Port of `ecma_builtin_global_object_decode_uri_component`. -/
def ecma_builtin_global_object_decode_uri_component (char_bits : Nat)
    (encoded_uri_component : List Nat) : Except uri_error uri_completion :=
  ecma_builtin_global_object_decode_uri_helper char_bits encoded_uri_component
    unescaped_uri_component_set

/-- Port of `ecma_builtin_global_object_byte_to_hex`: the three characters
written at `dest_p`. -/
def ecma_builtin_global_object_byte_to_hex (char_bits : Nat) (byte : Nat) :
    Except uri_error (List Nat) :=
  if ¬ byte < 256 then .error .assertion_failed
  else
    let hex_digit := ecma_char_t char_bits (byte >>> 4)
    let d1 := ecma_char_t char_bits (if hex_digit > 9 then hex_digit + (65 - 10) else hex_digit + 48)
    let hex_digit1 := ecma_char_t char_bits (byte &&& 0xf)
    let d2 := ecma_char_t char_bits
      (if hex_digit1 > 9 then hex_digit1 + (65 - 10) else hex_digit1 + 48)
    .ok [37, d1, d2]

/-- The first `for` loop of `ecma_builtin_global_object_encode_uri_helper`,
which computes `output_length`; `none` when it ends with the thrown
`URIError`. -/
def encode_uri_count (unescaped_uri_bitset : List Nat) :
    List Nat → Nat → Except uri_error (Option Nat)
  | [], output_length => .ok (some output_length)
  | character :: rest, output_length =>
    if character ≤ 0x7f then
      match ecma_builtin_global_object_character_is_in character unescaped_uri_bitset with
      | .error e => .error e
      | .ok true => encode_uri_count unescaped_uri_bitset rest (uint32_t (output_length + 1))
      | .ok false => encode_uri_count unescaped_uri_bitset rest (uint32_t (output_length + 3))
    else if character ≤ 0x7ff then
      encode_uri_count unescaped_uri_bitset rest (uint32_t (output_length + 6))
    else if character ≤ 0xffff then
      if character ≥ 0xd800 ∧ character ≤ 0xdfff then .ok none
      else encode_uri_count unescaped_uri_bitset rest (uint32_t (output_length + 9))
    else if character ≤ 0x10ffff then
      encode_uri_count unescaped_uri_bitset rest (uint32_t (output_length + 12))
    else .ok none

/-- Several `ecma_builtin_global_object_byte_to_hex` calls in a row, each
followed by `output_char_p += 3`. -/
def bytes_to_hex (char_bits : Nat) : List Nat → Except uri_error (List Nat)
  | [] => .ok []
  | byte :: rest =>
    match ecma_builtin_global_object_byte_to_hex char_bits byte with
    | .error e => .error e
    | .ok hex =>
      match bytes_to_hex char_bits rest with
      | .error e => .error e
      | .ok tail => .ok (hex ++ tail)

/-- The second `for` loop of `ecma_builtin_global_object_encode_uri_helper`,
which writes the output. -/
def encode_uri_write (char_bits : Nat) (unescaped_uri_bitset : List Nat) :
    List Nat → List Nat → Except uri_error (List Nat)
  | [], output => .ok output
  | character :: rest, output =>
    let escaped (bytes : List Nat) : Except uri_error (List Nat) :=
      match bytes_to_hex char_bits bytes with
      | .error e => .error e
      | .ok hex => encode_uri_write char_bits unescaped_uri_bitset rest (output ++ hex)
    if character ≤ 0x7f then
      match ecma_builtin_global_object_character_is_in character unescaped_uri_bitset with
      | .error e => .error e
      | .ok true =>
        encode_uri_write char_bits unescaped_uri_bitset rest
          (output ++ [ecma_char_t char_bits character])
      | .ok false => escaped [character]
    else if character ≤ 0x7ff then
      escaped [0xc0 ||| (character >>> 6), 0x80 ||| (character &&& 0x3f)]
    else if character ≤ 0xffff then
      escaped [0xe0 ||| (character >>> 12), 0x80 ||| ((character >>> 6) &&& 0x3f),
        0x80 ||| (character &&& 0x3f)]
    else
      escaped [0xf0 ||| (character >>> 18), 0x80 ||| ((character >>> 12) &&& 0x3f),
        0x80 ||| ((character >>> 6) &&& 0x3f), 0x80 ||| (character &&& 0x3f)]

/-- Port of `ecma_builtin_global_object_encode_uri_helper`; `input` holds the
`input_length` characters of the string that `ecma_op_to_string` returns for
the argument. -/
def ecma_builtin_global_object_encode_uri_helper (char_bits : Nat) (input : List Nat)
    (unescaped_uri_bitset : List Nat) : Except uri_error uri_completion :=
  match encode_uri_count unescaped_uri_bitset input 1 with
  | .error e => .error e
  | .ok none => .ok .throw_uri_error
  | .ok (some output_length) =>
    match encode_uri_write char_bits unescaped_uri_bitset input [] with
    | .error e => .error e
    | .ok output =>
      if output.length + 1 ≠ output_length then .error .assertion_failed
      else .ok (.normal (ecma_new_ecma_string (output ++ [0])))

/-- Port of `ecma_builtin_global_object_encode_uri`. -/
def ecma_builtin_global_object_encode_uri (char_bits : Nat) (uri : List Nat) :
    Except uri_error uri_completion :=
  ecma_builtin_global_object_encode_uri_helper char_bits uri unescaped_uri_set

/-- Port of `ecma_builtin_global_object_encode_uri_component`. -/
def ecma_builtin_global_object_encode_uri_component (char_bits : Nat)
    (uri_component : List Nat) : Except uri_error uri_completion :=
  ecma_builtin_global_object_encode_uri_helper char_bits uri_component
    unescaped_uri_component_set

/-! ## Abstract view of the literal pool, used to state its properties -/

/-- Index (counted from `i`) of the first element of a list that satisfies
`p`. -/
def first_index {α : Type} (p : α → Bool) : List α → Nat → Option Nat
  | [], _ => none
  | a :: rest, i => if p a then some i else first_index p rest (i + 1)

/-- Whether the string `s` compares equal to a literal of the given value, as
`string_equals_to_literal` decides it. -/
def value_matches (P : platform) (s : List Nat) : lit_value → Bool
  | .str chars _ => decide (chars.length = s.length) && strncmp_eq chars s s.length
  | .magic id =>
    decide (strlen (P.magic_strings.getD id []) = s.length)
      && strncmp_eq (P.magic_strings.getD id []) s s.length
  | .num _ => false

/-- Whether a literal value is a number equal to `num`, as
`convert_seen_num_to_token` decides it. -/
def value_is_num (num : ecma_number_t) : lit_value → Bool
  | .num n => num_eq n num
  | _ => false

/-- The literal stack of a state denotes the list of values `vs`. -/
def pool_has_values (st : lexer_state) (vs : List lit_value) : Prop :=
  List.Forall₂ (fun l v => literal_value st l = .ok v) st.literals vs

/-- The value that a string not yet in the pool is stored as: the id of the
first well-known string equal to it, else the bytes that `strncpy` copies with
their hash. -/
def new_string_value (P : platform) (s : List Nat) : lit_value :=
  match magic_string_find P.magic_strings s with
  | some id => .magic id
  | none => .str (strncpy_bytes s s.length) (P.hash (strncpy_bytes s s.length))

/-- Whether an inserted value compares equal to a literal of the given value,
as the search loop of its insert function decides it. -/
def matches_value (P : platform) : pool_value → lit_value → Bool
  | .str _ s => value_matches P s
  | .num n => value_is_num n

/-- The value under which an inserted value is stored when no literal compares
equal to it. -/
def stored_value (P : platform) : pool_value → lit_value
  | .str _ s => new_string_value P s
  | .num n => .num n

/-- The characters of a literal value: those of a string, the zero-terminated
table entry of a magic string. -/
def value_chars (P : platform) : lit_value → Option (List Nat)
  | .str chars _ => some chars
  | .magic id => some ((P.magic_strings.getD id []).take (strlen (P.magic_strings.getD id [])))
  | .num _ => none

/-- A consistent pool state holding the single string literal `ab`, in a cache
block that is exactly full. -/
def sample_pool_state : lexer_state :=
  { src := [], pos := 0, token_start := none, strict_mode := false,
    literals := [.LIT_STR 4096 2 195], strings_cache := 4096, cache := [97, 98, 0],
    strings_cache_size := 3, strings_cache_used_size := 3, allocations := 1 }

/-- The consistency of an array list block: the header and the `len` elements
fit in `size` bytes, and the data part has the length that `size` records. -/
def al_wf (A : al_platform) (al : array_list) : Prop :=
  A.sizeof_header + al.len * al.element_size ≤ al.size
    ∧ al.data.length = al.size - A.sizeof_header

/-- An allocator that returns the requested size rounded up to 8 bytes, with a
24-byte list header. -/
def sample_al_platform : al_platform :=
  { sizeof_header := 24, mem_heap_recommend_allocation_size := fun n => (n + 7) / 8 * 8 }

/-- Collaborators for evaluating variable resolution on concrete frames: the
literal of a variable id is the id itself, its name is one letter, every name
resolves in the given environment to a simple value, values are copied as
they are. -/
def sample_vm_platform : vm_platform :=
  { serializer_get_literal_id_by_uid := fun var_idx _ => some var_idx
    lit_string := fun lit_id => [97 + lit_id]
    ecma_op_resolve_reference_base := fun lex_env _ => some lex_env
    ecma_op_get_value_lex_env_base := fun _ name _ => .normal (.simple (name.headD 0))
    ecma_copy_value := fun v _ => v
    ecma_op_put_value_lex_env_base := fun _ _ _ _ => .empty }

/-- A frame with registers 128 and 129, as in the spec's example. -/
def sample_frame : int_data_t :=
  { pos := 0, min_reg_num := 128, max_reg_num := 129, regs := [.simple 7, .number 40],
    lex_env_p := 1, is_strict := false }

/-- The punctuator and operator token types. -/
def punctuator_types : List token_type :=
  [.TOK_OPEN_BRACE, .TOK_CLOSE_BRACE, .TOK_OPEN_PAREN, .TOK_CLOSE_PAREN, .TOK_OPEN_SQUARE,
   .TOK_CLOSE_SQUARE, .TOK_DOT, .TOK_SEMICOLON, .TOK_COMMA, .TOK_LESS, .TOK_GREATER,
   .TOK_LESS_EQ, .TOK_GREATER_EQ, .TOK_DOUBLE_EQ, .TOK_NOT_EQ, .TOK_TRIPLE_EQ,
   .TOK_NOT_DOUBLE_EQ, .TOK_PLUS, .TOK_MINUS, .TOK_MULT, .TOK_MOD, .TOK_DOUBLE_PLUS,
   .TOK_DOUBLE_MINUS, .TOK_LSHIFT, .TOK_RSHIFT, .TOK_RSHIFT_EX, .TOK_AND, .TOK_OR, .TOK_XOR,
   .TOK_NOT, .TOK_COMPL, .TOK_DOUBLE_AND, .TOK_DOUBLE_OR, .TOK_QUERY, .TOK_COLON, .TOK_EQ,
   .TOK_PLUS_EQ, .TOK_MINUS_EQ, .TOK_MULT_EQ, .TOK_MOD_EQ, .TOK_LSHIFT_EQ, .TOK_RSHIFT_EQ,
   .TOK_RSHIFT_EX_EQ, .TOK_AND_EQ, .TOK_OR_EQ, .TOK_XOR_EQ, .TOK_DIV, .TOK_DIV_EQ]

/-- The operators and punctuators of the language, each with its token type
(ECMA-262 v5, 7.7). -/
def operator_table : List (String × token_type) :=
  [("\x7b", .TOK_OPEN_BRACE), ("\x7d", .TOK_CLOSE_BRACE), ("(", .TOK_OPEN_PAREN),
   (")", .TOK_CLOSE_PAREN), ("[", .TOK_OPEN_SQUARE), ("]", .TOK_CLOSE_SQUARE), (".", .TOK_DOT),
   (";", .TOK_SEMICOLON), (",", .TOK_COMMA), ("<", .TOK_LESS), (">", .TOK_GREATER),
   ("<=", .TOK_LESS_EQ), (">=", .TOK_GREATER_EQ), ("==", .TOK_DOUBLE_EQ), ("!=", .TOK_NOT_EQ),
   ("===", .TOK_TRIPLE_EQ), ("!==", .TOK_NOT_DOUBLE_EQ), ("+", .TOK_PLUS), ("-", .TOK_MINUS),
   ("*", .TOK_MULT), ("%", .TOK_MOD), ("++", .TOK_DOUBLE_PLUS), ("--", .TOK_DOUBLE_MINUS),
   ("<<", .TOK_LSHIFT), (">>", .TOK_RSHIFT), (">>>", .TOK_RSHIFT_EX), ("&", .TOK_AND),
   ("|", .TOK_OR), ("^", .TOK_XOR), ("!", .TOK_NOT), ("~", .TOK_COMPL), ("&&", .TOK_DOUBLE_AND),
   ("||", .TOK_DOUBLE_OR), ("?", .TOK_QUERY), (":", .TOK_COLON), ("=", .TOK_EQ),
   ("+=", .TOK_PLUS_EQ), ("-=", .TOK_MINUS_EQ), ("*=", .TOK_MULT_EQ), ("%=", .TOK_MOD_EQ),
   ("<<=", .TOK_LSHIFT_EQ), (">>=", .TOK_RSHIFT_EQ), (">>>=", .TOK_RSHIFT_EX_EQ),
   ("&=", .TOK_AND_EQ), ("|=", .TOK_OR_EQ), ("^=", .TOK_XOR_EQ), ("/", .TOK_DIV),
   ("/=", .TOK_DIV_EQ)]

/-- The characters `c`, `c1` at the cursor lead `lexer_next_token_private` to
its final `switch`: no name, number, newline, end of file, string, white space
or comment starts there. -/
def punct_start (c c1 : Nat) : Bool :=
  !(isalpha c || decide (c = 36) || decide (c = 95))
    && !(isdigit c || (decide (c = 46) && isdigit c1))
    && !decide (c = 10) && !decide (c = 0) && !(decide (c = 39) || decide (c = 34))
    && !isspace c && !(decide (c = 47) && decide (c1 = 42))
    && !(decide (c = 47) && decide (c1 = 47))

/-! ## Numeric literals: specification side -/

/-- The natural number that a finite, non-negative number with a non-negative
exponent denotes exactly. -/
def fp_to_nat : ecma_number_t → Option Nat
  | .finite false m (Int.ofNat e) => some (m * 2 ^ e)
  | _ => none

/-- The value of a digit character: `0`-`9`, `a`-`f`, `A`-`F`. -/
def digit_value (c : Nat) : Nat :=
  if 48 ≤ c ∧ c ≤ 57 then c - 48
  else if 97 ≤ c ∧ c ≤ 102 then c - 87
  else c - 55

/-- The value of a string of digits read in base `base`. -/
def digits_value (base : Nat) (ds : List Nat) : Nat :=
  ds.foldl (fun v c => v * base + digit_value c) 0

/-- The accumulator of `parse_number` that stands for the value `v`: the
integer `res` up to 255, `fp_res` beyond. -/
def acc_of (v : Nat) : num_acc :=
  if v ≤ 255 then { res := v, fp_res := .finite false 0 0, is_overflow := false }
  else { res := 0, fp_res := fp_of_nat v, is_overflow := true }

/-- The state with the cursor moved `n` characters forward. -/
def advance (st : lexer_state) (n : Nat) : lexer_state := { st with pos := st.pos + n }

/-- The character after a decimal or octal integer literal ends it: it is not
a digit, a dot, a letter (an exponent marker included), `_` or `$`. -/
def ends_integer (c : Nat) : Bool :=
  !(isdigit c || decide (c = 46) || isalpha c || decide (c = 95) || decide (c = 36))

/-- The character after a hexadecimal literal ends it: it is not a hex digit,
a letter, `_` or `$`. -/
def ends_hex (c : Nat) : Bool :=
  !(isxdigit c || isalpha c || decide (c = 95) || decide (c = 36))

/-- A character that may continue an identifier: a letter, a digit, `$` or
`_`. -/
def ident_char (c : Nat) : Bool :=
  isalpha c || isdigit c || decide (c = 36) || decide (c = 95)

/-- The character after a name ends it: it is neither an identifier character
nor a backslash. -/
def ends_name (c : Nat) : Bool := !(ident_char c || decide (c = 92))

/-- One element of the body of a string literal, as the language describes it:
a character standing for itself, a backslash with a single escape character, a
`\uHHHH` or `\xHH` escape, or a backslash with a line terminator (line feed,
carriage return, or the two together). -/
inductive str_piece where
  | plain (c : Nat)
  | esc (c : Nat)
  | hex4 (a b c d : Nat)
  | hex2 (a b : Nat)
  | cont_lf
  | cont_cr
  | cont_crlf
  deriving DecidableEq, Repr

/-- The source characters of an element. -/
def str_piece.raw : str_piece → List Nat
  | .plain c => [c]
  | .esc c => [92, c]
  | .hex4 a b c d => [92, 117, a, b, c, d]
  | .hex2 a b => [92, 120, a, b]
  | .cont_lf => [92, 10]
  | .cont_cr => [92, 13]
  | .cont_crlf => [92, 13, 10]

/-- The code unit, of unbounded width, that an element denotes; a line
continuation denotes nothing. -/
def str_piece.value : str_piece → Option Nat
  | .plain c => some c
  | .esc c => some (convert_single_escape_character c).2
  | .hex4 a b c d =>
    some (digit_value a * 4096 + digit_value b * 256 + digit_value c * 16 + digit_value d)
  | .hex2 a b => some (digit_value a * 16 + digit_value b)
  | _ => none

/-- The characters an element contributes to the decoded string when a
character is one byte wide. -/
def str_piece.decoded (p : str_piece) : List Nat :=
  match p.value with
  | some v => [v % 256]
  | none => []

/-- The source characters of a sequence of elements. -/
def pieces_raw : List str_piece → List Nat
  | [] => []
  | p :: ps => p.raw ++ pieces_raw ps

/-- The decoded characters of a sequence of elements. -/
def pieces_decoded : List str_piece → List Nat
  | [] => []
  | p :: ps => p.decoded ++ pieces_decoded ps

/-- An element is what its constructor says inside a literal closed by
`end_char`: a plain character is a byte other than NUL, a line terminator, the
backslash and the closing quote; an escape character is one of the single
escape characters; the digits of a hex escape are hex digits. -/
def str_piece.ok (end_char : Nat) : str_piece → Bool
  | .plain c => decide (c ≠ 0) && decide (c < 256) && !ecma_char_is_line_terminator c
      && decide (c ≠ 92) && decide (c ≠ end_char)
  | .esc c => (convert_single_escape_character c).1
  | .hex4 a b c d => isxdigit a && isxdigit b && isxdigit c && isxdigit d
  | .hex2 a b => isxdigit a && isxdigit b
  | _ => true

/-- A sequence of elements reads back as itself: every element is well formed
and a backslash with a lone carriage return is not followed by a line feed. -/
def pieces_ok (end_char : Nat) : List str_piece → Bool
  | [] => true
  | p :: ps =>
    p.ok end_char && (decide (p ≠ .cont_cr) || decide ((pieces_raw ps).headD end_char ≠ 10))
      && pieces_ok end_char ps

/-- An element denotes a code unit that one byte holds and that is not NUL. -/
def str_piece.exact (p : str_piece) : Bool :=
  match p.value with
  | some v => decide (0 < v) && decide (v < 256)
  | none => false

/-- An element is a plain character or a line continuation. -/
def str_piece.plain_or_cont : str_piece → Bool
  | .plain _ | .cont_lf | .cont_cr | .cont_crlf => true
  | _ => false

/-- How the body of a string literal ends. -/
inductive string_end where
  | closed
  | end_of_input
  | raw_newline
  deriving DecidableEq, Repr

/-- Where the scan of a string body stands: at an ordinary position, right
after a backslash, or right after a backslash and a carriage return. -/
inductive scan_state where
  | normal
  | escaped
  | escaped_cr
  deriving DecidableEq, Repr

/-- The scan of a string body, one character at a time: a backslash escapes the
character after it, and a line feed that follows an escaped carriage return is
escaped with it. -/
def scan_string (end_char : Nat) : scan_state → List Nat → string_end
  | _, [] => .end_of_input
  | .escaped, c :: rest =>
    if c = 0 then .end_of_input
    else if c = 13 then scan_string end_char .escaped_cr rest
    else scan_string end_char .normal rest
  | s, c :: rest =>
    if s = .escaped_cr ∧ c = 10 then scan_string end_char .normal rest
    else if c = 0 then .end_of_input
    else if c = 92 then scan_string end_char .escaped rest
    else if c = end_char then .closed
    else if ecma_char_is_line_terminator c then .raw_newline
    else scan_string end_char .normal rest

/-- The end of a string literal as the language describes it, read from the
character after the opening quote: the first unescaped closing quote closes it,
unless the end of the buffer (a NUL, or no character at all) or an unescaped
line terminator comes first. -/
def scan_string_body (end_char : Nat) (body : List Nat) : string_end :=
  scan_string end_char .normal body

/-- The parse error of a string literal that ends in the given way. -/
def string_end_error (locus : Nat) : string_end → lex_error
  | .raw_newline => .newline_in_string locus
  | _ => .unclosed_string locus

/-- The lexer stands between two tokens at offset `k` of the source `src`: no
token is saved, none is being scanned, and the literal pool is consistent and
denotes the values `vs`. -/
def lex_at (src : List Nat) (strict : Bool) (cx : lexer_ctx) (k : Nat) (vs : List lit_value) :
    Prop :=
  cx.st.src = src ∧ cx.st.pos = k ∧ cx.st.token_start = none ∧ cx.st.strict_mode = strict
    ∧ is_empty cx.saved_token = true ∧ pool_wf cx.st ∧ pool_has_values cx.st vs
    ∧ k ≤ src.length

/-- A word is none of the literals `false`, `true`, `null` that `decode_keyword`
recognises after the keyword table. -/
def not_literal_word (w : List Nat) : Bool :=
  !(decide (strlen (cstr "false") = w.length) && strncmp_eq w (cstr "false") w.length)
    && !(decide (strlen (cstr "true") = w.length) && strncmp_eq w (cstr "true") w.length)
    && !(decide (strlen (cstr "null") = w.length) && strncmp_eq w (cstr "null") w.length)

/-- A text contains the two characters `*/` that close a multi-line comment. -/
def has_close : List Nat → Bool
  | [] => false
  | c :: rest => (decide (c = 42) && decide (rest.headD 0 = 47)) || has_close rest

/-! ## RegExp bytecode: the block as the compiler keeps it -/

/-- The bytecode context after `code` has been written into the first block:
the block of `REGEXP_BYTECODE_BLOCK_SIZE` cells holds `code`, the cells never
written read as 0. -/
def bc_of (code : List Nat) : re_bytecode_ctx_t :=
  { is_null := false, mem := code ++ List.replicate (256 - code.length) 0, len := code.length }

/-- The list `code` with `b` spliced in at `offset`. -/
def splice (code : List Nat) (offset b : Nat) : List Nat :=
  code.take offset ++ b :: code.drop offset

/-- The context holds a block in the form of `bc_of`, of at most 256 cells. -/
def bc_ok (bc : re_bytecode_ctx_t) : Prop :=
  bc = bc_of (bytecode_of bc) ∧ bc.len ≤ 256

/-- From `bc` to `bc1` the bytecode grew by `k` cells and kept its first cell. -/
def bc_ext (k : Nat) (bc bc1 : re_bytecode_ctx_t) : Prop :=
  bc_ok bc1 ∧ bc1.len = bc.len + k ∧ (bytecode_of bc1).head? = (bytecode_of bc).head?

/-- The number of tokens of kind `t` in a token list. -/
def count_tokens (t : re_token_type_t) (l : List re_token_t) : Nat :=
  (l.filter (fun x => x.type = t)).length

/-- From `ctx` to `ctx1` only the bytecode changed, by `k` cells. -/
def ctx_ext (k : Nat) (ctx ctx1 : re_compiler_ctx_t) : Prop :=
  ctx1.flags = ctx.flags ∧ ctx1.recursion_depth = ctx.recursion_depth
    ∧ ctx1.num_of_captures = ctx.num_of_captures
    ∧ ctx1.num_of_non_captures = ctx.num_of_non_captures
    ∧ ctx1.current_token = ctx.current_token ∧ ctx1.parser_ctx = ctx.parser_ctx
    ∧ bc_ext k ctx.bytecode_ctx ctx1.bytecode_ctx

/-- What holds between the context at the start of a run of the compiler loop
and the context at its end: the block keeps its form and its first cell, every
group counted since the start has its seven cells in the bytecode, the group
counters grew by the number of group tokens read, and the flags are kept. -/
def re_rel (ctx ctx1 : re_compiler_ctx_t) : Prop :=
  bc_ok ctx1.bytecode_ctx
    ∧ (bytecode_of ctx1.bytecode_ctx).head? = (bytecode_of ctx.bytecode_ctx).head?
    ∧ ctx.bytecode_ctx.len ≤ ctx1.bytecode_ctx.len
    ∧ ctx.num_of_captures ≤ ctx1.num_of_captures
    ∧ ctx.num_of_non_captures ≤ ctx1.num_of_non_captures
    ∧ ctx.bytecode_ctx.len + 7 * (ctx1.num_of_captures + ctx1.num_of_non_captures)
        ≤ ctx1.bytecode_ctx.len + 7 * (ctx.num_of_captures + ctx.num_of_non_captures)
    ∧ ctx1.num_of_captures + count_tokens .RE_TOK_START_CAPTURE_GROUP ctx1.parser_ctx
        = ctx.num_of_captures + count_tokens .RE_TOK_START_CAPTURE_GROUP ctx.parser_ctx
    ∧ ctx1.num_of_non_captures + count_tokens .RE_TOK_START_NON_CAPTURE_GROUP ctx1.parser_ctx
        = ctx.num_of_non_captures
          + count_tokens .RE_TOK_START_NON_CAPTURE_GROUP ctx.parser_ctx
    ∧ ctx1.flags = ctx.flags
    ∧ ctx1.parser_ctx.length ≤ ctx.parser_ctx.length

/-- The completions that a run of the loop can end with. -/
def loop_result (R : re_platform) (r : ecma_completion_value_t) : Prop :=
  r = .empty ∨ r = re_throw R .ECMA_ERROR_SYNTAX


/-! ## RegExp flags: specification side -/

/-- The bit of a flag character: `g`, `i`, `m`; 0 for any other character. -/
def flag_bit (ch : Nat) : Nat :=
  if ch = 103 then RE_FLAG_GLOBAL
  else if ch = 105 then RE_FLAG_IGNORE_CASE
  else if ch = 109 then RE_FLAG_MULTILINE
  else 0

/-- The flags string consists only of `g`, `i` and `m`, none repeated. -/
def valid_flags (s : List Nat) : Prop :=
  (∀ c ∈ s, c = 103 ∨ c = 105 ∨ c = 109) ∧ s.Nodup

/-- The OR of the bits of the characters of a flags string, on top of `fl`. -/
def flags_mask (fl : Nat) (s : List Nat) : Nat :=
  s.foldl (fun acc c => acc ||| flag_bit c) fl

/-- Every character of `s` is a flag whose bit is not yet set in `fl`, and no
character is repeated. -/
def fresh_flags (fl : Nat) (s : List Nat) : Prop :=
  (∀ c ∈ s, (c = 103 ∨ c = 105 ∨ c = 109) ∧ fl &&& flag_bit c = 0) ∧ s.Nodup

/-- The part of `regexp_compile_bytecode` after the flags, from the point where
the top-level `parse_alternative` has passed its depth check: the loop runs at
depth 1 on the block that holds `RE_OP_SAVE_AT_START`. -/
def compile_from (R : re_platform) (pattern : List re_token_t) (fl : Nat) :
    Except re_error re_compile_result :=
  match parse_alternative_loop R (2 * pattern.length + 3)
      { flags := fl, recursion_depth := 1, num_of_captures := 1, num_of_non_captures := 0,
        bytecode_ctx := bc_of [RE_OP_SAVE_AT_START],
        current_token := ⟨.RE_TOK_EOF, 0, 1, 1, true⟩, parser_ctx := pattern } true 1 with
  | .error e => .error e
  | .ok r =>
    match re_finish r.2 with
    | .error e => .error e
    | .ok ctx2 =>
      .ok ⟨if ecma_is_completion_value_throw r.1 then r.1 else .empty, some ctx2⟩

/-! ## Register variables: what a value stands for -/

/-- What a value stands for: a number value stands for the number held in its
cell, any other value for itself. -/
def value_content (heap : num_heap) (v : ecma_value_t) : ecma_number_t ⊕ ecma_value_t :=
  match v with
  | .number addr => .inl (heap_read heap addr)
  | .empty => .inr .empty
  | .simple s => .inr (.simple s)
  | .string a => .inr (.string a)
  | .object a => .inr (.object a)

/-- The value copy of the platform returns a value that stands for the same
thing as its argument. -/
def copy_preserves (V : vm_platform) (heap : num_heap) : Prop :=
  ∀ v deep, value_content heap (V.ecma_copy_value v deep) = value_content heap v

/-! ## RegExp atoms: the cells of a char or period token -/

/-- The code of a char or period atom without its quantifier. -/
def atom_code (t : re_token_t) : List Nat :=
  match t.type with
  | .RE_TOK_PERIOD => [RE_OP_PERIOD]
  | _ => [RE_OP_CHAR, t.value % 256]

/-- The layout of a quantified atom: the iterator opcode, the minimum, the
maximum, the length of the atom code with its `RE_OP_MATCH`, the atom code,
`RE_OP_MATCH`. -/
def iterator_layout (greedy : Bool) (qmin qmax : Nat) (atom : List Nat) : List Nat :=
  [if greedy then RE_OP_GREEDY_ITERATOR else RE_OP_NON_GREEDY_ITERATOR, qmin, qmax,
    atom.length + 1] ++ atom ++ [RE_OP_MATCH]

/-- The cells that the compiler writes for a char or period token: minimum and
maximum are stored in one cell each, as their low byte. -/
def atom_cells (t : re_token_t) : List Nat :=
  if t.qmin ≠ 1 ∨ t.qmax ≠ 1 then
    iterator_layout t.greedy (t.qmin % 256) (t.qmax % 256) (atom_code t)
  else atom_code t

/-- The cells of a char or period token in the words of the specification:
the minimum and the maximum themselves. -/
def spec_atom_cells (t : re_token_t) : List Nat :=
  if t.qmin ≠ 1 ∨ t.qmax ≠ 1 then iterator_layout t.greedy t.qmin t.qmax (atom_code t)
  else atom_code t

/-- The OR of `RE_FLAG_GLOBAL`, `RE_FLAG_IGNORE_CASE` and `RE_FLAG_MULTILINE`
for those of the characters `g`, `i`, `m` that occur in `s`. -/
def present_mask (s : List Nat) : Nat :=
  (if 103 ∈ s then RE_FLAG_GLOBAL else 0) ||| (if 105 ∈ s then RE_FLAG_IGNORE_CASE else 0)
    ||| (if 109 ∈ s then RE_FLAG_MULTILINE else 0)

/-- The mask of three flags given as booleans. -/
def mask_of (g i m : Bool) : Nat :=
  (if g then RE_FLAG_GLOBAL else 0) ||| (if i then RE_FLAG_IGNORE_CASE else 0)
    ||| (if m then RE_FLAG_MULTILINE else 0)

/-! ## Growable buffer: sequences of operations -/

/-- The operations that modify an array list. -/
inductive al_op where
  | append (element : List Nat)
  | drop_last
  | set_element (index : Nat) (elem : List Nat)
  | set_last_element (index : Nat) (elem : List Nat)
  deriving DecidableEq, Repr

/-- One operation on an array list. -/
def al_apply (A : al_platform) (al : array_list) : al_op → Except al_error array_list
  | .append element => array_list_append A al element
  | .drop_last => array_list_drop_last al
  | .set_element index elem => array_list_set_element al index elem
  | .set_last_element index elem => array_list_set_last_element al index elem

/-- A sequence of operations, each on the list returned by the previous one. -/
def al_apply_all (A : al_platform) : array_list → List al_op → Except al_error array_list
  | al, [] => .ok al
  | al, op :: ops =>
    match al_apply A al op with
    | .error e => .error e
    | .ok al1 => al_apply_all A al1 ops

/-! ## Scanning: the shape of the raw bodies -/

/-- The scan behind `raw_body_ok`, one character at a time: a backslash takes
the next character with it, and a carriage return taken by a backslash takes a
following line feed; the scan fails when nothing follows a backslash. -/
def raw_body_scan : scan_state → List Nat → Bool
  | .escaped, [] => false
  | _, [] => true
  | .escaped, c :: rest =>
    if c = 13 then raw_body_scan .escaped_cr rest else raw_body_scan .normal rest
  | s, c :: rest =>
    if s = .escaped_cr ∧ c = 10 then raw_body_scan .normal rest
    else if c = 92 then raw_body_scan .escaped rest
    else raw_body_scan .normal rest

/-- The raw bodies in which every backslash is followed by the character it
escapes, the characters being paired the way `parse_string` pairs them. -/
def raw_body_ok (body : List Nat) : Bool := raw_body_scan .normal body

/-- The outcomes of the decoding loop on the raw string `body`, started with
the characters `buf` already decoded, in which no bounds assertion failed: the
unimplemented `\0`, a malformed sequence, or a decoded buffer that grew by at
most the length of `body`. -/
def decoded_in_bounds (body buf : List Nat) (r : Except lex_error decoded) : Prop :=
  r = .error .unimplemented_nul ∨ r = .ok none
    ∨ ∃ out l a, r = .ok (some (buf ++ out, l, a)) ∧ out.length ≤ body.length

/-! ## Scanning: what a step of the lexer does to the cursor -/

/-- A step that builds a token: it does not run out of fuel and leaves the
source, the cursor and the token start as they were. -/
def keeps_cursor (st : lexer_state) (r : Except lex_error (token × lexer_state)) : Prop :=
  (∀ e, r = .error e → e ≠ .out_of_fuel)
    ∧ (∀ t st2, r = .ok (t, st2) →
        st2.src = st.src ∧ st2.pos = st.pos ∧ st2.token_start = st.token_start)

/-- A step that scans a token: it does not run out of fuel, and when it
returns it has moved the cursor forward by at least one character, not past
the end of the buffer, and no token is being scanned any more. -/
def scans_token (st : lexer_state) (r : Except lex_error (token × lexer_state)) : Prop :=
  (∀ e, r = .error e → e ≠ .out_of_fuel)
    ∧ (∀ t st2, r = .ok (t, st2) →
        st2.src = st.src ∧ st2.token_start = none ∧ st.pos < st2.pos
          ∧ st2.pos ≤ st.src.length)

/-- A call of `lexer_next_token_private`: it does not run out of fuel, and
when it returns the cursor has not moved back, is not past the end of the
buffer, no token is being scanned, and unless the token is the end-of-file
token the cursor has moved forward. -/
def next_token_step (st : lexer_state) (r : Except lex_error (token × lexer_state)) : Prop :=
  (∀ e, r = .error e → e ≠ .out_of_fuel)
    ∧ (∀ t st2, r = .ok (t, st2) →
        st2.src = st.src ∧ st2.token_start = none ∧ st.pos ≤ st2.pos
          ∧ st2.pos ≤ st.src.length ∧ (t.type ≠ .TOK_EOF → st.pos < st2.pos))

/-! ## URI: specification side -/

/-- The uppercase hexadecimal digit of a value below 16. -/
def upper_hex_digit (d : Nat) : Nat := if d > 9 then d + 55 else d + 48

/-- The escape of one byte: `%` and its two uppercase hexadecimal digits. -/
def percent_escape (b : Nat) : List Nat := [37, upper_hex_digit (b / 16), upper_hex_digit (b % 16)]

/-- The escapes of several bytes in a row. -/
def percent_escapes : List Nat → List Nat
  | [] => []
  | b :: bs => percent_escape b ++ percent_escapes bs

/-- The two-byte UTF-8 form of the value `v` (below 0x800), overlong when `v`
is below 0x80. -/
def utf8_form2 (v : Nat) : List Nat := [0xc0 + v / 64 % 32, 0x80 + v % 64]

/-- The three-byte UTF-8 form of the value `v` (below 0x10000), overlong when
`v` is below 0x800. -/
def utf8_form3 (v : Nat) : List Nat := [0xe0 + v / 4096 % 16, 0x80 + v / 64 % 64, 0x80 + v % 64]

/-- The four-byte UTF-8 form of the value `v` (below 0x200000), overlong when
`v` is below 0x10000. -/
def utf8_form4 (v : Nat) : List Nat :=
  [0xf0 + v / 262144 % 8, 0x80 + v / 4096 % 64, 0x80 + v / 64 % 64, 0x80 + v % 64]

/-- The value that the continuation bytes `bs` add to `character`, six bits
each. -/
def utf8_accumulate (character : Nat) (bs : List Nat) : Nat :=
  bs.foldl (fun ch b => ch * 64 + b % 64) character

/-- The surrogate pair of a code point from 0x10000 as ECMA-262 v5 15.1.3
requires it: the high surrogate carries the upper ten bits of
`c - 0x10000`, the low surrogate the lower ten. -/
def utf16_surrogate_pair (c : Nat) : List Nat :=
  [0xD800 ||| ((c - 0x10000) >>> 10), 0xDC00 ||| ((c - 0x10000) &&& 0x3FF)]

/-- The character `c` is below 128 and its bit is set in the bitset. -/
def uri_unescaped (bitset : List Nat) (c : Nat) : Bool :=
  decide (c < 128) && decide ((bitset.getD (c >>> 3) 0 &&& (1 <<< (c &&& 0x7))) ≠ 0)

/-- The encoding of one code unit below 0x10000 as ECMA-262 v5 15.1.3
describes it: an unescaped character stands for itself, any other code unit is
replaced by the escapes of the bytes of its UTF-8 form. -/
def uri_encode_unit (bitset : List Nat) (c : Nat) : List Nat :=
  if c ≤ 0x7f then (if uri_unescaped bitset c then [c] else percent_escape c)
  else if c ≤ 0x7ff then percent_escapes (utf8_form2 c)
  else percent_escapes (utf8_form3 c)

/-- The encoding of a string of code units below 0x10000. -/
def uri_encode_units (bitset : List Nat) : List Nat → List Nat
  | [] => []
  | c :: s => uri_encode_unit bitset c ++ uri_encode_units bitset s

/-- An uppercase hexadecimal digit: `0` to `9` or `A` to `F`. -/
def is_upper_hex (c : Nat) : Bool :=
  (decide (48 ≤ c) && decide (c ≤ 57)) || (decide (65 ≤ c) && decide (c ≤ 70))

/-- The text consists only of unescaped characters and of escapes: `%`
followed by two uppercase hexadecimal digits. -/
def uri_escaped_form (bitset : List Nat) (e : List Nat) : Prop :=
  ∃ pieces : List (List Nat), e = pieces.flatten
    ∧ ∀ p ∈ pieces, (∃ c, p = [c] ∧ uri_unescaped bitset c = true)
        ∨ (∃ h l, p = [37, h, l] ∧ is_upper_hex h = true ∧ is_upper_hex l = true)

/-! # Properties -/

/-! ## C strings -/


theorem strncmp_eq_take (n : Nat) : ∀ (a b : List Nat), strncmp_eq a b n = strncmp_eq (a.take n) b n := by
  induction n with
  | zero => intro a b; simp [strncmp_eq]
  | succ n ih =>
    intro a b
    cases a with
    | nil => simp [strncmp_eq]
    | cons x xs =>
      simp only [strncmp_eq, List.take_succ_cons, List.headD_cons, List.tail_cons]
      rw [ih xs b.tail]

theorem strncmp_eq_comm (n : Nat) : ∀ (a b : List Nat), strncmp_eq a b n = strncmp_eq b a n := by
  induction n with
  | zero => intro a b; simp [strncmp_eq]
  | succ n ih =>
    intro a b
    have key : ∀ (x y : Nat) (xs ys : List Nat),
        (if x ≠ y then false else if x = 0 then true else strncmp_eq xs ys n)
          = (if y ≠ x then false else if y = 0 then true else strncmp_eq ys xs n) := by
      intro x y xs ys
      by_cases h : x = y
      · subst h; simp [ih xs ys]
      · have h2 : ¬ y = x := fun e => h e.symm
        simp [h, h2]
    cases a <;> cases b <;> simp only [strncmp_eq, List.headD_cons, List.headD_nil, List.tail_cons,
      List.tail_nil] <;> apply key

theorem strncmp_eq_nul_free (s : List Nat) : ∀ (m : List Nat), 0 ∉ s →
    (strncmp_eq m s s.length = true ↔ m.take s.length = s) := by
  induction s with
  | nil => intro m _; simp [strncmp_eq]
  | cons c cs ih =>
    intro m h0
    have hc : c ≠ 0 := fun e => h0 (by simp [e])
    have hcs : 0 ∉ cs := fun e => h0 (by simp [e])
    cases m with
    | nil => simp [strncmp_eq, Ne.symm hc]
    | cons x xs =>
      simp only [strncmp_eq, List.length_cons, List.headD_cons, List.tail_cons, List.take_succ_cons]
      by_cases hx : x = c
      · subst hx
        simp [hc, ih xs hcs]
      · simp [hx]

theorem strncpy_bytes_nul_free (s : List Nat) : 0 ∉ s → strncpy_bytes s s.length = s := by
  induction s with
  | nil => intro _; simp [strncpy_bytes]
  | cons c cs ih =>
    intro h0
    have hc : c ≠ 0 := fun e => h0 (by simp [e])
    have hcs : 0 ∉ cs := fun e => h0 (by simp [e])
    simp [strncpy_bytes, hc, ih hcs]

theorem strncpy_bytes_length (n : Nat) : ∀ (s : List Nat), (strncpy_bytes s n).length = n := by
  induction n with
  | zero => intro s; simp [strncpy_bytes]
  | succ n ih =>
    intro s
    simp only [strncpy_bytes]
    split <;> simp [ih]

theorem strncmp_eq_zero_left (n : Nat) (xs ys m : List Nat) :
    strncmp_eq (0 :: xs) m (n + 1) = strncmp_eq (0 :: ys) m (n + 1) := by
  cases m <;> simp [strncmp_eq]

theorem strncmp_eq_strncpy (n : Nat) : ∀ (s m : List Nat),
    strncmp_eq (strncpy_bytes s n) m n = strncmp_eq s m n := by
  induction n with
  | zero => intro s m; simp [strncmp_eq]
  | succ n ih =>
    intro s m
    cases s with
    | nil =>
      cases m <;> simp [strncmp_eq, strncpy_bytes, List.replicate_succ]
    | cons c cs =>
      by_cases hc : c = 0
      · subst hc
        simp only [strncpy_bytes, List.headD_cons, if_true, List.replicate_succ]
        exact strncmp_eq_zero_left n _ _ m
      · cases m <;> simp [strncmp_eq, strncpy_bytes, hc, ih]

theorem strlen_take_nul_free (m : List Nat) : 0 ∉ m.take (strlen m) := by
  induction m with
  | nil => simp [strlen]
  | cons c cs ih =>
    simp only [strlen]
    by_cases hc : c = 0
    · simp [hc]
    · simp [hc, List.take_succ_cons, ih, Ne.symm hc]

theorem strlen_le (m : List Nat) : strlen m ≤ m.length := by
  induction m with
  | nil => simp [strlen]
  | cons c cs ih =>
    simp only [strlen]
    split <;> simp <;> omega

/-! ## First matching index -/

theorem first_index_ge {α : Type} (p : α → Bool) : ∀ (l : List α) (i k : Nat),
    first_index p l i = some k → i ≤ k ∧ k < i + l.length := by
  intro l
  induction l with
  | nil => intro i k h; simp [first_index] at h
  | cons a rest ih =>
    intro i k h
    simp only [first_index] at h
    split at h
    · simp at h; subst h; simp
    · have := ih (i + 1) k h
      simp only [List.length_cons]; omega

theorem first_index_shift {α : Type} (p : α → Bool) : ∀ (l : List α) (i : Nat),
    first_index p l i = (first_index p l 0).map (· + i) := by
  intro l
  induction l with
  | nil => intro i; simp [first_index]
  | cons a rest ih =>
    intro i
    simp only [first_index]
    split
    · simp
    · rw [ih (i + 1), ih (0 + 1)]
      cases first_index p rest 0 <;> simp
      omega

theorem first_index_append {α : Type} (p : α → Bool) : ∀ (l l2 : List α) (i : Nat),
    first_index p (l ++ l2) i =
      match first_index p l i with
      | some k => some k
      | none => first_index p l2 (i + l.length) := by
  intro l
  induction l with
  | nil => intro l2 i; simp [first_index]
  | cons a rest ih =>
    intro l2 i
    simp only [List.cons_append, first_index]
    split
    · rfl
    · have e := ih l2 (i + 1)
      simp only [List.length_cons]
      have : i + 1 + rest.length = i + (rest.length + 1) := by omega
      rw [this] at e
      exact e

theorem first_index_some {α : Type} (p : α → Bool) : ∀ (l : List α) (i k : Nat),
    first_index p l i = some k →
      ∃ a, l.get? (k - i) = some a ∧ p a = true ∧ ∀ j b, j < k - i → l.get? j = some b → p b = false := by
  intro l
  induction l with
  | nil => intro i k h; simp [first_index] at h
  | cons a rest ih =>
    intro i k h
    simp only [first_index] at h
    split at h
    · rename_i hp
      simp at h; subst h
      exact ⟨a, by simp, hp, by intro j b hj; omega⟩
    · rename_i hp
      have hk := first_index_ge p rest (i + 1) k h
      obtain ⟨x, hx, hpx, hmin⟩ := ih (i + 1) k h
      have e : k - i = (k - (i + 1)) + 1 := by omega
      refine ⟨x, by rw [e]; simpa using hx, hpx, ?_⟩
      intro j b hj hb
      cases j with
      | zero => simp at hb; subst hb; simpa using hp
      | succ j => exact hmin j b (by omega) (by simpa using hb)

theorem first_index_none {α : Type} (p : α → Bool) : ∀ (l : List α) (i : Nat),
    first_index p l i = none → ∀ a ∈ l, p a = false := by
  intro l
  induction l with
  | nil => intro i _ a ha; simp at ha
  | cons x rest ih =>
    intro i h a ha
    simp only [first_index] at h
    split at h
    · simp at h
    · rename_i hp
      rcases List.mem_cons.mp ha with e | e
      · subst e; simpa using hp
      · exact ih (i + 1) h a e

/-! ## Reading the literal pool -/

theorem slice_congr {α : Type} (l1 l2 : List α) (u o n : Nat) (h : l1.take u = l2.take u)
    (hle : o + n ≤ u) : (l1.drop o).take n = (l2.drop o).take n := by
  have e : ∀ l : List α, (l.drop o).take n = ((l.take u).drop o).take n := by
    intro l
    rw [List.drop_take, List.take_take]
    congr 1
    omega
  rw [e l1, e l2, h]

theorem cache_from_ok (st : lexer_state) (p : Int) (h0 : st.strings_cache ≠ 0)
    (h1 : st.strings_cache ≤ p) (h2 : p < st.strings_cache + st.strings_cache_size) :
    cache_from st p = .ok (st.cache.drop (p - st.strings_cache).toNat) := by
  simp [cache_from, h0, h1, h2]

theorem pool_wf_base_ne_zero (st : lexer_state) (hw : pool_wf st) (str : Int) (len h : Nat)
    (hin : lit_in_cache st (.LIT_STR str len h) = true) : st.strings_cache ≠ 0 := by
  obtain ⟨_, h2, h3, _⟩ := hw
  intro e
  have hs := h3 e
  simp only [lit_in_cache, Bool.and_eq_true, decide_eq_true_eq] at hin
  omega

theorem literal_value_str (st : lexer_state) (hw : pool_wf st) (str : Int) (len h : Nat)
    (hin : lit_in_cache st (.LIT_STR str len h) = true) :
    literal_value st (.LIT_STR str len h)
      = .ok (.str ((st.cache.drop (str - st.strings_cache).toNat).take len) h) := by
  have h0 := pool_wf_base_ne_zero st hw str len h hin
  obtain ⟨h1, h2, h3, _⟩ := hw
  simp only [lit_in_cache, Bool.and_eq_true, decide_eq_true_eq] at hin
  have hc := cache_from_ok st str h0 hin.1 (by omega)
  simp only [literal_value, hc, bind, Except.bind, List.length_drop]
  rw [if_pos (by omega)]
  rfl

theorem pool_wf_has_values (st : lexer_state) (hw : pool_wf st) : ∃ vs, pool_has_values st vs := by
  have hall := hw.2.2.2
  unfold pool_has_values
  generalize st.literals = lits at hall
  induction lits with
  | nil => exact ⟨[], List.Forall₂.nil⟩
  | cons l rest ih =>
    obtain ⟨vs, hvs⟩ := ih (fun x hx => hall x (List.mem_cons_of_mem _ hx))
    have hl := hall l (List.mem_cons_self _ _)
    cases l with
    | LIT_STR str len h =>
      exact ⟨_ :: vs, List.Forall₂.cons (literal_value_str st hw str len h hl) hvs⟩
    | LIT_MAGIC_STR id => exact ⟨.magic id :: vs, List.Forall₂.cons rfl hvs⟩
    | LIT_NUMBER n => exact ⟨.num n :: vs, List.Forall₂.cons rfl hvs⟩

theorem string_equals_of_value (P : platform) (st : lexer_state) (s : List Nat) (lit : literal)
    (v : lit_value) (hv : literal_value st lit = .ok v) :
    string_equals_to_literal P st s lit = .ok (value_matches P s v) := by
  cases lit with
  | LIT_STR str len h =>
    simp only [literal_value, bind, Except.bind] at hv
    cases hc : cache_from st str with
    | error e => simp [hc] at hv
    | ok mem =>
      simp only [hc] at hv
      split at hv
      · rename_i hle
        simp only [pure, Except.pure, Except.ok.injEq] at hv
        subst hv
        simp only [string_equals_to_literal, value_matches, List.length_take, hc, bind, Except.bind,
          pure, Except.pure]
        by_cases hl : len = s.length
        · subst hl
          simp [Nat.min_eq_left hle, ← strncmp_eq_take]
        · have : ¬ min len mem.length = s.length := by rw [Nat.min_eq_left hle]; exact hl
          simp [hl, this]
      · simp [throw, throwThe, MonadExceptOf.throw] at hv
  | LIT_MAGIC_STR id =>
    simp only [literal_value, pure, Except.pure, Except.ok.injEq] at hv
    subst hv
    simp [string_equals_to_literal, value_matches, pure, Except.pure]
  | LIT_NUMBER n =>
    simp only [literal_value, pure, Except.pure, Except.ok.injEq] at hv
    subst hv
    simp [string_equals_to_literal, value_matches, pure, Except.pure]

theorem find_string_literal_eq (P : platform) (st : lexer_state) (s : List Nat) :
    ∀ (lits : List literal) (vs : List lit_value) (i : Nat),
      List.Forall₂ (fun l v => literal_value st l = .ok v) lits vs →
      find_string_literal P st s lits i = .ok (first_index (value_matches P s) vs i) := by
  intro lits vs i h
  induction h generalizing i with
  | nil => simp [find_string_literal, first_index, pure, Except.pure]
  | @cons l v ls vs' hlv _ ih =>
    have hs := string_equals_of_value P st s l v hlv
    simp only [find_string_literal, first_index, bind, Except.bind, pure, Except.pure]
    cases l with
    | LIT_STR str len h =>
      simp only [hs]
      split <;> simp_all
    | LIT_MAGIC_STR id =>
      simp only [hs]
      split <;> simp_all
    | LIT_NUMBER n =>
      simp only [literal_value, pure, Except.pure, Except.ok.injEq] at hlv
      subst hlv
      simp [value_matches, ih]

theorem find_num_literal_eq (st : lexer_state) (num : ecma_number_t) :
    ∀ (lits : List literal) (vs : List lit_value) (i : Nat),
      List.Forall₂ (fun l v => literal_value st l = .ok v) lits vs →
      find_num_literal num lits i = first_index (value_is_num num) vs i := by
  intro lits vs i h
  induction h generalizing i with
  | nil => simp [find_num_literal, first_index]
  | @cons l v ls vs' hlv _ ih =>
    cases l with
    | LIT_STR str len h =>
      simp only [literal_value, bind, Except.bind] at hlv
      cases hc : cache_from st str with
      | error e => simp [hc] at hlv
      | ok mem =>
        simp only [hc] at hlv
        split at hlv
        · simp only [pure, Except.pure, Except.ok.injEq] at hlv
          subst hlv
          simp [find_num_literal, first_index, value_is_num, ih]
        · simp [throw, throwThe, MonadExceptOf.throw] at hlv
    | LIT_MAGIC_STR id =>
      simp only [literal_value, pure, Except.pure, Except.ok.injEq] at hlv
      subst hlv
      simp [find_num_literal, first_index, value_is_num, ih]
    | LIT_NUMBER n =>
      simp only [literal_value, pure, Except.pure, Except.ok.injEq] at hlv
      subst hlv
      simp only [find_num_literal, first_index, value_is_num, ih]

/-! ## Growth of the strings cache -/

/-- The scanning fields that the literal pool never touches. -/
theorem cache_grow_frame (P : platform) (st : lexer_state) (n : Nat) :
    (cache_grow P st n).src = st.src ∧ (cache_grow P st n).pos = st.pos
      ∧ (cache_grow P st n).token_start = st.token_start
      ∧ (cache_grow P st n).strict_mode = st.strict_mode
      ∧ (cache_grow P st n).strings_cache_used_size = st.strings_cache_used_size
      ∧ (cache_grow P st n).literals.length = st.literals.length := by
  unfold cache_grow
  split
  · split <;> simp
  · simp

theorem forall2_map_mem {α β : Type} (R S : α → β → Prop) (f : α → α) :
    ∀ (l : List α) (vs : List β), (∀ a ∈ l, ∀ b, R a b → S (f a) b) →
      List.Forall₂ R l vs → List.Forall₂ S (l.map f) vs := by
  intro l vs hf h
  induction h with
  | nil => exact List.Forall₂.nil
  | @cons a b l vs hab _ ih =>
    exact List.Forall₂.cons (hf a (List.mem_cons_self _ _) b hab)
      (ih (fun x hx => hf x (List.mem_cons_of_mem _ hx)))

theorem literal_value_not_str_indep (st st1 : lexer_state) (l : literal)
    (h : ∀ str len hh, l ≠ .LIT_STR str len hh) : literal_value st1 l = literal_value st l := by
  cases l with
  | LIT_STR str len hh => exact absurd rfl (h str len hh)
  | LIT_MAGIC_STR id => rfl
  | LIT_NUMBER n => rfl

theorem cache_grow_spec (P : platform) (hP : platform_ok P) (st : lexer_state) (hw : pool_wf st)
    (n : Nat) :
    pool_wf (cache_grow P st n) ∧ (cache_grow P st n).strings_cache ≠ 0
      ∧ st.strings_cache_used_size + n + 1 ≤ (cache_grow P st n).strings_cache_size
      ∧ ∀ vs, pool_has_values st vs → pool_has_values (cache_grow P st n) vs := by
  obtain ⟨hrec, halloc⟩ := hP
  have hw0 := hw
  obtain ⟨h1, h2, h3, h4⟩ := hw
  unfold cache_grow
  by_cases hg : st.strings_cache_used_size + n ≥ st.strings_cache_size
  · rw [if_pos hg]
    have hsz := hrec (st.strings_cache_used_size + (n + 1))
    by_cases hb : st.strings_cache ≠ 0
    · rw [if_pos hb]
      refine ⟨⟨?_, ?_, ?_, ?_⟩, halloc _, by simp only; omega, ?_⟩
      · simp only [List.length_take, List.length_append, List.length_replicate]
        omega
      · simp only; omega
      · intro e; exact absurd e (halloc _)
      · intro lit hlit
        simp only [List.mem_map] at hlit
        obtain ⟨l0, hl0, rfl⟩ := hlit
        have := h4 l0 hl0
        cases l0 with
        | LIT_STR str len hh =>
          simp only [lit_in_cache, adjust_string_ptrs, Bool.and_eq_true, decide_eq_true_eq] at this ⊢
          constructor <;> omega
        | LIT_MAGIC_STR id => rfl
        | LIT_NUMBER m => rfl
      · intro vs hvs
        unfold pool_has_values at hvs ⊢
        simp only
        refine forall2_map_mem _ _ _ _ _ ?_ hvs
        intro l0 hl0 v hv
        have hin := h4 l0 hl0
        cases l0 with
        | LIT_STR str len hh =>
          rw [literal_value_str st hw0 str len hh hin] at hv
          rw [← hv]
          simp only [lit_in_cache, Bool.and_eq_true, decide_eq_true_eq] at hin
          simp only [adjust_string_ptrs, literal_value, cache_from, bind, Except.bind]
          rw [if_pos ⟨halloc _, by omega, by omega⟩]
          simp only [List.length_drop, List.length_take, List.length_append, List.length_replicate]
          have eo : (str + (P.mem_heap_alloc_block st.allocations - st.strings_cache)
              - P.mem_heap_alloc_block st.allocations).toNat = (str - st.strings_cache).toNat := by
            congr 1; omega
          rw [eo, if_pos (by omega)]
          simp only [pure, Except.pure, Except.ok.injEq, lit_value.str.injEq, and_true]
          apply slice_congr _ _ st.strings_cache_used_size
          · rw [List.take_take, Nat.min_eq_left (by omega)]
            rw [List.take_append_of_le_length (by simp only [List.length_take]; omega)]
            rw [List.take_take, Nat.min_self]
          · omega
        | LIT_MAGIC_STR id => exact hv
        | LIT_NUMBER m => exact hv
    · have hb0 : st.strings_cache = 0 := by simpa using hb
      have hs0 := h3 hb0
      rw [if_neg hb]
      refine ⟨⟨by simp, by simp only; omega, ?_, ?_⟩, halloc _, by simp only; omega, ?_⟩
      · intro e; exact absurd e (halloc _)
      · intro lit hlit
        have hin := h4 lit hlit
        cases lit with
        | LIT_STR str len hh =>
          simp only [lit_in_cache, Bool.and_eq_true, decide_eq_true_eq] at hin
          omega
        | LIT_MAGIC_STR id => rfl
        | LIT_NUMBER m => rfl
      · intro vs hvs
        unfold pool_has_values at hvs ⊢
        simp only
        have := forall2_map_mem (fun l v => literal_value st l = .ok v)
          (fun l v => literal_value { st with
            strings_cache_size := P.mem_heap_recommend_allocation_size (st.strings_cache_used_size + (n + 1)),
            cache := List.replicate (P.mem_heap_recommend_allocation_size (st.strings_cache_used_size + (n + 1))) 0,
            strings_cache := P.mem_heap_alloc_block st.allocations,
            allocations := st.allocations + 1 } l = .ok v) id st.literals vs ?_ hvs
        · simpa using this
        · intro l0 hl0 v hv
          have hin := h4 l0 hl0
          rw [← hv]
          apply literal_value_not_str_indep
          intro str len hh e
          subst e
          simp only [lit_in_cache, Bool.and_eq_true, decide_eq_true_eq] at hin
          omega
  · rw [if_neg hg]
    refine ⟨hw0, ?_, by omega, fun vs hvs => hvs⟩
    intro e
    have := h3 e
    omega

/-! ## Storing a string in the cache -/

theorem magic_string_find_strncpy (magic : List (List Nat)) (s : List Nat) :
    magic_string_find magic (strncpy_bytes s s.length) = magic_string_find magic s := by
  unfold magic_string_find
  simp only [strncpy_bytes_length, strncmp_eq_strncpy]

theorem mem_write_ok (mem : List Nat) (off : Nat) (bytes : List Nat)
    (h : off + bytes.length ≤ mem.length) :
    mem_write mem off bytes = .ok (mem.take off ++ bytes ++ mem.drop (off + bytes.length)) := by
  simp [mem_write, h]

/-- The second half of `add_string_to_string_cache`, from a state in which the
string fits. -/
theorem store_string_spec (P : platform) (st1 : lexer_state) (hw1 : pool_wf st1)
    (hb1 : st1.strings_cache ≠ 0) (s : List Nat)
    (hsz1 : st1.strings_cache_used_size + s.length + 1 ≤ st1.strings_cache_size) :
    ∃ mem lit, mem_write st1.cache st1.strings_cache_used_size (strncpy_bytes s s.length ++ [0]) = .ok mem
      ∧ lit = create_literal_from_zt P (st1.strings_cache + st1.strings_cache_used_size)
          (mem.drop st1.strings_cache_used_size) s.length
      ∧ pool_wf { st1 with cache := mem, strings_cache_used_size := s.length + 1 + st1.strings_cache_used_size, literals := st1.literals ++ [lit] }
      ∧ ∀ vs, pool_has_values st1 vs →
          pool_has_values { st1 with cache := mem, strings_cache_used_size := s.length + 1 + st1.strings_cache_used_size, literals := st1.literals ++ [lit] } (vs ++ [new_string_value P s]) := by
  have hw1c := hw1
  obtain ⟨g1, g2, g3, g4⟩ := hw1
  have hfit : st1.strings_cache_used_size + (strncpy_bytes s s.length ++ [0]).length
      ≤ st1.cache.length := by
    simp only [List.length_append, strncpy_bytes_length, List.length_singleton]
    omega
  have hlen1 : (st1.cache.take st1.strings_cache_used_size).length = st1.strings_cache_used_size := by
    simp only [List.length_take]; omega
  obtain ⟨mem, hmem⟩ : ∃ mem, mem = st1.cache.take st1.strings_cache_used_size
      ++ (strncpy_bytes s s.length ++ [0])
      ++ st1.cache.drop (st1.strings_cache_used_size + (strncpy_bytes s s.length ++ [0]).length) :=
    ⟨_, rfl⟩
  have hmlen : mem.length = st1.strings_cache_size := by
    rw [hmem]
    simp only [List.length_append, List.length_take, List.length_drop, strncpy_bytes_length,
      List.length_singleton] at hfit ⊢
    omega
  have hpre : mem.take st1.strings_cache_used_size = st1.cache.take st1.strings_cache_used_size := by
    rw [hmem, List.append_assoc, List.take_left' hlen1]
  have hdrop : (mem.drop st1.strings_cache_used_size).take s.length = strncpy_bytes s s.length := by
    rw [hmem, List.append_assoc, List.drop_left' hlen1, List.append_assoc,
      List.take_append_of_le_length (by simp [strncpy_bytes_length]),
      List.take_of_length_le (by simp [strncpy_bytes_length])]
  obtain ⟨lit, hlit⟩ : ∃ lit, lit = create_literal_from_zt P
      (st1.strings_cache + st1.strings_cache_used_size) (mem.drop st1.strings_cache_used_size)
      s.length := ⟨_, rfl⟩
  have hwf2 : pool_wf { st1 with cache := mem, strings_cache_used_size := s.length + 1 + st1.strings_cache_used_size, literals := st1.literals ++ [lit] } := by
    refine ⟨hmlen, ?_, ?_, ?_⟩
    · simp only; omega
    · intro e; exact absurd e hb1
    · intro l hl
      simp only [List.mem_append, List.mem_singleton] at hl
      rcases hl with hl | hl
      · have := g4 l hl
        cases l with
        | LIT_STR str len hh =>
          simp only [lit_in_cache, Bool.and_eq_true, decide_eq_true_eq] at this ⊢
          constructor <;> omega
        | LIT_MAGIC_STR id => rfl
        | LIT_NUMBER m => rfl
      · subst hl
        rw [hlit]
        unfold create_literal_from_zt
        split
        · rfl
        · simp only [lit_in_cache, Bool.and_eq_true, decide_eq_true_eq]
          constructor <;> omega
  refine ⟨mem, lit, ?_, hlit, hwf2, ?_⟩
  · rw [mem_write_ok _ _ _ hfit, hmem]
  · intro vs hvs
    unfold pool_has_values at hvs ⊢
    simp only
    apply List.rel_append
    · have := forall2_map_mem (fun l v => literal_value st1 l = .ok v)
        (fun l v => literal_value { st1 with cache := mem, strings_cache_used_size := s.length + 1 + st1.strings_cache_used_size, literals := st1.literals ++ [lit] } l = .ok v)
        id st1.literals vs ?_ hvs
      · simpa using this
      · intro l0 hl0 v hv
        have hin := g4 l0 hl0
        cases l0 with
        | LIT_STR str len hh =>
          have hin2 := hwf2.2.2.2 (.LIT_STR str len hh) (by simp [hl0])
          rw [literal_value_str _ hw1c str len hh hin] at hv
          rw [← hv, id, literal_value_str _ hwf2 str len hh hin2]
          simp only [lit_in_cache, Bool.and_eq_true, decide_eq_true_eq] at hin
          simp only [Except.ok.injEq, lit_value.str.injEq, and_true]
          apply slice_congr _ _ st1.strings_cache_used_size _ _ hpre
          omega
        | LIT_MAGIC_STR id => exact hv
        | LIT_NUMBER m => exact hv
    · refine List.Forall₂.cons ?_ List.Forall₂.nil
      have hl2 : lit = (match magic_string_find P.magic_strings s with
          | some id => literal.LIT_MAGIC_STR id
          | none => literal.LIT_STR (st1.strings_cache + st1.strings_cache_used_size) s.length
              (P.hash (strncpy_bytes s s.length))) := by
        rw [hlit]; unfold create_literal_from_zt; rw [hdrop, magic_string_find_strncpy]
        try (cases magic_string_find P.magic_strings s <;> rfl)
      unfold new_string_value
      cases hm : magic_string_find P.magic_strings s with
      | some id => rw [hm] at hl2; rw [hl2]; rfl
      | none =>
        rw [hm] at hl2
        simp only at hl2 ⊢
        clear hlit
        subst hl2
        have hmemb := hwf2.2.2.2 _ (List.mem_append_right _ (List.mem_singleton_self _))
        rw [literal_value_str _ hwf2 _ _ _ hmemb]
        simp only [Except.ok.injEq, lit_value.str.injEq, and_true]
        have eo : (st1.strings_cache + (st1.strings_cache_used_size : Int)
            - st1.strings_cache).toNat = st1.strings_cache_used_size := by omega
        simp only [eo]
        exact hdrop

theorem add_string_spec (P : platform) (hP : platform_ok P) (st : lexer_state) (hw : pool_wf st)
    (s : List Nat) :
    ∃ lit st2, add_string_to_string_cache P st s = .ok (lit, st2)
      ∧ st2.src = st.src ∧ st2.pos = st.pos ∧ st2.token_start = st.token_start
      ∧ st2.strict_mode = st.strict_mode
      ∧ st2.literals.length = st.literals.length
      ∧ pool_wf { st2 with literals := st2.literals ++ [lit] }
      ∧ ∀ vs, pool_has_values st vs →
          pool_has_values { st2 with literals := st2.literals ++ [lit] } (vs ++ [new_string_value P s]) := by
  obtain ⟨hw1, hb1, hsz1, hvals1⟩ := cache_grow_spec P hP st hw s.length
  obtain ⟨f1, f2, f3, f4, f5, f6⟩ := cache_grow_frame P st s.length
  obtain ⟨mem, lit, hmw, hlit, hwf2, hv2⟩ :=
    store_string_spec P (cache_grow P st s.length) hw1 hb1 s (by omega)
  refine ⟨lit, { cache_grow P st s.length with cache := mem, strings_cache_used_size := s.length + 1 + (cache_grow P st s.length).strings_cache_used_size },
    ?_, f1, f2, f3, f4, f6, hwf2, fun vs hvs => hv2 vs (hvals1 vs hvs)⟩
  unfold add_string_to_string_cache
  simp only
  rw [if_neg hb1, hmw, hlit]

/-! ## The insert path of the literal pool -/

theorem literal_value_push (st : lexer_state) (lit l : literal) :
    literal_value { st with literals := st.literals ++ [lit] } l = literal_value st l := by
  cases l <;> rfl

theorem lit_in_cache_push (st : lexer_state) (lit l : literal) :
    lit_in_cache { st with literals := st.literals ++ [lit] } l = lit_in_cache st l := by
  cases l <;> rfl

/-- Pushing a literal that needs no cache storage keeps the pool consistent and
appends its value. -/
theorem push_plain_spec (st : lexer_state) (hw : pool_wf st) (lit : literal) (v : lit_value)
    (hns : ∀ str len hh, lit ≠ .LIT_STR str len hh) (hv : literal_value st lit = .ok v) :
    pool_wf { st with literals := st.literals ++ [lit] }
      ∧ ∀ vs, pool_has_values st vs →
          pool_has_values { st with literals := st.literals ++ [lit] } (vs ++ [v]) := by
  obtain ⟨h1, h2, h3, h4⟩ := hw
  refine ⟨⟨h1, h2, h3, ?_⟩, ?_⟩
  · intro l hl
    simp only [List.mem_append, List.mem_singleton] at hl
    rw [lit_in_cache_push]
    rcases hl with hl | hl
    · exact h4 l hl
    · subst hl
      cases l with
      | LIT_STR str len hh => exact absurd rfl (hns str len hh)
      | LIT_MAGIC_STR id => rfl
      | LIT_NUMBER m => rfl
  · intro vs hvs
    unfold pool_has_values at hvs ⊢
    simp only [literal_value_push]
    exact List.rel_append hvs (List.Forall₂.cons hv List.Forall₂.nil)

theorem convert_string_spec (P : platform) (hP : platform_ok P) (st : lexer_state)
    (hw : pool_wf st) (vs : List lit_value) (hvs : pool_has_values st vs) (tt : token_type)
    (s : List Nat) :
    ∃ t st1, convert_string_to_token P st tt s = .ok (t, st1)
      ∧ st1.src = st.src ∧ st1.pos = st.pos ∧ st1.token_start = st.token_start
      ∧ st1.strict_mode = st.strict_mode
      ∧ pool_wf st1
      ∧ t = create_token st tt t.uid
      ∧ (∀ i, first_index (value_matches P s) vs 0 = some i → t.uid = i ∧ st1 = st)
      ∧ (first_index (value_matches P s) vs 0 = none →
          t.uid = vs.length ∧ pool_has_values st1 (vs ++ [new_string_value P s])) := by
  have hfind := find_string_literal_eq P st s st.literals vs 0 hvs
  have hlen : st.literals.length = vs.length := List.Forall₂.length_eq hvs
  unfold convert_string_to_token
  simp only [hfind, bind, Except.bind]
  cases hfi : first_index (value_matches P s) vs 0 with
  | some i =>
    refine ⟨create_token st tt i, st, rfl, rfl, rfl, rfl, rfl, hw, rfl, ?_, ?_⟩
    · intro j hj; simp only [Option.some.injEq] at hj; subst hj; exact ⟨rfl, rfl⟩
    · intro h; simp at h
  | none =>
    simp only
    unfold create_literal_from_str create_literal_from_zt new_string_value
    rw [List.take_length]
    cases hm : magic_string_find P.magic_strings s with
    | some id =>
      simp only [pure, Except.pure]
      obtain ⟨hw2, hv2⟩ := push_plain_spec st hw (.LIT_MAGIC_STR id) (.magic id)
        (by intro _ _ _ h; cases h) rfl
      refine ⟨_, _, rfl, rfl, rfl, rfl, rfl, hw2, ?_, ?_, ?_⟩
      · simp [create_token, current_locus]
      · intro j hj; simp at hj
      · intro _
        refine ⟨?_, hv2 vs hvs⟩
        simp [create_token, hlen]
    | none =>
      simp only
      obtain ⟨lit, st2, hadd, f1, f2, f3, f4, f5, hw2, hv2⟩ := add_string_spec P hP st hw s
      rw [hadd]
      simp only [pure, Except.pure]
      refine ⟨_, _, rfl, f1, f2, f3, f4, hw2, ?_, ?_, ?_⟩
      · simp [create_token, current_locus, f2, f3]
      · intro j hj; simp at hj
      · intro _
        have := hv2 vs hvs
        unfold new_string_value at this
        rw [hm] at this
        refine ⟨?_, this⟩
        simp [create_token, f5, hlen]

theorem convert_num_spec (st : lexer_state) (hw : pool_wf st) (vs : List lit_value)
    (hvs : pool_has_values st vs) (num : ecma_number_t) :
    (convert_seen_num_to_token st num).2.src = st.src
      ∧ (convert_seen_num_to_token st num).2.pos = st.pos
      ∧ (convert_seen_num_to_token st num).2.token_start = st.token_start
      ∧ (convert_seen_num_to_token st num).2.strict_mode = st.strict_mode
      ∧ pool_wf (convert_seen_num_to_token st num).2
      ∧ (convert_seen_num_to_token st num).1
          = create_token st .TOK_NUMBER (convert_seen_num_to_token st num).1.uid
      ∧ (∀ i, first_index (value_is_num num) vs 0 = some i →
          (convert_seen_num_to_token st num).1.uid = i ∧ (convert_seen_num_to_token st num).2 = st)
      ∧ (first_index (value_is_num num) vs 0 = none →
          (convert_seen_num_to_token st num).1.uid = vs.length
            ∧ pool_has_values (convert_seen_num_to_token st num).2 (vs ++ [.num num])) := by
  have hfind := find_num_literal_eq st num st.literals vs 0 hvs
  have hlen : st.literals.length = vs.length := List.Forall₂.length_eq hvs
  unfold convert_seen_num_to_token
  rw [hfind]
  cases hfi : first_index (value_is_num num) vs 0 with
  | some i =>
    refine ⟨rfl, rfl, rfl, rfl, hw, rfl, ?_, ?_⟩
    · intro j hj; simp only [Option.some.injEq] at hj; subst hj; exact ⟨rfl, rfl⟩
    · intro h; simp at h
  | none =>
    obtain ⟨hw2, hv2⟩ := push_plain_spec st hw (.LIT_NUMBER num) (.num num)
      (by intro _ _ _ h; cases h) rfl
    refine ⟨rfl, rfl, rfl, rfl, hw2, ?_, ?_, ?_⟩
    · simp [create_token, current_locus, create_literal_from_num]
    · intro j hj; simp at hj
    · intro _
      refine ⟨?_, hv2 vs hvs⟩
      simp [create_token, hlen]

/-! ## Stability of literal indices -/

theorem insert_spec (P : platform) (hP : platform_ok P) (st : lexer_state) (hw : pool_wf st)
    (vs : List lit_value) (hvs : pool_has_values st vs) (v : pool_value) :
    ∃ t st1, insert_value P st v = .ok (t, st1)
      ∧ pool_wf st1
      ∧ (∀ i, first_index (matches_value P v) vs 0 = some i → t.uid = i ∧ st1 = st)
      ∧ (first_index (matches_value P v) vs 0 = none →
          t.uid = vs.length ∧ pool_has_values st1 (vs ++ [stored_value P v])) := by
  cases v with
  | str tt s =>
    obtain ⟨t, st1, h, _, _, _, _, hw1, _, hf, hn⟩ := convert_string_spec P hP st hw vs hvs tt s
    exact ⟨t, st1, h, hw1, hf, hn⟩
  | num n =>
    obtain ⟨_, _, _, _, hw1, _, hf, hn⟩ := convert_num_spec st hw vs hvs n
    exact ⟨_, _, rfl, hw1, hf, hn⟩

/-- An insertion only appends to the values of the pool. -/
theorem insert_extends (P : platform) (hP : platform_ok P) (st : lexer_state) (hw : pool_wf st)
    (vs : List lit_value) (hvs : pool_has_values st vs) (v : pool_value) :
    ∃ t st1 ext, insert_value P st v = .ok (t, st1) ∧ pool_wf st1
      ∧ pool_has_values st1 (vs ++ ext) := by
  obtain ⟨t, st1, h, hw1, hf, hn⟩ := insert_spec P hP st hw vs hvs v
  cases hfi : first_index (matches_value P v) vs 0 with
  | some i =>
    obtain ⟨_, e⟩ := hf i hfi
    exact ⟨t, st1, [], h, hw1, by rw [e, List.append_nil]; exact hvs⟩
  | none => exact ⟨t, st1, _, h, hw1, (hn hfi).2⟩

theorem insert_all_extends (P : platform) (hP : platform_ok P) (ops : List pool_value) :
    ∀ (st : lexer_state), pool_wf st → ∀ (vs : List lit_value), pool_has_values st vs →
      ∃ ts st1 ext, insert_all P st ops = .ok (ts, st1) ∧ pool_wf st1
        ∧ pool_has_values st1 (vs ++ ext) := by
  induction ops with
  | nil =>
    intro st hw vs hvs
    exact ⟨[], st, [], rfl, hw, by rw [List.append_nil]; exact hvs⟩
  | cons v rest ih =>
    intro st hw vs hvs
    obtain ⟨t, st1, ext1, h1, hw1, hv1⟩ := insert_extends P hP st hw vs hvs v
    obtain ⟨ts, st2, ext2, h2, hw2, hv2⟩ := ih st1 hw1 _ hv1
    refine ⟨t :: ts, st2, ext1 ++ ext2, ?_, hw2, by rw [← List.append_assoc]; exact hv2⟩
    simp [insert_all, h1, h2, bind, Except.bind, pure, Except.pure]

theorem lexer_get_literal_by_id_ok (st : lexer_state) (i : Nat) (l : literal) :
    lexer_get_literal_by_id st i = .ok l ↔ st.literals[i]? = some l := by
  unfold lexer_get_literal_by_id
  rw [List.get?_eq_getElem?]
  cases st.literals[i]? <;> simp

theorem forall2_getElem_left {α β : Type} (R : α → β → Prop) (l : List α) (vs : List β)
    (h : List.Forall₂ R l vs) : ∀ (i : Nat) (a : α), l[i]? = some a → ∃ b, vs[i]? = some b ∧ R a b := by
  induction h with
  | nil => intro i a ha; simp at ha
  | @cons a0 b0 l0 vs0 h0 _ ih =>
    intro i a ha
    cases i with
    | zero => simp at ha; subst ha; exact ⟨b0, by simp, h0⟩
    | succ i => simpa using ih i a (by simpa using ha)

theorem forall2_getElem_right {α β : Type} (R : α → β → Prop) (l : List α) (vs : List β)
    (h : List.Forall₂ R l vs) : ∀ (i : Nat) (b : β), vs[i]? = some b → ∃ a, l[i]? = some a ∧ R a b := by
  induction h with
  | nil => intro i a ha; simp at ha
  | @cons a0 b0 l0 vs0 h0 _ ih =>
    intro i b hb
    cases i with
    | zero => simp at hb; subst hb; exact ⟨a0, by simp, h0⟩
    | succ i => simpa using ih i b (by simpa using hb)

/-- C3: relocation safety of the strings cache. From any consistent state of
the literal pool, every sequence of further insertions (whatever the number of
reallocations of the strings cache it causes) succeeds, and every index that
was valid before still resolves through `lexer_get_literal_by_id` to a literal
of the same kind with the same content: for a string literal the same
characters (hence the same length) and hash. -/
theorem C3_literals_survive_cache_growth (P : platform) (hP : platform_ok P) (st : lexer_state)
    (hw : pool_wf st) (ops : List pool_value) :
    ∃ ts st1, insert_all P st ops = .ok (ts, st1)
      ∧ ∀ i l, lexer_get_literal_by_id st i = .ok l →
          ∃ l1 v, lexer_get_literal_by_id st1 i = .ok l1
            ∧ literal_value st l = .ok v ∧ literal_value st1 l1 = .ok v := by
  obtain ⟨vs, hvs⟩ := pool_wf_has_values st hw
  obtain ⟨ts, st1, ext, h, _, hv1⟩ := insert_all_extends P hP ops st hw vs hvs
  refine ⟨ts, st1, h, ?_⟩
  intro i l hl
  rw [lexer_get_literal_by_id_ok] at hl
  obtain ⟨v, hv, hlv⟩ := forall2_getElem_left _ _ _ hvs i l hl
  have hi : i < vs.length := by
    by_contra hc
    have : vs[i]? = none := by simp; omega
    simp [this] at hv
  have hv' : (vs ++ ext)[i]? = some v := by
    rw [List.getElem?_append_left hi]
    exact hv
  obtain ⟨l1, hl1, hlv1⟩ := forall2_getElem_right _ _ _ hv1 i v hv'
  exact ⟨l1, v, (lexer_get_literal_by_id_ok st1 i l1).mpr hl1, hlv, hlv1⟩

/-! ## Equality of numbers and contents of literals -/

theorem num_eq_symm (a b : ecma_number_t) : num_eq a b = num_eq b a := by
  cases a with
  | nan => cases b <;> simp [num_eq]
  | inf s => cases b <;> simp [num_eq, eq_comm]
  | finite n m e =>
    cases b with
    | nan => simp [num_eq]
    | inf s => simp [num_eq]
    | finite n2 m2 e2 =>
      cases m <;> cases m2 <;> simp [num_eq, eq_comm]

theorem num_eq_trans (a b c : ecma_number_t) (h1 : num_eq a b = true) (h2 : num_eq b c = true) :
    num_eq a c = true := by
  cases a with
  | nan => simp [num_eq] at h1
  | inf s =>
    cases b with
    | nan => simp [num_eq] at h1
    | inf s2 => simp [num_eq] at h1; subst h1; exact h2
    | finite n2 m2 e2 => simp [num_eq] at h1
  | finite n m e =>
    cases b with
    | nan => simp [num_eq] at h1
    | inf s2 => simp [num_eq] at h1
    | finite n2 m2 e2 =>
      cases c with
      | nan => simp [num_eq] at h2
      | inf s3 => simp [num_eq] at h2
      | finite n3 m3 e3 =>
        cases m <;> cases m2 <;> cases m3 <;> simp_all [num_eq]

theorem num_eq_refl_left (a b : ecma_number_t) (h : num_eq a b = true) : num_eq a a = true :=
  num_eq_trans a b a h (by rw [num_eq_symm]; exact h)

theorem value_matches_chars (P : platform) (s : List Nat) (h0 : 0 ∉ s) (v : lit_value)
    (hm : value_matches P s v = true) : value_chars P v = some s := by
  cases v with
  | str chars hh =>
    simp only [value_matches, Bool.and_eq_true, decide_eq_true_eq] at hm
    have := (strncmp_eq_nul_free s chars h0).mp hm.2
    rw [← hm.1, List.take_length] at this
    simp [value_chars, this]
  | magic id =>
    simp only [value_matches, Bool.and_eq_true, decide_eq_true_eq] at hm
    have := (strncmp_eq_nul_free s _ h0).mp hm.2
    simp only [value_chars, hm.1, this]
  | num n => simp [value_matches] at hm

theorem magic_string_find_some (magic : List (List Nat)) (s : List Nat) (id : Nat)
    (h : magic_string_find magic s = some id) :
    strlen (magic.getD id []) = s.length ∧ strncmp_eq s (magic.getD id []) s.length = true := by
  unfold magic_string_find at h
  simp only at h
  split at h
  · rename_i hlt
    simp only [Option.some.injEq] at h
    subst h
    have := @List.findIdx_getElem _ (fun m => decide (strlen m = s.length) && strncmp_eq s m s.length)
      magic hlt
    simp only [Bool.and_eq_true, decide_eq_true_eq] at this
    rw [List.getD_eq_getElem?_getD, List.getElem?_eq_getElem hlt]
    exact this
  · simp at h

theorem new_string_value_matches (P : platform) (s : List Nat) (h0 : 0 ∉ s) :
    value_matches P s (new_string_value P s) = true := by
  unfold new_string_value
  cases hm : magic_string_find P.magic_strings s with
  | some id =>
    obtain ⟨h1, h2⟩ := magic_string_find_some _ _ _ hm
    simp only [value_matches, Bool.and_eq_true, decide_eq_true_eq]
    exact ⟨h1, by rw [strncmp_eq_comm]; exact h2⟩
  | none =>
    simp only [value_matches, strncpy_bytes_length, decide_True, Bool.true_and]
    rw [strncpy_bytes_nul_free s h0]
    exact (strncmp_eq_nul_free s s h0).mpr (List.take_length s)

theorem literal_chars_of_value (P : platform) (st : lexer_state) (l : literal) (v : lit_value)
    (c : List Nat) (hv : literal_value st l = .ok v) (hc : value_chars P v = some c) :
    literal_chars P st l = .ok c := by
  cases l with
  | LIT_STR str len hh =>
    simp only [literal_value, bind, Except.bind] at hv
    simp only [literal_chars, bind, Except.bind]
    cases hcf : cache_from st str with
    | error e => simp [hcf] at hv
    | ok mem =>
      simp only [hcf] at hv ⊢
      split at hv
      · rename_i hle
        simp only [pure, Except.pure, Except.ok.injEq] at hv
        subst hv
        simp only [value_chars, Option.some.injEq] at hc
        simp [hle, hc, pure, Except.pure]
      · simp [throw, throwThe, MonadExceptOf.throw] at hv
  | LIT_MAGIC_STR id =>
    simp only [literal_value, pure, Except.pure, Except.ok.injEq] at hv
    subst hv
    simp only [value_chars, Option.some.injEq] at hc
    simp only [literal_chars, hc, pure, Except.pure]
  | LIT_NUMBER n =>
    simp only [literal_value, pure, Except.pure, Except.ok.injEq] at hv
    subst hv
    simp [value_chars] at hc

theorem literal_value_num (st : lexer_state) (l : literal) (n : ecma_number_t)
    (hv : literal_value st l = .ok (.num n)) : l = .LIT_NUMBER n := by
  cases l with
  | LIT_STR str len hh =>
    simp only [literal_value, bind, Except.bind] at hv
    cases hcf : cache_from st str with
    | error e => simp [hcf] at hv
    | ok mem =>
      simp only [hcf] at hv
      split at hv <;> simp [pure, Except.pure, throw, throwThe, MonadExceptOf.throw] at hv
  | LIT_MAGIC_STR id => simp [literal_value, pure, Except.pure] at hv
  | LIT_NUMBER m => simp [literal_value, pure, Except.pure] at hv; rw [hv]

/-- After an insertion the returned index holds a value that the inserted value
compares equal to, or the value it was stored as. -/
theorem insert_lookup (P : platform) (hP : platform_ok P) (st : lexer_state) (hw : pool_wf st)
    (vs : List lit_value) (hvs : pool_has_values st vs) (v : pool_value) :
    ∃ t st1 vs1 u, insert_value P st v = .ok (t, st1) ∧ pool_wf st1
      ∧ pool_has_values st1 vs1 ∧ (∃ ext, vs1 = vs ++ ext)
      ∧ vs1[t.uid]? = some u
      ∧ ((first_index (matches_value P v) vs 0 = some t.uid ∧ st1 = st ∧ vs1 = vs
            ∧ matches_value P v u = true)
          ∨ (first_index (matches_value P v) vs 0 = none ∧ t.uid = vs.length
            ∧ vs1 = vs ++ [stored_value P v] ∧ u = stored_value P v)) := by
  obtain ⟨t, st1, h, hw1, hf, hn⟩ := insert_spec P hP st hw vs hvs v
  cases hfi : first_index (matches_value P v) vs 0 with
  | some i =>
    obtain ⟨e1, e2⟩ := hf i hfi
    obtain ⟨u, hu, hpu, _⟩ := first_index_some _ vs 0 i hfi
    simp only [Nat.sub_zero, List.get?_eq_getElem?] at hu
    refine ⟨t, st1, vs, u, h, hw1, by rw [e2]; exact hvs, ⟨[], by simp⟩, by rw [e1]; exact hu, ?_⟩
    exact Or.inl ⟨by rw [e1], e2, rfl, hpu⟩
  | none =>
    obtain ⟨e1, e2⟩ := hn hfi
    refine ⟨t, st1, _, stored_value P v, h, hw1, e2, ⟨_, rfl⟩, by rw [e1]; simp, ?_⟩
    exact Or.inr ⟨rfl, e1, rfl, rfl⟩

/-! ## C2 and C3: lookup after insertion, relocation safety -/

theorem tight_platform_ok : platform_ok tight_platform :=
  ⟨fun n => Nat.le_refl n, fun k => by simp [tight_platform, sample_platform]; omega⟩

theorem sample_platform_ok : platform_ok sample_platform :=
  ⟨fun n => by simp only [sample_platform]; omega, fun k => by simp [sample_platform]; omega⟩

theorem sample_pool_state_wf : pool_wf sample_pool_state := by unfold pool_wf; decide

theorem C3_literals_survive_cache_growth_witness :
    pool_wf sample_pool_state
      ∧ ∃ ts st1, insert_all tight_platform sample_pool_state
            [.str .TOK_NAME [99, 100], .num (fp_of_nat 300), .str .TOK_STRING [101, 102, 103]]
              = .ok (ts, st1)
          ∧ ∀ i l, lexer_get_literal_by_id sample_pool_state i = .ok l →
              ∃ l1 v, lexer_get_literal_by_id st1 i = .ok l1
                ∧ literal_value sample_pool_state l = .ok v ∧ literal_value st1 l1 = .ok v :=
  ⟨sample_pool_state_wf,
    C3_literals_survive_cache_growth tight_platform tight_platform_ok sample_pool_state
      sample_pool_state_wf _⟩

/-- The run of the C3 witness grows the strings cache twice (from one to three
allocated blocks), moves the literal `ab` from address 4096 to 6144, and the
literal still reads `ab`. -/
theorem cache_growth_example :
    (insert_all tight_platform sample_pool_state
        [.str .TOK_NAME [99, 100], .num (fp_of_nat 300), .str .TOK_STRING [101, 102, 103]]).bind
      (fun r => (lexer_get_literal_by_id r.2 0).bind
        (fun l => (literal_value r.2 l).map (fun v => (r.2.allocations, l, v))))
      = .ok (3, .LIT_STR 6144 2 195, .str [97, 98] 195) := by decide

/-- C2 (amended): for every string without a NUL character and every number,
from any consistent pool state, the insertion succeeds and
`lexer_get_literal_by_id` at the returned index yields a literal whose content
is the inserted value: a string or magic-string literal with exactly the
characters of the string, or a number literal holding the same number or one
equal to it under the IEEE comparison. -/
theorem C2_lookup_returns_inserted_value (P : platform) (hP : platform_ok P) (st : lexer_state)
    (hw : pool_wf st) (v : pool_value) (h0 : pool_value_nul_free v = true) :
    ∃ t st1 lit, insert_value P st v = .ok (t, st1)
      ∧ lexer_get_literal_by_id st1 t.uid = .ok lit
      ∧ (∀ tt s, v = .str tt s → literal_chars P st1 lit = .ok s)
      ∧ (∀ n, v = .num n → ∃ m, lit = .LIT_NUMBER m ∧ (m = n ∨ num_eq m n = true)) := by
  obtain ⟨vs, hvs⟩ := pool_wf_has_values st hw
  obtain ⟨t, st1, vs1, u, h, _, hv1, _, hu, hcase⟩ := insert_lookup P hP st hw vs hvs v
  obtain ⟨lit, hlit, hlv⟩ := forall2_getElem_right _ _ _ hv1 t.uid u hu
  refine ⟨t, st1, lit, h, (lexer_get_literal_by_id_ok st1 _ lit).mpr hlit, ?_, ?_⟩
  · intro tt s hvs'
    subst hvs'
    have hs0 : 0 ∉ s := by simpa [pool_value_nul_free] using h0
    have hm : value_matches P s u = true := by
      rcases hcase with ⟨_, _, _, hm⟩ | ⟨_, _, _, hu'⟩
      · exact hm
      · rw [hu']; exact new_string_value_matches P s hs0
    exact literal_chars_of_value P st1 lit u s hlv (value_matches_chars P s hs0 u hm)
  · intro n hvn
    subst hvn
    rcases hcase with ⟨_, _, _, hm⟩ | ⟨_, _, _, hu'⟩
    · cases u with
      | str c hh => simp [matches_value, value_is_num] at hm
      | magic id => simp [matches_value, value_is_num] at hm
      | num m =>
        simp only [matches_value, value_is_num] at hm
        exact ⟨m, literal_value_num st1 lit m hlv, Or.inr hm⟩
    · rw [hu'] at hlv
      exact ⟨n, literal_value_num st1 lit n hlv, Or.inl rfl⟩

theorem C2_lookup_returns_inserted_value_witness :
    pool_wf sample_pool_state ∧ pool_value_nul_free (.str .TOK_STRING [101, 102, 103]) = true
      ∧ ∃ t st1 lit, insert_value tight_platform sample_pool_state (.str .TOK_STRING [101, 102, 103])
            = .ok (t, st1)
          ∧ lexer_get_literal_by_id st1 t.uid = .ok lit
          ∧ (∀ tt s, pool_value.str .TOK_STRING [101, 102, 103] = .str tt s →
              literal_chars tight_platform st1 lit = .ok s)
          ∧ (∀ n, pool_value.str .TOK_STRING [101, 102, 103] = .num n →
              ∃ m, lit = .LIT_NUMBER m ∧ (m = n ∨ num_eq m n = true)) :=
  ⟨sample_pool_state_wf, by decide,
    C2_lookup_returns_inserted_value tight_platform tight_platform_ok sample_pool_state
      sample_pool_state_wf _ (by decide)⟩

/-- C2 as stated fails for a string with a NUL character: the string literal
`'a\x00b'` decodes to the three characters `a`, NUL, `b`, which
`convert_string_to_token` receives; the literal found at the returned index
has the characters `a`, NUL, NUL. -/
theorem C2_counterexample :
    transform_escape_seq [97, 92, 120, 48, 48, 98] = .ok (some ([97, 0, 98], false, false))
      ∧ (insert_value sample_platform (lexer_init_source []) (.str .TOK_STRING [97, 0, 98])).bind
          (fun r => (lexer_get_literal_by_id r.2 r.1.uid).bind (literal_chars sample_platform r.2))
        = .ok [97, 0, 0]
      ∧ (lexer_next_token sample_platform (lexer_init [39, 97, 92, 120, 48, 48, 98, 39])).bind
          (fun r => (lexer_get_literal_by_id r.2.st r.1.uid).bind
            (literal_chars sample_platform r.2.st))
        = .ok [97, 0, 0] := by decide

/-! ## C1: deduplication -/

theorem matches_value_congr (P : platform) (v w : pool_value) (h : pool_value_eq v w = true)
    (u : lit_value) : matches_value P w u = matches_value P v u := by
  cases v with
  | str t1 s1 =>
    cases w with
    | str t2 s2 =>
      simp only [pool_value_eq, decide_eq_true_eq] at h
      subst h; rfl
    | num b => simp [pool_value_eq] at h
  | num a =>
    cases w with
    | str t2 s2 => simp [pool_value_eq] at h
    | num b =>
      simp only [pool_value_eq] at h
      cases u with
      | str c hh => rfl
      | magic id => rfl
      | num n =>
        simp only [matches_value, value_is_num]
        cases h1 : num_eq n a with
        | true =>
          exact num_eq_trans n a b h1 h
        | false =>
          cases h2 : num_eq n b with
          | false => rfl
          | true =>
            have : num_eq n a = true := num_eq_trans n b a h2 (by rw [num_eq_symm]; exact h)
            rw [h1] at this; exact absurd this (by decide)

theorem stored_value_matches (P : platform) (v w : pool_value) (h0 : pool_value_nul_free v = true)
    (h : pool_value_eq v w = true) : matches_value P v (stored_value P v) = true := by
  cases v with
  | str t1 s1 =>
    have hs0 : 0 ∉ s1 := by simpa [pool_value_nul_free] using h0
    exact new_string_value_matches P s1 hs0
  | num a =>
    cases w with
    | str t2 s2 => simp [pool_value_eq] at h
    | num b =>
      simp only [pool_value_eq] at h
      simp only [matches_value, stored_value, value_is_num]
      exact num_eq_refl_left a b h

/-- A value that one inserted value relates to and another compares equal to
forces the two inserted values to be equal. -/
theorem pool_value_eq_of_common (P : platform) (v w : pool_value)
    (hv0 : pool_value_nul_free v = true) (hw0 : pool_value_nul_free w = true) (u : lit_value)
    (hv : matches_value P v u = true ∨ u = stored_value P v) (hw : matches_value P w u = true) :
    pool_value_eq v w = true := by
  cases v with
  | str t1 s1 =>
    have hs1 : 0 ∉ s1 := by simpa [pool_value_nul_free] using hv0
    have hm1 : value_matches P s1 u = true := by
      rcases hv with h | h
      · exact h
      · rw [h]; exact new_string_value_matches P s1 hs1
    cases w with
    | str t2 s2 =>
      have hs2 : 0 ∉ s2 := by simpa [pool_value_nul_free] using hw0
      have c1 := value_matches_chars P s1 hs1 u hm1
      have c2 := value_matches_chars P s2 hs2 u hw
      rw [c1] at c2
      simp only [Option.some.injEq] at c2
      simp [pool_value_eq, c2]
    | num b =>
      cases u with
      | str c hh => simp [matches_value, value_is_num] at hw
      | magic id => simp [matches_value, value_is_num] at hw
      | num n => simp [value_matches] at hm1
  | num a =>
    cases w with
    | str t2 s2 =>
      cases u with
      | str c hh =>
        rcases hv with h | h
        · simp [matches_value, value_is_num] at h
        · simp [stored_value] at h
      | magic id =>
        rcases hv with h | h
        · simp [matches_value, value_is_num] at h
        · simp [stored_value] at h
      | num n => simp [matches_value, value_matches] at hw
    | num b =>
      cases u with
      | str c hh => simp [matches_value, value_is_num] at hw
      | magic id => simp [matches_value, value_is_num] at hw
      | num n =>
        simp only [matches_value, value_is_num] at hw
        simp only [pool_value_eq]
        rcases hv with h | h
        · simp only [matches_value, value_is_num] at h
          exact num_eq_trans a n b (by rw [num_eq_symm]; exact h) hw
        · simp only [stored_value, lit_value.num.injEq] at h
          subst h; exact hw

/-- C1 (amended): for strings without a NUL character and for numbers, two
values interned through the insert path, with any insertions in between, get
equal literal indices if and only if they are structurally equal (strings: the
same characters; numbers: equal under the IEEE comparison), and inserting a
value equal to one inserted before leaves the literal count unchanged. -/
theorem C1_equal_indices_iff_equal_values (P : platform) (hP : platform_ok P) (st : lexer_state)
    (hw : pool_wf st) (v w : pool_value) (mid : List pool_value)
    (hv0 : pool_value_nul_free v = true) (hw0 : pool_value_nul_free w = true) :
    ∃ t1 st1 ts st2 t3 st3, insert_value P st v = .ok (t1, st1)
      ∧ insert_all P st1 mid = .ok (ts, st2)
      ∧ insert_value P st2 w = .ok (t3, st3)
      ∧ (t1.uid = t3.uid ↔ pool_value_eq v w = true)
      ∧ (pool_value_eq v w = true →
          lexer_get_literals_count st3 = lexer_get_literals_count st2) := by
  obtain ⟨vs, hvs⟩ := pool_wf_has_values st hw
  obtain ⟨t1, st1, vs1, u, h1, hw1, hv1, _, hu1, hcase1⟩ := insert_lookup P hP st hw vs hvs v
  obtain ⟨ts, st2, ext, h2, hw2, hv2⟩ := insert_all_extends P hP mid st1 hw1 vs1 hv1
  obtain ⟨t3, st3, vs3, u3, h3, _, _, _, hu3, hcase3⟩ := insert_lookup P hP st2 hw2 _ hv2 w
  have hk : t1.uid < vs1.length := by
    by_contra hc
    have : vs1[t1.uid]? = none := by simp; omega
    simp [this] at hu1
  have hu2 : (vs1 ++ ext)[t1.uid]? = some u := by
    rw [List.getElem?_append_left hk]; exact hu1
  have hrel : matches_value P v u = true ∨ u = stored_value P v := by
    rcases hcase1 with ⟨_, _, _, hm⟩ | ⟨_, _, _, hu'⟩
    · exact Or.inl hm
    · exact Or.inr hu'
  refine ⟨t1, st1, ts, st2, t3, st3, h1, h2, h3, ⟨?_, ?_⟩, ?_⟩
  · intro heq
    rcases hcase3 with ⟨_, _, e3, hm3⟩ | ⟨_, e3, _, _⟩
    · rw [e3, ← heq, hu2] at hu3
      simp only [Option.some.injEq] at hu3
      subst hu3
      exact pool_value_eq_of_common P v w hv0 hw0 u hrel hm3
    · rw [← heq, List.length_append] at e3
      omega
  · intro heq
    have hfv : first_index (matches_value P v) vs1 0 = some t1.uid := by
      rcases hcase1 with ⟨hf, _, e, _⟩ | ⟨hf, ek, e, _⟩
      · rw [e]; exact hf
      · rw [e, first_index_append, hf]
        simp only [first_index, Nat.zero_add]
        rw [stored_value_matches P v w hv0 heq, ek]
        rfl
    have hfw : first_index (matches_value P w) (vs1 ++ ext) 0 = some t1.uid := by
      have : matches_value P w = matches_value P v := funext (matches_value_congr P v w heq)
      rw [this, first_index_append, hfv]
    rcases hcase3 with ⟨hf3, _, _, _⟩ | ⟨hf3, _, _, _⟩
    · rw [hfw] at hf3
      simpa using hf3
    · rw [hfw] at hf3
      simp at hf3
  · intro heq
    have hfv : first_index (matches_value P v) vs1 0 = some t1.uid := by
      rcases hcase1 with ⟨hf, _, e, _⟩ | ⟨hf, ek, e, _⟩
      · rw [e]; exact hf
      · rw [e, first_index_append, hf]
        simp only [first_index, Nat.zero_add]
        rw [stored_value_matches P v w hv0 heq, ek]
        rfl
    have hfw : first_index (matches_value P w) (vs1 ++ ext) 0 = some t1.uid := by
      have : matches_value P w = matches_value P v := funext (matches_value_congr P v w heq)
      rw [this, first_index_append, hfv]
    rcases hcase3 with ⟨_, e3, _, _⟩ | ⟨hf3, _, _, _⟩
    · rw [e3]
    · rw [hfw] at hf3
      simp at hf3

theorem C1_equal_indices_iff_equal_values_witness :
    pool_wf sample_pool_state
      ∧ pool_value_nul_free (.str .TOK_NAME [99, 100]) = true
      ∧ pool_value_nul_free (.str .TOK_STRING [99, 100]) = true
      ∧ ∃ t1 st1 ts st2 t3 st3,
          insert_value tight_platform sample_pool_state (.str .TOK_NAME [99, 100]) = .ok (t1, st1)
          ∧ insert_all tight_platform st1 [.num (fp_of_nat 300), .str .TOK_NAME [101]] = .ok (ts, st2)
          ∧ insert_value tight_platform st2 (.str .TOK_STRING [99, 100]) = .ok (t3, st3)
          ∧ (t1.uid = t3.uid
              ↔ pool_value_eq (.str .TOK_NAME [99, 100]) (.str .TOK_STRING [99, 100]) = true)
          ∧ (pool_value_eq (.str .TOK_NAME [99, 100]) (.str .TOK_STRING [99, 100]) = true →
              lexer_get_literals_count st3 = lexer_get_literals_count st2) :=
  ⟨sample_pool_state_wf, by decide, by decide,
    C1_equal_indices_iff_equal_values tight_platform tight_platform_ok sample_pool_state
      sample_pool_state_wf _ _ _ (by decide) (by decide)⟩

/-- C1 as stated fails for strings with a NUL character: the string literals
`'a\x00b'` and `'a\x00c'` decode to different character sequences, yet the two
tokens carry the same literal index. -/
theorem C1_counterexample :
    transform_escape_seq [97, 92, 120, 48, 48, 98] = .ok (some ([97, 0, 98], false, false))
      ∧ transform_escape_seq [97, 92, 120, 48, 48, 99] = .ok (some ([97, 0, 99], false, false))
      ∧ (insert_all sample_platform (lexer_init_source [])
            [.str .TOK_STRING [97, 0, 98], .str .TOK_STRING [97, 0, 99]]).map
          (fun r => r.1.map token.uid) = .ok [0, 0]
      ∧ (lex_tokens sample_platform 3
            (lexer_init [39, 97, 92, 120, 48, 48, 98, 39, 32, 39, 97, 92, 120, 48, 48, 99, 39])).map
          (fun r => r.1.map (fun t => (t.type, t.uid)))
        = .ok [(.TOK_STRING, 0), (.TOK_STRING, 0), (.TOK_EOF, 0)] := by decide

/-! ## C12 and C16: single escape characters, line and column -/

/-- C12: `convert_single_escape_character` returns true exactly for the
characters b, t, n, v, f, r, double quote, single quote and backslash, producing
backspace (8), tab (9), line feed (10), vertical tab (11), form feed (12),
carriage return (13) and, for the three last, the character itself; for every
other character it returns false and outputs the character unchanged. -/
theorem C12_single_escape_characters (c : Nat) :
    ((convert_single_escape_character c).1 = true
        ↔ c ∈ [98, 116, 110, 118, 102, 114, 34, 39, 92])
      ∧ (c = 98 → (convert_single_escape_character c).2 = 8)
      ∧ (c = 116 → (convert_single_escape_character c).2 = 9)
      ∧ (c = 110 → (convert_single_escape_character c).2 = 10)
      ∧ (c = 118 → (convert_single_escape_character c).2 = 11)
      ∧ (c = 102 → (convert_single_escape_character c).2 = 12)
      ∧ (c = 114 → (convert_single_escape_character c).2 = 13)
      ∧ (c = 34 ∨ c = 39 ∨ c = 92 → (convert_single_escape_character c).2 = c)
      ∧ (c ∉ [98, 116, 110, 118, 102, 114, 34, 39, 92] →
          convert_single_escape_character c = (false, c)) := by
  unfold convert_single_escape_character
  refine ⟨?_, ?_, ?_, ?_, ?_, ?_, ?_, ?_, ?_⟩
  · simp only [List.mem_cons, List.mem_singleton, List.mem_nil_iff, or_false]
    split_ifs <;> simp_all
  all_goals
    intro h
    try simp only [List.mem_cons, List.mem_singleton, List.mem_nil_iff, or_false, not_or] at h
    split_ifs <;> simp_all

theorem locus_loop_append (b : Nat) : ∀ (l : List Nat) (a c : Nat),
    locus_loop (l ++ [b]) a c =
      if b = 10 then ((locus_loop l a c).1 + 1, 0)
      else ((locus_loop l a c).1, (locus_loop l a c).2 + 1) := by
  intro l
  induction l with
  | nil => intro a c; simp only [List.nil_append, locus_loop]
  | cons x rest ih =>
    intro a c
    simp only [List.cons_append, locus_loop]
    split <;> exact ih _ _

theorem locus_loop_spec (l : List Nat) :
    locus_loop l 0 0 = (l.count 10, (l.reverse.takeWhile (fun b => decide (b ≠ 10))).length) := by
  induction l using List.reverseRecOn with
  | nil => rfl
  | append_singleton l b ih =>
    rw [locus_loop_append, ih]
    by_cases hb : b = 10
    · subst hb
      simp [List.count_append]
    · have hne : ¬ (10 = b) := fun e => hb e.symm
      simp [List.count_append, hb, hne, List.takeWhile_cons]

/-- C16: for every locus not greater than the buffer size,
`lexer_locus_to_line_and_column` returns as line the number of line feeds among
the first `locus` characters of the source, and as column the number of
characters between the last of those line feeds (or the start of the source if
there is none) and the locus. -/
theorem C16_locus_to_line_and_column (st : lexer_state) (locus : Nat)
    (h : locus ≤ st.src.length) :
    lexer_locus_to_line_and_column st locus
      = .ok ((st.src.take locus).count 10,
          ((st.src.take locus).reverse.takeWhile (fun b => decide (b ≠ 10))).length) := by
  unfold lexer_locus_to_line_and_column
  rw [if_neg (by simpa using h), locus_loop_spec]
  rfl

theorem C16_locus_to_line_and_column_witness :
    6 ≤ (lexer_init_source [97, 10, 98, 99, 10, 100, 101, 102]).src.length
      ∧ lexer_locus_to_line_and_column (lexer_init_source [97, 10, 98, 99, 10, 100, 101, 102]) 6
        = .ok (((lexer_init_source [97, 10, 98, 99, 10, 100, 101, 102]).src.take 6).count 10,
            (((lexer_init_source [97, 10, 98, 99, 10, 100, 101, 102]).src.take 6).reverse.takeWhile
              (fun b => decide (b ≠ 10))).length) :=
  ⟨by decide, C16_locus_to_line_and_column _ 6 (by decide)⟩

/-- The C16 witness, evaluated: offset 6 of `a\nbc\ndef` is line 2, column 1. -/
theorem locus_example :
    lexer_locus_to_line_and_column (lexer_init_source [97, 10, 98, 99, 10, 100, 101, 102]) 6
      = .ok (2, 1) := by decide

/-! ## C18 and C19: growable buffer -/

theorem array_list_init_wf (A : al_platform) (hA : ∀ n, n ≤ A.mem_heap_recommend_allocation_size n)
    (es : Nat) : al_wf A (array_list_init A es) := by
  unfold al_wf array_list_init
  have := hA A.sizeof_header
  simp only [Nat.zero_mul, Nat.add_zero, List.length_replicate, and_true]
  exact this

theorem array_list_append_spec (A : al_platform)
    (hA : ∀ n, n ≤ A.mem_heap_recommend_allocation_size n) (al : array_list) (hw : al_wf A al)
    (hes : 0 < al.element_size) (e : List Nat) (he : e.length = al.element_size) :
    ∃ al1, array_list_append A al e = .ok al1 ∧ al_wf A al1
      ∧ al1.len = al.len + 1 ∧ al1.element_size = al.element_size
      ∧ (∀ i, i < al.len → array_list_element al1 i = array_list_element al i)
      ∧ array_list_element al1 al.len = some e := by
  obtain ⟨h1, h2⟩ := hw
  -- the block after the optional reallocation
  obtain ⟨h, hh, hhw, hhfit, hhlen, hhes, hhdata⟩ : ∃ h : array_list,
      array_list_grow A al = .ok h
      ∧ al_wf A h ∧ A.sizeof_header + (al.len + 1) * al.element_size ≤ h.size
      ∧ h.len = al.len ∧ h.element_size = al.element_size
      ∧ h.data.take (al.len * al.element_size) = al.data.take (al.len * al.element_size) := by
    unfold array_list_grow
    by_cases hg : (al.len + 1) * al.element_size + A.sizeof_header > al.size
    · have hr := hA (al.size + al.element_size)
      rw [if_pos hg]
      simp only
      rw [if_neg (by omega)]
      refine ⟨_, rfl, ⟨?_, ?_⟩, ?_, rfl, rfl, ?_⟩
      · simp only; omega
      · simp only [List.length_append, List.length_replicate]; omega
      · simp only
        have : (al.len + 1) * al.element_size = al.len * al.element_size + al.element_size := by
          rw [Nat.add_mul, Nat.one_mul]
        omega
      · simp only
        rw [List.take_append_of_le_length (by omega)]
    · rw [if_neg hg]
      exact ⟨al, rfl, ⟨h1, h2⟩, by omega, rfl, rfl, rfl⟩
  obtain ⟨g1, g2⟩ := hhw
  have hmul : (al.len + 1) * al.element_size = al.len * al.element_size + al.element_size := by
    rw [Nat.add_mul, Nat.one_mul]
  have hoff : al.len * al.element_size + al.element_size ≤ h.data.length := by omega
  have hlen1 : (h.data.take (al.len * al.element_size)).length = al.len * al.element_size := by
    simp only [List.length_take]; omega
  refine ⟨{ h with
      data := h.data.take (h.len * h.element_size) ++ e.take h.element_size
        ++ h.data.drop (h.len * h.element_size + h.element_size),
      len := h.len + 1 }, ?_, ⟨?_, ?_⟩, by simp only [hhlen], by simp only [hhes], ?_, ?_⟩
  · unfold array_list_append
    simp only [hh]
    rw [if_neg (by omega), if_neg (by rw [hhlen, hhes]; simp only [not_not]; omega)]
  · simp only [hhlen, hhes]; omega
  · simp only [hhlen, hhes, List.length_append, List.length_take, List.length_drop, he]
    omega
  · intro i hi
    unfold array_list_element
    simp only [hhlen, hhes]
    rw [if_neg (by omega), if_neg (by omega)]
    congr 1
    have hle : i * al.element_size + al.element_size ≤ al.len * al.element_size := by
      have := Nat.mul_le_mul_right al.element_size (Nat.succ_le_of_lt hi)
      rw [Nat.succ_mul] at this
      exact this
    apply slice_congr _ _ (al.len * al.element_size) _ _ _ hle
    rw [List.append_assoc, List.take_left' hlen1, hhdata]
  · unfold array_list_element
    simp only [hhlen, hhes]
    rw [if_neg (by omega)]
    congr 1
    rw [List.append_assoc, List.drop_left' hlen1, ← he, List.take_length,
      List.take_left' rfl]

theorem array_list_append_all_spec (A : al_platform)
    (hA : ∀ n, n ≤ A.mem_heap_recommend_allocation_size n) (elems : List (List Nat)) :
    ∀ (al : array_list) (prev : List (List Nat)), al_wf A al → 0 < al.element_size →
      (∀ e ∈ elems, e.length = al.element_size) → al.len = prev.length →
      (∀ i e, prev[i]? = some e → array_list_element al i = some e) →
      ∃ al1, array_list_append_all A al elems = .ok al1
        ∧ array_list_len al1 = prev.length + elems.length
        ∧ ∀ i e, (prev ++ elems)[i]? = some e → array_list_element al1 i = some e := by
  induction elems with
  | nil =>
    intro al prev _ _ _ hlen hprev
    refine ⟨al, rfl, by simp [array_list_len, hlen], ?_⟩
    intro i e hi
    rw [List.append_nil] at hi
    exact hprev i e hi
  | cons x rest ih =>
    intro al prev hw hes hall hlen hprev
    obtain ⟨al1, h1, hw1, hl1, he1, hold, hnew⟩ :=
      array_list_append_spec A hA al hw hes x (hall x (List.mem_cons_self _ _))
    obtain ⟨al2, h2, hl2, hel2⟩ := ih al1 (prev ++ [x]) hw1 (by rw [he1]; exact hes)
      (fun e he => by rw [he1]; exact hall e (List.mem_cons_of_mem _ he))
      (by rw [hl1, hlen]; simp)
      (by
        intro i e hi
        by_cases hlt : i < prev.length
        · rw [List.getElem?_append_left hlt] at hi
          rw [hold i (by omega)]
          exact hprev i e hi
        · have hge : prev.length ≤ i := by omega
          rw [List.getElem?_append_right hge] at hi
          have hi0 : i - prev.length = 0 := by
            by_contra hc
            have : ([x] : List (List Nat))[i - prev.length]? = none := by
              simp; omega
            simp [this] at hi
          rw [hi0] at hi
          simp only [List.getElem?_cons_zero, Option.some.injEq] at hi
          have : i = al.len := by omega
          rw [this, ← hi]
          exact hnew)
    refine ⟨al2, ?_, ?_, ?_⟩
    · simp only [array_list_append_all, bind, Except.bind, h1, h2]
    · rw [hl2]; simp only [List.length_append, List.length_cons, List.length_nil]; omega
    · intro i e hi
      apply hel2 i e
      rw [List.append_assoc]
      exact hi

/-- C18: for every array list created by `array_list_init` with a positive
element size and every sequence of elements appended in order with
`array_list_append`, each call on the list returned by the previous one,
`array_list_len` is the number of elements and `array_list_element (i)` yields
the `i`-th element, also when appends reallocate the storage. -/
theorem C18_append_then_read (A : al_platform)
    (hA : ∀ n, n ≤ A.mem_heap_recommend_allocation_size n) (element_size : Nat)
    (hpos : 0 < element_size) (hbyte : element_size < 256) (elems : List (List Nat))
    (hall : ∀ e ∈ elems, e.length = element_size) :
    ∃ al, array_list_append_all A (array_list_init A element_size) elems = .ok al
      ∧ array_list_len al = elems.length
      ∧ ∀ i e, elems[i]? = some e → array_list_element al i = some e := by
  have hes : (array_list_init A element_size).element_size = element_size := by
    simp only [array_list_init]; omega
  obtain ⟨al, h, hl, hel⟩ := array_list_append_all_spec A hA elems (array_list_init A element_size) []
    (array_list_init_wf A hA element_size) (by rw [hes]; exact hpos)
    (by rw [hes]; exact hall) rfl (by intro i e hi; simp at hi)
  exact ⟨al, h, by simpa using hl, by simpa using hel⟩

theorem C18_append_then_read_witness :
    (∀ n, n ≤ sample_al_platform.mem_heap_recommend_allocation_size n) ∧ 0 < 3 ∧ 3 < 256
      ∧ (∀ e ∈ [[1, 2, 3], [4, 5, 6], [7, 8, 9], [10, 11, 12]], e.length = 3)
      ∧ ∃ al, array_list_append_all sample_al_platform (array_list_init sample_al_platform 3)
            [[1, 2, 3], [4, 5, 6], [7, 8, 9], [10, 11, 12]] = .ok al
          ∧ array_list_len al = [[1, 2, 3], [4, 5, 6], [7, 8, 9], [10, 11, 12]].length
          ∧ ∀ i e, [[1, 2, 3], [4, 5, 6], [7, 8, 9], [10, 11, 12]][i]? = some e →
              array_list_element al i = some e :=
  ⟨fun n => by simp only [sample_al_platform]; omega, by decide, by decide, by decide,
    C18_append_then_read sample_al_platform (fun n => by simp only [sample_al_platform]; omega) 3
      (by decide) (by decide) _ (by decide)⟩

/-- The run of the C18 witness reallocates the block twice (24, 32 and 40
bytes) and reads back the four elements. -/
theorem append_example :
    (array_list_append_all sample_al_platform (array_list_init sample_al_platform 3)
        [[1, 2, 3], [4, 5, 6], [7, 8, 9], [10, 11, 12]]).map
      (fun al => (al.size, al.len, array_list_element al 0, array_list_element al 3,
        array_list_element al 4))
      = .ok (40, 4, some [1, 2, 3], some [10, 11, 12], none) := by rfl

/-- C19: for every non-empty array list of length n, after
`array_list_drop_last` the length is n - 1, `array_list_element (n - 1)`
returns NULL, and `array_list_element (i)` for every i below n - 1 returns the
same element as before. -/
theorem C19_drop_last (al : array_list) (h : 0 < array_list_len al) :
    ∃ al1, array_list_drop_last al = .ok al1
      ∧ array_list_len al1 = array_list_len al - 1
      ∧ array_list_element al1 (array_list_len al - 1) = none
      ∧ ∀ i, i < array_list_len al - 1 → array_list_element al1 i = array_list_element al i := by
  unfold array_list_len at *
  refine ⟨{ al with len := al.len - 1 }, ?_, rfl, ?_, ?_⟩
  · unfold array_list_drop_last
    rw [if_neg (by omega)]
    rfl
  · simp [array_list_element]
  · intro i hi
    unfold array_list_element
    simp only
    rw [if_neg (by omega), if_neg (by omega)]

theorem C19_drop_last_witness :
    0 < array_list_len { element_size := 2, len := 2, size := 32, data := [1, 2, 3, 4, 0, 0, 0, 0] }
      ∧ ∃ al1, array_list_drop_last
            { element_size := 2, len := 2, size := 32, data := [1, 2, 3, 4, 0, 0, 0, 0] } = .ok al1
          ∧ array_list_len al1 = array_list_len
              { element_size := 2, len := 2, size := 32, data := [1, 2, 3, 4, 0, 0, 0, 0] } - 1
          ∧ array_list_element al1 (array_list_len
              { element_size := 2, len := 2, size := 32, data := [1, 2, 3, 4, 0, 0, 0, 0] } - 1) = none
          ∧ ∀ i, i < array_list_len
              { element_size := 2, len := 2, size := 32, data := [1, 2, 3, 4, 0, 0, 0, 0] } - 1 →
              array_list_element al1 i = array_list_element
                { element_size := 2, len := 2, size := 32, data := [1, 2, 3, 4, 0, 0, 0, 0] } i :=
  ⟨by decide, C19_drop_last _ (by decide)⟩

/-! ## C20: reading a variable -/

/-- C20: `get_variable_value` with `var_idx` inside `[min_reg_num, max_reg_num]`
returns (the register holding a non-empty value, as the function asserts) a
Normal completion carrying a copy of register slot `var_idx - min_reg_num` and
makes no call to the environment collaborator; with `var_idx` outside that range
(in particular every id below 128 for a frame with registers 128..129) it
returns exactly the completion produced by the environment lookup of the name
that the literal table maps `var_idx` to (the literal id being valid and the
strict eval/arguments check passing, as the function asserts). Every variable
id falls in exactly one of the two cases. -/
theorem C20_get_variable_value (V : vm_platform) (d : int_data_t) (var_idx : Nat) (chk : Bool) :
    (d.min_reg_num ≤ var_idx ∧ var_idx ≤ d.max_reg_num →
        ∀ v, d.regs[var_idx - d.min_reg_num]? = some v → v ≠ .empty →
          get_variable_value V d var_idx chk = .ok (.normal (V.ecma_copy_value v true), []))
      ∧ (¬ (d.min_reg_num ≤ var_idx ∧ var_idx ≤ d.max_reg_num) →
          ∀ lit_id, V.serializer_get_literal_id_by_uid var_idx d.pos = some lit_id →
            (chk = true → do_strict_eval_arguments_check
                (V.ecma_op_resolve_reference_base d.lex_env_p (V.lit_string lit_id))
                (V.lit_string lit_id) d.is_strict = true) →
            get_variable_value V d var_idx chk
              = .ok (V.ecma_op_get_value_lex_env_base
                    (V.ecma_op_resolve_reference_base d.lex_env_p (V.lit_string lit_id))
                    (V.lit_string lit_id) d.is_strict,
                  [.resolve_reference_base d.lex_env_p (V.lit_string lit_id),
                   .get_value (V.ecma_op_resolve_reference_base d.lex_env_p (V.lit_string lit_id))
                     (V.lit_string lit_id) d.is_strict]))
      ∧ (is_reg_variable d var_idx = true ↔ d.min_reg_num ≤ var_idx ∧ var_idx ≤ d.max_reg_num)
      ∧ (d.min_reg_num = 128 → d.max_reg_num = 129 → var_idx < 128 →
          is_reg_variable d var_idx = false) := by
  have hreg : is_reg_variable d var_idx = true ↔ d.min_reg_num ≤ var_idx ∧ var_idx ≤ d.max_reg_num := by
    simp [is_reg_variable]
  refine ⟨?_, ?_, hreg, ?_⟩
  · intro hin v hv hne
    unfold get_variable_value
    rw [if_pos (hreg.mpr hin), List.get?_eq_getElem?, hv]
    simp only
    rw [if_neg hne]
    rfl
  · intro hout lit_id hlit hchk
    unfold get_variable_value
    rw [if_neg (fun h => hout (hreg.mp h)), hlit]
    simp only
    rw [if_neg]
    · rfl
    · intro ⟨hc, hn⟩
      exact hn (hchk hc)
  · intro hmin _ hlt
    cases h : is_reg_variable d var_idx with
    | false => rfl
    | true => have := hreg.mp h; omega

theorem C20_get_variable_value_witness :
    get_variable_value sample_vm_platform sample_frame 129 true
        = .ok (.normal (.number 40), [])
      ∧ get_variable_value sample_vm_platform sample_frame 3 true
          = .ok (.normal (.simple 100),
              [.resolve_reference_base 1 [100], .get_value (some 1) [100] false]) :=
  ⟨(C20_get_variable_value sample_vm_platform sample_frame 129 true).1 (by decide) _ rfl
      (by decide),
    (C20_get_variable_value sample_vm_platform sample_frame 3 true).2.1 (by decide) 3 rfl
      (fun _ => by decide)⟩

/-! ## C15 and C17: token pushback, display strings -/

/-- C15: after `lexer_save_token (t)` with a non-empty token `t` (no token being
pending), the next `lexer_next_token` returns `t` and leaves the scanning state,
the source cursor included, as it was; the call after that returns the token,
and reaches the scanning state, that `lexer_next_token` would have produced had
nothing been saved; a second `lexer_save_token` before the pending token is
consumed fails the function's assertion. -/
theorem C15_one_token_pushback (P : platform) (cx : lexer_ctx) (t : token)
    (h1 : is_empty cx.saved_token = true) (h2 : is_empty t = false) :
    ∃ cx1 cx2, lexer_save_token cx t = .ok cx1
      ∧ lexer_next_token P cx1 = .ok (t, cx2)
      ∧ cx2.st = cx.st ∧ cx2.st.pos = cx.st.pos
      ∧ (lexer_next_token P cx2).map (fun r => (r.1, r.2.st))
          = (lexer_next_token P cx).map (fun r => (r.1, r.2.st))
      ∧ ∀ t2, lexer_save_token cx1 t2 = .error .assertion_failed := by
  refine ⟨{ cx with saved_token := t },
    { cx with saved_token := empty_token, sent_token := t }, ?_, ?_, rfl, rfl, ?_, ?_⟩
  · unfold lexer_save_token
    rw [if_neg (by simp [h1])]
    rfl
  · unfold lexer_next_token
    simp only
    rw [if_pos (by simp [h2])]
    rfl
  · unfold lexer_next_token
    simp only
    rw [if_neg (by simp [is_empty, empty_token]), if_neg (by simp [h1])]
    simp only [bind, Except.bind]
    cases lexer_next_token_private P cx.st <;> rfl
  · intro t2
    unfold lexer_save_token
    simp only
    rw [if_pos (by simp [h2])]
    rfl

theorem C15_one_token_pushback_witness :
    is_empty (lexer_init [97, 59]).saved_token = true ∧ is_empty ⟨.TOK_SEMICOLON, 5, 0⟩ = false
      ∧ ∃ cx1 cx2, lexer_save_token (lexer_init [97, 59]) ⟨.TOK_SEMICOLON, 5, 0⟩ = .ok cx1
          ∧ lexer_next_token sample_platform cx1 = .ok (⟨.TOK_SEMICOLON, 5, 0⟩, cx2)
          ∧ cx2.st = (lexer_init [97, 59]).st ∧ cx2.st.pos = (lexer_init [97, 59]).st.pos
          ∧ (lexer_next_token sample_platform cx2).map (fun r => (r.1, r.2.st))
              = (lexer_next_token sample_platform (lexer_init [97, 59])).map (fun r => (r.1, r.2.st))
          ∧ ∀ t2, lexer_save_token cx1 t2 = .error .assertion_failed :=
  ⟨by decide, by decide, C15_one_token_pushback sample_platform _ _ (by decide) (by decide)⟩

/-- C17 (amended): for every punctuator or operator token type other than
`TOK_MOD`, `TOK_MOD_EQ` and `TOK_GREATER_EQ`, `lexer_token_type_to_string` is the
source spelling of the operator: lexing the returned string yields one token of
that type which consumes the whole string, followed by the end of file. -/
theorem C17_punctuator_strings_lex_back (P : platform) (t : token_type)
    (ht : t ∈ punctuator_types) (h1 : t ≠ .TOK_MOD) (h2 : t ≠ .TOK_MOD_EQ)
    (h3 : t ≠ .TOK_GREATER_EQ) :
    ∃ s cx cx1, lexer_token_type_to_string t = .ok s
      ∧ lexer_next_token P (lexer_init (cstr s)) = .ok (⟨t, 0, 0⟩, cx)
      ∧ cx.st.pos = (cstr s).length
      ∧ lexer_next_token P cx = .ok (⟨.TOK_EOF, (cstr s).length, 0⟩, cx1) := by
  simp only [punctuator_types, List.mem_cons, List.mem_singleton, List.mem_nil_iff, or_false] at ht
  rcases ht with h | h | h | h | h | h | h | h | h | h | h | h | h | h | h | h | h | h | h | h
    | h | h | h | h | h | h | h | h | h | h | h | h | h | h | h | h | h | h | h | h
    | h | h | h | h | h | h | h | h
  all_goals first
    | exact absurd h h1
    | exact absurd h h2
    | exact absurd h h3
    | (subst h; exact ⟨_, _, _, rfl, rfl, rfl, rfl⟩)

theorem C17_punctuator_strings_lex_back_witness :
    token_type.TOK_RSHIFT_EX_EQ ∈ punctuator_types
      ∧ ∃ s cx cx1, lexer_token_type_to_string .TOK_RSHIFT_EX_EQ = .ok s
          ∧ lexer_next_token sample_platform (lexer_init (cstr s)) = .ok (⟨.TOK_RSHIFT_EX_EQ, 0, 0⟩, cx)
          ∧ cx.st.pos = (cstr s).length
          ∧ lexer_next_token sample_platform cx = .ok (⟨.TOK_EOF, (cstr s).length, 0⟩, cx1) :=
  ⟨by decide, C17_punctuator_strings_lex_back sample_platform .TOK_RSHIFT_EX_EQ (by decide)
    (by decide) (by decide) (by decide)⟩

/-- C17 as stated fails for `TOK_MOD`: its display string is the two
characters `%%`, and lexing it yields a `TOK_MOD` token that consumes one
character only, followed by a second `TOK_MOD` token. -/
theorem C17_counterexample :
    lexer_token_type_to_string .TOK_MOD = .ok "%%"
      ∧ (lex_tokens sample_platform 3 (lexer_init (cstr "%%"))).map
          (fun r => r.1.map (fun t => (t.type, t.loc)))
        = .ok [(.TOK_MOD, 0), (.TOK_MOD, 1), (.TOK_EOF, 2)] := by decide

/-- The display string of `TOK_GREATER_EQ` is the spelling of `TOK_LESS_EQ`:
lexing it yields a `TOK_LESS_EQ` token. -/
theorem greater_eq_string_example :
    lexer_token_type_to_string .TOK_GREATER_EQ = .ok "<="
      ∧ (lex_tokens sample_platform 2 (lexer_init (cstr "<="))).map
          (fun r => r.1.map (fun t => (t.type, t.loc)))
        = .ok [(.TOK_LESS_EQ, 0), (.TOK_EOF, 2)] := by decide

/-! ## C14: operators -/

theorem get_char_eq (st : lexer_state) (i : Nat) :
    get_char st i = (st.src.drop st.pos).getD i 0 := by
  unfold get_char
  split
  · rename_i h
    rw [List.getD_eq_getElem?_getD, List.getElem?_drop, List.getElem?_eq_none (by omega)]
    rfl
  · rw [List.getD_eq_getElem?_getD, List.getD_eq_getElem?_getD, List.getElem?_drop]

theorem fuel_succ (st : lexer_state) (c : Nat) (rest : List Nat)
    (hsrc : st.src.drop st.pos = c :: rest) :
    st.src.length + 1 - st.pos = (st.src.length - st.pos - 1) + 1 + 1 := by
  have : (st.src.drop st.pos).length = (c :: rest).length := by rw [hsrc]
  simp at this
  omega

/-- The next character cannot be the last character of an operator that
extends `op` by one character, when no longer operator starts at the cursor. -/
theorem next_char_ne (op : String) (rest : List Nat)
    (hlong : ∀ e ∈ operator_table, op.length < e.1.length → ¬ (cstr e.1 <+: cstr op ++ rest))
    (op1 : String) (t1 : token_type) (hmem : (op1, t1) ∈ operator_table) (x : Nat)
    (hlen : op.length < op1.length) (hx : cstr op1 = cstr op ++ [x] ∧ x ≠ 0) :
    rest.headD 0 ≠ x := by
  intro h
  apply hlong (op1, t1) hmem hlen
  simp only
  rw [hx.1]
  cases rest with
  | nil => simp at h; exact absurd h.symm hx.2
  | cons c r =>
    simp at h
    subst h
    exact ⟨r, by simp⟩

theorem next_token_punctuator (P : platform) (cx : lexer_ctx)
    (hs : is_empty cx.saved_token = true) (hts : cx.st.token_start = none) {n : Nat}
    (hl : cx.st.src.length + 1 - cx.st.pos = n + 1)
    (hp : punct_start (get_char cx.st 0) (get_char cx.st 1) = true) :
    lexer_next_token P cx =
      match lex_punctuator cx.st with
      | .error err => .error err
      | .ok v => .ok (v.1, { cx with st := v.2, prev_token := cx.sent_token, sent_token := v.1 }) := by
  simp only [punct_start, Bool.and_eq_true, Bool.not_eq_true', Bool.or_eq_false_iff,
    decide_eq_false_iff_not, Bool.and_eq_false_iff, Bool.decide_and, Bool.decide_eq_true] at hp
  obtain ⟨⟨⟨⟨⟨⟨⟨⟨⟨a1, a2⟩, a3⟩, a4, a5⟩, a6⟩, a7⟩, a8, a9⟩, a10⟩, a11⟩, a12⟩ := hp
  unfold lexer_next_token lexer_next_token_private
  simp only [hs, hl, lexer_next_token_private_aux, hts, bind, Except.bind]
  have b5 : ¬ (get_char cx.st 0 = 46 ∧ isdigit (get_char cx.st 1) = true) := by
    rcases a5 with h | h <;> simp [h]
  have b11 : ¬ (get_char cx.st 0 = 47 ∧ get_char cx.st 1 = 42) := by
    rcases a11 with h | h <;> simp [h]
  have b12 : ¬ (get_char cx.st 0 = 47 ∧ get_char cx.st 1 = 47) := by
    rcases a12 with h | h <;> simp [h]
  simp only [a1, a2, a3, a4, a6, a7, a8, a9, a10, b5, b11, b12, Bool.false_eq_true, or_self,
    if_false, false_or, false_and, not_false_eq_true, pure, Except.pure]
  simp only [ne_eq, not_true_eq_false, if_false]
  cases lex_punctuator cx.st <;> rfl

theorem lex_TOK_OPEN_BRACE (P : platform) (cx : lexer_ctx) (rest : List Nat)
    (hs : is_empty cx.saved_token = true) (hts : cx.st.token_start = none)
    (hsrc : cx.st.src.drop cx.st.pos = [123] ++ rest) :
    lexer_next_token P cx = .ok (⟨.TOK_OPEN_BRACE, cx.st.pos, 0⟩,
      { cx with st := { cx.st with pos := cx.st.pos + 1 },
                prev_token := cx.sent_token, sent_token := ⟨.TOK_OPEN_BRACE, cx.st.pos, 0⟩ }) := by
  have hl := fuel_succ cx.st _ _ hsrc
  obtain ⟨c, hc⟩ : ∃ c, c = rest.headD 0 := ⟨_, rfl⟩
  have g0 : get_char cx.st 0 = 123 := by rw [get_char_eq, hsrc]; rfl
  have g1 : get_char cx.st 1 = c := by rw [get_char_eq, hsrc, hc]; cases rest <;> rfl
  rw [next_token_punctuator P cx hs hts hl (by rw [g0, g1]; simp [punct_start, isalpha, islower, isupper, isdigit, isspace])]
  simp only [lex_punctuator, g0, g1, if_la_n_is, if_la_is_or, return_punc_ex, create_token, current_locus, hts]
  simp [pure, Except.pure]

theorem lex_TOK_CLOSE_BRACE (P : platform) (cx : lexer_ctx) (rest : List Nat)
    (hs : is_empty cx.saved_token = true) (hts : cx.st.token_start = none)
    (hsrc : cx.st.src.drop cx.st.pos = [125] ++ rest) :
    lexer_next_token P cx = .ok (⟨.TOK_CLOSE_BRACE, cx.st.pos, 0⟩,
      { cx with st := { cx.st with pos := cx.st.pos + 1 },
                prev_token := cx.sent_token, sent_token := ⟨.TOK_CLOSE_BRACE, cx.st.pos, 0⟩ }) := by
  have hl := fuel_succ cx.st _ _ hsrc
  obtain ⟨c, hc⟩ : ∃ c, c = rest.headD 0 := ⟨_, rfl⟩
  have g0 : get_char cx.st 0 = 125 := by rw [get_char_eq, hsrc]; rfl
  have g1 : get_char cx.st 1 = c := by rw [get_char_eq, hsrc, hc]; cases rest <;> rfl
  rw [next_token_punctuator P cx hs hts hl (by rw [g0, g1]; simp [punct_start, isalpha, islower, isupper, isdigit, isspace])]
  simp only [lex_punctuator, g0, g1, if_la_n_is, if_la_is_or, return_punc_ex, create_token, current_locus, hts]
  simp [pure, Except.pure]

theorem lex_TOK_OPEN_PAREN (P : platform) (cx : lexer_ctx) (rest : List Nat)
    (hs : is_empty cx.saved_token = true) (hts : cx.st.token_start = none)
    (hsrc : cx.st.src.drop cx.st.pos = [40] ++ rest) :
    lexer_next_token P cx = .ok (⟨.TOK_OPEN_PAREN, cx.st.pos, 0⟩,
      { cx with st := { cx.st with pos := cx.st.pos + 1 },
                prev_token := cx.sent_token, sent_token := ⟨.TOK_OPEN_PAREN, cx.st.pos, 0⟩ }) := by
  have hl := fuel_succ cx.st _ _ hsrc
  obtain ⟨c, hc⟩ : ∃ c, c = rest.headD 0 := ⟨_, rfl⟩
  have g0 : get_char cx.st 0 = 40 := by rw [get_char_eq, hsrc]; rfl
  have g1 : get_char cx.st 1 = c := by rw [get_char_eq, hsrc, hc]; cases rest <;> rfl
  rw [next_token_punctuator P cx hs hts hl (by rw [g0, g1]; simp [punct_start, isalpha, islower, isupper, isdigit, isspace])]
  simp only [lex_punctuator, g0, g1, if_la_n_is, if_la_is_or, return_punc_ex, create_token, current_locus, hts]
  simp [pure, Except.pure]

theorem lex_TOK_CLOSE_PAREN (P : platform) (cx : lexer_ctx) (rest : List Nat)
    (hs : is_empty cx.saved_token = true) (hts : cx.st.token_start = none)
    (hsrc : cx.st.src.drop cx.st.pos = [41] ++ rest) :
    lexer_next_token P cx = .ok (⟨.TOK_CLOSE_PAREN, cx.st.pos, 0⟩,
      { cx with st := { cx.st with pos := cx.st.pos + 1 },
                prev_token := cx.sent_token, sent_token := ⟨.TOK_CLOSE_PAREN, cx.st.pos, 0⟩ }) := by
  have hl := fuel_succ cx.st _ _ hsrc
  obtain ⟨c, hc⟩ : ∃ c, c = rest.headD 0 := ⟨_, rfl⟩
  have g0 : get_char cx.st 0 = 41 := by rw [get_char_eq, hsrc]; rfl
  have g1 : get_char cx.st 1 = c := by rw [get_char_eq, hsrc, hc]; cases rest <;> rfl
  rw [next_token_punctuator P cx hs hts hl (by rw [g0, g1]; simp [punct_start, isalpha, islower, isupper, isdigit, isspace])]
  simp only [lex_punctuator, g0, g1, if_la_n_is, if_la_is_or, return_punc_ex, create_token, current_locus, hts]
  simp [pure, Except.pure]

theorem lex_TOK_OPEN_SQUARE (P : platform) (cx : lexer_ctx) (rest : List Nat)
    (hs : is_empty cx.saved_token = true) (hts : cx.st.token_start = none)
    (hsrc : cx.st.src.drop cx.st.pos = [91] ++ rest) :
    lexer_next_token P cx = .ok (⟨.TOK_OPEN_SQUARE, cx.st.pos, 0⟩,
      { cx with st := { cx.st with pos := cx.st.pos + 1 },
                prev_token := cx.sent_token, sent_token := ⟨.TOK_OPEN_SQUARE, cx.st.pos, 0⟩ }) := by
  have hl := fuel_succ cx.st _ _ hsrc
  obtain ⟨c, hc⟩ : ∃ c, c = rest.headD 0 := ⟨_, rfl⟩
  have g0 : get_char cx.st 0 = 91 := by rw [get_char_eq, hsrc]; rfl
  have g1 : get_char cx.st 1 = c := by rw [get_char_eq, hsrc, hc]; cases rest <;> rfl
  rw [next_token_punctuator P cx hs hts hl (by rw [g0, g1]; simp [punct_start, isalpha, islower, isupper, isdigit, isspace])]
  simp only [lex_punctuator, g0, g1, if_la_n_is, if_la_is_or, return_punc_ex, create_token, current_locus, hts]
  simp [pure, Except.pure]

theorem lex_TOK_CLOSE_SQUARE (P : platform) (cx : lexer_ctx) (rest : List Nat)
    (hs : is_empty cx.saved_token = true) (hts : cx.st.token_start = none)
    (hsrc : cx.st.src.drop cx.st.pos = [93] ++ rest) :
    lexer_next_token P cx = .ok (⟨.TOK_CLOSE_SQUARE, cx.st.pos, 0⟩,
      { cx with st := { cx.st with pos := cx.st.pos + 1 },
                prev_token := cx.sent_token, sent_token := ⟨.TOK_CLOSE_SQUARE, cx.st.pos, 0⟩ }) := by
  have hl := fuel_succ cx.st _ _ hsrc
  obtain ⟨c, hc⟩ : ∃ c, c = rest.headD 0 := ⟨_, rfl⟩
  have g0 : get_char cx.st 0 = 93 := by rw [get_char_eq, hsrc]; rfl
  have g1 : get_char cx.st 1 = c := by rw [get_char_eq, hsrc, hc]; cases rest <;> rfl
  rw [next_token_punctuator P cx hs hts hl (by rw [g0, g1]; simp [punct_start, isalpha, islower, isupper, isdigit, isspace])]
  simp only [lex_punctuator, g0, g1, if_la_n_is, if_la_is_or, return_punc_ex, create_token, current_locus, hts]
  simp [pure, Except.pure]

theorem lex_TOK_DOT (P : platform) (cx : lexer_ctx) (rest : List Nat)
    (hs : is_empty cx.saved_token = true) (hts : cx.st.token_start = none)
    (hsrc : cx.st.src.drop cx.st.pos = [46] ++ rest) (ed : ¬ (48 ≤ rest.headD 0 ∧ rest.headD 0 ≤ 57)) :
    lexer_next_token P cx = .ok (⟨.TOK_DOT, cx.st.pos, 0⟩,
      { cx with st := { cx.st with pos := cx.st.pos + 1 },
                prev_token := cx.sent_token, sent_token := ⟨.TOK_DOT, cx.st.pos, 0⟩ }) := by
  have hl := fuel_succ cx.st _ _ hsrc
  obtain ⟨c, hc⟩ : ∃ c, c = rest.headD 0 := ⟨_, rfl⟩
  rw [← hc] at ed
  have g0 : get_char cx.st 0 = 46 := by rw [get_char_eq, hsrc]; rfl
  have g1 : get_char cx.st 1 = c := by rw [get_char_eq, hsrc, hc]; cases rest <;> rfl
  rw [next_token_punctuator P cx hs hts hl (by rw [g0, g1]; simp [ed, punct_start, isalpha, islower, isupper, isdigit, isspace]; omega)]
  simp only [lex_punctuator, g0, g1, if_la_n_is, if_la_is_or, return_punc_ex, create_token, current_locus, hts]
  simp [ed, pure, Except.pure]

theorem lex_TOK_SEMICOLON (P : platform) (cx : lexer_ctx) (rest : List Nat)
    (hs : is_empty cx.saved_token = true) (hts : cx.st.token_start = none)
    (hsrc : cx.st.src.drop cx.st.pos = [59] ++ rest) :
    lexer_next_token P cx = .ok (⟨.TOK_SEMICOLON, cx.st.pos, 0⟩,
      { cx with st := { cx.st with pos := cx.st.pos + 1 },
                prev_token := cx.sent_token, sent_token := ⟨.TOK_SEMICOLON, cx.st.pos, 0⟩ }) := by
  have hl := fuel_succ cx.st _ _ hsrc
  obtain ⟨c, hc⟩ : ∃ c, c = rest.headD 0 := ⟨_, rfl⟩
  have g0 : get_char cx.st 0 = 59 := by rw [get_char_eq, hsrc]; rfl
  have g1 : get_char cx.st 1 = c := by rw [get_char_eq, hsrc, hc]; cases rest <;> rfl
  rw [next_token_punctuator P cx hs hts hl (by rw [g0, g1]; simp [punct_start, isalpha, islower, isupper, isdigit, isspace])]
  simp only [lex_punctuator, g0, g1, if_la_n_is, if_la_is_or, return_punc_ex, create_token, current_locus, hts]
  simp [pure, Except.pure]

theorem lex_TOK_COMMA (P : platform) (cx : lexer_ctx) (rest : List Nat)
    (hs : is_empty cx.saved_token = true) (hts : cx.st.token_start = none)
    (hsrc : cx.st.src.drop cx.st.pos = [44] ++ rest) :
    lexer_next_token P cx = .ok (⟨.TOK_COMMA, cx.st.pos, 0⟩,
      { cx with st := { cx.st with pos := cx.st.pos + 1 },
                prev_token := cx.sent_token, sent_token := ⟨.TOK_COMMA, cx.st.pos, 0⟩ }) := by
  have hl := fuel_succ cx.st _ _ hsrc
  obtain ⟨c, hc⟩ : ∃ c, c = rest.headD 0 := ⟨_, rfl⟩
  have g0 : get_char cx.st 0 = 44 := by rw [get_char_eq, hsrc]; rfl
  have g1 : get_char cx.st 1 = c := by rw [get_char_eq, hsrc, hc]; cases rest <;> rfl
  rw [next_token_punctuator P cx hs hts hl (by rw [g0, g1]; simp [punct_start, isalpha, islower, isupper, isdigit, isspace])]
  simp only [lex_punctuator, g0, g1, if_la_n_is, if_la_is_or, return_punc_ex, create_token, current_locus, hts]
  simp [pure, Except.pure]

theorem lex_TOK_LESS (P : platform) (cx : lexer_ctx) (rest : List Nat)
    (hs : is_empty cx.saved_token = true) (hts : cx.st.token_start = none)
    (hsrc : cx.st.src.drop cx.st.pos = [60] ++ rest) (e61 : rest.headD 0 ≠ 61) (e60 : rest.headD 0 ≠ 60) :
    lexer_next_token P cx = .ok (⟨.TOK_LESS, cx.st.pos, 0⟩,
      { cx with st := { cx.st with pos := cx.st.pos + 1 },
                prev_token := cx.sent_token, sent_token := ⟨.TOK_LESS, cx.st.pos, 0⟩ }) := by
  have hl := fuel_succ cx.st _ _ hsrc
  obtain ⟨c, hc⟩ : ∃ c, c = rest.headD 0 := ⟨_, rfl⟩
  rw [← hc] at e61 e60
  have g0 : get_char cx.st 0 = 60 := by rw [get_char_eq, hsrc]; rfl
  have g1 : get_char cx.st 1 = c := by rw [get_char_eq, hsrc, hc]; cases rest <;> rfl
  rw [next_token_punctuator P cx hs hts hl (by rw [g0, g1]; simp [punct_start, isalpha, islower, isupper, isdigit, isspace])]
  simp only [lex_punctuator, g0, g1, if_la_n_is, if_la_is_or, return_punc_ex, create_token, current_locus, hts]
  simp [e61, e60, pure, Except.pure]

theorem lex_TOK_GREATER (P : platform) (cx : lexer_ctx) (rest : List Nat)
    (hs : is_empty cx.saved_token = true) (hts : cx.st.token_start = none)
    (hsrc : cx.st.src.drop cx.st.pos = [62] ++ rest) (e61 : rest.headD 0 ≠ 61) (e62 : rest.headD 0 ≠ 62) :
    lexer_next_token P cx = .ok (⟨.TOK_GREATER, cx.st.pos, 0⟩,
      { cx with st := { cx.st with pos := cx.st.pos + 1 },
                prev_token := cx.sent_token, sent_token := ⟨.TOK_GREATER, cx.st.pos, 0⟩ }) := by
  have hl := fuel_succ cx.st _ _ hsrc
  obtain ⟨c, hc⟩ : ∃ c, c = rest.headD 0 := ⟨_, rfl⟩
  rw [← hc] at e61 e62
  have g0 : get_char cx.st 0 = 62 := by rw [get_char_eq, hsrc]; rfl
  have g1 : get_char cx.st 1 = c := by rw [get_char_eq, hsrc, hc]; cases rest <;> rfl
  rw [next_token_punctuator P cx hs hts hl (by rw [g0, g1]; simp [punct_start, isalpha, islower, isupper, isdigit, isspace])]
  simp only [lex_punctuator, g0, g1, if_la_n_is, if_la_is_or, return_punc_ex, create_token, current_locus, hts]
  simp [e61, e62, pure, Except.pure]

theorem lex_TOK_LESS_EQ (P : platform) (cx : lexer_ctx) (rest : List Nat)
    (hs : is_empty cx.saved_token = true) (hts : cx.st.token_start = none)
    (hsrc : cx.st.src.drop cx.st.pos = [60, 61] ++ rest) :
    lexer_next_token P cx = .ok (⟨.TOK_LESS_EQ, cx.st.pos, 0⟩,
      { cx with st := { cx.st with pos := cx.st.pos + 2 },
                prev_token := cx.sent_token, sent_token := ⟨.TOK_LESS_EQ, cx.st.pos, 0⟩ }) := by
  have hl := fuel_succ cx.st _ _ hsrc
  obtain ⟨c, hc⟩ : ∃ c, c = rest.headD 0 := ⟨_, rfl⟩
  have g0 : get_char cx.st 0 = 60 := by rw [get_char_eq, hsrc]; rfl
  have g1 : get_char cx.st 1 = 61 := by rw [get_char_eq, hsrc]; rfl
  have g2 : get_char cx.st 2 = c := by rw [get_char_eq, hsrc, hc]; cases rest <;> rfl
  rw [next_token_punctuator P cx hs hts hl (by rw [g0, g1]; simp [punct_start, isalpha, islower, isupper, isdigit, isspace])]
  simp only [lex_punctuator, g0, g1, g2, if_la_n_is, if_la_is_or, return_punc_ex, create_token, current_locus, hts]
  simp [pure, Except.pure]

theorem lex_TOK_GREATER_EQ (P : platform) (cx : lexer_ctx) (rest : List Nat)
    (hs : is_empty cx.saved_token = true) (hts : cx.st.token_start = none)
    (hsrc : cx.st.src.drop cx.st.pos = [62, 61] ++ rest) :
    lexer_next_token P cx = .ok (⟨.TOK_GREATER_EQ, cx.st.pos, 0⟩,
      { cx with st := { cx.st with pos := cx.st.pos + 2 },
                prev_token := cx.sent_token, sent_token := ⟨.TOK_GREATER_EQ, cx.st.pos, 0⟩ }) := by
  have hl := fuel_succ cx.st _ _ hsrc
  obtain ⟨c, hc⟩ : ∃ c, c = rest.headD 0 := ⟨_, rfl⟩
  have g0 : get_char cx.st 0 = 62 := by rw [get_char_eq, hsrc]; rfl
  have g1 : get_char cx.st 1 = 61 := by rw [get_char_eq, hsrc]; rfl
  have g2 : get_char cx.st 2 = c := by rw [get_char_eq, hsrc, hc]; cases rest <;> rfl
  rw [next_token_punctuator P cx hs hts hl (by rw [g0, g1]; simp [punct_start, isalpha, islower, isupper, isdigit, isspace])]
  simp only [lex_punctuator, g0, g1, g2, if_la_n_is, if_la_is_or, return_punc_ex, create_token, current_locus, hts]
  simp [pure, Except.pure]

theorem lex_TOK_DOUBLE_EQ (P : platform) (cx : lexer_ctx) (rest : List Nat)
    (hs : is_empty cx.saved_token = true) (hts : cx.st.token_start = none)
    (hsrc : cx.st.src.drop cx.st.pos = [61, 61] ++ rest) (e61 : rest.headD 0 ≠ 61) :
    lexer_next_token P cx = .ok (⟨.TOK_DOUBLE_EQ, cx.st.pos, 0⟩,
      { cx with st := { cx.st with pos := cx.st.pos + 2 },
                prev_token := cx.sent_token, sent_token := ⟨.TOK_DOUBLE_EQ, cx.st.pos, 0⟩ }) := by
  have hl := fuel_succ cx.st _ _ hsrc
  obtain ⟨c, hc⟩ : ∃ c, c = rest.headD 0 := ⟨_, rfl⟩
  rw [← hc] at e61
  have g0 : get_char cx.st 0 = 61 := by rw [get_char_eq, hsrc]; rfl
  have g1 : get_char cx.st 1 = 61 := by rw [get_char_eq, hsrc]; rfl
  have g2 : get_char cx.st 2 = c := by rw [get_char_eq, hsrc, hc]; cases rest <;> rfl
  rw [next_token_punctuator P cx hs hts hl (by rw [g0, g1]; simp [punct_start, isalpha, islower, isupper, isdigit, isspace])]
  simp only [lex_punctuator, g0, g1, g2, if_la_n_is, if_la_is_or, return_punc_ex, create_token, current_locus, hts]
  simp [e61, pure, Except.pure]

theorem lex_TOK_NOT_EQ (P : platform) (cx : lexer_ctx) (rest : List Nat)
    (hs : is_empty cx.saved_token = true) (hts : cx.st.token_start = none)
    (hsrc : cx.st.src.drop cx.st.pos = [33, 61] ++ rest) (e61 : rest.headD 0 ≠ 61) :
    lexer_next_token P cx = .ok (⟨.TOK_NOT_EQ, cx.st.pos, 0⟩,
      { cx with st := { cx.st with pos := cx.st.pos + 2 },
                prev_token := cx.sent_token, sent_token := ⟨.TOK_NOT_EQ, cx.st.pos, 0⟩ }) := by
  have hl := fuel_succ cx.st _ _ hsrc
  obtain ⟨c, hc⟩ : ∃ c, c = rest.headD 0 := ⟨_, rfl⟩
  rw [← hc] at e61
  have g0 : get_char cx.st 0 = 33 := by rw [get_char_eq, hsrc]; rfl
  have g1 : get_char cx.st 1 = 61 := by rw [get_char_eq, hsrc]; rfl
  have g2 : get_char cx.st 2 = c := by rw [get_char_eq, hsrc, hc]; cases rest <;> rfl
  rw [next_token_punctuator P cx hs hts hl (by rw [g0, g1]; simp [punct_start, isalpha, islower, isupper, isdigit, isspace])]
  simp only [lex_punctuator, g0, g1, g2, if_la_n_is, if_la_is_or, return_punc_ex, create_token, current_locus, hts]
  simp [e61, pure, Except.pure]

theorem lex_TOK_TRIPLE_EQ (P : platform) (cx : lexer_ctx) (rest : List Nat)
    (hs : is_empty cx.saved_token = true) (hts : cx.st.token_start = none)
    (hsrc : cx.st.src.drop cx.st.pos = [61, 61, 61] ++ rest) :
    lexer_next_token P cx = .ok (⟨.TOK_TRIPLE_EQ, cx.st.pos, 0⟩,
      { cx with st := { cx.st with pos := cx.st.pos + 3 },
                prev_token := cx.sent_token, sent_token := ⟨.TOK_TRIPLE_EQ, cx.st.pos, 0⟩ }) := by
  have hl := fuel_succ cx.st _ _ hsrc
  obtain ⟨c, hc⟩ : ∃ c, c = rest.headD 0 := ⟨_, rfl⟩
  have g0 : get_char cx.st 0 = 61 := by rw [get_char_eq, hsrc]; rfl
  have g1 : get_char cx.st 1 = 61 := by rw [get_char_eq, hsrc]; rfl
  have g2 : get_char cx.st 2 = 61 := by rw [get_char_eq, hsrc]; rfl
  have g3 : get_char cx.st 3 = c := by rw [get_char_eq, hsrc, hc]; cases rest <;> rfl
  rw [next_token_punctuator P cx hs hts hl (by rw [g0, g1]; simp [punct_start, isalpha, islower, isupper, isdigit, isspace])]
  simp only [lex_punctuator, g0, g1, g2, g3, if_la_n_is, if_la_is_or, return_punc_ex, create_token, current_locus, hts]
  simp [pure, Except.pure]

theorem lex_TOK_NOT_DOUBLE_EQ (P : platform) (cx : lexer_ctx) (rest : List Nat)
    (hs : is_empty cx.saved_token = true) (hts : cx.st.token_start = none)
    (hsrc : cx.st.src.drop cx.st.pos = [33, 61, 61] ++ rest) :
    lexer_next_token P cx = .ok (⟨.TOK_NOT_DOUBLE_EQ, cx.st.pos, 0⟩,
      { cx with st := { cx.st with pos := cx.st.pos + 3 },
                prev_token := cx.sent_token, sent_token := ⟨.TOK_NOT_DOUBLE_EQ, cx.st.pos, 0⟩ }) := by
  have hl := fuel_succ cx.st _ _ hsrc
  obtain ⟨c, hc⟩ : ∃ c, c = rest.headD 0 := ⟨_, rfl⟩
  have g0 : get_char cx.st 0 = 33 := by rw [get_char_eq, hsrc]; rfl
  have g1 : get_char cx.st 1 = 61 := by rw [get_char_eq, hsrc]; rfl
  have g2 : get_char cx.st 2 = 61 := by rw [get_char_eq, hsrc]; rfl
  have g3 : get_char cx.st 3 = c := by rw [get_char_eq, hsrc, hc]; cases rest <;> rfl
  rw [next_token_punctuator P cx hs hts hl (by rw [g0, g1]; simp [punct_start, isalpha, islower, isupper, isdigit, isspace])]
  simp only [lex_punctuator, g0, g1, g2, g3, if_la_n_is, if_la_is_or, return_punc_ex, create_token, current_locus, hts]
  simp [pure, Except.pure]

theorem lex_TOK_PLUS (P : platform) (cx : lexer_ctx) (rest : List Nat)
    (hs : is_empty cx.saved_token = true) (hts : cx.st.token_start = none)
    (hsrc : cx.st.src.drop cx.st.pos = [43] ++ rest) (e43 : rest.headD 0 ≠ 43) (e61 : rest.headD 0 ≠ 61) :
    lexer_next_token P cx = .ok (⟨.TOK_PLUS, cx.st.pos, 0⟩,
      { cx with st := { cx.st with pos := cx.st.pos + 1 },
                prev_token := cx.sent_token, sent_token := ⟨.TOK_PLUS, cx.st.pos, 0⟩ }) := by
  have hl := fuel_succ cx.st _ _ hsrc
  obtain ⟨c, hc⟩ : ∃ c, c = rest.headD 0 := ⟨_, rfl⟩
  rw [← hc] at e43 e61
  have g0 : get_char cx.st 0 = 43 := by rw [get_char_eq, hsrc]; rfl
  have g1 : get_char cx.st 1 = c := by rw [get_char_eq, hsrc, hc]; cases rest <;> rfl
  rw [next_token_punctuator P cx hs hts hl (by rw [g0, g1]; simp [punct_start, isalpha, islower, isupper, isdigit, isspace])]
  simp only [lex_punctuator, g0, g1, if_la_n_is, if_la_is_or, return_punc_ex, create_token, current_locus, hts]
  simp [e43, e61, pure, Except.pure]

theorem lex_TOK_MINUS (P : platform) (cx : lexer_ctx) (rest : List Nat)
    (hs : is_empty cx.saved_token = true) (hts : cx.st.token_start = none)
    (hsrc : cx.st.src.drop cx.st.pos = [45] ++ rest) (e45 : rest.headD 0 ≠ 45) (e61 : rest.headD 0 ≠ 61) :
    lexer_next_token P cx = .ok (⟨.TOK_MINUS, cx.st.pos, 0⟩,
      { cx with st := { cx.st with pos := cx.st.pos + 1 },
                prev_token := cx.sent_token, sent_token := ⟨.TOK_MINUS, cx.st.pos, 0⟩ }) := by
  have hl := fuel_succ cx.st _ _ hsrc
  obtain ⟨c, hc⟩ : ∃ c, c = rest.headD 0 := ⟨_, rfl⟩
  rw [← hc] at e45 e61
  have g0 : get_char cx.st 0 = 45 := by rw [get_char_eq, hsrc]; rfl
  have g1 : get_char cx.st 1 = c := by rw [get_char_eq, hsrc, hc]; cases rest <;> rfl
  rw [next_token_punctuator P cx hs hts hl (by rw [g0, g1]; simp [punct_start, isalpha, islower, isupper, isdigit, isspace])]
  simp only [lex_punctuator, g0, g1, if_la_n_is, if_la_is_or, return_punc_ex, create_token, current_locus, hts]
  simp [e45, e61, pure, Except.pure]

theorem lex_TOK_MULT (P : platform) (cx : lexer_ctx) (rest : List Nat)
    (hs : is_empty cx.saved_token = true) (hts : cx.st.token_start = none)
    (hsrc : cx.st.src.drop cx.st.pos = [42] ++ rest) (e61 : rest.headD 0 ≠ 61) :
    lexer_next_token P cx = .ok (⟨.TOK_MULT, cx.st.pos, 0⟩,
      { cx with st := { cx.st with pos := cx.st.pos + 1 },
                prev_token := cx.sent_token, sent_token := ⟨.TOK_MULT, cx.st.pos, 0⟩ }) := by
  have hl := fuel_succ cx.st _ _ hsrc
  obtain ⟨c, hc⟩ : ∃ c, c = rest.headD 0 := ⟨_, rfl⟩
  rw [← hc] at e61
  have g0 : get_char cx.st 0 = 42 := by rw [get_char_eq, hsrc]; rfl
  have g1 : get_char cx.st 1 = c := by rw [get_char_eq, hsrc, hc]; cases rest <;> rfl
  rw [next_token_punctuator P cx hs hts hl (by rw [g0, g1]; simp [punct_start, isalpha, islower, isupper, isdigit, isspace])]
  simp only [lex_punctuator, g0, g1, if_la_n_is, if_la_is_or, return_punc_ex, create_token, current_locus, hts]
  simp [e61, pure, Except.pure]

theorem lex_TOK_MOD (P : platform) (cx : lexer_ctx) (rest : List Nat)
    (hs : is_empty cx.saved_token = true) (hts : cx.st.token_start = none)
    (hsrc : cx.st.src.drop cx.st.pos = [37] ++ rest) (e61 : rest.headD 0 ≠ 61) :
    lexer_next_token P cx = .ok (⟨.TOK_MOD, cx.st.pos, 0⟩,
      { cx with st := { cx.st with pos := cx.st.pos + 1 },
                prev_token := cx.sent_token, sent_token := ⟨.TOK_MOD, cx.st.pos, 0⟩ }) := by
  have hl := fuel_succ cx.st _ _ hsrc
  obtain ⟨c, hc⟩ : ∃ c, c = rest.headD 0 := ⟨_, rfl⟩
  rw [← hc] at e61
  have g0 : get_char cx.st 0 = 37 := by rw [get_char_eq, hsrc]; rfl
  have g1 : get_char cx.st 1 = c := by rw [get_char_eq, hsrc, hc]; cases rest <;> rfl
  rw [next_token_punctuator P cx hs hts hl (by rw [g0, g1]; simp [punct_start, isalpha, islower, isupper, isdigit, isspace])]
  simp only [lex_punctuator, g0, g1, if_la_n_is, if_la_is_or, return_punc_ex, create_token, current_locus, hts]
  simp [e61, pure, Except.pure]

theorem lex_TOK_DOUBLE_PLUS (P : platform) (cx : lexer_ctx) (rest : List Nat)
    (hs : is_empty cx.saved_token = true) (hts : cx.st.token_start = none)
    (hsrc : cx.st.src.drop cx.st.pos = [43, 43] ++ rest) :
    lexer_next_token P cx = .ok (⟨.TOK_DOUBLE_PLUS, cx.st.pos, 0⟩,
      { cx with st := { cx.st with pos := cx.st.pos + 2 },
                prev_token := cx.sent_token, sent_token := ⟨.TOK_DOUBLE_PLUS, cx.st.pos, 0⟩ }) := by
  have hl := fuel_succ cx.st _ _ hsrc
  obtain ⟨c, hc⟩ : ∃ c, c = rest.headD 0 := ⟨_, rfl⟩
  have g0 : get_char cx.st 0 = 43 := by rw [get_char_eq, hsrc]; rfl
  have g1 : get_char cx.st 1 = 43 := by rw [get_char_eq, hsrc]; rfl
  have g2 : get_char cx.st 2 = c := by rw [get_char_eq, hsrc, hc]; cases rest <;> rfl
  rw [next_token_punctuator P cx hs hts hl (by rw [g0, g1]; simp [punct_start, isalpha, islower, isupper, isdigit, isspace])]
  simp only [lex_punctuator, g0, g1, g2, if_la_n_is, if_la_is_or, return_punc_ex, create_token, current_locus, hts]
  simp [pure, Except.pure]

theorem lex_TOK_DOUBLE_MINUS (P : platform) (cx : lexer_ctx) (rest : List Nat)
    (hs : is_empty cx.saved_token = true) (hts : cx.st.token_start = none)
    (hsrc : cx.st.src.drop cx.st.pos = [45, 45] ++ rest) :
    lexer_next_token P cx = .ok (⟨.TOK_DOUBLE_MINUS, cx.st.pos, 0⟩,
      { cx with st := { cx.st with pos := cx.st.pos + 2 },
                prev_token := cx.sent_token, sent_token := ⟨.TOK_DOUBLE_MINUS, cx.st.pos, 0⟩ }) := by
  have hl := fuel_succ cx.st _ _ hsrc
  obtain ⟨c, hc⟩ : ∃ c, c = rest.headD 0 := ⟨_, rfl⟩
  have g0 : get_char cx.st 0 = 45 := by rw [get_char_eq, hsrc]; rfl
  have g1 : get_char cx.st 1 = 45 := by rw [get_char_eq, hsrc]; rfl
  have g2 : get_char cx.st 2 = c := by rw [get_char_eq, hsrc, hc]; cases rest <;> rfl
  rw [next_token_punctuator P cx hs hts hl (by rw [g0, g1]; simp [punct_start, isalpha, islower, isupper, isdigit, isspace])]
  simp only [lex_punctuator, g0, g1, g2, if_la_n_is, if_la_is_or, return_punc_ex, create_token, current_locus, hts]
  simp [pure, Except.pure]

theorem lex_TOK_LSHIFT (P : platform) (cx : lexer_ctx) (rest : List Nat)
    (hs : is_empty cx.saved_token = true) (hts : cx.st.token_start = none)
    (hsrc : cx.st.src.drop cx.st.pos = [60, 60] ++ rest) (e61 : rest.headD 0 ≠ 61) :
    lexer_next_token P cx = .ok (⟨.TOK_LSHIFT, cx.st.pos, 0⟩,
      { cx with st := { cx.st with pos := cx.st.pos + 2 },
                prev_token := cx.sent_token, sent_token := ⟨.TOK_LSHIFT, cx.st.pos, 0⟩ }) := by
  have hl := fuel_succ cx.st _ _ hsrc
  obtain ⟨c, hc⟩ : ∃ c, c = rest.headD 0 := ⟨_, rfl⟩
  rw [← hc] at e61
  have g0 : get_char cx.st 0 = 60 := by rw [get_char_eq, hsrc]; rfl
  have g1 : get_char cx.st 1 = 60 := by rw [get_char_eq, hsrc]; rfl
  have g2 : get_char cx.st 2 = c := by rw [get_char_eq, hsrc, hc]; cases rest <;> rfl
  rw [next_token_punctuator P cx hs hts hl (by rw [g0, g1]; simp [punct_start, isalpha, islower, isupper, isdigit, isspace])]
  simp only [lex_punctuator, g0, g1, g2, if_la_n_is, if_la_is_or, return_punc_ex, create_token, current_locus, hts]
  simp [e61, pure, Except.pure]

theorem lex_TOK_RSHIFT (P : platform) (cx : lexer_ctx) (rest : List Nat)
    (hs : is_empty cx.saved_token = true) (hts : cx.st.token_start = none)
    (hsrc : cx.st.src.drop cx.st.pos = [62, 62] ++ rest) (e62 : rest.headD 0 ≠ 62) (e61 : rest.headD 0 ≠ 61) :
    lexer_next_token P cx = .ok (⟨.TOK_RSHIFT, cx.st.pos, 0⟩,
      { cx with st := { cx.st with pos := cx.st.pos + 2 },
                prev_token := cx.sent_token, sent_token := ⟨.TOK_RSHIFT, cx.st.pos, 0⟩ }) := by
  have hl := fuel_succ cx.st _ _ hsrc
  obtain ⟨c, hc⟩ : ∃ c, c = rest.headD 0 := ⟨_, rfl⟩
  rw [← hc] at e62 e61
  have g0 : get_char cx.st 0 = 62 := by rw [get_char_eq, hsrc]; rfl
  have g1 : get_char cx.st 1 = 62 := by rw [get_char_eq, hsrc]; rfl
  have g2 : get_char cx.st 2 = c := by rw [get_char_eq, hsrc, hc]; cases rest <;> rfl
  rw [next_token_punctuator P cx hs hts hl (by rw [g0, g1]; simp [punct_start, isalpha, islower, isupper, isdigit, isspace])]
  simp only [lex_punctuator, g0, g1, g2, if_la_n_is, if_la_is_or, return_punc_ex, create_token, current_locus, hts]
  simp [e62, e61, pure, Except.pure]

theorem lex_TOK_RSHIFT_EX (P : platform) (cx : lexer_ctx) (rest : List Nat)
    (hs : is_empty cx.saved_token = true) (hts : cx.st.token_start = none)
    (hsrc : cx.st.src.drop cx.st.pos = [62, 62, 62] ++ rest) (e61 : rest.headD 0 ≠ 61) :
    lexer_next_token P cx = .ok (⟨.TOK_RSHIFT_EX, cx.st.pos, 0⟩,
      { cx with st := { cx.st with pos := cx.st.pos + 3 },
                prev_token := cx.sent_token, sent_token := ⟨.TOK_RSHIFT_EX, cx.st.pos, 0⟩ }) := by
  have hl := fuel_succ cx.st _ _ hsrc
  obtain ⟨c, hc⟩ : ∃ c, c = rest.headD 0 := ⟨_, rfl⟩
  rw [← hc] at e61
  have g0 : get_char cx.st 0 = 62 := by rw [get_char_eq, hsrc]; rfl
  have g1 : get_char cx.st 1 = 62 := by rw [get_char_eq, hsrc]; rfl
  have g2 : get_char cx.st 2 = 62 := by rw [get_char_eq, hsrc]; rfl
  have g3 : get_char cx.st 3 = c := by rw [get_char_eq, hsrc, hc]; cases rest <;> rfl
  rw [next_token_punctuator P cx hs hts hl (by rw [g0, g1]; simp [punct_start, isalpha, islower, isupper, isdigit, isspace])]
  simp only [lex_punctuator, g0, g1, g2, g3, if_la_n_is, if_la_is_or, return_punc_ex, create_token, current_locus, hts]
  simp [e61, pure, Except.pure]

theorem lex_TOK_AND (P : platform) (cx : lexer_ctx) (rest : List Nat)
    (hs : is_empty cx.saved_token = true) (hts : cx.st.token_start = none)
    (hsrc : cx.st.src.drop cx.st.pos = [38] ++ rest) (e38 : rest.headD 0 ≠ 38) (e61 : rest.headD 0 ≠ 61) :
    lexer_next_token P cx = .ok (⟨.TOK_AND, cx.st.pos, 0⟩,
      { cx with st := { cx.st with pos := cx.st.pos + 1 },
                prev_token := cx.sent_token, sent_token := ⟨.TOK_AND, cx.st.pos, 0⟩ }) := by
  have hl := fuel_succ cx.st _ _ hsrc
  obtain ⟨c, hc⟩ : ∃ c, c = rest.headD 0 := ⟨_, rfl⟩
  rw [← hc] at e38 e61
  have g0 : get_char cx.st 0 = 38 := by rw [get_char_eq, hsrc]; rfl
  have g1 : get_char cx.st 1 = c := by rw [get_char_eq, hsrc, hc]; cases rest <;> rfl
  rw [next_token_punctuator P cx hs hts hl (by rw [g0, g1]; simp [punct_start, isalpha, islower, isupper, isdigit, isspace])]
  simp only [lex_punctuator, g0, g1, if_la_n_is, if_la_is_or, return_punc_ex, create_token, current_locus, hts]
  simp [e38, e61, pure, Except.pure]

theorem lex_TOK_OR (P : platform) (cx : lexer_ctx) (rest : List Nat)
    (hs : is_empty cx.saved_token = true) (hts : cx.st.token_start = none)
    (hsrc : cx.st.src.drop cx.st.pos = [124] ++ rest) (e124 : rest.headD 0 ≠ 124) (e61 : rest.headD 0 ≠ 61) :
    lexer_next_token P cx = .ok (⟨.TOK_OR, cx.st.pos, 0⟩,
      { cx with st := { cx.st with pos := cx.st.pos + 1 },
                prev_token := cx.sent_token, sent_token := ⟨.TOK_OR, cx.st.pos, 0⟩ }) := by
  have hl := fuel_succ cx.st _ _ hsrc
  obtain ⟨c, hc⟩ : ∃ c, c = rest.headD 0 := ⟨_, rfl⟩
  rw [← hc] at e124 e61
  have g0 : get_char cx.st 0 = 124 := by rw [get_char_eq, hsrc]; rfl
  have g1 : get_char cx.st 1 = c := by rw [get_char_eq, hsrc, hc]; cases rest <;> rfl
  rw [next_token_punctuator P cx hs hts hl (by rw [g0, g1]; simp [punct_start, isalpha, islower, isupper, isdigit, isspace])]
  simp only [lex_punctuator, g0, g1, if_la_n_is, if_la_is_or, return_punc_ex, create_token, current_locus, hts]
  simp [e124, e61, pure, Except.pure]

theorem lex_TOK_XOR (P : platform) (cx : lexer_ctx) (rest : List Nat)
    (hs : is_empty cx.saved_token = true) (hts : cx.st.token_start = none)
    (hsrc : cx.st.src.drop cx.st.pos = [94] ++ rest) (e61 : rest.headD 0 ≠ 61) :
    lexer_next_token P cx = .ok (⟨.TOK_XOR, cx.st.pos, 0⟩,
      { cx with st := { cx.st with pos := cx.st.pos + 1 },
                prev_token := cx.sent_token, sent_token := ⟨.TOK_XOR, cx.st.pos, 0⟩ }) := by
  have hl := fuel_succ cx.st _ _ hsrc
  obtain ⟨c, hc⟩ : ∃ c, c = rest.headD 0 := ⟨_, rfl⟩
  rw [← hc] at e61
  have g0 : get_char cx.st 0 = 94 := by rw [get_char_eq, hsrc]; rfl
  have g1 : get_char cx.st 1 = c := by rw [get_char_eq, hsrc, hc]; cases rest <;> rfl
  rw [next_token_punctuator P cx hs hts hl (by rw [g0, g1]; simp [punct_start, isalpha, islower, isupper, isdigit, isspace])]
  simp only [lex_punctuator, g0, g1, if_la_n_is, if_la_is_or, return_punc_ex, create_token, current_locus, hts]
  simp [e61, pure, Except.pure]

theorem lex_TOK_NOT (P : platform) (cx : lexer_ctx) (rest : List Nat)
    (hs : is_empty cx.saved_token = true) (hts : cx.st.token_start = none)
    (hsrc : cx.st.src.drop cx.st.pos = [33] ++ rest) (e61 : rest.headD 0 ≠ 61) :
    lexer_next_token P cx = .ok (⟨.TOK_NOT, cx.st.pos, 0⟩,
      { cx with st := { cx.st with pos := cx.st.pos + 1 },
                prev_token := cx.sent_token, sent_token := ⟨.TOK_NOT, cx.st.pos, 0⟩ }) := by
  have hl := fuel_succ cx.st _ _ hsrc
  obtain ⟨c, hc⟩ : ∃ c, c = rest.headD 0 := ⟨_, rfl⟩
  rw [← hc] at e61
  have g0 : get_char cx.st 0 = 33 := by rw [get_char_eq, hsrc]; rfl
  have g1 : get_char cx.st 1 = c := by rw [get_char_eq, hsrc, hc]; cases rest <;> rfl
  rw [next_token_punctuator P cx hs hts hl (by rw [g0, g1]; simp [punct_start, isalpha, islower, isupper, isdigit, isspace])]
  simp only [lex_punctuator, g0, g1, if_la_n_is, if_la_is_or, return_punc_ex, create_token, current_locus, hts]
  simp [e61, pure, Except.pure]

theorem lex_TOK_COMPL (P : platform) (cx : lexer_ctx) (rest : List Nat)
    (hs : is_empty cx.saved_token = true) (hts : cx.st.token_start = none)
    (hsrc : cx.st.src.drop cx.st.pos = [126] ++ rest) :
    lexer_next_token P cx = .ok (⟨.TOK_COMPL, cx.st.pos, 0⟩,
      { cx with st := { cx.st with pos := cx.st.pos + 1 },
                prev_token := cx.sent_token, sent_token := ⟨.TOK_COMPL, cx.st.pos, 0⟩ }) := by
  have hl := fuel_succ cx.st _ _ hsrc
  obtain ⟨c, hc⟩ : ∃ c, c = rest.headD 0 := ⟨_, rfl⟩
  have g0 : get_char cx.st 0 = 126 := by rw [get_char_eq, hsrc]; rfl
  have g1 : get_char cx.st 1 = c := by rw [get_char_eq, hsrc, hc]; cases rest <;> rfl
  rw [next_token_punctuator P cx hs hts hl (by rw [g0, g1]; simp [punct_start, isalpha, islower, isupper, isdigit, isspace])]
  simp only [lex_punctuator, g0, g1, if_la_n_is, if_la_is_or, return_punc_ex, create_token, current_locus, hts]
  simp [pure, Except.pure]

theorem lex_TOK_DOUBLE_AND (P : platform) (cx : lexer_ctx) (rest : List Nat)
    (hs : is_empty cx.saved_token = true) (hts : cx.st.token_start = none)
    (hsrc : cx.st.src.drop cx.st.pos = [38, 38] ++ rest) :
    lexer_next_token P cx = .ok (⟨.TOK_DOUBLE_AND, cx.st.pos, 0⟩,
      { cx with st := { cx.st with pos := cx.st.pos + 2 },
                prev_token := cx.sent_token, sent_token := ⟨.TOK_DOUBLE_AND, cx.st.pos, 0⟩ }) := by
  have hl := fuel_succ cx.st _ _ hsrc
  obtain ⟨c, hc⟩ : ∃ c, c = rest.headD 0 := ⟨_, rfl⟩
  have g0 : get_char cx.st 0 = 38 := by rw [get_char_eq, hsrc]; rfl
  have g1 : get_char cx.st 1 = 38 := by rw [get_char_eq, hsrc]; rfl
  have g2 : get_char cx.st 2 = c := by rw [get_char_eq, hsrc, hc]; cases rest <;> rfl
  rw [next_token_punctuator P cx hs hts hl (by rw [g0, g1]; simp [punct_start, isalpha, islower, isupper, isdigit, isspace])]
  simp only [lex_punctuator, g0, g1, g2, if_la_n_is, if_la_is_or, return_punc_ex, create_token, current_locus, hts]
  simp [pure, Except.pure]

theorem lex_TOK_DOUBLE_OR (P : platform) (cx : lexer_ctx) (rest : List Nat)
    (hs : is_empty cx.saved_token = true) (hts : cx.st.token_start = none)
    (hsrc : cx.st.src.drop cx.st.pos = [124, 124] ++ rest) :
    lexer_next_token P cx = .ok (⟨.TOK_DOUBLE_OR, cx.st.pos, 0⟩,
      { cx with st := { cx.st with pos := cx.st.pos + 2 },
                prev_token := cx.sent_token, sent_token := ⟨.TOK_DOUBLE_OR, cx.st.pos, 0⟩ }) := by
  have hl := fuel_succ cx.st _ _ hsrc
  obtain ⟨c, hc⟩ : ∃ c, c = rest.headD 0 := ⟨_, rfl⟩
  have g0 : get_char cx.st 0 = 124 := by rw [get_char_eq, hsrc]; rfl
  have g1 : get_char cx.st 1 = 124 := by rw [get_char_eq, hsrc]; rfl
  have g2 : get_char cx.st 2 = c := by rw [get_char_eq, hsrc, hc]; cases rest <;> rfl
  rw [next_token_punctuator P cx hs hts hl (by rw [g0, g1]; simp [punct_start, isalpha, islower, isupper, isdigit, isspace])]
  simp only [lex_punctuator, g0, g1, g2, if_la_n_is, if_la_is_or, return_punc_ex, create_token, current_locus, hts]
  simp [pure, Except.pure]

theorem lex_TOK_QUERY (P : platform) (cx : lexer_ctx) (rest : List Nat)
    (hs : is_empty cx.saved_token = true) (hts : cx.st.token_start = none)
    (hsrc : cx.st.src.drop cx.st.pos = [63] ++ rest) :
    lexer_next_token P cx = .ok (⟨.TOK_QUERY, cx.st.pos, 0⟩,
      { cx with st := { cx.st with pos := cx.st.pos + 1 },
                prev_token := cx.sent_token, sent_token := ⟨.TOK_QUERY, cx.st.pos, 0⟩ }) := by
  have hl := fuel_succ cx.st _ _ hsrc
  obtain ⟨c, hc⟩ : ∃ c, c = rest.headD 0 := ⟨_, rfl⟩
  have g0 : get_char cx.st 0 = 63 := by rw [get_char_eq, hsrc]; rfl
  have g1 : get_char cx.st 1 = c := by rw [get_char_eq, hsrc, hc]; cases rest <;> rfl
  rw [next_token_punctuator P cx hs hts hl (by rw [g0, g1]; simp [punct_start, isalpha, islower, isupper, isdigit, isspace])]
  simp only [lex_punctuator, g0, g1, if_la_n_is, if_la_is_or, return_punc_ex, create_token, current_locus, hts]
  simp [pure, Except.pure]

theorem lex_TOK_COLON (P : platform) (cx : lexer_ctx) (rest : List Nat)
    (hs : is_empty cx.saved_token = true) (hts : cx.st.token_start = none)
    (hsrc : cx.st.src.drop cx.st.pos = [58] ++ rest) :
    lexer_next_token P cx = .ok (⟨.TOK_COLON, cx.st.pos, 0⟩,
      { cx with st := { cx.st with pos := cx.st.pos + 1 },
                prev_token := cx.sent_token, sent_token := ⟨.TOK_COLON, cx.st.pos, 0⟩ }) := by
  have hl := fuel_succ cx.st _ _ hsrc
  obtain ⟨c, hc⟩ : ∃ c, c = rest.headD 0 := ⟨_, rfl⟩
  have g0 : get_char cx.st 0 = 58 := by rw [get_char_eq, hsrc]; rfl
  have g1 : get_char cx.st 1 = c := by rw [get_char_eq, hsrc, hc]; cases rest <;> rfl
  rw [next_token_punctuator P cx hs hts hl (by rw [g0, g1]; simp [punct_start, isalpha, islower, isupper, isdigit, isspace])]
  simp only [lex_punctuator, g0, g1, if_la_n_is, if_la_is_or, return_punc_ex, create_token, current_locus, hts]
  simp [pure, Except.pure]

theorem lex_TOK_EQ (P : platform) (cx : lexer_ctx) (rest : List Nat)
    (hs : is_empty cx.saved_token = true) (hts : cx.st.token_start = none)
    (hsrc : cx.st.src.drop cx.st.pos = [61] ++ rest) (e61 : rest.headD 0 ≠ 61) :
    lexer_next_token P cx = .ok (⟨.TOK_EQ, cx.st.pos, 0⟩,
      { cx with st := { cx.st with pos := cx.st.pos + 1 },
                prev_token := cx.sent_token, sent_token := ⟨.TOK_EQ, cx.st.pos, 0⟩ }) := by
  have hl := fuel_succ cx.st _ _ hsrc
  obtain ⟨c, hc⟩ : ∃ c, c = rest.headD 0 := ⟨_, rfl⟩
  rw [← hc] at e61
  have g0 : get_char cx.st 0 = 61 := by rw [get_char_eq, hsrc]; rfl
  have g1 : get_char cx.st 1 = c := by rw [get_char_eq, hsrc, hc]; cases rest <;> rfl
  rw [next_token_punctuator P cx hs hts hl (by rw [g0, g1]; simp [punct_start, isalpha, islower, isupper, isdigit, isspace])]
  simp only [lex_punctuator, g0, g1, if_la_n_is, if_la_is_or, return_punc_ex, create_token, current_locus, hts]
  simp [e61, pure, Except.pure]

theorem lex_TOK_PLUS_EQ (P : platform) (cx : lexer_ctx) (rest : List Nat)
    (hs : is_empty cx.saved_token = true) (hts : cx.st.token_start = none)
    (hsrc : cx.st.src.drop cx.st.pos = [43, 61] ++ rest) :
    lexer_next_token P cx = .ok (⟨.TOK_PLUS_EQ, cx.st.pos, 0⟩,
      { cx with st := { cx.st with pos := cx.st.pos + 2 },
                prev_token := cx.sent_token, sent_token := ⟨.TOK_PLUS_EQ, cx.st.pos, 0⟩ }) := by
  have hl := fuel_succ cx.st _ _ hsrc
  obtain ⟨c, hc⟩ : ∃ c, c = rest.headD 0 := ⟨_, rfl⟩
  have g0 : get_char cx.st 0 = 43 := by rw [get_char_eq, hsrc]; rfl
  have g1 : get_char cx.st 1 = 61 := by rw [get_char_eq, hsrc]; rfl
  have g2 : get_char cx.st 2 = c := by rw [get_char_eq, hsrc, hc]; cases rest <;> rfl
  rw [next_token_punctuator P cx hs hts hl (by rw [g0, g1]; simp [punct_start, isalpha, islower, isupper, isdigit, isspace])]
  simp only [lex_punctuator, g0, g1, g2, if_la_n_is, if_la_is_or, return_punc_ex, create_token, current_locus, hts]
  simp [pure, Except.pure]

theorem lex_TOK_MINUS_EQ (P : platform) (cx : lexer_ctx) (rest : List Nat)
    (hs : is_empty cx.saved_token = true) (hts : cx.st.token_start = none)
    (hsrc : cx.st.src.drop cx.st.pos = [45, 61] ++ rest) :
    lexer_next_token P cx = .ok (⟨.TOK_MINUS_EQ, cx.st.pos, 0⟩,
      { cx with st := { cx.st with pos := cx.st.pos + 2 },
                prev_token := cx.sent_token, sent_token := ⟨.TOK_MINUS_EQ, cx.st.pos, 0⟩ }) := by
  have hl := fuel_succ cx.st _ _ hsrc
  obtain ⟨c, hc⟩ : ∃ c, c = rest.headD 0 := ⟨_, rfl⟩
  have g0 : get_char cx.st 0 = 45 := by rw [get_char_eq, hsrc]; rfl
  have g1 : get_char cx.st 1 = 61 := by rw [get_char_eq, hsrc]; rfl
  have g2 : get_char cx.st 2 = c := by rw [get_char_eq, hsrc, hc]; cases rest <;> rfl
  rw [next_token_punctuator P cx hs hts hl (by rw [g0, g1]; simp [punct_start, isalpha, islower, isupper, isdigit, isspace])]
  simp only [lex_punctuator, g0, g1, g2, if_la_n_is, if_la_is_or, return_punc_ex, create_token, current_locus, hts]
  simp [pure, Except.pure]

theorem lex_TOK_MULT_EQ (P : platform) (cx : lexer_ctx) (rest : List Nat)
    (hs : is_empty cx.saved_token = true) (hts : cx.st.token_start = none)
    (hsrc : cx.st.src.drop cx.st.pos = [42, 61] ++ rest) :
    lexer_next_token P cx = .ok (⟨.TOK_MULT_EQ, cx.st.pos, 0⟩,
      { cx with st := { cx.st with pos := cx.st.pos + 2 },
                prev_token := cx.sent_token, sent_token := ⟨.TOK_MULT_EQ, cx.st.pos, 0⟩ }) := by
  have hl := fuel_succ cx.st _ _ hsrc
  obtain ⟨c, hc⟩ : ∃ c, c = rest.headD 0 := ⟨_, rfl⟩
  have g0 : get_char cx.st 0 = 42 := by rw [get_char_eq, hsrc]; rfl
  have g1 : get_char cx.st 1 = 61 := by rw [get_char_eq, hsrc]; rfl
  have g2 : get_char cx.st 2 = c := by rw [get_char_eq, hsrc, hc]; cases rest <;> rfl
  rw [next_token_punctuator P cx hs hts hl (by rw [g0, g1]; simp [punct_start, isalpha, islower, isupper, isdigit, isspace])]
  simp only [lex_punctuator, g0, g1, g2, if_la_n_is, if_la_is_or, return_punc_ex, create_token, current_locus, hts]
  simp [pure, Except.pure]

theorem lex_TOK_MOD_EQ (P : platform) (cx : lexer_ctx) (rest : List Nat)
    (hs : is_empty cx.saved_token = true) (hts : cx.st.token_start = none)
    (hsrc : cx.st.src.drop cx.st.pos = [37, 61] ++ rest) :
    lexer_next_token P cx = .ok (⟨.TOK_MOD_EQ, cx.st.pos, 0⟩,
      { cx with st := { cx.st with pos := cx.st.pos + 2 },
                prev_token := cx.sent_token, sent_token := ⟨.TOK_MOD_EQ, cx.st.pos, 0⟩ }) := by
  have hl := fuel_succ cx.st _ _ hsrc
  obtain ⟨c, hc⟩ : ∃ c, c = rest.headD 0 := ⟨_, rfl⟩
  have g0 : get_char cx.st 0 = 37 := by rw [get_char_eq, hsrc]; rfl
  have g1 : get_char cx.st 1 = 61 := by rw [get_char_eq, hsrc]; rfl
  have g2 : get_char cx.st 2 = c := by rw [get_char_eq, hsrc, hc]; cases rest <;> rfl
  rw [next_token_punctuator P cx hs hts hl (by rw [g0, g1]; simp [punct_start, isalpha, islower, isupper, isdigit, isspace])]
  simp only [lex_punctuator, g0, g1, g2, if_la_n_is, if_la_is_or, return_punc_ex, create_token, current_locus, hts]
  simp [pure, Except.pure]

theorem lex_TOK_LSHIFT_EQ (P : platform) (cx : lexer_ctx) (rest : List Nat)
    (hs : is_empty cx.saved_token = true) (hts : cx.st.token_start = none)
    (hsrc : cx.st.src.drop cx.st.pos = [60, 60, 61] ++ rest) :
    lexer_next_token P cx = .ok (⟨.TOK_LSHIFT_EQ, cx.st.pos, 0⟩,
      { cx with st := { cx.st with pos := cx.st.pos + 3 },
                prev_token := cx.sent_token, sent_token := ⟨.TOK_LSHIFT_EQ, cx.st.pos, 0⟩ }) := by
  have hl := fuel_succ cx.st _ _ hsrc
  obtain ⟨c, hc⟩ : ∃ c, c = rest.headD 0 := ⟨_, rfl⟩
  have g0 : get_char cx.st 0 = 60 := by rw [get_char_eq, hsrc]; rfl
  have g1 : get_char cx.st 1 = 60 := by rw [get_char_eq, hsrc]; rfl
  have g2 : get_char cx.st 2 = 61 := by rw [get_char_eq, hsrc]; rfl
  have g3 : get_char cx.st 3 = c := by rw [get_char_eq, hsrc, hc]; cases rest <;> rfl
  rw [next_token_punctuator P cx hs hts hl (by rw [g0, g1]; simp [punct_start, isalpha, islower, isupper, isdigit, isspace])]
  simp only [lex_punctuator, g0, g1, g2, g3, if_la_n_is, if_la_is_or, return_punc_ex, create_token, current_locus, hts]
  simp [pure, Except.pure]

theorem lex_TOK_RSHIFT_EQ (P : platform) (cx : lexer_ctx) (rest : List Nat)
    (hs : is_empty cx.saved_token = true) (hts : cx.st.token_start = none)
    (hsrc : cx.st.src.drop cx.st.pos = [62, 62, 61] ++ rest) :
    lexer_next_token P cx = .ok (⟨.TOK_RSHIFT_EQ, cx.st.pos, 0⟩,
      { cx with st := { cx.st with pos := cx.st.pos + 3 },
                prev_token := cx.sent_token, sent_token := ⟨.TOK_RSHIFT_EQ, cx.st.pos, 0⟩ }) := by
  have hl := fuel_succ cx.st _ _ hsrc
  obtain ⟨c, hc⟩ : ∃ c, c = rest.headD 0 := ⟨_, rfl⟩
  have g0 : get_char cx.st 0 = 62 := by rw [get_char_eq, hsrc]; rfl
  have g1 : get_char cx.st 1 = 62 := by rw [get_char_eq, hsrc]; rfl
  have g2 : get_char cx.st 2 = 61 := by rw [get_char_eq, hsrc]; rfl
  have g3 : get_char cx.st 3 = c := by rw [get_char_eq, hsrc, hc]; cases rest <;> rfl
  rw [next_token_punctuator P cx hs hts hl (by rw [g0, g1]; simp [punct_start, isalpha, islower, isupper, isdigit, isspace])]
  simp only [lex_punctuator, g0, g1, g2, g3, if_la_n_is, if_la_is_or, return_punc_ex, create_token, current_locus, hts]
  simp [pure, Except.pure]

theorem lex_TOK_RSHIFT_EX_EQ (P : platform) (cx : lexer_ctx) (rest : List Nat)
    (hs : is_empty cx.saved_token = true) (hts : cx.st.token_start = none)
    (hsrc : cx.st.src.drop cx.st.pos = [62, 62, 62, 61] ++ rest) :
    lexer_next_token P cx = .ok (⟨.TOK_RSHIFT_EX_EQ, cx.st.pos, 0⟩,
      { cx with st := { cx.st with pos := cx.st.pos + 4 },
                prev_token := cx.sent_token, sent_token := ⟨.TOK_RSHIFT_EX_EQ, cx.st.pos, 0⟩ }) := by
  have hl := fuel_succ cx.st _ _ hsrc
  obtain ⟨c, hc⟩ : ∃ c, c = rest.headD 0 := ⟨_, rfl⟩
  have g0 : get_char cx.st 0 = 62 := by rw [get_char_eq, hsrc]; rfl
  have g1 : get_char cx.st 1 = 62 := by rw [get_char_eq, hsrc]; rfl
  have g2 : get_char cx.st 2 = 62 := by rw [get_char_eq, hsrc]; rfl
  have g3 : get_char cx.st 3 = 61 := by rw [get_char_eq, hsrc]; rfl
  have g4 : get_char cx.st 4 = c := by rw [get_char_eq, hsrc, hc]; cases rest <;> rfl
  rw [next_token_punctuator P cx hs hts hl (by rw [g0, g1]; simp [punct_start, isalpha, islower, isupper, isdigit, isspace])]
  simp only [lex_punctuator, g0, g1, g2, g3, g4, if_la_n_is, if_la_is_or, return_punc_ex, create_token, current_locus, hts]
  simp [pure, Except.pure]

theorem lex_TOK_AND_EQ (P : platform) (cx : lexer_ctx) (rest : List Nat)
    (hs : is_empty cx.saved_token = true) (hts : cx.st.token_start = none)
    (hsrc : cx.st.src.drop cx.st.pos = [38, 61] ++ rest) :
    lexer_next_token P cx = .ok (⟨.TOK_AND_EQ, cx.st.pos, 0⟩,
      { cx with st := { cx.st with pos := cx.st.pos + 2 },
                prev_token := cx.sent_token, sent_token := ⟨.TOK_AND_EQ, cx.st.pos, 0⟩ }) := by
  have hl := fuel_succ cx.st _ _ hsrc
  obtain ⟨c, hc⟩ : ∃ c, c = rest.headD 0 := ⟨_, rfl⟩
  have g0 : get_char cx.st 0 = 38 := by rw [get_char_eq, hsrc]; rfl
  have g1 : get_char cx.st 1 = 61 := by rw [get_char_eq, hsrc]; rfl
  have g2 : get_char cx.st 2 = c := by rw [get_char_eq, hsrc, hc]; cases rest <;> rfl
  rw [next_token_punctuator P cx hs hts hl (by rw [g0, g1]; simp [punct_start, isalpha, islower, isupper, isdigit, isspace])]
  simp only [lex_punctuator, g0, g1, g2, if_la_n_is, if_la_is_or, return_punc_ex, create_token, current_locus, hts]
  simp [pure, Except.pure]

theorem lex_TOK_OR_EQ (P : platform) (cx : lexer_ctx) (rest : List Nat)
    (hs : is_empty cx.saved_token = true) (hts : cx.st.token_start = none)
    (hsrc : cx.st.src.drop cx.st.pos = [124, 61] ++ rest) :
    lexer_next_token P cx = .ok (⟨.TOK_OR_EQ, cx.st.pos, 0⟩,
      { cx with st := { cx.st with pos := cx.st.pos + 2 },
                prev_token := cx.sent_token, sent_token := ⟨.TOK_OR_EQ, cx.st.pos, 0⟩ }) := by
  have hl := fuel_succ cx.st _ _ hsrc
  obtain ⟨c, hc⟩ : ∃ c, c = rest.headD 0 := ⟨_, rfl⟩
  have g0 : get_char cx.st 0 = 124 := by rw [get_char_eq, hsrc]; rfl
  have g1 : get_char cx.st 1 = 61 := by rw [get_char_eq, hsrc]; rfl
  have g2 : get_char cx.st 2 = c := by rw [get_char_eq, hsrc, hc]; cases rest <;> rfl
  rw [next_token_punctuator P cx hs hts hl (by rw [g0, g1]; simp [punct_start, isalpha, islower, isupper, isdigit, isspace])]
  simp only [lex_punctuator, g0, g1, g2, if_la_n_is, if_la_is_or, return_punc_ex, create_token, current_locus, hts]
  simp [pure, Except.pure]

theorem lex_TOK_XOR_EQ (P : platform) (cx : lexer_ctx) (rest : List Nat)
    (hs : is_empty cx.saved_token = true) (hts : cx.st.token_start = none)
    (hsrc : cx.st.src.drop cx.st.pos = [94, 61] ++ rest) :
    lexer_next_token P cx = .ok (⟨.TOK_XOR_EQ, cx.st.pos, 0⟩,
      { cx with st := { cx.st with pos := cx.st.pos + 2 },
                prev_token := cx.sent_token, sent_token := ⟨.TOK_XOR_EQ, cx.st.pos, 0⟩ }) := by
  have hl := fuel_succ cx.st _ _ hsrc
  obtain ⟨c, hc⟩ : ∃ c, c = rest.headD 0 := ⟨_, rfl⟩
  have g0 : get_char cx.st 0 = 94 := by rw [get_char_eq, hsrc]; rfl
  have g1 : get_char cx.st 1 = 61 := by rw [get_char_eq, hsrc]; rfl
  have g2 : get_char cx.st 2 = c := by rw [get_char_eq, hsrc, hc]; cases rest <;> rfl
  rw [next_token_punctuator P cx hs hts hl (by rw [g0, g1]; simp [punct_start, isalpha, islower, isupper, isdigit, isspace])]
  simp only [lex_punctuator, g0, g1, g2, if_la_n_is, if_la_is_or, return_punc_ex, create_token, current_locus, hts]
  simp [pure, Except.pure]

theorem lex_TOK_DIV (P : platform) (cx : lexer_ctx) (rest : List Nat)
    (hs : is_empty cx.saved_token = true) (hts : cx.st.token_start = none)
    (hsrc : cx.st.src.drop cx.st.pos = [47] ++ rest) (e61 : rest.headD 0 ≠ 61) (e47 : rest.headD 0 ≠ 47) (e42 : rest.headD 0 ≠ 42) :
    lexer_next_token P cx = .ok (⟨.TOK_DIV, cx.st.pos, 0⟩,
      { cx with st := { cx.st with pos := cx.st.pos + 1 },
                prev_token := cx.sent_token, sent_token := ⟨.TOK_DIV, cx.st.pos, 0⟩ }) := by
  have hl := fuel_succ cx.st _ _ hsrc
  obtain ⟨c, hc⟩ : ∃ c, c = rest.headD 0 := ⟨_, rfl⟩
  rw [← hc] at e61 e47 e42
  have g0 : get_char cx.st 0 = 47 := by rw [get_char_eq, hsrc]; rfl
  have g1 : get_char cx.st 1 = c := by rw [get_char_eq, hsrc, hc]; cases rest <;> rfl
  rw [next_token_punctuator P cx hs hts hl (by rw [g0, g1]; simp [e61, e47, e42, punct_start, isalpha, islower, isupper, isdigit, isspace])]
  simp only [lex_punctuator, g0, g1, if_la_n_is, if_la_is_or, return_punc_ex, create_token, current_locus, hts]
  simp [e61, e47, e42, pure, Except.pure]

theorem lex_TOK_DIV_EQ (P : platform) (cx : lexer_ctx) (rest : List Nat)
    (hs : is_empty cx.saved_token = true) (hts : cx.st.token_start = none)
    (hsrc : cx.st.src.drop cx.st.pos = [47, 61] ++ rest) :
    lexer_next_token P cx = .ok (⟨.TOK_DIV_EQ, cx.st.pos, 0⟩,
      { cx with st := { cx.st with pos := cx.st.pos + 2 },
                prev_token := cx.sent_token, sent_token := ⟨.TOK_DIV_EQ, cx.st.pos, 0⟩ }) := by
  have hl := fuel_succ cx.st _ _ hsrc
  obtain ⟨c, hc⟩ : ∃ c, c = rest.headD 0 := ⟨_, rfl⟩
  have g0 : get_char cx.st 0 = 47 := by rw [get_char_eq, hsrc]; rfl
  have g1 : get_char cx.st 1 = 61 := by rw [get_char_eq, hsrc]; rfl
  have g2 : get_char cx.st 2 = c := by rw [get_char_eq, hsrc, hc]; cases rest <;> rfl
  rw [next_token_punctuator P cx hs hts hl (by rw [g0, g1]; simp [punct_start, isalpha, islower, isupper, isdigit, isspace])]
  simp only [lex_punctuator, g0, g1, g2, if_la_n_is, if_la_is_or, return_punc_ex, create_token, current_locus, hts]
  simp [pure, Except.pure]

/-- C14 (amended): operator scanning is longest-match. For every operator or
punctuator of the language, when the source at the cursor starts with it, no
longer operator starts at the cursor, and the cursor is not at a comment (`/`
followed by `/` or `*`) or at a number (`.` followed by a digit),
`lexer_next_token` returns that operator's token type and advances the cursor by
exactly the operator's length. -/
theorem C14_operators_longest_match (P : platform) (cx : lexer_ctx) (op : String)
    (t : token_type) (rest : List Nat) (hop : (op, t) ∈ operator_table)
    (hs : is_empty cx.saved_token = true) (hts : cx.st.token_start = none)
    (hsrc : cx.st.src.drop cx.st.pos = cstr op ++ rest)
    (hlong : ∀ e ∈ operator_table, op.length < e.1.length → ¬ (cstr e.1 <+: cstr op ++ rest))
    (hcomment : op = "/" → rest.headD 0 ≠ 47 ∧ rest.headD 0 ≠ 42)
    (hnum : op = "." → isdigit (rest.headD 0) = false) :
    lexer_next_token P cx = .ok (⟨t, cx.st.pos, 0⟩,
      { cx with st := { cx.st with pos := cx.st.pos + (cstr op).length },
                prev_token := cx.sent_token, sent_token := ⟨t, cx.st.pos, 0⟩ }) := by
  simp only [operator_table, List.mem_cons, List.mem_singleton, List.mem_nil_iff, or_false,
    Prod.mk.injEq] at hop
  rcases hop with ⟨h1, h2⟩ | ⟨h1, h2⟩ | ⟨h1, h2⟩ | ⟨h1, h2⟩ | ⟨h1, h2⟩ | ⟨h1, h2⟩ | ⟨h1, h2⟩ | ⟨h1, h2⟩ | ⟨h1, h2⟩ | ⟨h1, h2⟩ | ⟨h1, h2⟩ | ⟨h1, h2⟩ | ⟨h1, h2⟩ | ⟨h1, h2⟩ | ⟨h1, h2⟩ | ⟨h1, h2⟩ | ⟨h1, h2⟩ | ⟨h1, h2⟩ | ⟨h1, h2⟩ | ⟨h1, h2⟩ | ⟨h1, h2⟩ | ⟨h1, h2⟩ | ⟨h1, h2⟩ | ⟨h1, h2⟩ | ⟨h1, h2⟩ | ⟨h1, h2⟩ | ⟨h1, h2⟩ | ⟨h1, h2⟩ | ⟨h1, h2⟩ | ⟨h1, h2⟩ | ⟨h1, h2⟩ | ⟨h1, h2⟩ | ⟨h1, h2⟩ | ⟨h1, h2⟩ | ⟨h1, h2⟩ | ⟨h1, h2⟩ | ⟨h1, h2⟩ | ⟨h1, h2⟩ | ⟨h1, h2⟩ | ⟨h1, h2⟩ | ⟨h1, h2⟩ | ⟨h1, h2⟩ | ⟨h1, h2⟩ | ⟨h1, h2⟩ | ⟨h1, h2⟩ | ⟨h1, h2⟩ | ⟨h1, h2⟩ | ⟨h1, h2⟩
  · subst h1; subst h2
    exact lex_TOK_OPEN_BRACE P cx rest hs hts hsrc
  · subst h1; subst h2
    exact lex_TOK_CLOSE_BRACE P cx rest hs hts hsrc
  · subst h1; subst h2
    exact lex_TOK_OPEN_PAREN P cx rest hs hts hsrc
  · subst h1; subst h2
    exact lex_TOK_CLOSE_PAREN P cx rest hs hts hsrc
  · subst h1; subst h2
    exact lex_TOK_OPEN_SQUARE P cx rest hs hts hsrc
  · subst h1; subst h2
    exact lex_TOK_CLOSE_SQUARE P cx rest hs hts hsrc
  · subst h1; subst h2
    exact lex_TOK_DOT P cx rest hs hts hsrc (by have := hnum rfl; simpa [isdigit] using this)
  · subst h1; subst h2
    exact lex_TOK_SEMICOLON P cx rest hs hts hsrc
  · subst h1; subst h2
    exact lex_TOK_COMMA P cx rest hs hts hsrc
  · subst h1; subst h2
    exact lex_TOK_LESS P cx rest hs hts hsrc
      (next_char_ne "<" rest hlong "<=" .TOK_LESS_EQ (by simp [operator_table]) 61 (by decide)
        ⟨rfl, by decide⟩)
      (next_char_ne "<" rest hlong "<<" .TOK_LSHIFT (by simp [operator_table]) 60 (by decide)
        ⟨rfl, by decide⟩)
  · subst h1; subst h2
    exact lex_TOK_GREATER P cx rest hs hts hsrc
      (next_char_ne ">" rest hlong ">=" .TOK_GREATER_EQ (by simp [operator_table]) 61 (by decide)
        ⟨rfl, by decide⟩)
      (next_char_ne ">" rest hlong ">>" .TOK_RSHIFT (by simp [operator_table]) 62 (by decide)
        ⟨rfl, by decide⟩)
  · subst h1; subst h2
    exact lex_TOK_LESS_EQ P cx rest hs hts hsrc
  · subst h1; subst h2
    exact lex_TOK_GREATER_EQ P cx rest hs hts hsrc
  · subst h1; subst h2
    exact lex_TOK_DOUBLE_EQ P cx rest hs hts hsrc
      (next_char_ne "==" rest hlong "===" .TOK_TRIPLE_EQ (by simp [operator_table]) 61 (by decide)
        ⟨rfl, by decide⟩)
  · subst h1; subst h2
    exact lex_TOK_NOT_EQ P cx rest hs hts hsrc
      (next_char_ne "!=" rest hlong "!==" .TOK_NOT_DOUBLE_EQ (by simp [operator_table]) 61 (by decide)
        ⟨rfl, by decide⟩)
  · subst h1; subst h2
    exact lex_TOK_TRIPLE_EQ P cx rest hs hts hsrc
  · subst h1; subst h2
    exact lex_TOK_NOT_DOUBLE_EQ P cx rest hs hts hsrc
  · subst h1; subst h2
    exact lex_TOK_PLUS P cx rest hs hts hsrc
      (next_char_ne "+" rest hlong "++" .TOK_DOUBLE_PLUS (by simp [operator_table]) 43 (by decide)
        ⟨rfl, by decide⟩)
      (next_char_ne "+" rest hlong "+=" .TOK_PLUS_EQ (by simp [operator_table]) 61 (by decide)
        ⟨rfl, by decide⟩)
  · subst h1; subst h2
    exact lex_TOK_MINUS P cx rest hs hts hsrc
      (next_char_ne "-" rest hlong "--" .TOK_DOUBLE_MINUS (by simp [operator_table]) 45 (by decide)
        ⟨rfl, by decide⟩)
      (next_char_ne "-" rest hlong "-=" .TOK_MINUS_EQ (by simp [operator_table]) 61 (by decide)
        ⟨rfl, by decide⟩)
  · subst h1; subst h2
    exact lex_TOK_MULT P cx rest hs hts hsrc
      (next_char_ne "*" rest hlong "*=" .TOK_MULT_EQ (by simp [operator_table]) 61 (by decide)
        ⟨rfl, by decide⟩)
  · subst h1; subst h2
    exact lex_TOK_MOD P cx rest hs hts hsrc
      (next_char_ne "%" rest hlong "%=" .TOK_MOD_EQ (by simp [operator_table]) 61 (by decide)
        ⟨rfl, by decide⟩)
  · subst h1; subst h2
    exact lex_TOK_DOUBLE_PLUS P cx rest hs hts hsrc
  · subst h1; subst h2
    exact lex_TOK_DOUBLE_MINUS P cx rest hs hts hsrc
  · subst h1; subst h2
    exact lex_TOK_LSHIFT P cx rest hs hts hsrc
      (next_char_ne "<<" rest hlong "<<=" .TOK_LSHIFT_EQ (by simp [operator_table]) 61 (by decide)
        ⟨rfl, by decide⟩)
  · subst h1; subst h2
    exact lex_TOK_RSHIFT P cx rest hs hts hsrc
      (next_char_ne ">>" rest hlong ">>>" .TOK_RSHIFT_EX (by simp [operator_table]) 62 (by decide)
        ⟨rfl, by decide⟩)
      (next_char_ne ">>" rest hlong ">>=" .TOK_RSHIFT_EQ (by simp [operator_table]) 61 (by decide)
        ⟨rfl, by decide⟩)
  · subst h1; subst h2
    exact lex_TOK_RSHIFT_EX P cx rest hs hts hsrc
      (next_char_ne ">>>" rest hlong ">>>=" .TOK_RSHIFT_EX_EQ (by simp [operator_table]) 61 (by decide)
        ⟨rfl, by decide⟩)
  · subst h1; subst h2
    exact lex_TOK_AND P cx rest hs hts hsrc
      (next_char_ne "&" rest hlong "&&" .TOK_DOUBLE_AND (by simp [operator_table]) 38 (by decide)
        ⟨rfl, by decide⟩)
      (next_char_ne "&" rest hlong "&=" .TOK_AND_EQ (by simp [operator_table]) 61 (by decide)
        ⟨rfl, by decide⟩)
  · subst h1; subst h2
    exact lex_TOK_OR P cx rest hs hts hsrc
      (next_char_ne "|" rest hlong "||" .TOK_DOUBLE_OR (by simp [operator_table]) 124 (by decide)
        ⟨rfl, by decide⟩)
      (next_char_ne "|" rest hlong "|=" .TOK_OR_EQ (by simp [operator_table]) 61 (by decide)
        ⟨rfl, by decide⟩)
  · subst h1; subst h2
    exact lex_TOK_XOR P cx rest hs hts hsrc
      (next_char_ne "^" rest hlong "^=" .TOK_XOR_EQ (by simp [operator_table]) 61 (by decide)
        ⟨rfl, by decide⟩)
  · subst h1; subst h2
    exact lex_TOK_NOT P cx rest hs hts hsrc
      (next_char_ne "!" rest hlong "!=" .TOK_NOT_EQ (by simp [operator_table]) 61 (by decide)
        ⟨rfl, by decide⟩)
  · subst h1; subst h2
    exact lex_TOK_COMPL P cx rest hs hts hsrc
  · subst h1; subst h2
    exact lex_TOK_DOUBLE_AND P cx rest hs hts hsrc
  · subst h1; subst h2
    exact lex_TOK_DOUBLE_OR P cx rest hs hts hsrc
  · subst h1; subst h2
    exact lex_TOK_QUERY P cx rest hs hts hsrc
  · subst h1; subst h2
    exact lex_TOK_COLON P cx rest hs hts hsrc
  · subst h1; subst h2
    exact lex_TOK_EQ P cx rest hs hts hsrc
      (next_char_ne "=" rest hlong "==" .TOK_DOUBLE_EQ (by simp [operator_table]) 61 (by decide)
        ⟨rfl, by decide⟩)
  · subst h1; subst h2
    exact lex_TOK_PLUS_EQ P cx rest hs hts hsrc
  · subst h1; subst h2
    exact lex_TOK_MINUS_EQ P cx rest hs hts hsrc
  · subst h1; subst h2
    exact lex_TOK_MULT_EQ P cx rest hs hts hsrc
  · subst h1; subst h2
    exact lex_TOK_MOD_EQ P cx rest hs hts hsrc
  · subst h1; subst h2
    exact lex_TOK_LSHIFT_EQ P cx rest hs hts hsrc
  · subst h1; subst h2
    exact lex_TOK_RSHIFT_EQ P cx rest hs hts hsrc
  · subst h1; subst h2
    exact lex_TOK_RSHIFT_EX_EQ P cx rest hs hts hsrc
  · subst h1; subst h2
    exact lex_TOK_AND_EQ P cx rest hs hts hsrc
  · subst h1; subst h2
    exact lex_TOK_OR_EQ P cx rest hs hts hsrc
  · subst h1; subst h2
    exact lex_TOK_XOR_EQ P cx rest hs hts hsrc
  · subst h1; subst h2
    exact lex_TOK_DIV P cx rest hs hts hsrc
      (next_char_ne "/" rest hlong "/=" .TOK_DIV_EQ (by simp [operator_table]) 61 (by decide)
        ⟨rfl, by decide⟩) (hcomment rfl).1 (hcomment rfl).2
  · subst h1; subst h2
    exact lex_TOK_DIV_EQ P cx rest hs hts hsrc
theorem C14_operators_longest_match_witness :
    ((">>", token_type.TOK_RSHIFT) ∈ operator_table)
      ∧ (∀ e ∈ operator_table, (">>" : String).length < e.1.length →
          ¬ (cstr e.1 <+: cstr ">>" ++ cstr "1;"))
      ∧ lexer_next_token sample_platform (lexer_init (cstr ">>1;"))
        = .ok (⟨.TOK_RSHIFT, 0, 0⟩,
            { lexer_init (cstr ">>1;") with
              st := { (lexer_init (cstr ">>1;")).st with pos := 0 + (cstr ">>").length },
              prev_token := (lexer_init (cstr ">>1;")).sent_token,
              sent_token := ⟨.TOK_RSHIFT, 0, 0⟩ }) :=
  ⟨by decide, by decide,
    C14_operators_longest_match sample_platform (lexer_init (cstr ">>1;")) ">>" .TOK_RSHIFT
      (cstr "1;") (by decide) (by decide) rfl rfl (by decide) (fun h => absurd h (by decide))
      (fun h => absurd h (by decide))⟩

/-- C14 as stated fails where another rule of the lexer takes precedence: in
`//` the character after the operator `/` does not extend it to a longer
operator, yet the lexer reads a comment and returns the end-of-file token at
offset 2; in `.5` the lexer reads a number. -/
theorem C14_counterexample :
    (("/", token_type.TOK_DIV) ∈ operator_table)
      ∧ (∀ e ∈ operator_table, ("/" : String).length < e.1.length →
          ¬ (cstr e.1 <+: cstr "/" ++ cstr "/"))
      ∧ (lexer_next_token sample_platform (lexer_init (cstr "//"))).map (fun r => (r.1, r.2.st.pos))
          = .ok (⟨.TOK_EOF, 2, 0⟩, 2)
      ∧ ((".", token_type.TOK_DOT) ∈ operator_table)
      ∧ (∀ e ∈ operator_table, ("." : String).length < e.1.length →
          ¬ (cstr e.1 <+: cstr "." ++ cstr "5"))
      ∧ (lexer_next_token sample_platform (lexer_init (cstr ".5"))).map (fun r => (r.1.type, r.2.st.pos))
          = .ok (.TOK_NUMBER, 2) := by decide

/-! ## Exact arithmetic of doubles below 2^53 -/

theorem bit_length_aux_le : ∀ (f n k : Nat), n < 2 ^ k → bit_length_aux f n ≤ k := by
  intro f
  induction f with
  | zero => intro n k _; simp [bit_length_aux]
  | succ f ih =>
    intro n k h
    simp only [bit_length_aux]
    split
    · omega
    · rename_i hn
      cases k with
      | zero => simp at h; omega
      | succ k =>
        have : n / 2 < 2 ^ k := by
          rw [Nat.pow_succ] at h
          omega
        have := ih (n / 2) k this
        omega

theorem bit_length_le (n k : Nat) (h : n < 2 ^ k) : bit_length n ≤ k :=
  bit_length_aux_le n n k h

theorem normalize_aux_fuel : ∀ (f m : Nat) (e : Int), m ≤ f →
    normalize_aux (f + 1) m e = normalize_aux f m e := by
  intro f
  induction f with
  | zero =>
    intro m e h
    have : m = 0 := by omega
    subst this
    simp [normalize_aux]
  | succ f ih =>
    intro m e h
    have e1 : normalize_aux (f + 1 + 1) m e
        = if m % 2 = 0 ∧ m ≠ 0 then normalize_aux (f + 1) (m / 2) (e + 1) else (m, e) := rfl
    have e2 : normalize_aux (f + 1) m e
        = if m % 2 = 0 ∧ m ≠ 0 then normalize_aux f (m / 2) (e + 1) else (m, e) := rfl
    rw [e1, e2]
    split
    · rename_i hc
      exact ih (m / 2) (e + 1) (by omega)
    · rfl

theorem normalize_aux_fuel_le (m : Nat) (e : Int) : ∀ (f : Nat), m ≤ f →
    normalize_aux f m e = normalize_aux m m e := by
  intro f h
  induction f with
  | zero =>
    have : m = 0 := by omega
    subst this; rfl
  | succ f ih =>
    by_cases hm : m = f + 1
    · subst hm; rfl
    · rw [normalize_aux_fuel f m e (by omega)]
      exact ih (by omega)

theorem normalize_aux_double (m : Nat) (e : Int) (hm : 0 < m) :
    normalize_aux (2 * m) (2 * m) e = normalize_aux m m (e + 1) := by
  have h2 : 2 * m = (2 * m - 1) + 1 := by omega
  rw [h2, normalize_aux]
  rw [if_pos (by omega)]
  have : (2 * m - 1 + 1) / 2 = m := by omega
  rw [this]
  exact normalize_aux_fuel_le m (e + 1) (2 * m - 1) (by omega)

theorem normalize_aux_shift (m : Nat) (hm : 0 < m) : ∀ (k : Nat) (e : Int),
    normalize_aux (m * 2 ^ k) (m * 2 ^ k) e = normalize_aux m m (e + k) := by
  intro k
  induction k with
  | zero => intro e; simp
  | succ k ih =>
    intro e
    have : m * 2 ^ (k + 1) = 2 * (m * 2 ^ k) := by rw [Nat.pow_succ]; ring
    rw [this, normalize_aux_double _ _ (Nat.mul_pos hm (Nat.two_pow_pos _)), ih]
    congr 1
    push_cast
    ring

theorem normalize_aux_value : ∀ (f m : Nat) (e : Int),
    ∃ k : Nat, (normalize_aux f m e).2 = e + k ∧ (normalize_aux f m e).1 * 2 ^ k = m
      ∧ (0 < m → 0 < (normalize_aux f m e).1) := by
  intro f
  induction f with
  | zero => intro m e; exact ⟨0, by simp [normalize_aux], by simp [normalize_aux], by simp [normalize_aux]⟩
  | succ f ih =>
    intro m e
    rw [normalize_aux]
    split
    · rename_i hc
      obtain ⟨k, h1, h2, h3⟩ := ih (m / 2) (e + 1)
      refine ⟨k + 1, ?_, ?_, ?_⟩
      · rw [h1]; push_cast; ring
      · rw [Nat.pow_succ, ← Nat.mul_assoc, h2]; omega
      · intro _; exact h3 (by omega)
    · exact ⟨0, by simp, by simp, by simp⟩

/-- The exact double of a natural below 2^53, as a mantissa and a non-negative
exponent. -/
theorem fp_of_nat_exact (v : Nat) (hv : v < 2 ^ 53) :
    fp_of_nat v = fp_normalize false v 0 := by
  unfold fp_of_nat fp_round
  have hb := bit_length_le v 53 hv
  rw [if_pos hb, if_neg (by omega)]

theorem fp_normalize_shift (neg : Bool) (m k : Nat) (hm : 0 < m) :
    fp_normalize neg (m * 2 ^ k) 0 = fp_normalize neg m k := by
  unfold fp_normalize
  have h1 : m * 2 ^ k ≠ 0 := Nat.ne_of_gt (Nat.mul_pos hm (Nat.two_pow_pos _))
  rw [if_neg h1, if_neg (by omega), normalize_aux_shift m hm k 0]
  simp

theorem fp_to_nat_of_nat (v : Nat) (hv : v < 2 ^ 53) : fp_to_nat (fp_of_nat v) = some v := by
  rw [fp_of_nat_exact v hv]
  unfold fp_normalize
  by_cases h0 : v = 0
  · subst h0; rfl
  · rw [if_neg h0]
    obtain ⟨k, h1, h2, _⟩ := normalize_aux_value v v 0
    rw [h1]
    simp only [Int.zero_add]
    show fp_to_nat (.finite false _ (Int.ofNat k)) = some v
    simp only [fp_to_nat, h2]

theorem fp_of_nat_zero : fp_of_nat 0 = .finite false 0 0 := by decide

theorem fp_of_nat_pos (v : Nat) (hv : v < 2 ^ 53) (h0 : 0 < v) :
    ∃ m k : Nat, fp_of_nat v = .finite false m (k : Int) ∧ m * 2 ^ k = v ∧ 0 < m := by
  rw [fp_of_nat_exact v hv]
  unfold fp_normalize
  rw [if_neg (by omega)]
  obtain ⟨k, h1, h2, h3⟩ := normalize_aux_value v v 0
  refine ⟨_, k, ?_, h2, h3 h0⟩
  rw [h1]
  simp

theorem fp_add_nat_exact (w d : Nat) (h0 : 0 < w) (h : w + d < 2 ^ 53) :
    fp_add_nat (fp_of_nat w) d = fp_of_nat (w + d) := by
  obtain ⟨m, k, he, hv, _⟩ := fp_of_nat_pos w (by omega) h0
  rw [he]
  unfold fp_add_nat
  simp only
  have hlo : min (k : Int) 0 = 0 := by omega
  rw [hlo]
  have ha : ((m : Int) * 2 ^ ((k : Int) - 0).toNat) = (w : Int) := by
    have : ((k : Int) - 0).toNat = k := by omega
    rw [this, ← hv]
    push_cast
    rfl
  rw [ha]
  simp only [Bool.false_eq_true, if_false, Int.sub_self, Int.toNat_zero, pow_zero, mul_one]
  have hne : ¬ ((w : Int) + (d : Int) = 0) := by omega
  rw [if_neg hne]
  have hlt : decide ((w : Int) + (d : Int) < 0) = false := by
    simp only [decide_eq_false_iff_not]; omega
  have hab : ((w : Int) + (d : Int)).natAbs = w + d := by omega
  rw [hlt, hab]
  rfl

theorem fp_mul_nat_exact (v base : Nat) (hb : 0 < base) (h0 : 0 < v) (h : v * base < 2 ^ 53) :
    fp_mul_nat (fp_of_nat v) base = fp_of_nat (v * base) := by
  have hv : v < 2 ^ 53 := by
    have : v ≤ v * base := Nat.le_mul_of_pos_right v hb
    omega
  obtain ⟨m, k, he, hmk, hm⟩ := fp_of_nat_pos v hv h0
  rw [he, fp_of_nat_exact _ h]
  unfold fp_mul_nat
  simp only
  have hmb : m * base * 2 ^ k = v * base := by rw [← hmk]; ring
  have hle : m * base ≤ v * base := by
    rw [← hmb]; exact Nat.le_mul_of_pos_right _ (Nat.two_pow_pos k)
  have hk : k < 53 := by
    by_contra hc
    have h1 : 2 ^ 53 ≤ 2 ^ k := Nat.pow_le_pow_right (by decide) (by omega)
    have h2 : 2 ^ k ≤ m * 2 ^ k := Nat.le_mul_of_pos_left _ hm
    omega
  unfold fp_round
  have hbl := bit_length_le (m * base) 53 (by omega)
  rw [if_pos hbl, if_neg (by omega)]
  rw [← hmb, fp_normalize_shift false (m * base) k (Nat.mul_pos hm hb)]

/-- Multiplying by a base and adding a digit is exact below 2^53. -/
theorem fp_mul_add_exact (v base d : Nat) (hb : 0 < base) (h0 : 0 < v)
    (h : v * base + d < 2 ^ 53) :
    fp_add_nat (fp_mul_nat (fp_of_nat v) base) d = fp_of_nat (v * base + d) := by
  rw [fp_mul_nat_exact v base hb h0 (by omega)]
  exact fp_add_nat_exact (v * base) d (Nat.mul_pos h0 hb) h

/-! ## Scanning and accumulating digits -/

theorem advance_zero (st : lexer_state) : advance st 0 = st := by
  cases st; simp [advance]

theorem advance_consume (st : lexer_state) (n : Nat) :
    advance (consume_char st) n = advance st (n + 1) := by
  simp only [advance, consume_char]
  congr 1
  omega

theorem drop_consume (st : lexer_state) (c : Nat) (r : List Nat)
    (h : st.src.drop st.pos = c :: r) :
    (consume_char st).src.drop (consume_char st).pos = r := by
  simp only [consume_char]
  rw [← List.drop_drop, h]
  rfl

theorem get_char_zero_cons (st : lexer_state) (c : Nat) (r : List Nat)
    (h : st.src.drop st.pos = c :: r) : get_char st 0 = c := by
  rw [get_char_eq, h]; rfl

theorem get_char_zero_headD (st : lexer_state) (r : List Nat)
    (h : st.src.drop st.pos = r) : get_char st 0 = r.headD 0 := by
  rw [get_char_eq, h]; cases r <;> rfl

theorem src_slice_prefix (st : lexer_state) (a : Nat) (w rest : List Nat)
    (h : st.src.drop a = w ++ rest) : src_slice st a (a + w.length) = w := by
  unfold src_slice
  rw [h, Nat.add_sub_cancel_left, List.take_left]

theorem hex_to_int_digit (c : Nat) (h : isxdigit c = true) : hex_to_int c = .ok (digit_value c) := by
  unfold hex_to_int digit_value
  simp only [isxdigit, isdigit, Bool.or_eq_true, Bool.and_eq_true, decide_eq_true_eq] at h
  by_cases h1 : 48 ≤ c ∧ c ≤ 57
  · rw [if_pos h1, if_pos h1]
  · rw [if_neg h1, if_neg h1]
    by_cases h2 : 97 ≤ c ∧ c ≤ 102
    · rw [if_pos h2]
      have : c = 97 ∨ c = 98 ∨ c = 99 ∨ c = 100 ∨ c = 101 ∨ c = 102 := by omega
      rcases this with e | e | e | e | e | e <;> subst e <;> rfl
    · rw [if_neg h2]
      have : c = 65 ∨ c = 66 ∨ c = 67 ∨ c = 68 ∨ c = 69 ∨ c = 70 := by omega
      rcases this with e | e | e | e | e | e <;> subst e <;> rfl

theorem digit_value_lt (c : Nat) (h : isxdigit c = true) : digit_value c < 16 := by
  unfold digit_value
  simp only [isxdigit, isdigit, Bool.or_eq_true, Bool.and_eq_true, decide_eq_true_eq] at h
  split
  · omega
  · split <;> omega

theorem accumulate_step_acc_of (base v c : Nat) (hb : 0 < base) (hb16 : base ≤ 16)
    (hc : isxdigit c = true) (h : v * base + digit_value c < 2 ^ 53) :
    accumulate_step base (acc_of v) c = .ok (acc_of (v * base + digit_value c)) := by
  have hd := digit_value_lt c hc
  unfold accumulate_step
  simp only [hex_to_int_digit c hc, bind, Except.bind]
  by_cases hv : v ≤ 255
  · have hlt : v * base + digit_value c < 4294967296 := by
      have : v * base ≤ 255 * 16 := Nat.mul_le_mul hv hb16
      omega
    simp only [acc_of, if_pos hv, Bool.false_eq_true, not_false_eq_true, if_true,
      Nat.mod_eq_of_lt hlt]
    by_cases hn : v * base + digit_value c ≤ 255
    · rw [if_neg (by omega), if_pos hn]; rfl
    · rw [if_pos (by omega), if_neg hn]; rfl
  · have hpos : 0 < v := by omega
    have hge : v ≤ v * base := Nat.le_mul_of_pos_right v hb
    simp only [acc_of, if_neg hv, not_true_eq_false, if_false]
    rw [if_neg (by omega), if_neg (by omega), fp_mul_add_exact v base _ hb hpos h]
    rfl

theorem foldl_digits_ge (base : Nat) (hb : 0 < base) : ∀ (ds : List Nat) (v : Nat),
    v ≤ ds.foldl (fun v c => v * base + digit_value c) v := by
  intro ds
  induction ds with
  | nil => intro v; exact Nat.le_refl v
  | cons c cs ih =>
    intro v
    simp only [List.foldl_cons]
    have h1 := ih (v * base + digit_value c)
    have h2 : v ≤ v * base := Nat.le_mul_of_pos_right v hb
    omega

theorem accumulate_acc_of (base : Nat) (hb : 0 < base) (hb16 : base ≤ 16) :
    ∀ (ds : List Nat) (v : Nat), (∀ c ∈ ds, isxdigit c = true) →
      ds.foldl (fun v c => v * base + digit_value c) v < 2 ^ 53 →
      accumulate base ds (acc_of v)
        = .ok (acc_of (ds.foldl (fun v c => v * base + digit_value c) v)) := by
  intro ds
  induction ds with
  | nil => intro v _ _; rfl
  | cons c cs ih =>
    intro v hall hlt
    simp only [List.foldl_cons] at hlt ⊢
    have hc := hall c (List.mem_cons_self _ _)
    have hge := foldl_digits_ge base hb cs (v * base + digit_value c)
    simp only [accumulate, accumulate_step_acc_of base v c hb hb16 hc (by omega), bind, Except.bind]
    exact ih _ (fun x hx => hall x (List.mem_cons_of_mem _ hx)) hlt

theorem accumulate_digits (base : Nat) (hb : 0 < base) (hb16 : base ≤ 16) (ds : List Nat)
    (hall : ∀ c ∈ ds, isxdigit c = true) (hlt : digits_value base ds < 2 ^ 53) :
    accumulate base ds { res := 0, fp_res := .finite false 0 0, is_overflow := false }
      = .ok (acc_of (digits_value base ds)) :=
  accumulate_acc_of base hb hb16 ds 0 hall hlt

theorem parse_hex_loop_digits : ∀ (ds : List Nat) (st : lexer_state) (rest : List Nat) (f : Nat),
    st.src.drop st.pos = ds ++ rest → (∀ c ∈ ds, isxdigit c = true) →
    isxdigit (rest.headD 0) = false → ds.length < f →
    parse_hex_loop f st = .ok (advance st ds.length) := by
  intro ds
  induction ds with
  | nil =>
    intro st rest f hsrc _ hend hf
    obtain ⟨f, rfl⟩ : ∃ g, f = g + 1 := ⟨f - 1, by simp at hf; omega⟩
    simp only [List.nil_append] at hsrc
    simp only [parse_hex_loop, get_char_zero_headD st rest hsrc, hend, Bool.false_eq_true,
      not_false_eq_true, if_true, List.length_nil, advance_zero]
    rfl
  | cons c cs ih =>
    intro st rest f hsrc hall hend hf
    obtain ⟨f, rfl⟩ : ∃ g, f = g + 1 := ⟨f - 1, by simp at hf; omega⟩
    have hc := hall c (List.mem_cons_self _ _)
    simp only [List.cons_append] at hsrc
    simp only [parse_hex_loop, get_char_zero_cons st c _ hsrc, hc, not_true_eq_false, if_false]
    rw [ih (consume_char st) rest f (drop_consume st c _ hsrc)
      (fun x hx => hall x (List.mem_cons_of_mem _ hx)) hend (by simp at hf; omega)]
    rw [advance_consume]
    rfl

theorem isdigit_facts (c : Nat) (h : isdigit c = true) :
    c ≠ 46 ∧ c ≠ 101 ∧ c ≠ 69 ∧ isalpha c = false ∧ c ≠ 95 ∧ c ≠ 36 ∧ isxdigit c = true := by
  simp only [isdigit, Bool.and_eq_true, decide_eq_true_eq] at h
  refine ⟨by omega, by omega, by omega, ?_, by omega, by omega, ?_⟩
  · simp only [isalpha, islower, isupper, Bool.or_eq_false_iff, Bool.and_eq_false_iff,
      decide_eq_false_iff_not]
    omega
  · simp only [isxdigit, isdigit, Bool.or_eq_true, Bool.and_eq_true, decide_eq_true_eq]
    omega

theorem ends_integer_facts (c : Nat) (h : ends_integer c = true) :
    isdigit c = false ∧ c ≠ 46 ∧ c ≠ 101 ∧ c ≠ 69 ∧ isalpha c = false ∧ c ≠ 95 ∧ c ≠ 36
      ∧ c ≠ 120 ∧ c ≠ 88 := by
  simp only [ends_integer, Bool.not_eq_true', Bool.or_eq_false_iff, decide_eq_false_iff_not] at h
  obtain ⟨⟨⟨⟨h1, h2⟩, h3⟩, h4⟩, h5⟩ := h
  have h3' := h3
  simp only [isalpha, islower, isupper, Bool.or_eq_false_iff, Bool.and_eq_false_iff,
    decide_eq_false_iff_not] at h3'
  exact ⟨h1, h2, by omega, by omega, h3, h4, h5, by omega, by omega⟩

theorem parse_decimal_loop_digits : ∀ (ds : List Nat) (st : lexer_state) (rest : List Nat) (f : Nat),
    st.src.drop st.pos = ds ++ rest → (∀ c ∈ ds, isdigit c = true) →
    ends_integer (rest.headD 0) = true → ds.length < f →
    parse_decimal_loop f st false false = .ok (advance st ds.length, false, false) := by
  intro ds
  induction ds with
  | nil =>
    intro st rest f hsrc _ hend hf
    obtain ⟨f, rfl⟩ : ∃ g, f = g + 1 := ⟨f - 1, by simp at hf; omega⟩
    simp only [List.nil_append] at hsrc
    obtain ⟨e1, e2, e3, e4, e5, e6, e7, _, _⟩ := ends_integer_facts _ hend
    simp only [parse_decimal_loop, get_char_zero_headD st rest hsrc, e1, e2, e3, e4, e5, e6, e7,
      Bool.false_eq_true, false_and, if_false, or_self, not_false_eq_true, if_true,
      List.length_nil, advance_zero]
    rfl
  | cons c cs ih =>
    intro st rest f hsrc hall hend hf
    obtain ⟨f, rfl⟩ : ∃ g, f = g + 1 := ⟨f - 1, by simp at hf; omega⟩
    have hc := hall c (List.mem_cons_self _ _)
    obtain ⟨e1, e2, e3, e4, e5, e6, _⟩ := isdigit_facts c hc
    simp only [List.cons_append] at hsrc
    simp only [parse_decimal_loop, get_char_zero_cons st c _ hsrc, hc, e1, e2, e3, e4, e5, e6,
      Bool.false_eq_true, false_and, if_false, or_self, not_true_eq_false]
    rw [ih (consume_char st) rest f (drop_consume st c _ hsrc)
      (fun x hx => hall x (List.mem_cons_of_mem _ hx)) hend (by simp at hf; omega)]
    rw [advance_consume]
    rfl

/-! ## Integer literals: `parse_number` on digits -/

theorem drop_length_ge (st : lexer_state) (w rest : List Nat)
    (h : st.src.drop st.pos = w ++ rest) : st.pos + w.length + rest.length = st.src.length ∨
      (w = [] ∧ rest = []) := by
  have h1 : (st.src.drop st.pos).length = (w ++ rest).length := by rw [h]
  simp only [List.length_drop, List.length_append] at h1
  by_cases h2 : st.pos ≤ st.src.length
  · left; omega
  · right
    have : w.length + rest.length = 0 := by omega
    constructor
    · exact List.length_eq_zero.mp (by omega)
    · exact List.length_eq_zero.mp (by omega)

theorem parse_number_integer (P : platform) (st : lexer_state) (ds rest : List Nat)
    (hsrc : st.src.drop st.pos = ds ++ rest) (hne : ds ≠ [])
    (hall : ∀ c ∈ ds, isdigit c = true) (hend : ends_integer (rest.headD 0) = true)
    (hx1 : get_char st 1 ≠ 120) (hx2 : get_char st 1 ≠ 88) :
    parse_number P st =
      if ds.headD 0 = 48 ∧ ds.length ≠ 1 then
        if st.strict_mode = true then .error (.octal_in_strict_mode st.pos)
        else (accumulate 8 ds { res := 0, fp_res := .finite false 0 0, is_overflow := false }).map
          (finish_integer (advance (new_token st) ds.length))
      else (accumulate 10 ds { res := 0, fp_res := .finite false 0 0, is_overflow := false }).map
          (finish_integer (advance (new_token st) ds.length)) := by
  obtain ⟨d, ds1, rfl⟩ := List.exists_cons_of_ne_nil hne
  have hd := hall d (List.mem_cons_self _ _)
  obtain ⟨e1, e2, e3, e4, e5, e6, _⟩ := isdigit_facts d hd
  have hc : get_char st 0 = d := get_char_zero_cons st d _ hsrc
  have hlen := drop_length_ge st (d :: ds1) rest hsrc
  have hfuel : (d :: ds1).length < (new_token st).src.length + 1 - (new_token st).pos := by
    simp only [new_token]
    rcases hlen with h | ⟨h, _⟩
    · omega
    · exact absurd h (List.cons_ne_nil _ _)
  have hloop := parse_decimal_loop_digits (d :: ds1) (new_token st) rest _ hsrc hall hend hfuel
  have hslice : src_slice (advance (new_token st) (d :: ds1).length) (new_token st).pos
      (advance (new_token st) (d :: ds1).length).pos = d :: ds1 :=
    src_slice_prefix (advance (new_token st) (d :: ds1).length) st.pos (d :: ds1) rest hsrc
  unfold parse_number
  simp only [hc, hd, e1, hx1, hx2, true_or, not_true_eq_false, if_false, decide_False, false_and,
    Bool.and_false, Bool.or_false, Bool.false_eq_true, bind, Except.bind, pure, Except.pure,
    decide_eq_true_eq, or_self, hloop, hslice]
  rfl

theorem ends_hex_facts (c : Nat) (h : ends_hex c = true) :
    isxdigit c = false ∧ isalpha c = false ∧ c ≠ 95 ∧ c ≠ 36 := by
  simp only [ends_hex, Bool.not_eq_true', Bool.or_eq_false_iff, decide_eq_false_iff_not] at h
  obtain ⟨⟨⟨h1, h2⟩, h3⟩, h4⟩ := h
  exact ⟨h1, h2, h3, h4⟩

theorem get_char_one_cons (st : lexer_state) (c x : Nat) (r : List Nat)
    (h : st.src.drop st.pos = c :: x :: r) : get_char st 1 = x := by
  rw [get_char_eq, h]; rfl

theorem parse_number_hex (P : platform) (st : lexer_state) (x : Nat) (ds rest : List Nat)
    (hsrc : st.src.drop st.pos = 48 :: x :: (ds ++ rest)) (hx : x = 120 ∨ x = 88)
    (hall : ∀ c ∈ ds, isxdigit c = true) (hend : ends_hex (rest.headD 0) = true) :
    parse_number P st =
      (accumulate 16 ds { res := 0, fp_res := .finite false 0 0, is_overflow := false }).map
        (finish_integer (advance (new_token (consume_char (consume_char st))) ds.length)) := by
  have hc : get_char st 0 = 48 := get_char_zero_cons st 48 _ hsrc
  have hc1 : get_char st 1 = x := get_char_one_cons st 48 x _ hsrc
  have hsrc1 := drop_consume st 48 _ hsrc
  have hsrc2 := drop_consume (consume_char st) x _ hsrc1
  have hsrc3 : (new_token (consume_char (consume_char st))).src.drop
      (new_token (consume_char (consume_char st))).pos = ds ++ rest := hsrc2
  obtain ⟨e1, e2, e3, e4⟩ := ends_hex_facts _ hend
  have hlen := drop_length_ge st [48, x] (ds ++ rest) hsrc
  have hfuel : ds.length < (new_token (consume_char (consume_char st))).src.length + 1
      - (new_token (consume_char (consume_char st))).pos := by
    simp only [new_token, consume_char]
    rcases hlen with h | ⟨h, _⟩
    · simp only [List.length_cons, List.length_nil, List.length_append] at h
      omega
    · exact absurd h (List.cons_ne_nil _ _)
  have hloop := parse_hex_loop_digits ds _ rest _ hsrc3 hall e1 hfuel
  have hslice : src_slice (advance (new_token (consume_char (consume_char st))) ds.length)
      (new_token (consume_char (consume_char st))).pos
      (advance (new_token (consume_char (consume_char st))) ds.length).pos = ds :=
    src_slice_prefix (advance (new_token (consume_char (consume_char st))) ds.length)
      (new_token (consume_char (consume_char st))).pos ds rest hsrc3
  have hnext : get_char (advance (new_token (consume_char (consume_char st))) ds.length) 0
      = rest.headD 0 := by
    apply get_char_zero_headD
    show List.drop ((st.pos + 1 + 1) + ds.length) st.src = rest
    rw [← List.drop_drop]
    have : List.drop (st.pos + 1 + 1) st.src = ds ++ rest := hsrc2
    rw [this, List.drop_left]
  have hxb : (decide (x = 120) || decide (x = 88)) = true := by
    rcases hx with h | h <;> subst h <;> rfl
  unfold parse_number
  simp only [hc, hc1, hxb, isdigit, decide_True, Bool.and_self, true_or, not_true_eq_false, if_false,
    if_true, Nat.reduceLeDiff, Nat.reduceEqDiff, false_and, bind, Except.bind, pure, Except.pure,
    hloop, hslice, hnext, e2, e3, e4, Bool.false_eq_true, or_self]
  rfl

theorem num_eq_pos (n : ecma_number_t) (m : Nat) (e : Int) (hm : 0 < m)
    (h : num_eq n (.finite false m e) = true) : n = .finite false m e := by
  obtain ⟨m, rfl⟩ : ∃ k, m = k + 1 := ⟨m - 1, by omega⟩
  cases n with
  | nan => simp [num_eq] at h
  | inf s => simp [num_eq] at h
  | finite s a b =>
    cases a with
    | zero => simp [num_eq] at h
    | succ a => simpa [num_eq] using h

theorem find_num_literal_some (num : ecma_number_t) : ∀ (lits : List literal) (i k : Nat),
    find_num_literal num lits i = some k →
      i ≤ k ∧ ∃ n, lits[k - i]? = some (.LIT_NUMBER n) ∧ num_eq n num = true := by
  intro lits
  induction lits with
  | nil => intro i k h; simp [find_num_literal] at h
  | cons l ls ih =>
    intro i k h
    have step : find_num_literal num ls (i + 1) = some k →
        i ≤ k ∧ ∃ n, (l :: ls)[k - i]? = some (.LIT_NUMBER n) ∧ num_eq n num = true := by
      intro h1
      obtain ⟨hle, n, hn, he⟩ := ih (i + 1) k h1
      refine ⟨by omega, n, ?_, he⟩
      have : k - i = (k - (i + 1)) + 1 := by omega
      rw [this, List.getElem?_cons_succ]
      exact hn
    cases l with
    | LIT_NUMBER n =>
      simp only [find_num_literal] at h
      by_cases hn : num_eq n num = true
      · rw [if_pos hn] at h
        cases h
        exact ⟨Nat.le_refl _, n, by simp, hn⟩
      · rw [if_neg hn] at h
        exact step h
    | LIT_STR a b c => exact step (by simpa [find_num_literal] using h)
    | LIT_MAGIC_STR a => exact step (by simpa [find_num_literal] using h)

theorem convert_seen_num_spec (st : lexer_state) (m : Nat) (e : Int) (hm : 0 < m) :
    (convert_seen_num_to_token st (.finite false m e)).1.type = .TOK_NUMBER
    ∧ (convert_seen_num_to_token st (.finite false m e)).1.loc = current_locus st
    ∧ (convert_seen_num_to_token st (.finite false m e)).2.pos = st.pos
    ∧ (convert_seen_num_to_token st (.finite false m e)).2.src = st.src
    ∧ (convert_seen_num_to_token st (.finite false m e)).2.strings_cache = st.strings_cache
    ∧ lexer_get_literal_by_id (convert_seen_num_to_token st (.finite false m e)).2
        (convert_seen_num_to_token st (.finite false m e)).1.uid
        = .ok (.LIT_NUMBER (.finite false m e)) := by
  unfold convert_seen_num_to_token
  cases hf : find_num_literal (.finite false m e) st.literals 0 with
  | some k =>
    obtain ⟨_, n, hn, he⟩ := find_num_literal_some _ _ _ _ hf
    have hn2 := num_eq_pos n m e hm he
    subst hn2
    refine ⟨rfl, rfl, rfl, rfl, rfl, ?_⟩
    simp only [lexer_get_literal_by_id, create_token, List.get?_eq_getElem?]
    rw [Nat.sub_zero] at hn
    rw [hn]
  | none =>
    refine ⟨rfl, rfl, rfl, rfl, rfl, ?_⟩
    simp [lexer_get_literal_by_id, create_token, create_literal_from_num]

theorem finish_integer_small (st : lexer_state) (v : Nat) (hv : v ≤ 255) :
    finish_integer st (acc_of v)
      = (⟨.TOK_SMALL_INT, current_locus st, v⟩, { st with token_start := none }) := by
  unfold finish_integer acc_of
  rw [if_pos hv]
  simp only [Bool.false_eq_true, if_false, create_token, Nat.mod_eq_of_lt (show v < 256 by omega)]
  rfl

theorem finish_integer_large (st : lexer_state) (v : Nat) (hv : 255 < v) (hlt : v < 2 ^ 53) :
    (finish_integer st (acc_of v)).1.type = .TOK_NUMBER
    ∧ (finish_integer st (acc_of v)).1.loc = current_locus st
    ∧ (finish_integer st (acc_of v)).2.pos = st.pos
    ∧ (finish_integer st (acc_of v)).2.src = st.src
    ∧ (finish_integer st (acc_of v)).2.token_start = none
    ∧ ∃ n, lexer_get_literal_by_id (finish_integer st (acc_of v)).2
        (finish_integer st (acc_of v)).1.uid = .ok (.LIT_NUMBER n) ∧ fp_to_nat n = some v := by
  obtain ⟨m, k, he, hmk, hm⟩ := fp_of_nat_pos v hlt (by omega)
  have hspec := convert_seen_num_spec st m k hm
  have hto := fp_to_nat_of_nat v hlt
  have hacc : acc_of v = { res := 0, fp_res := .finite false m k, is_overflow := true } := by
    unfold acc_of
    rw [if_neg (by omega), he]
  rw [he] at hto
  obtain ⟨h1, h2, h3, h4, _, h6⟩ := hspec
  rw [hacc]
  exact ⟨h1, h2, h3, h4, rfl, _, h6, hto⟩

/-! ## Integer literals: the token returned -/

theorem lexer_next_token_fresh (P : platform) (cx : lexer_ctx) (r : token × lexer_state)
    (h : is_empty cx.saved_token = true) (hr : lexer_next_token_private P cx.st = .ok r) :
    lexer_next_token P cx
      = .ok (r.1, { cx with prev_token := cx.sent_token, st := r.2, sent_token := r.1 }) := by
  unfold lexer_next_token
  rw [if_neg (by simp [h])]
  simp only [bind, Except.bind, hr]
  rfl

theorem lexer_next_token_fresh_error (P : platform) (cx : lexer_ctx) (e : lex_error)
    (h : is_empty cx.saved_token = true) (hr : lexer_next_token_private P cx.st = .error e) :
    lexer_next_token P cx = .error e := by
  unfold lexer_next_token
  rw [if_neg (by simp [h])]
  simp only [bind, Except.bind, hr]

theorem next_token_number (P : platform) (st : lexer_state) (c : Nat) (rest : List Nat)
    (hts : st.token_start = none) (hsrc : st.src.drop st.pos = c :: rest)
    (hc : isdigit c = true) : lexer_next_token_private P st = parse_number P st := by
  obtain ⟨_, _, _, e4, e5, e6, _⟩ := isdigit_facts c hc
  unfold lexer_next_token_private
  rw [fuel_succ st c rest hsrc]
  simp only [lexer_next_token_private_aux, get_char_zero_cons st c rest hsrc, hts, ne_eq,
    not_true_eq_false, if_false, e4, e5, e6, Bool.false_eq_true, or_self, hc, true_or, if_true]

theorem current_locus_new_token (st : lexer_state) (n : Nat) :
    current_locus (advance (new_token st) n) = st.pos := rfl

theorem integer_token (P : platform) (cx : lexer_ctx) (st1 : lexer_state) (base v : Nat)
    (ds : List Nat) (hsaved : is_empty cx.saved_token = true)
    (hp : lexer_next_token_private P cx.st
      = (accumulate base ds { res := 0, fp_res := .finite false 0 0, is_overflow := false }).map
          (finish_integer st1))
    (hb : 0 < base) (hb16 : base ≤ 16) (hall : ∀ c ∈ ds, isxdigit c = true)
    (hval : digits_value base ds = v) (hv : v < 2 ^ 53) :
    ∃ tok cx1, lexer_next_token P cx = .ok (tok, cx1)
      ∧ tok.loc = current_locus st1 ∧ cx1.st.pos = st1.pos
      ∧ (v ≤ 255 → tok.type = .TOK_SMALL_INT ∧ tok.uid = v
          ∧ cx1.st.literals = st1.literals)
      ∧ (255 < v → tok.type = .TOK_NUMBER
          ∧ ∃ n, lexer_get_literal_by_id cx1.st tok.uid = .ok (.LIT_NUMBER n)
              ∧ fp_to_nat n = some v) := by
  subst hval
  rw [accumulate_digits base hb hb16 ds hall hv] at hp
  have hf := lexer_next_token_fresh P cx _ hsaved hp
  refine ⟨_, _, hf, ?_⟩
  by_cases h : digits_value base ds ≤ 255
  · rw [finish_integer_small st1 _ h]
    exact ⟨rfl, rfl, fun _ => ⟨rfl, rfl, rfl⟩, fun h2 => absurd h (by omega)⟩
  · obtain ⟨h1, h2, h3, _, _, h6⟩ := finish_integer_large st1 _ (by omega) hv
    exact ⟨h2, h3, fun h2 => absurd h2 h, fun _ => ⟨h1, h6⟩⟩

/-! ## C5: decimal integer literals -/

/-- C5 (amended): for a decimal integer literal `ds` without a leading zero
(the single digit `0` included) whose value is below 2^53, followed by a
character that ends the literal, `lexer_next_token` consumes exactly the literal
and returns, for a value of at most 255, a small-integer token that carries the
value inline and leaves the literal pool unchanged, and otherwise a number token
whose pool literal is the exact base-10 value. -/
theorem C5_decimal_integer_literal (P : platform) (cx : lexer_ctx) (ds rest : List Nat)
    (hsaved : is_empty cx.saved_token = true) (hts : cx.st.token_start = none)
    (hsrc : cx.st.src.drop cx.st.pos = ds ++ rest) (hne : ds ≠ [])
    (hall : ∀ c ∈ ds, isdigit c = true) (hend : ends_integer (rest.headD 0) = true)
    (hlead : ds.headD 0 ≠ 48 ∨ ds.length = 1) (hv : digits_value 10 ds < 2 ^ 53) :
    ∃ tok cx1, lexer_next_token P cx = .ok (tok, cx1)
      ∧ tok.loc = cx.st.pos ∧ cx1.st.pos = cx.st.pos + ds.length
      ∧ (digits_value 10 ds ≤ 255 → tok.type = .TOK_SMALL_INT ∧ tok.uid = digits_value 10 ds
          ∧ cx1.st.literals = cx.st.literals)
      ∧ (255 < digits_value 10 ds → tok.type = .TOK_NUMBER
          ∧ ∃ n, lexer_get_literal_by_id cx1.st tok.uid = .ok (.LIT_NUMBER n)
              ∧ fp_to_nat n = some (digits_value 10 ds)) := by
  obtain ⟨d, ds1, rfl⟩ := List.exists_cons_of_ne_nil hne
  have hd := hall d (List.mem_cons_self _ _)
  have hx : get_char cx.st 1 ≠ 120 ∧ get_char cx.st 1 ≠ 88 := by
    cases ds1 with
    | nil =>
      obtain ⟨_, _, _, _, _, _, _, e8, e9⟩ := ends_integer_facts _ hend
      have : get_char cx.st 1 = rest.headD 0 := by
        rw [get_char_eq, hsrc]; cases rest <;> rfl
      rw [this]; exact ⟨e8, e9⟩
    | cons d2 ds2 =>
      have h2 := hall d2 (List.mem_cons_of_mem _ (List.mem_cons_self _ _))
      have : get_char cx.st 1 = d2 := get_char_one_cons cx.st d d2 _ hsrc
      rw [this]
      simp only [isdigit, Bool.and_eq_true, decide_eq_true_eq] at h2
      constructor <;> omega
  have hp : lexer_next_token_private P cx.st = _ :=
    (next_token_number P cx.st d _ hts hsrc hd).trans
      (parse_number_integer P cx.st (d :: ds1) rest hsrc hne hall hend hx.1 hx.2)
  rw [if_neg (by
    intro h
    rcases hlead with h1 | h1
    · exact h1 h.1
    · exact h.2 h1)] at hp
  exact integer_token P cx _ 10 _ (d :: ds1) hsaved hp (by decide) (by decide)
    (fun c hc => (isdigit_facts c (hall c hc)).2.2.2.2.2.2) rfl hv

theorem C5_decimal_integer_literal_witness :
    is_empty (lexer_init [49, 48, 48, 48, 59]).saved_token = true
      ∧ digits_value 10 [49, 48, 48, 48] < 2 ^ 53
      ∧ ∃ tok cx1, lexer_next_token sample_platform (lexer_init [49, 48, 48, 48, 59]) = .ok (tok, cx1)
          ∧ tok.loc = (lexer_init [49, 48, 48, 48, 59]).st.pos
          ∧ cx1.st.pos = (lexer_init [49, 48, 48, 48, 59]).st.pos + [49, 48, 48, 48].length
          ∧ (digits_value 10 [49, 48, 48, 48] ≤ 255 → tok.type = .TOK_SMALL_INT
              ∧ tok.uid = digits_value 10 [49, 48, 48, 48]
              ∧ cx1.st.literals = (lexer_init [49, 48, 48, 48, 59]).st.literals)
          ∧ (255 < digits_value 10 [49, 48, 48, 48] → tok.type = .TOK_NUMBER
              ∧ ∃ n, lexer_get_literal_by_id cx1.st tok.uid = .ok (.LIT_NUMBER n)
                  ∧ fp_to_nat n = some (digits_value 10 [49, 48, 48, 48])) :=
  ⟨by decide, by decide,
    C5_decimal_integer_literal sample_platform (lexer_init [49, 48, 48, 48, 59]) [49, 48, 48, 48] [59]
      (by decide) (by decide) (by decide) (by decide) (by decide) (by decide) (by decide)
      (by decide)⟩

/-- The literal `9007199254740993` (2^53 + 1) is lexed to a number token whose
pool literal is 2^53: the last digit is lost to rounding. -/
theorem C5_counterexample :
    digits_value 10 (cstr "9007199254740993") = 9007199254740993
      ∧ ∃ cx1, lexer_next_token sample_platform (lexer_init (cstr "9007199254740993"))
            = .ok (⟨.TOK_NUMBER, 0, 0⟩, cx1)
          ∧ lexer_get_literal_by_id cx1.st 0 = .ok (.LIT_NUMBER (.finite false 1 53))
          ∧ fp_to_nat (.finite false 1 53) = some 9007199254740992 :=
  ⟨by decide, _, rfl, rfl, rfl⟩

/-- The small and the promoted case of C5 evaluated: `255` is returned inline
and the pool stays empty, `256` goes to the pool with value 256. -/
theorem decimal_examples :
    (lexer_next_token sample_platform (lexer_init (cstr "255"))).map
        (fun r => (r.1, r.2.st.literals)) = .ok (⟨.TOK_SMALL_INT, 0, 255⟩, [])
      ∧ (lexer_next_token sample_platform (lexer_init (cstr "256"))).map
        (fun r => (r.1, r.2.st.literals)) = .ok (⟨.TOK_NUMBER, 0, 0⟩, [.LIT_NUMBER (.finite false 1 8)]) :=
  ⟨rfl, rfl⟩

/-! ## C6 and C7: hexadecimal and octal integer literals -/

/-- C6 (amended): for a non-empty string `ds` of hexadecimal digits (either
case) whose base-16 value is below 2^53, lexing `0x` or `0X` followed by `ds`
and a character that ends the literal consumes exactly the literal and yields
that value: inline in a small-integer token when it is at most 255 (the pool is
left unchanged), otherwise as the pool literal of a number token. The token
locus is the offset of the first digit after the `0x` marker. -/
theorem C6_hex_integer_literal (P : platform) (cx : lexer_ctx) (x : Nat) (ds rest : List Nat)
    (hsaved : is_empty cx.saved_token = true) (hts : cx.st.token_start = none)
    (hsrc : cx.st.src.drop cx.st.pos = 48 :: x :: (ds ++ rest)) (hx : x = 120 ∨ x = 88)
    (hne : ds ≠ []) (hall : ∀ c ∈ ds, isxdigit c = true)
    (hend : ends_hex (rest.headD 0) = true) (hv : digits_value 16 ds < 2 ^ 53) :
    ∃ tok cx1, lexer_next_token P cx = .ok (tok, cx1)
      ∧ tok.loc = cx.st.pos + 2 ∧ cx1.st.pos = cx.st.pos + 2 + ds.length
      ∧ (digits_value 16 ds ≤ 255 → tok.type = .TOK_SMALL_INT ∧ tok.uid = digits_value 16 ds
          ∧ cx1.st.literals = cx.st.literals)
      ∧ (255 < digits_value 16 ds → tok.type = .TOK_NUMBER
          ∧ ∃ n, lexer_get_literal_by_id cx1.st tok.uid = .ok (.LIT_NUMBER n)
              ∧ fp_to_nat n = some (digits_value 16 ds)) := by
  have _ := hne
  have hp : lexer_next_token_private P cx.st = _ :=
    (next_token_number P cx.st 48 _ hts hsrc (by decide)).trans
      (parse_number_hex P cx.st x ds rest hsrc hx hall hend)
  exact integer_token P cx _ 16 _ ds hsaved hp (by decide) (by decide) hall rfl hv

theorem C6_hex_integer_literal_witness :
    is_empty (lexer_init [48, 120, 49, 70]).saved_token = true
      ∧ digits_value 16 [49, 70] = 31
      ∧ ∃ tok cx1, lexer_next_token sample_platform (lexer_init [48, 120, 49, 70]) = .ok (tok, cx1)
          ∧ tok.loc = (lexer_init [48, 120, 49, 70]).st.pos + 2
          ∧ cx1.st.pos = (lexer_init [48, 120, 49, 70]).st.pos + 2 + [49, 70].length
          ∧ (digits_value 16 [49, 70] ≤ 255 → tok.type = .TOK_SMALL_INT
              ∧ tok.uid = digits_value 16 [49, 70]
              ∧ cx1.st.literals = (lexer_init [48, 120, 49, 70]).st.literals)
          ∧ (255 < digits_value 16 [49, 70] → tok.type = .TOK_NUMBER
              ∧ ∃ n, lexer_get_literal_by_id cx1.st tok.uid = .ok (.LIT_NUMBER n)
                  ∧ fp_to_nat n = some (digits_value 16 [49, 70])) :=
  ⟨by decide, by decide,
    C6_hex_integer_literal sample_platform (lexer_init [48, 120, 49, 70]) 120 [49, 70] []
      (by decide) (by decide) (by decide) (by decide) (by decide) (by decide) (by decide)
      (by decide)⟩

/-- The literal `0x20000000000001` (2^53 + 1) is lexed to a number token whose
pool literal is 2^53. -/
theorem C6_counterexample :
    digits_value 16 (cstr "20000000000001") = 9007199254740993
      ∧ ∃ cx1, lexer_next_token sample_platform (lexer_init (cstr "0x20000000000001"))
            = .ok (⟨.TOK_NUMBER, 2, 0⟩, cx1)
          ∧ lexer_get_literal_by_id cx1.st 0 = .ok (.LIT_NUMBER (.finite false 1 53))
          ∧ fp_to_nat (.finite false 1 53) = some 9007199254740992 :=
  ⟨by decide, _, rfl, rfl, rfl⟩

/-- The examples of C6 evaluated: `0x1F` and `0X1f` give 31 inline, `0x100`
gives 256 through the pool. -/
theorem hex_examples :
    (lexer_next_token sample_platform (lexer_init (cstr "0x1F"))).map (fun r => r.1)
        = .ok ⟨.TOK_SMALL_INT, 2, 31⟩
      ∧ (lexer_next_token sample_platform (lexer_init (cstr "0X1f"))).map (fun r => r.1)
        = .ok ⟨.TOK_SMALL_INT, 2, 31⟩
      ∧ (lexer_next_token sample_platform (lexer_init (cstr "0x100"))).map
        (fun r => (r.1, r.2.st.literals)) = .ok (⟨.TOK_NUMBER, 2, 0⟩, [.LIT_NUMBER (.finite false 1 8)]) :=
  ⟨rfl, rfl, rfl⟩

/-- C7 (amended): for an integer literal of two or more octal digits that
begins with `0`, followed by a character that ends the literal: in strict mode
`lexer_next_token` fails with the octal-literal syntax error at the literal;
outside strict mode, when the base-8 value is below 2^53, it consumes exactly
the literal and returns that value, inline when it is at most 255 and as the
pool literal of a number token otherwise. -/
theorem C7_octal_integer_literal (P : platform) (cx : lexer_ctx) (ds rest : List Nat)
    (hsaved : is_empty cx.saved_token = true) (hts : cx.st.token_start = none)
    (hsrc : cx.st.src.drop cx.st.pos = (48 :: ds) ++ rest) (hne : ds ≠ [])
    (hall : ∀ c ∈ ds, 48 ≤ c ∧ c ≤ 55) (hend : ends_integer (rest.headD 0) = true) :
    (cx.st.strict_mode = true →
        lexer_next_token P cx = .error (.octal_in_strict_mode cx.st.pos))
    ∧ (cx.st.strict_mode = false → digits_value 8 (48 :: ds) < 2 ^ 53 →
        ∃ tok cx1, lexer_next_token P cx = .ok (tok, cx1)
          ∧ tok.loc = cx.st.pos ∧ cx1.st.pos = cx.st.pos + (48 :: ds).length
          ∧ (digits_value 8 (48 :: ds) ≤ 255 → tok.type = .TOK_SMALL_INT
              ∧ tok.uid = digits_value 8 (48 :: ds) ∧ cx1.st.literals = cx.st.literals)
          ∧ (255 < digits_value 8 (48 :: ds) → tok.type = .TOK_NUMBER
              ∧ ∃ n, lexer_get_literal_by_id cx1.st tok.uid = .ok (.LIT_NUMBER n)
                  ∧ fp_to_nat n = some (digits_value 8 (48 :: ds)))) := by
  obtain ⟨d2, ds2, rfl⟩ := List.exists_cons_of_ne_nil hne
  have hdig : ∀ c ∈ 48 :: d2 :: ds2, isdigit c = true := by
    intro c hc
    rcases List.mem_cons.mp hc with h | h
    · subst h; rfl
    · have := hall c h
      simp only [isdigit, Bool.and_eq_true, decide_eq_true_eq]
      omega
  have h2 := hall d2 (List.mem_cons_self _ _)
  have hc1 : get_char cx.st 1 = d2 := get_char_one_cons cx.st 48 d2 _ hsrc
  have hp : lexer_next_token_private P cx.st = _ :=
    (next_token_number P cx.st 48 _ hts hsrc (by decide)).trans
      (parse_number_integer P cx.st (48 :: d2 :: ds2) rest hsrc (List.cons_ne_nil _ _) hdig hend
        (by rw [hc1]; omega) (by rw [hc1]; omega))
  rw [if_pos ⟨rfl, by simp⟩] at hp
  constructor
  · intro hs
    rw [if_pos hs] at hp
    exact lexer_next_token_fresh_error P cx _ hsaved hp
  · intro hs hv
    rw [if_neg (by simp [hs])] at hp
    exact integer_token P cx _ 8 _ (48 :: d2 :: ds2) hsaved hp (by decide) (by decide)
      (fun c hc => (isdigit_facts c (hdig c hc)).2.2.2.2.2.2) rfl hv

theorem C7_octal_integer_literal_witness :
    is_empty (lexer_init [48, 49, 48]).saved_token = true
      ∧ digits_value 8 [48, 49, 48] = 8
      ∧ ((lexer_init [48, 49, 48]).st.strict_mode = true →
          lexer_next_token sample_platform (lexer_init [48, 49, 48])
            = .error (.octal_in_strict_mode (lexer_init [48, 49, 48]).st.pos))
      ∧ ((lexer_init [48, 49, 48]).st.strict_mode = false → digits_value 8 [48, 49, 48] < 2 ^ 53 →
          ∃ tok cx1, lexer_next_token sample_platform (lexer_init [48, 49, 48]) = .ok (tok, cx1)
            ∧ tok.loc = (lexer_init [48, 49, 48]).st.pos
            ∧ cx1.st.pos = (lexer_init [48, 49, 48]).st.pos + [48, 49, 48].length
            ∧ (digits_value 8 [48, 49, 48] ≤ 255 → tok.type = .TOK_SMALL_INT
                ∧ tok.uid = digits_value 8 [48, 49, 48]
                ∧ cx1.st.literals = (lexer_init [48, 49, 48]).st.literals)
            ∧ (255 < digits_value 8 [48, 49, 48] → tok.type = .TOK_NUMBER
                ∧ ∃ n, lexer_get_literal_by_id cx1.st tok.uid = .ok (.LIT_NUMBER n)
                    ∧ fp_to_nat n = some (digits_value 8 [48, 49, 48]))) :=
  ⟨by decide, by decide,
    C7_octal_integer_literal sample_platform (lexer_init [48, 49, 48]) [49, 48] []
      (by decide) (by decide) (by decide) (by decide) (by decide) (by decide)⟩

/-- The literal `0400000000000000001` (2^53 + 1 in base 8) is lexed outside
strict mode to a number token whose pool literal is 2^53. -/
theorem C7_counterexample :
    digits_value 8 (cstr "0400000000000000001") = 9007199254740993
      ∧ ∃ cx1, lexer_next_token sample_platform (lexer_init (cstr "0400000000000000001"))
            = .ok (⟨.TOK_NUMBER, 0, 0⟩, cx1)
          ∧ lexer_get_literal_by_id cx1.st 0 = .ok (.LIT_NUMBER (.finite false 1 53))
          ∧ fp_to_nat (.finite false 1 53) = some 9007199254740992 :=
  ⟨by decide, _, rfl, rfl, rfl⟩

/-- The example of C7 evaluated: `010` gives 8 outside strict mode and the
octal-literal error in strict mode. -/
theorem octal_examples :
    (lexer_next_token sample_platform (lexer_init (cstr "010"))).map (fun r => r.1)
        = .ok ⟨.TOK_SMALL_INT, 0, 8⟩
      ∧ lexer_next_token sample_platform
          { lexer_init (cstr "010") with st := lexer_set_strict_mode (lexer_init_source (cstr "010")) true }
        = .error (.octal_in_strict_mode 0) :=
  ⟨rfl, rfl⟩

/-! ## Interning a string: the characters of the returned literal -/

theorem intern_string_chars (P : platform) (hP : platform_ok P) (st : lexer_state)
    (hw : pool_wf st) (tt : token_type) (s : List Nat) (h0 : 0 ∉ s) :
    ∃ t st1 l, convert_string_to_token P st tt s = .ok (t, st1)
      ∧ t = create_token st tt t.uid
      ∧ st1.src = st.src ∧ st1.pos = st.pos ∧ st1.token_start = st.token_start
      ∧ st1.strict_mode = st.strict_mode ∧ pool_wf st1
      ∧ lexer_get_literal_by_id st1 t.uid = .ok l ∧ literal_chars P st1 l = .ok s := by
  obtain ⟨vs, hvs⟩ := pool_wf_has_values st hw
  obtain ⟨t, st1, h, e1, e2, e3, e4, hw1, ht, _, _⟩ := convert_string_spec P hP st hw vs hvs tt s
  obtain ⟨t', st1', vs1, u, h', _, hvs1, _, hu, hcase⟩ :=
    insert_lookup P hP st hw vs hvs (.str tt s)
  have heq : (t', st1') = (t, st1) := by
    have : Except.ok (t', st1') = Except.ok (ε := lex_error) (t, st1) := by rw [← h', ← h]; rfl
    exact Except.ok.inj this
  cases heq
  have hm : value_matches P s u = true := by
    rcases hcase with ⟨_, _, _, hm⟩ | ⟨_, _, _, hu2⟩
    · exact hm
    · rw [hu2]; exact new_string_value_matches P s h0
  have hc := value_matches_chars P s h0 u hm
  obtain ⟨l, hl, hlv⟩ := forall2_getElem_right _ _ _ hvs1 t.uid u hu
  refine ⟨t, st1, l, h, ht, e1, e2, e3, e4, hw1, ?_, literal_chars_of_value P st1 l u s hlv hc⟩
  exact (lexer_get_literal_by_id_ok st1 t.uid l).mpr hl

/-! ## Decoding escape sequences, element by element -/

theorem ident_char_eq (c : Nat) :
    (islower c || isalpha c || isdigit c || decide (c = 36) || decide (c = 95)) = ident_char c := by
  unfold ident_char isalpha
  cases islower c <;> cases isupper c <;> cases isdigit c <;> simp

theorem read_hex_chars_two (a b : Nat) (rest : List Nat) (ha : isxdigit a = true)
    (hb : isxdigit b = true) :
    read_hex_chars 2 (a :: b :: rest) 0 = .ok (some (digit_value a * 16 + digit_value b, rest)) := by
  have ha1 := digit_value_lt a ha
  have hb1 := digit_value_lt b hb
  simp only [read_hex_chars, ha, hb, not_true_eq_false, if_false, hex_to_int_digit, bind,
    Except.bind, Nat.zero_div, Nat.zero_mod, ne_eq, Nat.zero_mul, Nat.zero_add]
  have e1 : digit_value a % 65536 = digit_value a := Nat.mod_eq_of_lt (by omega)
  rw [e1]
  have e2 : digit_value a / 4096 % 16 = 0 := by
    rw [Nat.div_eq_of_lt (by omega)]
  simp only [e2, not_true_eq_false, if_false]
  have e3 : (digit_value a * 16 % 65536 + digit_value b) % 65536
      = digit_value a * 16 + digit_value b := by
    rw [Nat.mod_eq_of_lt (show digit_value a * 16 < 65536 by omega)]
    exact Nat.mod_eq_of_lt (by omega)
  rw [e3]
  rfl

theorem read_hex_chars_four (a b c d : Nat) (rest : List Nat) (ha : isxdigit a = true)
    (hb : isxdigit b = true) (hc : isxdigit c = true) (hd : isxdigit d = true) :
    read_hex_chars 4 (a :: b :: c :: d :: rest) 0
      = .ok (some (digit_value a * 4096 + digit_value b * 256 + digit_value c * 16
          + digit_value d, rest)) := by
  have ha1 := digit_value_lt a ha
  have hb1 := digit_value_lt b hb
  have hc1 := digit_value_lt c hc
  have hd1 := digit_value_lt d hd
  simp only [read_hex_chars, ha, hb, hc, hd, not_true_eq_false, if_false, hex_to_int_digit, bind,
    Except.bind, Nat.zero_div, Nat.zero_mod, ne_eq, Nat.zero_mul, Nat.zero_add]
  have e1 : digit_value a % 65536 = digit_value a := Nat.mod_eq_of_lt (by omega)
  rw [e1]
  have e2 : digit_value a / 4096 % 16 = 0 := by
    rw [Nat.div_eq_of_lt (by omega)]
  simp only [e2, not_true_eq_false, if_false]
  have e3 : (digit_value a * 16 % 65536 + digit_value b) % 65536
      = digit_value a * 16 + digit_value b := by
    rw [Nat.mod_eq_of_lt (show digit_value a * 16 < 65536 by omega)]
    exact Nat.mod_eq_of_lt (by omega)
  rw [e3]
  have e4 : (digit_value a * 16 + digit_value b) / 4096 % 16 = 0 := by
    rw [Nat.div_eq_of_lt (by omega)]
  simp only [e4, not_true_eq_false, if_false]
  have e5 : ((digit_value a * 16 + digit_value b) * 16 % 65536 + digit_value c) % 65536
      = (digit_value a * 16 + digit_value b) * 16 + digit_value c := by
    rw [Nat.mod_eq_of_lt (show (digit_value a * 16 + digit_value b) * 16 < 65536 by omega)]
    exact Nat.mod_eq_of_lt (by omega)
  rw [e5]
  have e6 : ((digit_value a * 16 + digit_value b) * 16 + digit_value c) / 4096 % 16 = 0 := by
    rw [Nat.div_eq_of_lt (by omega)]
  simp only [e6, not_true_eq_false, if_false]
  have e7 : (((digit_value a * 16 + digit_value b) * 16 + digit_value c) * 16 % 65536
      + digit_value d) % 65536
      = digit_value a * 4096 + digit_value b * 256 + digit_value c * 16 + digit_value d := by
    rw [Nat.mod_eq_of_lt (show ((digit_value a * 16 + digit_value b) * 16 + digit_value c) * 16
      < 65536 by omega)]
    rw [Nat.mod_eq_of_lt (by omega)]
    ring
  rw [e7]
  rfl
theorem single_escape_facts (c : Nat) (h : (convert_single_escape_character c).1 = true) :
    isdigit c = false ∧ c ≠ 117 ∧ c ≠ 120 ∧ ecma_char_is_line_terminator c = false
      ∧ (convert_single_escape_character c).2 < 256 ∧ c ≠ 0 ∧ c ≠ 10 ∧ c ≠ 13 := by
  unfold convert_single_escape_character at h ⊢
  have key : c = 98 ∨ c = 116 ∨ c = 110 ∨ c = 118 ∨ c = 102 ∨ c = 114 ∨ c = 34 ∨ c = 39
      ∨ c = 92 := by
    by_contra hn
    simp only [not_or] at hn
    obtain ⟨h1, h2, h3, h4, h5, h6, h7, h8, h9⟩ := hn
    simp [h1, h2, h3, h4, h5, h6, h7, h8, h9] at h
  rcases key with e | e | e | e | e | e | e | e | e <;> subst e <;> decide

theorem transform_loop_pieces (q : Nat) : ∀ (ps : List str_piece) (fuel : Nat) (buf : List Nat)
    (lower allowed : Bool), pieces_ok q ps = true → (pieces_raw ps).length < fuel →
    transform_loop fuel (pieces_raw ps) buf lower allowed
      = .ok (some (buf ++ pieces_decoded ps, lower && (pieces_decoded ps).all islower,
          allowed && (pieces_decoded ps).all ident_char)) := by
  intro ps
  induction ps with
  | nil =>
    intro fuel buf lower allowed _ hf
    obtain ⟨f, rfl⟩ : ∃ g, fuel = g + 1 := ⟨fuel - 1, by omega⟩
    simp [transform_loop, pieces_raw, pieces_decoded]
    rfl
  | cons p ps ih =>
    intro fuel buf lower allowed hok hf
    obtain ⟨f, rfl⟩ : ∃ g, fuel = g + 1 := ⟨fuel - 1, by omega⟩
    simp only [pieces_ok, Bool.and_eq_true] at hok
    obtain ⟨⟨hp, hcr⟩, hrest⟩ := hok
    have hlen : (pieces_raw ps).length < f := by
      simp only [pieces_raw, List.length_append] at hf
      cases p <;> simp [str_piece.raw] at hf <;> omega
    cases p with
    | plain c =>
      simp only [str_piece.ok, Bool.and_eq_true, decide_eq_true_eq, Bool.not_eq_true'] at hp
      obtain ⟨⟨⟨⟨h0, h256⟩, hlt⟩, h92⟩, hq⟩ := hp
      simp only [pieces_raw, str_piece.raw, List.singleton_append, pieces_decoded,
        str_piece.decoded, str_piece.value, Nat.mod_eq_of_lt h256, transform_loop, ne_eq, h92,
        not_false_eq_true, if_true, ident_char_eq, ih f _ _ _ hrest hlen, List.all_cons,
        List.append_assoc, Bool.and_assoc]
    | esc c =>
      simp only [str_piece.ok] at hp
      obtain ⟨e1, e2, e3, e4, e5, _⟩ := single_escape_facts c hp
      simp only [pieces_raw, str_piece.raw, List.cons_append, List.nil_append, pieces_decoded,
        str_piece.decoded, str_piece.value, Nat.mod_eq_of_lt e5, transform_loop, ne_eq,
        not_true_eq_false, if_false, e1, e2, e3, e4, Bool.false_eq_true, or_self,
        ident_char_eq, ih f _ _ _ hrest hlen, List.all_cons, List.append_assoc, Bool.and_assoc,
        List.singleton_append]
    | hex4 a b c d =>
      simp only [str_piece.ok, Bool.and_eq_true] at hp
      obtain ⟨⟨⟨ha, hb⟩, hc⟩, hd⟩ := hp
      have hl : ¬ (a :: b :: c :: d :: pieces_raw ps).length < 4 := by simp
      simp only [pieces_raw, str_piece.raw, List.cons_append, List.nil_append, pieces_decoded,
        str_piece.decoded, str_piece.value, transform_loop, ne_eq, not_true_eq_false, if_false,
        true_or, if_true, hl, read_hex_chars_four a b c d _ ha hb hc hd, bind, Except.bind,
        ident_char_eq, ih f _ _ _ hrest hlen, List.all_cons, List.append_assoc, Bool.and_assoc,
        List.singleton_append, show isdigit 117 = false from rfl, Bool.false_eq_true]
    | hex2 a b =>
      simp only [str_piece.ok, Bool.and_eq_true] at hp
      obtain ⟨ha, hb⟩ := hp
      have hl : ¬ (a :: b :: pieces_raw ps).length < 2 := by simp
      simp only [pieces_raw, str_piece.raw, List.cons_append, List.nil_append, pieces_decoded,
        str_piece.decoded, str_piece.value, transform_loop, ne_eq, not_true_eq_false, if_false,
        or_true, if_true, hl, read_hex_chars_two a b _ ha hb, bind, Except.bind,
        ident_char_eq, ih f _ _ _ hrest hlen, List.all_cons, List.append_assoc, Bool.and_assoc,
        List.singleton_append, show isdigit 120 = false from rfl, Bool.false_eq_true,
        show (120 = 117) = False from by simp]
    | cont_lf =>
      have key : transform_loop (f + 1) (92 :: 10 :: pieces_raw ps) buf lower allowed
          = transform_loop f (pieces_raw ps) buf lower allowed := by
        cases pieces_raw ps <;> simp [transform_loop, isdigit, ecma_char_is_line_terminator,
          ecma_char_is_new_line, ecma_char_is_carriage_return]
      simp only [pieces_raw, str_piece.raw, List.cons_append, List.nil_append, pieces_decoded,
        str_piece.decoded, str_piece.value, key, ih f _ _ _ hrest hlen]
    | cont_cr =>
      simp only [ne_eq, not_true_eq_false, decide_False, Bool.false_or, decide_eq_true_eq] at hcr
      have key : transform_loop (f + 1) (92 :: 13 :: pieces_raw ps) buf lower allowed
          = transform_loop f (pieces_raw ps) buf lower allowed := by
        cases hr : pieces_raw ps with
        | nil => simp [transform_loop, isdigit, ecma_char_is_line_terminator,
            ecma_char_is_new_line, ecma_char_is_carriage_return]
        | cons x xs =>
          rw [hr] at hcr
          have hx : x ≠ 10 := hcr
          simp [transform_loop, isdigit, ecma_char_is_line_terminator,
            ecma_char_is_new_line, ecma_char_is_carriage_return, hx]
      simp only [pieces_raw, str_piece.raw, List.cons_append, List.nil_append, pieces_decoded,
        str_piece.decoded, str_piece.value, key, ih f _ _ _ hrest hlen]
    | cont_crlf =>
      have key : transform_loop (f + 1) (92 :: 13 :: 10 :: pieces_raw ps) buf lower allowed
          = transform_loop f (pieces_raw ps) buf lower allowed := by
        simp [transform_loop, isdigit, ecma_char_is_line_terminator,
          ecma_char_is_new_line, ecma_char_is_carriage_return]
      simp only [pieces_raw, str_piece.raw, List.cons_append, List.nil_append, pieces_decoded,
        str_piece.decoded, str_piece.value, key, ih f _ _ _ hrest hlen]

/-! ## Scanning a string literal, element by element -/

theorem advance_advance (st : lexer_state) (a b : Nat) :
    advance (advance st a) b = advance st (a + b) := by
  simp only [advance, Nat.add_assoc]

theorem consume_eq_advance (st : lexer_state) : consume_char st = advance st 1 := rfl

theorem drop_advance (st : lexer_state) (w r : List Nat)
    (h : st.src.drop st.pos = w ++ r) :
    (advance st w.length).src.drop (advance st w.length).pos = r := by
  simp only [advance]
  rw [← List.drop_drop, h, List.drop_left]

theorem string_step_plain (q f : Nat) (st : lexer_state) (c : Nat) (r : List Nat)
    (hsrc : st.src.drop st.pos = c :: r) (h0 : c ≠ 0)
    (hlt : ecma_char_is_line_terminator c = false) (h92 : c ≠ 92) (hq : c ≠ q) :
    parse_string_loop q (f + 1) st = parse_string_loop q f (advance st 1) := by
  simp only [parse_string_loop, get_char_zero_cons st c r hsrc, h0, hlt, h92, hq, if_false,
    Bool.false_eq_true, ne_eq, not_false_eq_true, if_true]
  rfl

theorem string_step_close (q f : Nat) (st : lexer_state) (r : List Nat)
    (hsrc : st.src.drop st.pos = q :: r) (hq : q = 34 ∨ q = 39) :
    parse_string_loop q (f + 1) st = .ok (advance st 1) := by
  have h0 : q ≠ 0 := by omega
  have h92 : q ≠ 92 := by omega
  have hlt : ecma_char_is_line_terminator q = false := by
    rcases hq with h | h <;> subst h <;> rfl
  simp only [parse_string_loop, get_char_zero_cons st q r hsrc, h0, hlt, h92, if_false,
    Bool.false_eq_true, ne_eq, not_true_eq_false]
  rfl

theorem string_step_backslash (q f : Nat) (st : lexer_state) (nc : Nat) (r : List Nat)
    (hsrc : st.src.drop st.pos = 92 :: nc :: r) (hq : q = 34 ∨ q = 39) :
    parse_string_loop q (f + 1) st = parse_string_loop q f
      (if (convert_single_escape_character nc).1 = true then advance st 2
       else if ecma_char_is_line_terminator nc = true then
         (if nc = 13 ∧ r.headD 0 = 10 then advance st 3 else advance st 2)
       else advance st 1) := by
  have hq92 : (92 : Nat) ≠ q := by omega
  have h1 := drop_consume st 92 _ hsrc
  have h2 := drop_consume (consume_char st) nc _ h1
  have hnc : get_char (consume_char st) 0 = nc := get_char_zero_cons _ nc r h1
  have hr : get_char (consume_char (consume_char st)) 0 = r.headD 0 :=
    get_char_zero_headD _ r h2
  simp only [parse_string_loop, get_char_zero_cons st 92 _ hsrc, hnc, hr, hq92,
    show ecma_char_is_line_terminator 92 = false from rfl, Bool.false_eq_true, if_false,
    if_true, ne_eq, not_false_eq_true, show (92 : Nat) ≠ 0 from by decide,
    ecma_char_is_carriage_return, ecma_char_is_new_line, decide_eq_true_eq]
  rfl

theorem hex_digit_plain (q c : Nat) (hq : q = 34 ∨ q = 39) (h : isxdigit c = true) :
    c ≠ 0 ∧ ecma_char_is_line_terminator c = false ∧ c ≠ 92 ∧ c ≠ q ∧ c ≠ 10 := by
  simp only [isxdigit, isdigit, Bool.or_eq_true, Bool.and_eq_true, decide_eq_true_eq] at h
  refine ⟨by omega, ?_, by omega, by omega, by omega⟩
  simp only [ecma_char_is_line_terminator, ecma_char_is_carriage_return, ecma_char_is_new_line,
    Bool.or_eq_false_iff, decide_eq_false_iff_not]
  omega

theorem parse_string_loop_pieces (q : Nat) (hq : q = 34 ∨ q = 39) :
    ∀ (ps : List str_piece) (st : lexer_state) (rest : List Nat) (fuel : Nat),
    st.src.drop st.pos = pieces_raw ps ++ q :: rest → pieces_ok q ps = true →
    (pieces_raw ps).length < fuel →
    parse_string_loop q fuel st = .ok (advance st ((pieces_raw ps).length + 1)) := by
  intro ps
  induction ps with
  | nil =>
    intro st rest fuel hsrc _ hf
    obtain ⟨f, rfl⟩ : ∃ g, fuel = g + 1 := ⟨fuel - 1, by omega⟩
    exact string_step_close q f st rest hsrc hq
  | cons p ps ih =>
    intro st rest fuel hsrc hok hf
    simp only [pieces_ok, Bool.and_eq_true] at hok
    obtain ⟨⟨hp, hcr⟩, hrest⟩ := hok
    simp only [pieces_raw, List.append_assoc] at hsrc
    have hnext := drop_advance st p.raw _ hsrc
    have hfin : ∀ f, (pieces_raw ps).length < f →
        parse_string_loop q f (advance st p.raw.length)
          = .ok (advance st ((pieces_raw (p :: ps)).length + 1)) := by
      intro f hlt
      rw [ih (advance st p.raw.length) rest f hnext hrest hlt, advance_advance]
      simp only [pieces_raw, List.length_append, Nat.add_assoc]
    simp only [pieces_raw, List.length_append] at hf
    cases p with
    | plain c =>
      simp only [str_piece.ok, Bool.and_eq_true, decide_eq_true_eq, Bool.not_eq_true'] at hp
      obtain ⟨⟨⟨⟨h0, _⟩, hlt⟩, h92⟩, hcq⟩ := hp
      simp only [str_piece.raw, List.length_singleton] at hf hfin
      obtain ⟨f, rfl⟩ : ∃ g, fuel = g + 1 := ⟨fuel - 1, by omega⟩
      rw [string_step_plain q f st c _ hsrc h0 hlt h92 hcq]
      exact hfin f (by omega)
    | esc c =>
      simp only [str_piece.ok] at hp
      simp only [str_piece.raw, List.length_cons, List.length_nil] at hf hfin
      obtain ⟨f, rfl⟩ : ∃ g, fuel = g + 1 := ⟨fuel - 1, by omega⟩
      rw [string_step_backslash q f st c _ hsrc hq, if_pos hp]
      exact hfin f (by omega)
    | hex4 a b c d =>
      simp only [str_piece.ok, Bool.and_eq_true] at hp
      obtain ⟨⟨⟨ha, hb⟩, hc⟩, hd⟩ := hp
      simp only [str_piece.raw, List.length_cons, List.length_nil] at hf hfin
      obtain ⟨f, rfl⟩ : ∃ g, fuel = g + 6 := ⟨fuel - 6, by omega⟩
      have s1 : (advance st 1).src.drop (advance st 1).pos
          = 117 :: a :: b :: c :: d :: (pieces_raw ps ++ q :: rest) := drop_advance st [92] _ hsrc
      have s2 : (advance (advance st 1) 1).src.drop (advance (advance st 1) 1).pos
          = a :: b :: c :: d :: (pieces_raw ps ++ q :: rest) := drop_advance _ [117] _ s1
      have s3 : (advance (advance (advance st 1) 1) 1).src.drop
          (advance (advance (advance st 1) 1) 1).pos
          = b :: c :: d :: (pieces_raw ps ++ q :: rest) := drop_advance _ [a] _ s2
      have s4 : (advance (advance (advance (advance st 1) 1) 1) 1).src.drop
          (advance (advance (advance (advance st 1) 1) 1) 1).pos
          = c :: d :: (pieces_raw ps ++ q :: rest) := drop_advance _ [b] _ s3
      have s5 : (advance (advance (advance (advance (advance st 1) 1) 1) 1) 1).src.drop
          (advance (advance (advance (advance (advance st 1) 1) 1) 1) 1).pos
          = d :: (pieces_raw ps ++ q :: rest) := drop_advance _ [c] _ s4
      obtain ⟨a1, a2, a3, a4, _⟩ := hex_digit_plain q a hq ha
      obtain ⟨b1, b2, b3, b4, _⟩ := hex_digit_plain q b hq hb
      obtain ⟨c1, c2, c3, c4, _⟩ := hex_digit_plain q c hq hc
      obtain ⟨d1, d2, d3, d4, _⟩ := hex_digit_plain q d hq hd
      have t0 : parse_string_loop q (f + 6) st = parse_string_loop q (f + 5) (advance st 1) := by
        rw [string_step_backslash q (f + 5) st 117 _ hsrc hq, if_neg (by decide),
          if_neg (by decide)]
      rw [t0, string_step_plain q (f + 4) _ 117 _ s1 (by decide) (by rfl) (by decide) (by omega),
        string_step_plain q (f + 3) _ a _ s2 a1 a2 a3 a4,
        string_step_plain q (f + 2) _ b _ s3 b1 b2 b3 b4,
        string_step_plain q (f + 1) _ c _ s4 c1 c2 c3 c4,
        string_step_plain q f _ d _ s5 d1 d2 d3 d4]
      exact hfin f (by omega)
    | hex2 a b =>
      simp only [str_piece.ok, Bool.and_eq_true] at hp
      obtain ⟨ha, hb⟩ := hp
      simp only [str_piece.raw, List.length_cons, List.length_nil] at hf hfin
      obtain ⟨f, rfl⟩ : ∃ g, fuel = g + 4 := ⟨fuel - 4, by omega⟩
      have s1 : (advance st 1).src.drop (advance st 1).pos
          = 120 :: a :: b :: (pieces_raw ps ++ q :: rest) := drop_advance st [92] _ hsrc
      have s2 : (advance (advance st 1) 1).src.drop (advance (advance st 1) 1).pos
          = a :: b :: (pieces_raw ps ++ q :: rest) := drop_advance _ [120] _ s1
      have s3 : (advance (advance (advance st 1) 1) 1).src.drop
          (advance (advance (advance st 1) 1) 1).pos
          = b :: (pieces_raw ps ++ q :: rest) := drop_advance _ [a] _ s2
      obtain ⟨a1, a2, a3, a4, _⟩ := hex_digit_plain q a hq ha
      obtain ⟨b1, b2, b3, b4, _⟩ := hex_digit_plain q b hq hb
      have t0 : parse_string_loop q (f + 4) st = parse_string_loop q (f + 3) (advance st 1) := by
        rw [string_step_backslash q (f + 3) st 120 _ hsrc hq, if_neg (by decide),
          if_neg (by decide)]
      rw [t0, string_step_plain q (f + 2) _ 120 _ s1 (by decide) (by rfl) (by decide) (by omega),
        string_step_plain q (f + 1) _ a _ s2 a1 a2 a3 a4,
        string_step_plain q f _ b _ s3 b1 b2 b3 b4]
      exact hfin f (by omega)
    | cont_lf =>
      simp only [str_piece.raw, List.length_cons, List.length_nil] at hf hfin
      obtain ⟨f, rfl⟩ : ∃ g, fuel = g + 1 := ⟨fuel - 1, by omega⟩
      rw [string_step_backslash q f st 10 _ hsrc hq, if_neg (by decide), if_pos (by rfl),
        if_neg (fun h => absurd h.1 (by decide))]
      exact hfin f (by omega)
    | cont_cr =>
      simp only [ne_eq, not_true_eq_false, decide_False, Bool.false_or, decide_eq_true_eq] at hcr
      simp only [str_piece.raw, List.length_cons, List.length_nil] at hf hfin
      obtain ⟨f, rfl⟩ : ∃ g, fuel = g + 1 := ⟨fuel - 1, by omega⟩
      have hh : (pieces_raw ps ++ q :: rest).headD 0 ≠ 10 := by
        cases hr : pieces_raw ps with
        | nil => simp only [List.nil_append, List.headD_cons]; omega
        | cons x xs => rw [hr] at hcr; exact hcr
      rw [string_step_backslash q f st 13 _ hsrc hq, if_neg (by decide), if_pos (by rfl),
        if_neg (fun h => hh h.2)]
      exact hfin f (by omega)
    | cont_crlf =>
      simp only [str_piece.raw, List.length_cons, List.length_nil] at hf hfin
      obtain ⟨f, rfl⟩ : ∃ g, fuel = g + 1 := ⟨fuel - 1, by omega⟩
      rw [string_step_backslash q f st 13 _ hsrc hq, if_neg (by decide), if_pos (by rfl),
        if_pos ⟨rfl, rfl⟩]
      exact hfin f (by omega)

/-! ## String literals: the token returned -/

theorem piece_raw_ne_nil (p : str_piece) : p.raw ≠ [] := by
  cases p <;> simp [str_piece.raw]

theorem transform_escape_seq_pieces (q : Nat) (ps : List str_piece) (hok : pieces_ok q ps = true) :
    transform_escape_seq (pieces_raw ps)
      = .ok (some (pieces_decoded ps, (pieces_decoded ps).all islower,
          (pieces_decoded ps).all ident_char)) := by
  unfold transform_escape_seq
  rw [transform_loop_pieces q ps _ [] true true hok (Nat.lt_succ_self _)]
  simp

theorem convert_transform_string (P : platform) (st : lexer_state) (q : Nat)
    (ps : List str_piece) (locus : Nat) (hok : pieces_ok q ps = true) :
    convert_string_to_token_transform_escape_seq P st .TOK_STRING (pieces_raw ps) locus
      = convert_string_to_token P st .TOK_STRING (pieces_decoded ps) := by
  unfold convert_string_to_token_transform_escape_seq
  cases ps with
  | nil => simp [pieces_raw, pieces_decoded]
  | cons p ps =>
    have hne : (pieces_raw (p :: ps)).length ≠ 0 := by
      have := piece_raw_ne_nil p
      simp only [pieces_raw, List.length_append, ne_eq]
      have h2 : p.raw.length ≠ 0 := fun h => this (List.length_eq_zero.mp h)
      omega
    rw [if_neg hne, transform_escape_seq_pieces q _ hok]
    simp only [bind, Except.bind, pure, Except.pure, if_false, is_empty, empty_token]
    rw [if_neg (by decide)]
    simp

theorem next_token_quote (P : platform) (st : lexer_state) (q : Nat) (rest : List Nat)
    (hts : st.token_start = none) (hsrc : st.src.drop st.pos = q :: rest)
    (hq : q = 34 ∨ q = 39) : lexer_next_token_private P st = parse_string P st := by
  unfold lexer_next_token_private
  rw [fuel_succ st q rest hsrc]
  rcases hq with h | h <;> subst h <;>
    simp [lexer_next_token_private_aux, get_char_zero_cons st _ rest hsrc, hts, isalpha, islower,
      isupper, isdigit]

theorem parse_string_pieces (P : platform) (st : lexer_state) (q : Nat) (ps : List str_piece)
    (rest : List Nat) (hq : q = 34 ∨ q = 39)
    (hsrc : st.src.drop st.pos = q :: (pieces_raw ps ++ q :: rest))
    (hok : pieces_ok q ps = true) :
    parse_string P st
      = (convert_string_to_token P
          (advance (new_token (advance st 1)) ((pieces_raw ps).length + 1)) .TOK_STRING
          (pieces_decoded ps)).map (fun r => (r.1, { r.2 with token_start := none })) := by
  have hc : get_char st 0 = q := get_char_zero_cons st q _ hsrc
  have h1 : (new_token (advance st 1)).src.drop (new_token (advance st 1)).pos
      = pieces_raw ps ++ q :: rest := drop_consume st q _ hsrc
  have hlen := drop_length_ge st [q] (pieces_raw ps ++ q :: rest) hsrc
  have hfuel : (pieces_raw ps).length
      < (new_token (advance st 1)).src.length + 2 - (new_token (advance st 1)).pos := by
    simp only [new_token, advance]
    rcases hlen with h | ⟨h, _⟩
    · simp only [List.length_cons, List.length_nil, List.length_append] at h
      omega
    · exact absurd h (List.cons_ne_nil _ _)
  have hloop := parse_string_loop_pieces q hq ps _ rest _ h1 hok hfuel
  have hslice : src_slice (advance (new_token (advance st 1)) ((pieces_raw ps).length + 1))
      (new_token (advance st 1)).pos
      ((advance (new_token (advance st 1)) ((pieces_raw ps).length + 1)).pos - 1)
      = pieces_raw ps := by
    unfold src_slice
    have e : (advance (new_token (advance st 1)) ((pieces_raw ps).length + 1)).pos - 1
        - (new_token (advance st 1)).pos = (pieces_raw ps).length := by
      simp only [advance, new_token]; omega
    rw [e]
    show ((new_token (advance st 1)).src.drop (new_token (advance st 1)).pos).take _ = _
    rw [h1, List.take_left]
  have hend : (if q = 34 then 34 else 39) = q := by
    rcases hq with h | h <;> subst h <;> rfl
  unfold parse_string
  simp only [hc, consume_eq_advance, hend, bind, Except.bind, pure, Except.pure, hloop, hslice,
    convert_transform_string P _ q ps _ hok]
  have hq2 : q = 39 ∨ q = 34 := hq.symm
  simp only [hq2, not_true_eq_false, if_false]
  rfl

theorem string_literal_token (P : platform) (hP : platform_ok P) (st : lexer_state)
    (hw : pool_wf st) (hts : st.token_start = none) (q : Nat) (hq : q = 34 ∨ q = 39)
    (ps : List str_piece) (rest : List Nat)
    (hsrc : st.src.drop st.pos = q :: (pieces_raw ps ++ q :: rest))
    (hok : pieces_ok q ps = true) (h0 : 0 ∉ pieces_decoded ps) :
    ∃ t st1 l, lexer_next_token_private P st = .ok (t, st1)
      ∧ t.type = .TOK_STRING ∧ t.loc = st.pos
      ∧ st1.pos = st.pos + (pieces_raw ps).length + 2 ∧ st1.token_start = none
      ∧ st1.src = st.src ∧ st1.strict_mode = st.strict_mode ∧ pool_wf st1
      ∧ lexer_get_literal_by_id st1 t.uid = .ok l
      ∧ literal_chars P st1 l = .ok (pieces_decoded ps) := by
  have hw1 : pool_wf (advance (new_token (advance st 1)) ((pieces_raw ps).length + 1)) := hw
  obtain ⟨t, st1, l, h, ht, e1, e2, _, e4, hw2, hl, hc⟩ :=
    intern_string_chars P hP _ hw1 .TOK_STRING (pieces_decoded ps) h0
  refine ⟨t, { st1 with token_start := none }, l, ?_, ?_, ?_, ?_, rfl, e1, e4, hw2, hl, hc⟩
  · rw [next_token_quote P st q _ hts hsrc hq, parse_string_pieces P st q ps rest hq hsrc hok, h]
    rfl
  · rw [ht]; rfl
  · rw [ht]
    simp [create_token, current_locus, advance, new_token]
  · show st1.pos = _
    rw [e2]
    simp only [advance, new_token]
    omega

/-! ## C9: hex escapes in string literals -/

theorem pool_wf_init (source : List Nat) : pool_wf (lexer_init_source source) := by
  refine ⟨rfl, Nat.le_refl _, fun _ => rfl, ?_⟩
  intro lit h
  simp [lexer_init_source] at h

theorem pieces_decoded_exact : ∀ (ps : List str_piece), ps.all str_piece.exact = true →
    pieces_decoded ps = ps.filterMap str_piece.value ∧ 0 ∉ pieces_decoded ps := by
  intro ps
  induction ps with
  | nil => intro _; simp [pieces_decoded]
  | cons p ps ih =>
    intro h
    simp only [List.all_cons, Bool.and_eq_true] at h
    obtain ⟨hp, hps⟩ := h
    obtain ⟨ih1, ih2⟩ := ih hps
    unfold str_piece.exact at hp
    cases hv : p.value with
    | none => simp [hv] at hp
    | some v =>
      simp only [hv, Bool.and_eq_true, decide_eq_true_eq] at hp
      have hd : p.decoded = [v] := by
        simp only [str_piece.decoded, hv, Nat.mod_eq_of_lt hp.2]
      simp only [pieces_decoded, hd, List.filterMap_cons, hv, ih1, List.singleton_append,
        List.mem_cons, not_or, true_and]
      refine ⟨by omega, ?_⟩
      rw [← ih1]; exact ih2

/-- C9 (amended): in a string literal whose body is made of plain characters,
single-character escapes and `\uHHHH` / `\xHH` escapes, each denoting a code
unit from 1 to 255, `lexer_next_token` returns a string token whose interned
literal is, in order, the code unit of each element: every hex escape is decoded
to the single character with that hexadecimal value and the surrounding
characters are kept. -/
theorem C9_hex_escapes_decoded (P : platform) (hP : platform_ok P) (cx : lexer_ctx)
    (q : Nat) (ps : List str_piece) (rest : List Nat)
    (hsaved : is_empty cx.saved_token = true) (hts : cx.st.token_start = none)
    (hw : pool_wf cx.st) (hq : q = 34 ∨ q = 39)
    (hsrc : cx.st.src.drop cx.st.pos = q :: (pieces_raw ps ++ q :: rest))
    (hok : pieces_ok q ps = true) (hval : ps.all str_piece.exact = true) :
    ∃ tok cx1 l, lexer_next_token P cx = .ok (tok, cx1)
      ∧ tok.type = .TOK_STRING ∧ tok.loc = cx.st.pos
      ∧ cx1.st.pos = cx.st.pos + (pieces_raw ps).length + 2
      ∧ lexer_get_literal_by_id cx1.st tok.uid = .ok l
      ∧ literal_chars P cx1.st l = .ok (ps.filterMap str_piece.value) := by
  obtain ⟨hd, h0⟩ := pieces_decoded_exact ps hval
  obtain ⟨t, st1, l, h, h1, h2, h3, _, _, _, _, h8, h9⟩ :=
    string_literal_token P hP cx.st hw hts q hq ps rest hsrc hok h0
  rw [hd] at h9
  exact ⟨t, _, l, lexer_next_token_fresh P cx _ hsaved h, h1, h2, h3, h8, h9⟩

theorem C9_hex_escapes_decoded_witness :
    is_empty (lexer_init [34, 97, 92, 117, 48, 48, 52, 49, 98, 34]).saved_token = true
      ∧ pieces_raw [.plain 97, .hex4 48 48 52 49, .plain 98] = [97, 92, 117, 48, 48, 52, 49, 98]
      ∧ [str_piece.plain 97, .hex4 48 48 52 49, .plain 98].filterMap str_piece.value = [97, 65, 98]
      ∧ ∃ tok cx1 l,
          lexer_next_token sample_platform (lexer_init [34, 97, 92, 117, 48, 48, 52, 49, 98, 34])
            = .ok (tok, cx1)
          ∧ tok.type = .TOK_STRING
          ∧ tok.loc = (lexer_init [34, 97, 92, 117, 48, 48, 52, 49, 98, 34]).st.pos
          ∧ cx1.st.pos = (lexer_init [34, 97, 92, 117, 48, 48, 52, 49, 98, 34]).st.pos
              + (pieces_raw [.plain 97, .hex4 48 48 52 49, .plain 98]).length + 2
          ∧ lexer_get_literal_by_id cx1.st tok.uid = .ok l
          ∧ literal_chars sample_platform cx1.st l
              = .ok ([str_piece.plain 97, .hex4 48 48 52 49, .plain 98].filterMap str_piece.value) :=
  ⟨by decide, by decide, by decide,
    C9_hex_escapes_decoded sample_platform sample_platform_ok
      (lexer_init [34, 97, 92, 117, 48, 48, 52, 49, 98, 34]) 34
      [.plain 97, .hex4 48 48 52 49, .plain 98] [] (by decide) (by decide) (pool_wf_init _)
      (by decide) (by decide) (by decide) (by decide)⟩

/-- The escape `\u0141` denotes the code unit 0x141 = 321, and the literal
`"\u0141"` is interned as the single character `A` (0x41): the high byte is
dropped. -/
theorem C9_counterexample :
    (str_piece.hex4 48 49 52 49).raw = [92, 117, 48, 49, 52, 49]
      ∧ (str_piece.hex4 48 49 52 49).value = some 321
      ∧ ∃ tok cx1 l,
          lexer_next_token sample_platform (lexer_init [34, 92, 117, 48, 49, 52, 49, 34])
            = .ok (tok, cx1)
          ∧ tok.type = .TOK_STRING
          ∧ lexer_get_literal_by_id cx1.st tok.uid = .ok l
          ∧ literal_chars sample_platform cx1.st l = .ok [65] :=
  ⟨by decide, by decide, _, _, _, rfl, rfl, rfl, rfl⟩

/-- The example of C9 evaluated: the body `a\u0041b` is interned as `aAb`, and
so is `a\x41b`. -/
theorem hex_escape_examples :
    (do
        let r ← lexer_next_token sample_platform (lexer_init [34, 97, 92, 117, 48, 48, 52, 49, 98, 34])
        let l ← lexer_get_literal_by_id r.2.st r.1.uid
        literal_chars sample_platform r.2.st l) = .ok (cstr "aAb")
      ∧ (do
        let r ← lexer_next_token sample_platform (lexer_init [34, 97, 92, 120, 52, 49, 98, 34])
        let l ← lexer_get_literal_by_id r.2.st r.1.uid
        literal_chars sample_platform r.2.st l) = .ok (cstr "aAb") :=
  ⟨rfl, rfl⟩

/-! ## C11: line continuations in string literals -/

theorem pieces_decoded_plain_or_cont (q : Nat) : ∀ (ps : List str_piece),
    pieces_ok q ps = true → ps.all str_piece.plain_or_cont = true →
    pieces_decoded ps = ps.filterMap str_piece.value ∧ 0 ∉ pieces_decoded ps := by
  intro ps
  induction ps with
  | nil => intro _ _; simp [pieces_decoded]
  | cons p ps ih =>
    intro hok h
    simp only [List.all_cons, Bool.and_eq_true] at h
    simp only [pieces_ok, Bool.and_eq_true] at hok
    obtain ⟨hp, hps⟩ := h
    obtain ⟨⟨hpok, _⟩, hrest⟩ := hok
    obtain ⟨ih1, ih2⟩ := ih hrest hps
    cases p with
    | plain c =>
      simp only [str_piece.ok, Bool.and_eq_true, decide_eq_true_eq, Bool.not_eq_true'] at hpok
      obtain ⟨⟨⟨⟨h0, h256⟩, _⟩, _⟩, _⟩ := hpok
      simp only [pieces_decoded, str_piece.decoded, str_piece.value, Nat.mod_eq_of_lt h256,
        List.filterMap_cons, ih1, List.singleton_append, List.mem_cons, not_or, true_and]
      refine ⟨fun h => h0 h.symm, ?_⟩
      rw [← ih1]; exact ih2
    | esc c => simp [str_piece.plain_or_cont] at hp
    | hex4 a b c d => simp [str_piece.plain_or_cont] at hp
    | hex2 a b => simp [str_piece.plain_or_cont] at hp
    | cont_lf =>
      simp only [pieces_decoded, str_piece.decoded, str_piece.value, List.filterMap_cons,
        List.nil_append]
      exact ⟨ih1, ih2⟩
    | cont_cr =>
      simp only [pieces_decoded, str_piece.decoded, str_piece.value, List.filterMap_cons,
        List.nil_append]
      exact ⟨ih1, ih2⟩
    | cont_crlf =>
      simp only [pieces_decoded, str_piece.decoded, str_piece.value, List.filterMap_cons,
        List.nil_append]
      exact ⟨ih1, ih2⟩

/-- C11: in a string literal whose body is made of plain characters and of
backslashes followed by a line terminator (a line feed, a carriage return not
followed by a line feed, or carriage return + line feed taken as one unit),
`lexer_next_token` returns a string token whose interned literal is the plain
characters in order: a line continuation contributes no character. -/
theorem C11_line_continuation_spliced (P : platform) (hP : platform_ok P) (cx : lexer_ctx)
    (q : Nat) (ps : List str_piece) (rest : List Nat)
    (hsaved : is_empty cx.saved_token = true) (hts : cx.st.token_start = none)
    (hw : pool_wf cx.st) (hq : q = 34 ∨ q = 39)
    (hsrc : cx.st.src.drop cx.st.pos = q :: (pieces_raw ps ++ q :: rest))
    (hok : pieces_ok q ps = true) (hkind : ps.all str_piece.plain_or_cont = true) :
    ∃ tok cx1 l, lexer_next_token P cx = .ok (tok, cx1)
      ∧ tok.type = .TOK_STRING ∧ tok.loc = cx.st.pos
      ∧ cx1.st.pos = cx.st.pos + (pieces_raw ps).length + 2
      ∧ lexer_get_literal_by_id cx1.st tok.uid = .ok l
      ∧ literal_chars P cx1.st l = .ok (ps.filterMap str_piece.value) := by
  obtain ⟨hd, h0⟩ := pieces_decoded_plain_or_cont q ps hok hkind
  obtain ⟨t, st1, l, h, h1, h2, h3, _, _, _, _, h8, h9⟩ :=
    string_literal_token P hP cx.st hw hts q hq ps rest hsrc hok h0
  rw [hd] at h9
  exact ⟨t, _, l, lexer_next_token_fresh P cx _ hsaved h, h1, h2, h3, h8, h9⟩

theorem C11_line_continuation_spliced_witness :
    is_empty (lexer_init [34, 97, 92, 13, 10, 98, 34]).saved_token = true
      ∧ pieces_raw [.plain 97, .cont_crlf, .plain 98] = [97, 92, 13, 10, 98]
      ∧ [str_piece.plain 97, .cont_crlf, .plain 98].filterMap str_piece.value = [97, 98]
      ∧ ∃ tok cx1 l,
          lexer_next_token sample_platform (lexer_init [34, 97, 92, 13, 10, 98, 34]) = .ok (tok, cx1)
          ∧ tok.type = .TOK_STRING
          ∧ tok.loc = (lexer_init [34, 97, 92, 13, 10, 98, 34]).st.pos
          ∧ cx1.st.pos = (lexer_init [34, 97, 92, 13, 10, 98, 34]).st.pos
              + (pieces_raw [.plain 97, .cont_crlf, .plain 98]).length + 2
          ∧ lexer_get_literal_by_id cx1.st tok.uid = .ok l
          ∧ literal_chars sample_platform cx1.st l
              = .ok ([str_piece.plain 97, .cont_crlf, .plain 98].filterMap str_piece.value) :=
  ⟨by decide, by decide, by decide,
    C11_line_continuation_spliced sample_platform sample_platform_ok
      (lexer_init [34, 97, 92, 13, 10, 98, 34]) 34 [.plain 97, .cont_crlf, .plain 98] []
      (by decide) (by decide) (pool_wf_init _) (by decide) (by decide) (by decide) (by decide)⟩

/-- The three bodies of C11 evaluated: `a\<LF>b`, `a\<CR>b` and `a\<CR><LF>b`
are each interned as the two characters `ab`, and each literal is consumed
whole. -/
theorem line_continuation_examples :
    (do
        let r ← lexer_next_token sample_platform (lexer_init [34, 97, 92, 10, 98, 34])
        let l ← lexer_get_literal_by_id r.2.st r.1.uid
        let s ← literal_chars sample_platform r.2.st l
        pure (s, r.2.st.pos)) = .ok (cstr "ab", 6)
      ∧ (do
        let r ← lexer_next_token sample_platform (lexer_init [34, 97, 92, 13, 98, 34])
        let l ← lexer_get_literal_by_id r.2.st r.1.uid
        let s ← literal_chars sample_platform r.2.st l
        pure (s, r.2.st.pos)) = .ok (cstr "ab", 6)
      ∧ (do
        let r ← lexer_next_token sample_platform (lexer_init [34, 97, 92, 13, 10, 98, 34])
        let l ← lexer_get_literal_by_id r.2.st r.1.uid
        let s ← literal_chars sample_platform r.2.st l
        pure (s, r.2.st.pos)) = .ok (cstr "ab", 7) :=
  ⟨rfl, rfl, rfl⟩

/-! ## Unterminated string literals -/

theorem scan_normal_cons (q c : Nat) (rest : List Nat) :
    scan_string q .normal (c :: rest)
      = if c = 0 then .end_of_input
        else if c = 92 then scan_string q .escaped rest
        else if c = q then .closed
        else if ecma_char_is_line_terminator c = true then .raw_newline
        else scan_string q .normal rest := by
  simp [scan_string]

theorem scan_escaped_cons (q c : Nat) (rest : List Nat) :
    scan_string q .escaped (c :: rest)
      = if c = 0 then .end_of_input
        else if c = 13 then scan_string q .escaped_cr rest
        else scan_string q .normal rest := by
  simp [scan_string]

theorem scan_escaped_cr_cons (q c : Nat) (rest : List Nat) :
    scan_string q .escaped_cr (c :: rest)
      = if c = 10 then scan_string q .normal rest else scan_string q .normal (c :: rest) := by
  by_cases h : c = 10
  · simp [scan_string, h]
  · simp [scan_string, h]

theorem string_step_eof (q f : Nat) (st : lexer_state) (ts : Nat)
    (hc : get_char st 0 = 0) (hts : st.token_start = some ts) :
    parse_string_loop q (f + 1) st = .error (.unclosed_string ts) := by
  simp only [parse_string_loop, hc, if_true, current_locus, consume_char, hts]
  rfl

theorem string_step_newline (q f : Nat) (st : lexer_state) (ts c : Nat)
    (hc : get_char st 0 = c) (h0 : c ≠ 0) (hlt : ecma_char_is_line_terminator c = true)
    (hts : st.token_start = some ts) :
    parse_string_loop q (f + 1) st = .error (.newline_in_string ts) := by
  simp only [parse_string_loop, hc, h0, hlt, if_true, if_false, current_locus, consume_char, hts]
  rfl

theorem string_step_backslash_any (q f : Nat) (st : lexer_state) (rest : List Nat)
    (hsrc : st.src.drop st.pos = 92 :: rest) (hq : q = 34 ∨ q = 39) :
    parse_string_loop q (f + 1) st = parse_string_loop q f
      (if (convert_single_escape_character (rest.headD 0)).1 = true then advance st 2
       else if ecma_char_is_line_terminator (rest.headD 0) = true then
         (if rest.headD 0 = 13 ∧ rest.tail.headD 0 = 10 then advance st 3 else advance st 2)
       else advance st 1) := by
  cases rest with
  | nil =>
    have hq92 : (92 : Nat) ≠ q := by omega
    have h1 := drop_consume st 92 _ hsrc
    have hnc : get_char (consume_char st) 0 = 0 := get_char_zero_headD _ [] h1
    simp only [parse_string_loop, get_char_zero_cons st 92 _ hsrc, hnc, hq92,
      show ecma_char_is_line_terminator 92 = false from rfl, Bool.false_eq_true, if_false,
      if_true, ne_eq, not_false_eq_true, show (92 : Nat) ≠ 0 from by decide, List.headD_nil,
      show (convert_single_escape_character 0).1 = false from rfl,
      show ecma_char_is_line_terminator 0 = false from rfl]
    rfl
  | cons nc r =>
    rw [string_step_backslash q f st nc r hsrc hq]
    cases r <;> rfl
theorem not_single_escape_facts (n : Nat) (h : ¬ (convert_single_escape_character n).1 = true) :
    n ≠ 92 ∧ n ≠ 34 ∧ n ≠ 39 := by
  refine ⟨?_, ?_, ?_⟩ <;> intro e <;> subst e <;> exact h rfl

theorem line_terminator_cases (c : Nat) (h : ecma_char_is_line_terminator c = true) :
    c = 13 ∨ c = 10 := by
  simpa [ecma_char_is_line_terminator, ecma_char_is_carriage_return, ecma_char_is_new_line]
    using h

theorem parse_string_loop_unterminated (q : Nat) (hq : q = 34 ∨ q = 39) :
    ∀ (f : Nat) (body : List Nat) (st : lexer_state) (ts : Nat),
    st.src.drop st.pos = body → st.token_start = some ts → body.length < f →
    scan_string q .normal body ≠ .closed →
    parse_string_loop q f st = .error (string_end_error ts (scan_string q .normal body)) := by
  intro f
  induction f with
  | zero => intro body st ts _ _ hlen _; exact absurd hlen (Nat.not_lt_zero _)
  | succ f ih =>
    intro body st ts hsrc hts hlen hscan
    cases body with
    | nil =>
      rw [string_step_eof q f st ts (get_char_zero_headD st [] hsrc) hts]
      rfl
    | cons c rest =>
      have hlen1 : rest.length < f := by simp only [List.length_cons] at hlen; omega
      rw [scan_normal_cons] at hscan ⊢
      by_cases h0 : c = 0
      · rw [if_pos h0]
        rw [string_step_eof q f st ts (by rw [get_char_zero_cons st c rest hsrc, h0]) hts]
        rfl
      · rw [if_neg h0] at hscan ⊢
        by_cases h92 : c = 92
        · subst h92
          rw [if_pos rfl] at hscan ⊢
          rw [string_step_backslash_any q f st rest hsrc hq]
          cases rest with
          | nil =>
            have h := ih [] (advance st 1) ts (drop_advance st [92] [] hsrc) hts
              (by simp only [List.length_cons, List.length_nil] at hlen ⊢; omega) (by simp [scan_string])
            simp only [List.headD_nil, show (convert_single_escape_character 0).1 = false from rfl,
              show ecma_char_is_line_terminator 0 = false from rfl, Bool.false_eq_true, if_false]
            exact h
          | cons n rest1 =>
            have hlen2 : rest1.length < f := by simp only [List.length_cons] at hlen1; omega
            rw [scan_escaped_cons] at hscan ⊢
            simp only [List.headD_cons, List.tail_cons]
            by_cases hn0 : n = 0
            · subst hn0
              rw [if_pos rfl]
              simp only [show (convert_single_escape_character 0).1 = false from rfl,
                show ecma_char_is_line_terminator 0 = false from rfl, Bool.false_eq_true, if_false]
              have h := ih (0 :: rest1) (advance st 1) ts (drop_advance st [92] _ hsrc) hts hlen1
                (by rw [scan_normal_cons, if_pos rfl]; decide)
              rw [scan_normal_cons, if_pos rfl] at h
              exact h
            · rw [if_neg hn0] at hscan ⊢
              by_cases hn13 : n = 13
              · subst hn13
                rw [if_pos rfl] at hscan ⊢
                rw [if_neg (by decide), if_pos (by rfl)]
                cases rest1 with
                | nil =>
                  rw [if_neg (by decide)]
                  exact ih [] (advance st 2) ts (drop_advance st [92, 13] [] hsrc) hts
                    (by simp only [List.length_nil]; simp only [List.length_cons] at hlen1; omega)
                    (by simp [scan_string])
                | cons n2 rest2 =>
                  rw [scan_escaped_cr_cons] at hscan ⊢
                  simp only [List.headD_cons]
                  by_cases hn2 : n2 = 10
                  · subst hn2
                    rw [if_pos rfl] at hscan ⊢
                    rw [if_pos (by simp)]
                    exact ih rest2 (advance st 3) ts (drop_advance st [92, 13, 10] _ hsrc) hts
                      (by simp only [List.length_cons] at hlen2; omega) hscan
                  · rw [if_neg hn2] at hscan ⊢
                    rw [if_neg (by simp [hn2])]
                    exact ih (n2 :: rest2) (advance st 2) ts (drop_advance st [92, 13] _ hsrc) hts
                      hlen2 hscan
              · rw [if_neg hn13] at hscan ⊢
                by_cases hs : (convert_single_escape_character n).1 = true
                · rw [if_pos hs]
                  exact ih rest1 (advance st 2) ts (drop_advance st [92, n] _ hsrc) hts hlen2 hscan
                · rw [if_neg hs]
                  by_cases hl : ecma_char_is_line_terminator n = true
                  · rw [if_pos hl, if_neg (fun h => hn13 h.1)]
                    exact ih rest1 (advance st 2) ts (drop_advance st [92, n] _ hsrc) hts hlen2
                      hscan
                  · rw [if_neg hl]
                    obtain ⟨e1, e2, e3⟩ := not_single_escape_facts n hs
                    have hnq : n ≠ q := by omega
                    have hsc : scan_string q .normal (n :: rest1) = scan_string q .normal rest1 := by
                      rw [scan_normal_cons, if_neg hn0, if_neg e1, if_neg hnq, if_neg hl]
                    have h := ih (n :: rest1) (advance st 1) ts (drop_advance st [92] _ hsrc) hts
                      hlen1 (by rw [hsc]; exact hscan)
                    rw [hsc] at h
                    exact h
        · rw [if_neg h92] at hscan ⊢
          by_cases hcq : c = q
          · rw [if_pos hcq] at hscan
            exact absurd rfl hscan
          · rw [if_neg hcq] at hscan ⊢
            by_cases hl : ecma_char_is_line_terminator c = true
            · rw [if_pos hl]
              rw [string_step_newline q f st ts c (get_char_zero_cons st c rest hsrc) h0 hl hts]
              rfl
            · rw [if_neg hl] at hscan ⊢
              rw [string_step_plain q f st c rest hsrc h0 (by simpa using hl) h92 hcq]
              exact ih rest (advance st 1) ts (drop_advance st [c] _ hsrc) hts hlen1 hscan

/-! ## C10: unterminated string literals -/

/-- C10: when the cursor is at a quote character and the end of the buffer or
an unescaped line terminator comes before the matching unescaped closing quote,
`lexer_next_token` produces no token: it fails with the parse error "unclosed
string" or "string literal shall not contain newline character", positioned at
the character after the opening quote. -/
theorem C10_unterminated_string (P : platform) (cx : lexer_ctx) (q : Nat) (body : List Nat)
    (hsaved : is_empty cx.saved_token = true) (hts : cx.st.token_start = none)
    (hq : q = 34 ∨ q = 39) (hsrc : cx.st.src.drop cx.st.pos = q :: body)
    (hscan : scan_string_body q body ≠ .closed) :
    lexer_next_token P cx
      = .error (string_end_error (cx.st.pos + 1) (scan_string_body q body)) := by
  apply lexer_next_token_fresh_error P cx _ hsaved
  rw [next_token_quote P cx.st q body hts hsrc hq]
  have hc : get_char cx.st 0 = q := get_char_zero_cons cx.st q _ hsrc
  have h1 : (new_token (consume_char cx.st)).src.drop (new_token (consume_char cx.st)).pos
      = body := drop_consume cx.st q _ hsrc
  have hlen := drop_length_ge cx.st [q] body hsrc
  have hfuel : body.length
      < (new_token (consume_char cx.st)).src.length + 2 - (new_token (consume_char cx.st)).pos := by
    simp only [new_token, consume_char]
    rcases hlen with h | ⟨h, _⟩
    · simp only [List.length_cons, List.length_nil] at h
      omega
    · exact absurd h (List.cons_ne_nil _ _)
  have hloop := parse_string_loop_unterminated q hq _ body (new_token (consume_char cx.st))
    (cx.st.pos + 1) h1 rfl hfuel hscan
  have hend : (if q = 34 then 34 else 39) = q := by
    rcases hq with h | h <;> subst h <;> rfl
  have hq2 : q = 39 ∨ q = 34 := hq.symm
  unfold parse_string
  simp only [hc, hend, bind, Except.bind, hloop, hq2, not_true_eq_false, if_false]
  rfl

theorem C10_unterminated_string_witness :
    is_empty (lexer_init [34, 97, 98, 99]).saved_token = true
      ∧ scan_string_body 34 [97, 98, 99] = .end_of_input
      ∧ lexer_next_token sample_platform (lexer_init [34, 97, 98, 99])
          = .error (string_end_error ((lexer_init [34, 97, 98, 99]).st.pos + 1)
              (scan_string_body 34 [97, 98, 99])) :=
  ⟨by decide, by decide,
    C10_unterminated_string sample_platform (lexer_init [34, 97, 98, 99]) 34 [97, 98, 99]
      (by decide) (by decide) (by decide) (by decide) (by decide)⟩

/-- The cases of C10 evaluated: `"abc` is an unclosed string, a raw line feed
inside the quotes is a newline error, an escaped closing quote does not close
the literal, and the closed literal `"abc"` is a string token. -/
theorem unterminated_string_examples :
    lexer_next_token sample_platform (lexer_init [34, 97, 98, 99]) = .error (.unclosed_string 1)
      ∧ lexer_next_token sample_platform (lexer_init [34, 97, 10, 98, 34])
          = .error (.newline_in_string 1)
      ∧ lexer_next_token sample_platform (lexer_init [39, 97, 92, 39])
          = .error (.unclosed_string 1)
      ∧ (lexer_next_token sample_platform (lexer_init [34, 97, 98, 99, 34])).map (fun r => r.1)
          = .ok ⟨.TOK_STRING, 0, 0⟩ :=
  ⟨rfl, rfl, rfl, rfl⟩

/-- A literal made of well-formed elements and its closing quote is closed in
the sense of `scan_string_body`: the scan does not call every body
unterminated. -/
theorem scan_string_body_example :
    scan_string_body 34 (pieces_raw [.plain 97, .esc 34, .cont_crlf, .hex2 52 49] ++ [34, 59])
      = .closed := by decide

/-! ## Names: scanning and decoding an identifier -/

theorem ident_char_facts (c : Nat) (h : ident_char c = true) :
    c ≠ 0 ∧ c < 256 ∧ ecma_char_is_line_terminator c = false ∧ c ≠ 92 ∧ c ≠ 34 := by
  simp only [ident_char, isalpha, islower, isupper, isdigit, Bool.or_eq_true, Bool.and_eq_true,
    decide_eq_true_eq] at h
  refine ⟨by omega, by omega, ?_, by omega, by omega⟩
  simp only [ecma_char_is_line_terminator, ecma_char_is_carriage_return, ecma_char_is_new_line,
    Bool.or_eq_false_iff, decide_eq_false_iff_not]
  omega

theorem pieces_plain_word : ∀ (w : List Nat), (∀ c ∈ w, ident_char c = true) →
    pieces_raw (w.map .plain) = w ∧ pieces_decoded (w.map .plain) = w
      ∧ pieces_ok 34 (w.map .plain) = true := by
  intro w
  induction w with
  | nil => intro _; exact ⟨rfl, rfl, rfl⟩
  | cons c cs ih =>
    intro h
    obtain ⟨i1, i2, i3⟩ := ih (fun x hx => h x (List.mem_cons_of_mem _ hx))
    obtain ⟨e1, e2, e3, e4, e5⟩ := ident_char_facts c (h c (List.mem_cons_self _ _))
    refine ⟨?_, ?_, ?_⟩
    · simp only [List.map_cons, pieces_raw, str_piece.raw, i1, List.singleton_append]
    · simp only [List.map_cons, pieces_decoded, str_piece.decoded, str_piece.value,
        Nat.mod_eq_of_lt e2, i2, List.singleton_append]
    · simp only [List.map_cons, pieces_ok, str_piece.ok, i3, e1, e2, e3, e4, e5, ne_eq,
        not_false_eq_true, decide_True, Bool.not_false, Bool.and_self, Bool.true_and,
        Bool.and_true, Bool.or_eq_true, decide_eq_true_eq]
      left
      intro h; cases h

theorem transform_escape_seq_word (w : List Nat) (h : ∀ c ∈ w, ident_char c = true) :
    transform_escape_seq w = .ok (some (w, w.all islower, true)) := by
  obtain ⟨i1, i2, i3⟩ := pieces_plain_word w h
  have := transform_escape_seq_pieces 34 (w.map .plain) i3
  rw [i1, i2] at this
  rw [this]
  have hall : w.all ident_char = true := List.all_eq_true.mpr h
  rw [hall]

theorem transform_name_word (P : platform) (st : lexer_state) (w : List Nat) (locus : Nat)
    (hne : w ≠ []) (h : ∀ c ∈ w, ident_char c = true) :
    convert_string_to_token_transform_escape_seq P st .TOK_NAME w locus
      = if w.all islower = true then
          (decode_keyword P st w).bind (fun r =>
            if is_empty r.1 = true then convert_string_to_token P r.2 .TOK_NAME w
            else .ok (r.1, r.2))
        else convert_string_to_token P st .TOK_NAME w := by
  unfold convert_string_to_token_transform_escape_seq
  have hlen : w.length ≠ 0 := fun e => hne (List.length_eq_zero.mp e)
  rw [if_neg hlen, transform_escape_seq_word w h]
  simp only [bind, Except.bind, pure, Except.pure, if_true]
  by_cases hl : w.all islower = true
  · rw [if_pos hl, if_pos hl]
  · rw [if_neg hl, if_neg hl]
    simp [is_empty, empty_token]

theorem ends_name_facts (c : Nat) (h : ends_name c = true) :
    isalpha c = false ∧ isdigit c = false ∧ c ≠ 36 ∧ c ≠ 95 ∧ c ≠ 92 := by
  simp only [ends_name, ident_char, Bool.not_eq_true', Bool.or_eq_false_iff,
    decide_eq_false_iff_not] at h
  obtain ⟨⟨⟨⟨h1, h2⟩, h3⟩, h4⟩, h5⟩ := h
  exact ⟨h1, h2, h3, h4, h5⟩

theorem parse_name_loop_word : ∀ (w : List Nat) (st : lexer_state) (rest : List Nat) (f : Nat),
    st.src.drop st.pos = w ++ rest → (∀ c ∈ w, ident_char c = true) →
    ends_name (rest.headD 0) = true → w.length < f →
    parse_name_loop f st = .ok (advance st w.length) := by
  intro w
  induction w with
  | nil =>
    intro st rest f hsrc _ hend hf
    obtain ⟨f, rfl⟩ : ∃ g, f = g + 1 := ⟨f - 1, by simp at hf; omega⟩
    simp only [List.nil_append] at hsrc
    obtain ⟨e1, e2, e3, e4, e5⟩ := ends_name_facts _ hend
    simp only [parse_name_loop, get_char_zero_headD st rest hsrc, e1, e2, e3, e4, e5,
      Bool.false_eq_true, not_false_eq_true, ne_eq, and_self, if_true, List.length_nil,
      advance_zero]
    rfl
  | cons c cs ih =>
    intro st rest f hsrc hall hend hf
    obtain ⟨f, rfl⟩ : ∃ g, f = g + 1 := ⟨f - 1, by simp at hf; omega⟩
    have hc := hall c (List.mem_cons_self _ _)
    obtain ⟨_, _, _, e92, _⟩ := ident_char_facts c hc
    simp only [List.cons_append] at hsrc
    have hcond : ¬ (¬ isalpha c = true ∧ ¬ isdigit c = true ∧ c ≠ 36 ∧ c ≠ 95 ∧ c ≠ 92) := by
      intro ⟨a1, a2, a3, a4, _⟩
      simp only [ident_char, Bool.or_eq_true, decide_eq_true_eq] at hc
      tauto
    simp only [parse_name_loop, get_char_zero_cons st c _ hsrc]
    rw [if_neg hcond, if_neg e92]
    rw [ih (consume_char st) rest f (drop_consume st c _ hsrc)
      (fun x hx => hall x (List.mem_cons_of_mem _ hx)) hend (by simp at hf; omega)]
    rw [advance_consume]
    rfl

theorem next_token_name (P : platform) (st : lexer_state) (w rest : List Nat)
    (hts : st.token_start = none) (hsrc : st.src.drop st.pos = w ++ rest) (hne : w ≠ [])
    (hstart : isdigit (w.headD 0) = false) (hall : ∀ c ∈ w, ident_char c = true)
    (hend : ends_name (rest.headD 0) = true) :
    lexer_next_token_private P st
      = (convert_string_to_token_transform_escape_seq P (advance (new_token st) w.length)
          .TOK_NAME w st.pos).map (fun r => (r.1, { r.2 with token_start := none })) := by
  obtain ⟨c, cs, rfl⟩ := List.exists_cons_of_ne_nil hne
  have hc := hall c (List.mem_cons_self _ _)
  simp only [List.headD_cons] at hstart
  have hstart2 : isalpha c = true ∨ c = 36 ∨ c = 95 := by
    simp only [ident_char, Bool.or_eq_true, decide_eq_true_eq, hstart, Bool.false_eq_true,
      or_false] at hc
    tauto
  have hc0 : get_char st 0 = c := get_char_zero_cons st c _ hsrc
  have hlen := drop_length_ge st (c :: cs) rest hsrc
  have hfuel : (c :: cs).length < (new_token st).src.length + 1 - (new_token st).pos := by
    simp only [new_token]
    rcases hlen with h | ⟨h, _⟩
    · omega
    · exact absurd h (List.cons_ne_nil _ _)
  have hloop := parse_name_loop_word (c :: cs) (new_token st) rest _ hsrc hall hend hfuel
  have hslice : src_slice (advance (new_token st) (c :: cs).length) (new_token st).pos
      (advance (new_token st) (c :: cs).length).pos = c :: cs :=
    src_slice_prefix (advance (new_token st) (c :: cs).length) st.pos (c :: cs) rest hsrc
  unfold lexer_next_token_private
  rw [fuel_succ st c _ hsrc]
  simp only [lexer_next_token_private_aux, hc0, hts, ne_eq, not_true_eq_false, if_false, hstart2,
    if_true, parse_name, bind, Except.bind, pure, Except.pure, hloop, hslice]
  rfl

/-! ## C8: keywords and strict mode -/

set_option maxRecDepth 100000 in
theorem keywords_table_facts : ∀ e ∈ keywords,
    find_keyword (cstr e.1) keywords = e.2 ∧ (cstr e.1).all islower = true
      ∧ (cstr e.1).all ident_char = true ∧ e.2 ≠ .KW_NONE
      ∧ (is_strict_only_keyword e.2 = true ↔ e.1 ∈ ["interface", "implements", "let", "package",
          "private", "protected", "public", "static", "yield"]) := by
  decide

theorem decode_keyword_table (P : platform) (st : lexer_state) (k : String) (id : keyword)
    (hmem : (k, id) ∈ keywords) :
    decode_keyword P st (cstr k)
      = if st.strict_mode = false ∧ is_strict_only_keyword id = true then
          convert_string_to_token P st .TOK_NAME (cstr k)
        else .ok (create_token st .TOK_KEYWORD id.uid, st) := by
  obtain ⟨h1, _, _, h4, _⟩ := keywords_table_facts (k, id) hmem
  simp only at h1 h4
  unfold decode_keyword
  simp only [h1]
  by_cases hc : st.strict_mode = false ∧ is_strict_only_keyword id = true
  · rw [if_pos hc, if_pos (by simp [hc.1, hc.2])]
  · rw [if_neg hc, if_neg (by
      intro h
      apply hc
      refine ⟨by simpa using h.1, h.2⟩), if_pos h4]
    rfl

theorem ident_word_nul_free (w : List Nat) (h : ∀ c ∈ w, ident_char c = true) : 0 ∉ w :=
  fun h0 => (ident_char_facts 0 (h 0 h0)).1 rfl

/-- C8: for every entry of the keyword table, followed by a character that
ends a name: in strict mode, and in both modes for a word that is not one of
the nine strict-only words, `lexer_next_token` returns the keyword token of the
entry and leaves the literal pool as it was; outside strict mode each of the
nine words interface, implements, let, package, private, protected, public,
static and yield is returned as a name token whose literal is that word. -/
theorem C8_keywords_by_mode (P : platform) (hP : platform_ok P) (cx : lexer_ctx) (k : String)
    (id : keyword) (rest : List Nat) (hmem : (k, id) ∈ keywords)
    (hsaved : is_empty cx.saved_token = true) (hts : cx.st.token_start = none)
    (hw : pool_wf cx.st) (hsrc : cx.st.src.drop cx.st.pos = cstr k ++ rest)
    (hend : ends_name (rest.headD 0) = true) :
    (is_strict_only_keyword id = true ↔ k ∈ ["interface", "implements", "let", "package",
        "private", "protected", "public", "static", "yield"])
    ∧ (cx.st.strict_mode = true ∨ is_strict_only_keyword id = false →
        ∃ cx1, lexer_next_token P cx = .ok (⟨.TOK_KEYWORD, cx.st.pos, id.uid⟩, cx1)
          ∧ cx1.st.pos = cx.st.pos + (cstr k).length ∧ cx1.st.literals = cx.st.literals)
    ∧ (cx.st.strict_mode = false ∧ is_strict_only_keyword id = true →
        ∃ tok cx1 l, lexer_next_token P cx = .ok (tok, cx1)
          ∧ tok.type = .TOK_NAME ∧ tok.loc = cx.st.pos
          ∧ cx1.st.pos = cx.st.pos + (cstr k).length
          ∧ lexer_get_literal_by_id cx1.st tok.uid = .ok l
          ∧ literal_chars P cx1.st l = .ok (cstr k)) := by
  obtain ⟨_, h2, h3, _, h5⟩ := keywords_table_facts (k, id) hmem
  simp only at h2 h3 h5
  have hall : ∀ c ∈ cstr k, ident_char c = true := List.all_eq_true.mp h3
  have hne : cstr k ≠ [] := by
    intro h
    have := (keywords_table_facts (k, id) hmem).1
    simp only [h] at this
    have h4 := (keywords_table_facts (k, id) hmem).2.2.2.1
    exact h4 (by rw [← this]; rfl)
  have hstart : isdigit ((cstr k).headD 0) = false := by
    obtain ⟨c, cs, hc⟩ := List.exists_cons_of_ne_nil hne
    rw [hc] at h2 ⊢
    simp only [List.all_cons, Bool.and_eq_true] at h2
    have := h2.1
    simp only [List.headD_cons]
    simp only [islower, isdigit, Bool.and_eq_true, decide_eq_true_eq] at this ⊢
    simp only [Bool.and_eq_false_iff, decide_eq_false_iff_not]
    omega
  have hp := next_token_name P cx.st (cstr k) rest hts hsrc hne hstart hall hend
  rw [transform_name_word P _ (cstr k) _ hne hall, if_pos h2,
    decode_keyword_table P _ k id hmem] at hp
  refine ⟨h5, ?_, ?_⟩
  · intro hmode
    rw [if_neg (by
      intro h
      rcases hmode with hm | hm
      · have : cx.st.strict_mode = false := h.1
        rw [hm] at this; cases this
      · rw [hm] at h; cases h.2)] at hp
    refine ⟨_, lexer_next_token_fresh P cx _ hsaved hp, ?_, ?_⟩
    · show cx.st.pos + (cstr k).length = _
      rfl
    · rfl
  · intro hmode
    rw [if_pos (show (advance (new_token cx.st) (cstr k).length).strict_mode = false
      ∧ is_strict_only_keyword id = true from hmode)] at hp
    have hw1 : pool_wf (advance (new_token cx.st) (cstr k).length) := hw
    obtain ⟨t, st1, l, h, ht, _, e2, _, _, _, hl, hc⟩ :=
      intern_string_chars P hP _ hw1 .TOK_NAME (cstr k) (ident_word_nul_free _ hall)
    have hty : t.type = .TOK_NAME := by rw [ht]; rfl
    rw [h] at hp
    simp only [Except.bind, is_empty, hty, decide_False, Bool.false_eq_true, if_false,
      Except.map] at hp
    refine ⟨t, _, l, lexer_next_token_fresh P cx _ hsaved hp, hty, ?_, ?_, hl, hc⟩
    · rw [ht]
      simp [create_token, current_locus, advance, new_token]
    · show st1.pos = _
      rw [e2]
      rfl

theorem C8_keywords_by_mode_witness :
    ("let", keyword.KW_LET) ∈ keywords
      ∧ is_empty (lexer_init (cstr "let")).saved_token = true
      ∧ (is_strict_only_keyword .KW_LET = true ↔ "let" ∈ ["interface", "implements", "let",
          "package", "private", "protected", "public", "static", "yield"])
      ∧ ((lexer_init (cstr "let")).st.strict_mode = true ∨ is_strict_only_keyword .KW_LET = false →
          ∃ cx1, lexer_next_token sample_platform (lexer_init (cstr "let"))
              = .ok (⟨.TOK_KEYWORD, (lexer_init (cstr "let")).st.pos, keyword.KW_LET.uid⟩, cx1)
            ∧ cx1.st.pos = (lexer_init (cstr "let")).st.pos + (cstr "let").length
            ∧ cx1.st.literals = (lexer_init (cstr "let")).st.literals)
      ∧ ((lexer_init (cstr "let")).st.strict_mode = false ∧ is_strict_only_keyword .KW_LET = true →
          ∃ tok cx1 l, lexer_next_token sample_platform (lexer_init (cstr "let")) = .ok (tok, cx1)
            ∧ tok.type = .TOK_NAME ∧ tok.loc = (lexer_init (cstr "let")).st.pos
            ∧ cx1.st.pos = (lexer_init (cstr "let")).st.pos + (cstr "let").length
            ∧ lexer_get_literal_by_id cx1.st tok.uid = .ok l
            ∧ literal_chars sample_platform cx1.st l = .ok (cstr "let")) :=
  ⟨by decide, by decide,
    C8_keywords_by_mode sample_platform sample_platform_ok (lexer_init (cstr "let")) "let" .KW_LET []
      (by decide) (by decide) (by decide) (pool_wf_init _) (by decide) (by decide)⟩

/-- The two modes of C8 evaluated on `let` and on `var`: a name token outside
strict mode and the keyword token in strict mode for `let`, the keyword token
in both modes for `var`. -/
theorem keyword_mode_examples :
    (lexer_next_token sample_platform (lexer_init (cstr "let"))).map (fun r => r.1)
        = .ok ⟨.TOK_NAME, 0, 0⟩
      ∧ (lexer_next_token sample_platform
          { lexer_init (cstr "let") with st := lexer_set_strict_mode (lexer_init_source (cstr "let")) true }).map
          (fun r => r.1) = .ok ⟨.TOK_KEYWORD, 0, keyword.KW_LET.uid⟩
      ∧ (lexer_next_token sample_platform (lexer_init (cstr "var"))).map (fun r => r.1)
        = .ok ⟨.TOK_KEYWORD, 0, keyword.KW_VAR.uid⟩
      ∧ (lexer_next_token sample_platform
          { lexer_init (cstr "var") with st := lexer_set_strict_mode (lexer_init_source (cstr "var")) true }).map
          (fun r => r.1) = .ok ⟨.TOK_KEYWORD, 0, keyword.KW_VAR.uid⟩ :=
  ⟨rfl, rfl, rfl, rfl⟩

/-! ## Token by token: the lexer between two tokens -/

theorem lex_at_drop {src : List Nat} {strict : Bool} {cx : lexer_ctx} {k : Nat}
    {vs : List lit_value} (h : lex_at src strict cx k vs) :
    cx.st.src.drop cx.st.pos = src.drop k := by
  rw [h.1, h.2.1]

theorem lex_at_init (src : List Nat) : lex_at src false (lexer_init src) 0 [] :=
  ⟨rfl, rfl, rfl, rfl, rfl, pool_wf_init src, List.Forall₂.nil, Nat.zero_le _⟩

theorem drop_bound (src : List Nat) (k : Nat) (w rest : List Nat)
    (hd : src.drop k = w ++ rest) (hk : k ≤ src.length) : k + w.length ≤ src.length := by
  have : (src.drop k).length = (w ++ rest).length := by rw [hd]
  simp only [List.length_drop, List.length_append] at this
  omega

theorem at_semicolon (P : platform) (src : List Nat) (strict : Bool) (cx : lexer_ctx) (k : Nat)
    (vs : List lit_value) (rest : List Nat) (h : lex_at src strict cx k vs)
    (hd : src.drop k = 59 :: rest) :
    ∃ cx1, lexer_next_token P cx = .ok (⟨.TOK_SEMICOLON, k, 0⟩, cx1)
      ∧ lex_at src strict cx1 (k + 1) vs := by
  obtain ⟨h1, h2, h3, h4, h5, h6, h7, h8⟩ := h
  have hsrc : cx.st.src.drop cx.st.pos = [59] ++ rest := by rw [h1, h2, hd]; rfl
  refine ⟨_, (lex_TOK_SEMICOLON P cx rest h5 h3 hsrc).trans (by rw [h2]), ?_⟩
  exact ⟨h1, by simp only [h2], h3, h4, h5, h6, h7, drop_bound src k [59] rest hd h8⟩

theorem at_eq (P : platform) (src : List Nat) (strict : Bool) (cx : lexer_ctx) (k : Nat)
    (vs : List lit_value) (rest : List Nat) (h : lex_at src strict cx k vs)
    (hd : src.drop k = 61 :: rest) (e61 : rest.headD 0 ≠ 61) :
    ∃ cx1, lexer_next_token P cx = .ok (⟨.TOK_EQ, k, 0⟩, cx1)
      ∧ lex_at src strict cx1 (k + 1) vs := by
  obtain ⟨h1, h2, h3, h4, h5, h6, h7, h8⟩ := h
  have hsrc : cx.st.src.drop cx.st.pos = [61] ++ rest := by rw [h1, h2, hd]; rfl
  refine ⟨_, (lex_TOK_EQ P cx rest h5 h3 hsrc e61).trans (by rw [h2]), ?_⟩
  exact ⟨h1, by simp only [h2], h3, h4, h5, h6, h7, drop_bound src k [61] rest hd h8⟩

theorem at_eof (P : platform) (src : List Nat) (strict : Bool) (cx : lexer_ctx) (k : Nat)
    (vs : List lit_value) (h : lex_at src strict cx k vs) (hd : (src.drop k).headD 0 = 0) :
    ∃ cx1, lexer_next_token P cx = .ok (⟨.TOK_EOF, k, 0⟩, cx1)
      ∧ lex_at src strict cx1 k vs := by
  obtain ⟨h1, h2, h3, h4, h5, h6, h7, h8⟩ := h
  have hc : get_char cx.st 0 = 0 := by
    rw [get_char_zero_headD cx.st _ rfl, h1, h2, hd]
  have hp : lexer_next_token_private P cx.st = .ok (⟨.TOK_EOF, k, 0⟩, cx.st) := by
    unfold lexer_next_token_private
    have : cx.st.src.length + 1 - cx.st.pos = (cx.st.src.length - cx.st.pos) + 1 := by
      rw [h1, h2]; omega
    rw [this]
    simp [lexer_next_token_private_aux, hc, h3, isalpha, islower, isupper, isdigit, pure,
      Except.pure, create_token, current_locus, h2]
  exact ⟨_, lexer_next_token_fresh P cx _ h5 hp, h1, h2, h3, h4, h5, h6, h7, h8⟩

theorem at_small_int (P : platform) (src : List Nat) (strict : Bool) (cx : lexer_ctx) (k : Nat)
    (vs : List lit_value) (ds rest : List Nat) (h : lex_at src strict cx k vs)
    (hd : src.drop k = ds ++ rest) (hne : ds ≠ []) (hall : ∀ c ∈ ds, isdigit c = true)
    (hend : ends_integer (rest.headD 0) = true) (hlead : ds.headD 0 ≠ 48 ∨ ds.length = 1)
    (hv : digits_value 10 ds ≤ 255) :
    ∃ cx1, lexer_next_token P cx = .ok (⟨.TOK_SMALL_INT, k, digits_value 10 ds⟩, cx1)
      ∧ lex_at src strict cx1 (k + ds.length) vs := by
  obtain ⟨h1, h2, h3, h4, h5, h6, h7, h8⟩ := h
  have hsrc : cx.st.src.drop cx.st.pos = ds ++ rest := by rw [h1, h2, hd]
  obtain ⟨d, ds1, rfl⟩ := List.exists_cons_of_ne_nil hne
  have hdg := hall d (List.mem_cons_self _ _)
  have hx : get_char cx.st 1 ≠ 120 ∧ get_char cx.st 1 ≠ 88 := by
    cases ds1 with
    | nil =>
      obtain ⟨_, _, _, _, _, _, _, e8, e9⟩ := ends_integer_facts _ hend
      have : get_char cx.st 1 = rest.headD 0 := by
        rw [get_char_eq, hsrc]; cases rest <;> rfl
      rw [this]; exact ⟨e8, e9⟩
    | cons d2 ds2 =>
      have hd2 := hall d2 (List.mem_cons_of_mem _ (List.mem_cons_self _ _))
      have : get_char cx.st 1 = d2 := get_char_one_cons cx.st d d2 _ hsrc
      rw [this]
      simp only [isdigit, Bool.and_eq_true, decide_eq_true_eq] at hd2
      constructor <;> omega
  have hp : lexer_next_token_private P cx.st = _ :=
    (next_token_number P cx.st d _ h3 hsrc hdg).trans
      (parse_number_integer P cx.st (d :: ds1) rest hsrc hne hall hend hx.1 hx.2)
  rw [if_neg (by
    intro hh
    rcases hlead with e | e
    · exact e hh.1
    · exact hh.2 e)] at hp
  rw [accumulate_digits 10 (by decide) (by decide) (d :: ds1)
    (fun c hc => (isdigit_facts c (hall c hc)).2.2.2.2.2.2)
    (Nat.lt_of_le_of_lt hv (by decide))] at hp
  have hp2 : lexer_next_token_private P cx.st
      = .ok (finish_integer (advance (new_token cx.st) (d :: ds1).length)
          (acc_of (digits_value 10 (d :: ds1)))) := hp
  rw [finish_integer_small _ _ hv] at hp2
  rw [current_locus_new_token, h2] at hp2
  exact ⟨_, lexer_next_token_fresh P cx _ h5 hp2, h1, by show cx.st.pos + _ = _; rw [h2], rfl,
    h4, h5, h6, h7, drop_bound src k (d :: ds1) rest hd h8⟩

theorem decode_keyword_plain (P : platform) (st : lexer_state) (w : List Nat)
    (h1 : find_keyword w keywords = .KW_NONE) (h2 : not_literal_word w = true) :
    decode_keyword P st w = .ok (empty_token, st) := by
  simp only [not_literal_word, Bool.and_eq_true, Bool.not_eq_true', Bool.and_eq_false_iff,
    decide_eq_false_iff_not] at h2
  obtain ⟨⟨a1, a2⟩, a3⟩ := h2
  unfold decode_keyword
  simp only [h1, is_strict_only_keyword, Bool.false_eq_true, and_false, if_false, ne_eq,
    not_true_eq_false]
  rw [if_neg (by rcases a1 with h | h <;> simp [h]),
    if_neg (by rcases a2 with h | h <;> simp [h]),
    if_neg (by rcases a3 with h | h <;> simp [h])]
  rfl

theorem at_keyword (P : platform) (src : List Nat) (strict : Bool) (cx : lexer_ctx) (k : Nat)
    (vs : List lit_value) (kw : String) (id : keyword) (rest : List Nat)
    (h : lex_at src strict cx k vs) (hmem : (kw, id) ∈ keywords)
    (hd : src.drop k = cstr kw ++ rest) (hend : ends_name (rest.headD 0) = true)
    (hmode : strict = true ∨ is_strict_only_keyword id = false) :
    ∃ cx1, lexer_next_token P cx = .ok (⟨.TOK_KEYWORD, k, id.uid⟩, cx1)
      ∧ lex_at src strict cx1 (k + (cstr kw).length) vs := by
  obtain ⟨h1, h2, h3, h4, h5, h6, h7, h8⟩ := h
  have hsrc : cx.st.src.drop cx.st.pos = cstr kw ++ rest := by rw [h1, h2, hd]
  obtain ⟨t1, t2, t3, t4, _⟩ := keywords_table_facts (kw, id) hmem
  simp only at t1 t2 t3 t4
  have hall : ∀ c ∈ cstr kw, ident_char c = true := List.all_eq_true.mp t3
  have hne : cstr kw ≠ [] := by
    intro e
    rw [e] at t1
    exact t4 (by rw [← t1]; rfl)
  have hstart : isdigit ((cstr kw).headD 0) = false := by
    obtain ⟨c, cs, hc⟩ := List.exists_cons_of_ne_nil hne
    rw [hc] at t2 ⊢
    simp only [List.all_cons, Bool.and_eq_true] at t2
    have := t2.1
    simp only [List.headD_cons]
    simp only [islower, isdigit, Bool.and_eq_true, decide_eq_true_eq] at this ⊢
    simp only [Bool.and_eq_false_iff, decide_eq_false_iff_not]
    omega
  have hp := next_token_name P cx.st (cstr kw) rest h3 hsrc hne hstart hall hend
  rw [transform_name_word P _ (cstr kw) _ hne hall, if_pos t2,
    decode_keyword_table P _ kw id hmem] at hp
  rw [if_neg (by
    intro hh
    rcases hmode with hm | hm
    · have e : cx.st.strict_mode = false := hh.1
      rw [h4, hm] at e; cases e
    · rw [hm] at hh; cases hh.2)] at hp
  have hp2 : lexer_next_token_private P cx.st
      = .ok (⟨.TOK_KEYWORD, k, id.uid⟩,
          { advance (new_token cx.st) (cstr kw).length with token_start := none }) := by
    rw [hp]
    show Except.ok (_, _) = Except.ok (_, _)
    simp only [create_token, current_locus_new_token, h2]
    rfl
  exact ⟨_, lexer_next_token_fresh P cx _ h5 hp2, h1, by show cx.st.pos + _ = _; rw [h2], rfl,
    h4, h5, h6, h7, drop_bound src k (cstr kw) rest hd h8⟩

theorem at_name (P : platform) (hP : platform_ok P) (src : List Nat) (strict : Bool)
    (cx : lexer_ctx) (k : Nat) (vs : List lit_value) (w rest : List Nat)
    (h : lex_at src strict cx k vs) (hd : src.drop k = w ++ rest) (hne : w ≠ [])
    (hstart : isdigit (w.headD 0) = false) (hall : ∀ c ∈ w, ident_char c = true)
    (hend : ends_name (rest.headD 0) = true)
    (hkw : find_keyword w keywords = .KW_NONE) (hlit : not_literal_word w = true) :
    ∃ uid cx1 vs1, lexer_next_token P cx = .ok (⟨.TOK_NAME, k, uid⟩, cx1)
      ∧ lex_at src strict cx1 (k + w.length) vs1
      ∧ ((first_index (value_matches P w) vs 0 = some uid ∧ vs1 = vs)
        ∨ (first_index (value_matches P w) vs 0 = none ∧ uid = vs.length
            ∧ vs1 = vs ++ [new_string_value P w])) := by
  obtain ⟨h1, h2, h3, h4, h5, h6, h7, h8⟩ := h
  have hsrc : cx.st.src.drop cx.st.pos = w ++ rest := by rw [h1, h2, hd]
  have hp := next_token_name P cx.st w rest h3 hsrc hne hstart hall hend
  have hconv : convert_string_to_token_transform_escape_seq P
      (advance (new_token cx.st) w.length) .TOK_NAME w cx.st.pos
      = convert_string_to_token P (advance (new_token cx.st) w.length) .TOK_NAME w := by
    rw [transform_name_word P _ w _ hne hall]
    by_cases hl : w.all islower = true
    · rw [if_pos hl, decode_keyword_plain P _ w hkw hlit]
      rfl
    · rw [if_neg hl]
  rw [hconv] at hp
  have hw1 : pool_wf (advance (new_token cx.st) w.length) := h6
  have hv1 : pool_has_values (advance (new_token cx.st) w.length) vs := h7
  obtain ⟨t, st1, hc, e1, e2, _, e4, hw2, ht, hf, hn⟩ :=
    convert_string_spec P hP _ hw1 vs hv1 .TOK_NAME w
  rw [hc] at hp
  have htok : t = ⟨.TOK_NAME, k, t.uid⟩ := by
    rw [ht]
    simp only [create_token, current_locus_new_token, h2]
    rfl
  have hp2 : lexer_next_token_private P cx.st
      = .ok (⟨.TOK_NAME, k, t.uid⟩, { st1 with token_start := none }) := by
    rw [hp, htok]
    rfl
  have hpos : st1.pos = k + w.length := by rw [e2, ← h2]; rfl
  have hsrc1 : st1.src = src := by rw [e1, ← h1]; rfl
  have hstr : st1.strict_mode = strict := by rw [e4, ← h4]; rfl
  cases hfi : first_index (value_matches P w) vs 0 with
  | some i =>
    obtain ⟨u1, u2⟩ := hf i hfi
    refine ⟨t.uid, _, vs, lexer_next_token_fresh P cx _ h5 hp2, ?_, Or.inl ⟨by rw [u1], rfl⟩⟩
    refine ⟨hsrc1, hpos, rfl, hstr, h5, hw2, ?_, drop_bound src k w rest hd h8⟩
    show pool_has_values st1 vs
    rw [u2]; exact hv1
  | none =>
    obtain ⟨u1, u2⟩ := hn hfi
    refine ⟨t.uid, _, _, lexer_next_token_fresh P cx _ h5 hp2, ?_, Or.inr ⟨rfl, u1, rfl⟩⟩
    exact ⟨hsrc1, hpos, rfl, hstr, h5, hw2, u2, drop_bound src k w rest hd h8⟩

/-! ## The token loop does not depend on its fuel -/

theorem get_char_ne_zero (st : lexer_state) (i : Nat) (h : get_char st i ≠ 0) :
    st.pos + i < st.src.length := by
  unfold get_char at h
  by_cases hc : st.pos + i ≥ st.src.length
  · rw [if_pos hc] at h; exact absurd rfl h
  · omega

theorem grobble_loop_bounds : ∀ (f : Nat) (st : lexer_state), st.pos ≤ st.src.length →
    (grobble_whitespaces_loop f st).src = st.src
      ∧ st.pos ≤ (grobble_whitespaces_loop f st).pos
      ∧ (grobble_whitespaces_loop f st).pos ≤ st.src.length
      ∧ (grobble_whitespaces_loop f st).token_start = st.token_start := by
  intro f
  induction f with
  | zero => intro st h; exact ⟨rfl, Nat.le_refl _, h, rfl⟩
  | succ f ih =>
    intro st h
    simp only [grobble_whitespaces_loop]
    by_cases hc : isspace (get_char st 0) = true ∧ get_char st 0 ≠ 10
    · rw [if_pos hc]
      have h0 : get_char st 0 ≠ 0 := by
        intro e
        rw [e] at hc
        exact absurd hc.1 (by decide)
      have hlt := get_char_ne_zero st 0 h0
      obtain ⟨a, b, c, d⟩ := ih (consume_char st) (by simp only [consume_char]; omega)
      refine ⟨a, ?_, c, d⟩
      have : (consume_char st).pos = st.pos + 1 := rfl
      omega
    · rw [if_neg hc]
      exact ⟨rfl, Nat.le_refl _, h, rfl⟩

theorem grobble_advances (st : lexer_state) (_h : st.pos ≤ st.src.length)
    (hs : isspace (get_char st 0) = true) (h10 : get_char st 0 ≠ 10) :
    (grobble_whitespaces st).src = st.src ∧ st.pos < (grobble_whitespaces st).pos
      ∧ (grobble_whitespaces st).pos ≤ st.src.length
      ∧ (grobble_whitespaces st).token_start = st.token_start := by
  have h0 : get_char st 0 ≠ 0 := by
    intro e
    rw [e] at hs
    exact absurd hs (by decide)
  have hlt := get_char_ne_zero st 0 h0
  unfold grobble_whitespaces
  have : st.src.length + 1 - st.pos = (st.src.length - st.pos) + 1 := by omega
  rw [this]
  simp only [grobble_whitespaces_loop]
  rw [if_pos ⟨hs, h10⟩]
  obtain ⟨a, b, c, d⟩ := grobble_loop_bounds (st.src.length - st.pos) (consume_char st)
    (by simp only [consume_char]; omega)
  refine ⟨a, ?_, c, d⟩
  have : (consume_char st).pos = st.pos + 1 := rfl
  omega

theorem comment_loop_bounds (m : Bool) : ∀ (f : Nat) (st : lexer_state) (nl : Bool)
    (r : Bool × lexer_state), st.pos ≤ st.src.length → comment_loop m f st nl = .ok r →
    r.2.src = st.src ∧ st.pos ≤ r.2.pos ∧ r.2.pos ≤ st.src.length
      ∧ r.2.token_start = st.token_start := by
  intro f
  induction f with
  | zero => intro st nl r _ h; simp [comment_loop, throw, throwThe, MonadExceptOf.throw] at h
  | succ f ih =>
    intro st nl r hle h
    simp only [comment_loop] at h
    by_cases c1 : ¬ m = true ∧ (get_char st 0 = 10 ∨ get_char st 0 = 0)
    · rw [if_pos c1] at h
      cases h
      exact ⟨rfl, Nat.le_refl _, hle, rfl⟩
    · rw [if_neg c1] at h
      by_cases c2 : m = true ∧ get_char st 0 = 42 ∧ get_char st 1 = 47
      · rw [if_pos c2] at h
        cases h
        have := get_char_ne_zero st 1 (by rw [c2.2.2]; decide)
        refine ⟨rfl, ?_, ?_, rfl⟩
        · show st.pos ≤ st.pos + 1 + 1; omega
        · show st.pos + 1 + 1 ≤ _; omega
      · rw [if_neg c2] at h
        by_cases c3 : m = true ∧ get_char st 0 = 0
        · rw [if_pos c3] at h
          simp [throw, throwThe, MonadExceptOf.throw] at h
        · rw [if_neg c3] at h
          have h0 : get_char st 0 ≠ 0 := by
            intro e
            cases hm : m with
            | true => exact c3 ⟨hm, e⟩
            | false => exact c1 ⟨by simp [hm], Or.inr e⟩
          have hlt := get_char_ne_zero st 0 h0
          obtain ⟨a, b, c, d⟩ := ih (consume_char st) _ r (by simp only [consume_char]; omega) h
          refine ⟨a, ?_, c, d⟩
          have : (consume_char st).pos = st.pos + 1 := rfl
          omega

theorem replace_comment_bounds (st : lexer_state) (r : Bool × lexer_state)
    (_hle : st.pos ≤ st.src.length) (h : replace_comment_by_newline st = .ok r) :
    r.2.src = st.src ∧ st.pos < r.2.pos ∧ r.2.pos ≤ st.src.length
      ∧ r.2.token_start = st.token_start := by
  unfold replace_comment_by_newline at h
  by_cases c1 : get_char st 0 ≠ 47
  · simp [c1, bind, Except.bind, throw, throwThe, MonadExceptOf.throw] at h
  · by_cases c2 : ¬ (get_char st 1 = 47 ∨ get_char st 1 = 42)
    · simp [c1, c2, bind, Except.bind, throw, throwThe, MonadExceptOf.throw, pure,
        Except.pure] at h
    · have h1 : get_char st 1 ≠ 0 := by
        intro e
        rw [e] at c2
        simp at c2
      have hlt := get_char_ne_zero st 1 h1
      simp only [c1, c2, not_false_eq_true, if_false, bind, Except.bind, pure, Except.pure,
        not_true_eq_false] at h
      obtain ⟨a, b, c, d⟩ := comment_loop_bounds _ _ (consume_char (consume_char st)) false r
        (by simp only [consume_char]; omega) h
      refine ⟨a, ?_, c, d⟩
      have : (consume_char (consume_char st)).pos = st.pos + 1 + 1 := rfl
      omega

theorem aux_congr (P : platform) (g m : Nat) (st : lexer_state) (hle : st.pos ≤ st.src.length)
    (key : ∀ st1 : lexer_state, st1.src = st.src → st.pos < st1.pos →
        st1.pos ≤ st.src.length →
        lexer_next_token_private_aux P g st1 = lexer_next_token_private_aux P m st1) :
    lexer_next_token_private_aux P (g + 1) st = lexer_next_token_private_aux P (m + 1) st := by
  rw [lexer_next_token_private_aux, lexer_next_token_private_aux]
  by_cases c0 : st.token_start ≠ none
  · rw [if_pos c0, if_pos c0]
  rw [if_neg c0, if_neg c0]
  by_cases c1 : isalpha (get_char st 0) = true ∨ get_char st 0 = 36 ∨ get_char st 0 = 95
  · rw [if_pos c1, if_pos c1]
  rw [if_neg c1, if_neg c1]
  by_cases c2 : isdigit (get_char st 0) = true
      ∨ get_char st 0 = 46 ∧ isdigit (get_char st 1) = true
  · rw [if_pos c2, if_pos c2]
  rw [if_neg c2, if_neg c2]
  by_cases c3 : get_char st 0 = 10
  · rw [if_pos c3, if_pos c3]
  rw [if_neg c3, if_neg c3]
  by_cases c4 : get_char st 0 = 0
  · rw [if_pos c4, if_pos c4]
  rw [if_neg c4, if_neg c4]
  by_cases c5 : get_char st 0 = 39 ∨ get_char st 0 = 34
  · rw [if_pos c5, if_pos c5]
  rw [if_neg c5, if_neg c5]
  by_cases c6 : isspace (get_char st 0) = true
  · rw [if_pos c6, if_pos c6]
    obtain ⟨a, b, c, _⟩ := grobble_advances st hle c6 c3
    exact key _ a b c
  rw [if_neg c6, if_neg c6]
  by_cases c7 : get_char st 0 = 47 ∧ get_char st 1 = 42
  · rw [if_pos c7, if_pos c7]
    cases hr : replace_comment_by_newline st with
    | error e => rfl
    | ok r =>
      obtain ⟨a, b, c, _⟩ := replace_comment_bounds st r hle hr
      obtain ⟨nl, st1⟩ := r
      show (if nl = true then pure (⟨.TOK_NEWLINE, 0, 0⟩, st1)
          else lexer_next_token_private_aux P g st1)
        = (if nl = true then pure (⟨.TOK_NEWLINE, 0, 0⟩, st1)
          else lexer_next_token_private_aux P m st1)
      rw [key st1 a b c]
  rw [if_neg c7, if_neg c7]
  by_cases c8 : get_char st 0 = 47 ∧ get_char st 1 = 47
  · rw [if_pos c8, if_pos c8]
    cases hr : replace_comment_by_newline st with
    | error e => rfl
    | ok r =>
      obtain ⟨a, b, c, _⟩ := replace_comment_bounds st r hle hr
      obtain ⟨nl, st1⟩ := r
      exact key st1 a b c
  rw [if_neg c8, if_neg c8]

theorem aux_fuel_independent (P : platform) : ∀ (f : Nat) (st : lexer_state),
    st.pos ≤ st.src.length → st.src.length + 1 - st.pos ≤ f →
    lexer_next_token_private_aux P f st = lexer_next_token_private P st := by
  intro f
  induction f using Nat.strong_induction_on with
  | _ f ih =>
    intro st hle hf
    unfold lexer_next_token_private
    obtain ⟨g, hg⟩ : ∃ g, f = g + 1 := ⟨f - 1, by omega⟩
    obtain ⟨m, hm⟩ : ∃ m, st.src.length + 1 - st.pos = m + 1 :=
      ⟨st.src.length - st.pos, by omega⟩
    rw [hm]
    subst hg
    apply aux_congr P g m st hle
    intro st1 e1 e2 e3
    have hm1 : st1.src.length + 1 - st1.pos ≤ m := by rw [e1]; omega
    rw [ih g (Nat.lt_succ_self g) st1 (by rw [e1]; exact e3) (by omega)]
    by_cases hmg2 : m = g
    · subst hmg2
      rw [ih m (Nat.lt_succ_self m) st1 (by rw [e1]; exact e3) hm1]
    · rw [ih m (by omega) st1 (by rw [e1]; exact e3) hm1]

/-! ## Comments: the scanning loop -/

theorem comment_loop_multi : ∀ (body : List Nat) (st : lexer_state) (nl : Bool) (f : Nat)
    (rest : List Nat), st.src.drop st.pos = body ++ 42 :: 47 :: rest → 0 ∉ body →
    has_close body = false → body.length < f →
    comment_loop true f st nl = .ok (nl || decide (10 ∈ body), advance st (body.length + 2)) := by
  intro body
  induction body with
  | nil =>
    intro st nl f rest hsrc _ _ hf
    obtain ⟨f, rfl⟩ : ∃ g, f = g + 1 := ⟨f - 1, by simp at hf; omega⟩
    have h0 : get_char st 0 = 42 := get_char_zero_cons st 42 _ hsrc
    have h1 : get_char st 1 = 47 := get_char_one_cons st 42 47 _ hsrc
    simp [comment_loop, h0, h1, pure, Except.pure]
    rfl
  | cons c cs ih =>
    intro st nl f rest hsrc h0 hc hf
    obtain ⟨f, rfl⟩ : ∃ g, f = g + 1 := ⟨f - 1, by simp at hf; omega⟩
    have hc0 : get_char st 0 = c := get_char_zero_cons st c _ hsrc
    have hcne : c ≠ 0 := fun e => h0 (by rw [e]; exact List.mem_cons_self _ _)
    simp only [has_close, Bool.or_eq_false_iff, Bool.and_eq_false_iff,
      decide_eq_false_iff_not] at hc
    have hnc : ¬ (c = 42 ∧ get_char st 1 = 47) := by
      intro ⟨e1, e2⟩
      cases cs with
      | nil =>
        have : get_char st 1 = 42 := get_char_one_cons st c 42 _ hsrc
        omega
      | cons d ds =>
        have : get_char st 1 = d := get_char_one_cons st c d _ hsrc
        rcases hc.1 with h | h
        · exact h e1
        · apply h
          simp only [List.headD_cons]
          omega
    have hrec := ih (consume_char st) (if c = 10 then true else nl) f rest
      (drop_consume st c _ hsrc) (fun h => h0 (List.mem_cons_of_mem _ h)) hc.2
      (by simp at hf; omega)
    simp only [comment_loop, hc0, hcne, hnc, not_true_eq_false, false_and, true_and, if_false,
      and_false]
    rw [hrec, advance_consume]
    congr 2
    by_cases e : c = 10
    · subst e; simp
    · have : ¬ (10 = c) := fun h => e h.symm
      simp [e, this]

theorem comment_loop_unclosed : ∀ (text : List Nat) (st : lexer_state) (nl : Bool) (f : Nat)
    (rest : List Nat), st.src.drop st.pos = text ++ rest → 0 ∉ text → rest.headD 0 = 0 →
    has_close text = false → text.length < f →
    comment_loop true f st nl = .error (.unclosed_multiline_comment (st.pos + text.length)) := by
  intro text
  induction text with
  | nil =>
    intro st nl f rest hsrc _ hr _ hf
    obtain ⟨f, rfl⟩ : ∃ g, f = g + 1 := ⟨f - 1, by simp at hf; omega⟩
    have h0 : get_char st 0 = 0 := by
      rw [get_char_zero_headD st rest hsrc, hr]
    simp [comment_loop, h0, throw, throwThe, MonadExceptOf.throw]
  | cons c cs ih =>
    intro st nl f rest hsrc h0 hr hc hf
    obtain ⟨f, rfl⟩ : ∃ g, f = g + 1 := ⟨f - 1, by simp at hf; omega⟩
    have hc0 : get_char st 0 = c := get_char_zero_cons st c _ hsrc
    have hcne : c ≠ 0 := fun e => h0 (by rw [e]; exact List.mem_cons_self _ _)
    simp only [has_close, Bool.or_eq_false_iff, Bool.and_eq_false_iff,
      decide_eq_false_iff_not] at hc
    have hnc : ¬ (c = 42 ∧ get_char st 1 = 47) := by
      intro ⟨e1, e2⟩
      cases cs with
      | nil =>
        have : get_char st 1 = rest.headD 0 := by
          rw [get_char_eq, hsrc]; cases rest <;> rfl
        omega
      | cons d ds =>
        have : get_char st 1 = d := get_char_one_cons st c d _ hsrc
        rcases hc.1 with h | h
        · exact h e1
        · apply h
          simp only [List.headD_cons]
          omega
    have hrec := ih (consume_char st) (if c = 10 then true else nl) f rest
      (drop_consume st c _ hsrc) (fun h => h0 (List.mem_cons_of_mem _ h)) hr hc.2
      (by simp at hf; omega)
    simp only [comment_loop, hc0, hcne, hnc, not_true_eq_false, false_and, true_and, if_false,
      and_false]
    rw [hrec]
    simp only [consume_char, List.length_cons]
    congr 2
    omega

theorem comment_loop_single : ∀ (body : List Nat) (st : lexer_state) (nl : Bool) (f : Nat)
    (rest : List Nat), st.src.drop st.pos = body ++ rest → (∀ c ∈ body, c ≠ 10 ∧ c ≠ 0) →
    (rest.headD 0 = 10 ∨ rest.headD 0 = 0) → body.length < f →
    comment_loop false f st nl = .ok (false, advance st body.length) := by
  intro body
  induction body with
  | nil =>
    intro st nl f rest hsrc _ hr hf
    obtain ⟨f, rfl⟩ : ∃ g, f = g + 1 := ⟨f - 1, by simp at hf; omega⟩
    have h0 : get_char st 0 = rest.headD 0 := get_char_zero_headD st rest hsrc
    simp only [comment_loop, h0, hr, Bool.false_eq_true, not_false_eq_true, true_and, if_true,
      List.length_nil, advance_zero]
    rfl
  | cons c cs ih =>
    intro st nl f rest hsrc hall hr hf
    obtain ⟨f, rfl⟩ : ∃ g, f = g + 1 := ⟨f - 1, by simp at hf; omega⟩
    have hc0 : get_char st 0 = c := get_char_zero_cons st c _ hsrc
    obtain ⟨e1, e2⟩ := hall c (List.mem_cons_self _ _)
    have hrec := ih (consume_char st) nl f rest (drop_consume st c _ hsrc)
      (fun x hx => hall x (List.mem_cons_of_mem _ hx)) hr (by simp at hf; omega)
    simp only [comment_loop, hc0, e1, e2, Bool.false_eq_true, not_false_eq_true, or_self,
      and_false, false_and, if_false, if_true]
    rw [hrec, advance_consume]
    rfl

/-! ## C13: comments -/

theorem lexer_next_token_congr (P : platform) (cx : lexer_ctx) (st1 : lexer_state)
    (hsaved : is_empty cx.saved_token = true)
    (h : lexer_next_token_private P cx.st = lexer_next_token_private P st1) :
    lexer_next_token P cx = lexer_next_token P { cx with st := st1 } := by
  unfold lexer_next_token
  have hs : ¬ ¬ is_empty cx.saved_token = true := by simp [hsaved]
  rw [if_neg hs, if_neg hs]
  simp only [bind, Except.bind, h]

theorem replace_comment_eq (st : lexer_state) (x : Nat) (rest : List Nat)
    (hsrc : st.src.drop st.pos = 47 :: x :: rest) (hx : x = 42 ∨ x = 47) :
    replace_comment_by_newline st
      = comment_loop (decide (x = 42)) (st.src.length + 1 - (st.pos + 2)) (advance st 2) false := by
  have h0 : get_char st 0 = 47 := get_char_zero_cons st 47 _ hsrc
  have h1 : get_char st 1 = x := get_char_one_cons st 47 x _ hsrc
  have hx2 : x = 47 ∨ x = 42 := hx.symm
  unfold replace_comment_by_newline
  simp only [h0, h1, ne_eq, not_true_eq_false, if_false, hx2, bind, Except.bind, pure,
    Except.pure]
  rfl

theorem next_token_comment (P : platform) (st : lexer_state) (x : Nat) (rest : List Nat)
    (hts : st.token_start = none) (hsrc : st.src.drop st.pos = 47 :: x :: rest)
    (hx : x = 42 ∨ x = 47) :
    lexer_next_token_private P st
      = (replace_comment_by_newline st).bind (fun r =>
          if x = 42 ∧ r.1 = true then .ok (⟨.TOK_NEWLINE, 0, 0⟩, r.2)
          else lexer_next_token_private_aux P (st.src.length - st.pos - 1 + 1) r.2) := by
  have h0 : get_char st 0 = 47 := get_char_zero_cons st 47 _ hsrc
  have h1 : get_char st 1 = x := get_char_one_cons st 47 x _ hsrc
  unfold lexer_next_token_private
  rw [fuel_succ st 47 _ hsrc, lexer_next_token_private_aux]
  rw [if_neg (by simp [hts]), if_neg (by rw [h0]; decide), if_neg (by rw [h0]; simp [isdigit]),
    if_neg (by rw [h0]; decide), if_neg (by rw [h0]; decide), if_neg (by rw [h0]; decide),
    if_neg (by rw [h0]; decide)]
  rcases hx with e | e
  · subst e
    rw [if_pos ⟨h0, h1⟩]
    cases hr : replace_comment_by_newline st with
    | error err => rfl
    | ok r =>
      obtain ⟨nl, st1⟩ := r
      cases nl <;> rfl
  · subst e
    rw [if_neg (by rw [h1]; simp), if_pos ⟨h0, h1⟩]
    cases hr : replace_comment_by_newline st with
    | error err => rfl
    | ok r =>
      obtain ⟨nl, st1⟩ := r
      cases nl <;> rfl

theorem src_length_of_drop (st : lexer_state) (w rest : List Nat)
    (hsrc : st.src.drop st.pos = w ++ rest) (hne : w ≠ []) :
    st.pos + w.length + rest.length = st.src.length := by
  rcases drop_length_ge st w rest hsrc with h | ⟨h, _⟩
  · exact h
  · exact absurd h hne

/-- C13: with the cursor at `/*`, a comment text without NUL up to the first
`*/`: if the text contains a line feed `lexer_next_token` returns a newline
token and stands after the comment, otherwise it returns what lexing from the
character after the comment returns. With the cursor at `//`, the text up to,
and not including, the next line feed or the end of the buffer is skipped. A
`/*` that no `*/` closes before the end of the buffer is the parse error
"unclosed multiline comment", positioned at the end of the buffer. -/
theorem C13_comments (P : platform) (cx : lexer_ctx) (body rest : List Nat)
    (hsaved : is_empty cx.saved_token = true) (hts : cx.st.token_start = none) :
    (cx.st.src.drop cx.st.pos = 47 :: 42 :: (body ++ 42 :: 47 :: rest) → 0 ∉ body →
        has_close body = false →
        (10 ∈ body → ∃ tok cx1, lexer_next_token P cx = .ok (tok, cx1)
            ∧ tok.type = .TOK_NEWLINE ∧ cx1.st.pos = cx.st.pos + body.length + 4)
        ∧ (10 ∉ body → lexer_next_token P cx
            = lexer_next_token P { cx with st := advance cx.st (body.length + 4) }))
    ∧ (cx.st.src.drop cx.st.pos = 47 :: 47 :: (body ++ rest) → (∀ c ∈ body, c ≠ 10 ∧ c ≠ 0) →
        (rest.headD 0 = 10 ∨ rest.headD 0 = 0) →
        lexer_next_token P cx
          = lexer_next_token P { cx with st := advance cx.st (body.length + 2) })
    ∧ (cx.st.src.drop cx.st.pos = 47 :: 42 :: (body ++ rest) → 0 ∉ body → rest.headD 0 = 0 →
        has_close body = false →
        lexer_next_token P cx
          = .error (.unclosed_multiline_comment (cx.st.pos + 2 + body.length))) := by
  refine ⟨?_, ?_, ?_⟩
  · intro hsrc h0 hc
    have hlen := src_length_of_drop cx.st (47 :: 42 :: (body ++ [42, 47])) rest
      (by rw [hsrc]; simp) (List.cons_ne_nil _ _)
    simp only [List.length_cons, List.length_append, List.length_nil] at hlen
    have hd2 : (advance cx.st 2).src.drop (advance cx.st 2).pos = body ++ 42 :: 47 :: rest :=
      drop_advance cx.st [47, 42] _ hsrc
    have hloop := comment_loop_multi body (advance cx.st 2) false
      (cx.st.src.length + 1 - (cx.st.pos + 2)) rest hd2 h0 hc (by omega)
    have hp := next_token_comment P cx.st 42 _ hts hsrc (Or.inl rfl)
    rw [replace_comment_eq cx.st 42 _ hsrc (Or.inl rfl)] at hp
    simp only [decide_True] at hp
    rw [hloop] at hp
    simp only [Except.bind, Bool.false_or, true_and, advance_advance, decide_eq_true_eq] at hp
    constructor
    · intro hnl
      rw [if_pos hnl] at hp
      exact ⟨_, _, lexer_next_token_fresh P cx _ hsaved hp, rfl,
        by show cx.st.pos + (2 + (body.length + 2)) = _; omega⟩
    · intro hnl
      rw [if_neg hnl] at hp
      rw [aux_fuel_independent P _ _ (by simp only [advance]; omega)
        (by simp only [advance]; omega)] at hp
      have e : advance cx.st (2 + (body.length + 2)) = advance cx.st (body.length + 4) := by
        simp only [advance]; congr 1; omega
      rw [e] at hp
      exact lexer_next_token_congr P cx _ hsaved hp
  · intro hsrc hall hr
    have hlen := src_length_of_drop cx.st (47 :: 47 :: body) rest
      (by rw [hsrc]; simp) (List.cons_ne_nil _ _)
    simp only [List.length_cons] at hlen
    have hd2 : (advance cx.st 2).src.drop (advance cx.st 2).pos = body ++ rest :=
      drop_advance cx.st [47, 47] _ hsrc
    have hloop := comment_loop_single body (advance cx.st 2) false
      (cx.st.src.length + 1 - (cx.st.pos + 2)) rest hd2 hall hr (by omega)
    have hp := next_token_comment P cx.st 47 _ hts hsrc (Or.inr rfl)
    rw [replace_comment_eq cx.st 47 _ hsrc (Or.inr rfl)] at hp
    simp only [show decide (47 = 42) = false from rfl] at hp
    rw [hloop] at hp
    simp only [Except.bind, advance_advance] at hp
    rw [if_neg (by decide)] at hp
    rw [aux_fuel_independent P _ _ (by simp only [advance]; omega)
      (by simp only [advance]; omega)] at hp
    have e : advance cx.st (2 + body.length) = advance cx.st (body.length + 2) := by
      simp only [advance]; congr 1; omega
    rw [e] at hp
    exact lexer_next_token_congr P cx _ hsaved hp
  · intro hsrc h0 hr hc
    have hlen := src_length_of_drop cx.st (47 :: 42 :: body) rest
      (by rw [hsrc]; simp) (List.cons_ne_nil _ _)
    simp only [List.length_cons] at hlen
    have hd2 : (advance cx.st 2).src.drop (advance cx.st 2).pos = body ++ rest :=
      drop_advance cx.st [47, 42] _ hsrc
    have hloop := comment_loop_unclosed body (advance cx.st 2) false
      (cx.st.src.length + 1 - (cx.st.pos + 2)) rest hd2 h0 hr hc (by omega)
    have hp := next_token_comment P cx.st 42 _ hts hsrc (Or.inl rfl)
    rw [replace_comment_eq cx.st 42 _ hsrc (Or.inl rfl)] at hp
    simp only [decide_True] at hp
    rw [hloop] at hp
    exact lexer_next_token_fresh_error P cx _ hsaved hp

theorem C13_comments_witness :
    is_empty (lexer_init [47, 42, 97, 10, 42, 47, 59]).saved_token = true
      ∧ (lexer_init [47, 42, 97, 10, 42, 47, 59]).st.src.drop
          (lexer_init [47, 42, 97, 10, 42, 47, 59]).st.pos = 47 :: 42 :: ([97, 10] ++ 42 :: 47 :: [59])
      ∧ (10 : Nat) ∈ [97, 10]
      ∧ ∃ tok cx1, lexer_next_token sample_platform (lexer_init [47, 42, 97, 10, 42, 47, 59])
            = .ok (tok, cx1)
          ∧ tok.type = .TOK_NEWLINE
          ∧ cx1.st.pos = (lexer_init [47, 42, 97, 10, 42, 47, 59]).st.pos + [97, 10].length + 4 :=
  ⟨by decide, by decide, by decide,
    ((C13_comments sample_platform (lexer_init [47, 42, 97, 10, 42, 47, 59]) [97, 10] [59]
      (by decide) (by decide)).1 (by decide) (by decide) (by decide)).1 (by decide)⟩

/-- The cases of C13 evaluated on `/*a<LF>*/;`, `/*a*/;`, `//a<LF>;`, `//a` and
`/*a`: a newline token, the semicolon after the comment, the newline token of
the line feed that ends a `//` comment, the end of file, and the unclosed
comment error. -/
theorem comment_examples :
    (lexer_next_token sample_platform (lexer_init [47, 42, 97, 10, 42, 47, 59])).map
        (fun r => (r.1.type, r.2.st.pos)) = .ok (.TOK_NEWLINE, 6)
      ∧ (lexer_next_token sample_platform (lexer_init [47, 42, 97, 42, 47, 59])).map
        (fun r => (r.1, r.2.st.pos)) = .ok (⟨.TOK_SEMICOLON, 5, 0⟩, 6)
      ∧ (lexer_next_token sample_platform (lexer_init [47, 47, 97, 10, 59])).map
        (fun r => (r.1, r.2.st.pos)) = .ok (⟨.TOK_NEWLINE, 4, 0⟩, 4)
      ∧ (lexer_next_token sample_platform (lexer_init [47, 47, 97])).map
        (fun r => (r.1, r.2.st.pos)) = .ok (⟨.TOK_EOF, 3, 0⟩, 3)
      ∧ lexer_next_token sample_platform (lexer_init [47, 42, 97])
        = .error (.unclosed_multiline_comment 3) :=
  ⟨rfl, rfl, rfl, rfl, rfl⟩

/-! ## C4: the token sequence of `a=1;var a;` -/

theorem at_space (P : platform) (src : List Nat) (strict : Bool) (cx : lexer_ctx) (k : Nat)
    (vs : List lit_value) (rest : List Nat) (h : lex_at src strict cx k vs)
    (hd : src.drop k = 32 :: rest) (hn : isspace (rest.headD 0) = false ∨ rest.headD 0 = 10) :
    lexer_next_token P cx = lexer_next_token P { cx with st := advance cx.st 1 }
      ∧ lex_at src strict { cx with st := advance cx.st 1 } (k + 1) vs := by
  obtain ⟨h1, h2, h3, h4, h5, h6, h7, h8⟩ := h
  have hsrc : cx.st.src.drop cx.st.pos = 32 :: rest := by rw [h1, h2, hd]
  have hb := drop_bound src k [32] rest hd h8
  have hlat : lex_at src strict { cx with st := advance cx.st 1 } (k + 1) vs :=
    ⟨h1, by show cx.st.pos + 1 = _; rw [h2], h3, h4, h5, h6, h7, hb⟩
  refine ⟨?_, hlat⟩
  apply lexer_next_token_congr P cx _ h5
  have h0 : get_char cx.st 0 = 32 := get_char_zero_cons cx.st 32 _ hsrc
  have hg : grobble_whitespaces cx.st = advance cx.st 1 := by
    unfold grobble_whitespaces
    have hf : cx.st.src.length + 1 - cx.st.pos = (cx.st.src.length - cx.st.pos - 1) + 1 + 1 := by
      rw [h1, h2]
      simp only [List.length_cons, List.length_nil] at hb
      omega
    rw [hf]
    have hnext : get_char (consume_char cx.st) 0 = rest.headD 0 :=
      get_char_zero_headD _ rest (drop_consume cx.st 32 _ hsrc)
    simp only [grobble_whitespaces_loop, h0, hnext]
    rw [if_pos ⟨by decide, by decide⟩, if_neg (by
      intro hh
      rcases hn with e | e
      · rw [e] at hh; exact absurd hh.1 (by decide)
      · exact hh.2 e)]
    rfl
  unfold lexer_next_token_private
  rw [fuel_succ cx.st 32 _ hsrc, lexer_next_token_private_aux]
  rw [if_neg (by simp [h3]), if_neg (by rw [h0]; decide), if_neg (by rw [h0]; simp [isdigit]),
    if_neg (by rw [h0]; decide), if_neg (by rw [h0]; decide), if_neg (by rw [h0]; decide),
    if_pos (by rw [h0]; decide), hg]
  have e := aux_fuel_independent P (cx.st.src.length - cx.st.pos - 1 + 1) (advance cx.st 1)
    (by show cx.st.pos + 1 ≤ cx.st.src.length; rw [h1, h2]; exact hb)
    (by show cx.st.src.length + 1 - (cx.st.pos + 1) ≤ _; omega)
  rw [e]
  rfl

theorem lex_tokens_cons (P : platform) (n : Nat) (cx cx1 cx2 : lexer_ctx) (t : token)
    (ts : List token) (h : lexer_next_token P cx = .ok (t, cx1)) (hne : t.type ≠ .TOK_EOF)
    (hr : lex_tokens P n cx1 = .ok (ts, cx2)) :
    lex_tokens P (n + 1) cx = .ok (t :: ts, cx2) := by
  simp only [lex_tokens, h, bind, Except.bind, hne, if_false, hr]
  rfl

theorem lex_tokens_eof (P : platform) (n : Nat) (cx cx1 : lexer_ctx) (t : token)
    (h : lexer_next_token P cx = .ok (t, cx1)) (he : t.type = .TOK_EOF) :
    lex_tokens P (n + 1) cx = .ok ([t], cx1) := by
  simp only [lex_tokens, h, bind, Except.bind, he, if_true]
  rfl

/-- C4: for every platform on which allocation succeeds, lexing the source
`a=1;var a;` outside strict mode by repeated `lexer_next_token` yields exactly
eight tokens: the name `a`, the punctuator `=`, the number 1 (carried inline by
the small-integer form of the number token), the punctuator `;`, the keyword
`var`, the name `a`, the punctuator `;` and the end of file. The two name
tokens carry the same literal index 0, and literal 0 is the string `a`. -/
theorem C4_lex_assignment_and_declaration (P : platform) (hP : platform_ok P) :
    ∃ cx1 l, lex_tokens P 8 (lexer_init (cstr "a=1;var a;"))
        = .ok ([⟨.TOK_NAME, 0, 0⟩, ⟨.TOK_EQ, 1, 0⟩, ⟨.TOK_SMALL_INT, 2, 1⟩,
            ⟨.TOK_SEMICOLON, 3, 0⟩, ⟨.TOK_KEYWORD, 4, keyword.KW_VAR.uid⟩, ⟨.TOK_NAME, 8, 0⟩,
            ⟨.TOK_SEMICOLON, 9, 0⟩, ⟨.TOK_EOF, 10, 0⟩], cx1)
      ∧ lexer_get_literal_by_id cx1.st 0 = .ok l
      ∧ literal_chars P cx1.st l = .ok (cstr "a") := by
  have hsrc : cstr "a=1;var a;" = [97, 61, 49, 59, 118, 97, 114, 32, 97, 59] := by decide
  rw [hsrc]
  have hm : value_matches P [97] (new_string_value P [97]) = true :=
    new_string_value_matches P [97] (by decide)
  have a0 := lex_at_init [97, 61, 49, 59, 118, 97, 114, 32, 97, 59]
  obtain ⟨u1, c1, vs1, t1, a1, hu1⟩ := at_name P hP _ false _ 0 [] [97]
    [61, 49, 59, 118, 97, 114, 32, 97, 59] a0 rfl (by decide) (by decide) (by decide) (by decide)
    (by decide) (by decide)
  have hu : u1 = 0 ∧ vs1 = [new_string_value P [97]] := by
    rcases hu1 with ⟨h, _⟩ | ⟨_, h2, h3⟩
    · simp [first_index] at h
    · exact ⟨h2, h3⟩
  obtain ⟨rfl, rfl⟩ := hu
  obtain ⟨c2, t2, a2⟩ := at_eq P _ false c1 1 _ [49, 59, 118, 97, 114, 32, 97, 59] a1 rfl
    (by decide)
  obtain ⟨c3, t3, a3⟩ := at_small_int P _ false c2 2 _ [49] [59, 118, 97, 114, 32, 97, 59] a2 rfl
    (by decide) (by decide) (by decide) (by decide) (by decide)
  obtain ⟨c4, t4, a4⟩ := at_semicolon P _ false c3 3 _ [118, 97, 114, 32, 97, 59] a3 rfl
  obtain ⟨c5, t5, a5⟩ := at_keyword P _ false c4 4 _ "var" .KW_VAR [32, 97, 59] a4 (by decide)
    rfl (by decide) (Or.inr rfl)
  obtain ⟨t6a, a6a⟩ := at_space P _ false c5 7 _ [97, 59] a5 rfl (Or.inl (by decide))
  obtain ⟨u6, c6, vs6, t6, a6, hu6⟩ := at_name P hP _ false _ 8 _ [97] [59] a6a rfl (by decide)
    (by decide) (by decide) (by decide) (by decide) (by decide)
  have hu : u6 = 0 ∧ vs6 = [new_string_value P [97]] := by
    rcases hu6 with ⟨h, h2⟩ | ⟨h, _, _⟩
    · simp only [first_index, hm, if_true, Option.some.injEq] at h
      exact ⟨h.symm, h2⟩
    · simp [first_index, hm] at h
  obtain ⟨rfl, rfl⟩ := hu
  obtain ⟨c7, t7, a7⟩ := at_semicolon P _ false c6 9 _ [] a6 rfl
  obtain ⟨c8, t8, a8⟩ := at_eof P _ false c7 10 _ a7 rfl
  obtain ⟨l, hl, hlv⟩ := forall2_getElem_right _ _ _ a8.2.2.2.2.2.2.1 0 _ rfl
  refine ⟨c8, l, ?_, (lexer_get_literal_by_id_ok c8.st 0 l).mpr hl,
    literal_chars_of_value P c8.st l _ [97] hlv (value_matches_chars P [97] (by decide) _ hm)⟩
  have e8 := lex_tokens_eof P 0 c7 c8 _ t8 rfl
  have e7 := lex_tokens_cons P 1 c6 c7 c8 _ _ t7 (by decide) e8
  have e6 := lex_tokens_cons P 2 c5 c6 c8 _ _ (t6a.trans t6) (by decide) e7
  have e5 := lex_tokens_cons P 3 c4 c5 c8 _ _ t5 (by decide) e6
  have e4 := lex_tokens_cons P 4 c3 c4 c8 _ _ t4 (by decide) e5
  have e3 := lex_tokens_cons P 5 c2 c3 c8 _ _ t3 (by decide) e4
  have e2 := lex_tokens_cons P 6 c1 c2 c8 _ _ t2 (by decide) e3
  exact lex_tokens_cons P 7 _ c1 c8 _ _ t1 (by decide) e2

theorem C4_lex_assignment_and_declaration_witness :
    ∃ cx1 l, lex_tokens sample_platform 8 (lexer_init (cstr "a=1;var a;"))
        = .ok ([⟨.TOK_NAME, 0, 0⟩, ⟨.TOK_EQ, 1, 0⟩, ⟨.TOK_SMALL_INT, 2, 1⟩,
            ⟨.TOK_SEMICOLON, 3, 0⟩, ⟨.TOK_KEYWORD, 4, keyword.KW_VAR.uid⟩, ⟨.TOK_NAME, 8, 0⟩,
            ⟨.TOK_SEMICOLON, 9, 0⟩, ⟨.TOK_EOF, 10, 0⟩], cx1)
      ∧ lexer_get_literal_by_id cx1.st 0 = .ok l
      ∧ literal_chars sample_platform cx1.st l = .ok (cstr "a") :=
  C4_lex_assignment_and_declaration sample_platform sample_platform_ok

/-- The display name of the small-integer token of C4, which is the one of the
number token. -/
theorem small_int_name_example :
    lexer_token_type_to_string .TOK_SMALL_INT = .ok "Number"
      ∧ lexer_token_type_to_string .TOK_NUMBER = .ok "Number" := by
  decide

theorem append_parts (A T : List Nat) (t b : Nat) :
    bytecode_list_append ⟨false, A ++ t :: T, A.length⟩ b = .ok ⟨false, A ++ b :: T, A.length + 1⟩ := by
  simp [bytecode_list_append]

theorem insert_block (nl : Bool) (A B T : List Nat) (t b : Nat) :
    bytecode_list_insert ⟨nl, A ++ B ++ t :: T, A.length + B.length⟩ b A.length
      = .ok ⟨nl, A ++ b :: B ++ T, A.length + B.length + 1⟩ := by
  have h1 : ¬ (A.length + B.length + 1 > (A ++ B ++ t :: T).length) := by simp; omega
  simp only [bytecode_list_insert, if_neg h1, BYTECODE_LEN]
  rw [if_neg (by omega)]
  have hn : A.length + B.length - A.length = B.length := by omega
  simp only [hn]
  have hd : List.take B.length (List.drop A.length (A ++ B ++ t :: T)) = B := by
    simp [List.append_assoc]
  rw [hd]
  cases B with
  | nil => simp
  | cons x B1 =>
    have e1 : A.length + 1 + (B1.length + 1) - A.length = (x :: B1).length + 1 := by
      simp; omega
    have e2 : List.drop ((x :: B1).length + 1) (x :: (B1 ++ t :: T)) = T := by
      have : x :: (B1 ++ t :: T) = ((x :: B1) ++ [t]) ++ T := by simp
      rw [this]
      exact List.drop_left' (by simp)
    simp only [re_memcpy, List.take_append_eq_append_take, List.drop_append_eq_append_drop]
    have e3 : A.length + 1 + (B1.length + 1) - (A.length + (B1.length + 1)) = 1 := by omega
    have e4 : List.drop (A.length + 1 + (B1.length + 1)) A = [] :=
      List.drop_of_length_le (by omega)
    simp [e1, e2, e3, e4, List.take_of_length_le, List.drop_of_length_le]

theorem insert_parts (A B T : List Nat) (t b : Nat) :
    bytecode_list_insert ⟨false, A ++ B ++ t :: T, A.length + B.length⟩ b A.length
      = .ok ⟨false, A ++ b :: B ++ T, A.length + B.length + 1⟩ :=
  insert_block false A B T t b

theorem bc_of_parts (code : List Nat) (h : code.length < 256) :
    bc_of code = ⟨false, code ++ 0 :: List.replicate (255 - code.length) 0, code.length⟩ := by
  have : 256 - code.length = (255 - code.length) + 1 := by omega
  simp only [bc_of, this, List.replicate_succ]

theorem append_bc_of (code : List Nat) (b : Nat) (h : code.length < 256) :
    bytecode_list_append (bc_of code) b = .ok (bc_of (code ++ [b])) := by
  rw [bc_of_parts code h, append_parts]
  have : 256 - (code ++ [b]).length = 255 - code.length := by simp
  simp [bc_of, this]

theorem insert_bc_of (code : List Nat) (b offset : Nat) (h : code.length < 256)
    (ho : offset ≤ code.length) :
    bytecode_list_insert (bc_of code) b offset
      = .ok (bc_of (splice code offset b)) := by
  rw [bc_of_parts code h]
  have hc : code = code.take offset ++ code.drop offset := (List.take_append_drop offset code).symm
  have hl : (code.take offset).length = offset := by simp [ho]
  have hlen : code.length = (code.take offset).length + (code.drop offset).length := by
    simp; omega
  have key := insert_parts (code.take offset) (code.drop offset)
    (List.replicate (255 - code.length) 0) 0 b
  rw [← hc, ← hlen, hl] at key
  rw [key]
  have hl2 : (code.take offset ++ b :: code.drop offset).length = code.length + 1 := by
    simp; omega
  have : 256 - (code.length + 1) = 255 - code.length := by omega
  simp only [bc_of, splice, hl2, this]

theorem append_null (b : Nat) :
    bytecode_list_append ⟨true, [], 0⟩ b = .ok (bc_of [b]) := by
  have h : List.replicate 256 0 = 0 :: List.replicate 255 0 := List.replicate_succ 0 255
  have h1 : (⟨true, [], 0⟩ : re_bytecode_ctx_t).len + 1 > (⟨true, [], 0⟩ : re_bytecode_ctx_t).mem.length := by
    simp
  rw [bytecode_list_append, if_pos h1]
  simp only [realloc_regexp_bytecode_block, bc_of, REGEXP_BYTECODE_BLOCK_SIZE]
  simp only [Bool.not_eq_true, not_true_eq_false, if_false, List.length_nil, Nat.zero_add,
    List.take_nil, List.nil_append, Nat.sub_zero, List.length_singleton, h, List.set_cons_zero,
    List.singleton_append, Nat.reduceSub, not_false_eq_true, Bool.true_eq_false, ite_false]

theorem append_bc_of_full (code : List Nat) (b : Nat) (h : 256 ≤ code.length) :
    bytecode_list_append (bc_of code) b = .error .assertion_failed := by
  have h1 : (bc_of code).len + 1 > (bc_of code).mem.length := by simp [bc_of]; omega
  rw [bytecode_list_append, if_pos h1]
  simp [realloc_regexp_bytecode_block, bc_of]

theorem insert_bc_of_full (code : List Nat) (b offset : Nat) (h : 256 ≤ code.length) :
    bytecode_list_insert (bc_of code) b offset = .error .assertion_failed := by
  have h1 : (bc_of code).len + 1 > (bc_of code).mem.length := by simp [bc_of]; omega
  rw [bytecode_list_insert, if_pos h1]
  simp [realloc_regexp_bytecode_block, bc_of]

theorem insert_bc_of_beyond (code : List Nat) (b offset : Nat) (h : code.length < 256)
    (ho : code.length < offset) :
    bytecode_list_insert (bc_of code) b offset = .error .invalid_memory_access := by
  have h1 : ¬ ((bc_of code).len + 1 > (bc_of code).mem.length) := by simp [bc_of]; omega
  rw [bytecode_list_insert, if_neg h1]
  simp [BYTECODE_LEN, bc_of, ho]

theorem bytecode_of_bc_of (code : List Nat) : bytecode_of (bc_of code) = code := by
  simp [bytecode_of, bc_of]

theorem splice_length (code : List Nat) (offset b : Nat) :
    (splice code offset b).length = code.length + 1 := by
  simp [splice]; omega

theorem len_bc_of (code : List Nat) : BYTECODE_LEN (bc_of code) = code.length := rfl

theorem loop_eof (R : re_platform) (fuel : Nat) (ctx : re_compiler_ctx_t) (e : Bool) (off : Nat)
    (t : re_token_t) (rest : List re_token_t)
    (h : re_parse_next_token ctx.parser_ctx = (t, rest)) (ht : t.type = .RE_TOK_EOF) :
    parse_alternative_loop R (fuel + 1) ctx e off
      = if ¬ e then .ok (re_throw R .ECMA_ERROR_SYNTAX,
            { ctx with current_token := t, parser_ctx := rest })
        else
          match insert_alternative_length { ctx with current_token := t, parser_ctx := rest } off with
          | .error err => .error err
          | .ok ctx2 => .ok (.empty, { ctx2 with recursion_depth := ctx2.recursion_depth - 1 }) := by
  rw [parse_alternative_loop]
  simp only [h, ht]

theorem loop_end_group (R : re_platform) (fuel : Nat) (ctx : re_compiler_ctx_t) (e : Bool)
    (off : Nat) (t : re_token_t) (rest : List re_token_t)
    (h : re_parse_next_token ctx.parser_ctx = (t, rest)) (ht : t.type = .RE_TOK_END_GROUP) :
    parse_alternative_loop R (fuel + 1) ctx e off
      = if e then .ok (re_throw R .ECMA_ERROR_SYNTAX,
            { ctx with current_token := t, parser_ctx := rest })
        else
          match insert_alternative_length { ctx with current_token := t, parser_ctx := rest } off with
          | .error err => .error err
          | .ok ctx2 => .ok (.empty, { ctx2 with recursion_depth := ctx2.recursion_depth - 1 }) := by
  rw [parse_alternative_loop]
  simp only [h, ht]

theorem loop_other (R : re_platform) (fuel : Nat) (ctx : re_compiler_ctx_t) (e : Bool)
    (off : Nat) (t : re_token_t) (rest : List re_token_t) (code : Nat)
    (h : re_parse_next_token ctx.parser_ctx = (t, rest)) (ht : t.type = .RE_TOK_OTHER code) :
    parse_alternative_loop R (fuel + 1) ctx e off
      = .ok (re_throw R .ECMA_ERROR_SYNTAX, { ctx with current_token := t, parser_ctx := rest }) := by
  rw [parse_alternative_loop]
  simp only [h, ht]

theorem loop_char (R : re_platform) (fuel : Nat) (ctx : re_compiler_ctx_t) (e : Bool) (off : Nat)
    (t : re_token_t) (rest : List re_token_t)
    (h : re_parse_next_token ctx.parser_ctx = (t, rest)) (ht : t.type = .RE_TOK_CHAR) :
    parse_alternative_loop R (fuel + 1) ctx e off
      = match (match append_opcode ctx.bytecode_ctx RE_OP_CHAR with
          | .error err => Except.error err
          | .ok bc1 => append_u32 bc1 t.value) with
        | .error err => .error err
        | .ok bc1 =>
          if t.qmin ≠ 1 ∨ t.qmax ≠ 1 then
            match insert_simple_iterator
                { ctx with current_token := t, parser_ctx := rest, bytecode_ctx := bc1 }
                (BYTECODE_LEN ctx.bytecode_ctx) with
            | .error err => .error err
            | .ok ctx3 => parse_alternative_loop R fuel ctx3 e off
          else parse_alternative_loop R fuel
            { ctx with current_token := t, parser_ctx := rest, bytecode_ctx := bc1 } e off := by
  rw [parse_alternative_loop]
  simp only [h, ht]

theorem loop_period (R : re_platform) (fuel : Nat) (ctx : re_compiler_ctx_t) (e : Bool) (off : Nat)
    (t : re_token_t) (rest : List re_token_t)
    (h : re_parse_next_token ctx.parser_ctx = (t, rest)) (ht : t.type = .RE_TOK_PERIOD) :
    parse_alternative_loop R (fuel + 1) ctx e off
      = match append_opcode ctx.bytecode_ctx RE_OP_PERIOD with
        | .error err => .error err
        | .ok bc1 =>
          if t.qmin ≠ 1 ∨ t.qmax ≠ 1 then
            match insert_simple_iterator
                { ctx with current_token := t, parser_ctx := rest, bytecode_ctx := bc1 }
                (BYTECODE_LEN ctx.bytecode_ctx) with
            | .error err => .error err
            | .ok ctx3 => parse_alternative_loop R fuel ctx3 e off
          else parse_alternative_loop R fuel
            { ctx with current_token := t, parser_ctx := rest, bytecode_ctx := bc1 } e off := by
  rw [parse_alternative_loop]
  simp only [h, ht]

theorem loop_alternative (R : re_platform) (fuel : Nat) (ctx : re_compiler_ctx_t) (e : Bool)
    (off : Nat) (t : re_token_t) (rest : List re_token_t)
    (h : re_parse_next_token ctx.parser_ctx = (t, rest)) (ht : t.type = .RE_TOK_ALTERNATIVE) :
    parse_alternative_loop R (fuel + 1) ctx e off
      = match insert_alternative_length { ctx with current_token := t, parser_ctx := rest } off with
        | .error err => .error err
        | .ok ctx2 =>
          match append_opcode ctx2.bytecode_ctx RE_OP_ALTERNATIVE with
          | .error err => .error err
          | .ok bc3 =>
            parse_alternative_loop R fuel { ctx2 with bytecode_ctx := bc3 } e (BYTECODE_LEN bc3) := by
  rw [parse_alternative_loop]
  simp only [h, ht]

/-- The call `parse_alternative (re_ctx_p, false)` made for a group, with the
statements that follow it. -/
theorem loop_group_capture (R : re_platform) (fuel : Nat) (ctx : re_compiler_ctx_t) (e : Bool)
    (off : Nat) (t : re_token_t) (rest : List re_token_t)
    (h : re_parse_next_token ctx.parser_ctx = (t, rest))
    (ht : t.type = .RE_TOK_START_CAPTURE_GROUP) :
    parse_alternative_loop R (fuel + 1) ctx e off
      = match parse_alternative R fuel
            { ctx with current_token := t, parser_ctx := rest,
                       num_of_captures := ctx.num_of_captures + 1 } false with
        | .error err => .error err
        | .ok r =>
          match insert_into_group R r.2 (BYTECODE_LEN ctx.bytecode_ctx) ctx.num_of_captures true with
          | .error err => .error err
          | .ok ctx4 => parse_alternative_loop R fuel ctx4 e off := by
  rw [parse_alternative_loop]
  simp only [h, ht, parse_alternative]

theorem loop_group_non_capture (R : re_platform) (fuel : Nat) (ctx : re_compiler_ctx_t) (e : Bool)
    (off : Nat) (t : re_token_t) (rest : List re_token_t)
    (h : re_parse_next_token ctx.parser_ctx = (t, rest))
    (ht : t.type = .RE_TOK_START_NON_CAPTURE_GROUP) :
    parse_alternative_loop R (fuel + 1) ctx e off
      = match parse_alternative R fuel
            { ctx with current_token := t, parser_ctx := rest,
                       num_of_non_captures := ctx.num_of_non_captures + 1 } false with
        | .error err => .error err
        | .ok r =>
          match insert_into_group R r.2 (BYTECODE_LEN ctx.bytecode_ctx) ctx.num_of_non_captures
              false with
          | .error err => .error err
          | .ok ctx4 => parse_alternative_loop R fuel ctx4 e off := by
  rw [parse_alternative_loop]
  simp only [h, ht, parse_alternative]

theorem append_opcode_bc_of (code : List Nat) (op : Nat) (h : code.length < 256) :
    append_opcode (bc_of code) op = .ok (bc_of (code ++ [op % 256])) :=
  append_bc_of code _ h

theorem append_u32_bc_of (code : List Nat) (v : Nat) (h : code.length < 256) :
    append_u32 (bc_of code) v = .ok (bc_of (code ++ [v % 256])) :=
  append_bc_of code _ h

theorem insert_u32_bc_of (code : List Nat) (off v : Nat) (h : code.length < 256)
    (ho : off ≤ code.length) :
    insert_u32 (bc_of code) off v = .ok (bc_of (splice code off (v % 256))) :=
  insert_bc_of code _ off h ho

theorem insert_opcode_bc_of (code : List Nat) (off v : Nat) (h : code.length < 256)
    (ho : off ≤ code.length) :
    insert_opcode (bc_of code) off v = .ok (bc_of (splice code off (v % 256))) :=
  insert_bc_of code _ off h ho

theorem u32_sub (a b : Nat) (h : b ≤ a) (ha : a < 4294967296) :
    (a + 4294967296 - b) % 4294967296 = a - b := by
  omega

theorem insert_alternative_length_bc_of (ctx : re_compiler_ctx_t) (code : List Nat) (off : Nat)
    (hc : ctx.bytecode_ctx = bc_of code) (h : code.length < 256) (ho : off ≤ code.length) :
    insert_alternative_length ctx off
      = .ok { ctx with bytecode_ctx := bc_of (splice code off (code.length - off)) } := by
  have e1 : (code.length + 4294967296 - off) % 4294967296 = code.length - off :=
    u32_sub _ _ ho (by omega)
  have e2 : (code.length - off) % 256 = code.length - off := Nat.mod_eq_of_lt (by omega)
  simp only [insert_alternative_length, hc, len_bc_of, e1]
  rw [insert_u32_bc_of code off _ h ho, e2]


theorem compile_start (R : re_platform) (pattern : List re_token_t) (fl : Nat) :
    (match append_opcode ⟨true, [], 0⟩ RE_OP_SAVE_AT_START with
      | .error e => Except.error e
      | .ok bc1 =>
        match parse_alternative R (2 * pattern.length + 3)
            { flags := fl, recursion_depth := 0, num_of_captures := 1, num_of_non_captures := 0,
              bytecode_ctx := bc1, current_token := ⟨.RE_TOK_EOF, 0, 1, 1, true⟩,
              parser_ctx := pattern } true with
        | .error e => Except.error e
        | .ok r =>
          match re_finish r.2 with
          | .error e => Except.error e
          | .ok ctx2 =>
            Except.ok (re_compile_result.mk
              (if ecma_is_completion_value_throw r.1 then r.1 else .empty) (some ctx2)))
    = match parse_alternative_loop R (2 * pattern.length + 3)
          { flags := fl, recursion_depth := 1, num_of_captures := 1, num_of_non_captures := 0,
            bytecode_ctx := bc_of [RE_OP_SAVE_AT_START],
            current_token := ⟨.RE_TOK_EOF, 0, 1, 1, true⟩, parser_ctx := pattern } true 1 with
      | .error e => Except.error e
      | .ok r =>
        match re_finish r.2 with
        | .error e => Except.error e
        | .ok ctx2 =>
          Except.ok (re_compile_result.mk
            (if ecma_is_completion_value_throw r.1 then r.1 else .empty) (some ctx2)) := by
  have h1 : append_opcode ⟨true, [], 0⟩ RE_OP_SAVE_AT_START = .ok (bc_of [RE_OP_SAVE_AT_START]) := by
    rw [append_opcode, append_null]; rfl
  rw [h1]
  have h2 : ∀ f c, parse_alternative R f c true
      = if c.recursion_depth ≥ RE_COMPILE_RECURSION_LIMIT then .ok (re_throw R .ECMA_ERROR_RANGE, c)
        else parse_alternative_loop R f { c with recursion_depth := c.recursion_depth + 1 } true
          (BYTECODE_LEN c.bytecode_ctx) := fun f c => rfl
  simp only [h2]
  rw [if_neg (by simp [RE_COMPILE_RECURSION_LIMIT])]
  rfl

theorem compile_no_flags (R : re_platform) (pattern : List re_token_t) :
    regexp_compile_bytecode R pattern none
    = match parse_alternative_loop R (2 * pattern.length + 3)
          { flags := 0, recursion_depth := 1, num_of_captures := 1, num_of_non_captures := 0,
            bytecode_ctx := bc_of [RE_OP_SAVE_AT_START],
            current_token := ⟨.RE_TOK_EOF, 0, 1, 1, true⟩, parser_ctx := pattern } true 1 with
      | .error e => Except.error e
      | .ok r =>
        match re_finish r.2 with
        | .error e => Except.error e
        | .ok ctx2 =>
          Except.ok (re_compile_result.mk
            (if ecma_is_completion_value_throw r.1 then r.1 else .empty) (some ctx2)) := by
  rw [← compile_start]
  rfl

theorem run_char (R : re_platform) (fuel fl d c n : Nat) (bc : re_bytecode_ctx_t)
    (tok : re_token_t) (v qmin qmax : Nat) (g : Bool) (rest : List re_token_t) (e : Bool)
    (off : Nat) :
    parse_alternative_loop R (fuel + 1)
        ⟨fl, d, c, n, bc, tok, ⟨.RE_TOK_CHAR, v, qmin, qmax, g⟩ :: rest⟩ e off
      = match (match append_opcode bc RE_OP_CHAR with
          | .error err => Except.error err
          | .ok bc1 => append_u32 bc1 v) with
        | .error err => .error err
        | .ok bc1 =>
          if qmin ≠ 1 ∨ qmax ≠ 1 then
            match insert_simple_iterator
                ⟨fl, d, c, n, bc1, ⟨.RE_TOK_CHAR, v, qmin, qmax, g⟩, rest⟩ (BYTECODE_LEN bc) with
            | .error err => .error err
            | .ok ctx3 => parse_alternative_loop R fuel ctx3 e off
          else parse_alternative_loop R fuel
            ⟨fl, d, c, n, bc1, ⟨.RE_TOK_CHAR, v, qmin, qmax, g⟩, rest⟩ e off :=
  loop_char R fuel _ e off _ _ rfl rfl

theorem run_period (R : re_platform) (fuel fl d c n : Nat) (bc : re_bytecode_ctx_t)
    (tok : re_token_t) (v qmin qmax : Nat) (g : Bool) (rest : List re_token_t) (e : Bool)
    (off : Nat) :
    parse_alternative_loop R (fuel + 1)
        ⟨fl, d, c, n, bc, tok, ⟨.RE_TOK_PERIOD, v, qmin, qmax, g⟩ :: rest⟩ e off
      = match append_opcode bc RE_OP_PERIOD with
        | .error err => .error err
        | .ok bc1 =>
          if qmin ≠ 1 ∨ qmax ≠ 1 then
            match insert_simple_iterator
                ⟨fl, d, c, n, bc1, ⟨.RE_TOK_PERIOD, v, qmin, qmax, g⟩, rest⟩ (BYTECODE_LEN bc) with
            | .error err => .error err
            | .ok ctx3 => parse_alternative_loop R fuel ctx3 e off
          else parse_alternative_loop R fuel
            ⟨fl, d, c, n, bc1, ⟨.RE_TOK_PERIOD, v, qmin, qmax, g⟩, rest⟩ e off :=
  loop_period R fuel _ e off _ _ rfl rfl

theorem run_alternative (R : re_platform) (fuel fl d c n : Nat) (bc : re_bytecode_ctx_t)
    (tok : re_token_t) (v qmin qmax : Nat) (g : Bool) (rest : List re_token_t) (e : Bool)
    (off : Nat) :
    parse_alternative_loop R (fuel + 1)
        ⟨fl, d, c, n, bc, tok, ⟨.RE_TOK_ALTERNATIVE, v, qmin, qmax, g⟩ :: rest⟩ e off
      = match insert_alternative_length
            ⟨fl, d, c, n, bc, ⟨.RE_TOK_ALTERNATIVE, v, qmin, qmax, g⟩, rest⟩ off with
        | .error err => .error err
        | .ok ctx2 =>
          match append_opcode ctx2.bytecode_ctx RE_OP_ALTERNATIVE with
          | .error err => .error err
          | .ok bc3 =>
            parse_alternative_loop R fuel { ctx2 with bytecode_ctx := bc3 } e (BYTECODE_LEN bc3) :=
  loop_alternative R fuel _ e off _ _ rfl rfl

theorem run_eof (R : re_platform) (fuel fl d c n : Nat) (bc : re_bytecode_ctx_t)
    (tok : re_token_t) (v qmin qmax : Nat) (g : Bool) (rest : List re_token_t) (e : Bool)
    (off : Nat) :
    parse_alternative_loop R (fuel + 1)
        ⟨fl, d, c, n, bc, tok, ⟨.RE_TOK_EOF, v, qmin, qmax, g⟩ :: rest⟩ e off
      = if ¬ e then .ok (re_throw R .ECMA_ERROR_SYNTAX,
            ⟨fl, d, c, n, bc, ⟨.RE_TOK_EOF, v, qmin, qmax, g⟩, rest⟩)
        else
          match insert_alternative_length
              ⟨fl, d, c, n, bc, ⟨.RE_TOK_EOF, v, qmin, qmax, g⟩, rest⟩ off with
          | .error err => .error err
          | .ok ctx2 => .ok (.empty, { ctx2 with recursion_depth := ctx2.recursion_depth - 1 }) :=
  loop_eof R fuel _ e off _ _ rfl rfl

theorem run_end_of_stream (R : re_platform) (fuel fl d c n : Nat) (bc : re_bytecode_ctx_t)
    (tok : re_token_t) (e : Bool) (off : Nat) :
    parse_alternative_loop R (fuel + 1) ⟨fl, d, c, n, bc, tok, []⟩ e off
      = if ¬ e then .ok (re_throw R .ECMA_ERROR_SYNTAX,
            ⟨fl, d, c, n, bc, ⟨.RE_TOK_EOF, 0, 1, 1, true⟩, []⟩)
        else
          match insert_alternative_length
              ⟨fl, d, c, n, bc, ⟨.RE_TOK_EOF, 0, 1, 1, true⟩, []⟩ off with
          | .error err => .error err
          | .ok ctx2 => .ok (.empty, { ctx2 with recursion_depth := ctx2.recursion_depth - 1 }) :=
  loop_eof R fuel _ e off _ _ rfl rfl

theorem run_end_group (R : re_platform) (fuel fl d c n : Nat) (bc : re_bytecode_ctx_t)
    (tok : re_token_t) (v qmin qmax : Nat) (g : Bool) (rest : List re_token_t) (e : Bool)
    (off : Nat) :
    parse_alternative_loop R (fuel + 1)
        ⟨fl, d, c, n, bc, tok, ⟨.RE_TOK_END_GROUP, v, qmin, qmax, g⟩ :: rest⟩ e off
      = if e then .ok (re_throw R .ECMA_ERROR_SYNTAX,
            ⟨fl, d, c, n, bc, ⟨.RE_TOK_END_GROUP, v, qmin, qmax, g⟩, rest⟩)
        else
          match insert_alternative_length
              ⟨fl, d, c, n, bc, ⟨.RE_TOK_END_GROUP, v, qmin, qmax, g⟩, rest⟩ off with
          | .error err => .error err
          | .ok ctx2 => .ok (.empty, { ctx2 with recursion_depth := ctx2.recursion_depth - 1 }) :=
  loop_end_group R fuel _ e off _ _ rfl rfl

theorem run_group_capture (R : re_platform) (fuel fl d c n : Nat) (bc : re_bytecode_ctx_t)
    (tok : re_token_t) (v qmin qmax : Nat) (g : Bool) (rest : List re_token_t) (e : Bool)
    (off : Nat) :
    parse_alternative_loop R (fuel + 1)
        ⟨fl, d, c, n, bc, tok, ⟨.RE_TOK_START_CAPTURE_GROUP, v, qmin, qmax, g⟩ :: rest⟩ e off
      = match parse_alternative R fuel
            ⟨fl, d, c + 1, n, bc, ⟨.RE_TOK_START_CAPTURE_GROUP, v, qmin, qmax, g⟩, rest⟩ false with
        | .error err => .error err
        | .ok r =>
          match insert_into_group R r.2 (BYTECODE_LEN bc) c true with
          | .error err => .error err
          | .ok ctx4 => parse_alternative_loop R fuel ctx4 e off :=
  loop_group_capture R fuel _ e off _ _ rfl rfl

theorem run_group_non_capture (R : re_platform) (fuel fl d c n : Nat) (bc : re_bytecode_ctx_t)
    (tok : re_token_t) (v qmin qmax : Nat) (g : Bool) (rest : List re_token_t) (e : Bool)
    (off : Nat) :
    parse_alternative_loop R (fuel + 1)
        ⟨fl, d, c, n, bc, tok, ⟨.RE_TOK_START_NON_CAPTURE_GROUP, v, qmin, qmax, g⟩ :: rest⟩ e off
      = match parse_alternative R fuel
            ⟨fl, d, c, n + 1, bc, ⟨.RE_TOK_START_NON_CAPTURE_GROUP, v, qmin, qmax, g⟩, rest⟩
            false with
        | .error err => .error err
        | .ok r =>
          match insert_into_group R r.2 (BYTECODE_LEN bc) n false with
          | .error err => .error err
          | .ok ctx4 => parse_alternative_loop R fuel ctx4 e off :=
  loop_group_non_capture R fuel _ e off _ _ rfl rfl

theorem insert_alternative_length_run (fl d c n : Nat) (tok : re_token_t)
    (rest : List re_token_t) (code : List Nat) (off : Nat)
    (h : code.length < 256) (ho : off ≤ code.length) :
    insert_alternative_length ⟨fl, d, c, n, bc_of code, tok, rest⟩ off
      = .ok ⟨fl, d, c, n, bc_of (splice code off (code.length - off)), tok, rest⟩ :=
  insert_alternative_length_bc_of _ code off rfl h ho


theorem splice_zero (code : List Nat) (b : Nat) : splice code 0 b = b :: code := by
  simp [splice]

theorem splice_mid (code l : List Nat) (off y : Nat) (ho : off ≤ code.length) :
    splice (code.take off ++ (l ++ code.drop off)) off y
      = code.take off ++ (y :: l ++ code.drop off) := by
  have hl : (code.take off).length = off := by simp [ho]
  have h1 : List.take off (code.take off ++ (l ++ code.drop off)) = code.take off := by
    conv => lhs; arg 1; rw [← hl]
    exact List.take_left _ _
  have h2 : List.drop off (code.take off ++ (l ++ code.drop off)) = l ++ code.drop off := by
    conv => lhs; arg 1; rw [← hl]
    exact List.drop_left _ _
  simp only [splice, h1, h2, List.cons_append]

theorem splice_as_mid (code : List Nat) (off y : Nat) :
    splice code off y = code.take off ++ ([y] ++ code.drop off) := rfl

theorem mid_length (code l : List Nat) (off : Nat) :
    (code.take off ++ (l ++ code.drop off)).length = code.length + l.length := by
  simp; omega

theorem re_finish_bc_of (ctx : re_compiler_ctx_t) (code : List Nat)
    (hc : ctx.bytecode_ctx = bc_of code) (h : code.length + 5 ≤ 256) :
    re_finish ctx = .ok { ctx with bytecode_ctx := bc_of (ctx.flags % 256 :: ((ctx.num_of_captures * 2) % 4294967296) % 256 ::
        ctx.num_of_non_captures % 256 :: (code ++ [RE_OP_SAVE_AND_MATCH, RE_OP_EOF])) } := by
  simp only [re_finish, hc]
  rw [append_opcode_bc_of _ _ (by omega)]
  simp only []
  rw [append_opcode_bc_of _ _ (by simp; omega)]
  simp only []
  rw [insert_u32_bc_of _ _ _ (by simp; omega) (by simp), splice_zero]
  simp only []
  rw [insert_u32_bc_of _ _ _ (by simp; omega) (by simp), splice_zero]
  simp only []
  rw [insert_u32_bc_of _ _ _ (by simp; omega) (by simp), splice_zero]
  simp [RE_OP_SAVE_AND_MATCH, RE_OP_EOF]

/-- The cells that `insert_simple_iterator` puts in front of the atom code. -/
theorem insert_simple_iterator_bc_of (ctx : re_compiler_ctx_t) (code : List Nat) (off : Nat)
    (hc : ctx.bytecode_ctx = bc_of code) (h : code.length + 5 ≤ 256) (ho : off ≤ code.length)
    (hq : ctx.current_token.qmin ≤ ctx.current_token.qmax) :
    insert_simple_iterator ctx off = .ok { ctx with bytecode_ctx := bc_of (code.take off ++
        ([(if ctx.current_token.greedy then RE_OP_GREEDY_ITERATOR else RE_OP_NON_GREEDY_ITERATOR),
          ctx.current_token.qmin % 256, ctx.current_token.qmax % 256,
          code.length + 1 - off] ++ (code.drop off ++ [RE_OP_MATCH]))) } := by
  have hq1 : ¬ ¬ ctx.current_token.qmin ≤ ctx.current_token.qmax := not_not.mpr hq
  simp only [insert_simple_iterator, hc]
  rw [if_neg hq1, append_opcode_bc_of _ _ (by omega)]
  simp only [len_bc_of]
  have hl1 : (code ++ [RE_OP_MATCH % 256]).length = code.length + 1 := by simp
  have e1 : (code.length + 1 + 4294967296 - off) % 4294967296 = code.length + 1 - off :=
    u32_sub _ _ (by omega) (by omega)
  have e2 : (code.length + 1 - off) % 256 = code.length + 1 - off := Nat.mod_eq_of_lt (by omega)
  have ht : (code ++ [RE_OP_MATCH % 256]).take off = code.take off :=
    List.take_append_of_le_length ho
  have hd : (code ++ [RE_OP_MATCH % 256]).drop off = code.drop off ++ [RE_OP_MATCH] :=
    List.drop_append_of_le_length ho
  have ho1 : off ≤ (code ++ [RE_OP_MATCH % 256]).length := by rw [hl1]; omega
  rw [hl1, e1, insert_u32_bc_of _ _ _ (by rw [hl1]; omega) ho1, e2, splice_as_mid]
  simp only []
  rw [insert_u32_bc_of _ _ _ (by rw [mid_length, hl1]; simp; omega)
    (by rw [mid_length, hl1]; omega), splice_mid _ _ _ _ ho1]
  simp only []
  rw [insert_u32_bc_of _ _ _ (by rw [mid_length, hl1]; simp; omega)
    (by rw [mid_length, hl1]; omega), splice_mid _ _ _ _ ho1]
  simp only []
  rw [insert_opcode_bc_of _ _ _ (by rw [mid_length, hl1]; simp; omega)
    (by rw [mid_length, hl1]; omega), splice_mid _ _ _ _ ho1]
  simp only [ht, hd]
  cases ctx.current_token.greedy <;>
    simp [RE_OP_GREEDY_ITERATOR, RE_OP_NON_GREEDY_ITERATOR]

theorem splice_at (A X : List Nat) (y : Nat) : splice (A ++ X) A.length y = A ++ y :: X := by
  simp [splice]

theorem splice_after (A l X : List Nat) (off y : Nat) (h : off = A.length + l.length) :
    splice (A ++ (l ++ X)) off y = A ++ (l ++ y :: X) := by
  have := splice_at (A ++ l) X y
  simp only [List.length_append, List.append_assoc] at this
  rw [h, this]

/-- The cells that `insert_into_group` puts around the code of a group. -/
theorem insert_into_group_bc_of (R : re_platform) (ctx : re_compiler_ctx_t) (code : List Nat)
    (gso idx : Nat) (cap : Bool)
    (hc : ctx.bytecode_ctx = bc_of code) (h : code.length + 8 ≤ 256) (ho : gso ≤ code.length)
    (hq : ctx.current_token.qmin ≤ ctx.current_token.qmax) :
    insert_into_group R ctx gso idx cap = .ok { ctx with bytecode_ctx := bc_of (code.take gso ++
      ([get_start_opcode_type R ctx cap % 256, idx % 256] ++
        ((if get_start_opcode_type R ctx cap ≠ R.RE_OP_CAPTURE_GROUP_START
              ∧ get_start_opcode_type R ctx cap ≠ R.RE_OP_NON_CAPTURE_GROUP_START
            then [code.length + 5 - gso] else []) ++
          (code.drop gso ++ [get_end_opcode_type R ctx cap % 256, idx % 256,
            ctx.current_token.qmin % 256, ctx.current_token.qmax % 256,
            code.length + 5 - gso])))) } := by
  have hq1 : ¬ ¬ ctx.current_token.qmin ≤ ctx.current_token.qmax := not_not.mpr hq
  have hA : (code.take gso).length = gso := by simp [ho]
  have hG : (code.drop gso).length = code.length - gso := by simp
  simp only [insert_into_group, hc]
  rw [if_neg hq1, insert_u32_bc_of _ _ _ (by omega) ho, splice_as_mid]
  simp only [len_bc_of]
  rw [insert_u32_bc_of _ _ _ (by rw [mid_length]; simp; omega) (by rw [mid_length]; omega),
    splice_mid _ _ _ _ ho]
  simp only [len_bc_of]
  rw [append_opcode_bc_of _ _ (by rw [mid_length]; simp; omega)]
  simp only []
  rw [append_u32_bc_of _ _ (by simp only [List.length_append, mid_length]; simp; omega)]
  simp only []
  rw [append_u32_bc_of _ _ (by simp only [List.length_append, mid_length]; simp; omega)]
  simp only []
  rw [append_u32_bc_of _ _ (by simp only [List.length_append, mid_length]; simp; omega)]
  simp only [len_bc_of]
  rw [append_jump_offset, append_bc_of _ _ (by simp only [List.length_append, mid_length]; simp; omega)]
  simp only [len_bc_of]
  have hl2 : (code.take gso ++ (get_start_opcode_type R ctx cap % 256 :: [idx % 256]
      ++ code.drop gso)).length = code.length + 2 := by rw [mid_length]; rfl
  have e0 : (code.length + 2 + 4294967296 - code.length) % 4294967296 = 2 := by omega
  have e1 : (gso + 2) % 4294967296 = gso + 2 := Nat.mod_eq_of_lt (by omega)
  simp only [List.length_append, hl2, List.length_singleton, e0, e1]
  have e2 : (code.length + 2 + 1 + 1 + 1 + 1 + 4294967296 - (gso + 2)) % 4294967296
      = code.length + 4 - gso := by omega
  have e3 : re_bytecode_t ((code.length + 4 - gso + 1) % 4294967296) = code.length + 5 - gso := by
    unfold re_bytecode_t
    have : (code.length + 4 - gso + 1) % 4294967296 = code.length + 5 - gso := by omega
    rw [this]; exact Nat.mod_eq_of_lt (by omega)
  have e4 : (code.length + 2 + 1 + 1 + 1 + 1 + 1 + 4294967296 - (gso + 2)) % 4294967296
      = code.length + 5 - gso := by omega
  have e5 : (code.length + 5 - gso) % 256 = code.length + 5 - gso := Nat.mod_eq_of_lt (by omega)
  rw [e2, e3, e4]
  by_cases hz : get_start_opcode_type R ctx cap ≠ R.RE_OP_CAPTURE_GROUP_START
      ∧ get_start_opcode_type R ctx cap ≠ R.RE_OP_NON_CAPTURE_GROUP_START
  · rw [if_pos hz, if_pos hz]
    simp only [List.append_assoc]
    rw [insert_u32_bc_of _ _ _ (by simp; omega) (by simp; omega), e5]
    simp only [List.cons_append, List.nil_append]
    have := splice_after (code.take gso)
      [get_start_opcode_type R ctx cap % 256, idx % 256]
      (code.drop gso ++ [get_end_opcode_type R ctx cap % 256, idx % 256,
            ctx.current_token.qmin % 256, ctx.current_token.qmax % 256,
            code.length + 5 - gso]) (gso + 2) (code.length + 5 - gso) (by rw [hA]; rfl)
    simp only [List.cons_append, List.nil_append, List.append_assoc, List.singleton_append] at this ⊢
    rw [this]
  · rw [if_neg hz, if_neg hz]
    simp [re_bytecode_t]

theorem insert_simple_iterator_run (fl d c n : Nat) (rest : List re_token_t) (code : List Nat)
    (off : Nat) (ty : re_token_type_t) (v qmin qmax : Nat) (g : Bool)
    (h : code.length + 5 ≤ 256) (ho : off ≤ code.length) (hq : qmin ≤ qmax) :
    insert_simple_iterator ⟨fl, d, c, n, bc_of code, ⟨ty, v, qmin, qmax, g⟩, rest⟩ off
      = .ok ⟨fl, d, c, n, bc_of (code.take off ++
          ([(if g then RE_OP_GREEDY_ITERATOR else RE_OP_NON_GREEDY_ITERATOR),
            qmin % 256, qmax % 256, code.length + 1 - off] ++ (code.drop off ++ [RE_OP_MATCH]))),
          ⟨ty, v, qmin, qmax, g⟩, rest⟩ :=
  insert_simple_iterator_bc_of _ code off rfl h ho hq

theorem insert_into_group_run (R : re_platform) (fl d c n : Nat) (rest : List re_token_t)
    (code : List Nat) (gso idx : Nat) (cap : Bool) (ty : re_token_type_t) (v qmin qmax : Nat)
    (g : Bool) (h : code.length + 8 ≤ 256) (ho : gso ≤ code.length) (hq : qmin ≤ qmax) :
    insert_into_group R ⟨fl, d, c, n, bc_of code, ⟨ty, v, qmin, qmax, g⟩, rest⟩ gso idx cap
      = .ok ⟨fl, d, c, n, bc_of (code.take gso ++
          ([get_start_opcode_type R ⟨fl, d, c, n, bc_of code, ⟨ty, v, qmin, qmax, g⟩, rest⟩ cap
              % 256, idx % 256] ++
            ((if get_start_opcode_type R ⟨fl, d, c, n, bc_of code, ⟨ty, v, qmin, qmax, g⟩, rest⟩
                    cap ≠ R.RE_OP_CAPTURE_GROUP_START
                  ∧ get_start_opcode_type R ⟨fl, d, c, n, bc_of code, ⟨ty, v, qmin, qmax, g⟩, rest⟩
                    cap ≠ R.RE_OP_NON_CAPTURE_GROUP_START
                then [code.length + 5 - gso] else []) ++
              (code.drop gso ++
                [get_end_opcode_type R ⟨fl, d, c, n, bc_of code, ⟨ty, v, qmin, qmax, g⟩, rest⟩ cap
                  % 256, idx % 256, qmin % 256, qmax % 256, code.length + 5 - gso])))),
          ⟨ty, v, qmin, qmax, g⟩, rest⟩ :=
  insert_into_group_bc_of R _ code gso idx cap rfl h ho hq

theorem re_finish_run (fl d c n : Nat) (tok : re_token_t) (rest : List re_token_t)
    (code : List Nat) (h : code.length + 5 ≤ 256) :
    re_finish ⟨fl, d, c, n, bc_of code, tok, rest⟩
      = .ok ⟨fl, d, c, n, bc_of (fl % 256 :: ((c * 2) % 4294967296) % 256 :: n % 256 ::
          (code ++ [RE_OP_SAVE_AND_MATCH, RE_OP_EOF])), tok, rest⟩ :=
  re_finish_bc_of _ code rfl h


theorem bc_ok_bc_of (code : List Nat) (h : code.length ≤ 256) : bc_ok (bc_of code) := by
  refine ⟨?_, h⟩
  rw [bytecode_of_bc_of]

theorem bc_ok_len (bc : re_bytecode_ctx_t) (h : bc_ok bc) :
    (bytecode_of bc).length = bc.len := by
  have h1 := h.1
  have : (bc_of (bytecode_of bc)).len = bc.len := by rw [← h1]
  exact this

theorem append_ext (bc bc1 : re_bytecode_ctx_t) (b : Nat) (hok : bc_ok bc) (hl : 1 ≤ bc.len)
    (h : bytecode_list_append bc b = .ok bc1) : bc_ext 1 bc bc1 := by
  have hlen := bc_ok_len bc hok
  rw [hok.1] at h
  by_cases hr : (bytecode_of bc).length < 256
  · rw [append_bc_of _ _ hr] at h
    injection h with h
    subst h
    refine ⟨bc_ok_bc_of _ (by simp; omega), ?_, ?_⟩
    · show (bytecode_of bc ++ [b]).length = bc.len + 1
      simp [hlen]
    · rw [bytecode_of_bc_of]
      cases hb : bytecode_of bc with
      | nil => rw [hb] at hlen; simp at hlen; omega
      | cons x xs => rfl
  · rw [append_bc_of_full _ _ (by omega)] at h
    cases h

theorem insert_ext (bc bc1 : re_bytecode_ctx_t) (b off : Nat) (hok : bc_ok bc) (ho : 1 ≤ off)
    (h : bytecode_list_insert bc b off = .ok bc1) : bc_ext 1 bc bc1 ∧ off ≤ bc.len := by
  have hlen := bc_ok_len bc hok
  rw [hok.1] at h
  by_cases hr : (bytecode_of bc).length < 256
  · by_cases hle : off ≤ (bytecode_of bc).length
    · rw [insert_bc_of _ _ _ hr hle] at h
      injection h with h
      subst h
      refine ⟨⟨bc_ok_bc_of _ (by rw [splice_length]; omega), ?_, ?_⟩, by omega⟩
      · show (splice (bytecode_of bc) off b).length = bc.len + 1
        rw [splice_length, hlen]
      · rw [bytecode_of_bc_of]
        cases hb : bytecode_of bc with
        | nil => rw [hb] at hle; simp at hle; omega
        | cons x xs =>
          obtain ⟨k, rfl⟩ : ∃ k, off = k + 1 := ⟨off - 1, by omega⟩
          simp [splice]
    · rw [insert_bc_of_beyond _ _ _ hr (by omega)] at h
      cases h
  · rw [insert_bc_of_full _ _ _ (by omega)] at h
    cases h

theorem bc_ext_trans (j k : Nat) (a b c : re_bytecode_ctx_t) (h1 : bc_ext j a b)
    (h2 : bc_ext k b c) : bc_ext (j + k) a c :=
  ⟨h2.1, by rw [h2.2.1, h1.2.1]; omega, by rw [h2.2.2, h1.2.2]⟩

theorem append_no_fuel_error (bc : re_bytecode_ctx_t) (b : Nat) :
    bytecode_list_append bc b ≠ .error .out_of_fuel := by
  unfold bytecode_list_append realloc_regexp_bytecode_block
  split_ifs <;> simp

theorem insert_no_fuel_error (bc : re_bytecode_ctx_t) (b off : Nat) :
    bytecode_list_insert bc b off ≠ .error .out_of_fuel := by
  unfold bytecode_list_insert realloc_regexp_bytecode_block
  split_ifs <;> simp <;> split_ifs <;> simp

theorem insert_alternative_length_ext (ctx ctx1 : re_compiler_ctx_t) (off : Nat)
    (hok : bc_ok ctx.bytecode_ctx) (ho : 1 ≤ off)
    (h : insert_alternative_length ctx off = .ok ctx1) : ctx_ext 1 ctx ctx1 := by
  unfold insert_alternative_length at h
  split at h
  · cases h
  · rename_i bc1 h1
    injection h with h
    subst h
    exact ⟨rfl, rfl, rfl, rfl, rfl, rfl, (insert_ext _ _ _ _ hok ho h1).1⟩

theorem insert_alternative_length_no_fuel_error (ctx : re_compiler_ctx_t) (off : Nat) :
    insert_alternative_length ctx off ≠ .error .out_of_fuel := by
  unfold insert_alternative_length
  split
  · rename_i e h1
    intro h
    injection h with h
    subst h
    exact insert_no_fuel_error _ _ _ h1
  · simp

theorem insert_simple_iterator_ext (ctx ctx1 : re_compiler_ctx_t) (off : Nat)
    (hok : bc_ok ctx.bytecode_ctx) (hl : 1 ≤ ctx.bytecode_ctx.len) (ho : 1 ≤ off)
    (h : insert_simple_iterator ctx off = .ok ctx1) : ctx_ext 5 ctx ctx1 := by
  unfold insert_simple_iterator at h
  simp only [] at h
  by_cases hq : ¬ ctx.current_token.qmin ≤ ctx.current_token.qmax
  · rw [if_pos hq] at h; cases h
  rw [if_neg hq] at h
  cases h1 : append_opcode ctx.bytecode_ctx RE_OP_MATCH with
  | error e => rw [h1] at h; cases h
  | ok bc1 =>
    rw [h1] at h
    simp only [] at h
    have x1 := append_ext _ _ _ hok hl h1
    cases h2 : insert_u32 bc1 off
        ((BYTECODE_LEN bc1 + 4294967296 - off) % 4294967296) with
    | error e => rw [h2] at h; cases h
    | ok bc2 =>
      rw [h2] at h
      simp only [] at h
      have x2 := (insert_ext _ _ _ _ x1.1 ho h2).1
      cases h3 : insert_u32 bc2 off ctx.current_token.qmax with
      | error e => rw [h3] at h; cases h
      | ok bc3 =>
        rw [h3] at h
        simp only [] at h
        have x3 := (insert_ext _ _ _ _ x2.1 ho h3).1
        cases h4 : insert_u32 bc3 off ctx.current_token.qmin with
        | error e => rw [h4] at h; cases h
        | ok bc4 =>
          rw [h4] at h
          simp only [] at h
          have x4 := (insert_ext _ _ _ _ x3.1 ho h4).1
          cases h5 : insert_opcode bc4 off (if ctx.current_token.greedy = true
              then RE_OP_GREEDY_ITERATOR else RE_OP_NON_GREEDY_ITERATOR) with
          | error e => rw [h5] at h; cases h
          | ok bc5 =>
            rw [h5] at h
            have x5 := (insert_ext _ _ _ _ x4.1 ho h5).1
            injection h with h
            subst h
            exact ⟨rfl, rfl, rfl, rfl, rfl, rfl,
              bc_ext_trans _ _ _ _ _ (bc_ext_trans _ _ _ _ _ (bc_ext_trans _ _ _ _ _
                (bc_ext_trans _ _ _ _ _ x1 x2) x3) x4) x5⟩

theorem insert_simple_iterator_no_fuel_error (ctx : re_compiler_ctx_t) (off : Nat) :
    insert_simple_iterator ctx off ≠ .error .out_of_fuel := by
  intro h
  unfold insert_simple_iterator at h
  simp only [] at h
  by_cases hq : ¬ ctx.current_token.qmin ≤ ctx.current_token.qmax
  · rw [if_pos hq] at h; cases h
  rw [if_neg hq] at h
  cases h1 : append_opcode ctx.bytecode_ctx RE_OP_MATCH with
  | error e =>
    rw [h1] at h; injection h with h; subst h
    exact append_no_fuel_error _ _ h1
  | ok bc1 =>
    rw [h1] at h
    simp only [] at h
    cases h2 : insert_u32 bc1 off
        ((BYTECODE_LEN bc1 + 4294967296 - off) % 4294967296) with
    | error e =>
      rw [h2] at h; injection h with h; subst h
      exact insert_no_fuel_error _ _ _ h2
    | ok bc2 =>
      rw [h2] at h
      simp only [] at h
      cases h3 : insert_u32 bc2 off ctx.current_token.qmax with
      | error e =>
        rw [h3] at h; injection h with h; subst h
        exact insert_no_fuel_error _ _ _ h3
      | ok bc3 =>
        rw [h3] at h
        simp only [] at h
        cases h4 : insert_u32 bc3 off ctx.current_token.qmin with
        | error e =>
          rw [h4] at h; injection h with h; subst h
          exact insert_no_fuel_error _ _ _ h4
        | ok bc4 =>
          rw [h4] at h
          simp only [] at h
          cases h5 : insert_opcode bc4 off (if ctx.current_token.greedy = true
              then RE_OP_GREEDY_ITERATOR else RE_OP_NON_GREEDY_ITERATOR) with
          | error e =>
            rw [h5] at h; injection h with h; subst h
            exact insert_no_fuel_error _ _ _ h5
          | ok bc5 =>
            rw [h5] at h
            cases h

/-- A group adds seven cells, or eight when its minimum is zero. -/
theorem insert_into_group_ext (R : re_platform) (ctx ctx1 : re_compiler_ctx_t)
    (gso idx : Nat) (cap : Bool)
    (hok : bc_ok ctx.bytecode_ctx) (ho : 1 ≤ gso)
    (h : insert_into_group R ctx gso idx cap = .ok ctx1) :
    ∃ k, 7 ≤ k ∧ ctx_ext k ctx ctx1 := by
  unfold insert_into_group at h
  simp only [] at h
  by_cases hq : ¬ ctx.current_token.qmin ≤ ctx.current_token.qmax
  · rw [if_pos hq] at h; cases h
  rw [if_neg hq] at h
  cases h1 : insert_u32 ctx.bytecode_ctx gso idx with
  | error e => rw [h1] at h; cases h
  | ok bc1 =>
    rw [h1] at h
    simp only [] at h
    have y1 := insert_ext _ _ _ _ hok ho h1
    have x1 := y1.1
    cases h2 : insert_u32 bc1 gso (get_start_opcode_type R ctx cap) with
    | error e => rw [h2] at h; cases h
    | ok bc2 =>
      rw [h2] at h
      simp only [] at h
      have x2 := bc_ext_trans _ _ _ _ _ x1 (insert_ext _ _ _ _ x1.1 ho h2).1
      have hl2 : 1 ≤ bc2.len := by have := x2.2.1; omega
      cases h3 : append_opcode bc2 (get_end_opcode_type R ctx cap) with
      | error e => rw [h3] at h; cases h
      | ok bc3 =>
        rw [h3] at h
        simp only [] at h
        have x3 := bc_ext_trans _ _ _ _ _ x2 (append_ext _ _ _ x2.1 hl2 h3)
        have hl3 : 1 ≤ bc3.len := by have := x3.2.1; omega
        cases h4 : append_u32 bc3 idx with
        | error e => rw [h4] at h; cases h
        | ok bc4 =>
          rw [h4] at h
          simp only [] at h
          have x4 := bc_ext_trans _ _ _ _ _ x3 (append_ext _ _ _ x3.1 hl3 h4)
          have hl4 : 1 ≤ bc4.len := by have := x4.2.1; omega
          cases h5 : append_u32 bc4 ctx.current_token.qmin with
          | error e => rw [h5] at h; cases h
          | ok bc5 =>
            rw [h5] at h
            simp only [] at h
            have x5 := bc_ext_trans _ _ _ _ _ x4 (append_ext _ _ _ x4.1 hl4 h5)
            have hl5 : 1 ≤ bc5.len := by have := x5.2.1; omega
            cases h6 : append_u32 bc5 ctx.current_token.qmax with
            | error e => rw [h6] at h; cases h
            | ok bc6 =>
              rw [h6] at h
              simp only [] at h
              have x6 := bc_ext_trans _ _ _ _ _ x5 (append_ext _ _ _ x5.1 hl5 h6)
              have hl6 : 1 ≤ bc6.len := by have := x6.2.1; omega
              have hlen2 : BYTECODE_LEN bc2 = BYTECODE_LEN ctx.bytecode_ctx + 2 := x2.2.1
              have hlen0 : BYTECODE_LEN ctx.bytecode_ctx ≤ 256 := hok.2
              have hgso : gso ≤ BYTECODE_LEN ctx.bytecode_ctx := y1.2
              have e0 : (gso + (BYTECODE_LEN bc2 + 4294967296 - BYTECODE_LEN ctx.bytecode_ctx)
                  % 4294967296) % 4294967296 = gso + 2 := by
                rw [hlen2]; omega
              rw [e0] at h
              cases h7 : append_jump_offset bc6
                  ((BYTECODE_LEN bc6 + 4294967296 - (gso + 2)) % 4294967296) with
              | error e => rw [h7] at h; cases h
              | ok bc7 =>
                rw [h7] at h
                simp only [] at h
                have x7 := bc_ext_trans _ _ _ _ _ x6 (append_ext _ _ _ x6.1 hl6 h7)
                by_cases hz : get_start_opcode_type R ctx cap ≠ R.RE_OP_CAPTURE_GROUP_START
                    ∧ get_start_opcode_type R ctx cap ≠ R.RE_OP_NON_CAPTURE_GROUP_START
                · rw [if_pos hz] at h
                  cases h8 : insert_u32 bc7 (gso + 2)
                      ((BYTECODE_LEN bc7 + 4294967296 - (gso + 2)) % 4294967296) with
                  | error e => rw [h8] at h; cases h
                  | ok bc8 =>
                    rw [h8] at h
                    have x8 := bc_ext_trans _ _ _ _ _ x7
                      (insert_ext _ _ _ _ x7.1 (by omega) h8).1
                    injection h with h
                    subst h
                    exact ⟨_, by omega, rfl, rfl, rfl, rfl, rfl, rfl, x8⟩
                · rw [if_neg hz] at h
                  injection h with h
                  subst h
                  exact ⟨_, by omega, rfl, rfl, rfl, rfl, rfl, rfl, x7⟩

theorem append_jump_offset_no_fuel_error (bc : re_bytecode_ctx_t) (v : Nat) :
    append_jump_offset bc v ≠ .error .out_of_fuel :=
  append_no_fuel_error _ _

theorem insert_into_group_no_fuel_error (R : re_platform) (ctx : re_compiler_ctx_t)
    (gso idx : Nat) (cap : Bool) :
    insert_into_group R ctx gso idx cap ≠ .error .out_of_fuel := by
  intro h
  unfold insert_into_group at h
  simp only [] at h
  by_cases hq : ¬ ctx.current_token.qmin ≤ ctx.current_token.qmax
  · rw [if_pos hq] at h; cases h
  rw [if_neg hq] at h
  cases h1 : insert_u32 ctx.bytecode_ctx gso idx with
  | error e =>
    rw [h1] at h; injection h with h; subst h
    exact insert_no_fuel_error _ _ _ h1
  | ok bc1 =>
    rw [h1] at h
    simp only [] at h
    cases h2 : insert_u32 bc1 gso (get_start_opcode_type R ctx cap) with
    | error e =>
      rw [h2] at h; injection h with h; subst h
      exact insert_no_fuel_error _ _ _ h2
    | ok bc2 =>
      rw [h2] at h
      simp only [] at h
      cases h3 : append_opcode bc2 (get_end_opcode_type R ctx cap) with
      | error e =>
        rw [h3] at h; injection h with h; subst h
        exact append_no_fuel_error _ _ h3
      | ok bc3 =>
        rw [h3] at h
        simp only [] at h
        cases h4 : append_u32 bc3 idx with
        | error e =>
          rw [h4] at h; injection h with h; subst h
          exact append_no_fuel_error _ _ h4
        | ok bc4 =>
          rw [h4] at h
          simp only [] at h
          cases h5 : append_u32 bc4 ctx.current_token.qmin with
          | error e =>
            rw [h5] at h; injection h with h; subst h
            exact append_no_fuel_error _ _ h5
          | ok bc5 =>
            rw [h5] at h
            simp only [] at h
            cases h6 : append_u32 bc5 ctx.current_token.qmax with
            | error e =>
              rw [h6] at h; injection h with h; subst h
              exact append_no_fuel_error _ _ h6
            | ok bc6 =>
              rw [h6] at h
              simp only [] at h
              generalize hg : (gso + (BYTECODE_LEN bc2 + 4294967296
                - BYTECODE_LEN ctx.bytecode_ctx) % 4294967296) % 4294967296 = g1 at h
              cases h7 : append_jump_offset bc6
                  ((BYTECODE_LEN bc6 + 4294967296 - g1) % 4294967296) with
              | error e =>
                rw [h7] at h; injection h with h; subst h
                exact append_jump_offset_no_fuel_error _ _ h7
              | ok bc7 =>
                rw [h7] at h
                simp only [] at h
                by_cases hz : get_start_opcode_type R ctx cap ≠ R.RE_OP_CAPTURE_GROUP_START
                    ∧ get_start_opcode_type R ctx cap ≠ R.RE_OP_NON_CAPTURE_GROUP_START
                · rw [if_pos hz] at h
                  cases h8 : insert_u32 bc7 g1
                      ((BYTECODE_LEN bc7 + 4294967296 - g1) % 4294967296) with
                  | error e =>
                    rw [h8] at h; injection h with h; subst h
                    exact insert_no_fuel_error _ _ _ h8
                  | ok bc8 =>
                    rw [h8] at h
                    cases h
                · rw [if_neg hz] at h
                  cases h

theorem re_rel_refl (ctx : re_compiler_ctx_t) (h : bc_ok ctx.bytecode_ctx) : re_rel ctx ctx :=
  ⟨h, rfl, le_refl _, le_refl _, le_refl _, le_refl _, rfl, rfl, rfl, le_refl _⟩

theorem re_rel_trans (a b c : re_compiler_ctx_t) (h1 : re_rel a b) (h2 : re_rel b c) :
    re_rel a c := by
  obtain ⟨_, a2, a3, a4, a5, a6, a7, a8, a9, a10⟩ := h1
  obtain ⟨b1, b2, b3, b4, b5, b6, b7, b8, b9, b10⟩ := h2
  exact ⟨b1, by rw [b2, a2], by omega, by omega, by omega, by omega, by omega, by omega,
    by rw [b9, a9], by omega⟩

theorem re_rel_of_ext (k : Nat) (a b : re_compiler_ctx_t) (h : ctx_ext k a b) : re_rel a b := by
  obtain ⟨h1, _, h3, h4, _, h6, h7, h8, h9⟩ := h
  exact ⟨h7, h9, by omega, by omega, by omega, by rw [h3, h4]; omega, by rw [h3, h6],
    by rw [h4, h6], h1, by rw [h6]⟩

theorem next_token_length (p rest : List re_token_t) (t : re_token_t)
    (h : re_parse_next_token p = (t, rest)) : rest.length ≤ p.length := by
  cases p with
  | nil => simp [re_parse_next_token] at h; rw [← h.2]
  | cons x xs =>
    simp [re_parse_next_token] at h
    rw [← h.2]; simp

theorem next_token_count (ty : re_token_type_t) (p rest : List re_token_t) (t : re_token_t)
    (hty : ty ≠ .RE_TOK_EOF) (h : re_parse_next_token p = (t, rest)) :
    count_tokens ty p = (if t.type = ty then 1 else 0) + count_tokens ty rest := by
  cases p with
  | nil =>
    simp [re_parse_next_token] at h
    rw [← h.1, ← h.2]
    have : re_token_type_t.RE_TOK_EOF ≠ ty := fun hh => hty hh.symm
    simp [count_tokens, this]
  | cons x xs =>
    simp [re_parse_next_token] at h
    rw [← h.1, ← h.2]
    by_cases hx : x.type = ty
    · simp [count_tokens, List.filter_cons, hx]; omega
    · simp [count_tokens, List.filter_cons, hx]

theorem next_token_strict (p rest : List re_token_t) (t : re_token_t)
    (h : re_parse_next_token p = (t, rest)) (ht : t.type ≠ .RE_TOK_EOF) :
    rest.length + 1 = p.length := by
  cases p with
  | nil => simp [re_parse_next_token] at h; rw [← h.1] at ht; exact absurd rfl ht
  | cons x xs =>
    simp [re_parse_next_token] at h
    rw [← h.2]; simp

/-- Reading a token that opens no group. -/
theorem re_rel_read (ctx : re_compiler_ctx_t) (t : re_token_t) (rest : List re_token_t)
    (hok : bc_ok ctx.bytecode_ctx) (h : re_parse_next_token ctx.parser_ctx = (t, rest))
    (h1 : t.type ≠ .RE_TOK_START_CAPTURE_GROUP) (h2 : t.type ≠ .RE_TOK_START_NON_CAPTURE_GROUP) :
    re_rel ctx { ctx with current_token := t, parser_ctx := rest } := by
  have c1 := next_token_count .RE_TOK_START_CAPTURE_GROUP _ _ _ (by decide) h
  have c2 := next_token_count .RE_TOK_START_NON_CAPTURE_GROUP _ _ _ (by decide) h
  rw [if_neg h1] at c1
  rw [if_neg h2] at c2
  exact ⟨hok, rfl, le_refl _, le_refl _, le_refl _, le_refl _, by simp only []; omega,
    by simp only []; omega, rfl, next_token_length _ _ _ h⟩

theorem re_rel_group_capture (ctx ctxr ctx4 ctx1 : re_compiler_ctx_t) (t : re_token_t)
    (rest : List re_token_t) (k : Nat)
    (hn : re_parse_next_token ctx.parser_ctx = (t, rest))
    (ht : t.type = .RE_TOK_START_CAPTURE_GROUP)
    (h1 : re_rel { ctx with current_token := t, parser_ctx := rest,
                            num_of_captures := ctx.num_of_captures + 1 } ctxr)
    (hk : 7 ≤ k) (h2 : ctx_ext k ctxr ctx4) (h3 : re_rel ctx4 ctx1) : re_rel ctx ctx1 := by
  have c1 := next_token_count .RE_TOK_START_CAPTURE_GROUP _ _ _ (by decide) hn
  have c2 := next_token_count .RE_TOK_START_NON_CAPTURE_GROUP _ _ _ (by decide) hn
  rw [if_pos ht] at c1
  rw [if_neg (by rw [ht]; decide)] at c2
  have hlen := next_token_length _ _ _ hn
  obtain ⟨_, a2, a3, a4, a5, a6, a7, a8, a9, a10⟩ := h1
  obtain ⟨e1, _, e3, e4, _, e6, _, e8, e9⟩ := h2
  obtain ⟨b1, b2, b3, b4, b5, b6, b7, b8, b9, b10⟩ := h3
  simp only [] at a2 a3 a4 a5 a6 a7 a8 a9 a10
  rw [e6] at b7 b8 b10
  rw [e3] at b4 b6 b7
  rw [e4] at b5 b6 b8
  rw [e8] at b3 b6
  exact ⟨b1, by rw [b2, e9, a2], by omega, by omega, by omega, by omega, by omega, by omega,
    by rw [b9, e1, a9], by omega⟩

theorem re_rel_group_non_capture (ctx ctxr ctx4 ctx1 : re_compiler_ctx_t) (t : re_token_t)
    (rest : List re_token_t) (k : Nat)
    (hn : re_parse_next_token ctx.parser_ctx = (t, rest))
    (ht : t.type = .RE_TOK_START_NON_CAPTURE_GROUP)
    (h1 : re_rel { ctx with current_token := t, parser_ctx := rest,
                            num_of_non_captures := ctx.num_of_non_captures + 1 } ctxr)
    (hk : 7 ≤ k) (h2 : ctx_ext k ctxr ctx4) (h3 : re_rel ctx4 ctx1) : re_rel ctx ctx1 := by
  have c1 := next_token_count .RE_TOK_START_CAPTURE_GROUP _ _ _ (by decide) hn
  have c2 := next_token_count .RE_TOK_START_NON_CAPTURE_GROUP _ _ _ (by decide) hn
  rw [if_neg (by rw [ht]; decide)] at c1
  rw [if_pos ht] at c2
  have hlen := next_token_length _ _ _ hn
  obtain ⟨_, a2, a3, a4, a5, a6, a7, a8, a9, a10⟩ := h1
  obtain ⟨e1, _, e3, e4, _, e6, _, e8, e9⟩ := h2
  obtain ⟨b1, b2, b3, b4, b5, b6, b7, b8, b9, b10⟩ := h3
  simp only [] at a2 a3 a4 a5 a6 a7 a8 a9 a10
  rw [e6] at b7 b8 b10
  rw [e3] at b4 b6 b7
  rw [e4] at b5 b6 b8
  rw [e8] at b3 b6
  exact ⟨b1, by rw [b2, e9, a2], by omega, by omega, by omega, by omega, by omega, by omega,
    by rw [b9, e1, a9], by omega⟩

theorem parse_alternative_of_loop (R : re_platform) (fuel : Nat)
    (ih : ∀ ctx e off r ctx1, parse_alternative_loop R fuel ctx e off = .ok (r, ctx1) →
      bc_ok ctx.bytecode_ctx → 1 ≤ ctx.bytecode_ctx.len → 1 ≤ off →
      re_rel ctx ctx1 ∧ loop_result R r)
    (ctx : re_compiler_ctx_t) (e : Bool) (r : ecma_completion_value_t × re_compiler_ctx_t)
    (h : parse_alternative R fuel ctx e = .ok r)
    (hok : bc_ok ctx.bytecode_ctx) (hl : 1 ≤ ctx.bytecode_ctx.len) : re_rel ctx r.2 := by
  unfold parse_alternative at h
  by_cases hd : ctx.recursion_depth ≥ RE_COMPILE_RECURSION_LIMIT
  · rw [if_pos hd] at h
    injection h with h
    subst h
    exact re_rel_refl _ hok
  · rw [if_neg hd] at h
    obtain ⟨rv, ctx1⟩ := r
    exact (ih _ _ _ _ _ h hok hl hl).1

theorem loop_rel (R : re_platform) : ∀ (fuel : Nat) (ctx : re_compiler_ctx_t) (e : Bool)
    (off : Nat) (r : ecma_completion_value_t) (ctx1 : re_compiler_ctx_t),
    parse_alternative_loop R fuel ctx e off = .ok (r, ctx1) →
    bc_ok ctx.bytecode_ctx → 1 ≤ ctx.bytecode_ctx.len → 1 ≤ off →
    re_rel ctx ctx1 ∧ loop_result R r := by
  intro fuel
  induction fuel with
  | zero =>
    intro ctx e off r ctx1 h
    rw [parse_alternative_loop] at h
    cases h
  | succ fuel ih =>
    intro ctx e off r ctx1 h hok hl ho
    rcases hn : re_parse_next_token ctx.parser_ctx with ⟨t, rest⟩
    cases ht : t.type with
    | RE_TOK_EOF =>
      have hrd := re_rel_read ctx t rest hok hn (by rw [ht]; decide) (by rw [ht]; decide)
      rw [loop_eof R fuel ctx e off t rest hn ht] at h
      by_cases he : ¬ e = true
      · rw [if_pos he] at h
        injection h with h; injection h with h1 h2
        subst h1; subst h2
        exact ⟨hrd, Or.inr rfl⟩
      · rw [if_neg he] at h
        cases h1 : insert_alternative_length
            { ctx with current_token := t, parser_ctx := rest } off with
        | error err => rw [h1] at h; cases h
        | ok ctx2 =>
          rw [h1] at h
          injection h with h; injection h with h2 h3
          subst h2; subst h3
          have x := re_rel_of_ext _ _ _ (insert_alternative_length_ext
            { ctx with current_token := t, parser_ctx := rest } _ _ hok ho h1)
          exact ⟨re_rel_trans _ _ _ hrd x, Or.inl rfl⟩
    | RE_TOK_END_GROUP =>
      have hrd := re_rel_read ctx t rest hok hn (by rw [ht]; decide) (by rw [ht]; decide)
      rw [loop_end_group R fuel ctx e off t rest hn ht] at h
      by_cases he : e = true
      · rw [if_pos he] at h
        injection h with h; injection h with h1 h2
        subst h1; subst h2
        exact ⟨hrd, Or.inr rfl⟩
      · rw [if_neg he] at h
        cases h1 : insert_alternative_length
            { ctx with current_token := t, parser_ctx := rest } off with
        | error err => rw [h1] at h; cases h
        | ok ctx2 =>
          rw [h1] at h
          injection h with h; injection h with h2 h3
          subst h2; subst h3
          have x := re_rel_of_ext _ _ _ (insert_alternative_length_ext
            { ctx with current_token := t, parser_ctx := rest } _ _ hok ho h1)
          exact ⟨re_rel_trans _ _ _ hrd x, Or.inl rfl⟩
    | RE_TOK_OTHER code =>
      have hrd := re_rel_read ctx t rest hok hn (by rw [ht]; simp) (by rw [ht]; simp)
      rw [loop_other R fuel ctx e off t rest code hn ht] at h
      injection h with h; injection h with h1 h2
      subst h1; subst h2
      exact ⟨hrd, Or.inr rfl⟩
    | RE_TOK_ALTERNATIVE =>
      have hrd := re_rel_read ctx t rest hok hn (by rw [ht]; decide) (by rw [ht]; decide)
      rw [loop_alternative R fuel ctx e off t rest hn ht] at h
      cases h1 : insert_alternative_length
          { ctx with current_token := t, parser_ctx := rest } off with
      | error err => rw [h1] at h; cases h
      | ok ctx2 =>
        rw [h1] at h
        simp only [] at h
        have x1 := insert_alternative_length_ext
            { ctx with current_token := t, parser_ctx := rest } _ _ hok ho h1
        have hb2 : bc_ext 1 ctx.bytecode_ctx ctx2.bytecode_ctx := x1.2.2.2.2.2.2
        cases h2 : append_opcode ctx2.bytecode_ctx RE_OP_ALTERNATIVE with
        | error err => rw [h2] at h; cases h
        | ok bc3 =>
          rw [h2] at h
          simp only [] at h
          have hl2 : 1 ≤ ctx2.bytecode_ctx.len := by have := hb2.2.1; omega
          have x2 := append_ext _ _ _ hb2.1 hl2 h2
          have x3 : ctx_ext 1 ctx2 { ctx2 with bytecode_ctx := bc3 } :=
            ⟨rfl, rfl, rfl, rfl, rfl, rfl, x2⟩
          have hl3 : 1 ≤ bc3.len := by have := x2.2.1; omega
          have := ih _ _ _ _ _ h x2.1 hl3 hl3
          exact ⟨re_rel_trans _ _ _ hrd (re_rel_trans _ _ _ (re_rel_of_ext _ _ _ x1)
            (re_rel_trans _ _ _ (re_rel_of_ext _ _ _ x3) this.1)), this.2⟩
    | RE_TOK_CHAR =>
      have hrd := re_rel_read ctx t rest hok hn (by rw [ht]; decide) (by rw [ht]; decide)
      rw [loop_char R fuel ctx e off t rest hn ht] at h
      cases h1 : append_opcode ctx.bytecode_ctx RE_OP_CHAR with
      | error err => rw [h1] at h; cases h
      | ok bc0 =>
        rw [h1] at h
        simp only [] at h
        have x0 := append_ext _ _ _ hok hl h1
        have hl0 : 1 ≤ bc0.len := by have := x0.2.1; omega
        cases h2 : append_u32 bc0 t.value with
        | error err => rw [h2] at h; cases h
        | ok bc1 =>
          rw [h2] at h
          simp only [] at h
          have x1 := bc_ext_trans _ _ _ _ _ x0 (append_ext _ _ _ x0.1 hl0 h2)
          have hl1 : 1 ≤ bc1.len := by have := x1.2.1; omega
          have y1 : ctx_ext 2 { ctx with current_token := t, parser_ctx := rest }
              { ctx with current_token := t, parser_ctx := rest, bytecode_ctx := bc1 } :=
            ⟨rfl, rfl, rfl, rfl, rfl, rfl, x1⟩
          by_cases hq : t.qmin ≠ 1 ∨ t.qmax ≠ 1
          · rw [if_pos hq] at h
            cases h3 : insert_simple_iterator
                { ctx with current_token := t, parser_ctx := rest, bytecode_ctx := bc1 }
                (BYTECODE_LEN ctx.bytecode_ctx) with
            | error err => rw [h3] at h; cases h
            | ok ctx3 =>
              rw [h3] at h
              simp only [] at h
              have y3 := insert_simple_iterator_ext _ _ _ x1.1 hl1 hl h3
              have hb3 : bc_ext 5 bc1 ctx3.bytecode_ctx := y3.2.2.2.2.2.2
              have hl3 : 1 ≤ ctx3.bytecode_ctx.len := by have := hb3.2.1; omega
              have := ih _ _ _ _ _ h hb3.1 hl3 ho
              exact ⟨re_rel_trans _ _ _ hrd (re_rel_trans _ _ _ (re_rel_of_ext _ _ _ y1)
                (re_rel_trans _ _ _ (re_rel_of_ext _ _ _ y3) this.1)), this.2⟩
          · rw [if_neg hq] at h
            have := ih _ _ _ _ _ h x1.1 hl1 ho
            exact ⟨re_rel_trans _ _ _ hrd (re_rel_trans _ _ _ (re_rel_of_ext _ _ _ y1) this.1),
              this.2⟩
    | RE_TOK_PERIOD =>
      have hrd := re_rel_read ctx t rest hok hn (by rw [ht]; decide) (by rw [ht]; decide)
      rw [loop_period R fuel ctx e off t rest hn ht] at h
      cases h2 : append_opcode ctx.bytecode_ctx RE_OP_PERIOD with
      | error err => rw [h2] at h; cases h
      | ok bc1 =>
        rw [h2] at h
        simp only [] at h
        have x1 := append_ext _ _ _ hok hl h2
        have hl1 : 1 ≤ bc1.len := by have := x1.2.1; omega
        have y1 : ctx_ext 1 { ctx with current_token := t, parser_ctx := rest }
            { ctx with current_token := t, parser_ctx := rest, bytecode_ctx := bc1 } :=
          ⟨rfl, rfl, rfl, rfl, rfl, rfl, x1⟩
        by_cases hq : t.qmin ≠ 1 ∨ t.qmax ≠ 1
        · rw [if_pos hq] at h
          cases h3 : insert_simple_iterator
              { ctx with current_token := t, parser_ctx := rest, bytecode_ctx := bc1 }
              (BYTECODE_LEN ctx.bytecode_ctx) with
          | error err => rw [h3] at h; cases h
          | ok ctx3 =>
            rw [h3] at h
            simp only [] at h
            have y3 := insert_simple_iterator_ext _ _ _ x1.1 hl1 hl h3
            have hb3 : bc_ext 5 bc1 ctx3.bytecode_ctx := y3.2.2.2.2.2.2
            have hl3 : 1 ≤ ctx3.bytecode_ctx.len := by have := hb3.2.1; omega
            have := ih _ _ _ _ _ h hb3.1 hl3 ho
            exact ⟨re_rel_trans _ _ _ hrd (re_rel_trans _ _ _ (re_rel_of_ext _ _ _ y1)
              (re_rel_trans _ _ _ (re_rel_of_ext _ _ _ y3) this.1)), this.2⟩
        · rw [if_neg hq] at h
          have := ih _ _ _ _ _ h x1.1 hl1 ho
          exact ⟨re_rel_trans _ _ _ hrd (re_rel_trans _ _ _ (re_rel_of_ext _ _ _ y1) this.1),
            this.2⟩
    | RE_TOK_START_CAPTURE_GROUP =>
      rw [loop_group_capture R fuel ctx e off t rest hn ht] at h
      cases h1 : parse_alternative R fuel
          { ctx with current_token := t, parser_ctx := rest,
                     num_of_captures := ctx.num_of_captures + 1 } false with
      | error err => rw [h1] at h; cases h
      | ok r1 =>
        rw [h1] at h
        simp only [] at h
        have x1 := parse_alternative_of_loop R fuel ih _ _ _ h1 hok hl
        cases h2 : insert_into_group R r1.2 (BYTECODE_LEN ctx.bytecode_ctx)
            ctx.num_of_captures true with
        | error err => rw [h2] at h; cases h
        | ok ctx4 =>
          rw [h2] at h
          simp only [] at h
          obtain ⟨k, hk, x2⟩ := insert_into_group_ext R _ _ _ _ _ x1.1 hl h2
          have hb4 : bc_ext k r1.2.bytecode_ctx ctx4.bytecode_ctx := x2.2.2.2.2.2.2
          have hl4 : 1 ≤ ctx4.bytecode_ctx.len := by
            have := hb4.2.1
            have := x1.2.2.1
            simp only [] at this
            omega
          have := ih _ _ _ _ _ h hb4.1 hl4 ho
          exact ⟨re_rel_group_capture ctx r1.2 ctx4 ctx1 t rest k hn ht x1 hk x2 this.1, this.2⟩
    | RE_TOK_START_NON_CAPTURE_GROUP =>
      rw [loop_group_non_capture R fuel ctx e off t rest hn ht] at h
      cases h1 : parse_alternative R fuel
          { ctx with current_token := t, parser_ctx := rest,
                     num_of_non_captures := ctx.num_of_non_captures + 1 } false with
      | error err => rw [h1] at h; cases h
      | ok r1 =>
        rw [h1] at h
        simp only [] at h
        have x1 := parse_alternative_of_loop R fuel ih _ _ _ h1 hok hl
        cases h2 : insert_into_group R r1.2 (BYTECODE_LEN ctx.bytecode_ctx)
            ctx.num_of_non_captures false with
        | error err => rw [h2] at h; cases h
        | ok ctx4 =>
          rw [h2] at h
          simp only [] at h
          obtain ⟨k, hk, x2⟩ := insert_into_group_ext R _ _ _ _ _ x1.1 hl h2
          have hb4 : bc_ext k r1.2.bytecode_ctx ctx4.bytecode_ctx := x2.2.2.2.2.2.2
          have hl4 : 1 ≤ ctx4.bytecode_ctx.len := by
            have := hb4.2.1
            have := x1.2.2.1
            simp only [] at this
            omega
          have := ih _ _ _ _ _ h hb4.1 hl4 ho
          exact ⟨re_rel_group_non_capture ctx r1.2 ctx4 ctx1 t rest k hn ht x1 hk x2 this.1,
            this.2⟩

theorem parse_alternative_rel (R : re_platform) (fuel : Nat) (ctx : re_compiler_ctx_t)
    (e : Bool) (r : ecma_completion_value_t × re_compiler_ctx_t)
    (h : parse_alternative R fuel ctx e = .ok r)
    (hok : bc_ok ctx.bytecode_ctx) (hl : 1 ≤ ctx.bytecode_ctx.len) : re_rel ctx r.2 :=
  parse_alternative_of_loop R fuel (loop_rel R fuel) ctx e r h hok hl

theorem loop_fuel (R : re_platform) : ∀ (fuel : Nat) (ctx : re_compiler_ctx_t) (e : Bool)
    (off : Nat), ctx.parser_ctx.length < fuel →
    bc_ok ctx.bytecode_ctx → 1 ≤ ctx.bytecode_ctx.len → 1 ≤ off →
    parse_alternative_loop R fuel ctx e off ≠ .error .out_of_fuel := by
  intro fuel
  induction fuel with
  | zero => intro ctx e off hf; omega
  | succ fuel ih =>
    intro ctx e off hf hok hl ho h
    rcases hn : re_parse_next_token ctx.parser_ctx with ⟨t, rest⟩
    have hlen := next_token_length _ _ _ hn
    cases ht : t.type with
    | RE_TOK_EOF =>
      rw [loop_eof R fuel ctx e off t rest hn ht] at h
      by_cases he : ¬ e = true
      · rw [if_pos he] at h; cases h
      · rw [if_neg he] at h
        cases h1 : insert_alternative_length
            { ctx with current_token := t, parser_ctx := rest } off with
        | error err =>
          rw [h1] at h; injection h with h; subst h
          exact insert_alternative_length_no_fuel_error _ _ h1
        | ok ctx2 => rw [h1] at h; cases h
    | RE_TOK_END_GROUP =>
      rw [loop_end_group R fuel ctx e off t rest hn ht] at h
      by_cases he : e = true
      · rw [if_pos he] at h; cases h
      · rw [if_neg he] at h
        cases h1 : insert_alternative_length
            { ctx with current_token := t, parser_ctx := rest } off with
        | error err =>
          rw [h1] at h; injection h with h; subst h
          exact insert_alternative_length_no_fuel_error _ _ h1
        | ok ctx2 => rw [h1] at h; cases h
    | RE_TOK_OTHER code =>
      rw [loop_other R fuel ctx e off t rest code hn ht] at h
      cases h
    | RE_TOK_ALTERNATIVE =>
      have hs := next_token_strict _ _ _ hn (by rw [ht]; decide)
      rw [loop_alternative R fuel ctx e off t rest hn ht] at h
      cases h1 : insert_alternative_length
          { ctx with current_token := t, parser_ctx := rest } off with
      | error err =>
        rw [h1] at h; injection h with h; subst h
        exact insert_alternative_length_no_fuel_error _ _ h1
      | ok ctx2 =>
        rw [h1] at h
        simp only [] at h
        have x1 := insert_alternative_length_ext
          { ctx with current_token := t, parser_ctx := rest } _ _ hok ho h1
        have hb2 : bc_ext 1 ctx.bytecode_ctx ctx2.bytecode_ctx := x1.2.2.2.2.2.2
        have hp2 : ctx2.parser_ctx = rest := x1.2.2.2.2.2.1
        cases h2 : append_opcode ctx2.bytecode_ctx RE_OP_ALTERNATIVE with
        | error err =>
          rw [h2] at h; injection h with h; subst h
          exact append_no_fuel_error _ _ h2
        | ok bc3 =>
          rw [h2] at h
          simp only [] at h
          have hl2 : 1 ≤ ctx2.bytecode_ctx.len := by have := hb2.2.1; omega
          have x2 := append_ext _ _ _ hb2.1 hl2 h2
          have hl3 : 1 ≤ bc3.len := by have := x2.2.1; omega
          exact ih { ctx2 with bytecode_ctx := bc3 } e _ (by simp only [hp2]; omega)
            x2.1 hl3 hl3 h
    | RE_TOK_CHAR =>
      have hs := next_token_strict _ _ _ hn (by rw [ht]; decide)
      rw [loop_char R fuel ctx e off t rest hn ht] at h
      cases h1 : append_opcode ctx.bytecode_ctx RE_OP_CHAR with
      | error err =>
        rw [h1] at h; injection h with h; subst h
        exact append_no_fuel_error _ _ h1
      | ok bc0 =>
        rw [h1] at h
        simp only [] at h
        have x0 := append_ext _ _ _ hok hl h1
        have hl0 : 1 ≤ bc0.len := by have := x0.2.1; omega
        cases h2 : append_u32 bc0 t.value with
        | error err =>
          rw [h2] at h; injection h with h; subst h
          exact append_no_fuel_error _ _ h2
        | ok bc1 =>
          rw [h2] at h
          simp only [] at h
          have x1 := bc_ext_trans _ _ _ _ _ x0 (append_ext _ _ _ x0.1 hl0 h2)
          have hl1 : 1 ≤ bc1.len := by have := x1.2.1; omega
          by_cases hq : t.qmin ≠ 1 ∨ t.qmax ≠ 1
          · rw [if_pos hq] at h
            cases h3 : insert_simple_iterator
                { ctx with current_token := t, parser_ctx := rest, bytecode_ctx := bc1 }
                (BYTECODE_LEN ctx.bytecode_ctx) with
            | error err =>
              rw [h3] at h; injection h with h; subst h
              exact insert_simple_iterator_no_fuel_error _ _ h3
            | ok ctx3 =>
              rw [h3] at h
              simp only [] at h
              have y3 := insert_simple_iterator_ext _ _ _ x1.1 hl1 hl h3
              have hb3 : bc_ext 5 bc1 ctx3.bytecode_ctx := y3.2.2.2.2.2.2
              have hp3 : ctx3.parser_ctx = rest := y3.2.2.2.2.2.1
              have hl3 : 1 ≤ ctx3.bytecode_ctx.len := by have := hb3.2.1; omega
              exact ih ctx3 e off (by rw [hp3]; omega) hb3.1 hl3 ho h
          · rw [if_neg hq] at h
            exact ih _ e off (by simp only []; omega) x1.1 hl1 ho h
    | RE_TOK_PERIOD =>
      have hs := next_token_strict _ _ _ hn (by rw [ht]; decide)
      rw [loop_period R fuel ctx e off t rest hn ht] at h
      cases h2 : append_opcode ctx.bytecode_ctx RE_OP_PERIOD with
      | error err =>
        rw [h2] at h; injection h with h; subst h
        exact append_no_fuel_error _ _ h2
      | ok bc1 =>
        rw [h2] at h
        simp only [] at h
        have x1 := append_ext _ _ _ hok hl h2
        have hl1 : 1 ≤ bc1.len := by have := x1.2.1; omega
        by_cases hq : t.qmin ≠ 1 ∨ t.qmax ≠ 1
        · rw [if_pos hq] at h
          cases h3 : insert_simple_iterator
              { ctx with current_token := t, parser_ctx := rest, bytecode_ctx := bc1 }
              (BYTECODE_LEN ctx.bytecode_ctx) with
          | error err =>
            rw [h3] at h; injection h with h; subst h
            exact insert_simple_iterator_no_fuel_error _ _ h3
          | ok ctx3 =>
            rw [h3] at h
            simp only [] at h
            have y3 := insert_simple_iterator_ext _ _ _ x1.1 hl1 hl h3
            have hb3 : bc_ext 5 bc1 ctx3.bytecode_ctx := y3.2.2.2.2.2.2
            have hp3 : ctx3.parser_ctx = rest := y3.2.2.2.2.2.1
            have hl3 : 1 ≤ ctx3.bytecode_ctx.len := by have := hb3.2.1; omega
            exact ih ctx3 e off (by rw [hp3]; omega) hb3.1 hl3 ho h
        · rw [if_neg hq] at h
          exact ih _ e off (by simp only []; omega) x1.1 hl1 ho h
    | RE_TOK_START_CAPTURE_GROUP =>
      have hs := next_token_strict _ _ _ hn (by rw [ht]; decide)
      rw [loop_group_capture R fuel ctx e off t rest hn ht] at h
      cases h1 : parse_alternative R fuel
          { ctx with current_token := t, parser_ctx := rest,
                     num_of_captures := ctx.num_of_captures + 1 } false with
      | error err =>
        rw [h1] at h; injection h with h; subst h
        unfold parse_alternative at h1
        split_ifs at h1
        refine ih _ _ _ ?_ ?_ ?_ ?_ h1
        · show rest.length < fuel
          omega
        · exact hok
        · exact hl
        · exact hl
      | ok r1 =>
        rw [h1] at h
        simp only [] at h
        have x1 := parse_alternative_rel R fuel _ _ _ h1 hok hl
        cases h2 : insert_into_group R r1.2 (BYTECODE_LEN ctx.bytecode_ctx)
            ctx.num_of_captures true with
        | error err =>
          rw [h2] at h; injection h with h; subst h
          exact insert_into_group_no_fuel_error _ _ _ _ _ h2
        | ok ctx4 =>
          rw [h2] at h
          simp only [] at h
          obtain ⟨k, hk, x2⟩ := insert_into_group_ext R _ _ _ _ _ x1.1 hl h2
          have hb4 : bc_ext k r1.2.bytecode_ctx ctx4.bytecode_ctx := x2.2.2.2.2.2.2
          have hp4 : ctx4.parser_ctx = r1.2.parser_ctx := x2.2.2.2.2.2.1
          have hpr := x1.2.2.2.2.2.2.2.2.2
          have hl4 : 1 ≤ ctx4.bytecode_ctx.len := by
            have := hb4.2.1
            have := x1.2.2.1
            simp only [] at this
            omega
          simp only [] at hpr
          exact ih ctx4 e off (by rw [hp4]; omega) hb4.1 hl4 ho h
    | RE_TOK_START_NON_CAPTURE_GROUP =>
      have hs := next_token_strict _ _ _ hn (by rw [ht]; decide)
      rw [loop_group_non_capture R fuel ctx e off t rest hn ht] at h
      cases h1 : parse_alternative R fuel
          { ctx with current_token := t, parser_ctx := rest,
                     num_of_non_captures := ctx.num_of_non_captures + 1 } false with
      | error err =>
        rw [h1] at h; injection h with h; subst h
        unfold parse_alternative at h1
        split_ifs at h1
        refine ih _ _ _ ?_ ?_ ?_ ?_ h1
        · show rest.length < fuel
          omega
        · exact hok
        · exact hl
        · exact hl
      | ok r1 =>
        rw [h1] at h
        simp only [] at h
        have x1 := parse_alternative_rel R fuel _ _ _ h1 hok hl
        cases h2 : insert_into_group R r1.2 (BYTECODE_LEN ctx.bytecode_ctx)
            ctx.num_of_non_captures false with
        | error err =>
          rw [h2] at h; injection h with h; subst h
          exact insert_into_group_no_fuel_error _ _ _ _ _ h2
        | ok ctx4 =>
          rw [h2] at h
          simp only [] at h
          obtain ⟨k, hk, x2⟩ := insert_into_group_ext R _ _ _ _ _ x1.1 hl h2
          have hb4 : bc_ext k r1.2.bytecode_ctx ctx4.bytecode_ctx := x2.2.2.2.2.2.2
          have hp4 : ctx4.parser_ctx = r1.2.parser_ctx := x2.2.2.2.2.2.1
          have hpr := x1.2.2.2.2.2.2.2.2.2
          have hl4 : 1 ≤ ctx4.bytecode_ctx.len := by
            have := hb4.2.1
            have := x1.2.2.1
            simp only [] at this
            omega
          simp only [] at hpr
          exact ih ctx4 e off (by rw [hp4]; omega) hb4.1 hl4 ho h

theorem flag_bits_facts : ∀ fl < 8, ∀ c ∈ [103, 105, 109], ∀ d ∈ [103, 105, 109],
    (fl ||| flag_bit c) < 8 ∧ (fl ||| flag_bit c) % 256 = fl ||| flag_bit c
      ∧ (((fl ||| flag_bit c) &&& flag_bit d = 0) ↔ (fl &&& flag_bit d = 0 ∧ d ≠ c)) := by
  decide

theorem flags_loop_thrown (R : re_platform) (s : List Nat) (v : ecma_value_t) (fl : Nat) :
    parse_regexp_flags_loop R s (.throw v) fl = (.throw v, fl) := by
  cases s with
  | nil => rfl
  | cons c rest => simp [parse_regexp_flags_loop]

theorem is_flag_mem (c : Nat) (h : c = 103 ∨ c = 105 ∨ c = 109) : c ∈ [103, 105, 109] := by
  rcases h with h | h | h <;> simp [h]

theorem flags_loop_spec (R : re_platform) : ∀ (s : List Nat) (fl : Nat), fl < 8 → 0 ∉ s →
    (fresh_flags fl s → parse_regexp_flags_loop R s .empty fl = (.empty, flags_mask fl s)
      ∧ flags_mask fl s < 8)
    ∧ (¬ fresh_flags fl s →
        (parse_regexp_flags_loop R s .empty fl).1 = re_throw R .ECMA_ERROR_SYNTAX) := by
  intro s
  induction s with
  | nil =>
    intro fl hfl _
    refine ⟨fun _ => ⟨rfl, hfl⟩, fun h => ?_⟩
    exact absurd ⟨by simp, List.nodup_nil⟩ h
  | cons c rest ih =>
    intro fl hfl h0
    have hc0 : c ≠ 0 := fun h => h0 (by simp [h])
    have h0r : 0 ∉ rest := fun h => h0 (List.mem_cons_of_mem _ h)
    have hstep : ∀ (bit : Nat), (c = 103 ∨ c = 105 ∨ c = 109) → flag_bit c = bit →
        parse_regexp_flags_loop R (c :: rest) .empty fl
          = parse_regexp_flags_loop R rest
              (if fl &&& bit ≠ 0 then re_throw R .ECMA_ERROR_SYNTAX else .empty)
              ((fl ||| bit) % 256) := by
      intro bit hc hb
      rcases hc with hc | hc | hc <;> subst hc <;>
        simp [parse_regexp_flags_loop, flag_bit] at hb ⊢ <;> subst hb <;> rfl
    by_cases hc : c = 103 ∨ c = 105 ∨ c = 109
    · have hm := is_flag_mem c hc
      have hf := flag_bits_facts fl hfl c hm
      rw [hstep _ hc rfl]
      by_cases hb : fl &&& flag_bit c ≠ 0
      · rw [if_pos hb]
        refine ⟨fun hfr => absurd (hfr.1 c (by simp)).2 hb, fun _ => ?_⟩
        rw [re_throw, flags_loop_thrown]
      · rw [if_neg hb]
        have hb0 : fl &&& flag_bit c = 0 := not_not.mp hb
        have h1 := hf c hm
        rw [h1.2.1]
        have key : fresh_flags fl (c :: rest) ↔ fresh_flags (fl ||| flag_bit c) rest := by
          constructor
          · intro hfr
            refine ⟨fun d hd => ?_, (List.nodup_cons.mp hfr.2).2⟩
            have hdd := hfr.1 d (List.mem_cons_of_mem _ hd)
            refine ⟨hdd.1, ((hf d (is_flag_mem d hdd.1)).2.2).mpr ⟨hdd.2, ?_⟩⟩
            intro hdc
            exact (List.nodup_cons.mp hfr.2).1 (hdc ▸ hd)
          · intro hfr
            refine ⟨fun d hd => ?_, List.nodup_cons.mpr ⟨fun hin => ?_, hfr.2⟩⟩
            · rcases List.mem_cons.mp hd with hd | hd
              · subst hd; exact ⟨hc, hb0⟩
              · have hdd := hfr.1 d hd
                exact ⟨hdd.1, (((hf d (is_flag_mem d hdd.1)).2.2).mp hdd.2).1⟩
            · have hdd := hfr.1 c hin
              exact (((hf c hm).2.2).mp hdd.2).2 rfl
        have := ih (fl ||| flag_bit c) h1.1 h0r
        refine ⟨fun hfr => ?_, fun hfr => ?_⟩
        · exact this.1 (key.mp hfr)
        · exact this.2 (fun hh => hfr (key.mpr hh))
    · have hstep2 : parse_regexp_flags_loop R (c :: rest) .empty fl
          = parse_regexp_flags_loop R rest (re_throw R .ECMA_ERROR_SYNTAX) fl := by
        have h1 : c ≠ 103 := fun h => hc (Or.inl h)
        have h2 : c ≠ 105 := fun h => hc (Or.inr (Or.inl h))
        have h3 : c ≠ 109 := fun h => hc (Or.inr (Or.inr h))
        simp [parse_regexp_flags_loop, hc0, h1, h2, h3]
      rw [hstep2]
      refine ⟨fun hfr => absurd (hfr.1 c (by simp)).1 hc, fun _ => ?_⟩
      rw [re_throw, flags_loop_thrown]

theorem insert_len (bc bc1 : re_bytecode_ctx_t) (b off : Nat) (hok : bc_ok bc)
    (h : bytecode_list_insert bc b off = .ok bc1) : bc_ok bc1 ∧ bc1.len = bc.len + 1 := by
  have hlen := bc_ok_len bc hok
  rw [hok.1] at h
  by_cases hr : (bytecode_of bc).length < 256
  · by_cases hle : off ≤ (bytecode_of bc).length
    · rw [insert_bc_of _ _ _ hr hle] at h
      injection h with h
      subst h
      refine ⟨bc_ok_bc_of _ (by rw [splice_length]; omega), ?_⟩
      show (splice (bytecode_of bc) off b).length = bc.len + 1
      rw [splice_length, hlen]
    · rw [insert_bc_of_beyond _ _ _ hr (by omega)] at h
      cases h
  · rw [insert_bc_of_full _ _ _ (by omega)] at h
    cases h

theorem re_finish_room (ctx ctx2 : re_compiler_ctx_t) (hok : bc_ok ctx.bytecode_ctx)
    (hl : 1 ≤ ctx.bytecode_ctx.len) (h : re_finish ctx = .ok ctx2) :
    ctx.bytecode_ctx.len + 5 ≤ 256 := by
  unfold re_finish at h
  cases h1 : append_opcode ctx.bytecode_ctx RE_OP_SAVE_AND_MATCH with
  | error e => rw [h1] at h; cases h
  | ok bc1 =>
    rw [h1] at h
    simp only [] at h
    have x1 := append_ext _ _ _ hok hl h1
    cases h2 : append_opcode bc1 RE_OP_EOF with
    | error e => rw [h2] at h; cases h
    | ok bc2 =>
      rw [h2] at h
      simp only [] at h
      have x2 := append_ext _ _ _ x1.1 (by have := x1.2.1; omega) h2
      cases h3 : insert_u32 bc2 0 ctx.num_of_non_captures with
      | error e => rw [h3] at h; cases h
      | ok bc3 =>
        rw [h3] at h
        simp only [] at h
        have x3 := insert_len _ _ _ _ x2.1 h3
        cases h4 : insert_u32 bc3 0 ((ctx.num_of_captures * 2) % 4294967296) with
        | error e => rw [h4] at h; cases h
        | ok bc4 =>
          rw [h4] at h
          simp only [] at h
          have x4 := insert_len _ _ _ _ x3.1 h4
          cases h5 : insert_u32 bc4 0 ctx.flags with
          | error e => rw [h5] at h; cases h
          | ok bc5 =>
            have x5 := insert_len _ _ _ _ x4.1 h5
            have := x5.1.2
            have := x5.2
            have := x4.2
            have := x3.2
            have := x2.2.1
            have := x1.2.1
            omega

theorem re_finish_no_fuel_error (ctx : re_compiler_ctx_t) :
    re_finish ctx ≠ .error .out_of_fuel := by
  intro h
  unfold re_finish at h
  cases h1 : append_opcode ctx.bytecode_ctx RE_OP_SAVE_AND_MATCH with
  | error e =>
    rw [h1] at h; injection h with h; subst h
    exact append_no_fuel_error _ _ h1
  | ok bc1 =>
    rw [h1] at h
    simp only [] at h
    cases h2 : append_opcode bc1 RE_OP_EOF with
    | error e =>
      rw [h2] at h; injection h with h; subst h
      exact append_no_fuel_error _ _ h2
    | ok bc2 =>
      rw [h2] at h
      simp only [] at h
      cases h3 : insert_u32 bc2 0 ctx.num_of_non_captures with
      | error e =>
        rw [h3] at h; injection h with h; subst h
        exact insert_no_fuel_error _ _ _ h3
      | ok bc3 =>
        rw [h3] at h
        simp only [] at h
        cases h4 : insert_u32 bc3 0 ((ctx.num_of_captures * 2) % 4294967296) with
        | error e =>
          rw [h4] at h; injection h with h; subst h
          exact insert_no_fuel_error _ _ _ h4
        | ok bc4 =>
          rw [h4] at h
          simp only [] at h
          cases h5 : insert_u32 bc4 0 ctx.flags with
          | error e =>
            rw [h5] at h; injection h with h; subst h
            exact insert_no_fuel_error _ _ _ h5
          | ok bc5 => rw [h5] at h; cases h

/-- The context in which `regexp_compile_bytecode` starts the top-level call
of the loop when it is given a flags string. -/
theorem compile_some (R : re_platform) (pattern : List re_token_t) (s : List Nat) :
    regexp_compile_bytecode R pattern (some s)
      = if ecma_is_completion_value_throw (parse_regexp_flags R 0 s).1 then
          .ok ⟨(parse_regexp_flags R 0 s).1, none⟩
        else
          match parse_alternative_loop R (2 * pattern.length + 3)
              { flags := (parse_regexp_flags R 0 s).2,
                recursion_depth := 1, num_of_captures := 1, num_of_non_captures := 0,
                bytecode_ctx := bc_of [RE_OP_SAVE_AT_START],
                current_token := ⟨.RE_TOK_EOF, 0, 1, 1, true⟩, parser_ctx := pattern } true 1 with
          | .error e => Except.error e
          | .ok r =>
            match re_finish r.2 with
            | .error e => Except.error e
            | .ok ctx2 =>
              Except.ok (re_compile_result.mk
                (if ecma_is_completion_value_throw r.1 then r.1 else .empty) (some ctx2)) := by
  unfold regexp_compile_bytecode
  simp only []
  generalize parse_regexp_flags R 0 s = parsed
  by_cases ht : ecma_is_completion_value_throw parsed.1 = true
  · rw [if_pos ht]
    simp only [ht, if_true]
    rw [if_pos]
    intro hh
    rw [hh] at ht
    exact absurd ht (by decide)
  · simp only [ht, ne_eq, not_true_eq_false, if_false, Bool.false_eq_true]
    exact compile_start R pattern parsed.2

theorem compile_none_from (R : re_platform) (pattern : List re_token_t) :
    regexp_compile_bytecode R pattern none = compile_from R pattern 0 :=
  compile_no_flags R pattern

theorem compile_some_from (R : re_platform) (pattern : List re_token_t) (s : List Nat) :
    regexp_compile_bytecode R pattern (some s)
      = if ecma_is_completion_value_throw (parse_regexp_flags R 0 s).1 then
          .ok ⟨(parse_regexp_flags R 0 s).1, none⟩
        else compile_from R pattern (parse_regexp_flags R 0 s).2 :=
  compile_some R pattern s

theorem start_ok : bc_ok (bc_of [RE_OP_SAVE_AT_START]) := bc_ok_bc_of _ (by decide)

theorem compile_from_no_fuel_error (R : re_platform) (pattern : List re_token_t) (fl : Nat) :
    compile_from R pattern fl ≠ .error .out_of_fuel := by
  intro h
  unfold compile_from at h
  cases h1 : parse_alternative_loop R (2 * pattern.length + 3)
      { flags := fl, recursion_depth := 1, num_of_captures := 1, num_of_non_captures := 0,
        bytecode_ctx := bc_of [RE_OP_SAVE_AT_START],
        current_token := ⟨.RE_TOK_EOF, 0, 1, 1, true⟩, parser_ctx := pattern } true 1 with
  | error e =>
    rw [h1] at h; injection h with h; subst h
    refine loop_fuel R _ _ _ _ ?_ ?_ ?_ ?_ h1
    · show pattern.length < 2 * pattern.length + 3
      omega
    · exact start_ok
    · exact le_refl 1
    · exact le_refl 1
  | ok r =>
    rw [h1] at h
    simp only [] at h
    cases h2 : re_finish r.2 with
    | error e =>
      rw [h2] at h; injection h with h; subst h
      exact re_finish_no_fuel_error _ h2
    | ok ctx2 => rw [h2] at h; cases h

/-- What a run of `compile_from` that returns leaves behind. -/
theorem compile_from_facts (R : re_platform) (pattern : List re_token_t) (fl : Nat)
    (hfl : fl < 256) (res : re_compile_result) (h : compile_from R pattern fl = .ok res) :
    loop_result R res.ret_value
    ∧ ∃ ctx rest, res.re_ctx = some ctx ∧ ctx.flags = fl
      ∧ bytecode_of ctx.bytecode_ctx
          = fl :: 2 * ctx.num_of_captures :: ctx.num_of_non_captures
              :: RE_OP_SAVE_AT_START :: rest
      ∧ ctx.num_of_captures + count_tokens .RE_TOK_START_CAPTURE_GROUP ctx.parser_ctx
          = 1 + count_tokens .RE_TOK_START_CAPTURE_GROUP pattern
      ∧ ctx.num_of_non_captures + count_tokens .RE_TOK_START_NON_CAPTURE_GROUP ctx.parser_ctx
          = count_tokens .RE_TOK_START_NON_CAPTURE_GROUP pattern := by
  unfold compile_from at h
  cases h1 : parse_alternative_loop R (2 * pattern.length + 3)
      { flags := fl, recursion_depth := 1, num_of_captures := 1, num_of_non_captures := 0,
        bytecode_ctx := bc_of [RE_OP_SAVE_AT_START],
        current_token := ⟨.RE_TOK_EOF, 0, 1, 1, true⟩, parser_ctx := pattern } true 1 with
  | error e => rw [h1] at h; cases h
  | ok r =>
    rw [h1] at h
    simp only [] at h
    obtain ⟨rv, ctx1⟩ := r
    have hr := loop_rel R _ _ _ _ _ _ h1 start_ok (le_refl 1) (le_refl 1)
    obtain ⟨⟨a1, a2, a3, a4, a5, a6, a7, a8, a9, a10⟩, hres⟩ := hr
    simp only [] at a2 a3 a4 a5 a6 a7 a8 a9 a10
    have hlen0 : (bc_of [RE_OP_SAVE_AT_START]).len = 1 := rfl
    rw [hlen0] at a3 a6
    cases h2 : re_finish ctx1 with
    | error e => rw [h2] at h; cases h
    | ok ctx2 =>
      rw [h2] at h
      injection h with h
      subst h
      have hroom := re_finish_room ctx1 ctx2 a1 a3 h2
      have hcl := bc_ok_len _ a1
      have hfin := re_finish_bc_of ctx1 (bytecode_of ctx1.bytecode_ctx) a1.1
        (by rw [hcl]; exact hroom)
      rw [h2] at hfin
      injection hfin with hfin
      have hhead : (bytecode_of ctx1.bytecode_ctx).head? = some RE_OP_SAVE_AT_START := by
        rw [a2, bytecode_of_bc_of]; rfl
      obtain ⟨tl, htl⟩ : ∃ tl, bytecode_of ctx1.bytecode_ctx = RE_OP_SAVE_AT_START :: tl := by
        cases hb : bytecode_of ctx1.bytecode_ctx with
        | nil => rw [hb] at hhead; cases hhead
        | cons x xs =>
          rw [hb] at hhead
          injection hhead with hhead
          exact ⟨xs, by rw [hhead]⟩
      refine ⟨?_, ctx2, tl ++ [RE_OP_SAVE_AND_MATCH, RE_OP_EOF], rfl, ?_, ?_, ?_, ?_⟩
      · rcases hres with hres | hres
        · left; rw [hres]; rfl
        · right; rw [hres]; rfl
      · rw [hfin]; exact a9
      · rw [hfin]
        simp only [bytecode_of_bc_of, htl, a9]
        have e1 : fl % 256 = fl := Nat.mod_eq_of_lt hfl
        have e2 : ctx1.num_of_captures * 2 % 4294967296 % 256 = 2 * ctx1.num_of_captures := by
          omega
        have e3 : ctx1.num_of_non_captures % 256 = ctx1.num_of_non_captures := by omega
        rw [e1, e2, e3]
        rfl
      · rw [hfin]; exact a7
      · rw [hfin]
        simp only []
        rw [a8]
        omega

theorem insert_with_room (bc : re_bytecode_ctx_t) (b offset : Nat)
    (hroom : bc.len < bc.mem.length) (ho : offset ≤ bc.len) :
    ∃ bc1, bytecode_list_insert bc b offset = .ok bc1
      ∧ bc1.len = bc.len + 1
      ∧ bytecode_of bc1 = (bytecode_of bc).take offset ++ b :: (bytecode_of bc).drop offset := by
  obtain ⟨nl, mem, len⟩ := bc
  simp only [] at hroom ho
  have hA : (mem.take offset).length = offset := by simp; omega
  have hB : ((mem.take len).drop offset).length = len - offset := by simp; omega
  have hmem : mem = mem.take offset ++ (mem.take len).drop offset ++ mem.drop len := by
    have h1 : mem.take len = mem.take offset ++ (mem.take len).drop offset := by
      have := (List.take_append_drop offset (mem.take len)).symm
      rw [List.take_take, min_eq_left ho] at this
      exact this
    rw [← h1, List.take_append_drop]
  obtain ⟨t, T, hT⟩ : ∃ t T, mem.drop len = t :: T := by
    cases hd : mem.drop len with
    | nil =>
      have := congrArg List.length hd
      simp at this
      omega
    | cons t T => exact ⟨t, T, rfl⟩
  have key := insert_block nl (mem.take offset) ((mem.take len).drop offset) T t b
  rw [← hT, ← hmem, hA, hB] at key
  have hl : offset + (len - offset) = len := by omega
  rw [hl] at key
  refine ⟨_, key, rfl, ?_⟩
  simp only [bytecode_of]
  have h2 : (mem.take len).take offset = mem.take offset := by
    rw [List.take_take, min_eq_left ho]
  rw [h2]
  have h3 : (mem.take offset ++ b :: (mem.take len).drop offset ++ T).take (len + 1)
      = mem.take offset ++ b :: (mem.take len).drop offset := by
    have : mem.take offset ++ b :: (mem.take len).drop offset ++ T
        = (mem.take offset ++ b :: (mem.take len).drop offset) ++ T := by simp
    rw [this]
    apply List.take_left'
    simp only [List.length_append, List.length_cons, hA, hB]
    omega
  rw [h3]

/-- C30, for a block with a free cell: `bytecode_list_insert (b, offset)` on a
bytecode of `n` cells with `offset ≤ n` returns a bytecode of `n + 1` cells
whose first `offset` cells are the old ones, whose cell at `offset` is `b`, and
whose cells after it are the old cells from `offset` on, in the same order. -/
theorem C30_insert_splices (bc : re_bytecode_ctx_t) (b offset : Nat)
    (hroom : bc.len < bc.mem.length) (ho : offset ≤ bc.len) :
    ∃ bc1, bytecode_list_insert bc b offset = .ok bc1
      ∧ (bytecode_of bc1).length = (bytecode_of bc).length + 1
      ∧ (bytecode_of bc1).take offset = (bytecode_of bc).take offset
      ∧ (bytecode_of bc1).get? offset = some b
      ∧ (bytecode_of bc1).drop (offset + 1) = (bytecode_of bc).drop offset := by
  obtain ⟨bc1, h1, _, h3⟩ := insert_with_room bc b offset hroom ho
  have hlen : (bytecode_of bc).length = bc.len := by
    simp only [bytecode_of, List.length_take]; omega
  have hA : ((bytecode_of bc).take offset).length = offset := by
    simp only [List.length_take, hlen]; omega
  refine ⟨bc1, h1, ?_, ?_, ?_, ?_⟩
  · rw [h3]
    simp only [List.length_append, List.length_cons, List.length_take, List.length_drop, hlen]
    omega
  · rw [h3]
    exact List.take_left' hA
  · rw [h3, List.get?_eq_getElem?, List.getElem?_append_right (by omega), hA]
    simp
  · rw [h3]
    have : (bytecode_of bc).take offset ++ b :: (bytecode_of bc).drop offset
        = ((bytecode_of bc).take offset ++ [b]) ++ (bytecode_of bc).drop offset := by simp
    rw [this]
    exact List.drop_left' (by simp [hA])

/-- A block of four cells with three written: inserting 9 at offset 1. -/
theorem C30_insert_splices_witness :
    (⟨false, [5, 6, 7, 0], 3⟩ : re_bytecode_ctx_t).len
        < (⟨false, [5, 6, 7, 0], 3⟩ : re_bytecode_ctx_t).mem.length
      ∧ ∃ bc1, bytecode_list_insert ⟨false, [5, 6, 7, 0], 3⟩ 9 1 = .ok bc1
        ∧ (bytecode_of bc1).length = (bytecode_of ⟨false, [5, 6, 7, 0], 3⟩).length + 1
        ∧ (bytecode_of bc1).take 1 = (bytecode_of ⟨false, [5, 6, 7, 0], 3⟩).take 1
        ∧ (bytecode_of bc1).get? 1 = some 9
        ∧ (bytecode_of bc1).drop (1 + 1) = (bytecode_of ⟨false, [5, 6, 7, 0], 3⟩).drop 1 :=
  ⟨by decide, C30_insert_splices ⟨false, [5, 6, 7, 0], 3⟩ 9 1 (by decide) (by decide)⟩

/-- C30, the failing case: once the 256 cells of the block are written, the
next insert reaches `realloc_regexp_bytecode_block`, whose assertion demands
that the three pointers are NULL, and no bytecode is returned. -/
theorem C30_counterexample :
    (bytecode_of (bc_of (List.replicate 256 7))).length = 256
      ∧ bytecode_list_insert (bc_of (List.replicate 256 7)) 9 0 = .error .assertion_failed :=
  ⟨by rw [bytecode_of_bc_of, List.length_replicate],
    insert_bc_of_full _ 9 0 (by rw [List.length_replicate])⟩

theorem insert_examples :
    bytecode_list_insert ⟨false, [5, 6, 7, 0], 3⟩ 9 1 = .ok ⟨false, [5, 9, 6, 7], 4⟩
      ∧ bytecode_list_insert ⟨false, [5, 6, 7, 0], 3⟩ 9 3 = .ok ⟨false, [5, 6, 7, 9], 4⟩
      ∧ bytecode_list_insert ⟨false, [5, 6, 7, 0], 3⟩ 9 0 = .ok ⟨false, [9, 5, 6, 7], 4⟩
      ∧ bytecode_list_insert ⟨false, [5, 9, 6, 7], 4⟩ 1 0 = .error .assertion_failed
      ∧ bytecode_list_insert ⟨false, [5, 6, 7, 0], 3⟩ 9 4 = .error .invalid_memory_access
      ∧ (bytecode_list_insert ⟨true, [], 0⟩ 9 0).map bytecode_of = .ok [9] := by
  decide

theorem heap_read_write (heap : num_heap) (a : Nat) (n : ecma_number_t) :
    heap_read (heap_write heap a n) a = n := by
  simp [heap_read, heap_write, List.lookup]

theorem heap_read_write_ne (heap : num_heap) (a b : Nat) (n : ecma_number_t) (h : b ≠ a) :
    heap_read (heap_write heap a n) b = heap_read heap b := by
  have : (b == a) = false := by simp [h]
  simp [heap_read, heap_write, List.lookup, this]

theorem heap_write_same (heap : num_heap) (a b : Nat) :
    heap_read (heap_write heap a (heap_read heap b)) b = heap_read heap b := by
  by_cases h : b = a
  · subst h; exact heap_read_write _ _ _
  · exact heap_read_write_ne _ _ _ _ h

theorem value_content_empty (heap : num_heap) (v : ecma_value_t)
    (h : value_content heap v = .inr .empty) : v = .empty := by
  cases v <;> simp [value_content] at h ⊢

theorem is_number_cases (v : ecma_value_t) :
    (∃ a, v = .number a) ∨ ecma_is_value_number v = false := by
  cases v <;> simp [ecma_is_value_number]

theorem get_register_value (V : vm_platform) (d : int_data_t) (var_idx : Nat) (chk : Bool)
    (v : ecma_value_t) (hreg : is_reg_variable d var_idx = true)
    (hv : d.regs.get? (var_idx - d.min_reg_num) = some v) (hne : v ≠ .empty) :
    get_variable_value V d var_idx chk = .ok (.normal (V.ecma_copy_value v true), []) := by
  unfold get_variable_value
  rw [if_pos hreg, hv]
  simp only []
  rw [if_neg hne]
  rfl

/-- C21: for a register id inside `[min_reg_num, max_reg_num]` (its slot being
in the register array) and a value `x` (not the empty marker, which
`get_variable_value` asserts that a register never holds),
`set_variable_value` returns, and `get_variable_value` on the frame it leaves
yields a Normal completion whose value equals `x`: it is a number value for
the number of `x`, or the very simple value, string or object that `x` is (the
value copy of the platform returning a value equal to its argument). Neither
call reaches the environment collaborator, and every other register slot holds
the same value as before the set. On the in-place numeric path (old and new
value numeric) the register array is untouched, nothing is released, the
number cell of the old value receives the number of `x` and no other number
cell is written; on the release-and-store path the number cells are untouched,
the old value, unless empty, is released and the slot receives a copy of
`x`. -/
theorem C21_register_set_then_get (V : vm_platform) (int_data : int_data_t) (heap : num_heap)
    (lit_oc var_idx : Nat) (x old : ecma_value_t) (chk : Bool)
    (hreg : int_data.min_reg_num ≤ var_idx ∧ var_idx ≤ int_data.max_reg_num)
    (hold : int_data.regs.get? (var_idx - int_data.min_reg_num) = some old)
    (hx : x ≠ .empty) :
    ∃ res, set_variable_value V int_data heap lit_oc var_idx x = .ok res
      ∧ res.calls = []
      ∧ (∀ j, j ≠ var_idx - int_data.min_reg_num →
          res.int_data.regs.get? j = int_data.regs.get? j)
      ∧ (copy_preserves V res.heap →
          ∃ v, get_variable_value V res.int_data var_idx chk = .ok (.normal v, [])
            ∧ value_content res.heap v = value_content heap x)
      ∧ (ecma_is_value_number old = true ∧ ecma_is_value_number x = true →
          res.int_data = int_data ∧ res.freed = []
            ∧ heap_read res.heap (ecma_get_number_from_value old)
                = heap_read heap (ecma_get_number_from_value x)
            ∧ ∀ a, a ≠ ecma_get_number_from_value old →
                heap_read res.heap a = heap_read heap a)
      ∧ (¬ (ecma_is_value_number old = true ∧ ecma_is_value_number x = true) →
          res.heap = heap
            ∧ res.int_data.regs
                = int_data.regs.set (var_idx - int_data.min_reg_num) (V.ecma_copy_value x false)
            ∧ res.freed = if old ≠ .empty then [old] else []) := by
  have hreg : is_reg_variable int_data var_idx = true := by
    simp [is_reg_variable, hreg.1, hreg.2]
  unfold set_variable_value
  rw [if_pos hreg, hold]
  simp only []
  by_cases hnum : ecma_is_value_number old = true ∧ ecma_is_value_number x = true
  · rw [if_pos hnum]
    refine ⟨_, rfl, rfl, fun _ _ => rfl, ?_, fun _ => ⟨rfl, rfl, ?_, ?_⟩,
      fun h => absurd hnum h⟩
    · intro hcopy
      obtain ⟨a, ha⟩ : ∃ a, old = .number a := by
        rcases is_number_cases old with h | h
        · exact h
        · rw [h] at hnum; exact absurd hnum.1 (by decide)
      obtain ⟨b, hb⟩ : ∃ b, x = .number b := by
        rcases is_number_cases x with h | h
        · exact h
        · rw [h] at hnum; exact absurd hnum.2 (by decide)
      subst ha; subst hb
      refine ⟨V.ecma_copy_value (.number a) true, ?_, ?_⟩
      · exact get_register_value V int_data var_idx chk _ hreg hold (by simp)
      · rw [hcopy]
        simp only [value_content, ecma_get_number_from_value, heap_read_write]
    · exact heap_read_write _ _ _
    · intro a ha
      exact heap_read_write_ne _ _ _ _ ha
  · rw [if_neg hnum]
    refine ⟨_, rfl, rfl, fun j hj => ?_, ?_, fun h => absurd h hnum,
      fun _ => ⟨rfl, rfl, rfl⟩⟩
    · simp only [List.get?_eq_getElem?]
      rw [List.getElem?_set_ne (fun h => hj h.symm)]
    · intro hcopy
      have hlt : var_idx - int_data.min_reg_num < int_data.regs.length := by
        rw [List.get?_eq_getElem?] at hold
        exact (List.getElem?_eq_some_iff.mp hold).1
      have hne : V.ecma_copy_value x false ≠ .empty := by
        intro h
        have := hcopy x false
        rw [h] at this
        exact hx (value_content_empty _ _ this.symm)
      refine ⟨V.ecma_copy_value (V.ecma_copy_value x false) true, ?_, ?_⟩
      · refine get_register_value V _ var_idx chk _ hreg ?_ hne
        simp only [List.get?_eq_getElem?]
        rw [List.getElem?_set_self hlt]
      · rw [hcopy, hcopy]

/-- Register 129 of the sample frame holds a number and is set to the number
in cell 50 (the numeric path); register 128 holds a simple value and is set to
the same number (the release-and-store path). Either read yields a number
value for the number 5 of cell 50. -/
theorem C21_register_set_then_get_witness :
    ((sample_frame.min_reg_num ≤ 129 ∧ 129 ≤ sample_frame.max_reg_num)
        ∧ sample_frame.regs.get? (129 - sample_frame.min_reg_num) = some (.number 40)
        ∧ ecma_value_t.number 50 ≠ .empty)
      ∧ (∃ res, set_variable_value sample_vm_platform sample_frame
            [(50, .finite false 5 0), (40, .finite false 1 0)] 0 129 (.number 50) = .ok res
          ∧ res.calls = []
          ∧ (∀ j, j ≠ 129 - sample_frame.min_reg_num →
              res.int_data.regs.get? j = sample_frame.regs.get? j)
          ∧ ∃ v, get_variable_value sample_vm_platform res.int_data 129 true
                = .ok (.normal v, [])
              ∧ value_content res.heap v = .inl (.finite false 5 0))
      ∧ (∃ res, set_variable_value sample_vm_platform sample_frame
            [(50, .finite false 5 0), (40, .finite false 1 0)] 0 128 (.number 50) = .ok res
          ∧ res.calls = []
          ∧ (∀ j, j ≠ 128 - sample_frame.min_reg_num →
              res.int_data.regs.get? j = sample_frame.regs.get? j)
          ∧ ∃ v, get_variable_value sample_vm_platform res.int_data 128 true
                = .ok (.normal v, [])
              ∧ value_content res.heap v = .inl (.finite false 5 0)) :=
  ⟨⟨by decide, rfl, by decide⟩,
    (let ⟨res, h1, h2, h3, h4, _⟩ := C21_register_set_then_get sample_vm_platform sample_frame
      [(50, .finite false 5 0), (40, .finite false 1 0)] 0 129 (.number 50) (.number 40) true
      (by decide) rfl (by decide)
    ⟨res, h1, h2, h3, h4 (fun _ _ => rfl)⟩),
    (let ⟨res, h1, h2, h3, h4, _⟩ := C21_register_set_then_get sample_vm_platform sample_frame
      [(50, .finite false 5 0), (40, .finite false 1 0)] 0 128 (.number 50) (.simple 7) true
      (by decide) rfl (by decide)
    ⟨res, h1, h2, h3, h4 (fun _ _ => rfl)⟩)⟩

/-- The two register paths on the sample frame, each followed by the read of
the register that was set, and a store to a variable that is not a register. -/
theorem register_set_examples :
    (set_variable_value sample_vm_platform sample_frame
        [(50, .finite false 5 0), (40, .finite false 1 0)] 0 129 (.number 50)).map
          (fun res => (res.ret_value, res.int_data.regs, res.freed, heap_read res.heap 40,
            get_variable_value sample_vm_platform res.int_data 129 true))
        = .ok (.empty, [.simple 7, .number 40], [], .finite false 5 0,
            .ok (.normal (.number 40), []))
      ∧ (set_variable_value sample_vm_platform sample_frame
        [(50, .finite false 5 0), (40, .finite false 1 0)] 0 128 (.number 50)).map
          (fun res => (res.ret_value, res.int_data.regs, res.freed, heap_read res.heap 40,
            get_variable_value sample_vm_platform res.int_data 128 true))
        = .ok (.empty, [.number 50, .number 40], [.simple 7], .finite false 1 0,
            .ok (.normal (.number 50), []))
      ∧ (set_variable_value sample_vm_platform sample_frame [] 0 3 (.simple 1)).map
          (fun res => (res.ret_value, res.calls))
        = .ok (.empty, [.resolve_reference_base 1 [100],
            .put_value (some 1) [100] false (.simple 1)]) := by
  refine ⟨rfl, rfl, rfl⟩

theorem flags_loop_kind (R : re_platform) : ∀ (s : List Nat) (ret : ecma_completion_value_t)
    (fl : Nat), loop_result R ret → loop_result R (parse_regexp_flags_loop R s ret fl).1 := by
  intro s
  induction s with
  | nil => intro ret fl h; exact h
  | cons c rest ih =>
    intro ret fl h
    rw [parse_regexp_flags_loop]
    split_ifs
    all_goals first
      | exact h
      | exact ih _ _ (Or.inr rfl)
      | exact ih _ _ h

theorem compile_kind (R : re_platform) (pattern : List re_token_t) (flags : Option (List Nat))
    (res : re_compile_result) (h : regexp_compile_bytecode R pattern flags = .ok res) :
    loop_result R res.ret_value := by
  cases flags with
  | none =>
    rw [compile_none_from] at h
    unfold compile_from at h
    split at h
    · cases h
    · rename_i r h1
      obtain ⟨rv, ctx1⟩ := r
      have hk := (loop_rel R _ _ _ _ _ _ h1 start_ok (le_refl 1) (le_refl 1)).2
      split at h
      · cases h
      · injection h with h
        subst h
        rcases hk with hk | hk
        · left; rw [hk]; rfl
        · right; rw [hk]; rfl
  | some s =>
    rw [compile_some_from] at h
    have hf := flags_loop_kind R s .empty 0 (Or.inl rfl)
    by_cases ht : ecma_is_completion_value_throw (parse_regexp_flags R 0 s).1 = true
    · rw [if_pos ht] at h
      injection h with h
      subst h
      exact hf
    · rw [if_neg ht] at h
      unfold compile_from at h
      split at h
      · cases h
      · rename_i r h1
        obtain ⟨rv, ctx1⟩ := r
        have hk := (loop_rel R _ _ _ _ _ _ h1 start_ok (le_refl 1) (le_refl 1)).2
        split at h
        · cases h
        · injection h with h
          subst h
          rcases hk with hk | hk
          · left; rw [hk]; rfl
          · right; rw [hk]; rfl

theorem compile_no_fuel_error (R : re_platform) (pattern : List re_token_t)
    (flags : Option (List Nat)) :
    regexp_compile_bytecode R pattern flags ≠ .error .out_of_fuel := by
  cases flags with
  | none =>
    rw [compile_none_from]
    exact compile_from_no_fuel_error R pattern 0
  | some s =>
    rw [compile_some_from]
    split_ifs
    · simp
    · exact compile_from_no_fuel_error R pattern _

/-- C22, as the code has it: `get_variable_value` on a register id (the
register not empty, as the function asserts) returns a Normal completion, and
on any other id (the literal id valid and the strict eval/arguments check
passing, as the function asserts) it returns the completion of the environment
lookup; `set_variable_value` on a register id returns the Empty completion,
and on any other id (under the same assertions) it returns the completion of
the environment store. A run of `regexp_compile_bytecode` never ends at the
bound on its loop, and every completion that it returns is the Empty
completion, for a compilation that succeeded, or a thrown SyntaxError. -/
theorem C22_completions_returned (V : vm_platform) (R : re_platform) (int_data : int_data_t)
    (heap : num_heap) (lit_oc var_idx : Nat) (value : ecma_value_t) (chk : Bool)
    (pattern : List re_token_t) (flags : Option (List Nat)) :
    (int_data.min_reg_num ≤ var_idx ∧ var_idx ≤ int_data.max_reg_num →
        ∀ old, int_data.regs.get? (var_idx - int_data.min_reg_num) = some old →
          (old ≠ .empty →
            get_variable_value V int_data var_idx chk
              = .ok (.normal (V.ecma_copy_value old true), []))
          ∧ ∃ res, set_variable_value V int_data heap lit_oc var_idx value = .ok res
              ∧ res.ret_value = .empty)
      ∧ (¬ (int_data.min_reg_num ≤ var_idx ∧ var_idx ≤ int_data.max_reg_num) →
          (∀ lit_id, V.serializer_get_literal_id_by_uid var_idx int_data.pos = some lit_id →
            (chk = true → do_strict_eval_arguments_check
                (V.ecma_op_resolve_reference_base int_data.lex_env_p (V.lit_string lit_id))
                (V.lit_string lit_id) int_data.is_strict = true) →
            ∃ calls, get_variable_value V int_data var_idx chk
              = .ok (V.ecma_op_get_value_lex_env_base
                  (V.ecma_op_resolve_reference_base int_data.lex_env_p (V.lit_string lit_id))
                  (V.lit_string lit_id) int_data.is_strict, calls))
          ∧ (∀ lit_id, V.serializer_get_literal_id_by_uid var_idx lit_oc = some lit_id →
            do_strict_eval_arguments_check
                (V.ecma_op_resolve_reference_base int_data.lex_env_p (V.lit_string lit_id))
                (V.lit_string lit_id) int_data.is_strict = true →
            ∃ res, set_variable_value V int_data heap lit_oc var_idx value = .ok res
              ∧ res.ret_value = V.ecma_op_put_value_lex_env_base
                  (V.ecma_op_resolve_reference_base int_data.lex_env_p (V.lit_string lit_id))
                  (V.lit_string lit_id) int_data.is_strict value))
      ∧ regexp_compile_bytecode R pattern flags ≠ .error .out_of_fuel
      ∧ (∀ res, regexp_compile_bytecode R pattern flags = .ok res →
          res.ret_value = .empty ∨ res.ret_value = re_throw R .ECMA_ERROR_SYNTAX) := by
  have hiff : is_reg_variable int_data var_idx = true
      ↔ int_data.min_reg_num ≤ var_idx ∧ var_idx ≤ int_data.max_reg_num := by
    simp [is_reg_variable]
  refine ⟨?_, ?_, compile_no_fuel_error R pattern flags, fun res h => compile_kind R _ _ res h⟩
  · intro hin old hold
    have hreg := hiff.mpr hin
    constructor
    · intro hne
      unfold get_variable_value
      rw [if_pos hreg, hold]
      simp only []
      rw [if_neg hne]
      rfl
    · unfold set_variable_value
      rw [if_pos hreg, hold]
      simp only []
      split_ifs
      all_goals exact ⟨_, rfl, rfl⟩
  · intro hout
    have hreg : ¬ is_reg_variable int_data var_idx = true := fun h => hout (hiff.mp h)
    constructor
    · intro lit_id hlit hchk
      unfold get_variable_value
      rw [if_neg hreg, hlit]
      simp only []
      rw [if_neg]
      · exact ⟨_, rfl⟩
      · intro ⟨hc, hn⟩
        exact hn (hchk hc)
    · intro lit_id hlit hchk
      unfold set_variable_value
      rw [if_neg hreg, hlit]
      simp only []
      rw [if_neg (fun hn => hn hchk)]
      exact ⟨_, rfl, rfl⟩

set_option maxRecDepth 100000 in
/-- On the sample frame: register 128 is read as a Normal completion and
written with the Empty completion; variable 3, not a register, is read and
written with the completions of the environment; the pattern `a` compiles with
the Empty completion. -/
theorem C22_completions_returned_witness :
    get_variable_value sample_vm_platform sample_frame 128 true
        = .ok (.normal (.simple 7), [])
      ∧ (∃ res, set_variable_value sample_vm_platform sample_frame [] 0 128 (.simple 1)
            = .ok res ∧ res.ret_value = .empty)
      ∧ (∃ calls, get_variable_value sample_vm_platform sample_frame 3 true
            = .ok (.normal (.simple 100), calls))
      ∧ (∃ res, set_variable_value sample_vm_platform sample_frame [] 0 3 (.simple 1)
            = .ok res ∧ res.ret_value = .empty)
      ∧ regexp_compile_bytecode sample_re_platform [re_char 97 1 1 true] none
          ≠ .error .out_of_fuel
      ∧ (∀ res, regexp_compile_bytecode sample_re_platform [re_char 97 1 1 true] none
            = .ok res →
          res.ret_value = .empty
            ∨ res.ret_value = re_throw sample_re_platform .ECMA_ERROR_SYNTAX) :=
  ⟨((C22_completions_returned sample_vm_platform sample_re_platform sample_frame
      [] 0 128 (.simple 1) true [re_char 97 1 1 true] none).1 (by decide) _ rfl).1 (by decide),
    ((C22_completions_returned sample_vm_platform sample_re_platform sample_frame
      [] 0 128 (.simple 1) true [re_char 97 1 1 true] none).1 (by decide) _ rfl).2,
    (C22_completions_returned sample_vm_platform sample_re_platform sample_frame
      [] 0 3 (.simple 1) true [re_char 97 1 1 true] none).2.1 (by decide) |>.1 3 rfl
        (fun _ => by decide),
    (C22_completions_returned sample_vm_platform sample_re_platform sample_frame
      [] 0 3 (.simple 1) true [re_char 97 1 1 true] none).2.1 (by decide) |>.2 3 rfl
        (by decide),
    (C22_completions_returned sample_vm_platform sample_re_platform sample_frame
      [] 0 128 (.simple 1) true [re_char 97 1 1 true] none).2.2⟩

set_option maxRecDepth 100000 in
/-- C22 does not hold as stated: storing into a register and compiling the
pattern `a` both succeed, and both return the Empty completion. -/
theorem C22_counterexample :
    (set_variable_value sample_vm_platform sample_frame [] 0 128 (.simple 1)).map
        (fun res => res.ret_value) = .ok .empty
      ∧ (regexp_compile_bytecode sample_re_platform [re_char 97 1 1 true] none).map
        (fun res => res.ret_value) = .ok .empty := by
  exact ⟨rfl, rfl⟩

theorem compile_a_or_b (R : re_platform) (a b : Nat) :
    ∃ ctx, regexp_compile_bytecode R
        [re_char a 1 1 true, re_tok .RE_TOK_ALTERNATIVE, re_char b 1 1 true, re_tok .RE_TOK_EOF]
        none = .ok ⟨.empty, some ctx⟩
      ∧ bytecode_of ctx.bytecode_ctx
        = [0, 2, 0, RE_OP_SAVE_AT_START, 2, RE_OP_CHAR, a % 256, RE_OP_ALTERNATIVE, 2, RE_OP_CHAR,
            b % 256, RE_OP_SAVE_AND_MATCH, RE_OP_EOF] := by
  rw [compile_no_flags]
  simp only [re_char, re_tok, List.length_cons, List.length_nil, Nat.reduceAdd, Nat.reduceMul]
  rw [run_char]
  simp only [append_opcode_bc_of, append_u32_bc_of, List.length_cons, List.length_nil,
    List.length_append, Nat.reduceAdd, Nat.reduceLT, List.cons_append, List.nil_append]
  rw [if_neg (by simp)]
  rw [run_alternative]
  rw [insert_alternative_length_run _ _ _ _ _ _ _ _ (by simp) (by simp)]
  simp only [append_opcode_bc_of, append_u32_bc_of, List.length_cons, List.length_nil,
    List.length_append, Nat.reduceAdd, Nat.reduceLT, List.cons_append, List.nil_append, splice,
    List.take_succ_cons, List.take_zero, List.drop_succ_cons, List.drop_zero, len_bc_of]
  rw [run_char]
  simp only [append_opcode_bc_of, append_u32_bc_of, List.length_cons, List.length_nil,
    List.length_append, Nat.reduceAdd, Nat.reduceLT, List.cons_append, List.nil_append]
  rw [if_neg (by simp)]
  rw [run_eof, if_neg (by simp)]
  rw [insert_alternative_length_run _ _ _ _ _ _ _ _ (by simp) (by simp)]
  simp only [splice, List.take_succ_cons, List.take_zero, List.drop_succ_cons, List.drop_zero,
    List.length_cons, List.length_nil, Nat.reduceAdd, Nat.reduceSub, List.cons_append,
    List.nil_append]
  rw [re_finish_run _ _ _ _ _ _ _ (by simp)]
  refine ⟨_, rfl, ?_⟩
  simp [bytecode_of_bc_of, RE_OP_CHAR, RE_OP_ALTERNATIVE]

/-- C23: compiling the pattern `a|b` (tokens: char `a`, alternative, char `b`,
end) with no flags returns with the Empty completion, and the bytecode is the
three header cells (flags 0, capture slots 2, non-capturing groups 0),
`RE_OP_SAVE_AT_START`, the length 2 of the first alternative, `RE_OP_CHAR a`,
`RE_OP_ALTERNATIVE`, the length 2 of the second alternative, `RE_OP_CHAR b`,
`RE_OP_SAVE_AND_MATCH`, `RE_OP_EOF`: both lengths are the number of cells of
their branch. -/
theorem C23_alternation_bytecode (R : re_platform) (a b : Nat) (ha : a < 256) (hb : b < 256) :
    ∃ ctx, regexp_compile_bytecode R
        [re_char a 1 1 true, re_tok .RE_TOK_ALTERNATIVE, re_char b 1 1 true, re_tok .RE_TOK_EOF]
        none = .ok ⟨.empty, some ctx⟩
      ∧ bytecode_of ctx.bytecode_ctx
        = [0, 2, 0] ++ [RE_OP_SAVE_AT_START, [RE_OP_CHAR, a].length] ++ [RE_OP_CHAR, a]
            ++ [RE_OP_ALTERNATIVE, [RE_OP_CHAR, b].length] ++ [RE_OP_CHAR, b]
            ++ [RE_OP_SAVE_AND_MATCH, RE_OP_EOF]
      ∧ [RE_OP_CHAR, a].length = 2 ∧ [RE_OP_CHAR, b].length = 2 := by
  obtain ⟨ctx, h1, h2⟩ := compile_a_or_b R a b
  rw [Nat.mod_eq_of_lt ha, Nat.mod_eq_of_lt hb] at h2
  exact ⟨ctx, h1, h2, rfl, rfl⟩

theorem C23_alternation_bytecode_witness :
    (97 < 256 ∧ 98 < 256)
      ∧ ∃ ctx, regexp_compile_bytecode sample_re_platform
          [re_char 97 1 1 true, re_tok .RE_TOK_ALTERNATIVE, re_char 98 1 1 true,
            re_tok .RE_TOK_EOF] none = .ok ⟨.empty, some ctx⟩
        ∧ bytecode_of ctx.bytecode_ctx = [0, 2, 0, 3, 2, 2, 97, 6, 2, 2, 98, 4, 0] :=
  ⟨by decide,
    let ⟨ctx, h1, h2, _⟩ := C23_alternation_bytecode sample_re_platform 97 98 (by decide)
      (by decide)
    ⟨ctx, h1, h2⟩⟩

theorem parse_alternative_run (R : re_platform) (fuel fl d c n : Nat) (bc : re_bytecode_ctx_t)
    (tok : re_token_t) (rest : List re_token_t) (e : Bool) (hd : d < 100) :
    parse_alternative R fuel ⟨fl, d, c, n, bc, tok, rest⟩ e
      = parse_alternative_loop R fuel ⟨fl, d + 1, c, n, bc, tok, rest⟩ e (BYTECODE_LEN bc) := by
  rw [parse_alternative, if_neg (by simp [RE_COMPILE_RECURSION_LIMIT]; exact hd)]

theorem compile_group_star (R : re_platform) (a qmax : Nat)
    (hz : R.RE_OP_CAPTURE_GREEDY_ZERO_GROUP_START ≠ R.RE_OP_CAPTURE_GROUP_START
      ∧ R.RE_OP_CAPTURE_GREEDY_ZERO_GROUP_START ≠ R.RE_OP_NON_CAPTURE_GROUP_START) :
    ∃ ctx, regexp_compile_bytecode R
        [re_tok .RE_TOK_START_CAPTURE_GROUP, re_char a 1 1 true,
          ⟨.RE_TOK_END_GROUP, 0, 0, qmax, true⟩, re_tok .RE_TOK_EOF]
        none = .ok ⟨.empty, some ctx⟩
      ∧ ctx.num_of_captures = 2
      ∧ bytecode_of ctx.bytecode_ctx
        = [0, 4, 0, RE_OP_SAVE_AT_START, 11,
            R.RE_OP_CAPTURE_GREEDY_ZERO_GROUP_START % 256, 1, 8, 2, RE_OP_CHAR, a % 256,
            R.RE_OP_CAPTURE_GREEDY_GROUP_END % 256, 1, 0, qmax % 256, 8,
            RE_OP_SAVE_AND_MATCH, RE_OP_EOF] := by
  rw [compile_no_flags]
  simp only [re_char, re_tok, List.length_cons, List.length_nil, Nat.reduceAdd, Nat.reduceMul]
  rw [run_group_capture, parse_alternative_run _ _ _ _ _ _ _ _ _ _ (by decide)]
  simp only [len_bc_of, List.length_cons, List.length_nil, Nat.reduceAdd]
  rw [run_char]
  simp only [append_opcode_bc_of, append_u32_bc_of, List.length_cons, List.length_nil,
    List.length_append, Nat.reduceAdd, Nat.reduceLT, List.cons_append, List.nil_append]
  rw [if_neg (by simp)]
  rw [run_end_group, if_neg (by simp)]
  rw [insert_alternative_length_run _ _ _ _ _ _ _ _ (by simp) (by simp)]
  simp only [splice, List.take_succ_cons, List.take_zero, List.drop_succ_cons, List.drop_zero,
    List.length_cons, List.length_nil, Nat.reduceAdd, Nat.reduceSub, List.cons_append,
    List.nil_append]
  rw [insert_into_group_run _ _ _ _ _ _ _ _ _ _ _ _ _ _ _ (by simp) (by simp) (by simp)]
  simp only [get_start_opcode_type, get_end_opcode_type, if_true, if_pos hz]
  simp only [List.take_succ_cons, List.take_zero, List.drop_succ_cons, List.drop_zero,
    List.length_cons, List.length_nil, Nat.reduceAdd, Nat.reduceSub, List.cons_append,
    List.nil_append]
  rw [run_eof, if_neg (by simp)]
  rw [insert_alternative_length_run _ _ _ _ _ _ _ _ (by simp) (by simp)]
  simp only [splice, List.take_succ_cons, List.take_zero, List.drop_succ_cons, List.drop_zero,
    List.length_cons, List.length_nil, Nat.reduceAdd, Nat.reduceSub, List.cons_append,
    List.nil_append]
  rw [re_finish_run _ _ _ _ _ _ _ (by simp)]
  refine ⟨_, rfl, rfl, ?_⟩
  simp [bytecode_of_bc_of, RE_OP_CHAR]

/-- C24: compiling `(a)*` (tokens: start of a capture group, char `a`, end of
group with minimum 0, maximum `qmax`, greedy, then end; `a` a one-byte
character and the group opcodes distinct one-byte values) returns with the
Empty completion. The bytecode holds the greedy zero-minimum capture-group
start for group index 1 with the jump over the group, one `RE_OP_CHAR`, and
the greedy capture-group end with index 1, minimum 0 and one cell for the
maximum, which holds the maximum whenever that is below 256. The capture count
of the context is 2, and the header cell for the captures holds twice that
count, 4: the number of capture slots. -/
theorem C24_star_group_bytecode (R : re_platform) (a qmax : Nat) (ha : a < 256)
    (hz : R.RE_OP_CAPTURE_GREEDY_ZERO_GROUP_START ≠ R.RE_OP_CAPTURE_GROUP_START
      ∧ R.RE_OP_CAPTURE_GREEDY_ZERO_GROUP_START ≠ R.RE_OP_NON_CAPTURE_GROUP_START)
    (hs : R.RE_OP_CAPTURE_GREEDY_ZERO_GROUP_START < 256)
    (he : R.RE_OP_CAPTURE_GREEDY_GROUP_END < 256) :
    ∃ ctx max_cell, regexp_compile_bytecode R
        [re_tok .RE_TOK_START_CAPTURE_GROUP, re_char a 1 1 true,
          ⟨.RE_TOK_END_GROUP, 0, 0, qmax, true⟩, re_tok .RE_TOK_EOF]
        none = .ok ⟨.empty, some ctx⟩
      ∧ ctx.num_of_captures = 2
      ∧ bytecode_of ctx.bytecode_ctx
        = [0, ctx.num_of_captures * 2, 0, RE_OP_SAVE_AT_START, 11,
            R.RE_OP_CAPTURE_GREEDY_ZERO_GROUP_START, 1, 8, 2, RE_OP_CHAR, a,
            R.RE_OP_CAPTURE_GREEDY_GROUP_END, 1, 0, max_cell, 8,
            RE_OP_SAVE_AND_MATCH, RE_OP_EOF]
      ∧ (qmax < 256 → max_cell = qmax) := by
  obtain ⟨ctx, h1, h2, h3⟩ := compile_group_star R a qmax hz
  rw [Nat.mod_eq_of_lt ha, Nat.mod_eq_of_lt hs, Nat.mod_eq_of_lt he] at h3
  refine ⟨ctx, qmax % 256, h1, h2, ?_, fun hq => Nat.mod_eq_of_lt hq⟩
  rw [h2]
  exact h3

/-- The pattern `(a)*` itself, with the unbounded maximum of `*`, and
`(a){0,5}`, whose maximum is stored as 5. -/
theorem C24_star_group_bytecode_witness :
    (97 < 256
        ∧ (sample_re_platform.RE_OP_CAPTURE_GREEDY_ZERO_GROUP_START
            ≠ sample_re_platform.RE_OP_CAPTURE_GROUP_START
          ∧ sample_re_platform.RE_OP_CAPTURE_GREEDY_ZERO_GROUP_START
            ≠ sample_re_platform.RE_OP_NON_CAPTURE_GROUP_START)
        ∧ sample_re_platform.RE_OP_CAPTURE_GREEDY_ZERO_GROUP_START < 256
        ∧ sample_re_platform.RE_OP_CAPTURE_GREEDY_GROUP_END < 256)
      ∧ (∃ ctx max_cell, regexp_compile_bytecode sample_re_platform
          [re_tok .RE_TOK_START_CAPTURE_GROUP, re_char 97 1 1 true,
            ⟨.RE_TOK_END_GROUP, 0, 0, 4294967295, true⟩, re_tok .RE_TOK_EOF]
          none = .ok ⟨.empty, some ctx⟩
        ∧ ctx.num_of_captures = 2
        ∧ bytecode_of ctx.bytecode_ctx
          = [0, ctx.num_of_captures * 2, 0, 3, 11, 10, 1, 8, 2, 2, 97, 12, 1, 0, max_cell, 8,
              4, 0])
      ∧ (∃ ctx, regexp_compile_bytecode sample_re_platform
          [re_tok .RE_TOK_START_CAPTURE_GROUP, re_char 97 1 1 true,
            ⟨.RE_TOK_END_GROUP, 0, 0, 5, true⟩, re_tok .RE_TOK_EOF]
          none = .ok ⟨.empty, some ctx⟩
        ∧ ctx.num_of_captures = 2
        ∧ bytecode_of ctx.bytecode_ctx
          = [0, 4, 0, 3, 11, 10, 1, 8, 2, 2, 97, 12, 1, 0, 5, 8, 4, 0]) :=
  ⟨by decide,
    (let ⟨ctx, m, h1, h2, h3, _⟩ := C24_star_group_bytecode sample_re_platform 97 4294967295
      (by decide) (by decide) (by decide) (by decide)
    ⟨ctx, m, h1, h2, h3⟩),
    (let ⟨ctx, m, h1, h2, h3, h4⟩ := C24_star_group_bytecode sample_re_platform 97 5
      (by decide) (by decide) (by decide) (by decide)
    ⟨ctx, h1, h2, by rw [h3, h2, h4 (by decide)]; rfl⟩)⟩

set_option maxRecDepth 100000 in
/-- C24 does not hold as stated: compiling `(a)*` leaves the capture count 2
in the context, and the header cell for the captures holds 4, not 2. -/
theorem C24_counterexample :
    (regexp_compile_bytecode sample_re_platform
        [re_tok .RE_TOK_START_CAPTURE_GROUP, re_char 97 1 1 true,
          ⟨.RE_TOK_END_GROUP, 0, 0, 4294967295, true⟩, re_tok .RE_TOK_EOF] none).map
      (fun res => res.re_ctx.map
        (fun ctx => (ctx.num_of_captures, (bytecode_of ctx.bytecode_ctx).get? 1)))
      = .ok (some (2, some 4)) :=
  rfl

theorem take_append_self (code X : List Nat) : (code ++ X).take code.length = code :=
  List.take_left _ _

theorem drop_append_self (code X : List Nat) : (code ++ X).drop code.length = X :=
  List.drop_left _ _

theorem atom_step (R : re_platform) (fuel : Nat) (ctx : re_compiler_ctx_t) (e : Bool)
    (off : Nat) (t : re_token_t) (rest : List re_token_t) (code : List Nat)
    (hn : re_parse_next_token ctx.parser_ctx = (t, rest))
    (ht : t.type = .RE_TOK_CHAR ∨ t.type = .RE_TOK_PERIOD)
    (hc : ctx.bytecode_ctx = bc_of code) (hroom : code.length + 7 ≤ 256)
    (hq : t.qmin ≤ t.qmax) :
    parse_alternative_loop R (fuel + 1) ctx e off
      = parse_alternative_loop R fuel
          { ctx with current_token := t, parser_ctx := rest,
                     bytecode_ctx := bc_of (code ++ atom_cells t) } e off := by
  rcases ht with ht | ht
  · rw [loop_char R fuel ctx e off t rest hn ht, hc, append_opcode_bc_of _ _ (by omega)]
    simp only []
    rw [append_u32_bc_of _ _ (by simp; omega)]
    simp only [len_bc_of]
    have hac : atom_code t = [RE_OP_CHAR, t.value % 256] := by simp [atom_code, ht]
    by_cases hqq : t.qmin ≠ 1 ∨ t.qmax ≠ 1
    · rw [if_pos hqq]
      rw [insert_simple_iterator_bc_of _ (code ++ [RE_OP_CHAR % 256] ++ [t.value % 256])
        code.length rfl (by simp; omega) (by simp) hq]
      simp only [List.append_assoc, take_append_self, drop_append_self, atom_cells, if_pos hqq,
        iterator_layout, hac, List.length_append, List.length_cons, List.length_nil]
      have e1 : code.length + (0 + 1 + (0 + 1)) + 1 - code.length = 0 + 1 + 1 + 1 := by omega
      rw [e1]
      rfl
    · rw [if_neg hqq]
      simp only [atom_cells, if_neg hqq, hac, List.append_assoc]
      rfl
  · rw [loop_period R fuel ctx e off t rest hn ht, hc, append_opcode_bc_of _ _ (by omega)]
    simp only [len_bc_of]
    have hac : atom_code t = [RE_OP_PERIOD] := by simp [atom_code, ht]
    by_cases hqq : t.qmin ≠ 1 ∨ t.qmax ≠ 1
    · rw [if_pos hqq]
      rw [insert_simple_iterator_bc_of _ (code ++ [RE_OP_PERIOD % 256])
        code.length rfl (by simp; omega) (by simp) hq]
      simp only [take_append_self, drop_append_self, atom_cells, if_pos hqq,
        iterator_layout, hac, List.length_append, List.length_cons, List.length_nil]
      have e1 : code.length + (0 + 1) + 1 - code.length = 0 + 1 + 1 := by omega
      rw [e1]
      rfl
    · rw [if_neg hqq]
      simp only [atom_cells, if_neg hqq, hac]
      rfl

/-- C29, as the code has it: when the loop of `parse_alternative` reads a char
or period token (with `qmin ≤ qmax`, as `insert_simple_iterator` asserts, and
with `code.length + 7 ≤ 256`, the block having room for the seven cells of the
longest atom), it goes on with the loop after appending the cells `atom_cells`
to the bytecode: for the quantifier (1, 1) the atom code alone, for any other
quantifier the greedy or non-greedy iterator opcode, a cell for `qmin`, a cell
for `qmax`, the length of the atom code with its `RE_OP_MATCH`, the atom code
and `RE_OP_MATCH`. The cells for `qmin` and `qmax` are written by
`insert_u32`, which keeps one byte of the value: with `qmin` and `qmax` below
256 the cells are those of the specification, with a maximum of 256 or more
they are not. -/
theorem C29_quantified_atom_cells (R : re_platform) (fuel : Nat) (ctx : re_compiler_ctx_t)
    (e : Bool) (off : Nat) (t : re_token_t) (rest : List re_token_t) (code : List Nat)
    (hn : re_parse_next_token ctx.parser_ctx = (t, rest))
    (ht : t.type = .RE_TOK_CHAR ∨ t.type = .RE_TOK_PERIOD)
    (hc : ctx.bytecode_ctx = bc_of code) (hroom : code.length + 7 ≤ 256)
    (hq : t.qmin ≤ t.qmax) :
    parse_alternative_loop R (fuel + 1) ctx e off
        = parse_alternative_loop R fuel
            { ctx with current_token := t, parser_ctx := rest,
                       bytecode_ctx := bc_of (code ++ atom_cells t) } e off
      ∧ (t.qmin < 256 → t.qmax < 256 → atom_cells t = spec_atom_cells t)
      ∧ (256 ≤ t.qmax → atom_cells t ≠ spec_atom_cells t)
      ∧ (t.qmin = 1 → t.qmax = 1 → atom_cells t = atom_code t) := by
  refine ⟨atom_step R fuel ctx e off t rest code hn ht hc hroom hq, ?_, ?_, ?_⟩
  · intro h1 h2
    simp only [atom_cells, spec_atom_cells, Nat.mod_eq_of_lt h1, Nat.mod_eq_of_lt h2]
  · intro h1 h
    have hqq : t.qmin ≠ 1 ∨ t.qmax ≠ 1 := Or.inr (by omega)
    simp only [atom_cells, spec_atom_cells, if_pos hqq, iterator_layout, List.cons_append,
      List.cons.injEq] at h
    have h2 := h.2.2.1
    have h3 : t.qmax % 256 < 256 := Nat.mod_lt _ (by decide)
    omega
  · intro h1 h2
    simp [atom_cells, h1, h2]

theorem C29_quantified_atom_cells_witness :
    (re_parse_next_token [re_char 97 0 300 false, re_tok .RE_TOK_EOF]
          = (re_char 97 0 300 false, [re_tok .RE_TOK_EOF])
        ∧ ((re_char 97 0 300 false).type = .RE_TOK_CHAR
          ∨ (re_char 97 0 300 false).type = .RE_TOK_PERIOD)
        ∧ [RE_OP_SAVE_AT_START].length + 7 ≤ 256
        ∧ (re_char 97 0 300 false).qmin ≤ (re_char 97 0 300 false).qmax)
      ∧ parse_alternative_loop sample_re_platform (4 + 1)
          ⟨0, 1, 1, 0, bc_of [RE_OP_SAVE_AT_START], re_tok .RE_TOK_EOF,
            [re_char 97 0 300 false, re_tok .RE_TOK_EOF]⟩ true 1
        = parse_alternative_loop sample_re_platform 4
          ⟨0, 1, 1, 0, bc_of ([RE_OP_SAVE_AT_START] ++ atom_cells (re_char 97 0 300 false)),
            re_char 97 0 300 false, [re_tok .RE_TOK_EOF]⟩ true 1
      ∧ atom_cells (re_char 97 0 300 false) = [8, 0, 44, 3, 2, 97, 1] :=
  ⟨⟨rfl, Or.inl rfl, by decide, by decide⟩,
    (C29_quantified_atom_cells sample_re_platform 4
      ⟨0, 1, 1, 0, bc_of [RE_OP_SAVE_AT_START], re_tok .RE_TOK_EOF,
        [re_char 97 0 300 false, re_tok .RE_TOK_EOF]⟩ true 1 (re_char 97 0 300 false)
      [re_tok .RE_TOK_EOF] [RE_OP_SAVE_AT_START] rfl (Or.inl rfl) rfl (by decide)
      (by decide)).1,
    by decide⟩

set_option maxRecDepth 100000 in
/-- C29, the failing input: for `a{0,300}` the cell written for the maximum is
44, where the specification has the maximum 300, and for `.` with an unbounded
maximum (all bits set) it is 255. -/
theorem C29_counterexample :
    compiled_bytecode (regexp_compile_bytecode sample_re_platform
        [re_char 97 0 300 true, re_tok .RE_TOK_EOF] none)
      = some ([0, 2, 0, RE_OP_SAVE_AT_START, 7] ++ [7, 0, 44, 3, 2, 97, 1]
          ++ [RE_OP_SAVE_AND_MATCH, RE_OP_EOF])
    ∧ spec_atom_cells (re_char 97 0 300 true) = [7, 0, 300, 3, 2, 97, 1]
    ∧ compiled_bytecode (regexp_compile_bytecode sample_re_platform
        [⟨.RE_TOK_PERIOD, 0, 1, 4294967295, false⟩, re_tok .RE_TOK_EOF] none)
      = some ([0, 2, 0, RE_OP_SAVE_AT_START, 6] ++ [8, 1, 255, 2, 5, 1]
          ++ [RE_OP_SAVE_AND_MATCH, RE_OP_EOF])
    ∧ spec_atom_cells ⟨.RE_TOK_PERIOD, 0, 1, 4294967295, false⟩
      = [8, 1, 4294967295, 2, 5, 1] :=
  ⟨rfl, by decide, rfl, by decide⟩

set_option maxRecDepth 100000 in
theorem atom_examples :
    compiled_bytecode (regexp_compile_bytecode sample_re_platform
        [re_char 97 1 1 true, re_tok .RE_TOK_EOF] none) = some [0, 2, 0, 3, 2, 2, 97, 4, 0]
    ∧ compiled_bytecode (regexp_compile_bytecode sample_re_platform
        [re_char 97 0 1 true, re_tok .RE_TOK_EOF] none)
      = some [0, 2, 0, 3, 7, 7, 0, 1, 3, 2, 97, 1, 4, 0]
    ∧ compiled_bytecode (regexp_compile_bytecode sample_re_platform
        [⟨.RE_TOK_PERIOD, 0, 2, 5, false⟩, re_tok .RE_TOK_EOF] none)
      = some [0, 2, 0, 3, 6, 8, 2, 5, 2, 5, 1, 4, 0] :=
  ⟨rfl, rfl, rfl⟩

theorem compile_group_end_alone (R : re_platform) (c : Nat) :
    ∃ ctx, regexp_compile_bytecode R
        [re_char c 1 1 true, re_tok .RE_TOK_END_GROUP, re_tok .RE_TOK_EOF] none
      = .ok ⟨re_throw R .ECMA_ERROR_SYNTAX, some ctx⟩ := by
  rw [compile_no_flags]
  simp only [re_char, re_tok, List.length_cons, List.length_nil, Nat.reduceAdd, Nat.reduceMul]
  rw [run_char]
  simp only [append_opcode_bc_of, append_u32_bc_of, List.length_cons, List.length_nil,
    List.length_append, Nat.reduceAdd, Nat.reduceLT, List.cons_append, List.nil_append]
  rw [if_neg (by simp)]
  rw [run_end_group, if_pos rfl]
  simp only []
  rw [re_finish_run _ _ _ _ _ _ _ (by simp)]
  exact ⟨_, rfl⟩

theorem compile_group_left_open (R : re_platform) (c : Nat) :
    ∃ ctx, regexp_compile_bytecode R
        [re_tok .RE_TOK_START_CAPTURE_GROUP, re_char c 1 1 true, re_tok .RE_TOK_EOF] none
      = .ok ⟨.empty, some ctx⟩ ∧ ctx.recursion_depth = 1 ∧ ctx.num_of_captures = 2 := by
  rw [compile_no_flags]
  simp only [re_char, re_tok, List.length_cons, List.length_nil, Nat.reduceAdd, Nat.reduceMul]
  rw [run_group_capture, parse_alternative_run _ _ _ _ _ _ _ _ _ _ (by decide)]
  simp only [len_bc_of, List.length_cons, List.length_nil, Nat.reduceAdd]
  rw [run_char]
  simp only [append_opcode_bc_of, append_u32_bc_of, List.length_cons, List.length_nil,
    List.length_append, Nat.reduceAdd, Nat.reduceLT, List.cons_append, List.nil_append]
  rw [if_neg (by simp)]
  rw [run_eof, if_pos (by simp)]
  simp only []
  rw [insert_into_group_run _ _ _ _ _ _ _ _ _ _ _ _ _ _ _ (by simp) (by simp) (by simp)]
  simp only [get_start_opcode_type, get_end_opcode_type, if_true]
  rw [if_neg (by simp), if_neg (by simp)]
  simp only [List.take_succ_cons, List.take_zero, List.drop_succ_cons, List.drop_zero,
    List.length_cons, List.length_nil, Nat.reduceAdd, Nat.reduceSub, List.cons_append,
    List.nil_append]
  rw [run_end_of_stream, if_neg (by simp)]
  rw [insert_alternative_length_run _ _ _ _ _ _ _ _ (by simp) (by simp)]
  simp only []
  rw [re_finish_run _ _ _ _ _ _ _ (by simp [splice])]
  exact ⟨_, rfl, rfl, rfl⟩

/-- C27, as the code has it: for `a)` (a group end with no group open)
`regexp_compile_bytecode` returns a thrown SyntaxError; for `(a` (the pattern
ends inside a group) the nested call of `parse_alternative` produces the
SyntaxError, the caller does not look at it, and the compilation ends with the
Empty completion, two capture groups counted and the depth counter at 1. -/
theorem C27_unbalanced_groups (R : re_platform) (c : Nat) :
    (∃ ctx, regexp_compile_bytecode R
        [re_char c 1 1 true, re_tok .RE_TOK_END_GROUP, re_tok .RE_TOK_EOF] none
      = .ok ⟨re_throw R .ECMA_ERROR_SYNTAX, some ctx⟩)
    ∧ (∃ ctx, regexp_compile_bytecode R
        [re_tok .RE_TOK_START_CAPTURE_GROUP, re_char c 1 1 true, re_tok .RE_TOK_EOF] none
      = .ok ⟨.empty, some ctx⟩ ∧ ctx.recursion_depth = 1 ∧ ctx.num_of_captures = 2) :=
  ⟨compile_group_end_alone R c, compile_group_left_open R c⟩

set_option maxRecDepth 100000 in
/-- C27, the failing input: the tokens of `(a` compile to a bytecode, with the
Empty completion; so do the tokens of `(a` when the lexer reports the end of
the pattern a second time. -/
theorem C27_counterexample :
    (regexp_compile_bytecode sample_re_platform
        [re_tok .RE_TOK_START_CAPTURE_GROUP, re_char 97 1 1 true, re_tok .RE_TOK_EOF] none).map
          (fun res => (res.ret_value, res.re_ctx.map (fun c => bytecode_of c.bytecode_ctx)))
      = .ok (.empty, some [0, 4, 0, 3, 9, 9, 1, 2, 97, 12, 1, 1, 1, 7, 4, 0])
    ∧ (regexp_compile_bytecode sample_re_platform
        [re_tok .RE_TOK_START_CAPTURE_GROUP, re_char 97 1 1 true, re_tok .RE_TOK_EOF,
          re_tok .RE_TOK_EOF] none).map
          (fun res => (res.ret_value, res.re_ctx.map (fun c => bytecode_of c.bytecode_ctx)))
      = .ok (.empty, some [0, 4, 0, 3, 9, 9, 1, 2, 97, 12, 1, 1, 1, 7, 4, 0]) :=
  ⟨rfl, rfl⟩

/-- C28, as the code has it: `regexp_compile_bytecode` always returns, and
never with a thrown RangeError (the error objects of the two kinds being
different): the RangeError is produced only by a nested call of
`parse_alternative`, whose completion the caller does not look at. -/
theorem C28_range_error_never_returned (R : re_platform) (pattern : List re_token_t)
    (flags : Option (List Nat))
    (hne : R.ecma_new_standard_error .ECMA_ERROR_RANGE
      ≠ R.ecma_new_standard_error .ECMA_ERROR_SYNTAX) :
    regexp_compile_bytecode R pattern flags ≠ .error .out_of_fuel
      ∧ ∀ res, regexp_compile_bytecode R pattern flags = .ok res →
          res.ret_value ≠ re_throw R .ECMA_ERROR_RANGE := by
  refine ⟨compile_no_fuel_error R pattern flags, fun res h hr => ?_⟩
  rcases compile_kind R pattern flags res h with hk | hk
  · rw [hk] at hr
    cases hr
  · rw [hk] at hr
    simp only [re_throw] at hr
    injection hr with hr
    injection hr with hr
    exact hne hr.symm

theorem C28_range_error_never_returned_witness :
    sample_re_platform.ecma_new_standard_error .ECMA_ERROR_RANGE
        ≠ sample_re_platform.ecma_new_standard_error .ECMA_ERROR_SYNTAX
      ∧ regexp_compile_bytecode sample_re_platform
          (List.replicate 100 (re_tok .RE_TOK_START_CAPTURE_GROUP)) none ≠ .error .out_of_fuel
      ∧ ∀ res, regexp_compile_bytecode sample_re_platform
          (List.replicate 100 (re_tok .RE_TOK_START_CAPTURE_GROUP)) none = .ok res →
          res.ret_value ≠ re_throw sample_re_platform .ECMA_ERROR_RANGE :=
  ⟨by decide, C28_range_error_never_returned sample_re_platform
    (List.replicate 100 (re_tok .RE_TOK_START_CAPTURE_GROUP)) none (by decide)⟩

set_option maxRecDepth 100000 in
/-- C28, the failing inputs: for `(a` the compilation succeeds with the depth
counter at 1, not at its initial value 0; for `((a` it ends at 2. -/
theorem C28_counterexample :
    (regexp_compile_bytecode sample_re_platform
        [re_tok .RE_TOK_START_CAPTURE_GROUP, re_char 97 1 1 true, re_tok .RE_TOK_EOF] none).map
          (fun res => (res.ret_value, res.re_ctx.map (fun c => c.recursion_depth)))
      = .ok (.empty, some 1)
    ∧ (regexp_compile_bytecode sample_re_platform
        [re_tok .RE_TOK_START_CAPTURE_GROUP, re_tok .RE_TOK_START_CAPTURE_GROUP,
          re_char 97 1 1 true, re_tok .RE_TOK_EOF] none).map
          (fun res => (res.ret_value, res.re_ctx.map (fun c => c.recursion_depth)))
      = .ok (.empty, some 2)
    ∧ (regexp_compile_bytecode sample_re_platform
        [re_tok .RE_TOK_START_CAPTURE_GROUP, re_char 97 1 1 true, re_tok .RE_TOK_END_GROUP,
          re_tok .RE_TOK_EOF] none).map
          (fun res => (res.ret_value, res.re_ctx.map (fun c => c.recursion_depth)))
      = .ok (.empty, some 0) :=
  ⟨rfl, rfl, rfl⟩

set_option maxRecDepth 1000000 in
set_option maxHeartbeats 4000000 in
theorem deep_nesting_example :
    regexp_compile_bytecode sample_re_platform
        (List.replicate 100 (re_tok .RE_TOK_START_CAPTURE_GROUP) ++ [re_tok .RE_TOK_EOF]) none
      = .error .assertion_failed := by
  rfl

theorem mask_facts : ∀ fl < 8, ∀ c ∈ [103, 105, 109], ∀ g i m : Bool,
    (fl ||| flag_bit c) ||| mask_of g i m
      = fl ||| mask_of (g || decide (c = 103)) (i || decide (c = 105)) (m || decide (c = 109)) := by
  decide

theorem present_mask_eq (s : List Nat) :
    present_mask s = mask_of (decide (103 ∈ s)) (decide (105 ∈ s)) (decide (109 ∈ s)) := by
  simp [present_mask, mask_of]

theorem flags_mask_present : ∀ (s : List Nat) (fl : Nat), fl < 8 →
    (∀ c ∈ s, c = 103 ∨ c = 105 ∨ c = 109) → flags_mask fl s = fl ||| present_mask s := by
  intro s
  induction s with
  | nil => intro fl _ _; simp [flags_mask, present_mask]
  | cons c rest ih =>
    intro fl hfl hall
    have hc := hall c (by simp)
    have hm := is_flag_mem c hc
    have hf := flag_bits_facts fl hfl c hm c hm
    have := ih (fl ||| flag_bit c) hf.1 (fun d hd => hall d (List.mem_cons_of_mem _ hd))
    have e : flags_mask fl (c :: rest) = flags_mask (fl ||| flag_bit c) rest := rfl
    rw [e, this, present_mask_eq, present_mask_eq, mask_facts fl hfl c hm]
    congr 2
    · simp only [List.mem_cons]
      by_cases h1 : c = 103 <;> by_cases h2 : 103 ∈ rest <;> simp [h1, h2, eq_comm]
    · simp only [List.mem_cons]
      by_cases h1 : c = 105 <;> by_cases h2 : 105 ∈ rest <;> simp [h1, h2, eq_comm]
    · simp only [List.mem_cons]
      by_cases h1 : c = 109 <;> by_cases h2 : 109 ∈ rest <;> simp [h1, h2, eq_comm]

theorem fresh_flags_zero (s : List Nat) : fresh_flags 0 s ↔ valid_flags s := by
  simp [fresh_flags, valid_flags]

theorem flags_spec (R : re_platform) (s : List Nat) (h0 : 0 ∉ s) :
    (valid_flags s → parse_regexp_flags R 0 s = (.empty, present_mask s))
      ∧ (¬ valid_flags s → (parse_regexp_flags R 0 s).1 = re_throw R .ECMA_ERROR_SYNTAX) := by
  have h := flags_loop_spec R s 0 (by decide) h0
  refine ⟨fun hv => ?_, fun hv => ?_⟩
  · have h1 := (h.1 ((fresh_flags_zero s).mpr hv)).1
    rw [flags_mask_present s 0 (by decide) hv.1] at h1
    rw [parse_regexp_flags, h1]
    simp
  · exact h.2 (fun hh => hv ((fresh_flags_zero s).mp hh))

/-- C25: for a flags string (its characters up to the terminating zero),
`parse_regexp_flags` returns the Empty completion if and only if the string
consists only of `g`, `i` and `m` with no character repeated; the flags are then
the OR of `RE_FLAG_GLOBAL` (1), `RE_FLAG_IGNORE_CASE` (2) and
`RE_FLAG_MULTILINE` (4) for the characters present, and
`regexp_compile_bytecode` goes on to compile the pattern with them. For any
other string the result is a thrown SyntaxError, and
`regexp_compile_bytecode` returns it without a bytecode. -/
theorem C25_regexp_flags (R : re_platform) (s : List Nat) (pattern : List re_token_t)
    (h0 : 0 ∉ s) :
    ((parse_regexp_flags R 0 s).1 = .empty ↔ valid_flags s)
      ∧ (valid_flags s →
          (parse_regexp_flags R 0 s).2 = present_mask s
            ∧ regexp_compile_bytecode R pattern (some s)
                = compile_from R pattern (present_mask s))
      ∧ (¬ valid_flags s →
          (parse_regexp_flags R 0 s).1 = re_throw R .ECMA_ERROR_SYNTAX
            ∧ regexp_compile_bytecode R pattern (some s)
                = .ok ⟨re_throw R .ECMA_ERROR_SYNTAX, none⟩) := by
  have hs := flags_spec R s h0
  refine ⟨⟨fun he => ?_, fun hv => by rw [hs.1 hv]⟩, fun hv => ?_, fun hv => ?_⟩
  · by_contra hv
    rw [hs.2 hv] at he
    cases he
  · have h1 := hs.1 hv
    refine ⟨by rw [h1], ?_⟩
    rw [compile_some_from, h1]
    rfl
  · have h1 := hs.2 hv
    refine ⟨h1, ?_⟩
    rw [compile_some_from, h1]
    rfl

theorem C25_regexp_flags_witness :
    0 ∉ cstr "gim"
      ∧ ((parse_regexp_flags sample_re_platform 0 (cstr "gim")).1 = .empty
          ↔ valid_flags (cstr "gim"))
      ∧ (valid_flags (cstr "gim") →
          (parse_regexp_flags sample_re_platform 0 (cstr "gim")).2 = present_mask (cstr "gim")
            ∧ regexp_compile_bytecode sample_re_platform [re_char 97 1 1 true]
                (some (cstr "gim"))
              = compile_from sample_re_platform [re_char 97 1 1 true]
                  (present_mask (cstr "gim")))
      ∧ (¬ valid_flags (cstr "gim") →
          (parse_regexp_flags sample_re_platform 0 (cstr "gim")).1
              = re_throw sample_re_platform .ECMA_ERROR_SYNTAX
            ∧ regexp_compile_bytecode sample_re_platform [re_char 97 1 1 true]
                (some (cstr "gim"))
              = .ok ⟨re_throw sample_re_platform .ECMA_ERROR_SYNTAX, none⟩) :=
  ⟨by decide, C25_regexp_flags sample_re_platform (cstr "gim") [re_char 97 1 1 true]
    (by decide)⟩

set_option maxRecDepth 100000 in
theorem flags_examples :
    parse_regexp_flags sample_re_platform 0 (cstr "gim") = (.empty, 7)
      ∧ parse_regexp_flags sample_re_platform 0 (cstr "mg") = (.empty, 5)
      ∧ parse_regexp_flags sample_re_platform 0 (cstr "") = (.empty, 0)
      ∧ (parse_regexp_flags sample_re_platform 0 (cstr "gg")).1
          = re_throw sample_re_platform .ECMA_ERROR_SYNTAX
      ∧ (parse_regexp_flags sample_re_platform 0 (cstr "z")).1
          = re_throw sample_re_platform .ECMA_ERROR_SYNTAX
      ∧ regexp_compile_bytecode sample_re_platform [re_char 97 1 1 true] (some (cstr "gg"))
          = .ok ⟨re_throw sample_re_platform .ECMA_ERROR_SYNTAX, none⟩
      ∧ regexp_compile_bytecode sample_re_platform [re_char 97 1 1 true] (some (cstr "z"))
          = .ok ⟨re_throw sample_re_platform .ECMA_ERROR_SYNTAX, none⟩
      ∧ compiled_bytecode (regexp_compile_bytecode sample_re_platform [re_char 97 1 1 true]
          (some (cstr "gi"))) = some [3, 2, 0, 3, 2, 2, 97, 4, 0]
      ∧ present_mask (cstr "gi") = 3 :=
  ⟨rfl, rfl, rfl, rfl, rfl, rfl, rfl, rfl, rfl⟩

theorem flags_loop_lt (R : re_platform) : ∀ (s : List Nat) (ret : ecma_completion_value_t)
    (fl : Nat), fl < 8 → (parse_regexp_flags_loop R s ret fl).2 < 8 := by
  intro s
  induction s with
  | nil => intro ret fl h; exact h
  | cons c rest ih =>
    intro ret fl h
    have h1 := (flag_bits_facts fl h 103 (by decide) 103 (by decide))
    have h2 := (flag_bits_facts fl h 105 (by decide) 105 (by decide))
    have h3 := (flag_bits_facts fl h 109 (by decide) 109 (by decide))
    have a1 : (fl ||| RE_FLAG_GLOBAL) < 8 := h1.1
    have b1 : (fl ||| RE_FLAG_GLOBAL) % 256 = fl ||| RE_FLAG_GLOBAL := h1.2.1
    have a2 : (fl ||| RE_FLAG_IGNORE_CASE) < 8 := h2.1
    have b2 : (fl ||| RE_FLAG_IGNORE_CASE) % 256 = fl ||| RE_FLAG_IGNORE_CASE := h2.2.1
    have a3 : (fl ||| RE_FLAG_MULTILINE) < 8 := h3.1
    have b3 : (fl ||| RE_FLAG_MULTILINE) % 256 = fl ||| RE_FLAG_MULTILINE := h3.2.1
    rw [parse_regexp_flags_loop]
    split_ifs
    all_goals first
      | exact h
      | exact ih _ _ (by rw [b1]; exact a1)
      | exact ih _ _ (by rw [b2]; exact a2)
      | exact ih _ _ (by rw [b3]; exact a3)
      | exact ih _ _ h

theorem not_throw_of_empty (r : ecma_completion_value_t) (h : r = .empty) :
    ¬ ecma_is_completion_value_throw r = true := by
  rw [h]; decide

/-- C26: when `regexp_compile_bytecode` returns with the Empty completion, the
bytecode it stored starts with the flags, then twice the capture counter, then
the non-capture counter, then `RE_OP_SAVE_AT_START`. The capture counter is 1
(the whole match) plus the number of capture-group tokens read from the
pattern, the non-capture counter the number of non-capture-group tokens read;
the flags are those that `parse_regexp_flags` computed (0 without a flags
string), which for a flags string without a zero character is the mask of the
characters present. -/
theorem C26_bytecode_header (R : re_platform) (pattern : List re_token_t)
    (flags : Option (List Nat)) (res : re_compile_result)
    (h : regexp_compile_bytecode R pattern flags = .ok res) (hs : res.ret_value = .empty) :
    ∃ ctx rest, res.re_ctx = some ctx
      ∧ bytecode_of ctx.bytecode_ctx
          = ctx.flags :: 2 * ctx.num_of_captures :: ctx.num_of_non_captures
              :: RE_OP_SAVE_AT_START :: rest
      ∧ ctx.flags = (match flags with
          | none => 0
          | some s => (parse_regexp_flags R 0 s).2)
      ∧ (∀ s, flags = some s → 0 ∉ s → valid_flags s ∧ ctx.flags = present_mask s)
      ∧ ctx.num_of_captures + count_tokens .RE_TOK_START_CAPTURE_GROUP ctx.parser_ctx
          = 1 + count_tokens .RE_TOK_START_CAPTURE_GROUP pattern
      ∧ ctx.num_of_non_captures + count_tokens .RE_TOK_START_NON_CAPTURE_GROUP ctx.parser_ctx
          = count_tokens .RE_TOK_START_NON_CAPTURE_GROUP pattern := by
  cases flags with
  | none =>
    rw [compile_none_from] at h
    obtain ⟨_, ctx, rest, h1, h2, h3, h4, h5⟩ := compile_from_facts R pattern 0 (by decide) res h
    refine ⟨ctx, rest, h1, ?_, h2, ?_, h4, h5⟩
    · rw [h2]; exact h3
    · intro s hh; cases hh
  | some s =>
    rw [compile_some_from] at h
    by_cases ht : ecma_is_completion_value_throw (parse_regexp_flags R 0 s).1 = true
    · rw [if_pos ht] at h
      injection h with h
      subst h
      simp only [] at hs
      rw [hs] at ht
      exact absurd ht (by decide)
    · rw [if_neg ht] at h
      have hlt : (parse_regexp_flags R 0 s).2 < 256 := by
        have := flags_loop_lt R s .empty 0 (by decide)
        unfold parse_regexp_flags
        omega
      obtain ⟨_, ctx, rest, h1, h2, h3, h4, h5⟩ := compile_from_facts R pattern _ hlt res h
      refine ⟨ctx, rest, h1, ?_, h2, ?_, h4, h5⟩
      · rw [h2]; exact h3
      · intro s1 hh h0
        injection hh with hh
        subst hh
        have hsp := flags_spec R s h0
        by_cases hv : valid_flags s
        · refine ⟨hv, ?_⟩
          rw [h2, hsp.1 hv]
        · have := hsp.2 hv
          rw [this] at ht
          exact absurd rfl ht

set_option maxRecDepth 100000 in
theorem C26_bytecode_header_witness :
    ∃ res, regexp_compile_bytecode sample_re_platform
          [re_tok .RE_TOK_START_CAPTURE_GROUP, re_char 97 1 1 true,
            re_tok .RE_TOK_END_GROUP, re_tok .RE_TOK_START_NON_CAPTURE_GROUP,
            re_char 98 1 1 true, re_tok .RE_TOK_END_GROUP, re_tok .RE_TOK_EOF]
          (some (cstr "gm")) = .ok res
      ∧ res.ret_value = .empty
      ∧ ∃ ctx rest, res.re_ctx = some ctx
        ∧ bytecode_of ctx.bytecode_ctx
            = ctx.flags :: 2 * ctx.num_of_captures :: ctx.num_of_non_captures
                :: RE_OP_SAVE_AT_START :: rest
        ∧ ctx.flags = 5 ∧ ctx.num_of_captures = 2 ∧ ctx.num_of_non_captures = 1 :=
  have hc : regexp_compile_bytecode sample_re_platform
      [re_tok .RE_TOK_START_CAPTURE_GROUP, re_char 97 1 1 true,
        re_tok .RE_TOK_END_GROUP, re_tok .RE_TOK_START_NON_CAPTURE_GROUP,
        re_char 98 1 1 true, re_tok .RE_TOK_END_GROUP, re_tok .RE_TOK_EOF]
      (some (cstr "gm"))
      = .ok ⟨.empty, some ⟨5, 0, 2, 1,
          bc_of [5, 4, 1, 3, 20, 9, 1, 2, 2, 97, 12, 1, 1, 1, 8, 14, 0, 2, 2, 98, 17, 0, 1, 1,
            8, 4, 0],
          re_tok .RE_TOK_EOF, []⟩⟩ := rfl
  let ⟨ctx, rest, h1, h2, _⟩ := C26_bytecode_header sample_re_platform _ _ _ hc rfl
  ⟨_, hc, rfl, ctx, rest, h1, h2, by
    rw [Option.some.injEq] at h1
    subst h1
    exact ⟨rfl, rfl, rfl⟩⟩

set_option maxRecDepth 100000 in
theorem header_examples :
    compiled_bytecode (regexp_compile_bytecode sample_re_platform
        [re_tok .RE_TOK_START_CAPTURE_GROUP, re_char 97 1 1 true,
          re_tok .RE_TOK_END_GROUP, re_tok .RE_TOK_START_NON_CAPTURE_GROUP,
          re_char 98 1 1 true, re_tok .RE_TOK_END_GROUP, re_tok .RE_TOK_EOF]
        (some (cstr "gm")))
      = some [5, 4, 1, 3, 20, 9, 1, 2, 2, 97, 12, 1, 1, 1, 8, 14, 0, 2, 2, 98, 17, 0, 1, 1,
          8, 4, 0] :=
  rfl

theorem get_after_append (code : List Nat) (b : Nat) :
    get_value (code ++ [b]) code.length = some (b, code.length + 1) := by
  simp [get_value]

theorem get_after_splice (code : List Nat) (off b : Nat) (h : off ≤ code.length) :
    get_value (splice code off b) off = some (b, off + 1) := by
  have hl : (code.take off).length = off := by simp [h]
  unfold get_value splice
  rw [List.get?_eq_getElem?, List.getElem?_append_right (by omega), hl]
  simp

/-- C37, as the code has it: a value written with `append_u32` or `insert_u32`
(into a block with a free cell) is read back by `get_value` as its low byte,
the bytecode cell being one byte wide; it is read back unchanged exactly when
it is below 256. -/
theorem C37_value_round_trip (code : List Nat) (off v : Nat)
    (hroom : code.length < 256) (ho : off ≤ code.length) :
    (∃ bc1, append_u32 (bc_of code) v = .ok bc1
        ∧ get_value (bytecode_of bc1) code.length = some (v % 256, code.length + 1))
      ∧ (∃ bc1, insert_u32 (bc_of code) off v = .ok bc1
        ∧ get_value (bytecode_of bc1) off = some (v % 256, off + 1))
      ∧ (v % 256 = v ↔ v < 256) := by
  refine ⟨⟨_, append_u32_bc_of code v hroom, ?_⟩, ⟨_, insert_u32_bc_of code off v hroom ho, ?_⟩,
    ?_⟩
  · rw [bytecode_of_bc_of]; exact get_after_append _ _
  · rw [bytecode_of_bc_of]; exact get_after_splice _ _ _ ho
  · constructor
    · intro h; omega
    · intro h; exact Nat.mod_eq_of_lt h

theorem C37_value_round_trip_witness :
    ([3].length < 256 ∧ 1 ≤ [3].length)
      ∧ (∃ bc1, append_u32 (bc_of [3]) 300 = .ok bc1
          ∧ get_value (bytecode_of bc1) [3].length = some (300 % 256, [3].length + 1))
      ∧ (∃ bc1, insert_u32 (bc_of [3]) 1 300 = .ok bc1
          ∧ get_value (bytecode_of bc1) 1 = some (300 % 256, 1 + 1)) :=
  ⟨by decide,
    (C37_value_round_trip [3] 1 300 (by decide) (by decide)).1,
    (C37_value_round_trip [3] 1 300 (by decide) (by decide)).2.1⟩

set_option maxRecDepth 100000 in
/-- C37, the failing input: 300 written with `append_u32` is read back as 44,
and an unbounded quantifier maximum (all 32 bits set) written with `insert_u32`
as 255. -/
theorem C37_counterexample :
    (append_u32 (bc_of [3]) 300).map (fun bc1 => get_value (bytecode_of bc1) 1)
        = .ok (some (44, 2))
      ∧ (insert_u32 (bc_of [3]) 1 4294967295).map (fun bc1 => get_value (bytecode_of bc1) 1)
        = .ok (some (255, 2)) :=
  ⟨rfl, rfl⟩

theorem bc_of_mem_length (code : List Nat) (h : code.length ≤ 256) :
    (bc_of code).mem.length = 256 := by
  simp only [bc_of, List.length_append, List.length_replicate]
  omega

theorem compile_from_length (R : re_platform) (pattern : List re_token_t) (fl : Nat)
    (res : re_compile_result) (ctx : re_compiler_ctx_t)
    (h : compile_from R pattern fl = .ok res) (hc : res.re_ctx = some ctx) :
    (bytecode_of ctx.bytecode_ctx).length ≤ 256 := by
  unfold compile_from at h
  cases h1 : parse_alternative_loop R (2 * pattern.length + 3)
      { flags := fl, recursion_depth := 1, num_of_captures := 1, num_of_non_captures := 0,
        bytecode_ctx := bc_of [RE_OP_SAVE_AT_START],
        current_token := ⟨.RE_TOK_EOF, 0, 1, 1, true⟩, parser_ctx := pattern } true 1 with
  | error e => rw [h1] at h; cases h
  | ok r =>
    rw [h1] at h
    simp only [] at h
    obtain ⟨rv, ctx1⟩ := r
    have hr := (loop_rel R _ _ _ _ _ _ h1 start_ok (le_refl 1) (le_refl 1)).1
    have a1 := hr.1
    have a3 : 1 ≤ ctx1.bytecode_ctx.len := hr.2.2.1
    cases h2 : re_finish ctx1 with
    | error e => rw [h2] at h; cases h
    | ok ctx2 =>
      rw [h2] at h
      injection h with h
      subst h
      simp only [Option.some.injEq] at hc
      subst hc
      have hroom := re_finish_room ctx1 _ a1 a3 h2
      have hcl := bc_ok_len _ a1
      have hfin := re_finish_bc_of ctx1 (bytecode_of ctx1.bytecode_ctx) a1.1
        (by rw [hcl]; exact hroom)
      rw [h2] at hfin
      injection hfin with hfin
      rw [hfin]
      simp only [bytecode_of_bc_of, List.length_cons, List.length_append, List.length_nil, hcl]
      omega

theorem compile_length (R : re_platform) (pattern : List re_token_t)
    (flags : Option (List Nat)) (res : re_compile_result) (ctx : re_compiler_ctx_t)
    (h : regexp_compile_bytecode R pattern flags = .ok res) (hc : res.re_ctx = some ctx) :
    (bytecode_of ctx.bytecode_ctx).length ≤ 256 := by
  cases flags with
  | none =>
    rw [compile_none_from] at h
    exact compile_from_length R pattern 0 res ctx h hc
  | some s =>
    rw [compile_some_from] at h
    split_ifs at h
    · injection h with h
      subst h
      cases hc
    · exact compile_from_length R pattern _ res ctx h hc

/-- C38, as the code has it: `bytecode_list_append` allocates the first block
of `REGEXP_BYTECODE_BLOCK_SIZE` cells when the context is NULL, and appends the
byte after the bytes written while the block has a free cell; on a full block it
reaches `realloc_regexp_bytecode_block`, whose assertion demands that the three
pointers are NULL, and nothing is appended. No bytecode that
`regexp_compile_bytecode` returns is longer than 256 cells. -/
theorem C38_append_and_growth (R : re_platform) (code : List Nat) (b : Nat) :
    bytecode_list_append ⟨true, [], 0⟩ b = .ok (bc_of [b])
      ∧ (bc_of [b]).mem.length = REGEXP_BYTECODE_BLOCK_SIZE
      ∧ (code.length < 256 → bytecode_list_append (bc_of code) b = .ok (bc_of (code ++ [b])))
      ∧ (code.length = 256 → bytecode_list_append (bc_of code) b = .error .assertion_failed)
      ∧ (∀ pattern flags res ctx, regexp_compile_bytecode R pattern flags = .ok res →
          res.re_ctx = some ctx → (bytecode_of ctx.bytecode_ctx).length ≤ 256) := by
  refine ⟨append_null b, ?_, fun h => append_bc_of code b h,
    fun h => append_bc_of_full code b (by omega),
    fun pattern flags res ctx h hc => compile_length R pattern flags res ctx h hc⟩
  exact bc_of_mem_length [b] (by simp)

/-- C38, the failing input: a block whose 256 cells are written; the append of
one more byte ends in the failed assertion. -/
theorem C38_counterexample :
    (bytecode_of (bc_of (List.replicate 256 7))).length = 256
      ∧ (bc_of (List.replicate 256 7)).mem.length = 256
      ∧ bytecode_list_append (bc_of (List.replicate 256 7)) 9 = .error .assertion_failed := by
  exact ⟨by rw [bytecode_of_bc_of, List.length_replicate],
    bc_of_mem_length _ (by rw [List.length_replicate]),
    append_bc_of_full _ 9 (by rw [List.length_replicate])⟩

theorem array_list_init_from_raw_wf (A : al_platform) (es : Nat) (data : List Nat) (ds : Nat)
    (al : array_list) (h : array_list_init_from_raw A es data ds = .ok al) : al_wf A al := by
  unfold array_list_init_from_raw at h
  simp only [] at h
  split_ifs at h with h1 h2
  injection h with h
  subst h
  have hes : 0 < es := Nat.pos_of_ne_zero h1
  have hlen : ds / es * (es % 256) ≤ ds := by
    calc ds / es * (es % 256) ≤ ds / es * es := Nat.mul_le_mul_left _ (Nat.mod_le _ _)
      _ ≤ ds := Nat.div_mul_le_self ds es
  refine ⟨?_, ?_⟩
  · simp only []
    omega
  · simp only [List.length_append, List.length_take, List.length_replicate]
    omega

theorem array_list_grow_wf (A : al_platform)
    (hA : ∀ n, n ≤ A.mem_heap_recommend_allocation_size n) (al : array_list) (hw : al_wf A al) :
    ∃ h, array_list_grow A al = .ok h ∧ al_wf A h
      ∧ A.sizeof_header + (al.len + 1) * al.element_size ≤ h.size
      ∧ h.len = al.len ∧ h.element_size = al.element_size := by
  obtain ⟨h1, h2⟩ := hw
  have hmul : (al.len + 1) * al.element_size = al.len * al.element_size + al.element_size := by
    rw [Nat.add_mul, Nat.one_mul]
  unfold array_list_grow
  by_cases hg : (al.len + 1) * al.element_size + A.sizeof_header > al.size
  · have hr := hA (al.size + al.element_size)
    rw [if_pos hg]
    simp only
    rw [if_neg (by omega)]
    refine ⟨_, rfl, ⟨?_, ?_⟩, ?_, rfl, rfl⟩
    · simp only; omega
    · simp only [List.length_append, List.length_replicate]; omega
    · simp only; omega
  · rw [if_neg hg]
    exact ⟨al, rfl, ⟨h1, h2⟩, by omega, rfl, rfl⟩

/-- The element copy of `array_list_append` stays inside the block. -/
theorem array_list_append_wf (A : al_platform)
    (hA : ∀ n, n ≤ A.mem_heap_recommend_allocation_size n) (al : array_list) (hw : al_wf A al)
    (e : List Nat) (he : al.element_size ≤ e.length) :
    ∃ al1, array_list_append A al e = .ok al1 ∧ al_wf A al1 ∧ al1.len = al.len + 1
      ∧ al1.element_size = al.element_size := by
  obtain ⟨h, hh, ⟨g1, g2⟩, hfit, hlen, hes⟩ := array_list_grow_wf A hA al hw
  have hmul : (al.len + 1) * al.element_size = al.len * al.element_size + al.element_size := by
    rw [Nat.add_mul, Nat.one_mul]
  unfold array_list_append
  rw [hh]
  simp only []
  rw [if_neg (by rw [hes]; omega), if_neg (by rw [hlen, hes]; simp only [not_not]; omega)]
  refine ⟨_, rfl, ⟨?_, ?_⟩, by simp only [hlen], by simp only [hes]⟩
  · simp only [hlen, hes]; omega
  · simp only [hlen, hes, List.length_append, List.length_take, List.length_drop]
    have : min al.element_size e.length = al.element_size := Nat.min_eq_left he
    omega

theorem array_list_set_element_wf (A : al_platform) (al al1 : array_list) (hw : al_wf A al)
    (i : Nat) (e : List Nat) (h : array_list_set_element al i e = .ok al1) :
    al_wf A al1 ∧ al1.len = al.len ∧ al1.element_size = al.element_size ∧ al1.size = al.size := by
  unfold array_list_set_element at h
  split_ifs at h with h1 h2 h3
  injection h with h
  subst h
  refine ⟨⟨hw.1, ?_⟩, rfl, rfl, rfl⟩
  have := hw.2
  simp only [List.length_append, List.length_take, List.length_drop]
  omega

/-- The copy of `array_list_set_element` stays inside the block. -/
theorem array_list_set_element_inside (A : al_platform) (al : array_list) (hw : al_wf A al)
    (i : Nat) (e : List Nat) (hi : i < al.len) (he : al.element_size ≤ e.length) :
    ∃ al1, array_list_set_element al i e = .ok al1 := by
  unfold array_list_set_element
  have hmul : (i + 1) * al.element_size ≤ al.len * al.element_size :=
    Nat.mul_le_mul_right _ hi
  rw [Nat.add_mul, Nat.one_mul] at hmul
  have := hw.1
  have := hw.2
  rw [if_neg (by omega), if_neg (by omega), if_neg (by simp only [not_not]; omega)]
  exact ⟨_, rfl⟩

theorem al_apply_wf (A : al_platform) (hA : ∀ n, n ≤ A.mem_heap_recommend_allocation_size n)
    (al al1 : array_list) (hw : al_wf A al) (op : al_op) (h : al_apply A al op = .ok al1) :
    al_wf A al1 := by
  cases op with
  | append e =>
    simp only [al_apply] at h
    by_cases he : al.element_size ≤ e.length
    · obtain ⟨al2, h2, hw2, _⟩ := array_list_append_wf A hA al hw e he
      rw [h2] at h
      injection h with h
      subst h
      exact hw2
    · obtain ⟨g, hg, _, _, _, hes⟩ := array_list_grow_wf A hA al hw
      unfold array_list_append at h
      rw [hg] at h
      simp only [] at h
      rw [if_pos (by rw [hes]; omega)] at h
      cases h
  | drop_last =>
    simp only [al_apply, array_list_drop_last] at h
    split_ifs at h with h1
    injection h with h
    subst h
    refine ⟨?_, hw.2⟩
    have := hw.1
    have : (al.len - 1) * al.element_size ≤ al.len * al.element_size :=
      Nat.mul_le_mul_right _ (Nat.sub_le _ _)
    simp only []
    omega
  | set_element i e =>
    exact (array_list_set_element_wf A al al1 hw i e h).1
  | set_last_element i e =>
    simp only [al_apply, array_list_set_last_element] at h
    split_ifs at h with h1
    exact (array_list_set_element_wf A al al1 hw _ e h).1

theorem al_apply_all_wf (A : al_platform)
    (hA : ∀ n, n ≤ A.mem_heap_recommend_allocation_size n) :
    ∀ (ops : List al_op) (al al1 : array_list), al_wf A al →
      al_apply_all A al ops = .ok al1 → al_wf A al1 := by
  intro ops
  induction ops with
  | nil =>
    intro al al1 hw h
    simp only [al_apply_all] at h
    injection h with h
    subst h
    exact hw
  | cons op ops ih =>
    intro al al1 hw h
    simp only [al_apply_all] at h
    cases h1 : al_apply A al op with
    | error e => rw [h1] at h; cases h
    | ok al2 =>
      rw [h1] at h
      exact ih al2 al1 (al_apply_wf A hA al al2 hw op h1) h

/-- C33: an array list obtained from `array_list_init` or
`array_list_init_from_raw` and modified by any sequence of
`array_list_append`, `array_list_drop_last`, `array_list_set_element` and
`array_list_set_last_element` satisfies `sizeof (array_list_header) + len *
element_size ≤ size` (with `mem_heap_recommend_allocation_size (n) ≥ n`).
Hence every element below `len` lies inside the block, a further
`array_list_append` of an element of `element_size` bytes copies inside the
block and succeeds, and so does `array_list_set_element` at an index below
`len`. -/
theorem C33_array_list_bounds (A : al_platform)
    (hA : ∀ n, n ≤ A.mem_heap_recommend_allocation_size n) (es : Nat) (data : List Nat)
    (ds : Nat) (al0 al : array_list) (ops : List al_op)
    (h0 : al0 = array_list_init A es ∨ array_list_init_from_raw A es data ds = .ok al0)
    (h : al_apply_all A al0 ops = .ok al) :
    A.sizeof_header + al.len * al.element_size ≤ al.size
      ∧ al.data.length = al.size - A.sizeof_header
      ∧ (∀ i, i < al.len →
          A.sizeof_header + i * al.element_size + al.element_size ≤ al.size)
      ∧ (∀ e, al.element_size ≤ e.length →
          ∃ al1, array_list_append A al e = .ok al1
            ∧ A.sizeof_header + al1.len * al1.element_size ≤ al1.size)
      ∧ (∀ i e, i < al.len → al.element_size ≤ e.length →
          ∃ al1, array_list_set_element al i e = .ok al1) := by
  have hw0 : al_wf A al0 := by
    rcases h0 with h0 | h0
    · rw [h0]; exact array_list_init_wf A hA es
    · exact array_list_init_from_raw_wf A es data ds al0 h0
  have hw := al_apply_all_wf A hA ops al0 al hw0 h
  refine ⟨hw.1, hw.2, fun i hi => ?_, fun e he => ?_, fun i e hi he => ?_⟩
  · have hmul : (i + 1) * al.element_size ≤ al.len * al.element_size :=
      Nat.mul_le_mul_right _ hi
    rw [Nat.add_mul, Nat.one_mul] at hmul
    have := hw.1
    omega
  · obtain ⟨al1, h1, hw1, _⟩ := array_list_append_wf A hA al hw e he
    exact ⟨al1, h1, hw1.1⟩
  · exact array_list_set_element_inside A al hw i e hi he

theorem C33_array_list_bounds_witness :
    (∀ n, n ≤ sample_al_platform.mem_heap_recommend_allocation_size n)
      ∧ al_apply_all sample_al_platform (array_list_init sample_al_platform 3)
          [.append [1, 2, 3], .append [4, 5, 6], .append [7, 8, 9], .set_element 0 [9, 9, 9],
            .drop_last, .set_last_element 1 [5, 5, 5]]
        = .ok ⟨3, 2, 40, [9, 9, 9, 5, 5, 5, 7, 8, 9, 0, 0, 0, 0, 0, 0, 0]⟩
      ∧ sample_al_platform.sizeof_header + 2 * 3 ≤ 40 :=
  have hA : ∀ n, n ≤ sample_al_platform.mem_heap_recommend_allocation_size n :=
    fun n => by simp only [sample_al_platform]; omega
  have hr : al_apply_all sample_al_platform (array_list_init sample_al_platform 3)
      [.append [1, 2, 3], .append [4, 5, 6], .append [7, 8, 9], .set_element 0 [9, 9, 9],
        .drop_last, .set_last_element 1 [5, 5, 5]]
      = .ok ⟨3, 2, 40, [9, 9, 9, 5, 5, 5, 7, 8, 9, 0, 0, 0, 0, 0, 0, 0]⟩ := by decide
  ⟨hA, hr, (C33_array_list_bounds sample_al_platform hA 3 [] 0 _ _ _ (Or.inl rfl) hr).1⟩

theorem array_list_raw_examples :
    array_list_init_from_raw sample_al_platform 2 [1, 2, 3, 4, 5] 5
        = .ok ⟨2, 2, 32, [1, 2, 3, 4, 5, 0, 0, 0]⟩
      ∧ array_list_init_from_raw sample_al_platform 0 [1, 2] 2 = .error .division_by_zero
      ∧ array_list_init_from_raw sample_al_platform 258 [1, 2, 3] 3
          = .ok ⟨2, 0, 32, [1, 2, 3, 0, 0, 0, 0, 0]⟩ := by
  decide

set_option maxRecDepth 100000 in
theorem keywords_nul_free : ∀ e ∈ keywords,
    0 ∉ cstr e.1 ∧ strlen (cstr e.1) = (cstr e.1).length := by
  decide

set_option maxRecDepth 100000 in
theorem keyword_string_in_table (k : keyword) (s : String)
    (h : lexer_keyword_to_string k = .ok s) : (s, k) ∈ keywords := by
  cases k <;> cases h <;> decide

set_option maxRecDepth 100000 in
theorem keywords_to_string : ∀ e ∈ keywords,
    (match lexer_keyword_to_string e.2 with
      | .ok s => decide (s = e.1)
      | .error _ => false) = true := by
  decide

theorem same_length_compare (k str : List Nat) (h0 : 0 ∉ k) (hl : k.length = str.length)
    (hc : strncmp_eq k str str.length = true) : str = k := by
  rw [strncmp_eq_comm, ← hl] at hc
  have := (strncmp_eq_nul_free k str h0).mp hc
  rw [hl, List.take_length] at this
  exact this

theorem find_keyword_none (str : List Nat) : ∀ (tbl : List (String × keyword)),
    (∀ e ∈ tbl, 0 ∉ cstr e.1 ∧ strlen (cstr e.1) = (cstr e.1).length) →
    (∀ e ∈ tbl, str ≠ cstr e.1) → find_keyword str tbl = .KW_NONE := by
  intro tbl
  induction tbl with
  | nil => intro _ _; rfl
  | cons e rest ih =>
    intro h1 h2
    obtain ⟨k, id⟩ := e
    have hk := h1 (k, id) (by simp)
    simp only [find_keyword]
    rw [if_neg]
    · exact ih (fun e he => h1 e (List.mem_cons_of_mem _ he))
        (fun e he => h2 e (List.mem_cons_of_mem _ he))
    · intro hc
      have hl : (cstr k).length = str.length := by rw [← hk.2]; exact hc.1
      exact h2 (k, id) (by simp) (same_length_compare (cstr k) str hk.1 hl hc.2)

theorem literal_word_compare (w str : List Nat) (h0 : 0 ∉ w) (hs : strlen w = w.length)
    (hne : str ≠ w) :
    ¬ (strlen w = str.length ∧ strncmp_eq str w str.length = true) := by
  intro hc
  have hl : w.length = str.length := by rw [← hs]; exact hc.1
  have h2 := hc.2
  rw [strncmp_eq_comm] at h2
  exact hne (same_length_compare w str h0 hl h2)

set_option maxRecDepth 100000 in
theorem literal_words_facts :
    (0 ∉ cstr "false" ∧ strlen (cstr "false") = (cstr "false").length)
      ∧ (0 ∉ cstr "true" ∧ strlen (cstr "true") = (cstr "true").length)
      ∧ (0 ∉ cstr "null" ∧ strlen (cstr "null") = (cstr "null").length)
      ∧ find_keyword (cstr "false") keywords = .KW_NONE
      ∧ find_keyword (cstr "true") keywords = .KW_NONE
      ∧ find_keyword (cstr "null") keywords = .KW_NONE := by
  decide

set_option maxRecDepth 100000 in
theorem decode_literal_words (P : platform) (st : lexer_state) :
    decode_keyword P st (cstr "true") = .ok (create_token st .TOK_BOOL 1, st)
      ∧ decode_keyword P st (cstr "false") = .ok (create_token st .TOK_BOOL 0, st)
      ∧ decode_keyword P st (cstr "null") = .ok (create_token st .TOK_NULL 0, st) := by
  obtain ⟨_, _, _, h4, h5, h6⟩ := literal_words_facts
  refine ⟨?_, ?_, ?_⟩
  · unfold decode_keyword
    simp only [h5]
    rw [if_neg (by simp [is_strict_only_keyword]), if_neg (by simp), if_neg (by decide),
      if_pos (by decide)]
    rfl
  · unfold decode_keyword
    simp only [h4]
    rw [if_neg (by simp [is_strict_only_keyword]), if_neg (by simp), if_pos (by decide)]
    rfl
  · unfold decode_keyword
    simp only [h6]
    rw [if_neg (by simp [is_strict_only_keyword]), if_neg (by simp), if_neg (by decide),
      if_neg (by decide), if_pos (by decide)]
    rfl

/-- C31: in strict mode `decode_keyword` applied to the string that
`lexer_keyword_to_string` returns for a keyword `k` returns the keyword token
of `k`; applied to `true` and `false` it returns the boolean token with value 1
and 0, applied to `null` the null token (in either mode), and applied to any
string that is none of these the empty token. The lexer state is unchanged. -/
theorem C31_decode_keyword (P : platform) (st : lexer_state) (hs : st.strict_mode = true) :
    (∀ k s, lexer_keyword_to_string k = .ok s →
        decode_keyword P st (cstr s) = .ok (create_token st .TOK_KEYWORD k.uid, st))
      ∧ decode_keyword P st (cstr "true") = .ok (create_token st .TOK_BOOL 1, st)
      ∧ decode_keyword P st (cstr "false") = .ok (create_token st .TOK_BOOL 0, st)
      ∧ decode_keyword P st (cstr "null") = .ok (create_token st .TOK_NULL 0, st)
      ∧ (∀ str : List Nat,
          (∀ k s, lexer_keyword_to_string k = .ok s → str ≠ cstr s) →
          str ≠ cstr "true" → str ≠ cstr "false" → str ≠ cstr "null" →
          decode_keyword P st str = .ok (empty_token, st)) := by
  obtain ⟨d1, d2, d3⟩ := decode_literal_words P st
  refine ⟨fun k s h => ?_, d1, d2, d3, fun str hk ht hf hn => ?_⟩
  · rw [decode_keyword_table P st s k (keyword_string_in_table k s h),
      if_neg (by rw [hs]; simp)]
  · have hnone : find_keyword str keywords = .KW_NONE := by
      refine find_keyword_none str keywords keywords_nul_free (fun e he => ?_)
      obtain ⟨s, k⟩ := e
      refine hk k s ?_
      have := keywords_to_string (s, k) he
      simp only [] at this
      cases hq : lexer_keyword_to_string k with
      | error err => rw [hq] at this; cases this
      | ok s1 =>
        rw [hq] at this
        simp only [decide_eq_true_eq] at this
        rw [this]
    obtain ⟨w1, w2, w3, _⟩ := literal_words_facts
    unfold decode_keyword
    simp only [hnone]
    rw [if_neg (by simp [is_strict_only_keyword]), if_neg (by simp),
      if_neg (literal_word_compare _ str w1.1 w1.2 hf),
      if_neg (literal_word_compare _ str w2.1 w2.2 ht),
      if_neg (literal_word_compare _ str w3.1 w3.2 hn)]
    rfl

theorem C31_decode_keyword_witness :
    (lexer_set_strict_mode (lexer_init_source (cstr "while")) true).strict_mode = true
      ∧ decode_keyword sample_platform
          (lexer_set_strict_mode (lexer_init_source (cstr "while")) true) (cstr "while")
        = .ok (create_token (lexer_set_strict_mode (lexer_init_source (cstr "while")) true)
            .TOK_KEYWORD keyword.KW_WHILE.uid,
          lexer_set_strict_mode (lexer_init_source (cstr "while")) true)
      ∧ decode_keyword sample_platform
          (lexer_set_strict_mode (lexer_init_source (cstr "while")) true) (cstr "true")
        = .ok (create_token (lexer_set_strict_mode (lexer_init_source (cstr "while")) true)
            .TOK_BOOL 1,
          lexer_set_strict_mode (lexer_init_source (cstr "while")) true) :=
  ⟨rfl,
    (C31_decode_keyword sample_platform
      (lexer_set_strict_mode (lexer_init_source (cstr "while")) true) rfl).1
      .KW_WHILE "while" rfl,
    (C31_decode_keyword sample_platform
      (lexer_set_strict_mode (lexer_init_source (cstr "while")) true) rfl).2.1⟩

set_option maxRecDepth 100000 in
theorem decode_keyword_examples :
    decode_keyword sample_platform (lexer_set_strict_mode (lexer_init_source []) true)
        (cstr "let") = .ok (⟨.TOK_KEYWORD, 0, 24⟩, lexer_set_strict_mode (lexer_init_source []) true)
      ∧ decode_keyword sample_platform (lexer_set_strict_mode (lexer_init_source []) true)
        (cstr "abc") = .ok (empty_token, lexer_set_strict_mode (lexer_init_source []) true)
      ∧ decode_keyword sample_platform (lexer_set_strict_mode (lexer_init_source []) true)
        [116, 114, 0, 101] = .ok (empty_token, lexer_set_strict_mode (lexer_init_source []) true)
      ∧ decode_keyword sample_platform (lexer_set_strict_mode (lexer_init_source []) true)
        [] = .ok (empty_token, lexer_set_strict_mode (lexer_init_source []) true)
      ∧ decode_keyword sample_platform (lexer_set_strict_mode (lexer_init_source []) true)
        (cstr "null") = .ok (⟨.TOK_NULL, 0, 0⟩, lexer_set_strict_mode (lexer_init_source []) true) := by
  decide

/-! ## C34: the string and its terminator fit in the strings cache -/

/-- After the capacity test and the optional reallocation the string and its
terminator fit, whatever the state was. -/
theorem cache_grow_room (P : platform) (hrec : ∀ n, n ≤ P.mem_heap_recommend_allocation_size n)
    (st : lexer_state) (n : Nat) :
    (cache_grow P st n).strings_cache_used_size + (n + 1)
      ≤ (cache_grow P st n).strings_cache_size := by
  unfold cache_grow
  by_cases hg : st.strings_cache_used_size + n ≥ st.strings_cache_size
  · rw [if_pos hg]
    have hsz := hrec (st.strings_cache_used_size + (n + 1))
    by_cases hb : st.strings_cache ≠ 0
    · rw [if_pos hb]; exact hsz
    · rw [if_neg hb]; exact hsz
  · rw [if_neg hg]; omega

/-- A completed call has advanced the used size by the string and its
terminator and left the block size as `cache_grow` set it. -/
theorem add_string_sizes (P : platform) (st : lexer_state) (s : List Nat) (lit : literal)
    (st2 : lexer_state) (h : add_string_to_string_cache P st s = .ok (lit, st2)) :
    st2.strings_cache_used_size = st.strings_cache_used_size + (s.length + 1)
      ∧ st2.strings_cache_size = (cache_grow P st s.length).strings_cache_size := by
  obtain ⟨_, _, _, _, f5, _⟩ := cache_grow_frame P st s.length
  unfold add_string_to_string_cache at h
  simp only at h
  by_cases hb : (cache_grow P st s.length).strings_cache = 0
  · rw [if_pos hb] at h; cases h
  · rw [if_neg hb] at h
    cases hq : mem_write (cache_grow P st s.length).cache
        (cache_grow P st s.length).strings_cache_used_size
        (strncpy_bytes s s.length ++ [0]) with
    | error e => rw [hq] at h; cases h
    | ok mem =>
      rw [hq] at h
      simp only [Except.ok.injEq, Prod.mk.injEq] at h
      obtain ⟨_, rfl⟩ := h
      simp only
      constructor
      · rw [f5]; omega
      · trivial

/-- C34: with an allocator that recommends at least the requested size (a
character is one byte), for every state of the strings cache and every string,
after the capacity test and the optional reallocation of
`add_string_to_string_cache` the string and its terminator lie inside the
block: `strings_cache_used_size + (length + 1) <= strings_cache_size`; every
completed call leaves `strings_cache_used_size` larger by exactly
`length + 1`, still within the block size; and from a consistent cache with a
successful allocation the call does complete, the block having the recorded
size. -/
theorem C34_string_fits_in_cache (P : platform)
    (hrec : ∀ n, n ≤ P.mem_heap_recommend_allocation_size n) (st : lexer_state) (s : List Nat) :
    (cache_grow P st s.length).strings_cache_used_size + (s.length + 1)
        ≤ (cache_grow P st s.length).strings_cache_size
      ∧ (cache_grow P st s.length).strings_cache_used_size = st.strings_cache_used_size
      ∧ (∀ lit st2, add_string_to_string_cache P st s = .ok (lit, st2) →
          st2.strings_cache_used_size = st.strings_cache_used_size + (s.length + 1)
            ∧ st2.strings_cache_used_size ≤ st2.strings_cache_size)
      ∧ (pool_wf st → (∀ k, P.mem_heap_alloc_block k ≠ 0) →
          ∃ lit st2, add_string_to_string_cache P st s = .ok (lit, st2)
            ∧ st2.cache.length = st2.strings_cache_size) := by
  have hroom := cache_grow_room P hrec st s.length
  obtain ⟨_, _, _, _, f5, _⟩ := cache_grow_frame P st s.length
  refine ⟨hroom, f5, ?_, ?_⟩
  · intro lit st2 h
    obtain ⟨a, b⟩ := add_string_sizes P st s lit st2 h
    refine ⟨a, ?_⟩
    rw [a, b]; rw [f5] at hroom; exact hroom
  · intro hw halloc
    obtain ⟨lit, st2, h, _, _, _, _, _, hwf, _⟩ := add_string_spec P ⟨hrec, halloc⟩ st hw s
    exact ⟨lit, st2, h, hwf.1⟩

theorem C34_string_fits_in_cache_witness :
    (∀ n, n ≤ tight_platform.mem_heap_recommend_allocation_size n)
      ∧ (cache_grow tight_platform sample_pool_state 3).strings_cache_used_size + (3 + 1)
          ≤ (cache_grow tight_platform sample_pool_state 3).strings_cache_size
      ∧ ∃ lit st2, add_string_to_string_cache tight_platform sample_pool_state [101, 102, 103]
            = .ok (lit, st2)
          ∧ st2.cache.length = st2.strings_cache_size :=
  ⟨tight_platform_ok.1,
    (C34_string_fits_in_cache tight_platform tight_platform_ok.1 sample_pool_state
      [101, 102, 103]).1,
    (C34_string_fits_in_cache tight_platform tight_platform_ok.1 sample_pool_state
      [101, 102, 103]).2.2.2 sample_pool_state_wf tight_platform_ok.2⟩

/-- The cache of the sample state is full (3 of 3 bytes); storing `efg`
reallocates to exactly 7 bytes, the string and its terminator take bytes 3 to
6, and the used size becomes 7. -/
theorem string_cache_examples :
    (add_string_to_string_cache tight_platform sample_pool_state [101, 102, 103]).map
        (fun r => (r.2.cache, r.2.strings_cache_size, r.2.strings_cache_used_size))
      = .ok ([97, 98, 0, 101, 102, 103, 0], 7, 7) := by decide

/-! ## Raw bodies: the decoding loop stays inside them -/

theorem scan_plain (c : Nat) (r : List Nat) (h : c ≠ 92) :
    raw_body_scan .normal (c :: r) = raw_body_scan .normal r := by
  simp [raw_body_scan, h]

theorem scan_backslash (r : List Nat) :
    raw_body_scan .normal (92 :: r) = raw_body_scan .escaped r := by
  simp [raw_body_scan]

theorem scan_escaped (c : Nat) (r : List Nat) (h : c ≠ 13) :
    raw_body_scan .escaped (c :: r) = raw_body_scan .normal r := by
  simp [raw_body_scan, h]

theorem scan_escaped_cr (r : List Nat) :
    raw_body_scan .escaped (13 :: r) = raw_body_scan .escaped_cr r := by
  simp [raw_body_scan]

theorem scan_cr_lf (r : List Nat) :
    raw_body_scan .escaped_cr (10 :: r) = raw_body_scan .normal r := by
  simp [raw_body_scan]

theorem scan_cr_other (c : Nat) (r : List Nat) (h : c ≠ 10) :
    raw_body_scan .escaped_cr (c :: r) = raw_body_scan .normal (c :: r) := by
  simp [raw_body_scan, h]

theorem isxdigit_ne_backslash (c : Nat) (h : isxdigit c = true) : c ≠ 92 := by
  intro e; subst e; exact absurd h (by decide)

theorem scan_hex_prefix : ∀ (hs w : List Nat), (∀ h ∈ hs, isxdigit h = true) →
    raw_body_scan .normal (hs ++ w) = raw_body_scan .normal w := by
  intro hs
  induction hs with
  | nil => intro w _; rfl
  | cons a t ih =>
    intro w h
    rw [List.cons_append, scan_plain _ _ (isxdigit_ne_backslash a (h a (List.mem_cons_self _ _)))]
    exact ih w (fun x hx => h x (List.mem_cons_of_mem _ hx))

theorem raw_body_ok_examples :
    raw_body_ok (cstr "a\\u0041b") = true ∧ raw_body_ok (cstr "tail\\") = false
      ∧ raw_body_ok (cstr "x\\\\") = true := by decide

/-- The inner loop of a hex escape with enough characters left and room in the
16-bit code: it stops at a character that is not a hex digit, or reads exactly
`n` hex digits. -/
theorem read_hex_chars_spec : ∀ (n : Nat) (iter : List Nat) (cc : Nat), n ≤ 4 →
    n ≤ iter.length → cc * 16 ^ n < 65536 →
    read_hex_chars n iter cc = .ok none
      ∨ ∃ code, read_hex_chars n iter cc = .ok (some (code, iter.drop n))
          ∧ ∀ h ∈ iter.take n, isxdigit h = true := by
  intro n
  induction n with
  | zero =>
    intro iter cc _ _ _
    right
    exact ⟨cc, rfl, by simp⟩
  | succ n ih =>
    intro iter cc h4 hn hcc
    cases iter with
    | nil => simp at hn
    | cons nc rest =>
      simp only [read_hex_chars]
      by_cases hx : isxdigit nc = true
      · have hd := digit_value_lt nc hx
        have hlt : cc < 4096 ∧ (cc * 16 + digit_value nc) * 16 ^ n < 65536 := by
          have hn3 : n ≤ 3 := by omega
          interval_cases n <;> norm_num at hcc ⊢ <;> omega
        rw [if_neg (by simp [hx]), if_neg (by
          have : cc / 4096 = 0 := Nat.div_eq_of_lt hlt.1
          simp [this]), hex_to_int_digit nc hx]
        have e1 : (cc * 16 % 65536 + digit_value nc) % 65536 = cc * 16 + digit_value nc := by
          rw [Nat.mod_eq_of_lt (show cc * 16 < 65536 by omega), Nat.mod_eq_of_lt (by omega)]
        simp only [bind, Except.bind, e1]
        rcases ih rest (cc * 16 + digit_value nc) (by omega) (by simpa using hn) hlt.2 with
          h | ⟨code, h, hall⟩
        · left; exact h
        · right
          refine ⟨code, ?_, ?_⟩
          · rw [h]; rfl
          · intro x hx2
            simp only [List.take_succ_cons, List.mem_cons] at hx2
            rcases hx2 with rfl | hx2
            · exact hx
            · exact hall x hx2
      · left
        rw [if_pos (by simp [hx])]
        rfl

theorem in_bounds_push (w w1 buf : List Nat) (c : Nat) (r : Except lex_error decoded)
    (h : decoded_in_bounds w1 (buf ++ [c]) r) (hl : w1.length + 1 ≤ w.length) :
    decoded_in_bounds w buf r := by
  rcases h with h | h | ⟨out, l, a, h, ho⟩
  · exact Or.inl h
  · exact Or.inr (Or.inl h)
  · refine Or.inr (Or.inr ⟨c :: out, l, a, ?_, ?_⟩)
    · rw [h, List.append_assoc]; rfl
    · simp only [List.length_cons]; omega

theorem in_bounds_skip (w w1 buf : List Nat) (r : Except lex_error decoded)
    (h : decoded_in_bounds w1 buf r) (hl : w1.length ≤ w.length) :
    decoded_in_bounds w buf r := by
  rcases h with h | h | ⟨out, l, a, h, ho⟩
  · exact Or.inl h
  · exact Or.inr (Or.inl h)
  · exact Or.inr (Or.inr ⟨out, l, a, h, by omega⟩)

/-- On a raw body in which every backslash has its character, the decoding loop
with enough fuel ends without a failed assertion, and the decoded buffer grows
by at most the length of the body. -/
theorem transform_loop_in_bounds : ∀ (fuel : Nat) (w buf : List Nat) (lower allowed : Bool),
    w.length < fuel → raw_body_scan .normal w = true →
    decoded_in_bounds w buf (transform_loop fuel w buf lower allowed) := by
  intro fuel
  induction fuel with
  | zero => intro w buf lower allowed h; omega
  | succ fuel ih =>
    intro w buf lower allowed hf hok
    cases w with
    | nil =>
      refine Or.inr (Or.inr ⟨[], lower, allowed, ?_, Nat.le_refl _⟩)
      simp [transform_loop, pure, Except.pure]
    | cons c rest =>
      simp only [List.length_cons] at hf
      by_cases hc : c = 92
      · subst hc
        rw [scan_backslash] at hok
        cases rest with
        | nil => exact absurd hok (by decide)
        | cons e rest1 =>
          simp only [List.length_cons] at hf
          simp only [transform_loop, ne_eq, not_true_eq_false, if_false]
          by_cases hd : isdigit e = true
          · rw [if_pos hd]
            by_cases h0 : e = 48
            · rw [if_pos h0]; exact Or.inl rfl
            · rw [if_neg h0]; exact Or.inr (Or.inl rfl)
          · rw [if_neg hd]
            by_cases hu : e = 117 ∨ e = 120
            · rw [if_pos hu]
              have he13 : e ≠ 13 := by rcases hu with h | h <;> omega
              rw [scan_escaped e rest1 he13] at hok
              by_cases hlen : rest1.length < (if e = 117 then 4 else 2)
              · rw [if_pos hlen]; exact Or.inr (Or.inl rfl)
              · rw [if_neg hlen]
                have hn4 : (if e = 117 then 4 else 2) ≤ 4 := by split <;> omega
                have hroom : 0 * 16 ^ (if e = 117 then 4 else 2) < 65536 := by omega
                rcases read_hex_chars_spec _ rest1 0 hn4 (by omega) hroom with
                  h | ⟨code, h, hall⟩
                · rw [h]; exact Or.inr (Or.inl rfl)
                · rw [h]
                  have hsplit := List.take_append_drop (if e = 117 then 4 else 2) rest1
                  have hok2 : raw_body_scan .normal
                      (rest1.drop (if e = 117 then 4 else 2)) = true := by
                    rw [← scan_hex_prefix _ _ hall, hsplit]; exact hok
                  have hl2 : (rest1.drop (if e = 117 then 4 else 2)).length ≤ rest1.length := by
                    simp only [List.length_drop]; omega
                  exact in_bounds_push _ _ _ _ _
                    (ih _ (buf ++ [code % 256]) _ _ (by omega) hok2)
                    (by simp only [List.length_cons]; omega)
            · rw [if_neg hu]
              by_cases hlt : ecma_char_is_line_terminator e = true
              · rw [if_pos hlt]
                cases rest1 with
                | nil =>
                  exact in_bounds_skip _ _ _ _ (ih [] buf _ _ (by simp; omega) rfl)
                    (by simp)
                | cons nc rest2 =>
                  simp only [List.length_cons] at hf
                  by_cases hcr : e = 13 ∧ nc = 10
                  · simp only []
                    rw [if_pos hcr]
                    obtain ⟨rfl, rfl⟩ := hcr
                    rw [scan_escaped_cr, scan_cr_lf] at hok
                    exact in_bounds_skip _ _ _ _ (ih rest2 buf _ _ (by omega) hok)
                      (by simp only [List.length_cons]; omega)
                  · simp only []
                    rw [if_neg hcr]
                    have hok2 : raw_body_scan .normal (nc :: rest2) = true := by
                      rcases line_terminator_cases e hlt with h | h
                      · subst h
                        rw [scan_escaped_cr, scan_cr_other _ _ (fun x => hcr ⟨rfl, x⟩)] at hok
                        exact hok
                      · subst h
                        rw [scan_escaped _ _ (by decide)] at hok
                        exact hok
                    exact in_bounds_skip _ _ _ _ (ih (nc :: rest2) buf _ _
                      (by simp only [List.length_cons]; omega) hok2)
                      (by simp only [List.length_cons]; omega)
              · rw [if_neg hlt]
                have he13 : e ≠ 13 := by
                  intro x; subst x; exact hlt (by decide)
                rw [scan_escaped e rest1 he13] at hok
                exact in_bounds_push _ _ _ _ _
                  (ih rest1 (buf ++ [(convert_single_escape_character e).2]) _ _ (by omega) hok)
                  (by simp only [List.length_cons]; omega)
      · rw [scan_plain c rest hc] at hok
        simp only [transform_loop, ne_eq, hc, not_false_eq_true, if_true]
        exact in_bounds_push _ _ _ _ _ (ih rest (buf ++ [c]) _ _ (by omega) hok)
          (by simp only [List.length_cons]; omega)

/-! ## Scanning loops: where they stop and what they read -/

theorem get_char_drop (st : lexer_state) (h : get_char st 0 ≠ 0) :
    st.src.drop st.pos = get_char st 0 :: (consume_char st).src.drop (consume_char st).pos := by
  have hlt := get_char_ne_zero st 0 h
  simp only [Nat.add_zero] at hlt
  have e : get_char st 0 = st.src[st.pos] := by
    unfold get_char
    rw [if_neg (by simp only [Nat.add_zero]; omega)]
    simp only [Nat.add_zero]
    rw [List.getD_eq_getElem?_getD, List.getElem?_eq_getElem hlt]
    rfl
  rw [e]
  exact List.drop_eq_getElem_cons hlt

theorem drop_room (st : lexer_state) (w rest : List Nat) (h : st.src.drop st.pos = w ++ rest) :
    w.length + rest.length = st.src.length - st.pos := by
  have h1 : (st.src.drop st.pos).length = (w ++ rest).length := by rw [h]
  simp only [List.length_drop, List.length_append] at h1
  omega

theorem consume_advance (st : lexer_state) (n : Nat) :
    advance (consume_char st) n = advance st (1 + n) := by
  simp only [advance, consume_char]
  congr 1
  omega

theorem parse_name_hex_scan : ∀ (n : Nat) (st st2 : lexer_state), parse_name_hex n st = some st2 →
    ∃ hs rest, st.src.drop st.pos = hs ++ rest ∧ hs.length = n
      ∧ (∀ h ∈ hs, isxdigit h = true) ∧ st2 = advance st n := by
  intro n
  induction n with
  | zero =>
    intro st st2 h
    simp only [parse_name_hex, Option.some.injEq] at h
    exact ⟨[], _, rfl, rfl, by simp, by rw [← h, advance_zero]⟩
  | succ n ih =>
    intro st st2 h
    simp only [parse_name_hex] at h
    by_cases hx : isxdigit (get_char st 0) = true
    · rw [if_neg (by simp [hx])] at h
      have h0 : get_char st 0 ≠ 0 := by
        intro e; rw [e] at hx; exact absurd hx (by decide)
      obtain ⟨hs, rest, hd, hl, hall, he⟩ := ih _ _ h
      refine ⟨get_char st 0 :: hs, rest, ?_, by simp [hl], ?_, ?_⟩
      · rw [get_char_drop st h0, hd]; rfl
      · intro x hx2
        simp only [List.mem_cons] at hx2
        rcases hx2 with rfl | hx2
        · exact hx
        · exact hall x hx2
      · rw [he, consume_advance, Nat.add_comm]
    · rw [if_pos (by simp [hx])] at h
      cases h

/-- The loop of `parse_name` with enough fuel: it does not run out of fuel, and
when it returns it has moved the cursor over a raw body in which every
backslash has its character. -/
theorem parse_name_loop_scan : ∀ (fuel : Nat) (st : lexer_state),
    st.src.length - st.pos < fuel →
    (∀ e, parse_name_loop fuel st = .error e → e ≠ .out_of_fuel)
      ∧ (∀ st1, parse_name_loop fuel st = .ok st1 →
          ∃ w rest, st.src.drop st.pos = w ++ rest ∧ st1 = advance st w.length
            ∧ raw_body_scan .normal w = true) := by
  intro fuel
  induction fuel with
  | zero => intro st h; omega
  | succ fuel ih =>
    intro st hf
    simp only [parse_name_loop]
    by_cases hstop : ¬ isalpha (get_char st 0) = true ∧ ¬ isdigit (get_char st 0) = true
        ∧ get_char st 0 ≠ 36 ∧ get_char st 0 ≠ 95 ∧ get_char st 0 ≠ 92
    · rw [if_pos hstop]
      refine ⟨fun e h => (by cases h), fun st1 h => ?_⟩
      simp only [pure, Except.pure, Except.ok.injEq] at h
      exact ⟨[], _, rfl, by rw [← h]; exact (advance_zero st).symm, rfl⟩
    · rw [if_neg hstop]
      have h0 : get_char st 0 ≠ 0 := by
        intro e; rw [e] at hstop; exact hstop (by decide)
      have hd := get_char_drop st h0
      have hroom := drop_room st [get_char st 0] _ (by rw [hd]; rfl)
      simp only [List.length_singleton] at hroom
      by_cases hb : get_char st 0 = 92
      · rw [if_pos hb]
        by_cases hu : get_char (consume_char st) 0 = 117
        · rw [if_pos hu]
          have hd1 := get_char_drop (consume_char st) (by rw [hu]; decide)
          cases hh : parse_name_hex 4 (consume_char (consume_char st)) with
          | none =>
            refine ⟨fun e h => ?_, fun st1 h => by cases h⟩
            simp only [throw, throwThe, MonadExceptOf.throw, Except.error.injEq] at h
            rw [← h]; exact fun x => by cases x
          | some st2 =>
            obtain ⟨hs, rest, hd2, hl, hall, he⟩ := parse_name_hex_scan 4 _ _ hh
            have hall : st.src.drop st.pos = (92 :: 117 :: hs) ++ rest := by
              rw [hd, hd1, hd2, hb, hu]; rfl
            have hroom2 := drop_room st _ _ hall
            simp only [List.length_cons, hl] at hroom2
            have hpos2 : st2.pos = st.pos + 6 := by
              rw [he]; simp only [advance, consume_char]
            have hsrc2 : st2.src = st.src := by
              rw [he]; rfl
            obtain ⟨i1, i2⟩ := ih st2 (by rw [hpos2, hsrc2]; omega)
            refine ⟨i1, fun st1 h => ?_⟩
            obtain ⟨w, rest2, hd3, he3, hok⟩ := i2 st1 h
            have hrest : rest = w ++ rest2 := by
              rw [← hd3, hpos2, hsrc2]
              have := congrArg (List.drop 6) hall
              rw [List.drop_drop] at this
              rw [this]
              have hl6 : (92 :: 117 :: hs).length = 6 := by simp [hl]
              rw [← hl6, List.drop_left]
            refine ⟨92 :: 117 :: (hs ++ w), rest2, ?_, ?_, ?_⟩
            · rw [hall, hrest]; simp
            · rw [he3, he, consume_advance, consume_advance, advance_advance]
              congr 1
              simp only [List.length_cons, List.length_append, hl]
              omega
            · rw [scan_backslash, scan_escaped _ _ (by decide), scan_hex_prefix _ _ ‹_›]
              exact hok
        · rw [if_neg hu]
          refine ⟨fun e h => ?_, fun st1 h => by cases h⟩
          simp only [throw, throwThe, MonadExceptOf.throw, Except.error.injEq] at h
          rw [← h]; exact fun x => by cases x
      · rw [if_neg hb]
        obtain ⟨i1, i2⟩ := ih (consume_char st) (by
          show st.src.length - (st.pos + 1) < fuel
          omega)
        refine ⟨i1, fun st1 h => ?_⟩
        obtain ⟨w, rest2, hd3, he3, hok⟩ := i2 st1 h
        refine ⟨get_char st 0 :: w, rest2, ?_, ?_, ?_⟩
        · rw [hd, hd3]; rfl
        · rw [he3, consume_advance, List.length_cons, Nat.add_comm]
        · rw [scan_plain _ _ hb]; exact hok

/-- The outcome of the loop of `parse_string` from the state `st`: it does not
run out of fuel, and when it returns it has moved the cursor over a raw body in
which every backslash has its character, and over the closing quote. -/
theorem string_scan_wrap (q f : Nat) (st : lexer_state) (pre r : List Nat)
    (hd : st.src.drop st.pos = pre ++ r)
    (hstep : parse_string_loop q (f + 1) st = parse_string_loop q f (advance st pre.length))
    (hscan : ∀ w rest, r = w ++ q :: rest → raw_body_scan .normal w = true →
      raw_body_scan .normal (pre ++ w) = true)
    (ih : (∀ e, parse_string_loop q f (advance st pre.length) = .error e → e ≠ .out_of_fuel)
      ∧ (∀ st1, parse_string_loop q f (advance st pre.length) = .ok st1 →
          ∃ w rest, (advance st pre.length).src.drop (advance st pre.length).pos = w ++ q :: rest
            ∧ st1 = advance (advance st pre.length) (w.length + 1)
            ∧ raw_body_scan .normal w = true)) :
    (∀ e, parse_string_loop q (f + 1) st = .error e → e ≠ .out_of_fuel)
      ∧ (∀ st1, parse_string_loop q (f + 1) st = .ok st1 →
          ∃ w rest, st.src.drop st.pos = w ++ q :: rest ∧ st1 = advance st (w.length + 1)
            ∧ raw_body_scan .normal w = true) := by
  rw [hstep]
  refine ⟨ih.1, fun st1 h => ?_⟩
  obtain ⟨w, rest, h1, h2, h3⟩ := ih.2 st1 h
  rw [drop_advance st pre r hd] at h1
  refine ⟨pre ++ w, rest, ?_, ?_, hscan w rest h1 h3⟩
  · rw [hd, h1, List.append_assoc]
  · rw [h2, advance_advance, List.length_append, Nat.add_assoc]

theorem parse_string_loop_scan (q : Nat) (hq : q = 34 ∨ q = 39) : ∀ (fuel : Nat)
    (st : lexer_state), st.src.length - st.pos < fuel →
    (∀ e, parse_string_loop q fuel st = .error e → e ≠ .out_of_fuel)
      ∧ (∀ st1, parse_string_loop q fuel st = .ok st1 →
          ∃ w rest, st.src.drop st.pos = w ++ q :: rest ∧ st1 = advance st (w.length + 1)
            ∧ raw_body_scan .normal w = true) := by
  intro fuel
  induction fuel with
  | zero => intro st h; omega
  | succ f ih =>
    intro st hf
    by_cases h0 : get_char st 0 = 0
    · simp only [parse_string_loop, h0, if_true]
      refine ⟨fun e h => ?_, fun st1 h => by cases h⟩
      simp only [throw, throwThe, MonadExceptOf.throw, Except.error.injEq] at h
      rw [← h]; exact fun x => by cases x
    · have hd := get_char_drop st h0
      have hpos := get_char_ne_zero st 0 h0
      have hih : ∀ k, 0 < k → (∀ e, parse_string_loop q f (advance st k) = .error e →
            e ≠ .out_of_fuel)
          ∧ (∀ st1, parse_string_loop q f (advance st k) = .ok st1 →
            ∃ w rest, (advance st k).src.drop (advance st k).pos = w ++ q :: rest
              ∧ st1 = advance (advance st k) (w.length + 1)
              ∧ raw_body_scan .normal w = true) := by
        intro k hk
        apply ih
        show st.src.length - (st.pos + k) < f
        omega
      generalize get_char st 0 = c at h0 hd
      generalize (consume_char st).src.drop (consume_char st).pos = r at hd
      by_cases hlt : ecma_char_is_line_terminator c = true
      · simp only [parse_string_loop, get_char_zero_cons st c r hd, h0, hlt, if_true, if_false]
        refine ⟨fun e h => ?_, fun st1 h => by cases h⟩
        simp only [throw, throwThe, MonadExceptOf.throw, Except.error.injEq] at h
        rw [← h]; exact fun x => by cases x
      · have hlt : ecma_char_is_line_terminator c = false := by simpa using hlt
        by_cases hb : c = 92
        · subst hb
          have hstep := string_step_backslash_any q f st r hd hq
          by_cases hs : (convert_single_escape_character (r.headD 0)).1 = true
          · rw [if_pos hs] at hstep
            cases r with
            | nil => exact absurd hs (by decide)
            | cons nc r2 =>
              simp only [List.headD_cons] at hs
              obtain ⟨_, _, _, _, _, _, _, h13⟩ := single_escape_facts nc hs
              refine string_scan_wrap q f st [92, nc] r2 hd hstep ?_ (hih 2 (by decide))
              intro w rest _ hw
              show raw_body_scan .normal (92 :: nc :: w) = true
              rw [scan_backslash, scan_escaped _ _ h13]; exact hw
          · rw [if_neg hs] at hstep
            by_cases hl : ecma_char_is_line_terminator (r.headD 0) = true
            · rw [if_pos hl] at hstep
              cases r with
              | nil => exact absurd hl (by decide)
              | cons nc r2 =>
                simp only [List.headD_cons, List.tail_cons] at hl hstep
                by_cases hcr : nc = 13 ∧ r2.headD 0 = 10
                · rw [if_pos hcr] at hstep
                  cases r2 with
                  | nil => exact absurd hcr.2 (by decide)
                  | cons n2 r3 =>
                    obtain ⟨rfl, h10⟩ := hcr
                    simp only [List.headD_cons] at h10
                    subst h10
                    refine string_scan_wrap q f st [92, 13, 10] r3 hd hstep ?_ (hih 3 (by decide))
                    intro w rest _ hw
                    show raw_body_scan .normal (92 :: 13 :: 10 :: w) = true
                    rw [scan_backslash, scan_escaped_cr, scan_cr_lf]; exact hw
                · rw [if_neg hcr] at hstep
                  refine string_scan_wrap q f st [92, nc] r2 hd hstep ?_ (hih 2 (by decide))
                  intro w rest hr2 hw
                  show raw_body_scan .normal (92 :: nc :: w) = true
                  rw [scan_backslash]
                  rcases line_terminator_cases nc hl with h | h
                  · subst h
                    rw [scan_escaped_cr]
                    cases w with
                    | nil => rfl
                    | cons x w2 =>
                      have hx : x ≠ 10 := by
                        intro e
                        apply hcr
                        rw [hr2, e]
                        exact ⟨rfl, rfl⟩
                      rw [scan_cr_other _ _ hx]; exact hw
                  · subst h
                    rw [scan_escaped _ _ (by decide)]; exact hw
            · rw [if_neg hl] at hstep
              refine string_scan_wrap q f st [92] r hd hstep ?_ (hih 1 (by decide))
              intro w rest hr hw
              show raw_body_scan .normal (92 :: w) = true
              rw [scan_backslash]
              cases w with
              | nil =>
                exfalso
                apply hs
                rw [hr]
                rcases hq with h | h <;> subst h <;> rfl
              | cons x w2 =>
                have hx1 : r.headD 0 = x := by rw [hr]; rfl
                rw [hx1] at hs hl
                have hx13 : x ≠ 13 := by
                  intro e; subst e; exact hl (by decide)
                have hx92 : x ≠ 92 := by
                  intro e; subst e; exact hs (by decide)
                rw [scan_escaped _ _ hx13]
                rw [scan_plain _ _ hx92] at hw
                exact hw
        · by_cases hcq : c = q
          · subst hcq
            rw [string_step_close c f st r hd hq]
            refine ⟨fun e h => (by cases h), fun st1 h => ?_⟩
            simp only [Except.ok.injEq] at h
            exact ⟨[], r, hd, h.symm, rfl⟩
          · have hstep := string_step_plain q f st c r hd h0 hlt hb hcq
            refine string_scan_wrap q f st [c] r hd hstep ?_ (hih 1 (by decide))
            intro w rest _ hw
            show raw_body_scan .normal (c :: w) = true
            rw [scan_plain _ _ hb]; exact hw

/-! ## C35: the escape decoder stays inside the raw body -/

theorem transform_in_bounds (w : List Nat) (h : raw_body_ok w = true) :
    decoded_in_bounds w [] (transform_escape_seq w) :=
  transform_loop_in_bounds (w.length + 1) w [] true true (Nat.lt_succ_self _) h

theorem slice_of_advance (st : lexer_state) (a : Nat) (w rest : List Nat) (k : Nat)
    (h : st.src.drop a = w ++ rest) :
    src_slice (advance st k) a (a + w.length) = w :=
  src_slice_prefix (advance st k) a w rest h

/-- C35: for every lexer state with the cursor inside the buffer, the raw name
that the loop of `parse_name` delimits and the raw string body that the loop of
`parse_string` delimits (the characters between the opening quote and the
closing quote) lie inside the buffer and never end inside an escape: every
backslash is followed by the character it escapes. The decoding loop of
`convert_string_to_token_transform_escape_seq` on such a body therefore never
fails an assertion: it ends with the unimplemented `\0`, with a malformed
escape sequence, or with a decoded buffer that holds at most as many
characters as the raw body. -/
theorem C35_escape_decoding_in_bounds (st : lexer_state) (hpos : st.pos ≤ st.src.length) :
    (∀ st1, parse_name_loop ((new_token st).src.length + 1 - (new_token st).pos) (new_token st)
          = .ok st1 →
        (new_token st).pos ≤ st1.pos ∧ st1.pos ≤ st.src.length
          ∧ raw_body_ok (src_slice st1 (new_token st).pos st1.pos) = true
          ∧ decoded_in_bounds (src_slice st1 (new_token st).pos st1.pos) []
              (transform_escape_seq (src_slice st1 (new_token st).pos st1.pos)))
      ∧ (∀ q st1, q = 34 ∨ q = 39 →
        parse_string_loop q ((new_token (consume_char st)).src.length + 2
            - (new_token (consume_char st)).pos) (new_token (consume_char st)) = .ok st1 →
        (new_token (consume_char st)).pos ≤ st1.pos - 1 ∧ st1.pos ≤ st.src.length
          ∧ raw_body_ok (src_slice st1 (new_token (consume_char st)).pos (st1.pos - 1)) = true
          ∧ decoded_in_bounds (src_slice st1 (new_token (consume_char st)).pos (st1.pos - 1)) []
              (transform_escape_seq
                (src_slice st1 (new_token (consume_char st)).pos (st1.pos - 1)))) := by
  constructor
  · intro st1 h
    obtain ⟨w, rest, hd, he, hok⟩ :=
      (parse_name_loop_scan ((new_token st).src.length + 1 - (new_token st).pos) (new_token st)
        (by
          have e1 : (new_token st).src.length = st.src.length := rfl
          have e2 : (new_token st).pos = st.pos := rfl
          omega)).2 st1 h
    have hroom := drop_room (new_token st) w rest hd
    have hp1 : st1.pos = (new_token st).pos + w.length := by rw [he]; rfl
    have hsl : src_slice st1 (new_token st).pos st1.pos = w := by
      rw [hp1, he]; exact slice_of_advance _ _ w rest _ hd
    rw [hsl]
    have hlen : (new_token st).src.length = st.src.length := rfl
    have hp0 : (new_token st).pos = st.pos := rfl
    exact ⟨by omega, by omega, hok, transform_in_bounds w hok⟩
  · intro q st1 hq h
    obtain ⟨w, rest, hd, he, hok⟩ :=
      (parse_string_loop_scan q hq ((new_token (consume_char st)).src.length + 2
        - (new_token (consume_char st)).pos) (new_token (consume_char st)) (by
          have e1 : (new_token (consume_char st)).src.length = st.src.length := rfl
          have e2 : (new_token (consume_char st)).pos = st.pos + 1 := rfl
          omega)).2 st1 h
    have hroom := drop_room (new_token (consume_char st)) w (q :: rest) hd
    simp only [List.length_cons] at hroom
    have hp1 : st1.pos - 1 = (new_token (consume_char st)).pos + w.length := by rw [he]; rfl
    have hp2 : st1.pos = (new_token (consume_char st)).pos + w.length + 1 := by rw [he]; rfl
    have hsl : src_slice st1 (new_token (consume_char st)).pos (st1.pos - 1) = w := by
      rw [hp1, he]; exact slice_of_advance _ _ w (q :: rest) _ hd
    rw [hsl]
    have hlen : (new_token (consume_char st)).src.length = st.src.length := rfl
    have hp0 : (new_token (consume_char st)).pos = st.pos + 1 := rfl
    exact ⟨by omega, by omega, hok, transform_in_bounds w hok⟩

set_option maxRecDepth 100000 in
theorem C35_escape_decoding_in_bounds_witness :
    (lexer_init_source (cstr "'a\\x41\\n' ")).pos ≤ (lexer_init_source (cstr "'a\\x41\\n' ")).src.length
      ∧ decoded_in_bounds (cstr "a\\x41\\n") [] (transform_escape_seq (cstr "a\\x41\\n")) :=
  ⟨by decide,
    ((C35_escape_decoding_in_bounds (lexer_init_source (cstr "'a\\x41\\n' ")) (by decide)).2 39
      (advance (new_token (consume_char (lexer_init_source (cstr "'a\\x41\\n' ")))) 8)
      (Or.inr rfl) (by decide)).2.2.2⟩

set_option maxRecDepth 100000 in
/-- The loop of `parse_string` on `'a\x41\n' ` delimits the body `a\x41\n`,
which decodes to the three characters `a`, `A` and line feed; the loop of
`parse_name` on `bb ` delimits `bb`, which decodes to `bb`; and on
the raw string `a\`, which no body is, the decoder reads past the end and its
assertion fails. -/
theorem escape_decoding_examples :
    transform_escape_seq (cstr "a\\x41\\n") = .ok (some ([97, 65, 10], false, false))
      ∧ (parse_name_loop 9 (new_token (lexer_init_source (cstr "b\\u0062 ")))).map
          (fun s => src_slice s 0 s.pos) = .ok (cstr "b\\u0062")
      ∧ transform_escape_seq (cstr "b\\u0062") = .ok (some ([98, 98], true, true))
      ∧ transform_escape_seq (cstr "a\\") = .error .assertion_failed := by decide

/-! ## Token construction keeps the cursor and does not loop -/

theorem find_string_literal_no_fuel (P : platform) (st : lexer_state) (s : List Nat) :
    ∀ (lits : List literal) (i : Nat) (e : lex_error),
      find_string_literal P st s lits i = .error e → e ≠ .out_of_fuel := by
  intro lits
  induction lits with
  | nil => intro i e h; cases h
  | cons lit rest ih =>
    intro i e h
    simp only [find_string_literal, bind, Except.bind] at h
    cases lit with
    | LIT_NUMBER n =>
      simp only [pure, Except.pure, Bool.false_eq_true, if_false] at h
      exact ih _ _ h
    | LIT_MAGIC_STR id =>
      simp only [string_equals_to_literal, pure, Except.pure] at h
      split at h
      · cases h
      · exact ih _ _ h
    | LIT_STR str len hh =>
      simp only [string_equals_to_literal] at h
      by_cases hl : len = s.length
      · rw [if_pos hl] at h
        cases hc : cache_from st str with
        | error e1 =>
          rw [hc] at h
          simp only [bind, Except.bind, Except.error.injEq] at h
          subst h
          unfold cache_from at hc
          split at hc
          · cases hc
          · cases hc; exact fun x => by cases x
        | ok mem =>
          rw [hc] at h
          simp only [bind, Except.bind, pure, Except.pure] at h
          split at h
          · cases h
          · exact ih _ _ h
      · rw [if_neg hl] at h
        simp only [pure, Except.pure, Bool.false_eq_true, if_false] at h
        exact ih _ _ h

theorem add_string_outcome (P : platform) (st : lexer_state) (s : List Nat) :
    (∀ e, add_string_to_string_cache P st s = .error e → e ≠ .out_of_fuel)
      ∧ (∀ lit st2, add_string_to_string_cache P st s = .ok (lit, st2) →
          st2.src = st.src ∧ st2.pos = st.pos ∧ st2.token_start = st.token_start) := by
  obtain ⟨f1, f2, f3, _, _, _⟩ := cache_grow_frame P st s.length
  unfold add_string_to_string_cache
  simp only []
  by_cases hb : (cache_grow P st s.length).strings_cache = 0
  · rw [if_pos hb]
    exact ⟨fun e h => (by cases h; exact fun x => by cases x), fun lit st2 h => by cases h⟩
  · rw [if_neg hb]
    cases hq : mem_write (cache_grow P st s.length).cache
        (cache_grow P st s.length).strings_cache_used_size
        (strncpy_bytes s s.length ++ [0]) with
    | error e1 =>
      refine ⟨fun e h => ?_, fun lit st2 h => by cases h⟩
      simp only [Except.error.injEq] at h
      subst h
      unfold mem_write at hq
      split at hq
      · cases hq
      · cases hq; exact fun x => by cases x
    | ok mem =>
      refine ⟨fun e h => (by cases h), fun lit st2 h => ?_⟩
      simp only [Except.ok.injEq, Prod.mk.injEq] at h
      obtain ⟨_, rfl⟩ := h
      exact ⟨f1, f2, f3⟩

theorem convert_string_outcome (P : platform) (st : lexer_state) (tt : token_type)
    (s : List Nat) :
    (∀ e, convert_string_to_token P st tt s = .error e → e ≠ .out_of_fuel)
      ∧ (∀ t st2, convert_string_to_token P st tt s = .ok (t, st2) →
          st2.src = st.src ∧ st2.pos = st.pos ∧ st2.token_start = st.token_start) := by
  unfold convert_string_to_token
  cases hf : find_string_literal P st s st.literals 0 with
  | error e1 =>
    refine ⟨fun e h => ?_, fun t st2 h => by cases h⟩
    simp only [bind, Except.bind, Except.error.injEq] at h
    subst h
    exact find_string_literal_no_fuel P st s _ _ _ hf
  | ok r =>
    simp only [bind, Except.bind]
    cases r with
    | some i =>
      refine ⟨fun e h => (by cases h), fun t st2 h => ?_⟩
      simp only [pure, Except.pure, Except.ok.injEq, Prod.mk.injEq] at h
      obtain ⟨_, rfl⟩ := h
      exact ⟨rfl, rfl, rfl⟩
    | none =>
      simp only []
      cases hl : create_literal_from_str P 0 s s.length with
      | LIT_STR a b c =>
        simp only []
        obtain ⟨o1, o2⟩ := add_string_outcome P st s
        cases ha : add_string_to_string_cache P st s with
        | error e1 =>
          refine ⟨fun e h => ?_, fun t st2 h => by cases h⟩
          simp only [Except.error.injEq] at h
          subst h
          exact o1 _ ha
        | ok r =>
          obtain ⟨lit, st1⟩ := r
          refine ⟨fun e h => (by cases h), fun t st2 h => ?_⟩
          simp only [pure, Except.pure, Except.ok.injEq, Prod.mk.injEq] at h
          obtain ⟨_, rfl⟩ := h
          exact o2 lit st1 ha
      | LIT_MAGIC_STR id =>
        refine ⟨fun e h => (by cases h), fun t st2 h => ?_⟩
        simp only [pure, Except.pure, Except.ok.injEq, Prod.mk.injEq] at h
        obtain ⟨_, rfl⟩ := h
        exact ⟨rfl, rfl, rfl⟩
      | LIT_NUMBER n =>
        refine ⟨fun e h => (by cases h), fun t st2 h => ?_⟩
        simp only [pure, Except.pure, Except.ok.injEq, Prod.mk.injEq] at h
        obtain ⟨_, rfl⟩ := h
        exact ⟨rfl, rfl, rfl⟩

theorem decode_keyword_outcome (P : platform) (st : lexer_state) (s : List Nat) :
    (∀ e, decode_keyword P st s = .error e → e ≠ .out_of_fuel)
      ∧ (∀ t st2, decode_keyword P st s = .ok (t, st2) →
          st2.src = st.src ∧ st2.pos = st.pos ∧ st2.token_start = st.token_start) := by
  unfold decode_keyword
  simp only []
  split
  · exact convert_string_outcome P st .TOK_NAME s
  · have base : ∀ t0 : token,
        (∀ e, (pure (t0, st) : Except lex_error (token × lexer_state)) = .error e →
            e ≠ .out_of_fuel)
          ∧ (∀ t st2, (pure (t0, st) : Except lex_error (token × lexer_state)) = .ok (t, st2) →
            st2.src = st.src ∧ st2.pos = st.pos ∧ st2.token_start = st.token_start) := by
      intro t0
      refine ⟨fun e h => (by cases h), fun t st2 h => ?_⟩
      simp only [pure, Except.pure, Except.ok.injEq, Prod.mk.injEq] at h
      obtain ⟨_, rfl⟩ := h
      exact ⟨rfl, rfl, rfl⟩
    split_ifs <;> exact base _

theorem keeps_cursor_pure (st : lexer_state) (t : token) :
    keeps_cursor st (pure (t, st)) := by
  refine ⟨fun e h => (by cases h), fun t1 st2 h => ?_⟩
  simp only [pure, Except.pure, Except.ok.injEq, Prod.mk.injEq] at h
  obtain ⟨_, rfl⟩ := h
  exact ⟨rfl, rfl, rfl⟩

theorem keeps_cursor_throw (st : lexer_state) (e0 : lex_error) (h0 : e0 ≠ .out_of_fuel) :
    keeps_cursor st (throw e0) := by
  refine ⟨fun e h => ?_, fun t1 st2 h => (by cases h)⟩
  simp only [throw, throwThe, MonadExceptOf.throw, Except.error.injEq] at h
  rw [← h]; exact h0

theorem finish_outcome (P : platform) (st : lexer_state) (tt : token_type) (out : List Nat)
    (x : Except lex_error (token × lexer_state)) (hx : keeps_cursor st x) :
    keeps_cursor st (x >>= fun r =>
      if is_empty r.1 = true then convert_string_to_token P r.2 tt out else pure (r.1, r.2)) := by
  cases x with
  | error e1 =>
    refine ⟨fun e h => ?_, fun t st2 h => by cases h⟩
    simp only [bind, Except.bind, Except.error.injEq] at h
    subst h
    exact hx.1 _ rfl
  | ok r =>
    obtain ⟨ret, st1⟩ := r
    obtain ⟨f1, f2, f3⟩ := hx.2 ret st1 rfl
    simp only [bind, Except.bind]
    by_cases he : is_empty ret = true
    · rw [if_pos he]
      obtain ⟨o1, o2⟩ := convert_string_outcome P st1 tt out
      refine ⟨o1, fun t st2 h => ?_⟩
      obtain ⟨g1, g2, g3⟩ := o2 t st2 h
      exact ⟨g1.trans f1, g2.trans f2, g3.trans f3⟩
    · rw [if_neg he]
      refine ⟨fun e h => (by cases h), fun t st2 h => ?_⟩
      simp only [pure, Except.pure, Except.ok.injEq, Prod.mk.injEq] at h
      obtain ⟨_, rfl⟩ := h
      exact ⟨f1, f2, f3⟩

theorem transform_convert_outcome (P : platform) (st : lexer_state) (tt : token_type)
    (body : List Nat) (locus : Nat) (hok : raw_body_ok body = true) :
    keeps_cursor st (convert_string_to_token_transform_escape_seq P st tt body locus) := by
  unfold convert_string_to_token_transform_escape_seq
  by_cases h0 : body.length = 0
  · simp only [h0, if_true]
    exact convert_string_outcome P st tt []
  · simp only [h0, if_false]
    rcases transform_in_bounds body hok with h | h | ⟨out, l, a, h, _⟩
    · rw [h]
      exact ⟨fun e h => (by cases h; exact fun x => by cases x), fun t st2 h => by cases h⟩
    · rw [h]
      exact keeps_cursor_throw st _ (fun x => by cases x)
    · rw [h]
      have inner : keeps_cursor st
          (if l = true then decode_keyword P st out
           else if ¬ a = true then throw (.malformed_identifier_name locus)
           else pure (empty_token, st)) := by
        split_ifs
        all_goals first
          | exact decode_keyword_outcome P st out
          | exact keeps_cursor_throw st _ (fun x => by cases x)
          | exact keeps_cursor_pure st _
      by_cases htt : tt = .TOK_NAME
      · simp only [bind, Except.bind, htt, if_true, List.nil_append]
        exact finish_outcome P st .TOK_NAME out _ inner
      · simp only [bind, Except.bind, htt, if_false, List.nil_append]
        exact finish_outcome P st tt out _ (keeps_cursor_pure st empty_token)

/-! ## Names and strings: the cursor moves forward inside the buffer -/

theorem parse_name_loop_stop : ∀ (fuel : Nat) (st st1 : lexer_state),
    parse_name_loop fuel st = .ok st1 →
    ¬ (isalpha (get_char st1 0) = true ∨ get_char st1 0 = 36 ∨ get_char st1 0 = 95) := by
  intro fuel
  induction fuel with
  | zero => intro st st1 h; cases h
  | succ fuel ih =>
    intro st st1 h
    simp only [parse_name_loop] at h
    by_cases hstop : ¬ isalpha (get_char st 0) = true ∧ ¬ isdigit (get_char st 0) = true
        ∧ get_char st 0 ≠ 36 ∧ get_char st 0 ≠ 95 ∧ get_char st 0 ≠ 92
    · rw [if_pos hstop] at h
      simp only [pure, Except.pure, Except.ok.injEq] at h
      subst h
      rintro (h | h | h)
      · exact hstop.1 h
      · exact hstop.2.2.1 h
      · exact hstop.2.2.2.1 h
    · rw [if_neg hstop] at h
      by_cases hb : get_char st 0 = 92
      · rw [if_pos hb] at h
        by_cases hu : get_char (consume_char st) 0 = 117
        · rw [if_pos hu] at h
          cases hh : parse_name_hex 4 (consume_char (consume_char st)) with
          | none => rw [hh] at h; cases h
          | some st2 => rw [hh] at h; exact ih _ _ h
        · rw [if_neg hu] at h; cases h
      · rw [if_neg hb] at h
        exact ih _ _ h

theorem scans_of_keeps (st st1 : lexer_state) (x : Except lex_error (token × lexer_state))
    (hx : keeps_cursor st1 x) (hsrc : st1.src = st.src) (hlt : st.pos < st1.pos)
    (hle : st1.pos ≤ st.src.length) :
    scans_token st (x >>= fun r => pure (r.1, { r.2 with token_start := none })) := by
  cases x with
  | error e1 =>
    refine ⟨fun e h => ?_, fun t st2 h => by cases h⟩
    simp only [bind, Except.bind, Except.error.injEq] at h
    subst h
    exact hx.1 _ rfl
  | ok r =>
    obtain ⟨t0, st2⟩ := r
    obtain ⟨f1, f2, _⟩ := hx.2 t0 st2 rfl
    refine ⟨fun e h => (by cases h), fun t st3 h => ?_⟩
    simp only [bind, Except.bind, pure, Except.pure, Except.ok.injEq, Prod.mk.injEq] at h
    obtain ⟨_, rfl⟩ := h
    refine ⟨f1.trans hsrc, rfl, ?_, ?_⟩
    · show st.pos < st2.pos; omega
    · show st2.pos ≤ _; omega

theorem parse_name_scans (P : platform) (st : lexer_state) :
    scans_token st (parse_name P st) := by
  unfold parse_name
  by_cases hc : isalpha (get_char st 0) = true ∨ get_char st 0 = 36 ∨ get_char st 0 = 95
  · simp only [hc, not_true_eq_false, if_false, bind, Except.bind, pure, Except.pure]
    have e1 : (new_token st).src.length = st.src.length := rfl
    have e2 : (new_token st).pos = st.pos := rfl
    have hlt : st.pos < st.src.length := by
      have := get_char_ne_zero st 0 (by
        intro e; rw [e] at hc; exact absurd hc (by decide))
      omega
    obtain ⟨o1, o2⟩ := parse_name_loop_scan ((new_token st).src.length + 1 - (new_token st).pos)
      (new_token st) (by omega)
    cases hl : parse_name_loop ((new_token st).src.length + 1 - (new_token st).pos)
        (new_token st) with
    | error e0 =>
      refine ⟨fun e h => ?_, fun t st2 h => by cases h⟩
      simp only [Except.error.injEq] at h
      subst h
      exact o1 _ hl
    | ok st1 =>
      obtain ⟨w, rest, hd, he, hok⟩ := o2 st1 hl
      have hstop := parse_name_loop_stop _ _ _ hl
      have hroom := drop_room (new_token st) w rest hd
      have hw : w ≠ [] := by
        intro e
        subst e
        rw [he] at hstop
        exact hstop hc
      have hwl : 0 < w.length := List.length_pos.mpr hw
      have hp1 : st1.pos = (new_token st).pos + w.length := by rw [he]; rfl
      have hs1 : st1.src = st.src := by rw [he]; rfl
      have hsl : src_slice st1 (new_token st).pos st1.pos = w := by
        rw [hp1, he]; exact slice_of_advance _ _ w rest _ hd
      simp only []
      rw [hsl]
      exact scans_of_keeps st st1 _
        (transform_convert_outcome P st1 .TOK_NAME w (new_token st).pos hok) hs1
        (by omega) (by omega)
  · simp only [hc, not_false_eq_true, if_true, bind, Except.bind]
    exact ⟨fun e h => (by cases h; exact fun x => by cases x), fun t st2 h => by cases h⟩

theorem parse_string_scans (P : platform) (st : lexer_state) :
    scans_token st (parse_string P st) := by
  unfold parse_string
  by_cases hc : get_char st 0 = 39 ∨ get_char st 0 = 34
  · simp only [hc, not_true_eq_false, if_false, bind, Except.bind, pure, Except.pure]
    have e1 : (new_token (consume_char st)).src.length = st.src.length := rfl
    have e2 : (new_token (consume_char st)).pos = st.pos + 1 := rfl
    have hlt : st.pos < st.src.length := by
      have := get_char_ne_zero st 0 (by rcases hc with h | h <;> rw [h] <;> decide)
      omega
    have hq : (if get_char st 0 = 34 then 34 else 39) = 34
        ∨ (if get_char st 0 = 34 then 34 else 39) = 39 := by
      split
      · exact Or.inl rfl
      · exact Or.inr rfl
    generalize (if get_char st 0 = 34 then 34 else 39) = q at hq
    obtain ⟨o1, o2⟩ := parse_string_loop_scan q hq ((new_token (consume_char st)).src.length + 2
      - (new_token (consume_char st)).pos) (new_token (consume_char st)) (by omega)
    cases hl : parse_string_loop q ((new_token (consume_char st)).src.length + 2
        - (new_token (consume_char st)).pos) (new_token (consume_char st)) with
    | error e0 =>
      refine ⟨fun e h => ?_, fun t st2 h => by cases h⟩
      simp only [Except.error.injEq] at h
      subst h
      exact o1 _ hl
    | ok st1 =>
      obtain ⟨w, rest, hd, he, hok⟩ := o2 st1 hl
      have hroom := drop_room (new_token (consume_char st)) w (q :: rest) hd
      simp only [List.length_cons] at hroom
      have hp1 : st1.pos - 1 = (new_token (consume_char st)).pos + w.length := by rw [he]; rfl
      have hp2 : st1.pos = (new_token (consume_char st)).pos + w.length + 1 := by rw [he]; rfl
      have hs1 : st1.src = st.src := by rw [he]; rfl
      have hsl : src_slice st1 (new_token (consume_char st)).pos (st1.pos - 1) = w := by
        rw [hp1, he]; exact slice_of_advance _ _ w (q :: rest) _ hd
      simp only []
      rw [hsl]
      exact scans_of_keeps st st1 _
        (transform_convert_outcome P st1 .TOK_STRING w (new_token (consume_char st)).pos hok)
        hs1 (by omega) (by omega)
  · simp only [hc, not_false_eq_true, if_true, bind, Except.bind]
    exact ⟨fun e h => (by cases h; exact fun x => by cases x), fun t st2 h => by cases h⟩

/-! ## Numbers: the cursor moves forward inside the buffer -/

theorem advance_consume_one (st : lexer_state) (k : Nat) :
    advance (consume_char st) k = advance st (k + 1) := by
  rw [consume_advance, Nat.add_comm]

theorem parse_hex_loop_scan : ∀ (fuel : Nat) (st : lexer_state),
    st.src.length - st.pos < fuel →
    (∀ e, parse_hex_loop fuel st = .error e → e ≠ .out_of_fuel)
      ∧ (∀ st1, parse_hex_loop fuel st = .ok st1 →
          ∃ k, st1 = advance st k ∧ (k = 0 ∨ st.pos + k ≤ st.src.length)) := by
  intro fuel
  induction fuel with
  | zero => intro st h; omega
  | succ fuel ih =>
    intro st hf
    simp only [parse_hex_loop]
    by_cases hx : isxdigit (get_char st 0) = true
    · rw [if_neg (by simp [hx])]
      have h0 : get_char st 0 ≠ 0 := by
        intro e; rw [e] at hx; exact absurd hx (by decide)
      have hlt := get_char_ne_zero st 0 h0
      obtain ⟨i1, i2⟩ := ih (consume_char st) (by
        show st.src.length - (st.pos + 1) < fuel
        omega)
      refine ⟨i1, fun st1 h => ?_⟩
      obtain ⟨k, hk, hb⟩ := i2 st1 h
      refine ⟨k + 1, by rw [hk, advance_consume_one], Or.inr ?_⟩
      have e1 : (consume_char st).pos = st.pos + 1 := rfl
      have e2 : (consume_char st).src.length = st.src.length := rfl
      omega
    · rw [if_pos (by simp [hx])]
      refine ⟨fun e h => (by cases h), fun st1 h => ?_⟩
      simp only [pure, Except.pure, Except.ok.injEq] at h
      exact ⟨0, by rw [← h, advance_zero], Or.inl rfl⟩

theorem fuel_error_of_throw {α : Type} (e0 e : lex_error) (h0 : e0 ≠ .out_of_fuel)
    (h : (throw e0 : Except lex_error α) = .error e) : e ≠ .out_of_fuel := by
  simp only [throw, throwThe, MonadExceptOf.throw, Except.error.injEq] at h
  rw [← h]; exact h0

theorem parse_decimal_loop_scan : ∀ (fuel : Nat) (st : lexer_state) (is_fp is_exp : Bool),
    st.src.length - st.pos < fuel →
    (∀ e, parse_decimal_loop fuel st is_fp is_exp = .error e → e ≠ .out_of_fuel)
      ∧ (∀ r, parse_decimal_loop fuel st is_fp is_exp = .ok r →
          ∃ k, r.1 = advance st k ∧ (k = 0 ∨ st.pos + k ≤ st.src.length)
            ∧ (isdigit (get_char st 0) = true → 0 < k)) := by
  intro fuel
  induction fuel with
  | zero => intro st _ _ h; omega
  | succ fuel ih =>
    intro st is_fp is_exp hf
    have e1 : (consume_char st).pos = st.pos + 1 := rfl
    have e2 : (consume_char st).src.length = st.src.length := rfl
    have k0 := get_char_ne_zero st 0
    have k1 := get_char_ne_zero st 1
    have step : ∀ (fp ex : Bool), st.pos < st.src.length →
        (∀ e, parse_decimal_loop fuel (consume_char st) fp ex = .error e → e ≠ .out_of_fuel)
          ∧ (∀ r, parse_decimal_loop fuel (consume_char st) fp ex = .ok r →
            ∃ k, r.1 = advance st k ∧ (k = 0 ∨ st.pos + k ≤ st.src.length)
              ∧ (isdigit (get_char st 0) = true → 0 < k)) := by
      intro fp ex hlt
      obtain ⟨i1, i2⟩ := ih (consume_char st) fp ex (by omega)
      refine ⟨i1, fun r h => ?_⟩
      obtain ⟨k, hk, hb, _⟩ := i2 r h
      exact ⟨k + 1, by rw [hk, advance_consume_one], Or.inr (by omega), fun _ => by omega⟩
    have p46 : get_char st 0 = 46 → st.pos < st.src.length := fun h =>
      k0 (by rw [h]; decide)
    have pe : (get_char st 0 = 101 ∨ get_char st 0 = 69) → st.pos < st.src.length := fun h =>
      k0 (by rcases h with h | h <;> rw [h] <;> decide)
    have pd : isdigit (get_char st 0) = true → st.pos < st.src.length := fun h =>
      k0 (by intro e; rw [e] at h; exact absurd h (by decide))
    have sign : (get_char st 1 = 45 ∨ get_char st 1 = 43) →
        (∀ e, parse_decimal_loop fuel (consume_char (consume_char st)) is_fp true = .error e →
            e ≠ .out_of_fuel)
          ∧ (∀ r, parse_decimal_loop fuel (consume_char (consume_char st)) is_fp true = .ok r →
            ∃ k, r.1 = advance st k ∧ (k = 0 ∨ st.pos + k ≤ st.src.length)
              ∧ (isdigit (get_char st 0) = true → 0 < k)) := by
      intro c6
      have hlt1 : st.pos + 1 < st.src.length :=
        k1 (by rcases c6 with h | h <;> rw [h] <;> decide)
      obtain ⟨i1, i2⟩ := ih (consume_char (consume_char st)) is_fp true (by
        show st.src.length - (st.pos + 1 + 1) < fuel
        omega)
      refine ⟨i1, fun r h => ?_⟩
      obtain ⟨k, hk, hb, _⟩ := i2 r h
      refine ⟨k + 2, by rw [hk, advance_consume_one, advance_consume_one], Or.inr ?_,
        fun _ => by omega⟩
      have e3 : (consume_char (consume_char st)).pos = st.pos + 2 := rfl
      have e4 : (consume_char (consume_char st)).src.length = st.src.length := rfl
      omega
    have stop : isdigit (get_char st 0) ≠ true →
        (∀ e, (pure (st, is_fp, is_exp) : Except lex_error (lexer_state × Bool × Bool))
            = .error e → e ≠ .out_of_fuel)
          ∧ (∀ r, (pure (st, is_fp, is_exp) : Except lex_error (lexer_state × Bool × Bool))
            = .ok r →
            ∃ k, r.1 = advance st k ∧ (k = 0 ∨ st.pos + k ≤ st.src.length)
              ∧ (isdigit (get_char st 0) = true → 0 < k)) := by
      intro hnd
      refine ⟨fun e h => (by cases h), fun r h => ?_⟩
      simp only [pure, Except.pure, Except.ok.injEq] at h
      subst h
      exact ⟨0, (advance_zero st).symm, Or.inl rfl, fun hd => absurd hd hnd⟩
    simp only [parse_decimal_loop]
    split_ifs
    all_goals first
      | exact ⟨fun e h => fuel_error_of_throw _ e (fun x => by cases x) h,
          fun r h => by cases h⟩
      | exact step _ _ (p46 ‹_›)
      | exact step _ _ (pe ‹_›)
      | exact step _ _ (pd ‹_›)
      | exact sign ‹_›
      | exact stop ‹_›

theorem accumulate_no_fuel (base : Nat) : ∀ (cs : List Nat) (a : num_acc) (e : lex_error),
    accumulate base cs a = .error e → e ≠ .out_of_fuel := by
  intro cs
  induction cs with
  | nil => intro a e h; cases h
  | cons c cs ih =>
    intro a e h
    simp only [accumulate, bind, Except.bind] at h
    cases hs : accumulate_step base a c with
    | error e1 =>
      rw [hs] at h
      simp only [Except.error.injEq] at h
      subst h
      unfold accumulate_step at hs
      cases hh : hex_to_int c with
      | error e2 =>
        rw [hh] at hs
        simp only [bind, Except.bind, Except.error.injEq] at hs
        subst hs
        unfold hex_to_int at hh
        split_ifs at hh
        cases hh
        exact fun x => by cases x
      | ok d =>
        rw [hh] at hs
        simp only [bind, Except.bind, pure, Except.pure] at hs
        split_ifs at hs
    | ok a1 =>
      rw [hs] at h
      exact ih _ _ h

theorem convert_seen_num_frame (st : lexer_state) (num : ecma_number_t) :
    (convert_seen_num_to_token st num).2.src = st.src
      ∧ (convert_seen_num_to_token st num).2.pos = st.pos := by
  unfold convert_seen_num_to_token
  split <;> exact ⟨rfl, rfl⟩

theorem finish_integer_frame (st : lexer_state) (a : num_acc) :
    (finish_integer st a).2.src = st.src ∧ (finish_integer st a).2.pos = st.pos
      ∧ (finish_integer st a).2.token_start = none := by
  unfold finish_integer
  split
  · obtain ⟨h1, h2⟩ := convert_seen_num_frame st a.fp_res
    exact ⟨h1, h2, rfl⟩
  · exact ⟨rfl, rfl, rfl⟩

theorem number_finish (st st1 : lexer_state) (base : Nat) (tok : List Nat) (zero : num_acc)
    (hsrc : st1.src = st.src) (hlt : st.pos < st1.pos) (hle : st1.pos ≤ st.src.length) :
    scans_token st (accumulate base tok zero >>= fun a => pure (finish_integer st1 a)) := by
  cases ha : accumulate base tok zero with
  | error e1 =>
    refine ⟨fun e h => ?_, fun t st2 h => by cases h⟩
    simp only [bind, Except.bind, Except.error.injEq] at h
    subst h
    exact accumulate_no_fuel base tok zero _ ha
  | ok a =>
    refine ⟨fun e h => (by cases h), fun t st2 h => ?_⟩
    simp only [bind, Except.bind, pure, Except.pure, Except.ok.injEq] at h
    obtain ⟨f1, f2, f3⟩ := finish_integer_frame st1 a
    rw [h] at f1 f2 f3
    simp only [] at f1 f2 f3
    exact ⟨f1.trans hsrc, f3, by omega, by omega⟩

theorem parse_number_scans (P : platform) (st : lexer_state) :
    scans_token st (parse_number P st) := by
  unfold parse_number
  have k0 := get_char_ne_zero st 0
  have k1 := get_char_ne_zero st 1
  by_cases hc : isdigit (get_char st 0) = true ∨ get_char st 0 = 46
  · have hlt : st.pos < st.src.length := by
      have := k0 (by
        rcases hc with h | h
        · intro e; rw [e] at h; exact absurd h (by decide)
        · rw [h]; decide)
      omega
    simp only [hc, not_true_eq_false, if_false, bind, Except.bind, pure, Except.pure]
    have err : ∀ e0 : lex_error, e0 ≠ .out_of_fuel →
        scans_token st (Except.error e0 : Except lex_error (token × lexer_state)) := by
      intro e0 h0
      refine ⟨fun e h => ?_, fun t st2 h => by cases h⟩
      simp only [Except.error.injEq] at h
      rw [← h]; exact h0
    by_cases a1 : get_char st 0 = 46 ∧ isalpha (get_char st 1) = true
    · rw [if_pos a1]
      exact err _ (fun x => by cases x)
    rw [if_neg a1]
    by_cases hhex : (decide (get_char st 0 = 48)
        && (decide (get_char st 1 = 120) || decide (get_char st 1 = 88))) = true
    · rw [if_pos hhex]
      simp only [Bool.and_eq_true, Bool.or_eq_true, decide_eq_true_eq] at hhex
      have hlt1 : st.pos + 1 < st.src.length :=
        k1 (by rcases hhex.2 with h | h <;> rw [h] <;> decide)
      have e1 : (new_token (consume_char (consume_char st))).src.length = st.src.length := rfl
      have e2 : (new_token (consume_char (consume_char st))).pos = st.pos + 2 := rfl
      obtain ⟨o1, o2⟩ := parse_hex_loop_scan
        ((new_token (consume_char (consume_char st))).src.length + 1
          - (new_token (consume_char (consume_char st))).pos)
        (new_token (consume_char (consume_char st))) (by omega)
      cases hl : parse_hex_loop
          ((new_token (consume_char (consume_char st))).src.length + 1
            - (new_token (consume_char (consume_char st))).pos)
          (new_token (consume_char (consume_char st))) with
      | error e0 => exact err _ (o1 _ hl)
      | ok v =>
        obtain ⟨k, hk, hb⟩ := o2 v hl
        have hv1 : v.src = st.src := by rw [hk]; rfl
        have hv2 : v.pos = st.pos + 2 + k := by rw [hk]; rfl
        simp only []
        split_ifs
        · exact err _ (fun x => by cases x)
        · exact number_finish st v 16 _ _ hv1 (by omega) (by omega)
    · rw [if_neg hhex]
      obtain ⟨st0a, hq⟩ : ∃ st0a, st0a = (if decide (get_char st 0 = 46) = true
          then consume_char (new_token st) else new_token st) := ⟨_, rfl⟩
      rw [← hq]
      have facts : st0a.src = st.src ∧ st.pos ≤ st0a.pos ∧ st0a.pos ≤ st.src.length
          ∧ (st.pos < st0a.pos ∨ isdigit (get_char st0a 0) = true) := by
        by_cases hdot : get_char st 0 = 46
        · rw [hq, if_pos (by simp [hdot])]
          refine ⟨rfl, ?_, ?_, Or.inl ?_⟩
          · show st.pos ≤ st.pos + 1; omega
          · show st.pos + 1 ≤ _; omega
          · show st.pos < st.pos + 1; omega
        · rw [hq, if_neg (by simp [hdot])]
          refine ⟨rfl, Nat.le_refl _, Nat.le_of_lt hlt, Or.inr ?_⟩
          rcases hc with h | h
          · exact h
          · exact absurd h hdot
      obtain ⟨f1, f2, f3, f4⟩ := facts
      have f5 : st0a.src.length = st.src.length := by rw [f1]
      obtain ⟨o1, o2⟩ := parse_decimal_loop_scan (st0a.src.length + 1 - st0a.pos) st0a
        (decide (get_char st 0 = 46)) false (by omega)
      cases hl : parse_decimal_loop (st0a.src.length + 1 - st0a.pos) st0a
          (decide (get_char st 0 = 46)) false with
      | error e0 => exact err _ (o1 _ hl)
      | ok v =>
        obtain ⟨k, hk, hb, hd⟩ := o2 v hl
        have hv1 : v.1.src = st.src := by rw [hk]; exact f1
        have hv2 : v.1.pos = st0a.pos + k := by rw [hk]; rfl
        have hv3 : st.pos < v.1.pos := by
          rcases f4 with h | h
          · omega
          · have := hd h; omega
        have hv4 : v.1.pos ≤ st.src.length := by omega
        simp only []
        split_ifs
        · exact err _ (fun x => by cases x)
        · refine ⟨fun e h => (by cases h), fun t st2 h => ?_⟩
          simp only [Except.ok.injEq, Prod.mk.injEq] at h
          obtain ⟨_, rfl⟩ := h
          obtain ⟨g1, g2⟩ := convert_seen_num_frame v.1
            (P.ecma_zt_string_to_number (src_slice v.1 (new_token st).pos v.1.pos))
          refine ⟨g1.trans hv1, rfl, ?_, ?_⟩
          · show st.pos < (convert_seen_num_to_token v.1 _).2.pos
            rw [g2]; exact hv3
          · show (convert_seen_num_to_token v.1 _).2.pos ≤ _
            rw [g2]; exact hv4
        · exact err _ (fun x => by cases x)
        · exact number_finish st v.1 8 _ _ hv1 hv3 hv4
        · exact number_finish st v.1 10 _ _ hv1 hv3 hv4
  · simp only [hc, not_false_eq_true, if_true, bind, Except.bind]
    exact ⟨fun e h => (by cases h; exact fun x => by cases x), fun t st2 h => by cases h⟩

/-! ## Punctuators and comments: the cursor moves forward inside the buffer -/

theorem punc_scans (st : lexer_state) (tok : token_type) (num : Nat)
    (hts : st.token_start = none) (h1 : 1 ≤ num) (h2 : st.pos + num ≤ st.src.length) :
    scans_token st (pure (return_punc_ex st tok num)) := by
  refine ⟨fun e h => (by cases h), fun t st2 h => ?_⟩
  simp only [pure, Except.pure, return_punc_ex, Except.ok.injEq, Prod.mk.injEq] at h
  obtain ⟨_, rfl⟩ := h
  refine ⟨rfl, hts, ?_, h2⟩
  show st.pos < st.pos + num
  omega

theorem if_la_n_is_scans (st : lexer_state) (ch : Nat) (t1 t2 : token_type) (num : Nat)
    (hts : st.token_start = none) (hch : ch ≠ 0) (h1 : 1 ≤ num)
    (h2 : st.pos + num ≤ st.src.length) :
    scans_token st (pure (if_la_n_is st ch t1 t2 num)) := by
  unfold if_la_n_is
  split
  · rename_i h
    have := get_char_ne_zero st num (by rw [h]; exact hch)
    exact punc_scans st t1 (num + 1) hts (by omega) (by omega)
  · exact punc_scans st t2 num hts h1 h2

theorem if_la_is_or_scans (st : lexer_state) (ch1 ch2 : Nat) (t1 t2 t3 : token_type)
    (hts : st.token_start = none) (hc1 : ch1 ≠ 0) (hc2 : ch2 ≠ 0)
    (h2 : st.pos + 1 ≤ st.src.length) :
    scans_token st (pure (if_la_is_or st ch1 t1 ch2 t2 t3)) := by
  unfold if_la_is_or
  split
  · rename_i h
    have := get_char_ne_zero st 1 (by rw [h]; exact hc1)
    exact punc_scans st t1 2 hts (by omega) (by omega)
  · split
    · rename_i h
      have := get_char_ne_zero st 1 (by rw [h]; exact hc2)
      exact punc_scans st t2 2 hts (by omega) (by omega)
    · exact punc_scans st t3 1 hts (by omega) h2

theorem lex_punctuator_scans (st : lexer_state) (hts : st.token_start = none) :
    scans_token st (lex_punctuator st) := by
  have k0 := get_char_ne_zero st 0
  have k1 := get_char_ne_zero st 1
  have k2 := get_char_ne_zero st 2
  unfold lex_punctuator
  dsimp only
  by_cases h123 : get_char st 0 = 123
  · rw [if_pos h123]
    exact punc_scans st _ 1 hts (by omega) (by omega)
  rw [if_neg h123]
  by_cases h125 : get_char st 0 = 125
  · rw [if_pos h125]
    exact punc_scans st _ 1 hts (by omega) (by omega)
  rw [if_neg h125]
  by_cases h40 : get_char st 0 = 40
  · rw [if_pos h40]
    exact punc_scans st _ 1 hts (by omega) (by omega)
  rw [if_neg h40]
  by_cases h41 : get_char st 0 = 41
  · rw [if_pos h41]
    exact punc_scans st _ 1 hts (by omega) (by omega)
  rw [if_neg h41]
  by_cases h91 : get_char st 0 = 91
  · rw [if_pos h91]
    exact punc_scans st _ 1 hts (by omega) (by omega)
  rw [if_neg h91]
  by_cases h93 : get_char st 0 = 93
  · rw [if_pos h93]
    exact punc_scans st _ 1 hts (by omega) (by omega)
  rw [if_neg h93]
  by_cases h46 : get_char st 0 = 46
  · rw [if_pos h46]
    exact punc_scans st _ 1 hts (by omega) (by omega)
  rw [if_neg h46]
  by_cases h59 : get_char st 0 = 59
  · rw [if_pos h59]
    exact punc_scans st _ 1 hts (by omega) (by omega)
  rw [if_neg h59]
  by_cases h44 : get_char st 0 = 44
  · rw [if_pos h44]
    exact punc_scans st _ 1 hts (by omega) (by omega)
  rw [if_neg h44]
  by_cases h126 : get_char st 0 = 126
  · rw [if_pos h126]
    exact punc_scans st _ 1 hts (by omega) (by omega)
  rw [if_neg h126]
  by_cases h58 : get_char st 0 = 58
  · rw [if_pos h58]
    exact punc_scans st _ 1 hts (by omega) (by omega)
  rw [if_neg h58]
  by_cases h63 : get_char st 0 = 63
  · rw [if_pos h63]
    exact punc_scans st _ 1 hts (by omega) (by omega)
  rw [if_neg h63]
  by_cases h42 : get_char st 0 = 42
  · rw [if_pos h42]
    exact if_la_n_is_scans st 61 _ _ 1 hts (by decide) (by omega) (by omega)
  rw [if_neg h42]
  by_cases h47 : get_char st 0 = 47
  · rw [if_pos h47]
    exact if_la_n_is_scans st 61 _ _ 1 hts (by decide) (by omega) (by omega)
  rw [if_neg h47]
  by_cases h94 : get_char st 0 = 94
  · rw [if_pos h94]
    exact if_la_n_is_scans st 61 _ _ 1 hts (by decide) (by omega) (by omega)
  rw [if_neg h94]
  by_cases h37 : get_char st 0 = 37
  · rw [if_pos h37]
    exact if_la_n_is_scans st 61 _ _ 1 hts (by decide) (by omega) (by omega)
  rw [if_neg h37]
  by_cases h43 : get_char st 0 = 43
  · rw [if_pos h43]
    exact if_la_is_or_scans st 43 61 _ _ _ hts (by decide) (by decide) (by omega)
  rw [if_neg h43]
  by_cases h45 : get_char st 0 = 45
  · rw [if_pos h45]
    exact if_la_is_or_scans st 45 61 _ _ _ hts (by decide) (by decide) (by omega)
  rw [if_neg h45]
  by_cases h38 : get_char st 0 = 38
  · rw [if_pos h38]
    exact if_la_is_or_scans st 38 61 _ _ _ hts (by decide) (by decide) (by omega)
  rw [if_neg h38]
  by_cases h124 : get_char st 0 = 124
  · rw [if_pos h124]
    exact if_la_is_or_scans st 124 61 _ _ _ hts (by decide) (by decide) (by omega)
  rw [if_neg h124]
  by_cases h60 : get_char st 0 = 60
  · rw [if_pos h60]
    by_cases g60 : get_char st 1 = 60
    · rw [if_pos g60]
      exact if_la_n_is_scans st 61 _ _ 2 hts (by decide) (by omega) (by omega)
    rw [if_neg g60]
    by_cases g61 : get_char st 1 = 61
    · rw [if_pos g61]
      exact punc_scans st _ 2 hts (by omega) (by omega)
    rw [if_neg g61]
    exact punc_scans st _ 1 hts (by omega) (by omega)
  rw [if_neg h60]
  by_cases h62 : get_char st 0 = 62
  · rw [if_pos h62]
    by_cases g62 : get_char st 1 = 62
    · rw [if_pos g62]
      by_cases f62 : get_char st 2 = 62
      · rw [if_pos f62]
        exact if_la_n_is_scans st 61 _ _ 3 hts (by decide) (by omega) (by omega)
      rw [if_neg f62]
      by_cases f61 : get_char st 2 = 61
      · rw [if_pos f61]
        exact punc_scans st _ 3 hts (by omega) (by omega)
      rw [if_neg f61]
      exact punc_scans st _ 2 hts (by omega) (by omega)
    rw [if_neg g62]
    by_cases g61 : get_char st 1 = 61
    · rw [if_pos g61]
      exact punc_scans st _ 2 hts (by omega) (by omega)
    rw [if_neg g61]
    exact punc_scans st _ 1 hts (by omega) (by omega)
  rw [if_neg h62]
  by_cases h61 : get_char st 0 = 61
  · rw [if_pos h61]
    by_cases g61 : get_char st 1 = 61
    · rw [if_pos g61]
      exact if_la_n_is_scans st 61 _ _ 2 hts (by decide) (by omega) (by omega)
    rw [if_neg g61]
    exact punc_scans st _ 1 hts (by omega) (by omega)
  rw [if_neg h61]
  by_cases h33 : get_char st 0 = 33
  · rw [if_pos h33]
    by_cases g61 : get_char st 1 = 61
    · rw [if_pos g61]
      exact if_la_n_is_scans st 61 _ _ 2 hts (by decide) (by omega) (by omega)
    rw [if_neg g61]
    exact punc_scans st _ 1 hts (by omega) (by omega)
  rw [if_neg h33]
  exact ⟨fun e h => fuel_error_of_throw _ e (fun x => by cases x) h,
    fun t st2 h => by cases h⟩

theorem comment_loop_no_fuel (m : Bool) : ∀ (f : Nat) (st : lexer_state) (nl : Bool)
    (e : lex_error), st.src.length - st.pos < f → comment_loop m f st nl = .error e →
    e ≠ .out_of_fuel := by
  intro f
  induction f with
  | zero => intro st nl e h; omega
  | succ f ih =>
    intro st nl e hf h
    simp only [comment_loop] at h
    by_cases c1 : ¬ m = true ∧ (get_char st 0 = 10 ∨ get_char st 0 = 0)
    · rw [if_pos c1] at h; cases h
    · rw [if_neg c1] at h
      by_cases c2 : m = true ∧ get_char st 0 = 42 ∧ get_char st 1 = 47
      · rw [if_pos c2] at h; cases h
      · rw [if_neg c2] at h
        by_cases c3 : m = true ∧ get_char st 0 = 0
        · rw [if_pos c3] at h
          exact fuel_error_of_throw _ e (fun x => by cases x) h
        · rw [if_neg c3] at h
          have h0 : get_char st 0 ≠ 0 := by
            intro e0
            cases hm : m with
            | true => exact c3 ⟨hm, e0⟩
            | false => exact c1 ⟨by simp [hm], Or.inr e0⟩
          have hlt := get_char_ne_zero st 0 h0
          exact ih (consume_char st) _ e (by
            show st.src.length - (st.pos + 1) < f
            omega) h

theorem replace_comment_no_fuel (st : lexer_state) (e : lex_error)
    (h : replace_comment_by_newline st = .error e) : e ≠ .out_of_fuel := by
  unfold replace_comment_by_newline at h
  by_cases c1 : get_char st 0 ≠ 47
  · simp only [bind, Except.bind] at h
    rw [if_pos c1] at h
    exact fuel_error_of_throw _ e (fun x => by cases x) h
  · by_cases c2 : ¬ (get_char st 1 = 47 ∨ get_char st 1 = 42)
    · simp only [c1, c2, not_false_eq_true, if_true, if_false, bind, Except.bind, pure,
        Except.pure] at h
      exact fuel_error_of_throw _ e (fun x => by cases x) h
    · have h1 : get_char st 1 ≠ 0 := by
        intro e0
        rw [e0] at c2
        simp at c2
      have hlt := get_char_ne_zero st 1 h1
      simp only [c1, c2, not_false_eq_true, if_false, bind, Except.bind, pure, Except.pure,
        not_true_eq_false] at h
      exact comment_loop_no_fuel _ _ (consume_char (consume_char st)) false e (by
        show st.src.length - (st.pos + 1 + 1) < st.src.length + 1 - (st.pos + 1 + 1)
        omega) h

/-! ## The token loop: each call moves the cursor forward -/

theorem step_of_scans (st : lexer_state) (r : Except lex_error (token × lexer_state))
    (h : scans_token st r) : next_token_step st r := by
  refine ⟨h.1, fun t st2 hr => ?_⟩
  obtain ⟨a, b, c, d⟩ := h.2 t st2 hr
  exact ⟨a, b, Nat.le_of_lt c, d, fun _ => c⟩

theorem step_after_skip (st st1 : lexer_state) (r : Except lex_error (token × lexer_state))
    (h : next_token_step st1 r) (hsrc : st1.src = st.src) (hlt : st.pos < st1.pos) :
    next_token_step st r := by
  refine ⟨h.1, fun t st2 hr => ?_⟩
  obtain ⟨a, b, c, d, _⟩ := h.2 t st2 hr
  rw [hsrc] at d
  exact ⟨a.trans hsrc, b, by omega, d, fun _ => by omega⟩

/-- The recursion of `lexer_next_token_private` with at least as much fuel as
there are characters left: it never runs out of fuel, and a returned token
leaves the cursor inside the buffer, moved forward unless the token is the
end-of-file token. -/
theorem aux_scans (P : platform) : ∀ (fuel : Nat) (st : lexer_state),
    st.pos ≤ st.src.length → st.src.length - st.pos < fuel →
    next_token_step st (lexer_next_token_private_aux P fuel st) := by
  intro fuel
  induction fuel with
  | zero => intro st _ h; omega
  | succ fuel ih =>
    intro st hle hf
    rw [lexer_next_token_private_aux]
    simp only []
    by_cases c0 : st.token_start ≠ none
    · rw [if_pos c0]
      exact ⟨fun e h => fuel_error_of_throw _ e (fun x => by cases x) h,
        fun t st2 h => by cases h⟩
    rw [if_neg c0]
    have hts : st.token_start = none := by
      by_contra hn; exact c0 hn
    by_cases c1 : isalpha (get_char st 0) = true ∨ get_char st 0 = 36 ∨ get_char st 0 = 95
    · rw [if_pos c1]
      exact step_of_scans st _ (parse_name_scans P st)
    rw [if_neg c1]
    by_cases c2 : isdigit (get_char st 0) = true
        ∨ get_char st 0 = 46 ∧ isdigit (get_char st 1) = true
    · rw [if_pos c2]
      exact step_of_scans st _ (parse_number_scans P st)
    rw [if_neg c2]
    by_cases c3 : get_char st 0 = 10
    · rw [if_pos c3]
      have hlt := get_char_ne_zero st 0 (by rw [c3]; decide)
      refine ⟨fun e h => (by cases h), fun t st2 h => ?_⟩
      simp only [pure, Except.pure, Except.ok.injEq, Prod.mk.injEq] at h
      obtain ⟨_, rfl⟩ := h
      refine ⟨rfl, hts, ?_, ?_, fun _ => ?_⟩
      · show st.pos ≤ st.pos + 1; omega
      · show st.pos + 1 ≤ _; omega
      · show st.pos < st.pos + 1; omega
    rw [if_neg c3]
    by_cases c4 : get_char st 0 = 0
    · rw [if_pos c4]
      refine ⟨fun e h => (by cases h), fun t st2 h => ?_⟩
      simp only [pure, Except.pure, Except.ok.injEq, Prod.mk.injEq] at h
      obtain ⟨rfl, rfl⟩ := h
      exact ⟨rfl, hts, Nat.le_refl _, hle, fun hne => absurd rfl hne⟩
    rw [if_neg c4]
    have hlt0 := get_char_ne_zero st 0 c4
    by_cases c5 : get_char st 0 = 39 ∨ get_char st 0 = 34
    · rw [if_pos c5]
      exact step_of_scans st _ (parse_string_scans P st)
    rw [if_neg c5]
    by_cases c6 : isspace (get_char st 0) = true
    · rw [if_pos c6]
      obtain ⟨a, b, c, _⟩ := grobble_advances st hle c6 c3
      exact step_after_skip st _ _
        (ih (grobble_whitespaces st) (by rw [a]; exact c) (by rw [a]; omega)) a b
    rw [if_neg c6]
    by_cases c7 : get_char st 0 = 47 ∧ get_char st 1 = 42
    · rw [if_pos c7]
      cases hr : replace_comment_by_newline st with
      | error e0 =>
        refine ⟨fun e h => ?_, fun t st2 h => by cases h⟩
        simp only [bind, Except.bind, Except.error.injEq] at h
        subst h
        exact replace_comment_no_fuel st _ hr
      | ok r =>
        obtain ⟨a, b, c, d⟩ := replace_comment_bounds st r hle hr
        obtain ⟨nl, st1⟩ := r
        show next_token_step st (if nl = true then pure (⟨.TOK_NEWLINE, 0, 0⟩, st1)
          else lexer_next_token_private_aux P fuel st1)
        by_cases hnl : nl = true
        · rw [if_pos hnl]
          refine ⟨fun e h => (by cases h), fun t st2 h => ?_⟩
          simp only [pure, Except.pure, Except.ok.injEq, Prod.mk.injEq] at h
          obtain ⟨_, rfl⟩ := h
          exact ⟨a, d.trans hts, Nat.le_of_lt b, c, fun _ => b⟩
        · rw [if_neg hnl]
          exact step_after_skip st _ _
            (ih st1 (by rw [a]; exact c) (by
              have b1 : st.pos < st1.pos := b
              rw [a]; omega)) a b
    rw [if_neg c7]
    by_cases c8 : get_char st 0 = 47 ∧ get_char st 1 = 47
    · rw [if_pos c8]
      cases hr : replace_comment_by_newline st with
      | error e0 =>
        refine ⟨fun e h => ?_, fun t st2 h => by cases h⟩
        simp only [bind, Except.bind, Except.error.injEq] at h
        subst h
        exact replace_comment_no_fuel st _ hr
      | ok r =>
        obtain ⟨a, b, c, d⟩ := replace_comment_bounds st r hle hr
        obtain ⟨nl, st1⟩ := r
        show next_token_step st (lexer_next_token_private_aux P fuel st1)
        exact step_after_skip st _ _
          (ih st1 (by rw [a]; exact c) (by
            have b1 : st.pos < st1.pos := b
            rw [a]; omega)) a b
    rw [if_neg c8]
    exact step_of_scans st _ (lex_punctuator_scans st hts)

theorem next_token_private_step (P : platform) (st : lexer_state)
    (hle : st.pos ≤ st.src.length) :
    next_token_step st (lexer_next_token_private P st) :=
  aux_scans P _ st hle (by omega)

theorem next_token_moves (P : platform) (cx : lexer_ctx) (hs : is_empty cx.saved_token = true)
    (_hts : cx.st.token_start = none) (hpos : cx.st.pos ≤ cx.st.src.length) :
    (∀ e, lexer_next_token P cx = .error e → e ≠ .out_of_fuel)
      ∧ (∀ tok cx1, lexer_next_token P cx = .ok (tok, cx1) →
          cx1.st.src = cx.st.src ∧ cx1.st.token_start = none
            ∧ is_empty cx1.saved_token = true
            ∧ cx.st.pos ≤ cx1.st.pos ∧ cx1.st.pos ≤ cx.st.src.length
            ∧ (tok.type ≠ .TOK_EOF → cx.st.pos < cx1.st.pos)) := by
  obtain ⟨o1, o2⟩ := next_token_private_step P cx.st hpos
  cases hr : lexer_next_token_private P cx.st with
  | error e0 =>
    rw [lexer_next_token_fresh_error P cx e0 hs hr]
    refine ⟨fun e h => ?_, fun tok cx1 h => by cases h⟩
    simp only [Except.error.injEq] at h
    subst h
    exact o1 _ hr
  | ok r =>
    rw [lexer_next_token_fresh P cx r hs hr]
    refine ⟨fun e h => (by cases h), fun tok cx1 h => ?_⟩
    simp only [Except.ok.injEq, Prod.mk.injEq] at h
    obtain ⟨rfl, rfl⟩ := h
    obtain ⟨a, b, c, d, e⟩ := o2 r.1 r.2 (by rw [hr])
    exact ⟨a, b, hs, c, d, e⟩

theorem lex_tokens_error (P : platform) (n : Nat) (cx : lexer_ctx) (e : lex_error)
    (h : lexer_next_token P cx = .error e) : lex_tokens P (n + 1) cx = .error e := by
  simp only [lex_tokens, h, bind, Except.bind]

theorem lex_tokens_cons_error (P : platform) (n : Nat) (cx cx1 : lexer_ctx) (t : token)
    (e : lex_error) (h : lexer_next_token P cx = .ok (t, cx1)) (hne : t.type ≠ .TOK_EOF)
    (hr : lex_tokens P n cx1 = .error e) : lex_tokens P (n + 1) cx = .error e := by
  simp only [lex_tokens, h, bind, Except.bind, hne, if_false, hr]

/-- Repeated calls with one call more than there are characters left: a parse
error ends them, or the end-of-file token does, after at most that many
calls. -/
theorem lex_tokens_total (P : platform) : ∀ (k : Nat) (cx : lexer_ctx),
    is_empty cx.saved_token = true → cx.st.token_start = none →
    cx.st.pos ≤ cx.st.src.length → cx.st.src.length - cx.st.pos < k →
    (∃ e, lex_tokens P k cx = .error e ∧ e ≠ .out_of_fuel)
      ∨ ∃ ts cx1, lex_tokens P k cx = .ok (ts, cx1)
          ∧ ts.length ≤ cx.st.src.length + 1 - cx.st.pos
          ∧ ts.getLast?.map token.type = some .TOK_EOF := by
  intro k
  induction k with
  | zero => intro cx _ _ _ h; omega
  | succ k ih =>
    intro cx hs hts hpos hk
    obtain ⟨o1, o2⟩ := next_token_moves P cx hs hts hpos
    cases hr : lexer_next_token P cx with
    | error e0 => exact Or.inl ⟨e0, lex_tokens_error P k cx e0 hr, o1 _ hr⟩
    | ok r =>
      obtain ⟨t, cx1⟩ := r
      obtain ⟨a, b, c, d, e, f⟩ := o2 t cx1 hr
      by_cases heof : t.type = .TOK_EOF
      · refine Or.inr ⟨[t], cx1, lex_tokens_eof P k cx cx1 t hr heof, ?_, ?_⟩
        · simp only [List.length_singleton]; omega
        · simp only [List.getLast?_singleton, Option.map_some', heof]
      · have hlt := f heof
        rcases ih cx1 c b (by rw [a]; exact e) (by rw [a]; omega) with
          ⟨e1, h1, h2⟩ | ⟨ts, cx2, h1, h2, h3⟩
        · exact Or.inl ⟨e1, lex_tokens_cons_error P k cx cx1 t e1 hr heof h1, h2⟩
        · refine Or.inr ⟨t :: ts, cx2, lex_tokens_cons P k cx cx1 cx2 t ts hr heof h1, ?_, ?_⟩
          · rw [a] at h2
            simp only [List.length_cons]; omega
          · cases ts with
            | nil => simp at h3
            | cons x xs => rw [List.getLast?_cons_cons]; exact h3

/-! ## C36: the token loop advances and terminates -/

/-- C36: for a lexer between two tokens (no token pushed back, none being
scanned) with the cursor inside a buffer of length `n`: a call of
`lexer_next_token` never runs out of fuel, which bounds the calls that
`lexer_next_token_private` makes to itself after white space and comments by
the characters left; a returned token leaves the lexer between two tokens with
the cursor at most at `n`, not moved back, and moved forward unless the token
is the end-of-file token; with the cursor at `n` the call returns the
end-of-file token and leaves the scanning state as it was; and repeated calls,
one more than there are characters left, end with a parse error or with the
end-of-file token, after at most that many calls. -/
theorem C36_token_loop_advances (P : platform) (cx : lexer_ctx)
    (hs : is_empty cx.saved_token = true) (hts : cx.st.token_start = none)
    (hpos : cx.st.pos ≤ cx.st.src.length) :
    lexer_next_token P cx ≠ .error .out_of_fuel
      ∧ (∀ tok cx1, lexer_next_token P cx = .ok (tok, cx1) →
          cx1.st.src = cx.st.src ∧ cx1.st.token_start = none
            ∧ is_empty cx1.saved_token = true
            ∧ cx.st.pos ≤ cx1.st.pos ∧ cx1.st.pos ≤ cx.st.src.length
            ∧ (tok.type ≠ .TOK_EOF → cx.st.pos < cx1.st.pos))
      ∧ (cx.st.pos = cx.st.src.length →
          ∃ tok cx1, lexer_next_token P cx = .ok (tok, cx1) ∧ tok.type = .TOK_EOF
            ∧ cx1.st = cx.st)
      ∧ ((∃ e, lex_tokens P (cx.st.src.length + 1 - cx.st.pos) cx = .error e
            ∧ e ≠ .out_of_fuel)
          ∨ ∃ ts cx1, lex_tokens P (cx.st.src.length + 1 - cx.st.pos) cx = .ok (ts, cx1)
              ∧ ts.length ≤ cx.st.src.length + 1 - cx.st.pos
              ∧ ts.getLast?.map token.type = some .TOK_EOF) := by
  obtain ⟨o1, o2⟩ := next_token_moves P cx hs hts hpos
  refine ⟨fun h => o1 _ h rfl, o2, fun hend => ?_,
    lex_tokens_total P _ cx hs hts hpos (by omega)⟩
  have hc : get_char cx.st 0 = 0 := by
    unfold get_char
    rw [if_pos (by omega)]
  have hr : lexer_next_token_private P cx.st = .ok (create_token cx.st .TOK_EOF 0, cx.st) := by
    unfold lexer_next_token_private
    have : cx.st.src.length + 1 - cx.st.pos = 0 + 1 := by omega
    rw [this, lexer_next_token_private_aux]
    simp only [hc, hts, ne_eq, not_true_eq_false, if_false]
    rfl
  exact ⟨_, _, lexer_next_token_fresh P cx _ hs hr, rfl, rfl⟩

set_option maxRecDepth 100000 in
theorem C36_token_loop_advances_witness :
    is_empty (lexer_init (cstr "x = 7 // end")).saved_token = true
      ∧ (lexer_init (cstr "x = 7 // end")).st.token_start = none
      ∧ (lexer_init (cstr "x = 7 // end")).st.pos
          ≤ (lexer_init (cstr "x = 7 // end")).st.src.length
      ∧ lexer_next_token sample_platform (lexer_init (cstr "x = 7 // end"))
          ≠ .error .out_of_fuel :=
  ⟨rfl, rfl, by decide,
    (C36_token_loop_advances sample_platform (lexer_init (cstr "x = 7 // end")) rfl rfl
      (by decide)).1⟩

set_option maxRecDepth 100000 in
/-- On the source `x = 7 // end` (12 characters) four calls return the name,
`=`, the number and the end-of-file token, with the cursor at 1, 3, 5 and 12:
the last call skips the blank and the comment before it finds the end. -/
theorem token_loop_examples :
    (lex_tokens sample_platform 13 (lexer_init (cstr "x = 7 // end"))).map
        (fun r => (r.1.map token.type, r.2.st.pos))
      = .ok ([.TOK_NAME, .TOK_EQ, .TOK_SMALL_INT, .TOK_EOF], 12)
    ∧ (lexer_next_token sample_platform (lexer_init (cstr "x = 7 // end"))).map
        (fun r => r.2.st.pos) = .ok 1 := by decide

/-! ## URI: bytes and their escapes -/

theorem hex_to_byte_cons (a b c : Nat) (rest : List Nat) :
    ecma_builtin_global_object_hex_to_byte (a :: b :: c :: rest)
      = ecma_builtin_global_object_hex_to_byte [a, b, c] := rfl

set_option maxRecDepth 100000 in
theorem hex_to_byte_escape_table : ∀ b < 256,
    ecma_builtin_global_object_hex_to_byte (percent_escape b) = b := by decide

theorem hex_to_byte_escape (b : Nat) (rest : List Nat) (hb : b < 256) :
    ecma_builtin_global_object_hex_to_byte (percent_escape b ++ rest) = b := by
  have h1 : ecma_builtin_global_object_hex_to_byte (percent_escape b ++ rest)
      = ecma_builtin_global_object_hex_to_byte (percent_escape b) :=
    hex_to_byte_cons _ _ _ rest
  rw [h1]
  exact hex_to_byte_escape_table b hb

theorem drop_escape (b : Nat) (rest : List Nat) : (percent_escape b ++ rest).drop 3 = rest := rfl

theorem escape_cons (b : Nat) (rest : List Nat) :
    percent_escape b ++ rest
      = 37 :: upper_hex_digit (b / 16) :: upper_hex_digit (b % 16) :: rest := rfl

set_option maxRecDepth 100000 in
theorem byte_bit_facts : ∀ b < 256,
    (decide (b &&& 0xc0 = 0x80) = decide (128 ≤ b ∧ b < 192))
      ∧ b &&& 0x3f = b % 64 ∧ b &&& 0x1f = b % 32 ∧ b &&& 0x0f = b % 16
      ∧ b &&& 0x07 = b % 8 := by decide

theorem continuation_byte_iff (b : Nat) (hb : b < 256) :
    b &&& 0xc0 = 0x80 ↔ (128 ≤ b ∧ b < 192) := by
  have := (byte_bit_facts b hb).1
  constructor
  · intro h
    have h2 : decide (b &&& 0xc0 = 0x80) = true := by simpa using h
    rw [this] at h2
    simpa using h2
  · intro h
    have h2 : decide (128 ≤ b ∧ b < 192) = true := by simpa using h
    rw [← this] at h2
    simpa using h2

theorem byte_to_hex_eq (char_bits b : Nat) (h8 : 8 ≤ char_bits) (hb : b < 256) :
    ecma_builtin_global_object_byte_to_hex char_bits b = .ok (percent_escape b) := by
  have hpow : 256 ≤ 2 ^ char_bits := by
    calc 256 = 2 ^ 8 := by norm_num
      _ ≤ 2 ^ char_bits := Nat.pow_le_pow_right (by decide) h8
  unfold ecma_builtin_global_object_byte_to_hex percent_escape
  rw [if_neg (by omega)]
  have e1 : b >>> 4 = b / 16 := by rw [Nat.shiftRight_eq_div_pow]
  have e2 : b &&& 0xf = b % 16 := (byte_bit_facts b hb).2.2.2.1
  have c1 : ecma_char_t char_bits (b / 16) = b / 16 := by
    unfold ecma_char_t; exact Nat.mod_eq_of_lt (by omega)
  have c2 : ecma_char_t char_bits (b % 16) = b % 16 := by
    unfold ecma_char_t; exact Nat.mod_eq_of_lt (by omega)
  have c3 : ∀ d, d < 16 → ecma_char_t char_bits (if d > 9 then d + (65 - 10) else d + 48)
      = upper_hex_digit d := by
    intro d hd
    unfold ecma_char_t upper_hex_digit
    by_cases h9 : d > 9
    · rw [if_pos h9]
      exact Nat.mod_eq_of_lt (by omega)
    · rw [if_neg h9]
      exact Nat.mod_eq_of_lt (by omega)
  simp only [e1, e2, c1, c2]
  rw [c3 _ (by omega), c3 _ (by omega)]

theorem bytes_to_hex_eq (char_bits : Nat) (h8 : 8 ≤ char_bits) : ∀ (bs : List Nat),
    (∀ b ∈ bs, b < 256) → bytes_to_hex char_bits bs = .ok (percent_escapes bs) := by
  intro bs
  induction bs with
  | nil => intro _; rfl
  | cons b bs ih =>
    intro h
    simp only [bytes_to_hex, byte_to_hex_eq char_bits b h8 (h b (List.mem_cons_self _ _)),
      ih (fun x hx => h x (List.mem_cons_of_mem _ hx)), percent_escapes]

/-! ## URI decoding: one escape sequence at a time -/

theorem hex_to_byte_cons_escape (b : Nat) (rest : List Nat) (hb : b < 256) :
    ecma_builtin_global_object_hex_to_byte
      (37 :: upper_hex_digit (b / 16) :: upper_hex_digit (b % 16) :: rest) = b :=
  hex_to_byte_escape b rest hb

theorem accumulate_ge : ∀ (bs : List Nat) (ch : Nat), ch ≤ utf8_accumulate ch bs := by
  intro bs
  induction bs with
  | nil => intro ch; exact Nat.le_refl _
  | cons b bs ih =>
    intro ch
    have := ih (ch * 64 + b % 64)
    simp only [utf8_accumulate, List.foldl_cons] at this ⊢
    omega

theorem accumulate_cons (ch b : Nat) (bs : List Nat) :
    utf8_accumulate ch (b :: bs) = utf8_accumulate (ch * 64 + b % 64) bs := rfl

theorem continuation_step (ch b : Nat) (hb : b < 256) (hlt : ch * 64 + b % 64 < 4294967296) :
    uint32_t ((ch <<< 6) + (b &&& 0x3f)) = ch * 64 + b % 64 := by
  unfold uint32_t
  rw [Nat.shiftLeft_eq, (byte_bit_facts b hb).2.1]
  exact Nat.mod_eq_of_lt hlt

theorem decode_continuation_valid : ∀ (bs : List Nat) (ch : Nat) (rest : List Nat),
    (∀ b ∈ bs, 128 ≤ b ∧ b < 192) → utf8_accumulate ch bs < 4294967296 →
    decode_continuation bs.length ch (percent_escapes bs ++ rest)
      = (0, utf8_accumulate ch bs, rest) := by
  intro bs
  induction bs with
  | nil => intro ch rest _ _; rfl
  | cons b bs ih =>
    intro ch rest hbs hlt
    obtain ⟨h1, h2⟩ := hbs b (List.mem_cons_self _ _)
    have hb : b < 256 := by omega
    rw [accumulate_cons] at hlt ⊢
    have hstep := accumulate_ge bs (ch * 64 + b % 64)
    simp only [List.length_cons, percent_escapes, List.append_assoc, decode_continuation]
    rw [hex_to_byte_escape b _ hb, drop_escape]
    have hcont : b &&& 0xc0 = 0x80 := (continuation_byte_iff b hb).mpr ⟨h1, h2⟩
    rw [if_neg (by
      unfold ECMA_BUILTIN_HEX_TO_BYTE_ERROR
      intro h
      rcases h with h | h
      · omega
      · exact h hcont)]
    rw [continuation_step ch b hb (by omega)]
    exact ih _ rest (fun x hx => hbs x (List.mem_cons_of_mem _ hx)) hlt

theorem decode_continuation_checked_valid : ∀ (bs : List Nat) (ch : Nat) (rest : List Nat),
    (∀ b ∈ bs, 128 ≤ b ∧ b < 192) → utf8_accumulate ch bs < 4294967296 →
    decode_continuation_checked bs.length ch (percent_escapes bs ++ rest)
      = .ok (utf8_accumulate ch bs, rest) := by
  intro bs
  induction bs with
  | nil => intro ch rest _ _; rfl
  | cons b bs ih =>
    intro ch rest hbs hlt
    obtain ⟨h1, h2⟩ := hbs b (List.mem_cons_self _ _)
    have hb : b < 256 := by omega
    rw [accumulate_cons] at hlt ⊢
    have hstep := accumulate_ge bs (ch * 64 + b % 64)
    simp only [List.length_cons, percent_escapes, List.append_assoc, decode_continuation_checked]
    rw [hex_to_byte_escape b _ hb, drop_escape]
    have hcont : b &&& 0xc0 = 0x80 := (continuation_byte_iff b hb).mpr ⟨h1, h2⟩
    rw [if_neg (by
      unfold ECMA_BUILTIN_HEX_TO_BYTE_ERROR
      intro h
      exact h ⟨by omega, hcont⟩)]
    rw [continuation_step ch b hb (by omega)]
    exact ih _ rest (fun x hx => hbs x (List.mem_cons_of_mem _ hx)) hlt

theorem escapes_cons (b : Nat) (bs rest : List Nat) :
    percent_escapes (b :: bs) ++ rest
      = 37 :: upper_hex_digit (b / 16) :: upper_hex_digit (b % 16)
          :: (percent_escapes bs ++ rest) := rfl

/-- The first pass at a multi-byte sequence: a lead byte and the continuation
bytes it announces. -/
theorem count_multibyte (R : List Nat) (fuel b0 : Nat) (bs rest : List Nat) (n : Nat)
    (h0 : 0xc0 ≤ b0 ∧ b0 < 0xf8) (hbs : ∀ b ∈ bs, 128 ≤ b ∧ b < 192)
    (hlen : bs.length = if b0 < 0xe0 then 1 else if b0 < 0xf0 then 2 else 3)
    (ch : Nat)
    (hch : ch = utf8_accumulate
      (if b0 < 0xe0 then b0 % 32 else if b0 < 0xf0 then b0 % 16 else b0 % 8) bs)
    (hlt : ch < 4294967296) :
    decode_uri_count R (fuel + 1) (percent_escapes (b0 :: bs) ++ rest) n
      = if ch < (if b0 < 0xe0 then 0x80 else if b0 < 0xf0 then 0x800 else 0x1000)
            ∨ ch > 0x10ffff ∨ (ch ≥ 0xd800 ∧ ch ≤ 0xdfff) then .ok none
        else decode_uri_count R fuel rest (uint32_t (n + (if ch ≤ 0xffff then 1 else 2))) := by
  have hb : b0 < 256 := by omega
  obtain ⟨_, _, f32, f16, f8⟩ := byte_bit_facts b0 hb
  rw [escapes_cons, decode_uri_count]
  simp only [ne_eq, not_true_eq_false, if_false]
  rw [hex_to_byte_cons_escape b0 _ hb]
  rw [if_neg (by unfold ECMA_BUILTIN_HEX_TO_BYTE_ERROR; omega), if_neg (by omega),
    if_neg (by omega)]
  simp only [List.drop_succ_cons, List.drop_zero, f32, f16, f8]
  have hcont := decode_continuation_valid bs
    (if b0 < 0xe0 then b0 % 32 else if b0 < 0xf0 then b0 % 16 else b0 % 8) rest hbs
    (by rw [← hch]; exact hlt)
  rw [hlen, ← hch] at hcont
  rw [hcont]
  simp only [ne_eq, not_true_eq_false, false_or]

/-- The second pass at a multi-byte sequence. -/
theorem write_multibyte (char_bits : Nat) (R : List Nat) (fuel b0 : Nat) (bs rest out : List Nat)
    (h0 : 0xc0 ≤ b0 ∧ b0 < 0xf8) (hbs : ∀ b ∈ bs, 128 ≤ b ∧ b < 192)
    (hlen : bs.length = if b0 < 0xe0 then 1 else if b0 < 0xf0 then 2 else 3)
    (ch : Nat)
    (hch : ch = utf8_accumulate
      (if b0 < 0xe0 then b0 % 32 else if b0 < 0xf0 then b0 % 16 else b0 % 8) bs)
    (hlt : ch < 4294967296) :
    decode_uri_write char_bits R (fuel + 1) (percent_escapes (b0 :: bs) ++ rest) out
      = if ch < 0x10000 then
          decode_uri_write char_bits R fuel rest (out ++ [ecma_char_t char_bits ch])
        else
          decode_uri_write char_bits R fuel rest
            (out ++ [ecma_char_t char_bits (0xd800 ||| ((ch - 0x10000) &&& 0x3ff)),
              ecma_char_t char_bits (0xdc00 ||| ((ch - 0x10000) >>> 10))]) := by
  have hb : b0 < 256 := by omega
  obtain ⟨_, _, f32, f16, f8⟩ := byte_bit_facts b0 hb
  rw [escapes_cons, decode_uri_write]
  simp only [ne_eq, not_true_eq_false, if_false]
  rw [hex_to_byte_cons_escape b0 _ hb]
  rw [if_neg (by omega), if_neg (by omega)]
  simp only [List.drop_succ_cons, List.drop_zero, f32, f16, f8]
  have hcont := decode_continuation_checked_valid bs
    (if b0 < 0xe0 then b0 % 32 else if b0 < 0xf0 then b0 % 16 else b0 % 8) rest hbs
    (by rw [← hch]; exact hlt)
  rw [hlen, ← hch] at hcont
  rw [hcont]
  simp only []
  by_cases hs : ch < 0x10000
  · rw [if_pos hs, if_pos hs]
  · rw [if_neg hs, if_neg hs]
    have e : uint32_t (ch + 4294967296 - 0x10000) = ch - 0x10000 := by
      unfold uint32_t
      omega
    rw [e]

/-! ## URI decoding: the UTF-8 forms -/

theorem or_low_bits (k y : Nat) (hy : y < 1024) : (1024 * k) ||| y = 1024 * k + y := by
  have h := Nat.mul_add_lt_is_or (show y < 2 ^ 10 from hy) k
  have e : (2 : Nat) ^ 10 = 1024 := by norm_num
  rw [e] at h
  exact h.symm

theorem helper_throw (char_bits : Nat) (input R : List Nat)
    (h : decode_uri_count R (input.length + 1) input 1 = .ok none) :
    ecma_builtin_global_object_decode_uri_helper char_bits input R = .ok .throw_uri_error := by
  unfold ecma_builtin_global_object_decode_uri_helper
  rw [h]

theorem count_form2 (R : List Nat) (fuel v : Nat) (rest : List Nat) (n : Nat) (hv : v < 0x800) :
    decode_uri_count R (fuel + 1) (percent_escapes (utf8_form2 v) ++ rest) n
      = if v < 0x80 then .ok none
        else decode_uri_count R fuel rest (uint32_t (n + 1)) := by
  have hacc : v = utf8_accumulate (if 0xc0 + v / 64 % 32 < 0xe0 then (0xc0 + v / 64 % 32) % 32
      else if 0xc0 + v / 64 % 32 < 0xf0 then (0xc0 + v / 64 % 32) % 16
      else (0xc0 + v / 64 % 32) % 8) [0x80 + v % 64] := by
    rw [if_pos (by omega)]
    simp only [utf8_accumulate, List.foldl_cons, List.foldl_nil]
    omega
  rw [show utf8_form2 v = (0xc0 + v / 64 % 32) :: [0x80 + v % 64] from rfl,
    count_multibyte R fuel _ _ rest n (by omega)
      (by intro b hb; simp only [List.mem_singleton] at hb; omega)
      (by rw [if_pos (by omega)]; rfl) v hacc (by omega)]
  rw [if_pos (show 0xc0 + v / 64 % 32 < 0xe0 by omega)]
  by_cases h : v < 0x80
  · rw [if_pos h, if_pos (Or.inl h)]
  · rw [if_neg h, if_neg (by omega), if_pos (by omega)]

theorem count_form3 (R : List Nat) (fuel v : Nat) (rest : List Nat) (n : Nat)
    (hv : v < 0x10000) :
    decode_uri_count R (fuel + 1) (percent_escapes (utf8_form3 v) ++ rest) n
      = if v < 0x800 ∨ (0xd800 ≤ v ∧ v ≤ 0xdfff) then .ok none
        else decode_uri_count R fuel rest (uint32_t (n + 1)) := by
  have hacc : v = utf8_accumulate (if 0xe0 + v / 4096 % 16 < 0xe0 then (0xe0 + v / 4096 % 16) % 32
      else if 0xe0 + v / 4096 % 16 < 0xf0 then (0xe0 + v / 4096 % 16) % 16
      else (0xe0 + v / 4096 % 16) % 8) [0x80 + v / 64 % 64, 0x80 + v % 64] := by
    rw [if_neg (by omega), if_pos (by omega)]
    simp only [utf8_accumulate, List.foldl_cons, List.foldl_nil]
    omega
  rw [show utf8_form3 v = (0xe0 + v / 4096 % 16) :: [0x80 + v / 64 % 64, 0x80 + v % 64] from rfl,
    count_multibyte R fuel _ _ rest n (by omega)
      (by
        intro b hb
        simp only [List.mem_cons, List.mem_singleton, List.not_mem_nil, or_false] at hb
        omega)
      (by rw [if_neg (by omega), if_pos (by omega)]; rfl) v hacc (by omega)]
  rw [if_neg (show ¬ 0xe0 + v / 4096 % 16 < 0xe0 by omega),
    if_pos (show 0xe0 + v / 4096 % 16 < 0xf0 by omega)]
  by_cases h : v < 0x800 ∨ (0xd800 ≤ v ∧ v ≤ 0xdfff)
  · rw [if_pos h, if_pos (by omega)]
  · rw [if_neg h, if_neg (by omega), if_pos (by omega)]

theorem count_form4 (R : List Nat) (fuel v : Nat) (rest : List Nat) (n : Nat)
    (hv : v < 0x200000) :
    decode_uri_count R (fuel + 1) (percent_escapes (utf8_form4 v) ++ rest) n
      = if v < 0x1000 ∨ v > 0x10ffff ∨ (0xd800 ≤ v ∧ v ≤ 0xdfff) then .ok none
        else decode_uri_count R fuel rest (uint32_t (n + (if v ≤ 0xffff then 1 else 2))) := by
  have hacc : v = utf8_accumulate
      (if 0xf0 + v / 262144 % 8 < 0xe0 then (0xf0 + v / 262144 % 8) % 32
      else if 0xf0 + v / 262144 % 8 < 0xf0 then (0xf0 + v / 262144 % 8) % 16
      else (0xf0 + v / 262144 % 8) % 8)
      [0x80 + v / 4096 % 64, 0x80 + v / 64 % 64, 0x80 + v % 64] := by
    rw [if_neg (by omega), if_neg (by omega)]
    simp only [utf8_accumulate, List.foldl_cons, List.foldl_nil]
    omega
  rw [show utf8_form4 v = (0xf0 + v / 262144 % 8)
      :: [0x80 + v / 4096 % 64, 0x80 + v / 64 % 64, 0x80 + v % 64] from rfl,
    count_multibyte R fuel _ _ rest n (by omega)
      (by
        intro b hb
        simp only [List.mem_cons, List.mem_singleton, List.not_mem_nil, or_false] at hb
        omega)
      (by rw [if_neg (by omega), if_neg (by omega)]; rfl) v hacc (by omega)]
  rw [if_neg (show ¬ 0xf0 + v / 262144 % 8 < 0xe0 by omega),
    if_neg (show ¬ 0xf0 + v / 262144 % 8 < 0xf0 by omega)]

theorem write_form4 (char_bits : Nat) (R : List Nat) (fuel v : Nat) (rest out : List Nat)
    (hv : v < 0x200000) :
    decode_uri_write char_bits R (fuel + 1) (percent_escapes (utf8_form4 v) ++ rest) out
      = if v < 0x10000 then
          decode_uri_write char_bits R fuel rest (out ++ [ecma_char_t char_bits v])
        else
          decode_uri_write char_bits R fuel rest
            (out ++ [ecma_char_t char_bits (0xd800 ||| ((v - 0x10000) &&& 0x3ff)),
              ecma_char_t char_bits (0xdc00 ||| ((v - 0x10000) >>> 10))]) := by
  have hacc : v = utf8_accumulate
      (if 0xf0 + v / 262144 % 8 < 0xe0 then (0xf0 + v / 262144 % 8) % 32
      else if 0xf0 + v / 262144 % 8 < 0xf0 then (0xf0 + v / 262144 % 8) % 16
      else (0xf0 + v / 262144 % 8) % 8)
      [0x80 + v / 4096 % 64, 0x80 + v / 64 % 64, 0x80 + v % 64] := by
    rw [if_neg (by omega), if_neg (by omega)]
    simp only [utf8_accumulate, List.foldl_cons, List.foldl_nil]
    omega
  rw [show utf8_form4 v = (0xf0 + v / 262144 % 8)
      :: [0x80 + v / 4096 % 64, 0x80 + v / 64 % 64, 0x80 + v % 64] from rfl,
    write_multibyte char_bits R fuel _ _ rest out (by omega)
      (by
        intro b hb
        simp only [List.mem_cons, List.mem_singleton, List.not_mem_nil, or_false] at hb
        omega)
      (by rw [if_neg (by omega), if_neg (by omega)]; rfl) v hacc (by omega)]

/-! ## C32: overlong forms, out-of-range and surrogate code points -/

theorem count_end (R : List Nat) (fuel n : Nat) :
    decode_uri_count R (fuel + 1) [] n = .ok (some n) := rfl

theorem write_end (char_bits : Nat) (R : List Nat) (fuel : Nat) (out : List Nat) :
    decode_uri_write char_bits R (fuel + 1) [] out = .ok out := rfl

theorem form4_length (v : Nat) : (percent_escapes (utf8_form4 v)).length = 12 := rfl

/-- C32: the decode helper returns the thrown URIError for every input that
starts with the escapes of an overlong two-byte form (value below 0x80), of an
overlong three-byte form (value below 0x800), of a three- or four-byte form of
a surrogate (0xD800 to 0xDFFF), of a four-byte form of a value above 0x10FFFF,
or of a four-byte form of a value below 0x1000. The overlong four-byte forms of
the values from 0x1000 to 0xFFFF are not rejected, because the helper takes
0x1000 and not 0x10000 as the least value of a four-byte form: with 16-bit
code units their escapes alone decode to the one code unit. -/
theorem C32_overlong_forms (char_bits : Nat) (R rest : List Nat) (v : Nat) :
    (v < 0x80 →
        ecma_builtin_global_object_decode_uri_helper char_bits
          (percent_escapes (utf8_form2 v) ++ rest) R = .ok .throw_uri_error)
      ∧ (v < 0x800 ∨ (0xd800 ≤ v ∧ v ≤ 0xdfff) →
        ecma_builtin_global_object_decode_uri_helper char_bits
          (percent_escapes (utf8_form3 v) ++ rest) R = .ok .throw_uri_error)
      ∧ (v < 0x1000 ∨ (0x10ffff < v ∧ v < 0x200000) ∨ (0xd800 ≤ v ∧ v ≤ 0xdfff) →
        ecma_builtin_global_object_decode_uri_helper char_bits
          (percent_escapes (utf8_form4 v) ++ rest) R = .ok .throw_uri_error)
      ∧ (0x1000 ≤ v ∧ v < 0x10000 ∧ ¬ (0xd800 ≤ v ∧ v ≤ 0xdfff) →
        ecma_builtin_global_object_decode_uri_helper 16
          (percent_escapes (utf8_form4 v)) R = .ok (.normal [v])) := by
  refine ⟨fun h => ?_, fun h => ?_, fun h => ?_, fun h => ?_⟩
  · apply helper_throw
    rw [count_form2 R _ v rest 1 (by omega), if_pos h]
  · apply helper_throw
    rw [count_form3 R _ v rest 1 (by omega), if_pos h]
  · apply helper_throw
    rw [count_form4 R _ v rest 1 (by omega), if_pos (by omega)]
  · unfold ecma_builtin_global_object_decode_uri_helper
    rw [form4_length]
    have hc := count_form4 R 12 v [] 1 (by omega)
    have hw := write_form4 16 R 12 v [] [] (by omega)
    rw [List.append_nil] at hc hw
    rw [hc, hw, if_neg (by omega), if_pos (by omega), if_pos (by omega)]
    rw [count_end, write_end]
    have hcast : ecma_char_t 16 v = v := by
      unfold ecma_char_t
      exact Nat.mod_eq_of_lt (by norm_num; omega)
    simp only [List.nil_append, hcast, uint32_t, List.length_singleton]
    rw [if_neg (by norm_num)]
    have hv0 : v ≠ 0 := by omega
    simp [ecma_new_ecma_string, List.takeWhile, hv0]

set_option maxRecDepth 100000 in
/-- The overlong four-byte form `%F0%81%80%80` of U+1000 (its shortest form is
`%E1%80%80`) is decoded to the code unit 0x1000 instead of being rejected,
like the overlong form `%F0%8F%BF%BF` of U+FFFF; the overlong forms
`%C1%81`, `%E0%81%80` and `%F0%80%81%80` are rejected. -/
theorem C32_counterexample :
    ecma_builtin_global_object_decode_uri_component 16 (cstr "%F0%81%80%80")
        = .ok (.normal [0x1000])
      ∧ ecma_builtin_global_object_decode_uri_component 16 (cstr "%E1%80%80")
        = .ok (.normal [0x1000])
      ∧ ecma_builtin_global_object_decode_uri 16 (cstr "%F0%8F%BF%BF") = .ok (.normal [0xFFFF])
      ∧ ecma_builtin_global_object_decode_uri_component 16 (cstr "%C1%81")
        = .ok .throw_uri_error
      ∧ ecma_builtin_global_object_decode_uri_component 16 (cstr "%E0%81%80")
        = .ok .throw_uri_error
      ∧ ecma_builtin_global_object_decode_uri_component 16 (cstr "%F0%80%81%80")
        = .ok .throw_uri_error := by decide

/-! ## C40: the surrogate pair of a four-byte sequence -/

theorem new_string_of_nonzero : ∀ (s : List Nat), (∀ c ∈ s, c ≠ 0) →
    ecma_new_ecma_string (s ++ [0]) = s := by
  intro s
  induction s with
  | nil => intro _; rfl
  | cons c t ih =>
    intro h
    have hc : c ≠ 0 := h c (List.mem_cons_self _ _)
    have iht := ih (fun x hx => h x (List.mem_cons_of_mem _ hx))
    unfold ecma_new_ecma_string at iht ⊢
    rw [List.cons_append, List.takeWhile_cons, if_pos (by simpa using hc), iht]

theorem surrogate_units (x : Nat) (hx : x < 0x100000) :
    0xd800 ||| (x &&& 0x3ff) = 0xd800 + x % 1024 ∧ 0xdc00 ||| (x >>> 10) = 0xdc00 + x / 1024
      ∧ 0xd800 ||| (x >>> 10) = 0xd800 + x / 1024
      ∧ 0xdc00 ||| (x &&& 0x3ff) = 0xdc00 + x % 1024 := by
  have e1 : x &&& 0x3ff = x % 1024 := Nat.and_pow_two_sub_one_eq_mod x 10
  have e2 : x >>> 10 = x / 1024 := by rw [Nat.shiftRight_eq_div_pow]
  have a1 := or_low_bits 54 (x % 1024) (by omega)
  have a2 := or_low_bits 55 (x / 1024) (by omega)
  have a3 := or_low_bits 54 (x / 1024) (by omega)
  have a4 := or_low_bits 55 (x % 1024) (by omega)
  rw [e1, e2]
  exact ⟨a1, a2, a3, a4⟩

/-- C40: for every code point `c` from 0x10000 to 0x10FFFF the decode helper
with 16-bit code units accepts the escapes of its four-byte UTF-8 form and
returns two code units, but with the payloads exchanged: the first unit is
`0xD800 | ((c - 0x10000) & 0x3FF)` and the second is
`0xDC00 | ((c - 0x10000) >> 10)`. This is the surrogate pair of `c` only when
the upper and the lower ten bits of `c - 0x10000` are equal. -/
theorem C40_surrogate_pair_decoded (R : List Nat) (c : Nat)
    (hc : 0x10000 ≤ c ∧ c ≤ 0x10ffff) :
    ecma_builtin_global_object_decode_uri_helper 16 (percent_escapes (utf8_form4 c)) R
        = .ok (.normal [0xD800 ||| ((c - 0x10000) &&& 0x3FF),
            0xDC00 ||| ((c - 0x10000) >>> 10)])
      ∧ ([0xD800 ||| ((c - 0x10000) &&& 0x3FF), 0xDC00 ||| ((c - 0x10000) >>> 10)]
            = utf16_surrogate_pair c
          ↔ (c - 0x10000) >>> 10 = (c - 0x10000) &&& 0x3FF) := by
  obtain ⟨u1, u2, u3, u4⟩ := surrogate_units (c - 0x10000) (by omega)
  have e1 : (c - 0x10000) &&& 0x3ff = (c - 0x10000) % 1024 :=
    Nat.and_pow_two_sub_one_eq_mod _ 10
  have e2 : (c - 0x10000) >>> 10 = (c - 0x10000) / 1024 := by rw [Nat.shiftRight_eq_div_pow]
  constructor
  · unfold ecma_builtin_global_object_decode_uri_helper
    rw [form4_length]
    have hcnt := count_form4 R 12 c [] 1 (by omega)
    have hw := write_form4 16 R 12 c [] [] (by omega)
    rw [List.append_nil] at hcnt hw
    rw [hcnt, hw, if_neg (by omega), if_neg (by omega), if_neg (by omega)]
    rw [count_end, write_end]
    have c1 : ecma_char_t 16 (0xd800 ||| ((c - 0x10000) &&& 0x3ff))
        = 0xd800 ||| ((c - 0x10000) &&& 0x3ff) := by
      unfold ecma_char_t
      rw [u1]
      exact Nat.mod_eq_of_lt (by norm_num; omega)
    have c2 : ecma_char_t 16 (0xdc00 ||| ((c - 0x10000) >>> 10))
        = 0xdc00 ||| ((c - 0x10000) >>> 10) := by
      unfold ecma_char_t
      rw [u2]
      exact Nat.mod_eq_of_lt (by norm_num; omega)
    simp only [List.nil_append, c1, c2, uint32_t, List.length_cons, List.length_nil]
    rw [if_neg (by norm_num)]
    have n1 : 0xd800 ||| ((c - 0x10000) &&& 0x3ff) ≠ 0 := by rw [u1]; omega
    have n2 : 0xdc00 ||| ((c - 0x10000) >>> 10) ≠ 0 := by rw [u2]; omega
    rw [new_string_of_nonzero _ (by
      intro x hx
      simp only [List.mem_cons, List.mem_singleton, List.not_mem_nil, or_false] at hx
      rcases hx with rfl | rfl
      · exact n1
      · exact n2)]
  · unfold utf16_surrogate_pair
    rw [show (0xD800 : Nat) = 0xd800 from rfl, show (0xDC00 : Nat) = 0xdc00 from rfl,
      show (0x3FF : Nat) = 0x3ff from rfl, u1, u2, u3, u4, e1, e2]
    constructor
    · intro h
      simp only [List.cons.injEq, and_true] at h
      omega
    · intro h
      rw [h]

theorem C40_surrogate_pair_decoded_witness :
    (0x10000 ≤ 0x10401 ∧ 0x10401 ≤ 0x10ffff)
      ∧ ecma_builtin_global_object_decode_uri_helper 16 (percent_escapes (utf8_form4 0x10401))
          unescaped_uri_set
        = .ok (.normal [0xD800 ||| ((0x10401 - 0x10000) &&& 0x3FF),
            0xDC00 ||| ((0x10401 - 0x10000) >>> 10)]) :=
  ⟨by decide, (C40_surrogate_pair_decoded unescaped_uri_set 0x10401 (by decide)).1⟩

set_option maxRecDepth 100000 in
/-- The four-byte sequence `%F0%90%80%81` encodes U+10001, whose surrogate
pair is D800 DC01; `decodeURI` returns the code units D801 DC00. -/
theorem C40_counterexample :
    percent_escapes (utf8_form4 0x10001) = cstr "%F0%90%80%81"
      ∧ ecma_builtin_global_object_decode_uri 16 (cstr "%F0%90%80%81")
        = .ok (.normal [0xD801, 0xDC00])
      ∧ utf16_surrogate_pair 0x10001 = [0xD800, 0xDC01] := by decide

/-! ## URI encoding: what the helper writes -/

theorem is_in_eq (U : List Nat) (c : Nat) (hc : c < 128) :
    ecma_builtin_global_object_character_is_in c U = .ok (uri_unescaped U c) := by
  unfold ecma_builtin_global_object_character_is_in uri_unescaped
  rw [if_neg (by omega)]
  simp [hc]

set_option maxRecDepth 100000 in
theorem component_set_facts : ∀ c < 128,
    uri_unescaped unescaped_uri_component_set c = true → c ≠ 0 ∧ c ≠ 37 := by decide

set_option maxRecDepth 100000 in
theorem upper_hex_digit_facts : ∀ d < 16,
    is_upper_hex (upper_hex_digit d) = true ∧ upper_hex_digit d ≠ 0
      ∧ upper_hex_digit d < 128 := by decide

theorem lead_or (k i x : Nat) (hx : x < 2 ^ i) : (2 ^ i * k) ||| x = 2 ^ i * k + x :=
  (Nat.mul_add_lt_is_or hx k).symm

theorem utf8_bytes2 (c : Nat) (h : c ≤ 0x7ff) :
    [0xc0 ||| (c >>> 6), 0x80 ||| (c &&& 0x3f)] = utf8_form2 c := by
  have e1 : c >>> 6 = c / 64 := by rw [Nat.shiftRight_eq_div_pow]
  have e2 : c &&& 0x3f = c % 64 := Nat.and_pow_two_sub_one_eq_mod c 6
  have a1 := lead_or 3 6 (c / 64) (by norm_num; omega)
  have a2 := lead_or 1 7 (c % 64) (by norm_num; omega)
  norm_num at a1 a2
  unfold utf8_form2
  rw [e1, e2, a1, a2]
  congr 2 <;> omega

theorem utf8_bytes3 (c : Nat) (h : c ≤ 0xffff) :
    [0xe0 ||| (c >>> 12), 0x80 ||| ((c >>> 6) &&& 0x3f), 0x80 ||| (c &&& 0x3f)]
      = utf8_form3 c := by
  have e0 : c >>> 12 = c / 4096 := by rw [Nat.shiftRight_eq_div_pow]
  have e1 : c >>> 6 = c / 64 := by rw [Nat.shiftRight_eq_div_pow]
  have e2 : c &&& 0x3f = c % 64 := Nat.and_pow_two_sub_one_eq_mod c 6
  have e3 : (c / 64) &&& 0x3f = c / 64 % 64 := Nat.and_pow_two_sub_one_eq_mod (c / 64) 6
  have a0 := lead_or 7 5 (c / 4096) (by norm_num; omega)
  have a1 := lead_or 1 7 (c / 64 % 64) (by norm_num; omega)
  have a2 := lead_or 1 7 (c % 64) (by norm_num; omega)
  norm_num at a0 a1 a2
  unfold utf8_form3
  rw [e0, e1, e2, e3, a0, a1, a2]
  congr 2
  · omega

theorem escapes_lt : ∀ (bs : List Nat), (∀ b ∈ bs, b < 256) →
    (∀ x ∈ percent_escapes bs, x ≠ 0) := by
  intro bs
  induction bs with
  | nil => intro _ x hx; cases hx
  | cons b bs ih =>
    intro h x hx
    have hb := h b (List.mem_cons_self _ _)
    simp only [percent_escapes, percent_escape, List.cons_append, List.nil_append,
      List.mem_cons] at hx
    rcases hx with rfl | rfl | rfl | hx
    · decide
    · exact (upper_hex_digit_facts _ (by omega)).2.1
    · exact (upper_hex_digit_facts _ (by omega)).2.1
    · exact ih (fun y hy => h y (List.mem_cons_of_mem _ hy)) x hx

theorem form2_bytes (c : Nat) : ∀ b ∈ utf8_form2 c, b < 256 := by
  intro b hb
  simp only [utf8_form2, List.mem_cons, List.mem_singleton, List.not_mem_nil, or_false] at hb
  omega

theorem form3_bytes (c : Nat) : ∀ b ∈ utf8_form3 c, b < 256 := by
  intro b hb
  simp only [utf8_form3, List.mem_cons, List.mem_singleton, List.not_mem_nil, or_false] at hb
  omega

theorem encode_unit_length (U : List Nat) (c : Nat) :
    1 ≤ (uri_encode_unit U c).length ∧ (uri_encode_unit U c).length ≤ 9 := by
  unfold uri_encode_unit
  split_ifs <;> simp [percent_escape, percent_escapes, utf8_form2, utf8_form3]

theorem encode_units_length (U : List Nat) : ∀ (s : List Nat),
    s.length ≤ (uri_encode_units U s).length ∧ (uri_encode_units U s).length ≤ 9 * s.length := by
  intro s
  induction s with
  | nil => exact ⟨Nat.le_refl _, Nat.le_refl _⟩
  | cons c s ih =>
    have := encode_unit_length U c
    simp only [uri_encode_units, List.length_append, List.length_cons]
    omega

/-- The second pass of the encoder writes the encoding of each code unit. -/
theorem encode_write_eq (char_bits : Nat) (U : List Nat) (h8 : 8 ≤ char_bits) :
    ∀ (s out : List Nat), (∀ c ∈ s, c < 2 ^ char_bits ∧ c ≤ 0xffff) →
    encode_uri_write char_bits U s out = .ok (out ++ uri_encode_units U s) := by
  intro s
  induction s with
  | nil => intro out _; simp [encode_uri_write, uri_encode_units]
  | cons c s ih =>
    intro out h
    obtain ⟨hc1, hc2⟩ := h c (List.mem_cons_self _ _)
    have hs := fun x hx => h x (List.mem_cons_of_mem c hx)
    have hcast : ecma_char_t char_bits c = c := Nat.mod_eq_of_lt hc1
    rw [encode_uri_write]
    simp only [uri_encode_units, uri_encode_unit]
    by_cases k1 : c ≤ 0x7f
    · rw [if_pos k1, if_pos k1, is_in_eq U c (by omega)]
      cases hu : uri_unescaped U c with
      | true =>
        simp only [if_true, hcast]
        rw [ih _ hs, List.append_assoc]
      | false =>
        simp only [Bool.false_eq_true, if_false]
        rw [bytes_to_hex_eq char_bits h8 [c] (by
          intro b hb; simp only [List.mem_singleton] at hb; omega)]
        simp only [percent_escapes, List.append_nil]
        rw [ih _ hs, List.append_assoc]
    · rw [if_neg k1, if_neg k1]
      by_cases k2 : c ≤ 0x7ff
      · rw [if_pos k2, if_pos k2, utf8_bytes2 c k2,
          bytes_to_hex_eq char_bits h8 _ (form2_bytes c)]
        simp only []
        rw [ih _ hs, List.append_assoc]
      · rw [if_neg k2, if_neg k2, if_pos hc2, utf8_bytes3 c hc2,
          bytes_to_hex_eq char_bits h8 _ (form3_bytes c)]
        simp only []
        rw [ih _ hs, List.append_assoc]

/-- The first pass of the encoder counts the characters of the encoding. -/
theorem encode_count_eq (U : List Nat) : ∀ (s : List Nat) (n : Nat),
    (∀ c ∈ s, c ≤ 0xffff ∧ ¬ (0xd800 ≤ c ∧ c ≤ 0xdfff)) →
    n + (uri_encode_units U s).length < 4294967296 →
    encode_uri_count U s n = .ok (some (n + (uri_encode_units U s).length)) := by
  intro s
  induction s with
  | nil => intro n _ _; simp [encode_uri_count, uri_encode_units]
  | cons c s ih =>
    intro n h hn
    obtain ⟨hc1, hc2⟩ := h c (List.mem_cons_self _ _)
    have hs := fun x hx => h x (List.mem_cons_of_mem c hx)
    simp only [uri_encode_units, List.length_append] at hn ⊢
    have hlen := encode_unit_length U c
    have step : ∀ k, k = (uri_encode_unit U c).length →
        encode_uri_count U s (uint32_t (n + k))
          = .ok (some (n + ((uri_encode_unit U c).length + (uri_encode_units U s).length))) := by
      intro k hk
      have e : uint32_t (n + k) = n + k := Nat.mod_eq_of_lt (by omega)
      rw [e, ih _ hs (by omega), hk, Nat.add_assoc]
    rw [encode_uri_count]
    by_cases k1 : c ≤ 0x7f
    · rw [if_pos k1, is_in_eq U c (by omega)]
      cases hu : uri_unescaped U c with
      | true =>
        simp only []
        exact step 1 (by simp [uri_encode_unit, k1, hu])
      | false =>
        simp only []
        exact step 3 (by simp [uri_encode_unit, k1, hu, percent_escape])
    · rw [if_neg k1]
      by_cases k2 : c ≤ 0x7ff
      · rw [if_pos k2]
        exact step 6 (by simp [uri_encode_unit, k1, k2, percent_escapes, percent_escape, utf8_form2])
      · rw [if_neg k2, if_pos hc1, if_neg (by omega)]
        exact step 9 (by simp [uri_encode_unit, k1, k2, percent_escapes, percent_escape, utf8_form3])

theorem encode_units_nonzero (s : List Nat)
    (h : ∀ c ∈ s, c ≠ 0) :
    ∀ x ∈ uri_encode_units unescaped_uri_component_set s, x ≠ 0 := by
  induction s with
  | nil => intro x hx; cases hx
  | cons c s ih =>
    intro x hx
    simp only [uri_encode_units, List.mem_append] at hx
    rcases hx with hx | hx
    · unfold uri_encode_unit at hx
      split_ifs at hx with k1 k2 k3
      · simp only [List.mem_singleton] at hx
        rw [hx]; exact h c (List.mem_cons_self _ _)
      · have := escapes_lt [c] (by
          intro b hb; simp only [List.mem_singleton] at hb; omega) x
        apply this
        simpa [percent_escapes] using hx
      · exact escapes_lt _ (form2_bytes c) x hx
      · exact escapes_lt _ (form3_bytes c) x hx
    · exact ih (fun y hy => h y (List.mem_cons_of_mem _ hy)) x hx

/-- The encode helper on a string without surrogates: the normal completion
with the encoding of its code units. -/
theorem encode_component_eq (char_bits : Nat) (s : List Nat) (h8 : 8 ≤ char_bits)
    (hs : ∀ c ∈ s, c ≠ 0 ∧ c < 2 ^ char_bits ∧ c ≤ 0xFFFF ∧ ¬ (0xD800 ≤ c ∧ c ≤ 0xDFFF))
    (hlen : 9 * s.length + 1 < 4294967296) :
    ecma_builtin_global_object_encode_uri_component char_bits s
      = .ok (.normal (uri_encode_units unescaped_uri_component_set s)) := by
  have hl := encode_units_length unescaped_uri_component_set s
  unfold ecma_builtin_global_object_encode_uri_component
    ecma_builtin_global_object_encode_uri_helper
  rw [encode_count_eq _ s 1 (fun c hc => ⟨(hs c hc).2.2.1, (hs c hc).2.2.2⟩) (by omega),
    encode_write_eq char_bits _ h8 s [] (fun c hc => ⟨(hs c hc).2.1, (hs c hc).2.2.1⟩)]
  simp only [List.nil_append]
  rw [if_neg (by omega), new_string_of_nonzero _
    (encode_units_nonzero s (fun c hc => (hs c hc).1))]

/-! ## URI decoding: what the helper reads back -/

theorem write_form2 (char_bits : Nat) (R : List Nat) (fuel v : Nat) (rest out : List Nat)
    (hv : v < 0x800) :
    decode_uri_write char_bits R (fuel + 1) (percent_escapes (utf8_form2 v) ++ rest) out
      = decode_uri_write char_bits R fuel rest (out ++ [ecma_char_t char_bits v]) := by
  have hacc : v = utf8_accumulate (if 0xc0 + v / 64 % 32 < 0xe0 then (0xc0 + v / 64 % 32) % 32
      else if 0xc0 + v / 64 % 32 < 0xf0 then (0xc0 + v / 64 % 32) % 16
      else (0xc0 + v / 64 % 32) % 8) [0x80 + v % 64] := by
    rw [if_pos (by omega)]
    simp only [utf8_accumulate, List.foldl_cons, List.foldl_nil]
    omega
  rw [show utf8_form2 v = (0xc0 + v / 64 % 32) :: [0x80 + v % 64] from rfl,
    write_multibyte char_bits R fuel _ _ rest out (by omega)
      (by intro b hb; simp only [List.mem_singleton] at hb; omega)
      (by rw [if_pos (by omega)]; rfl) v hacc (by omega), if_pos (by omega)]

theorem write_form3 (char_bits : Nat) (R : List Nat) (fuel v : Nat) (rest out : List Nat)
    (hv : v < 0x10000) :
    decode_uri_write char_bits R (fuel + 1) (percent_escapes (utf8_form3 v) ++ rest) out
      = decode_uri_write char_bits R fuel rest (out ++ [ecma_char_t char_bits v]) := by
  have hacc : v = utf8_accumulate (if 0xe0 + v / 4096 % 16 < 0xe0 then (0xe0 + v / 4096 % 16) % 32
      else if 0xe0 + v / 4096 % 16 < 0xf0 then (0xe0 + v / 4096 % 16) % 16
      else (0xe0 + v / 4096 % 16) % 8) [0x80 + v / 64 % 64, 0x80 + v % 64] := by
    rw [if_neg (by omega), if_pos (by omega)]
    simp only [utf8_accumulate, List.foldl_cons, List.foldl_nil]
    omega
  rw [show utf8_form3 v = (0xe0 + v / 4096 % 16) :: [0x80 + v / 64 % 64, 0x80 + v % 64] from rfl,
    write_multibyte char_bits R fuel _ _ rest out (by omega)
      (by
        intro b hb
        simp only [List.mem_cons, List.mem_singleton, List.not_mem_nil, or_false] at hb
        omega)
      (by rw [if_neg (by omega), if_pos (by omega)]; rfl) v hacc (by omega), if_pos (by omega)]

theorem count_plain (R : List Nat) (fuel c : Nat) (rest : List Nat) (n : Nat) (hc : c ≠ 37) :
    decode_uri_count R (fuel + 1) (c :: rest) n
      = decode_uri_count R fuel rest (uint32_t (n + 1)) := by
  rw [decode_uri_count]
  simp only [ne_eq, hc, not_false_eq_true, if_true]

theorem write_plain (char_bits : Nat) (R : List Nat) (fuel c : Nat) (rest out : List Nat)
    (hc : c ≠ 37) :
    decode_uri_write char_bits R (fuel + 1) (c :: rest) out
      = decode_uri_write char_bits R fuel rest (out ++ [c]) := by
  rw [decode_uri_write]
  simp only [ne_eq, hc, not_false_eq_true, if_true]

/-- With the component bitset as the reserved set, the escape of a byte below
0x80 is always decoded. -/
theorem count_ascii_escape (fuel c : Nat) (rest : List Nat) (n : Nat) (hc : c ≤ 0x7f) :
    decode_uri_count unescaped_uri_component_set (fuel + 1) (percent_escape c ++ rest) n
      = decode_uri_count unescaped_uri_component_set fuel rest (uint32_t (n + 1)) := by
  rw [escape_cons, decode_uri_count]
  simp only [ne_eq, not_true_eq_false, if_false]
  rw [hex_to_byte_cons_escape c _ (by omega)]
  rw [if_neg (by unfold ECMA_BUILTIN_HEX_TO_BYTE_ERROR; omega), if_pos hc,
    is_in_eq _ c (by omega)]
  simp only [List.drop_succ_cons, List.drop_zero]
  cases uri_unescaped unescaped_uri_component_set c <;> rfl

theorem write_ascii_escape (char_bits fuel c : Nat) (rest out : List Nat) (hc : c ≤ 0x7f) :
    decode_uri_write char_bits unescaped_uri_component_set (fuel + 1)
        (percent_escape c ++ rest) out
      = decode_uri_write char_bits unescaped_uri_component_set fuel rest
          (out ++ [ecma_char_t char_bits c]) := by
  rw [escape_cons, decode_uri_write]
  simp only [ne_eq, not_true_eq_false, if_false]
  rw [hex_to_byte_cons_escape c _ (by omega)]
  rw [if_pos hc, is_in_eq _ c (by omega)]
  simp only [List.drop_succ_cons, List.drop_zero]
  cases uri_unescaped unescaped_uri_component_set c <;> rfl

theorem decode_count_units : ∀ (s : List Nat) (fuel n : Nat), s.length < fuel →
    (∀ c ∈ s, c ≤ 0xffff ∧ ¬ (0xd800 ≤ c ∧ c ≤ 0xdfff)) → n + s.length < 4294967296 →
    decode_uri_count unescaped_uri_component_set fuel
        (uri_encode_units unescaped_uri_component_set s) n
      = .ok (some (n + s.length)) := by
  intro s
  induction s with
  | nil =>
    intro fuel n hf _ _
    obtain ⟨f, rfl⟩ : ∃ f, fuel = f + 1 := ⟨fuel - 1, by simp at hf; omega⟩
    rfl
  | cons c s ih =>
    intro fuel n hf h hn
    obtain ⟨hc1, hc2⟩ := h c (List.mem_cons_self _ _)
    have hs := fun x hx => h x (List.mem_cons_of_mem c hx)
    simp only [List.length_cons] at hf hn
    obtain ⟨f, rfl⟩ : ∃ f, fuel = f + 1 := ⟨fuel - 1, by omega⟩
    have e : uint32_t (n + 1) = n + 1 := Nat.mod_eq_of_lt (by omega)
    have next := ih f (n + 1) (by omega) hs (by omega)
    have fin : n + 1 + s.length = n + (s.length + 1) := by omega
    simp only [uri_encode_units, uri_encode_unit, List.length_cons]
    by_cases k1 : c ≤ 0x7f
    · rw [if_pos k1]
      cases hu : uri_unescaped unescaped_uri_component_set c with
      | true =>
        simp only [if_true, List.cons_append, List.nil_append]
        rw [count_plain _ _ _ _ _ (component_set_facts c (by omega) hu).2, e, next, fin]
      | false =>
        simp only [Bool.false_eq_true, if_false]
        rw [count_ascii_escape _ _ _ _ k1, e, next, fin]
    · rw [if_neg k1]
      by_cases k2 : c ≤ 0x7ff
      · rw [if_pos k2, count_form2 _ _ _ _ _ (by omega), if_neg (by omega), e, next, fin]
      · rw [if_neg k2, count_form3 _ _ _ _ _ (by omega), if_neg (by omega), e, next, fin]

theorem decode_write_units (char_bits : Nat) : ∀ (s : List Nat) (fuel : Nat) (out : List Nat),
    s.length < fuel → (∀ c ∈ s, c < 2 ^ char_bits ∧ c ≤ 0xffff) →
    decode_uri_write char_bits unescaped_uri_component_set fuel
        (uri_encode_units unescaped_uri_component_set s) out
      = .ok (out ++ s) := by
  intro s
  induction s with
  | nil =>
    intro fuel out hf _
    obtain ⟨f, rfl⟩ : ∃ f, fuel = f + 1 := ⟨fuel - 1, by simp at hf; omega⟩
    simp [uri_encode_units, decode_uri_write]
  | cons c s ih =>
    intro fuel out hf h
    obtain ⟨hc1, hc2⟩ := h c (List.mem_cons_self _ _)
    have hs := fun x hx => h x (List.mem_cons_of_mem c hx)
    simp only [List.length_cons] at hf
    obtain ⟨f, rfl⟩ : ∃ f, fuel = f + 1 := ⟨fuel - 1, by omega⟩
    have hcast : ecma_char_t char_bits c = c := Nat.mod_eq_of_lt hc1
    have next := ih f (out ++ [c]) (by omega) hs
    have fin : out ++ [c] ++ s = out ++ c :: s := by simp
    simp only [uri_encode_units, uri_encode_unit]
    by_cases k1 : c ≤ 0x7f
    · rw [if_pos k1]
      cases hu : uri_unescaped unescaped_uri_component_set c with
      | true =>
        simp only [if_true, List.cons_append, List.nil_append]
        rw [write_plain _ _ _ _ _ _ (component_set_facts c (by omega) hu).2, next, fin]
      | false =>
        simp only [Bool.false_eq_true, if_false]
        rw [write_ascii_escape _ _ _ _ _ k1, hcast, next, fin]
    · rw [if_neg k1]
      by_cases k2 : c ≤ 0x7ff
      · rw [if_pos k2, write_form2 _ _ _ _ _ _ (by omega), hcast, next, fin]
      · rw [if_neg k2, write_form3 _ _ _ _ _ _ (by omega), hcast, next, fin]

theorem decode_component_eq (char_bits : Nat) (s : List Nat)
    (hs : ∀ c ∈ s, c ≠ 0 ∧ c < 2 ^ char_bits ∧ c ≤ 0xFFFF ∧ ¬ (0xD800 ≤ c ∧ c ≤ 0xDFFF))
    (hlen : s.length + 1 < 4294967296) :
    ecma_builtin_global_object_decode_uri_component char_bits
        (uri_encode_units unescaped_uri_component_set s)
      = .ok (.normal s) := by
  have hl := encode_units_length unescaped_uri_component_set s
  unfold ecma_builtin_global_object_decode_uri_component
    ecma_builtin_global_object_decode_uri_helper
  rw [decode_count_units s _ 1 (by omega) (fun c hc => ⟨(hs c hc).2.2.1, (hs c hc).2.2.2⟩)
      (by omega),
    decode_write_units char_bits s _ [] (by omega)
      (fun c hc => ⟨(hs c hc).2.1, (hs c hc).2.2.1⟩)]
  simp only [List.nil_append]
  rw [if_neg (by omega), new_string_of_nonzero _ (fun c hc => (hs c hc).1)]

/-! ## C39: decoding an encoded component -/

theorem escaped_form_nil (U : List Nat) : uri_escaped_form U [] := ⟨[], rfl, fun p hp => by cases hp⟩

theorem escaped_form_append (U : List Nat) (a b : List Nat) (ha : uri_escaped_form U a)
    (hb : uri_escaped_form U b) : uri_escaped_form U (a ++ b) := by
  obtain ⟨pa, ea, ha⟩ := ha
  obtain ⟨pb, eb, hb⟩ := hb
  refine ⟨pa ++ pb, by rw [List.flatten_append, ea, eb], fun p hp => ?_⟩
  rcases List.mem_append.mp hp with h | h
  · exact ha p h
  · exact hb p h

theorem escaped_form_escape (U : List Nat) (b : Nat) (hb : b < 256) :
    uri_escaped_form U (percent_escape b) := by
  refine ⟨[percent_escape b], by simp, fun p hp => Or.inr ?_⟩
  simp only [List.mem_singleton] at hp
  exact ⟨_, _, hp, (upper_hex_digit_facts _ (by omega)).1, (upper_hex_digit_facts _ (by omega)).1⟩

theorem escaped_form_escapes (U : List Nat) : ∀ (bs : List Nat), (∀ b ∈ bs, b < 256) →
    uri_escaped_form U (percent_escapes bs) := by
  intro bs
  induction bs with
  | nil => intro _; exact escaped_form_nil U
  | cons b bs ih =>
    intro h
    exact escaped_form_append U _ _ (escaped_form_escape U b (h b (List.mem_cons_self _ _)))
      (ih (fun x hx => h x (List.mem_cons_of_mem _ hx)))

theorem escaped_form_units (U : List Nat) : ∀ (s : List Nat),
    uri_escaped_form U (uri_encode_units U s) := by
  intro s
  induction s with
  | nil => exact escaped_form_nil U
  | cons c s ih =>
    refine escaped_form_append U _ _ ?_ ih
    unfold uri_encode_unit
    split_ifs with k1 k2 k3
    · exact ⟨[[c]], by simp, fun p hp => Or.inl ⟨c, by simpa using hp, k2⟩⟩
    · exact escaped_form_escape U c (by omega)
    · exact escaped_form_escapes U _ (form2_bytes c)
    · exact escaped_form_escapes U _ (form3_bytes c)

/-- C39 (amended): with code units of at least 8 bits, for every string `s` of
code units from 1 to 0xFFFF that contains no surrogate (0xD800 to 0xDFFF) and
whose encoding fits the 32-bit length counter, the encode helper with the
component bitset returns the encoding of `s`, in which every unescaped
character stands for itself and every other code unit is replaced by the
escapes of its UTF-8 bytes; this text consists only of unescaped characters
and of `%` followed by two uppercase hexadecimal digits; and the decode helper
with the component bitset returns `s` for it. -/
theorem C39_component_round_trip (char_bits : Nat) (s : List Nat) (h8 : 8 ≤ char_bits)
    (hs : ∀ c ∈ s, c ≠ 0 ∧ c < 2 ^ char_bits ∧ c ≤ 0xFFFF ∧ ¬ (0xD800 ≤ c ∧ c ≤ 0xDFFF))
    (hlen : 9 * s.length + 1 < 4294967296) :
    ecma_builtin_global_object_encode_uri_component char_bits s
        = .ok (.normal (uri_encode_units unescaped_uri_component_set s))
      ∧ uri_escaped_form unescaped_uri_component_set
          (uri_encode_units unescaped_uri_component_set s)
      ∧ ecma_builtin_global_object_decode_uri_component char_bits
          (uri_encode_units unescaped_uri_component_set s) = .ok (.normal s) :=
  ⟨encode_component_eq char_bits s h8 hs hlen, escaped_form_units _ s,
    decode_component_eq char_bits s hs (by omega)⟩

set_option maxRecDepth 100000 in
theorem C39_component_round_trip_witness :
    (8 ≤ 16 ∧ (∀ c ∈ [97, 32, 0xe9, 0x20ac, 37],
        c ≠ 0 ∧ c < 2 ^ 16 ∧ c ≤ 0xFFFF ∧ ¬ (0xD800 ≤ c ∧ c ≤ 0xDFFF))
      ∧ 9 * [97, 32, 0xe9, 0x20ac, 37].length + 1 < 4294967296)
      ∧ ecma_builtin_global_object_decode_uri_component 16
          (uri_encode_units unescaped_uri_component_set [97, 32, 0xe9, 0x20ac, 37])
        = .ok (.normal [97, 32, 0xe9, 0x20ac, 37]) :=
  ⟨⟨by decide, by decide, by decide⟩,
    (C39_component_round_trip 16 [97, 32, 0xe9, 0x20ac, 37] (by decide) (by decide)
      (by decide)).2.2⟩

set_option maxRecDepth 100000 in
/-- The string `A`, U+0000, `B` is encoded as `A%00B`, and decoding
`A%00B` returns `A` alone: the decoded text is handed over as a
zero-terminated buffer, which ends at the decoded U+0000. The string
`a é €%` of the witness is encoded as `a%20%C3%A9%E2%82%AC%25`. -/
theorem C39_counterexample :
    ecma_builtin_global_object_encode_uri_component 16 [65, 0, 66]
        = .ok (.normal (cstr "A%00B"))
      ∧ ecma_builtin_global_object_decode_uri_component 16 (cstr "A%00B")
        = .ok (.normal [65])
      ∧ uri_encode_units unescaped_uri_component_set [97, 32, 0xe9, 0x20ac, 37]
        = cstr "a%20%C3%A9%E2%82%AC%25" := by decide

end Jerry
